import Mathlib

/-!
# Birth–death phylogeny tracker: transmission tree, reduction, phylogeny builder

A shallow embedding of `tree.hpp`, `simulator.cpp`, `random.cpp` and `pysimBD.cpp`.

* The C++ free store is a partial map from addresses to `LineageTreeNode` records together
  with an allocation counter (`Mem`).  `new` takes the next address, `delete` clears the
  cell, and reading a cleared or never allocated cell is an error.
* Node addresses and lineage identifiers (template parameter `T`, `int` in the simulator)
  are natural numbers.
* `double` times are exact integers: the code only compares and subtracts them.
* `std::unordered_map` / `std::unordered_set` are association lists / lists without
  duplicates; their iteration order is the list order.
* Functions that recurse through pointers take a fuel argument; running out of fuel is the
  error `Err.outOfFuel`, distinct from a failed `assert` and from an invalid access.
-/

namespace PhyloTrack

/-- Ways in which a run of the code can fail to produce a value. -/
inductive Err where
  | nullDeref
  | assertFail
  | outOfBounds
  | outOfFuel
  deriving DecidableEq, Repr

deriving instance DecidableEq for Except

/-- Record `LineageTreeNode<T,U>` of `tree.hpp`. -/
structure LineageTreeNode where
  t : Int
  tSample : Int
  tBranchParent : Int
  locSample : String
  lng : Nat
  data : Int
  parent : Option Nat
  children : List Nat
  extant : Bool
  needed : Bool
  sampled : Bool
  deriving DecidableEq, Repr

/-- Constructor `LineageTreeNode( lng, data, t, extant, parent )`. -/
def mkNode (lng : Nat) (data : Int) (t : Int) (extant : Bool) (parent : Option Nat) :
    LineageTreeNode :=
  { t := t, tSample := 0, tBranchParent := t, locSample := "NA", lng := lng, data := data,
    parent := parent, children := [], extant := extant, needed := false, sampled := false }

/-- The free store: cells and the allocation counter. -/
structure Mem where
  cells : Nat → Option LineageTreeNode
  next : Nat

/-- Dereference a node pointer. -/
def Mem.get (m : Mem) (a : Nat) : Except Err LineageTreeNode :=
  match m.cells a with
  | some n => .ok n
  | none => .error .nullDeref

/-- Overwrite the record at address `a`. -/
def Mem.set (m : Mem) (a : Nat) (n : LineageTreeNode) : Mem :=
  { m with cells := fun b => if b = a then some n else m.cells b }

/-- The `delete` operator. -/
def Mem.free (m : Mem) (a : Nat) : Mem :=
  { m with cells := fun b => if b = a then none else m.cells b }

/-- The `new` operator: the record is stored at the next unused address. -/
def Mem.alloc (m : Mem) (n : LineageTreeNode) : Mem × Nat :=
  ({ cells := fun b => if b = m.next then some n else m.cells b, next := m.next + 1 }, m.next)

/-- The vector part of `eraseChild`: the first entry whose lineage is `target` is swapped
with the back of the vector, which is then popped. -/
def eraseChildList (cells : Nat → Option LineageTreeNode) (target : Nat) :
    List Nat → Except Err (List Nat)
  | [] => .ok []
  | x :: xs =>
    match cells x with
    | none => .error .nullDeref
    | some nx =>
      if nx.lng = target then
        .ok (match xs.getLast? with
             | none => []
             | some l => l :: xs.dropLast)
      else
        match eraseChildList cells target xs with
        | .ok r => .ok (x :: r)
        | .error e => .error e

/-- Method `LineageTreeNode::eraseChild( child )` applied to the node at `node`. -/
def eraseChild (m : Mem) (node child : Nat) : Except Err Mem := do
  let n ← m.get node
  let c ← m.get child
  let cs ← eraseChildList m.cells c.lng n.children
  pure (m.set node { n with children := cs })

/-- Arithmetic of `uint`: increment. -/
def uintInc (n : Nat) : Nat := (n + 1) % 2 ^ 32

/-- Arithmetic of `uint`: decrement. -/
def uintDec (n : Nat) : Nat := (n + 2 ^ 32 - 1) % 2 ^ 32

/-- Lookup in an `unordered_map`. -/
def mapFind (l : List (Nat × Nat)) (k : Nat) : Option Nat :=
  match l with
  | [] => none
  | (k', a) :: rest => if k' = k then some a else mapFind rest k

/-- Assignment `m[k] = a` in an `unordered_map`. -/
def mapSet (l : List (Nat × Nat)) (k : Nat) (a : Nat) : List (Nat × Nat) :=
  match l with
  | [] => [(k, a)]
  | (k', a') :: rest => if k' = k then (k, a) :: rest else (k', a') :: mapSet rest k a

/-- Removal `m.erase( k )` from an `unordered_map`. -/
def mapErase (l : List (Nat × Nat)) (k : Nat) : List (Nat × Nat) :=
  l.filter (fun p => p.1 ≠ k)

/-- Insertion into an `unordered_set`. -/
def setInsert {α : Type} [DecidableEq α] (l : List α) (a : α) : List α :=
  if a ∈ l then l else l ++ [a]

/-- Removal from an `unordered_set`. -/
def setErase {α : Type} [DecidableEq α] (l : List α) (a : α) : List α :=
  l.filter (fun b => b ≠ a)

/-- Class `LineageTree<T,U>` of `tree.hpp`; the nodes it owns live in `mem`. -/
structure LineageTree where
  mem : Mem
  nnodes : Nat
  extantLngs : List (Nat × Nat)
  roots : List Nat
  sampled_lineages : List Nat

/-- Constructor `LineageTree()`: the empty tree. -/
def LineageTree.empty : LineageTree :=
  { mem := { cells := fun _ => none, next := 0 }, nnodes := 0, extantLngs := [],
    roots := [], sampled_lineages := [] }

/-- Look up `extantLngs[lng]`; a missing key yields a null pointer in the source. -/
def LineageTree.extantNode (s : LineageTree) (lng : Nat) : Except Err Nat :=
  match mapFind s.extantLngs lng with
  | some a => .ok a
  | none => .error .nullDeref

/-- Method `addExtantLineage( t, lng, data, lngParent )`. -/
def addExtantLineage (s : LineageTree) (t : Int) (lng : Nat) (data : Int) (lngParent : Nat) :
    Except Err LineageTree := do
  let lngParentNode ← s.extantNode lngParent
  let p ← s.mem.get lngParentNode
  let (m1, lngNode) := s.mem.alloc (mkNode lng data t true (some lngParentNode))
  let m2 := m1.set lngParentNode { p with children := p.children ++ [lngNode] }
  pure { s with mem := m2, extantLngs := mapSet s.extantLngs lng lngNode,
                nnodes := uintInc s.nnodes }

/-- Method `addExtantLineageExternal( t, lng, data )`. -/
def addExtantLineageExternal (s : LineageTree) (t : Int) (lng : Nat) (data : Int) :
    LineageTree :=
  let (m1, lngNode) := s.mem.alloc (mkNode lng data t true none)
  { s with mem := m1, extantLngs := mapSet s.extantLngs lng lngNode,
           roots := setInsert s.roots lngNode, nnodes := uintInc s.nnodes }

/-- Method `mergeParentChild( midNode )`. -/
def mergeParentChild (s : LineageTree) (midNode : Nat) : Except Err LineageTree := do
  let mid ← s.mem.get midNode
  if mid.children.length ≠ 1 then throw .assertFail
  if mid.extant then throw .assertFail
  match mid.children with
  | [] => throw .outOfBounds
  | child :: _ =>
    let c ← s.mem.get child
    match mid.parent with
    | some par =>
      let m1 := s.mem.set child { c with parent := some par }
      let m2 ← eraseChild m1 par midNode
      let p ← m2.get par
      let m3 := m2.set par { p with children := p.children ++ [child] }
      let c3 ← m3.get child
      let mid3 ← m3.get midNode
      let m4 := m3.set child { c3 with tBranchParent := mid3.tBranchParent }
      pure { s with mem := m4.free midNode, nnodes := uintDec s.nnodes }
    | none =>
      let m1 := s.mem.set child { c with parent := none }
      let roots1 := setInsert (setErase s.roots midNode) child
      let c1 ← m1.get child
      let m2 := m1.set child { c1 with tBranchParent := c1.t }
      pure { s with mem := m2.free midNode, roots := roots1, nnodes := uintDec s.nnodes }

/-- Method `notifyParent( parent, child, ignore_sampled )`; `fuel` bounds the recursion
towards the root. -/
def notifyParent : Nat → LineageTree → Nat → Nat → Bool → Except Err LineageTree
  | 0, _, _, _, _ => .error .outOfFuel
  | fuel + 1, s, parent, child, ignore_sampled => do
    let p ← s.mem.get parent
    let c ← s.mem.get child
    let parentExtinct := !p.extant
    let parentSampled := p.sampled
    let childSampled := c.sampled
    let m1 ← if !childSampled then eraseChild s.mem parent child else pure s.mem
    let s1 := { s with mem := m1 }
    if parentExtinct then
      if !parentSampled then
        let p1 ← s1.mem.get parent
        let nChildren := p1.children.length
        if nChildren = 0 then
          let s2 ← match p1.parent with
            | some gp => notifyParent fuel s1 gp parent ignore_sampled
            | none => pure { s1 with roots := setErase s1.roots parent }
          pure { s2 with mem := s2.mem.free parent, nnodes := uintDec s2.nnodes }
        else if nChildren = 1 then
          mergeParentChild s1 parent
        else pure s1
      else pure s1
    else pure s1

/-- Method `removeExtantLineage( lng, ignore_sampled )`.  The recursion of `notifyParent`
is given as much fuel as there are allocated addresses. -/
def removeExtantLineage (s : LineageTree) (lng : Nat) (ignore_sampled : Bool) :
    Except Err LineageTree := do
  let lngNode ← s.extantNode lng
  let n ← s.mem.get lngNode
  let s1 := { s with mem := s.mem.set lngNode { n with extant := false } }
  let s2 ←
    if n.sampled then pure s1
    else if n.children.length = 0 then do
      let s' ← match n.parent with
        | some par => notifyParent (s.mem.next + 1) s1 par lngNode ignore_sampled
        | none => pure { s1 with roots := setErase s1.roots lngNode }
      pure { s' with mem := s'.mem.free lngNode, nnodes := uintDec s'.nnodes }
    else if n.children.length = 1 then mergeParentChild s1 lngNode
    else pure s1
  pure { s2 with extantLngs := mapErase s2.extantLngs lng }

/-- Method `sampleExtantLineage( lng, t, locSample )`; the flag is the returned `bool`. -/
def sampleExtantLineage (s : LineageTree) (lng : Nat) (t : Int) (locSample : String) :
    Except Err (LineageTree × Bool) := do
  let a ← s.extantNode lng
  let n ← s.mem.get a
  if n.sampled then pure (s, false)
  else
    let m1 := s.mem.set a { n with sampled := true, tSample := t, locSample := locSample }
    pure ({ s with mem := m1, sampled_lineages := setInsert s.sampled_lineages lng }, true)

/-- The mutating calls of the public interface of `LineageTree`. -/
inductive Op where
  | addExternal (t : Int) (lng : Nat) (data : Int)
  | add (t : Int) (lng : Nat) (data : Int) (lngParent : Nat)
  | sample (lng : Nat) (t : Int) (locSample : String)
  | remove (lng : Nat) (ignore_sampled : Bool)
  deriving DecidableEq, Repr

/-- Run one call of the public interface. -/
def applyOp (s : LineageTree) : Op → Except Err LineageTree
  | .addExternal t lng data => .ok (addExtantLineageExternal s t lng data)
  | .add t lng data lngParent => addExtantLineage s t lng data lngParent
  | .sample lng t loc =>
    match sampleExtantLineage s lng t loc with
    | .ok (s', _) => .ok s'
    | .error e => .error e
  | .remove lng ig => removeExtantLineage s lng ig

/-- Run a sequence of calls, left to right. -/
def runOps (s : LineageTree) : List Op → Except Err LineageTree
  | [] => .ok s
  | op :: ops =>
    match applyOp s op with
    | .ok s' => runOps s' ops
    | .error e => .error e

/-- Whether some node currently stored in the tree carries lineage `lng`. -/
def lngInTree (s : LineageTree) (lng : Nat) : Bool :=
  (List.range s.mem.next).any (fun a =>
    match s.mem.cells a with
    | some n => decide (n.lng = lng)
    | none => false)

/-- Precondition of a call: an added lineage is not in the tree, a referenced lineage is
a key of `extantLngs`. -/
def opPre (s : LineageTree) : Op → Bool
  | .addExternal _ lng _ => !lngInTree s lng
  | .add _ lng _ lngParent => !lngInTree s lng && (mapFind s.extantLngs lngParent).isSome
  | .sample lng _ _ => (mapFind s.extantLngs lng).isSome
  | .remove lng _ => (mapFind s.extantLngs lng).isSome

/-- A sequence of calls respects the preconditions when each call does so in the state in
which it is made. -/
def validOps (s : LineageTree) : List Op → Bool
  | [] => true
  | op :: ops =>
    opPre s op &&
      (match applyOp s op with
       | .ok s' => validOps s' ops
       | .error _ => true)

/-- Int discipline of a call: a transmission is not dated before the birth of the
infector. -/
def opTimed (s : LineageTree) : Op → Bool
  | .add t _ _ lngParent =>
    match mapFind s.extantLngs lngParent with
    | some a =>
      match s.mem.cells a with
      | some p => decide (p.t ≤ t)
      | none => true
    | none => true
  | _ => true

/-- Int discipline along a sequence of calls. -/
def timedOps (s : LineageTree) : List Op → Bool
  | [] => true
  | op :: ops =>
    opTimed s op &&
      (match applyOp s op with
       | .ok s' => timedOps s' ops
       | .error _ => true)

/-- Structural well-formedness of the node store.  `z`, when present, is a cell that has
been unlinked from the tree and is about to be freed; it is exempt from the conditions. -/
structure Struct (z : Option Nat) (s : LineageTree) : Prop where
  bound : ∀ a, s.mem.next ≤ a → s.mem.cells a = none
  childLive : ∀ a n c, some a ≠ z → s.mem.cells a = some n → c ∈ n.children →
    some c ≠ z ∧ ∃ nc, s.mem.cells c = some nc ∧ nc.parent = some a
  parentLive : ∀ a n p, some a ≠ z → s.mem.cells a = some n → n.parent = some p →
    some p ≠ z ∧ ∃ np, s.mem.cells p = some np ∧ a ∈ np.children
  childNodup : ∀ a n, some a ≠ z → s.mem.cells a = some n → n.children.Nodup
  lngInj : ∀ a b na nb, some a ≠ z → some b ≠ z → s.mem.cells a = some na →
    s.mem.cells b = some nb → na.lng = nb.lng → a = b
  order : ∀ a n p, some a ≠ z → s.mem.cells a = some n → n.parent = some p → p < a
  rootSet : ∀ a, a ∈ s.roots ↔ (some a ≠ z ∧ ∃ n, s.mem.cells a = some n ∧ n.parent = none)

/-- Pruning invariant: an extinct unsampled node keeps at least two children. -/
def Prune (s : LineageTree) : Prop :=
  ∀ a n, s.mem.cells a = some n → n.extant = false → n.sampled = false →
    2 ≤ n.children.length

/-- The extant map holds exactly the extant nodes, keyed by their lineage. -/
def EInv (s : LineageTree) : Prop :=
  ∀ lng a, mapFind s.extantLngs lng = some a ↔
    ∃ n, s.mem.cells a = some n ∧ n.lng = lng ∧ n.extant = true

/-- The sampled set holds exactly the lineages of the sampled nodes. -/
def SInv (s : LineageTree) : Prop :=
  ∀ lng, lng ∈ s.sampled_lineages ↔
    ∃ a n, s.mem.cells a = some n ∧ n.lng = lng ∧ n.sampled = true

/-- Edge times: a node branches off its parent no earlier than the parent's birth and no
later than its own birth. -/
def TimeInv (s : LineageTree) : Prop :=
  ∀ a n, s.mem.cells a = some n →
    n.tBranchParent ≤ n.t ∧
    ∀ p np, n.parent = some p → s.mem.cells p = some np → np.t ≤ n.tBranchParent

/-- Effect of `mergeParentChild` on a node `mid` that has a parent `g` and the single
child `c`: `mid` is freed, `c` is linked to `g` and inherits the branching time of `mid`,
and in the children of `g` the entry `mid` is erased and `c` appended. -/
structure SpliceRel (s s' : LineageTree) (mid c g : Nat) (nm nc ng : LineageTreeNode)
    (cs' : List Nat) : Prop where
  hmid : s.mem.cells mid = some nm
  hc : s.mem.cells c = some nc
  hg : s.mem.cells g = some ng
  hch : nm.children = [c]
  hpar : nm.parent = some g
  hcpar : nc.parent = some mid
  hmem : mid ∈ ng.children
  hlt1 : g < mid
  hlt2 : mid < c
  perm : cs'.Perm (ng.children.erase mid)
  cells : ∀ b, s'.mem.cells b =
    if b = mid then none
    else if b = c then some { nc with parent := some g, tBranchParent := nm.tBranchParent }
    else if b = g then some { ng with children := cs' ++ [c] }
    else s.mem.cells b
  next : s'.mem.next = s.mem.next
  roots : s'.roots = s.roots
  extantLngs : s'.extantLngs = s.extantLngs
  sampled_lineages : s'.sampled_lineages = s.sampled_lineages
  nnodes : s'.nnodes = uintDec s.nnodes

/-- Effect of `mergeParentChild` on a root `mid` with the single child `c`: `mid` is
freed and `c` becomes a root whose branching time is reset to its birth time. -/
structure PromoteRel (s s' : LineageTree) (mid c : Nat) (nm nc : LineageTreeNode) :
    Prop where
  hmid : s.mem.cells mid = some nm
  hc : s.mem.cells c = some nc
  hch : nm.children = [c]
  hpar : nm.parent = none
  hcpar : nc.parent = some mid
  hlt : mid < c
  cells : ∀ b, s'.mem.cells b =
    if b = mid then none
    else if b = c then some { nc with parent := none, tBranchParent := nc.t }
    else s.mem.cells b
  next : s'.mem.next = s.mem.next
  roots : s'.roots = setInsert (setErase s.roots mid) c
  extantLngs : s'.extantLngs = s.extantLngs
  sampled_lineages : s'.sampled_lineages = s.sampled_lineages
  nnodes : s'.nnodes = uintDec s.nnodes

/-- Effect of `eraseChild` when the childless node `x` is erased from the children of its
parent `p`. -/
structure DetachRel (s s' : LineageTree) (x p : Nat) (nx np : LineageTreeNode)
    (cs' : List Nat) : Prop where
  hx : s.mem.cells x = some nx
  hp : s.mem.cells p = some np
  hxpar : nx.parent = some p
  hleaf : nx.children = []
  hmem : x ∈ np.children
  perm : cs'.Perm (np.children.erase x)
  cells : ∀ b, s'.mem.cells b =
    if b = p then some { np with children := cs' } else s.mem.cells b
  next : s'.mem.next = s.mem.next
  roots : s'.roots = s.roots
  extantLngs : s'.extantLngs = s.extantLngs
  sampled_lineages : s'.sampled_lineages = s.sampled_lineages
  nnodes : s'.nnodes = s.nnodes

/-- Effect of `addExtantLineage`: a fresh extant node is stored at the next address and
appended to the children of the node `pa` of the infector. -/
structure AddRel (s s' : LineageTree) (t : Int) (lng : Nat) (data : Int) (pa : Nat)
    (np : LineageTreeNode) : Prop where
  hp : s.mem.cells pa = some np
  cells : ∀ b, s'.mem.cells b =
    if b = pa then some { np with children := np.children ++ [s.mem.next] }
    else if b = s.mem.next then some (mkNode lng data t true (some pa))
    else s.mem.cells b
  next : s'.mem.next = s.mem.next + 1
  roots : s'.roots = s.roots
  extantLngs : s'.extantLngs = mapSet s.extantLngs lng s.mem.next
  sampled_lineages : s'.sampled_lineages = s.sampled_lineages
  nnodes : s'.nnodes = uintInc s.nnodes

/-- Two records agree on everything except the links and the branching time. -/
def SameData (n n' : LineageTreeNode) : Prop :=
  n'.lng = n.lng ∧ n'.t = n.t ∧ n'.tSample = n.tSample ∧ n'.locSample = n.locSample ∧
  n'.data = n.data ∧ n'.extant = n.extant ∧ n'.sampled = n.sampled ∧ n'.needed = n.needed

/-- Frame of the pruning moves: surviving nodes keep their data, and only extinct
unsampled nodes are freed. -/
structure Frame (s s' : LineageTree) : Prop where
  extantLngs : s'.extantLngs = s.extantLngs
  sampled_lineages : s'.sampled_lineages = s.sampled_lineages
  fwd : ∀ b nb', s'.mem.cells b = some nb' → ∃ nb, s.mem.cells b = some nb ∧ SameData nb nb'
  freed : ∀ b nb, s.mem.cells b = some nb → s'.mem.cells b = none →
    nb.extant = false ∧ nb.sampled = false

/-- The possible effects of the body of `removeExtantLineage` on the tree `s1` in which
the removed node `x` (record `nx`) has already been marked extinct; the last argument is
the tree just before the key is erased from `extantLngs`. -/
inductive RemoveStep (s1 : LineageTree) (x : Nat) (nx : LineageTreeNode) :
    LineageTree → Prop where
  | keep (h : nx.sampled = true ∨ 2 ≤ nx.children.length) : RemoveStep s1 x nx s1
  | spliceSelf {s2 : LineageTree} {c g : Nat} {nc ng : LineageTreeNode} {cs' : List Nat}
      (hsam : nx.sampled = false) (r : SpliceRel s1 s2 x c g nx nc ng cs') :
      RemoveStep s1 x nx s2
  | promoteSelf {s2 : LineageTree} {c : Nat} {nc : LineageTreeNode}
      (hsam : nx.sampled = false) (r : PromoteRel s1 s2 x c nx nc) : RemoveStep s1 x nx s2
  | leafRoot (hsam : nx.sampled = false) (hleaf : nx.children = [])
      (hpar : nx.parent = none) :
      RemoveStep s1 x nx
        { s1 with roots := setErase s1.roots x, mem := s1.mem.free x,
                  nnodes := uintDec s1.nnodes }
  | leafKeep {sA : LineageTree} {p : Nat} {np : LineageTreeNode} {cs' : List Nat}
      (hsam : nx.sampled = false) (r : DetachRel s1 sA x p nx np cs')
      (h : np.extant = true ∨ np.sampled = true ∨ 2 ≤ cs'.length) :
      RemoveStep s1 x nx { sA with mem := sA.mem.free x, nnodes := uintDec sA.nnodes }
  | leafSplice {sA sB : LineageTree} {p c g : Nat} {np nc ng : LineageTreeNode}
      {cs' cs'' : List Nat}
      (hsam : nx.sampled = false) (r : DetachRel s1 sA x p nx np cs')
      (hpe : np.extant = false) (hps : np.sampled = false)
      (r2 : SpliceRel sA sB p c g { np with children := cs' } nc ng cs'') :
      RemoveStep s1 x nx { sB with mem := sB.mem.free x, nnodes := uintDec sB.nnodes }
  | leafPromote {sA sB : LineageTree} {p c : Nat} {np nc : LineageTreeNode}
      {cs' : List Nat}
      (hsam : nx.sampled = false) (r : DetachRel s1 sA x p nx np cs')
      (hpe : np.extant = false) (hps : np.sampled = false)
      (r2 : PromoteRel sA sB p c { np with children := cs' } nc) :
      RemoveStep s1 x nx { sB with mem := sB.mem.free x, nnodes := uintDec sB.nnodes }

/-- Effect of `addExtantLineageExternal`: a fresh extant root is stored at the next
address. -/
structure AddRootRel (s s' : LineageTree) (t : Int) (lng : Nat) (data : Int) : Prop where
  cells : ∀ b, s'.mem.cells b =
    if b = s.mem.next then some (mkNode lng data t true none) else s.mem.cells b
  next : s'.mem.next = s.mem.next + 1
  roots : s'.roots = setInsert s.roots s.mem.next
  extantLngs : s'.extantLngs = mapSet s.extantLngs lng s.mem.next
  sampled_lineages : s'.sampled_lineages = s.sampled_lineages
  nnodes : s'.nnodes = uintInc s.nnodes

/-- Effect of a successful first `sampleExtantLineage` on the node `a` of the lineage. -/
structure SampleRel (s s' : LineageTree) (lng : Nat) (t : Int) (loc : String) (a : Nat)
    (n : LineageTreeNode) : Prop where
  ha : s.mem.cells a = some n
  hlng : n.lng = lng
  hsam : n.sampled = false
  cells : ∀ b, s'.mem.cells b =
    if b = a then some { n with sampled := true, tSample := t, locSample := loc }
    else s.mem.cells b
  next : s'.mem.next = s.mem.next
  roots : s'.roots = s.roots
  extantLngs : s'.extantLngs = s.extantLngs
  sampled_lineages : s'.sampled_lineages = setInsert s.sampled_lineages lng
  nnodes : s'.nnodes = s.nnodes

/-- The invariants of the tree manager that hold between public calls. -/
structure Inv (s : LineageTree) : Prop where
  struct : Struct none s
  prune : Prune s
  einv : EInv s
  sinv : SInv s
  noNeeded : ∀ a n, s.mem.cells a = some n → n.needed = false

/-- Sampled nodes of `s` are still stored in `s'`, with the same sampling record. -/
def KeepsSampled (s s' : LineageTree) : Prop :=
  ∀ a n, s.mem.cells a = some n → n.sampled = true →
    ∃ n', s'.mem.cells a = some n' ∧ n'.sampled = true ∧ n'.lng = n.lng ∧
      n'.tSample = n.tSample ∧ n'.locSample = n.locSample

/-- A sample run of the tree manager: a root with two children and a grandchild, of which
the root and one child die unsampled and the other two lineages are sampled. -/
def exampleOps : List Op :=
  [.addExternal 0 1 0, .add 1 2 0 1, .add 2 3 0 1, .add 3 4 0 2, .remove 1 false,
   .sample 4 5 "@", .remove 2 false, .sample 3 6 "@", .remove 3 false, .remove 4 false]

/-- Loop `for ( auto child : node->children ) getSampledLineagesRecursive( child, lngs )`,
with the recursive call passed as `rec`. -/
def sampledLoop (rec : Nat → List Nat → Except Err (List Nat)) :
    List Nat → List Nat → Except Err (List Nat)
  | [], lngs => .ok lngs
  | child :: rest, lngs =>
    match rec child lngs with
    | .ok lngs1 => sampledLoop rec rest lngs1
    | .error e => .error e

/-- Method `getSampledLineagesRecursive( node, lngs )`: appends to `lngs` the sampled
lineages found below `node`, in depth-first order. -/
def getSampledLineagesRecursive : Nat → Mem → Nat → List Nat → Except Err (List Nat)
  | 0, _, _, _ => .error .outOfFuel
  | fuel + 1, m, node, lngs =>
    match m.get node with
    | .error e => .error e
    | .ok n =>
      sampledLoop (getSampledLineagesRecursive fuel m) n.children
        (if n.sampled then lngs ++ [n.lng] else lngs)

/-- Method `getSampledLineages( rootNode )`. -/
def getSampledLineages (fuel : Nat) (m : Mem) (rootNode : Nat) : Except Err (List Nat) :=
  match m.get rootNode with
  | .error e => .error e
  | .ok n =>
    if n.parent ≠ none then .ok []
    else getSampledLineagesRecursive fuel m rootNode []

/-- The loops over `node->children` in `markNodeNeeded`, with the recursive call passed as
`rec`.  With `acc` the result of each call is or-ed into `node->needed`; without it the
result is dropped. -/
def markLoop (rec : Mem → Nat → Except Err (Mem × Bool)) (node : Nat) (acc : Bool) :
    Mem → List Nat → Except Err Mem
  | m, [] => .ok m
  | m, child :: rest =>
    match rec m child with
    | .error e => .error e
    | .ok (m1, isChildNeeded) =>
      if acc then
        match m1.get node with
        | .error e => .error e
        | .ok nn =>
          markLoop rec node acc
            (m1.set node { nn with needed := nn.needed || isChildNeeded }) rest
      else markLoop rec node acc m1 rest

/-- The statement `return node->needed ;` that ends `markNodeNeeded`, after the loop over
the children (whose outcome is `r`). -/
def markFinish (node : Nat) (r : Except Err Mem) : Except Err (Mem × Bool) :=
  match r with
  | .error e => .error e
  | .ok m2 =>
    match m2.get node with
    | .error e => .error e
    | .ok n2 => .ok (m2, n2.needed)

/-- Method `markNodeNeeded( node, neededLngs )`; returns the memory with the updated
`needed` flags and the returned `bool`. -/
def markNodeNeeded : Nat → Mem → Nat → List Nat → Except Err (Mem × Bool)
  | 0, _, _, _ => .error .outOfFuel
  | fuel + 1, m, node, neededLngs =>
    match m.get node with
    | .error e => .error e
    | .ok n =>
      let loop := markLoop (fun m' c => markNodeNeeded fuel m' c neededLngs) node
      if n.extant then
        let needed := (neededLngs.contains n.lng) || n.sampled
        if needed then
          markFinish node (loop false (m.set node { n with needed := true }) n.children)
        else
          markFinish node (loop true m n.children)
      else
        let m1 := m.set node { n with needed := false }
        let m1' := if n.sampled then m.set node { n with needed := true } else m1
        markFinish node (loop true m1' n.children)

/-- The loop over `node->children` in `extractSubTree`, with the recursive call passed as
`rec`: every needed child is copied and the copy appended to the children of `newNode`. -/
def extractLoop (rec : Mem → Nat → Except Err (Mem × Nat)) (newNode : Nat) :
    Mem → List Nat → Except Err Mem
  | m, [] => .ok m
  | m, child :: rest =>
    match m.get child with
    | .error e => .error e
    | .ok c =>
      if c.needed then
        match rec m child with
        | .error e => .error e
        | .ok (m1, newChild) =>
          match m1.get newNode with
          | .error e => .error e
          | .ok nn =>
            extractLoop rec newNode
              (m1.set newNode { nn with children := nn.children ++ [newChild] }) rest
      else extractLoop rec newNode m rest

/-- Method `extractSubTree( node, parent )`: deep copy of `node` restricted to the needed
children; returns the memory and the address of the copy. -/
def extractSubTree : Nat → Mem → Nat → Option Nat → Except Err (Mem × Nat)
  | 0, _, _, _ => .error .outOfFuel
  | fuel + 1, m, node, parent =>
    match m.get node with
    | .error e => .error e
    | .ok n =>
      let (m1, newNode) := m.alloc (mkNode n.lng n.data n.t n.extant parent)
      let m2 := m1.set newNode
        { mkNode n.lng n.data n.t n.extant parent with
          sampled := n.sampled, tSample := n.tSample, locSample := n.locSample,
          tBranchParent := n.tBranchParent }
      match extractLoop (fun m' c => extractSubTree fuel m' c (some newNode)) newNode m2
          n.children with
      | .error e => .error e
      | .ok m3 => .ok (m3, newNode)

/-- Function `findRoot( lngNode )`. -/
def findRoot : Nat → Mem → Nat → Except Err Nat
  | 0, _, _ => .error .outOfFuel
  | fuel + 1, m, lngNode =>
    match m.get lngNode with
    | .error e => .error e
    | .ok n =>
      match n.parent with
      | none => .ok lngNode
      | some p => findRoot fuel m p

/-- The loop over `node->children` in `findLeaves`. -/
def leavesLoop (rec : List Nat → Nat → Except Err (List Nat)) :
    List Nat → List Nat → Except Err (List Nat)
  | leaves, [] => .ok leaves
  | leaves, child :: rest =>
    match rec leaves child with
    | .error e => .error e
    | .ok leaves1 => leavesLoop rec leaves1 rest

/-- Function `findLeaves( leaves, node )`. -/
def findLeaves : Nat → Mem → List Nat → Nat → Except Err (List Nat)
  | 0, _, _, _ => .error .outOfFuel
  | fuel + 1, m, leaves, node =>
    match m.get node with
    | .error e => .error e
    | .ok n =>
      if n.children.length = 0 then .ok (setInsert leaves node)
      else leavesLoop (findLeaves fuel m) leaves n.children

/-- The statements of `removeRedundantNodeMerge` that promote the only child of a root
`midNode` to a root (before `delete midNode`). -/
def promoteOnlyChild (m : Mem) (child : Nat) : Except Err Mem :=
  match m.get child with
  | .error e => .error e
  | .ok c =>
    let m1 := m.set child { c with parent := none }
    match m1.get child with
    | .error e => .error e
    | .ok c1 => .ok (m1.set child { c1 with tBranchParent := c1.t })

/-- The statements of `removeRedundantNodeMerge` that hand the only child of `midNode`
over to the parent `par` of `midNode` (before the recursive call); also returns the
pointer `midNode->parent` that the recursive call receives. -/
def adoptOnlyChild (m : Mem) (midNode child par : Nat) : Except Err (Mem × Option Nat) :=
  match m.get child with
  | .error e => .error e
  | .ok c =>
    let m1 := m.set child { c with parent := some par }
    match eraseChild m1 par midNode with
    | .error e => .error e
    | .ok m2 =>
      match m2.get par with
      | .error e => .error e
      | .ok p =>
        let m3 := m2.set par { p with children := p.children ++ [child] }
        match m3.get child, m3.get midNode with
        | .ok c3, .ok mid3 =>
          .ok (m3.set child { c3 with tBranchParent := mid3.tBranchParent }, mid3.parent)
        | .error e, _ => .error e
        | _, .error e => .error e

/-- Function `removeRedundantNodeMerge( midNode, sampledLngs )`; `none` is the null
pointer. -/
def removeRedundantNodeMerge : Nat → Mem → Option Nat → List Nat → Except Err Mem
  | 0, _, _, _ => .error .outOfFuel
  | _ + 1, m, none, _ => .ok m
  | fuel + 1, m, some midNode, sampledLngs =>
    match m.get midNode with
    | .error e => .error e
    | .ok mid =>
      let up : Except Err Mem :=
        match mid.parent with
        | some _ => removeRedundantNodeMerge fuel m mid.parent sampledLngs
        | none => .ok m
      if mid.children.length = 1 then
        let isSampled := sampledLngs.contains mid.lng
        if !isSampled then
          match mid.children with
          | [] => .error .outOfBounds
          | child :: _ =>
            match mid.parent with
            | none =>
              match promoteOnlyChild m child with
              | .error e => .error e
              | .ok m2 => .ok (m2.free midNode)
            | some par =>
              match adoptOnlyChild m midNode child par with
              | .error e => .error e
              | .ok (m4, parent) =>
                match removeRedundantNodeMerge fuel m4 parent sampledLngs with
                | .error e => .error e
                | .ok m5 => .ok (m5.free midNode)
        else up
      else up

/-- The loop `for ( auto leaf : leaves ) removeRedundantNodeMerge( leaf->parent, ... )`. -/
def eliminateLoop (fuel : Nat) (sampledLngs : List Nat) : Mem → List Nat → Except Err Mem
  | m, [] => .ok m
  | m, leaf :: rest =>
    match m.get leaf with
    | .error e => .error e
    | .ok l =>
      match removeRedundantNodeMerge fuel m l.parent sampledLngs with
      | .error e => .error e
      | .ok m1 => eliminateLoop fuel sampledLngs m1 rest

/-- Function `eliminateRedundantNodes( root, sampledLngs )`.  The leaves are kept in an
`unordered_set` of pointers, whose iteration order is unspecified: `ord` stands for that
order (it rearranges the list of leaves found by `findLeaves`). -/
def eliminateRedundantNodes (ord : List Nat → List Nat) (fuel : Nat) (m : Mem) (root : Nat)
    (sampledLngs : List Nat) : Except Err (Mem × Nat) :=
  match findLeaves fuel m [] root with
  | .error e => .error e
  | .ok found =>
    let leaves := ord found
    match eliminateLoop fuel sampledLngs m leaves with
    | .error e => .error e
    | .ok m1 =>
      match leaves with
      | [] => .error .nullDeref
      | first :: _ =>
        match findRoot fuel m1 first with
        | .error e => .error e
        | .ok r => .ok (m1, r)

/-- The body of the loop over `roots` in `subSampleTree`; the recursions get as much fuel
as there are allocated addresses. -/
def subSampleRoot (ord : List Nat → List Nat) (m : Mem) (rootNode : Nat) :
    Except Err (Mem × Option Nat) :=
  match getSampledLineages (m.next + 1) m rootNode with
  | .error e => .error e
  | .ok selectedLngs =>
    if selectedLngs.length > 0 then
      match markNodeNeeded (m.next + 1) m rootNode selectedLngs with
      | .error e => .error e
      | .ok (m1, _) =>
        match extractSubTree (m1.next + 1) m1 rootNode none with
        | .error e => .error e
        | .ok (m2, subTreeRoot) =>
          match eliminateRedundantNodes ord (m2.next + 1) m2 subTreeRoot selectedLngs with
          | .error e => .error e
          | .ok (m3, subTreeRoot') => .ok (m3, some subTreeRoot')
    else .ok (m, none)

/-- The loop over `roots` in `subSampleTree`. -/
def subSampleLoop (ord : List Nat → List Nat) : Mem → List Nat → List Nat →
    Except Err (Mem × List Nat)
  | m, res, [] => .ok (m, res)
  | m, res, rootNode :: rest =>
    match subSampleRoot ord m rootNode with
    | .error e => .error e
    | .ok (m1, none) => subSampleLoop ord m1 res rest
    | .ok (m1, some r) => subSampleLoop ord m1 (res ++ [r]) rest

/-- Method `subSampleTree()`: returns the tree manager (whose memory now also holds the
copies) and the roots of the reduced trees. -/
def subSampleTree (ord : List Nat → List Nat) (s : LineageTree) :
    Except Err (LineageTree × List Nat) :=
  match subSampleLoop ord s.mem [] s.roots with
  | .error e => .error e
  | .ok (m, res) => .ok ({ s with mem := m }, res)

/-- A transmission tree as seen from one of its nodes by `getAncestralTree`: the record of
the node and the subtrees of its children, in the order of the vector `children`. -/
inductive LTree where
  | mk (node : LineageTreeNode) (kids : List LTree)

/-- Record of the root of a tree. -/
def LTree.node : LTree → LineageTreeNode
  | .mk n _ => n

/-- Subtrees of the children of the root. -/
def LTree.kids : LTree → List LTree
  | .mk _ ks => ks

/-- Struct `PhyloNode<T,U>` of `tree.hpp` (the `parent` pointer is implicit in the
nesting). -/
inductive PhyloNode where
  | mk (lng : Nat) (data : Int) (locSample : String) (t dt : Int)
      (depth depthChild depthAttachSampledNode : Nat)
      (leftChild rightChild : Option PhyloNode)

/-- The fields of `phyloParent` that `getAncestralTree` reads. -/
structure PhyloParent where
  lng : Nat
  depth : Nat
  depthChild : Nat
  depthAttachSampledNode : Nat
  t : Int
  deriving DecidableEq, Repr

/-- The value `-1` stored in the `uint` field `depthAttachSampledNode` by the
constructor. -/
def uintMinusOne : Nat := 4294967295

/-- Comparison used by `std::sort` in `getAncestralTree`, as a non-strict order. -/
def kidLe (a b : LTree) : Prop := a.node.tBranchParent ≤ b.node.tBranchParent

instance kidLeDecidable : DecidableRel kidLe :=
  fun a b => inferInstanceAs (Decidable (a.node.tBranchParent ≤ b.node.tBranchParent))

/-- The call of `std::sort` on `node->children` (ascending `tBranchParent`). -/
def sortKids (ks : List LTree) : List LTree := ks.insertionSort kidLe

/-- The loop that computes `depthAttachSampledNode`: the number of leading children with
`tBranchParent ≤ tSample`. -/
def attachDepth (tSample : Int) : List LTree → Nat
  | [] => 0
  | c :: rest => if tSample < c.node.tBranchParent then 0 else attachDepth tSample rest + 1

/-- Branch length with the `assert( newNode->t >= phyloParent->t )`. -/
def branchLength (t : Int) : Option PhyloParent → Except Err Int
  | none => .ok 0
  | some pp => if pp.t ≤ t then .ok (t - pp.t) else .error .assertFail

/-- Indexing `children_sorted[ i ]`. -/
def kidAt (ks : List LTree) (i : Nat) : Except Err LTree :=
  match ks.get? i with
  | some k => .ok k
  | none => .error .outOfBounds

/-- The counters `depth`, `depthChild` and `depthAttachSampledNode` of a new phylogeny
node. -/
structure ChainState where
  depth : Nat
  depthChild : Nat
  attach : Nat
  deriving DecidableEq, Repr

/-- Initialisation of the counters of `newNode`: they continue those of `phyloParent` when
it carries the same lineage, and start afresh otherwise. -/
def entryState (n : LineageTreeNode) : Option PhyloParent → ChainState
  | some pp =>
    if n.lng = pp.lng then
      { depth := pp.depth + 1, depthChild := pp.depthChild,
        attach := pp.depthAttachSampledNode }
    else { depth := 0, depthChild := 0, attach := uintMinusOne }
  | none => { depth := 0, depthChild := 0, attach := uintMinusOne }

/-- A phylogeny node without children carrying the sampling location of `n`. -/
def phyloLeaf (n : LineageTreeNode) (t dt : Int) (depth depthChild attach : Nat) :
    PhyloNode :=
  .mk n.lng n.data n.locSample t dt depth depthChild attach none none

/-- A phylogeny node with two children (its location stays `"NA"`). -/
def phyloInner (n : LineageTreeNode) (t dt : Int) (depth depthChild attach : Nat)
    (l r : PhyloNode) : PhyloNode :=
  .mk n.lng n.data "NA" t dt depth depthChild attach (some l) (some r)

/-- The record of `newNode` as seen by the recursive calls. -/
def asParent (n : LineageTreeNode) (depth depthChild attach : Nat) (t : Int) : PhyloParent :=
  { lng := n.lng, depth := depth, depthChild := depthChild,
    depthAttachSampledNode := attach, t := t }

/-- Branch `nChildren == 0` of `getAncestralTree`. -/
def gatLeaf (n : LineageTreeNode) (ks : List LTree) (pp : Option PhyloParent)
    (st : ChainState) : Except Err (LTree × PhyloNode) :=
  if !n.sampled then .error .assertFail
  else
    match branchLength n.tSample pp with
    | .error e => .error e
    | .ok dt => .ok (.mk n ks, phyloLeaf n n.tSample dt st.depth st.depthChild st.attach)

/-- Branch `depth == depthAttachSampledNode` of `getAncestralTree` (sampled node, sampled
before some child branches off): the sampled leaf is attached on the right. -/
def gatAttach (rec : LTree → Option PhyloParent → Except Err (LTree × PhyloNode))
    (n : LineageTreeNode) (ks : List LTree) (nChildren : Nat) (pp : Option PhyloParent)
    (st : ChainState) (attach : Nat) : Except Err (LTree × PhyloNode) :=
  match branchLength n.tSample pp with
  | .error e => .error e
  | .ok dt =>
    let sampledNode := phyloLeaf n n.tSample 0 (st.depth + 1) 0 uintMinusOne
    if st.depthChild = nChildren - 1 then
      match kidAt ks st.depthChild with
      | .error e => .error e
      | .ok child =>
        match rec child (some (asParent n st.depth (st.depthChild + 1) attach n.tSample)) with
        | .error e => .error e
        | .ok (child', left) =>
          .ok (.mk n (ks.set st.depthChild child'),
               phyloInner n n.tSample dt st.depth (st.depthChild + 1) attach left sampledNode)
    else
      match rec (.mk n ks) (some (asParent n st.depth st.depthChild attach n.tSample)) with
      | .error e => .error e
      | .ok (node', left) =>
        .ok (node', phyloInner n n.tSample dt st.depth st.depthChild attach left sampledNode)

/-- Branch `depth != depthAttachSampledNode` of `getAncestralTree` (sampled node, sampled
before some child branches off): the next child is attached on the left. -/
def gatStep (rec : LTree → Option PhyloParent → Except Err (LTree × PhyloNode))
    (n : LineageTreeNode) (ks : List LTree) (nChildren : Nat) (pp : Option PhyloParent)
    (st : ChainState) (attach : Nat) : Except Err (LTree × PhyloNode) :=
  match kidAt ks st.depthChild with
  | .error e => .error e
  | .ok child =>
    let t := child.node.tBranchParent
    match branchLength t pp with
    | .error e => .error e
    | .ok dt =>
      let me := asParent n st.depth (st.depthChild + 1) attach t
      match rec child (some me) with
      | .error e => .error e
      | .ok (child', left) =>
        let kids1 := ks.set st.depthChild child'
        if st.depth = nChildren - 1 then
          match kidAt kids1 (st.depthChild + 1) with
          | .error e => .error e
          | .ok child2 =>
            match rec child2 (some me) with
            | .error e => .error e
            | .ok (child2', right) =>
              .ok (.mk n (kids1.set (st.depthChild + 1) child2'),
                   phyloInner n t dt st.depth (st.depthChild + 1) attach left right)
        else
          match rec (.mk n kids1) (some me) with
          | .error e => .error e
          | .ok (node', right) =>
            .ok (node', phyloInner n t dt st.depth (st.depthChild + 1) attach left right)

/-- Branch of `getAncestralTree` for a sampled node that is sampled after all its children
have branched off: the sampled leaf closes the chain. -/
def gatLate (rec : LTree → Option PhyloParent → Except Err (LTree × PhyloNode))
    (n : LineageTreeNode) (ks : List LTree) (nChildren : Nat) (pp : Option PhyloParent)
    (st : ChainState) (attach : Nat) : Except Err (LTree × PhyloNode) :=
  match kidAt ks st.depth with
  | .error e => .error e
  | .ok child =>
    let t := child.node.tBranchParent
    match branchLength t pp with
    | .error e => .error e
    | .ok dt =>
      let me := asParent n st.depth st.depthChild attach t
      if st.depth < nChildren - 1 then
        match rec child (some me) with
        | .error e => .error e
        | .ok (child', left) =>
          match rec (.mk n (ks.set st.depth child')) (some me) with
          | .error e => .error e
          | .ok (node', right) =>
            .ok (node', phyloInner n t dt st.depth st.depthChild attach left right)
      else
        let sampledNode :=
          phyloLeaf n n.tSample (n.tSample - t) (st.depth + 1) 0 uintMinusOne
        match rec child (some me) with
        | .error e => .error e
        | .ok (child', left) =>
          .ok (.mk n (ks.set st.depth child'),
               phyloInner n t dt st.depth st.depthChild attach left sampledNode)

/-- Branch of `getAncestralTree` for an unsampled node with children. -/
def gatUnsampled (rec : LTree → Option PhyloParent → Except Err (LTree × PhyloNode))
    (n : LineageTreeNode) (ks : List LTree) (nChildren : Nat) (pp : Option PhyloParent)
    (st : ChainState) : Except Err (LTree × PhyloNode) :=
  if nChildren < 2 then .error .assertFail
  else if st.depth = nChildren then .error .assertFail
  else
    match kidAt ks st.depth with
    | .error e => .error e
    | .ok child =>
      let t := child.node.tBranchParent
      match branchLength t pp with
      | .error e => .error e
      | .ok dt =>
        let me := asParent n st.depth st.depthChild st.attach t
        if st.depth < nChildren - 2 then
          match rec child (some me) with
          | .error e => .error e
          | .ok (child', left) =>
            match rec (.mk n (ks.set st.depth child')) (some me) with
            | .error e => .error e
            | .ok (node', right) =>
              .ok (node', phyloInner n t dt st.depth st.depthChild st.attach left right)
        else
          match kidAt ks (st.depth + 1) with
          | .error e => .error e
          | .ok child2 =>
            match rec child (some me) with
            | .error e => .error e
            | .ok (child', left) =>
              match rec child2 (some me) with
              | .error e => .error e
              | .ok (child2', right) =>
                .ok (.mk n ((ks.set st.depth child').set (st.depth + 1) child2'),
                     phyloInner n t dt st.depth st.depthChild st.attach left right)

/-- Function `getAncestralTree( node, phyloParent )`.  Returns the transmission tree after
the call (the vectors `children` are sorted in place) and the phylogeny. -/
def getAncestralTree : Nat → LTree → Option PhyloParent → Except Err (LTree × PhyloNode)
  | 0, _, _ => .error .outOfFuel
  | fuel + 1, .mk n kids, pp =>
    let st := entryState n pp
    let nChildren := kids.length
    let children_sorted := if 1 < nChildren ∧ st.depth = 0 then sortKids kids else kids
    if nChildren = 0 then gatLeaf n children_sorted pp st
    else if n.sampled then
      let attach := if st.depth = 0 then attachDepth n.tSample children_sorted else st.attach
      if attach < nChildren then
        if st.depth = attach then
          gatAttach (getAncestralTree fuel) n children_sorted nChildren pp st attach
        else gatStep (getAncestralTree fuel) n children_sorted nChildren pp st attach
      else gatLate (getAncestralTree fuel) n children_sorted nChildren pp st attach
    else gatUnsampled (getAncestralTree fuel) n children_sorted nChildren pp st

mutual
/-- Every node of the tree satisfies the local condition `Q` (on its record and the
subtrees of its children). -/
def LTree.all (Q : LineageTreeNode → List LTree → Bool) : LTree → Bool
  | .mk n ks => Q n ks && LTree.allList Q ks
/-- Every node of every tree of the list satisfies `Q`. -/
def LTree.allList (Q : LineageTreeNode → List LTree → Bool) : List LTree → Bool
  | [] => true
  | t :: ts => LTree.all Q t && LTree.allList Q ts
end

/-- No child carries the lineage of its parent. -/
def edgeDistinctQ (n : LineageTreeNode) (ks : List LTree) : Bool :=
  ks.all (fun k => decide (k.node.lng ≠ n.lng))

/-- An unsampled node has at least two children (in particular every leaf is sampled). -/
def shapeQ (n : LineageTreeNode) (ks : List LTree) : Bool :=
  n.sampled || decide (2 ≤ ks.length)

/-- Every child branches off between the birth of the parent and its own birth, and a
sampled node is sampled no earlier than its birth. -/
def timeQ (n : LineageTreeNode) (ks : List LTree) : Bool :=
  ks.all (fun k => decide (n.t ≤ k.node.tBranchParent) &&
    decide (k.node.tBranchParent ≤ k.node.t)) &&
  (!n.sampled || decide (n.t ≤ n.tSample))

mutual
/-- Lineages of the sampled nodes of a transmission tree (one entry per sampled node). -/
def LTree.sampledLngs : LTree → List Nat
  | .mk n ks => (if n.sampled then [n.lng] else []) ++ LTree.sampledLngsList ks
/-- Lineages of the sampled nodes of a list of trees. -/
def LTree.sampledLngsList : List LTree → List Nat
  | [] => []
  | t :: ts => LTree.sampledLngs t ++ LTree.sampledLngsList ts
end

/-- Event time of a phylogeny node. -/
def PhyloNode.t : PhyloNode → Int
  | .mk _ _ _ t _ _ _ _ _ _ => t

/-- Lineages at the leaves (nodes without children) of a phylogeny, left to right. -/
def PhyloNode.leafLngs : PhyloNode → List Nat
  | .mk lng _ _ _ _ _ _ _ none none => [lng]
  | .mk _ _ _ _ _ _ _ _ (some l) none => l.leafLngs
  | .mk _ _ _ _ _ _ _ _ none (some r) => r.leafLngs
  | .mk _ _ _ _ _ _ _ _ (some l) (some r) => l.leafLngs ++ r.leafLngs

/-- Every node has either two children or none. -/
def PhyloNode.strictlyBinary : PhyloNode → Bool
  | .mk _ _ _ _ _ _ _ _ none none => true
  | .mk _ _ _ _ _ _ _ _ (some l) (some r) => l.strictlyBinary && r.strictlyBinary
  | _ => false

/-- On every edge of the phylogeny the child is not earlier than the parent. -/
def PhyloNode.timeMonotone : PhyloNode → Bool
  | .mk _ _ _ _ _ _ _ _ none none => true
  | .mk _ _ _ t _ _ _ _ (some l) none => decide (t ≤ l.t) && l.timeMonotone
  | .mk _ _ _ t _ _ _ _ none (some r) => decide (t ≤ r.t) && r.timeMonotone
  | .mk _ _ _ t _ _ _ _ (some l) (some r) =>
    decide (t ≤ l.t) && l.timeMonotone && (decide (t ≤ r.t) && r.timeMonotone)

/-- A transmission-tree record with the given lineage, birth, branching and sampling
times; `sampled` tells whether the sampling time is meaningful. -/
def tnode (lng : Nat) (t tBranchParent : Int) (sampled : Bool) (tSample : Int) :
    LineageTreeNode :=
  { mkNode lng 0 t false none with
    tBranchParent := tBranchParent, sampled := sampled, tSample := tSample,
    locSample := if sampled then "@" else "NA" }

/-- A transmission tree in which a child carries the lineage of its parent: the sampled
root `1` (sampled at 10) has the children `1` (branching at 5, sampled at 6) and `2`
(branching at 6); the child `1` has the sampled leaves `3` and `4` that branch at 8 and 7. -/
def clashTree : LTree :=
  .mk (tnode 1 0 0 true 10)
    [.mk (tnode 1 5 5 true 6)
       [.mk (tnode 3 8 8 true 9) [], .mk (tnode 4 7 7 true 9) []],
     .mk (tnode 2 6 6 true 9) []]

/-- Every branch length `dt` of the phylogeny is non-negative. -/
def PhyloNode.dtNonneg : PhyloNode → Bool
  | .mk _ _ _ _ dt _ _ _ none none => decide (0 ≤ dt)
  | .mk _ _ _ _ dt _ _ _ (some l) none => decide (0 ≤ dt) && l.dtNonneg
  | .mk _ _ _ _ dt _ _ _ none (some r) => decide (0 ≤ dt) && r.dtNonneg
  | .mk _ _ _ _ dt _ _ _ (some l) (some r) => decide (0 ≤ dt) && l.dtNonneg && r.dtNonneg

/-- The children in `ks` do not carry the lineage of `n`, and no node below them shares
the lineage of its parent. -/
def GoodKids (n : LineageTreeNode) (ks : List LTree) : Prop :=
  ∀ c ∈ ks, c.node.lng ≠ n.lng ∧ c.all edgeDistinctQ = true

/-- What is established about a phylogeny `p` built under `phyloParent`: it is strictly
binary, times do not decrease along its edges, no branch length is negative, its leaves
carry the lineages `E`, and its root is not earlier than `phyloParent`. -/
def GatPost (pp : Option PhyloParent) (E : List Nat) (p : PhyloNode) : Prop :=
  p.strictlyBinary = true ∧ p.timeMonotone = true ∧ p.dtNonneg = true ∧ p.leafLngs.Perm E ∧
    ∀ q, pp = some q → q.t ≤ p.t

/-- State of the chain of phylogeny nodes of one transmission-tree node at a recursive
call on the same node: which children are still to be attached and whether the sampled
leaf is; `E` lists the lineages still to appear at leaves. -/
def ChainInv (n : LineageTreeNode) (cur : List LTree) (q : PhyloParent) (E : List Nat) :
    Prop :=
  if n.sampled = true then
    if q.depthAttachSampledNode < cur.length then
      (q.depth + 1 ≤ q.depthAttachSampledNode →
        q.depthChild = q.depth + 1 ∧ GoodKids n (cur.drop (q.depth + 1)) ∧
          E = n.lng :: LTree.sampledLngsList (cur.drop (q.depth + 1))) ∧
      (q.depthAttachSampledNode < q.depth + 1 →
        q.depthChild = q.depth ∧ GoodKids n (cur.drop q.depthChild) ∧
          E = LTree.sampledLngsList (cur.drop q.depthChild))
    else
      GoodKids n (cur.drop (q.depth + 1)) ∧
        (∀ c ∈ cur.drop (q.depth + 1), c.node.tBranchParent ≤ n.tSample) ∧
        E = n.lng :: LTree.sampledLngsList (cur.drop (q.depth + 1))
  else
    GoodKids n (cur.drop (q.depth + 1)) ∧ E = LTree.sampledLngsList (cur.drop (q.depth + 1))

/-- Specification of the recursive calls of `getAncestralTree`: calls that start a new
node and calls that continue the chain of the same node. -/
def RecSpec (rec : LTree → Option PhyloParent → Except Err (LTree × PhyloNode)) : Prop :=
  (∀ T pp r, T.all edgeDistinctQ = true → (∀ q, pp = some q → q.lng ≠ T.node.lng) →
      rec T pp = .ok r → GatPost pp T.sampledLngs r.2) ∧
  (∀ n cur q E r, q.lng = n.lng → ChainInv n cur q E →
      rec (.mk n cur) (some q) = .ok r → GatPost (some q) E r.2)

mutual
/-- Bound on the depth of the recursion of `getAncestralTree` on a tree. -/
def LTree.weight : LTree → Nat
  | .mk _ ks => 1 + ks.length + LTree.weightList ks
/-- Sum of the weights of the trees of a list. -/
def LTree.weightList : List LTree → Nat
  | [] => 0
  | t :: ts => LTree.weight t + LTree.weightList ts
end

/-- Lineages are distinct along edges, unsampled nodes have at least two children and the
times are ordered (the three local conditions together). -/
def wellQ (n : LineageTreeNode) (ks : List LTree) : Bool :=
  edgeDistinctQ n ks && shapeQ n ks && timeQ n ks

/-- The children still to be attached below `n`: well-formed subtrees of other lineages
that branch off after the birth of `n`, in the order of their branching times. -/
def RestKids (n : LineageTreeNode) (R : List LTree) : Prop :=
  (∀ c ∈ R, c.node.lng ≠ n.lng ∧ c.all wellQ = true ∧
    c.node.tBranchParent ≤ c.node.t) ∧ R.Pairwise kidLe

/-- The time of `phyloParent` does not exceed the branching times in `R`. -/
def LowerB (pp : Option PhyloParent) (R : List LTree) : Prop :=
  ∀ q, pp = some q → ∀ c ∈ R, q.t ≤ c.node.tBranchParent

/-- State of the chain at a recursive call on the same node together with the time and
fuel conditions under which the call succeeds with fuel `F`. -/
def ChainInvT (n : LineageTreeNode) (cur : List LTree) (q : PhyloParent) (F : Nat) : Prop :=
  if n.sampled = true then
    if q.depthAttachSampledNode < cur.length then
      q.depth + 1 + 1 ≤ cur.length ∧
      (q.depth + 1 ≤ q.depthAttachSampledNode →
        q.depthChild = q.depth + 1 ∧
        attachDepth n.tSample (cur.drop (q.depth + 1)) + (q.depth + 1) =
          q.depthAttachSampledNode ∧
        q.t ≤ n.tSample ∧
        RestKids n (cur.drop (q.depth + 1)) ∧ LowerB (some q) (cur.drop (q.depth + 1)) ∧
        (cur.length - (q.depth + 1)) + 1 + LTree.weightList (cur.drop (q.depth + 1)) ≤ F) ∧
      (q.depthAttachSampledNode < q.depth + 1 →
        q.depthChild = q.depth ∧
        RestKids n (cur.drop q.depthChild) ∧ LowerB (some q) (cur.drop q.depthChild) ∧
        (cur.length - (q.depth + 1)) + 1 + LTree.weightList (cur.drop q.depthChild) ≤ F)
    else
      q.depth + 1 + 1 ≤ cur.length ∧
      RestKids n (cur.drop (q.depth + 1)) ∧ LowerB (some q) (cur.drop (q.depth + 1)) ∧
      (cur.length - (q.depth + 1)) + 1 + LTree.weightList (cur.drop (q.depth + 1)) ≤ F
  else
    q.depth + 1 + 2 ≤ cur.length ∧
    RestKids n (cur.drop (q.depth + 1)) ∧ LowerB (some q) (cur.drop (q.depth + 1)) ∧
    (cur.length - (q.depth + 1)) + 1 + LTree.weightList (cur.drop (q.depth + 1)) ≤ F

/-- Totality specification of the recursive calls of `getAncestralTree` with fuel `F`. -/
def RecTotal (rec : LTree → Option PhyloParent → Except Err (LTree × PhyloNode))
    (F : Nat) : Prop :=
  (∀ T pp, T.all wellQ = true →
      (∀ q, pp = some q → q.lng ≠ T.node.lng ∧ q.t ≤ T.node.t) →
      T.weight ≤ F → ∃ r, rec T pp = .ok r) ∧
  (∀ n cur q, q.lng = n.lng → ChainInvT n cur q F → ∃ r, rec (.mk n cur) (some q) = .ok r)

/-- A small reduced transmission tree: the root `1` (born at 0, sampled at 5) has the
sampled leaf `4` (branching at 2) and the unsampled child `3` (branching at 3) with the
sampled leaves `5` and `6` (branching at 4 and 5). -/
def sampleTree : LTree :=
  .mk (tnode 1 0 0 true 5)
    [.mk (tnode 3 3 3 false 0)
       [.mk (tnode 6 5 5 true 9) [], .mk (tnode 5 4 4 true 8) []],
     .mk (tnode 4 2 2 true 6) []]

/-- Descendants: `Desc m r x` holds when `x` is reached from `r` through the vectors
`children` stored in `m`. -/
inductive Desc (m : Mem) (r : Nat) : Nat → Prop where
  | refl : Desc m r r
  | step {b c : Nat} {nb : LineageTreeNode} :
      Desc m r b → m.cells b = some nb → c ∈ nb.children → Desc m r c

/-- The subtree of `a` holds a sampled node. -/
def HasSampled (m : Mem) (a : Nat) : Prop :=
  ∃ b nb, Desc m a b ∧ m.cells b = some nb ∧ nb.sampled = true

/-- A record with the scratch flag `needed` cleared. -/
def clearNeeded (n : LineageTreeNode) : LineageTreeNode := { n with needed := false }

/-- Below the address `lo` the memory `m` holds the nodes of `m0` at their addresses, up to
the flags `needed`. -/
def SameSrc (lo : Nat) (m0 m : Mem) : Prop :=
  ∀ a, a < lo → m0.cells a ≠ none →
    (m.cells a).map clearNeeded = (m0.cells a).map clearNeeded

/-- The memory `m` during `subSampleTree` on the tree manager `s`: the nodes of `s` are
all there, up to the flags `needed`, and the copies live above them. -/
structure SrcInv (s : LineageTree) (m : Mem) : Prop where
  struct : Struct none s
  same : SameSrc s.mem.next s.mem m
  next_le : s.mem.next ≤ m.next
  bound : ∀ a, m.next ≤ a → m.cells a = none
/-- The memories `m` and `m'` hold the same nodes up to the flags `needed`. -/
def OnlyNeeded (m m' : Mem) : Prop :=
  m'.next = m.next ∧ ∀ a, (m'.cells a).map clearNeeded = (m.cells a).map clearNeeded

/-- Effect of `markNodeNeeded( node, ... )`: only flags `needed` below `node` change, and
below `node` a flag is set exactly when the subtree holds a sampled node. -/
structure MarkPost (s : LineageTree) (node : Nat) (m m' : Mem) : Prop where
  only : OnlyNeeded m m'
  frame : ∀ a, ¬ Desc s.mem node a → m'.cells a = m.cells a
  flags : ∀ b nb', Desc s.mem node b → m'.cells b = some nb' →
    (nb'.needed = true ↔ HasSampled s.mem b)

/-- Effect of the loop over the children `cs` of `node` in `markNodeNeeded`. -/
structure MarkLoopPost (s : LineageTree) (node : Nat) (acc : Bool) (cs : List Nat)
    (m m' : Mem) : Prop where
  only : OnlyNeeded m m'
  frame : ∀ a, a ≠ node → (∀ c ∈ cs, ¬ Desc s.mem c a) → m'.cells a = m.cells a
  flags : ∀ c ∈ cs, ∀ b nb', Desc s.mem c b → m'.cells b = some nb' →
    (nb'.needed = true ↔ HasSampled s.mem b)
  self : ∀ nn nn', m.cells node = some nn → m'.cells node = some nn' →
    (nn'.needed = true ↔ (nn.needed = true ∨ (acc = true ∧ ∃ c ∈ cs, HasSampled s.mem c)))

/-- The record `nb` is a copy of `nx` as made by `extractSubTree`. -/
def IsCopy (nx nb : LineageTreeNode) : Prop :=
  nb.lng = nx.lng ∧ nb.data = nx.data ∧ nb.t = nx.t ∧ nb.extant = nx.extant ∧
  nb.sampled = nx.sampled ∧ nb.tSample = nx.tSample ∧ nb.locSample = nx.locSample ∧
  nb.tBranchParent = nx.tBranchParent ∧ nb.needed = false

/-- The flags `needed` below `a` tell which subtrees hold a sampled node. -/
def FlagsOK (s : LineageTree) (a : Nat) (m : Mem) : Prop :=
  ∀ b nb, Desc s.mem a b → m.cells b = some nb → (nb.needed = true ↔ HasSampled s.mem b)

/-- A node `b` (other than the root) of the copy that occupies the addresses from `lo` up
to `hi`: it copies a source node among `S`, hangs below a node of the copy, its children
are in the copy, it is sampled when it has no children, and its parent carries the lineage
and the birth time of the parent of the node it copies. -/
structure NodeOK (s : LineageTree) (m : Mem) (lo hi : Nat) (S : Nat → Prop) (b : Nat)
    (nb : LineageTreeNode) : Prop where
  src : ∃ x nx, S x ∧ s.mem.cells x = some nx ∧ IsCopy nx nb
  up : ∃ p np, nb.parent = some p ∧ lo ≤ p ∧ p < b ∧ m.cells p = some np ∧ b ∈ np.children
  kids : ∀ c ∈ nb.children, b < c ∧ c < hi ∧ ∃ nc, m.cells c = some nc ∧ nc.parent = some b
  nodup : nb.children.Nodup
  leaf : nb.children = [] → nb.sampled = true
  mirror : ∀ p np, nb.parent = some p → m.cells p = some np →
    ∃ x nx y ny, s.mem.cells x = some nx ∧ IsCopy nx nb ∧ nx.parent = some y ∧
      s.mem.cells y = some ny ∧ np.lng = ny.lng ∧ np.t = ny.t

/-- Effect of `extractSubTree( a, par )`: the addresses from `m.next` on hold a copy of the
part of the subtree of `a` that is marked `needed`, rooted at `m.next`. -/
structure CopyPost (s : LineageTree) (a : Nat) (par : Option Nat) (m m' : Mem) : Prop where
  next_lt : m.next < m'.next
  below : ∀ b, b < m.next → m'.cells b = m.cells b
  bound : ∀ b, m'.next ≤ b → m'.cells b = none
  root : ∃ n nr, s.mem.cells a = some n ∧ m'.cells m.next = some nr ∧ IsCopy n nr ∧
    nr.parent = par ∧ nr.children.Nodup ∧
    (∀ c ∈ nr.children, m.next < c ∧ c < m'.next ∧
      ∃ nc, m'.cells c = some nc ∧ nc.parent = some m.next) ∧
    (nr.children = [] → nr.sampled = true)
  node : ∀ b, m.next < b → b < m'.next → ∃ nb, m'.cells b = some nb ∧
    NodeOK s m' m.next m'.next (fun x => Desc s.mem a x ∧ x ≠ a) b nb
  inj : ∀ b1 b2 n1 n2, m.next ≤ b1 → m.next ≤ b2 → m'.cells b1 = some n1 →
    m'.cells b2 = some n2 → n1.lng = n2.lng → b1 = b2
  cover : ∀ x nx, Desc s.mem a x → s.mem.cells x = some nx → nx.sampled = true →
    ∃ b nb, m.next ≤ b ∧ m'.cells b = some nb ∧ nb.lng = nx.lng ∧ nb.sampled = true

/-- State of the loop over the children in `extractSubTree` once the children `done` have
been handled: `lo` is the copy of the node, `nr0` its record when the loop starts and `m0`
the memory then. -/
structure ExtLoopInv (s : LineageTree) (m0 : Mem) (lo : Nat) (nr0 : LineageTreeNode)
    (done : List Nat) (m : Mem) : Prop where
  next_lt : lo < m.next
  below : ∀ b, b < lo → m.cells b = m0.cells b
  bound : ∀ b, m.next ≤ b → m.cells b = none
  root : ∃ ks, m.cells lo = some { nr0 with children := ks } ∧ ks.Nodup ∧
    (∀ k ∈ ks, lo < k ∧ k < m.next ∧ ∃ nk, m.cells k = some nk ∧ nk.parent = some lo) ∧
    (ks = [] → ∀ c ∈ done, ¬ HasSampled s.mem c)
  node : ∀ b, lo < b → b < m.next → ∃ nb, m.cells b = some nb ∧
    NodeOK s m lo m.next (fun x => ∃ c ∈ done, Desc s.mem c x) b nb
  inj : ∀ b1 b2 n1 n2, lo < b1 → lo < b2 → m.cells b1 = some n1 →
    m.cells b2 = some n2 → n1.lng = n2.lng → b1 = b2
  cover : ∀ c ∈ done, ∀ x nx, Desc s.mem c x → s.mem.cells x = some nx →
    nx.sampled = true →
    ∃ b nb, lo < b ∧ m.cells b = some nb ∧ nb.lng = nx.lng ∧ nb.sampled = true

/-- The tree formed by the cells of `m` that `H` does not hide, as a tree manager with the
roots `roots` and the allocation bound `nx` (used to reason about the copy that
`eliminateRedundantNodes` works on). -/
def viewTree (H : Nat → Bool) (m : Mem) (nx : Nat) (roots : List Nat) (k : Nat) :
    LineageTree :=
  { mem := { cells := fun a => if H a = true then none else m.cells a, next := nx },
    nnodes := k, extantLngs := [], roots := roots, sampled_lineages := [] }

/-- Ancestors: `Up m x b` holds when `b` is reached from `x` through the pointers
`parent` stored in `m`. -/
inductive Up (m : Mem) (x : Nat) : Nat → Prop where
  | refl : Up m x x
  | step {b p : Nat} {nb : LineageTreeNode} :
      Up m x b → m.cells b = some nb → nb.parent = some p → Up m x p

/-- A node that `removeRedundantNodeMerge` keeps: it does not have exactly one child, or
its lineage is among `L`. -/
def Good (L : List Nat) (nb : LineageTreeNode) : Prop :=
  ¬ (nb.children.length = 1 ∧ nb.lng ∉ L)

/-- Effect of calls of `removeRedundantNodeMerge` on the tree: surviving nodes keep their
data and their number of children, only nodes with one child and a lineage outside `L`
are removed, and ancestors in the new tree were ancestors before. -/
structure ElimRel (L : List Nat) (V V' : LineageTree) : Prop where
  surv : ∀ b nb', V'.mem.cells b = some nb' → ∃ nb, V.mem.cells b = some nb ∧
    SameData nb nb' ∧ nb'.children.length = nb.children.length
  gone : ∀ b nb, V.mem.cells b = some nb → V'.mem.cells b = none →
    nb.children.length = 1 ∧ nb.lng ∉ L
  up : ∀ x b, Up V'.mem x b → Up V.mem x b
  roots : (∃ r, V.roots = [r]) → ∃ r', V'.roots = [r']

/-- Branch length `dt` of a phylogeny node. -/
def PhyloNode.dt : PhyloNode → Int
  | .mk _ _ _ _ dt _ _ _ _ _ => dt

/-- Every child `c` of every node `p` of the phylogeny has `c.dt = c.t - p.t`. -/
def PhyloNode.dtExact : PhyloNode → Bool
  | .mk _ _ _ _ _ _ _ _ none none => true
  | .mk _ _ _ t _ _ _ _ (some l) none => decide (l.dt = l.t - t) && l.dtExact
  | .mk _ _ _ t _ _ _ _ none (some r) => decide (r.dt = r.t - t) && r.dtExact
  | .mk _ _ _ t _ _ _ _ (some l) (some r) =>
    decide (l.dt = l.t - t) && l.dtExact && (decide (r.dt = r.t - t) && r.dtExact)

/-- Branch lengths of a phylogeny `p` built under `phyloParent`: exact below `p`, and `p`
itself is at distance `p.t - phyloParent.t` from its parent, or 0 without a parent. -/
def DtPost (pp : Option PhyloParent) (p : PhyloNode) : Prop :=
  p.dtExact = true ∧ (∀ q, pp = some q → p.dt = p.t - q.t) ∧ (pp = none → p.dt = 0)

/-- The call `sampleExtantLineage( lng, t )` with the default argument `locSample = "@"`. -/
def sampleExtantLineageDefault (s : LineageTree) (lng : Nat) (t : Int) :
    Except Err (LineageTree × Bool) :=
  sampleExtantLineage s lng t "@"

/-- A tree manager that holds the single extant root `1` at address 0: the state after
`addExtantLineageExternal( 0, 1, 0 )`. -/
def oneRoot : LineageTree := addExtantLineageExternal LineageTree.empty 0 1 0

/-- Function `lng2string( lng )` for `T = int`: the decimal numeral. -/
def lng2string (lng : Nat) : String := toString lng

/-- Function `PhyloNode2Newick( nhx, node )`: returns the string `nhx` after the call.
`dtStr` stands for `std::to_string` on a `double`. -/
def PhyloNode2Newick (dtStr : Int → String) : String → PhyloNode → Except Err String
  | nhx, .mk lng _ _ _ dt _ _ _ none none =>
    .ok (nhx ++ (lng2string lng ++ ":" ++ dtStr dt))
  | nhx, .mk lng _ _ _ dt _ _ _ none (some _) =>
    .ok (nhx ++ (lng2string lng ++ ":" ++ dtStr dt))
  | nhx, .mk _ _ _ _ _ _ _ _ (some l) none =>
    match PhyloNode2Newick dtStr (nhx ++ "(") l with
    | .error e => .error e
    | .ok _ => .error .nullDeref
  | nhx, .mk lng _ _ _ dt depth _ _ (some l) (some r) =>
    match PhyloNode2Newick dtStr (nhx ++ "(") l with
    | .error e => .error e
    | .ok s1 =>
      match PhyloNode2Newick dtStr (s1 ++ ",") r with
      | .error e => .error e
      | .ok s2 =>
        .ok (s2 ++ ")" ++ (lng2string lng ++ "-" ++ toString depth) ++ (":" ++ dtStr dt))

/-- Function `getSimpleNewick( root )`. -/
def getSimpleNewick (dtStr : Int → String) (root : PhyloNode) : Except Err String :=
  match PhyloNode2Newick dtStr "" root with
  | .error e => .error e
  | .ok nhx => .ok (nhx ++ ";")

/-- The rendering of a phylogeny node as the specification words it: a node without left
child is a leaf `lng:dt`, any other node is `(left,right)lng-depth:dt` (a missing right
child renders as nothing). -/
def renderNewick (dtStr : Int → String) : PhyloNode → String
  | .mk lng _ _ _ dt _ _ _ none none => toString lng ++ ":" ++ dtStr dt
  | .mk lng _ _ _ dt _ _ _ none (some _) => toString lng ++ ":" ++ dtStr dt
  | .mk lng _ _ _ dt depth _ _ (some l) none =>
    "(" ++ renderNewick dtStr l ++ "," ++ "" ++ ")" ++ toString lng ++ "-" ++
      toString depth ++ ":" ++ dtStr dt
  | .mk lng _ _ _ dt depth _ _ (some l) (some r) =>
    "(" ++ renderNewick dtStr l ++ "," ++ renderNewick dtStr r ++ ")" ++ toString lng ++
      "-" ++ toString depth ++ ":" ++ dtStr dt

/-- Exact fractions `num / den`: the finite values of type `double` that are parameters,
probabilities or uniform variates.  Times are counted in integer ticks, as in the tree
manager.  The rates, whose computation can overflow, are values of `Dbl`. -/
structure Frac where
  num : Int
  den : Nat
  deriving DecidableEq, Repr

/-- Conversion of an `int` to `double`. -/
def Frac.ofInt (n : Int) : Frac := ⟨n, 1⟩

/-- Sum of two fractions. -/
def Frac.add (x y : Frac) : Frac := ⟨x.num * y.den + y.num * x.den, x.den * y.den⟩

/-- Product of two fractions. -/
def Frac.mul (x y : Frac) : Frac := ⟨x.num * y.num, x.den * y.den⟩

/-- Quotient `x / y`; the sign of `y` moves to the numerator. -/
def Frac.div (x y : Frac) : Frac := ⟨x.num * y.den * y.num.sign, x.den * y.num.natAbs⟩

/-- Comparison `x <= y`, by cross-multiplication. -/
def Frac.le (x y : Frac) : Bool := decide (x.num * y.den ≤ y.num * x.den)

/-- Comparison `x == 0.`. -/
def Frac.isZero (x : Frac) : Bool := decide (x.num = 0)

/-- Conversion `static_cast<int>( x )`: truncation toward zero. -/
def Frac.toInt (x : Frac) : Int :=
  if 0 ≤ x.num then ((x.num.toNat / x.den : Nat) : Int)
  else -(((-x.num).toNat / x.den : Nat) : Int)

/-- A positive fraction. -/
def Frac.pos (x : Frac) : Prop := 0 < x.num ∧ 0 < x.den

/-- Values of type `double` in the arithmetic of the rates: a finite value, an infinity
(`neg` is its sign bit) or a NaN.  A finite value is kept as an exact fraction: the
rounding of a finite result (to 53 bits, or of a tiny result to a subnormal number or to
zero) is not modelled, and zero carries no sign. -/
inductive Dbl where
  | fin (q : Frac)
  | inf (neg : Bool)
  | nan
  deriving DecidableEq, Repr

/-- The magnitude from which a result rounds to an infinity, `2^1024 - 2^970` (written
out in decimal): half a unit in the last place above the largest finite `double`. -/
def Dbl.huge : Nat :=
  179769313486231580793728971405303415079934132710037826936173778980444968292764750946649017977587207096330286416692887910946555547851940402630657488671505820681908902000708383676273854845817711531764475730270069855571366959622842914819860834936475292719074168444365510704342711559699508093042880177904174497792

/-- The `double` for the exact value `q`: an infinity when the magnitude of `q` reaches
`Dbl.huge` (overflow), else `q` itself; a fraction without denominator is no number. -/
def Dbl.round (q : Frac) : Dbl :=
  if q.den = 0 then .nan
  else if (Dbl.huge : Int) * (q.den : Int) ≤ q.num then .inf false
  else if q.num ≤ -((Dbl.huge : Int) * (q.den : Int)) then .inf true
  else .fin q

/-- Conversion of an `int` to `double`. -/
def Dbl.ofInt (n : Int) : Dbl := .fin (Frac.ofInt n)

/-- Sum `x + y` of two values of type `double`. -/
def Dbl.add : Dbl → Dbl → Dbl
  | .fin x, .fin y => Dbl.round (x.add y)
  | .fin _, .inf s => .inf s
  | .inf s, .fin _ => .inf s
  | .inf s, .inf r => if s = r then .inf s else .nan
  | .nan, _ => .nan
  | _, .nan => .nan

/-- Product `x * y` of two values of type `double`; zero times an infinity is a NaN. -/
def Dbl.mul : Dbl → Dbl → Dbl
  | .fin x, .fin y => Dbl.round (x.mul y)
  | .fin x, .inf s => if x.num = 0 then .nan else .inf (xor (decide (x.num < 0)) s)
  | .inf s, .fin y => if y.num = 0 then .nan else .inf (xor s (decide (y.num < 0)))
  | .inf s, .inf r => .inf (xor s r)
  | .nan, _ => .nan
  | _, .nan => .nan

/-- Quotient `x / y` of two values of type `double`; a nonzero value over zero is an
infinity, zero over zero and an infinity over an infinity are NaN. -/
def Dbl.div : Dbl → Dbl → Dbl
  | .fin x, .fin y =>
    if y.num = 0 then (if x.num = 0 then .nan else .inf (decide (x.num < 0)))
    else Dbl.round (x.div y)
  | .fin _, .inf _ => .fin (Frac.ofInt 0)
  | .inf s, .fin y => .inf (xor s (decide (y.num < 0)))
  | .inf _, .inf _ => .nan
  | .nan, _ => .nan
  | _, .nan => .nan

/-- Comparison `x <= y` of two values of type `double`; it is false when one is a NaN. -/
def Dbl.le : Dbl → Dbl → Bool
  | .fin x, .fin y => x.le y
  | .fin _, .inf s => !s
  | .inf s, .fin _ => s
  | .inf s, .inf r => s || !r
  | .nan, _ => false
  | _, .nan => false

/-- Comparison `x == 0` of a value of type `double`; it is false for a NaN. -/
def Dbl.isZero : Dbl → Bool
  | .fin x => x.isZero
  | _ => false

/-- A value of type `double` that is not negative if it is finite. -/
def Dbl.finNonneg : Dbl → Prop
  | .fin q => 0 ≤ q.num
  | _ => True

/-- The variates that the generator `m_mt` yields once it is seeded: draw number `k` of the
run gives `uni k` when `rand_uniform` makes it and `expo k` (in ticks) when `rand_expo`
makes it.  The state of the generator is the number of draws made so far. -/
structure RandomStream where
  uni : Nat → Frac
  expo : Nat → Int

/-- The uniform variates of the stream lie in `[0, 1)`. -/
def RandomStream.unitRange (g : RandomStream) : Prop :=
  ∀ k, 0 ≤ (g.uni k).num ∧ (g.uni k).num < ((g.uni k).den : Int)

/-- Function `getUni()`. -/
def getUni (g : RandomStream) (pos : Nat) : Frac × Nat := (g.uni pos, pos + 1)

/-- Function `getBool( prob )`. -/
def getBool (g : RandomStream) (pos : Nat) (prob : Frac) : Bool × Nat :=
  if prob.isZero then (false, pos)
  else ((getUni g pos).1.le prob, (getUni g pos).2)

/-- Function `getExpo( rate )`, rounded to ticks.  The quotient by an infinite rate is
zero.  The quotient by a NaN is a NaN, which the ticks of the clock do not express: the
model returns zero. -/
def getExpo (g : RandomStream) (pos : Nat) (rate : Dbl) : Int × Nat :=
  match rate with
  | .fin q => (((Frac.ofInt (g.expo pos)).div q).toInt, pos + 1)
  | _ => (0, pos + 1)

/-- Function `getUniInt( n )`. -/
def getUniInt (g : RandomStream) (pos : Nat) (n : Int) : Int × Nat :=
  if n = 0 then (0, pos)
  else (((getUni g pos).1.mul (Frac.ofInt (n + 1))).toInt, (getUni g pos).2)

/-- Element access `v[ix]` of a vector. -/
def vecAt (v : List Nat) (ix : Int) : Except Err Nat :=
  if ix < 0 then .error .outOfBounds
  else
    match v[ix.toNat]? with
    | some x => .ok x
    | none => .error .outOfBounds

/-- Function `rmv_element( v, ix )`: swap `v[ix]` with the last element and drop the last
element. -/
def rmv_element (v : List Nat) (ix : Int) : Except Err (List Nat) :=
  match vecAt v ix, v.getLast? with
  | .ok _, some b => .ok ((v.set ix.toNat b).dropLast)
  | _, _ => .error .outOfBounds

/-- Class `Simulator`; `int` counters are modelled without overflow. -/
structure Simulator where
  I : Int
  t : Int
  R0 : Frac
  dI : Frac
  rho : Frac
  mu : Dbl
  beta : Dbl
  next_lng : Nat
  I_lngs : List Nat
  n_sampled : Nat
  max_cases : Int
  max_samples : Int
  tree_mngr : LineageTree

/-- Constructor `Simulator( R0, dI, rho )`: `mu = 1 / dI` and `beta = R0 * mu`, computed
in `double`. -/
def newSimulator (R0 dI rho : Frac) : Simulator :=
  { I := 0, t := 0, R0 := R0, dI := dI, rho := rho, mu := (Dbl.ofInt 1).div (Dbl.round dI),
    beta := (Dbl.round R0).mul ((Dbl.ofInt 1).div (Dbl.round dI)), next_lng := 1,
    I_lngs := [], n_sampled := 0,
    max_cases := 100000000, max_samples := 10, tree_mngr := LineageTree.empty }

/-- Method `initialise_single_infection()`. -/
def initialise_single_infection (s : Simulator) : Simulator :=
  { s with tree_mngr := addExtantLineageExternal s.tree_mngr s.t s.next_lng 0,
           I_lngs := s.I_lngs ++ [s.next_lng], next_lng := s.next_lng + 1, I := s.I + 1 }

/-- Method `set_max_cases( max_cases )`. -/
def set_max_cases (s : Simulator) (max_cases : Int) : Simulator :=
  { s with max_cases := max_cases }

/-- Method `set_max_samples( max_samples )`. -/
def set_max_samples (s : Simulator) (max_samples : Int) : Simulator :=
  { s with max_samples := max_samples }

/-- Method `apply_infection()`. -/
def apply_infection (g : RandomStream) (s : Simulator) (pos : Nat) :
    Except Err (Simulator × Nat) :=
  match vecAt s.I_lngs (getUniInt g pos (s.I - 1)).1 with
  | .error e => .error e
  | .ok lng_infector =>
    match addExtantLineage s.tree_mngr s.t s.next_lng 0 lng_infector with
    | .error e => .error e
    | .ok tr =>
      .ok ({ s with tree_mngr := tr, I_lngs := s.I_lngs ++ [s.next_lng],
                    next_lng := s.next_lng + 1, I := s.I + 1 },
           (getUniInt g pos (s.I - 1)).2)

/-- The first half of `apply_removal`: the draw of `getBool` and the sampling call. -/
def sampleIf (g : RandomStream) (s : Simulator) (pos : Nat) (prob : Frac) (lng : Nat) :
    Except Err Simulator :=
  if (getBool g pos prob).1 then
    match sampleExtantLineage s.tree_mngr lng s.t "@" with
    | .error e => .error e
    | .ok (tr, _) => .ok { s with tree_mngr := tr, n_sampled := s.n_sampled + 1 }
  else .ok s

/-- Method `apply_removal( prob_sampling )`. -/
def apply_removal (g : RandomStream) (s : Simulator) (pos : Nat) (prob_sampling : Frac) :
    Except Err (Simulator × Nat) :=
  match vecAt s.I_lngs (getUniInt g pos (s.I - 1)).1 with
  | .error e => .error e
  | .ok lng =>
    match sampleIf g s (getUniInt g pos (s.I - 1)).2 prob_sampling lng with
    | .error e => .error e
    | .ok s1 =>
      match removeExtantLineage s1.tree_mngr lng false with
      | .error e => .error e
      | .ok tr =>
        match rmv_element s1.I_lngs (getUniInt g pos (s.I - 1)).1 with
        | .error e => .error e
        | .ok v =>
          .ok ({ s1 with tree_mngr := tr, I_lngs := v, I := s1.I - 1 },
               (getBool g (getUniInt g pos (s.I - 1)).2 prob_sampling).2)

/-- The total rate `( beta + mu ) * I` of an iteration of the loop of `simulate`. -/
def totRate (s : Simulator) : Dbl := (s.beta.add s.mu).mul (Dbl.ofInt s.I)

/-- The draws that open an iteration of the loop of `simulate`: `none` when the test
`tot_rate == 0` holds, else the state with the clock advanced, the position of the stream
and whether the event is a transmission, that is whether `u <= beta * I` holds for
`u = getUni() * tot_rate`.  Both tests are false when `tot_rate` is a NaN. -/
def drawEvent (g : RandomStream) (s : Simulator) (pos : Nat) :
    Option (Simulator × Nat × Bool) :=
  if (totRate s).isZero then none
  else
    some ({ s with t := s.t + (getExpo g pos (totRate s)).1 },
      pos + 2,
      ((Dbl.fin (g.uni (pos + 1))).mul (totRate s)).le (s.beta.mul (Dbl.ofInt s.I)))

/-- The event of an iteration: a transmission or a removal. -/
def applyEvent (g : RandomStream) (s : Simulator) (pos : Nat) (infection : Bool) :
    Except Err (Simulator × Nat) :=
  if infection then apply_infection g s pos else apply_removal g s pos s.rho

/-- Method `simulate()`; `fuel` bounds the number of iterations of the loop.  The result
is the returned flag, the final state and the final position of the stream. -/
def simulate (g : RandomStream) : Nat → Simulator → Nat → Except Err (Bool × Simulator × Nat)
  | 0, _, _ => .error .outOfFuel
  | fuel + 1, s, pos =>
    match drawEvent g s pos with
    | none => .ok (false, s, pos)
    | some (s1, p2, infection) =>
      match applyEvent g s1 p2 infection with
      | .error e => .error e
      | .ok (s2, p3) =>
        if (s2.next_lng : Int) > s2.max_cases then .ok (false, s2, p3)
        else if (s2.n_sampled : Int) ≥ s2.max_samples then .ok (true, s2, p3)
        else simulate g fuel s2 p3

/-- The children of a node as trees. -/
def toTreeList (rec : Nat → Except Err LTree) : List Nat → Except Err (List LTree)
  | [] => .ok []
  | c :: cs =>
    match rec c with
    | .error e => .error e
    | .ok T =>
      match toTreeList rec cs with
      | .error e => .error e
      | .ok Ts => .ok (T :: Ts)

/-- The transmission tree below the node at address `a`, as `getAncestralTree` sees it. -/
def toTree : Nat → Mem → Nat → Except Err LTree
  | 0, _, _ => .error .outOfFuel
  | fuel + 1, m, a =>
    match m.get a with
    | .error e => .error e
    | .ok n =>
      match toTreeList (toTree fuel m) n.children with
      | .error e => .error e
      | .ok ks => .ok (.mk n ks)

/-- The success branch of `simulate_BD`: the first reduced tree, its phylogeny and the
Newick string of the phylogeny. -/
def newickOfTree (ord : List Nat → List Nat) (dtStr : Int → String) (tree_mngr : LineageTree) :
    Except Err String :=
  match subSampleTree ord tree_mngr with
  | .error e => .error e
  | .ok (tree, res) =>
    match res with
    | [] => .error .outOfBounds
    | rtree :: _ =>
      match toTree (tree.mem.next + 1) tree.mem rtree with
      | .error e => .error e
      | .ok T =>
        match getAncestralTree T.weight T none with
        | .error e => .error e
        | .ok (_, atree) => getSimpleNewick dtStr atree

/-- The simulator as `simulate_BD` sets it up before the loop. -/
def initialSimulator (max_cases max_samples : Int) (R0 dI rho : Frac) : Simulator :=
  initialise_single_infection
    (set_max_samples (set_max_cases (newSimulator R0 dI rho) max_cases) max_samples)

/-- Function `simulate_BD( seed, max_cases, max_samples, R0, dI, rho )`.  `gen` maps a seed
to the stream of the seeded generator, `ord` is the iteration order of the set of leaves in
`eliminateRedundantNodes`, `dtStr` prints a branch length and `fuel` bounds the number of
iterations of the loop of `simulate`. -/
def simulate_BD (gen : Int → RandomStream) (ord : List Nat → List Nat) (dtStr : Int → String)
    (fuel : Nat) (seed max_cases max_samples : Int) (R0 dI rho : Frac) : Except Err String :=
  match simulate (gen seed) fuel (initialSimulator max_cases max_samples R0 dI rho) 0 with
  | .error e => .error e
  | .ok (success, sim, _) =>
    if success then newickOfTree ord dtStr sim.tree_mngr
    else .ok ""

/-- States at the head of the loop of `simulate` started in `s0` at position `p0` of the
stream, with the number of removal events made so far. -/
inductive AtHead (g : RandomStream) (s0 : Simulator) (p0 : Nat) :
    Nat → Simulator → Nat → Prop where
  | start : AtHead g s0 p0 0 s0 p0
  | next {k : Nat} {s s1 s2 : Simulator} {p p2 p3 : Nat} {infection : Bool} :
    AtHead g s0 p0 k s p → drawEvent g s p = some (s1, p2, infection) →
    applyEvent g s1 p2 infection = .ok (s2, p3) →
    ¬ ((s2.next_lng : Int) > s2.max_cases) → ¬ ((s2.n_sampled : Int) ≥ s2.max_samples) →
    AtHead g s0 p0 (if infection then k else k + 1) s2 p3

/-- A stream for examples: every uniform variate is `u`, every exponential variate is one
tick. -/
def constStream (u : Frac) : RandomStream := { uni := fun _ => u, expo := fun _ => 1 }
/-- Invariant of the simulator between events: the tree manager is well formed, `I_lngs`
lists the keys of `extantLngs` without repetition, `I` is its length, the lineages in the
tree are below `next_lng`, no extant node is sampled, `n_sampled` counts the sampled
lineages and there is at most one root. -/
structure SimInv (s : Simulator) : Prop where
  inv : Inv s.tree_mngr
  card : s.I = (s.I_lngs.length : Int)
  nodup : s.I_lngs.Nodup
  keys : ∀ lng, lng ∈ s.I_lngs ↔ ∃ a, mapFind s.tree_mngr.extantLngs lng = some a
  fresh : ∀ a n, s.tree_mngr.mem.cells a = some n → n.lng < s.next_lng
  extUns : ∀ a n, s.tree_mngr.mem.cells a = some n → n.extant = true → n.sampled = false
  nsamp : s.tree_mngr.sampled_lineages.length = s.n_sampled
  rootU : ∀ a ∈ s.tree_mngr.roots, ∀ b ∈ s.tree_mngr.roots, a = b

/-- The parameters and stopping bounds of two simulator states agree. -/
def SameParams (s s' : Simulator) : Prop :=
  s'.R0 = s.R0 ∧ s'.dI = s.dI ∧ s'.rho = s.rho ∧ s'.mu = s.mu ∧ s'.beta = s.beta ∧
  s'.max_cases = s.max_cases ∧ s'.max_samples = s.max_samples

/-- The first tree returned by `subSampleTree()`, as `getAncestralTree` sees it. -/
def reducedTree (ord : List Nat → List Nat) (tree_mngr : LineageTree) : Except Err LTree :=
  match subSampleTree ord tree_mngr with
  | .error e => .error e
  | .ok (tree, res) =>
    match res with
    | [] => .error .outOfBounds
    | rtree :: _ => toTree (tree.mem.next + 1) tree.mem rtree

/-- The phylogeny of the first tree returned by `subSampleTree()`. -/
def reducedPhylogeny (ord : List Nat → List Nat) (tree_mngr : LineageTree) :
    Except Err PhyloNode :=
  match reducedTree ord tree_mngr with
  | .error e => .error e
  | .ok T =>
    match getAncestralTree T.weight T none with
    | .error e => .error e
    | .ok (_, atree) => .ok atree

/-- Number of internal nodes (nodes with a child) of a phylogeny. -/
def PhyloNode.innerCount : PhyloNode → Nat
  | .mk _ _ _ _ _ _ _ _ none none => 0
  | .mk _ _ _ _ _ _ _ _ (some l) none => 1 + l.innerCount
  | .mk _ _ _ _ _ _ _ _ none (some r) => 1 + r.innerCount
  | .mk _ _ _ _ _ _ _ _ (some l) (some r) => 1 + l.innerCount + r.innerCount

/-- Lineage of a phylogeny node. -/
def PhyloNode.lng : PhyloNode → Nat
  | .mk lng _ _ _ _ _ _ _ _ _ => lng

/-- Field `depth` of a phylogeny node. -/
def PhyloNode.depth : PhyloNode → Nat
  | .mk _ _ _ _ _ depth _ _ _ _ => depth

/-- Field `locSample` of a phylogeny node. -/
def PhyloNode.locSample : PhyloNode → String
  | .mk _ _ loc _ _ _ _ _ _ _ => loc

/-- Field `leftChild` of a phylogeny node. -/
def PhyloNode.leftChild : PhyloNode → Option PhyloNode
  | .mk _ _ _ _ _ _ _ _ l _ => l

/-- Field `rightChild` of a phylogeny node. -/
def PhyloNode.rightChild : PhyloNode → Option PhyloNode
  | .mk _ _ _ _ _ _ _ _ _ r => r

/-- The calls that build the tree of example E4: the root `1` and its children `2`, `3`,
`4` born at times 1, 2, 3, of which `3` and `4` are sampled (at times 4 and 5). -/
def e4Ops : List Op :=
  [.addExternal 0 1 0, .add 1 2 0 1, .add 2 3 0 1, .add 3 4 0 1, .sample 3 4 "@",
   .sample 4 5 "@"]

/-- The phylogeny and the Newick string of example E4. -/
def e4Run : Except Err (PhyloNode × String) :=
  match runOps LineageTree.empty e4Ops with
  | .error e => .error e
  | .ok s =>
    match reducedPhylogeny id s, newickOfTree id (fun d => toString d) s with
    | .ok p, .ok nwk => .ok (p, nwk)
    | .error e, _ => .error e
    | _, .error e => .error e

/-- The tree of example E5, with times in half units: the root `1`, sampled at 2.5, and its
sampled childless children `2` and `3` that branch off at 1 and 3 (sampled at 3.5
and 4). -/
def e5Tree : LTree :=
  .mk (tnode 1 0 0 true 5) [.mk (tnode 2 2 2 true 7) [], .mk (tnode 3 6 6 true 8) []]

mutual
/-- Number of nodes of a tree that satisfy `Q`. -/
def LTree.count (Q : LineageTreeNode → List LTree → Bool) : LTree → Nat
  | .mk n ks => (if Q n ks then 1 else 0) + LTree.countList Q ks
/-- Number of nodes of the trees of a list that satisfy `Q`. -/
def LTree.countList (Q : LineageTreeNode → List LTree → Bool) : List LTree → Nat
  | [] => 0
  | t :: ts => LTree.count Q t + LTree.countList Q ts
end

/-- A sampled ancestor: a sampled node with at least one child. -/
def sampledAncestorQ (n : LineageTreeNode) (ks : List LTree) : Bool :=
  n.sampled && decide (1 ≤ ks.length)

/-- A sampled node without children. -/
def sampledTipQ (n : LineageTreeNode) (ks : List LTree) : Bool :=
  n.sampled && decide (ks.length = 0)

/-- A stream with the given uniform variates (and `0` after them); every exponential
variate is one tick. -/
def listStream (us : List Frac) : RandomStream :=
  { uni := fun k => us.getD k ⟨0, 1⟩, expo := fun _ => 1 }

/-- A run with a sampled ancestor: lineage `1` infects `2`, then `1` is removed and
sampled, then `2` is removed and sampled.  The result is `n_sampled`, the number of sampled
ancestors of the reduced tree and the number of leaves of the phylogeny. -/
def e6Run : Except Err (Nat × Nat × Nat) :=
  match simulate (listStream [⟨0, 1⟩, ⟨0, 1⟩, ⟨0, 1⟩, ⟨3, 4⟩, ⟨0, 1⟩, ⟨0, 1⟩, ⟨0, 1⟩, ⟨3, 4⟩])
      10 (initialSimulator 1000 2 ⟨2, 1⟩ ⟨1, 1⟩ ⟨1, 1⟩) 0 with
  | .error e => .error e
  | .ok (_, s, _) =>
    match reducedTree id s.tree_mngr, reducedPhylogeny id s.tree_mngr with
    | .ok T, .ok p => .ok (s.n_sampled, T.count sampledAncestorQ, p.leafLngs.length)
    | .error e, _ => .error e
    | _, .error e => .error e
/-- The children of the node are in strictly ascending order of `tBranchParent`. -/
def ascQ (_ : LineageTreeNode) (ks : List LTree) : Bool :=
  decide (ks.Pairwise (fun a b => a.node.tBranchParent < b.node.tBranchParent))

/-- A tree whose children are not in the order of their branching times: the unsampled root
`1` with the sampled childless children `2` (branching at 3) and `3` (branching at 1). -/
def unsortedTree : LTree :=
  .mk (tnode 1 0 0 false 0) [.mk (tnode 2 3 3 true 5) [], .mk (tnode 3 1 1 true 4) []]

/-- A tree with an unsampled root of three children that are not in the order of their
branching times: the root `1` has the sampled leaf `2` (branching at 5), the unsampled
child `3` (branching at 1) with the sampled leaves `5` and `6` (branching at 3 and 2), and
the sampled leaf `4` (branching at 4). -/
def fanTree : LTree :=
  .mk (tnode 1 0 0 false 0)
    [.mk (tnode 2 5 5 true 7) [],
     .mk (tnode 3 1 1 false 0) [.mk (tnode 5 3 3 true 6) [], .mk (tnode 6 2 2 true 8) []],
     .mk (tnode 4 4 4 true 9) []]

/-- The recursive call returns the tree it is given when the children of every node of
that tree are in strictly ascending order. -/
def RecSame (rec : LTree → Option PhyloParent → Except Err (LTree × PhyloNode)) : Prop :=
  ∀ T pp res, T.all ascQ = true → rec T pp = .ok res → res.1 = T

/-- Number of allocated cells among the addresses below `n`. -/
def liveBelow (c : Nat → Option LineageTreeNode) : Nat → Nat
  | 0 => 0
  | n + 1 => liveBelow c n + (if (c n).isSome then 1 else 0)

/-- Number of nodes that are allocated and not yet freed. -/
def liveCount (m : Mem) : Nat := liveBelow m.cells m.next

/-- The node counter agrees with the number of allocated nodes (as an `unsigned int`). -/
def NInv (s : LineageTree) : Prop := s.nnodes = liveCount s.mem % 2 ^ 32

/-- Three calls that build the chain `1 → 2 → 3`. -/
def chainOps : List Op := [.addExternal 0 1 0, .add 1 2 0 1, .add 2 3 0 2]

/-- A loop that applies `rec` to the nodes of a list, threading the memory. -/
def deleteKids (rec : Mem → Nat → Except Err Mem) : Mem → List Nat → Except Err Mem
  | m, [] => .ok m
  | m, c :: cs =>
    match rec m c with
    | .error e => .error e
    | .ok m1 => deleteKids rec m1 cs

/-- Function `deleteLineageTreeNodeTree( root )`.  The loop deletes the subtree of the last
child and pops it from the vector until the vector is empty, that is, it goes through the
vector `children` from the back; then the node is freed. -/
def deleteLineageTreeNodeTree : Nat → Mem → Nat → Except Err Mem
  | 0, _, _ => .error .outOfFuel
  | fuel + 1, m, root =>
    match m.get root with
    | .error e => .error e
    | .ok n =>
      match deleteKids (deleteLineageTreeNodeTree fuel) m n.children.reverse with
      | .error e => .error e
      | .ok m1 => .ok (m1.free root)

/-- Method `reset()`; the recursion gets as much fuel as there are allocated addresses. -/
def reset (s : LineageTree) : Except Err LineageTree :=
  match deleteKids (deleteLineageTreeNodeTree (s.mem.next + 1)) s.mem s.roots with
  | .error e => .error e
  | .ok m =>
    .ok { mem := m, nnodes := 0, extantLngs := [], roots := [], sampled_lineages := [] }

/-- The memory `m` is the memory of `s` with the cells that satisfy `F` freed. -/
def Freed (s : LineageTree) (F : Nat → Prop) (m : Mem) : Prop :=
  m.next = s.mem.next ∧
  ∀ b, (F b → m.cells b = none) ∧ (¬ F b → m.cells b = s.mem.cells b)

/-- The fields of a phylogeny node that its children read through `phyloParent`. -/
def PhyloNode.asParent : PhyloNode → PhyloParent
  | .mk lng _ _ t _ depth depthChild attach _ _ =>
    { lng := lng, depth := depth, depthChild := depthChild,
      depthAttachSampledNode := attach, t := t }

/-- The phylogeny `l` is the one that `getAncestralTree` builds for the tree `c` below a
phylogeny node with the record `q`. -/
def PhyloOf (c : LTree) (q : PhyloParent) (l : PhyloNode) : Prop :=
  ∃ fuel c1, getAncestralTree fuel c (some q) = .ok (c1, l)

/-- The phylogeny node `p` is a link of the chain of the node `n`: it carries the lineage
of `n`, has depth `d` and time `t`, and `l`, `r` are its left and right children. -/
def ChainNode (n : LineageTreeNode) (d : Nat) (t : Int) (p l r : PhyloNode) : Prop :=
  p.lng = n.lng ∧ p.depth = d ∧ p.t = t ∧ p.leftChild = some l ∧ p.rightChild = some r

/-- The right-leaning chain of an unsampled node `n`, from chain position `d` on, for the
children (in ascending order of branching time) that are still to be attached: every link
has the time of the next child and the phylogeny of that child on the left; on the right
it has the next link, and the last link has the phylogeny of the last child. -/
inductive UChain (n : LineageTreeNode) : Nat → List LTree → PhyloNode → Prop where
  | last {d : Nat} {c1 c2 : LTree} {p l r : PhyloNode} :
    ChainNode n d c1.node.tBranchParent p l r → PhyloOf c1 p.asParent l →
    PhyloOf c2 p.asParent r → UChain n d [c1, c2] p
  | step {d : Nat} {c : LTree} {rest : List LTree} {p l r : PhyloNode} :
    ChainNode n d c.node.tBranchParent p l r → PhyloOf c p.asParent l →
    UChain n (d + 1) rest r → UChain n d (c :: rest) p

/-- The phylogeny node reached from `p` by following the right child `i` times. -/
def PhyloNode.linkAt : Nat → PhyloNode → Option PhyloNode
  | 0, p => some p
  | i + 1, p =>
    match p.rightChild with
    | some r => PhyloNode.linkAt i r
    | none => none

/-- The phylogeny node `leaf` is the leaf of the sampled node `n`, with depth `d` and
branch length `dt`. -/
def SLeaf (n : LineageTreeNode) (d : Nat) (dt : Int) (leaf : PhyloNode) : Prop :=
  leaf.lng = n.lng ∧ leaf.t = n.tSample ∧ leaf.locSample = n.locSample ∧ leaf.dt = dt ∧
  leaf.depth = d ∧ leaf.leftChild = none ∧ leaf.rightChild = none

/-- The chain of a sampled node `n` that is sampled after all its children have branched
off, from position `d` on: every link has the time of the next child and its phylogeny on
the left; on the right it has the next link, and the last link has the leaf of `n`, whose
branch length is the time from the last branching to the sampling. -/
inductive LChain (n : LineageTreeNode) : Nat → List LTree → PhyloNode → Prop where
  | last {d : Nat} {c : LTree} {p l leaf : PhyloNode} :
    ChainNode n d c.node.tBranchParent p l leaf → PhyloOf c p.asParent l →
    SLeaf n (d + 1) (n.tSample - c.node.tBranchParent) leaf → LChain n d [c] p
  | step {d : Nat} {c : LTree} {rest : List LTree} {p l r : PhyloNode} :
    ChainNode n d c.node.tBranchParent p l r → PhyloOf c p.asParent l →
    LChain n (d + 1) rest r → LChain n d (c :: rest) p

/-- The chain of a sampled node `n` that is sampled before some child branches off, from
position `d` on, with `m` children still to be attached before the leaf of `n`.  The links
before the leaf are as in `UChain`.  The link at the position of the leaf has the sampling
time of `n` and the leaf of `n`, with branch length `0`, on the right; on the left it has
the phylogeny of the last child when only one child is left, and otherwise the chain of
the children that are left. -/
inductive EChain (n : LineageTreeNode) : Nat → Nat → List LTree → PhyloNode → Prop where
  | pre {d m : Nat} {c : LTree} {rest : List LTree} {p l r : PhyloNode} :
    ChainNode n d c.node.tBranchParent p l r → PhyloOf c p.asParent l →
    EChain n (d + 1) m rest r → EChain n d (m + 1) (c :: rest) p
  | attachLast {d : Nat} {c : LTree} {p l leaf : PhyloNode} :
    ChainNode n d n.tSample p l leaf → PhyloOf c p.asParent l → SLeaf n (d + 1) 0 leaf →
    EChain n d 0 [c] p
  | attach {d : Nat} {R : List LTree} {p l leaf : PhyloNode} :
    ChainNode n d n.tSample p l leaf → UChain n (d + 1) R l → SLeaf n (d + 1) 0 leaf →
    EChain n d 0 R p

/-- All proper ancestors of `l` in the tree `V` are kept by `removeRedundantNodeMerge`. -/
def Clean (L : List Nat) (V : LineageTree) (l : Nat) : Prop :=
  ∀ b nb, Up V.mem l b → b ≠ l → V.mem.cells b = some nb → Good L nb

/-- The addresses outside the window from `lo` up to `hi`. -/
def outside (lo hi : Nat) : Nat → Bool := fun a => !(decide (lo ≤ a) && decide (a < hi))
/-- The record `nb` of a reduced tree carries the data of the source record `nx`. -/
def CopyData (nx nb : LineageTreeNode) : Prop :=
  nb.lng = nx.lng ∧ nb.t = nx.t ∧ nb.tSample = nx.tSample ∧ nb.locSample = nx.locSample ∧
  nb.sampled = nx.sampled ∧ nb.extant = nx.extant ∧ nb.data = nx.data

/-- The flags `needed` that are set in `m` sit on source nodes whose subtree holds a sampled
node. -/
def FlagsSound (s : LineageTree) (m : Mem) : Prop :=
  ∀ b nb, s.mem.cells b ≠ none → m.cells b = some nb → nb.needed = true → HasSampled s.mem b

/-- The cells of `m` from `lo` up to `hi` hold the reduced tree of the source root `x`,
rooted at `r`: a well-formed tree whose nodes carry the data of nodes below `x`, in which
every unsampled node has at least two children, which holds every sampled lineage below
`x`, and whose edge times are ordered when those of the source are. -/
structure RedWin (s : LineageTree) (x : Nat) (m : Mem) (lo hi r : Nat) : Prop where
  lo_ge : s.mem.next ≤ lo
  hi_le : hi ≤ m.next
  struct : Struct none (viewTree (outside lo hi) m hi [r] 0)
  src : ∀ b nb, (viewTree (outside lo hi) m hi [r] 0).mem.cells b = some nb →
    ∃ a na, Desc s.mem x a ∧ s.mem.cells a = some na ∧ CopyData na nb
  shape : ∀ b nb, (viewTree (outside lo hi) m hi [r] 0).mem.cells b = some nb →
    nb.sampled = true ∨ 2 ≤ nb.children.length
  cover : ∀ a na, Desc s.mem x a → s.mem.cells a = some na → na.sampled = true →
    ∃ b nb, (viewTree (outside lo hi) m hi [r] 0).mem.cells b = some nb ∧ nb.lng = na.lng
  time : TimeInv s → TimeInv (viewTree (outside lo hi) m hi [r] 0)

mutual
/-- The tree `T` is the transmission tree stored in the cells `c` below the address `a`. -/
inductive Repr (c : Nat → Option LineageTreeNode) : Nat → LTree → Prop where
  | mk {a : Nat} {n : LineageTreeNode} {ks : List LTree} :
      c a = some n → ReprList c n.children ks → Repr c a (.mk n ks)
/-- The trees `Ts` are the transmission trees stored below the addresses `cs`, in order. -/
inductive ReprList (c : Nat → Option LineageTreeNode) : List Nat → List LTree → Prop where
  | nil : ReprList c [] []
  | cons {a : Nat} {cs : List Nat} {T : LTree} {Ts : List LTree} :
      Repr c a T → ReprList c cs Ts → ReprList c (a :: cs) (T :: Ts)
end
/-- Sampling times: a sampled node is sampled no earlier than its birth. -/
def SampleTimeInv (s : LineageTree) : Prop :=
  ∀ a n, s.mem.cells a = some n → n.sampled = true → n.t ≤ n.tSample

/-- Time discipline of a sampling call: a lineage is not sampled before its birth. -/
def opSampleTimed (s : LineageTree) : Op → Bool
  | .sample lng t _ =>
    match mapFind s.extantLngs lng with
    | some a =>
      match s.mem.cells a with
      | some n => decide (n.t ≤ t)
      | none => true
    | none => true
  | _ => true

/-- Time discipline of the sampling calls along a sequence of calls. -/
def sampleTimedOps (s : LineageTree) : List Op → Bool
  | [] => true
  | op :: ops =>
    opSampleTimed s op &&
      (match applyOp s op with
       | .ok s' => sampleTimedOps s' ops
       | .error _ => true)

mutual
/-- The records of the nodes of a transmission tree, parents before children. -/
def LTree.nodes : LTree → List LineageTreeNode
  | .mk n ks => n :: LTree.nodesList ks
/-- The records of the nodes of a list of trees. -/
def LTree.nodesList : List LTree → List LineageTreeNode
  | [] => []
  | t :: ts => LTree.nodes t ++ LTree.nodesList ts
end

/-- The call creates no node born after time `T`. -/
def opBefore (T : Int) : Op → Bool
  | .addExternal t _ _ => decide (t ≤ T)
  | .add t _ _ _ => decide (t ≤ T)
  | _ => true

/-- The exponential variates of the stream are not negative. -/
def RandomStream.expoNonneg (g : RandomStream) : Prop := ∀ k, 0 ≤ g.expo k

/-- Invariant of the simulator on event times: the edge times of the tree are ordered, no
node is sampled before its birth, and no node is born after the current time. -/
structure SimTime (s : Simulator) : Prop where
  time : TimeInv s.tree_mngr
  stime : SampleTimeInv s.tree_mngr
  clock : ∀ a n, s.tree_mngr.mem.cells a = some n → n.t ≤ s.t

/-- Invariant of the simulator on the sets of the tree manager: `roots` and
`sampled_lineages` hold no element twice. -/
structure SimSets (s : Simulator) : Prop where
  rootsNodup : s.tree_mngr.roots.Nodup
  sampledNodup : s.tree_mngr.sampled_lineages.Nodup
/-- The number of commas in a string. -/
def commaCount (s : String) : Nat := s.toList.count ','
/-- A stream given by the lists of its uniform and exponential variates (zero beyond the
lists). -/
def pairStream (us : List Frac) (es : List Int) : RandomStream :=
  { uni := fun k => us.getD k ⟨0, 1⟩, expo := fun k => es.getD k 0 }

/-- A stream on which lineage `1` infects `2` and, after a waiting time of zero, `3`; then
`2` infects `4`, `3` infects `5`, and `4` and `5` are removed and sampled. -/
def tieStream : RandomStream :=
  pairStream
    [⟨0, 1⟩, ⟨0, 1⟩, ⟨0, 1⟩, ⟨0, 1⟩, ⟨0, 1⟩, ⟨0, 1⟩, ⟨0, 1⟩, ⟨1, 3⟩, ⟨0, 1⟩, ⟨0, 1⟩, ⟨1, 2⟩,
     ⟨0, 1⟩, ⟨3, 4⟩, ⟨3, 5⟩, ⟨0, 1⟩, ⟨0, 1⟩, ⟨3, 4⟩, ⟨3, 4⟩, ⟨0, 1⟩]
    [2, 0, 0, 0, 0, 6, 0, 0, 8, 0, 0, 10, 0, 0, 0, 8]

/-- Whether address `a` holds a node that satisfies `p`. -/
def nodeIs (c : Nat → Option LineageTreeNode) (p : LineageTreeNode → Bool) (a : Nat) : Bool :=
  match c a with
  | some n => p n
  | none => false

/-- Number of addresses below `n` that hold a node satisfying `p`. -/
def countBelow (c : Nat → Option LineageTreeNode) (p : LineageTreeNode → Bool) : Nat → Nat
  | 0 => 0
  | n + 1 => countBelow c p n + (if nodeIs c p n then 1 else 0)

/-- Number of stored nodes that are extant or sampled. -/
def markedCount (m : Mem) : Nat :=
  countBelow m.cells (fun n => n.extant || n.sampled) m.next

/-- States of the simulator reached from `s0` by advances of the clock and by calls of
`apply_infection` and `apply_removal` that are made while `I ≠ 0`. -/
inductive SimReach (g : RandomStream) (s0 : Simulator) : Simulator → Prop where
  | start : SimReach g s0 s0
  | tick {s : Simulator} (dt : Int) : SimReach g s0 s → SimReach g s0 { s with t := s.t + dt }
  | infection {s s2 : Simulator} {pos p2 : Nat} : SimReach g s0 s → s.I ≠ 0 →
      apply_infection g s pos = .ok (s2, p2) → SimReach g s0 s2
  | removal {s s2 : Simulator} {pos p2 : Nat} (prob_sampling : Frac) : SimReach g s0 s →
      s.I ≠ 0 → apply_removal g s pos prob_sampling = .ok (s2, p2) → SimReach g s0 s2

/-- The link of the node `b` of the tree `V` once every node with one child and a lineage
outside `L` has been removed by `removeRedundantNodeMerge`: `q` is the nearest kept proper
ancestor of `b` (the new `parent`) and `t` the new `tBranchParent`.  A child that is handed
over to the parent of a removed node inherits the branching time of the removed node; a
child that is promoted to a root gets its own birth time. -/
inductive Link (L : List Nat) (V : LineageTree) : Nat → Option Nat → Int → Prop where
  | root {b : Nat} {nb : LineageTreeNode} : V.mem.cells b = some nb → nb.parent = none →
      Link L V b none nb.tBranchParent
  | kept {b p : Nat} {nb np : LineageTreeNode} : V.mem.cells b = some nb →
      nb.parent = some p → V.mem.cells p = some np → Good L np →
      Link L V b (some p) nb.tBranchParent
  | skipRoot {b p : Nat} {nb np : LineageTreeNode} {t : Int} : V.mem.cells b = some nb →
      nb.parent = some p → V.mem.cells p = some np → ¬ Good L np → Link L V p none t →
      Link L V b none nb.t
  | skip {b p g : Nat} {nb np : LineageTreeNode} {t : Int} : V.mem.cells b = some nb →
      nb.parent = some p → V.mem.cells p = some np → ¬ Good L np → Link L V p (some g) t →
      Link L V b (some g) t

/-- A record without its vector `children`. -/
def stripKids (n : LineageTreeNode) : LineageTreeNode := { n with children := [] }

/-- The memories `m1` and `m2` hold the same nodes up to the order of the vectors
`children`. -/
def SameUpToKids (m1 m2 : Mem) : Prop :=
  ∀ a, (m1.cells a).map stripKids = (m2.cells a).map stripKids ∧
    ∀ n1 n2, m1.cells a = some n1 → m2.cells a = some n2 → n1.children.Perm n2.children

/-- A record without its pointers `parent` and `children`. -/
def stripNode (n : LineageTreeNode) : LineageTreeNode := { n with parent := none, children := [] }

mutual
/-- Canonical form of a transmission tree up to the addresses of its nodes and the order of
the children: the pointers are dropped and, at every node, the children are sorted by
`tBranchParent`. -/
def LTree.canon : LTree → LTree
  | .mk n ks => .mk (stripNode n) (sortKids (LTree.canonList ks))
/-- Canonical forms of the trees of a list. -/
def LTree.canonList : List LTree → List LTree
  | [] => []
  | t :: ts => LTree.canon t :: LTree.canonList ts
end

/-- The children of the node have pairwise distinct `tBranchParent`. -/
def distinctQ (_ : LineageTreeNode) (ks : List LTree) : Bool :=
  decide ((ks.map (fun k => k.node.tBranchParent)).Nodup)

/-- The children that `getAncestralTree` works on: sorted on the first call on a node,
as they are on the later calls on the same node. -/
def entryKids (n : LineageTreeNode) (pp : Option PhyloParent) (ks : List LTree) : List LTree :=
  if (entryState n pp).depth = 0 then sortKids ks else ks

/-- No child carries the lineage of `n`, and below the children no node carries the lineage
of its parent. -/
def GoodKidsC (n : LineageTreeNode) (cs : List LTree) : Prop :=
  ∀ c ∈ cs, c.node.lng ≠ n.lng ∧ (LTree.canon c).all edgeDistinctQ = true

/-- Two results of a call of `getAncestralTree` on the nodes `n` and `n'` agree: both fail
in the same way, or both return the same phylogeny and trees whose children are those in
`cs` up to the canonical form. -/
def ResRel (n n' : LineageTreeNode) (cs : List LTree) :
    Except Err (LTree × PhyloNode) → Except Err (LTree × PhyloNode) → Prop
  | .ok (T1, P1), .ok (T2, P2) => P1 = P2 ∧ ∃ k1 k2, T1 = .mk n k1 ∧ T2 = .mk n' k2 ∧
      k1.map LTree.canon = cs.map LTree.canon ∧ k2.map LTree.canon = cs.map LTree.canon
  | .error e1, .error e2 => e1 = e2
  | _, _ => False

/-- Two results of a call of `getAncestralTree` on a child agree: both fail in the same way,
or both return the same phylogeny and trees with the canonical form `C`. -/
def ChildRel (C : LTree) :
    Except Err (LTree × PhyloNode) → Except Err (LTree × PhyloNode) → Prop
  | .ok (T1, P1), .ok (T2, P2) => P1 = P2 ∧ T1.canon = C ∧ T2.canon = C
  | .error e1, .error e2 => e1 = e2
  | _, _ => False

/-- The recursive call treats trees with the same canonical form alike. -/
def GatSim (rec : LTree → Option PhyloParent → Except Err (LTree × PhyloNode)) : Prop :=
  ∀ (n n' : LineageTreeNode) (ks ks' : List LTree) (pp : Option PhyloParent),
    stripNode n = stripNode n' →
    (entryKids n pp ks).map LTree.canon = (entryKids n pp ks').map LTree.canon →
    GoodKidsC n (entryKids n pp ks) →
    ResRel n n' (entryKids n pp ks) (rec (.mk n ks) pp) (rec (.mk n' ks') pp)

/-- The tree built by the first four calls of `exampleOps`: lineage `1` infects `2` and `3`,
and `2` infects `4`. -/
def forkTree : LineageTree :=
  match runOps LineageTree.empty (exampleOps.take 4) with
  | .ok s => s
  | .error _ => LineageTree.empty

/-- The nodes that the reduction keeps: `a` carries a sample, or two of its children have a
sampled node in their subtrees. -/
def KS (m : Mem) (a : Nat) : Prop :=
  ∃ na, m.cells a = some na ∧ (na.sampled = true ∨
    ∃ c1 c2, c1 ∈ na.children ∧ c2 ∈ na.children ∧ c1 ≠ c2 ∧ HasSampled m c1 ∧
      HasSampled m c2)

/-- Nearest kept ancestor: `LinkK K c b q t` holds when, in the tree stored in the cells `c`,
`q` is the nearest proper ancestor of `b` that satisfies `K` (`none` when there is none) and
`t` is the branching time that `b` has once the ancestors in between are merged away: its own
`tBranchParent` when its parent is kept or missing, the `tBranchParent` of the topmost merged
ancestor when `b` is handed over to `q`, and its own birth time when it becomes a root. -/
inductive LinkK (K : Nat → Prop) (c : Nat → Option LineageTreeNode) :
    Nat → Option Nat → Int → Prop where
  | root {b : Nat} {nb : LineageTreeNode} : c b = some nb → nb.parent = none →
      LinkK K c b none nb.tBranchParent
  | kept {b p : Nat} {nb : LineageTreeNode} : c b = some nb → nb.parent = some p → K p →
      LinkK K c b (some p) nb.tBranchParent
  | skipRoot {b p : Nat} {nb : LineageTreeNode} {t : Int} : c b = some nb →
      nb.parent = some p → ¬ K p → LinkK K c p none t → LinkK K c b none nb.t
  | skip {b p g : Nat} {nb : LineageTreeNode} {t : Int} : c b = some nb →
      nb.parent = some p → ¬ K p → LinkK K c p (some g) t → LinkK K c b (some g) t

/-- The tree `V` is a copy of the part of the tree of `s` below the root `x` that leads to
the sampled nodes: its nodes copy nodes below `x`, its root copies `x`, the parent of a copy
copies the parent of the original, its leaves are sampled and every sampled node below `x`
has a copy. -/
structure CopyTree (s : LineageTree) (x : Nat) (V : LineageTree) : Prop where
  hs : Struct none s
  hv : Struct none V
  hx : ∃ nx, s.mem.cells x = some nx ∧ nx.parent = none
  src : ∀ b nb, V.mem.cells b = some nb →
    ∃ a na, Desc s.mem x a ∧ s.mem.cells a = some na ∧ IsCopy na nb
  top : ∀ b nb, V.mem.cells b = some nb → nb.parent = none →
    ∃ nx, s.mem.cells x = some nx ∧ nb.lng = nx.lng
  mirror : ∀ b nb p np, V.mem.cells b = some nb → nb.parent = some p →
    V.mem.cells p = some np →
    ∃ a na y ny, s.mem.cells a = some na ∧ nb.lng = na.lng ∧ na.parent = some y ∧
      s.mem.cells y = some ny ∧ np.lng = ny.lng
  leaf : ∀ b nb, V.mem.cells b = some nb → nb.children = [] → nb.sampled = true
  cover : ∀ a na, Desc s.mem x a → s.mem.cells a = some na → na.sampled = true →
    ∃ b nb, V.mem.cells b = some nb ∧ nb.lng = na.lng

/-- The forest stored in the cells `c` is the reduction of the tree stored in the cells
`cs` to its nodes among `S`, where `K` tells which nodes are kept: every node of `c` carries
the data of a node among `S`, hangs below the copy of the nearest kept ancestor of that node
(or is a root when there is none) and has the branching time that the merges leave; every
node among `S` has a copy in `c`. -/
structure Realises (cs : Nat → Option LineageTreeNode) (S K : Nat → Prop)
    (c : Nat → Option LineageTreeNode) : Prop where
  node : ∀ b nb, c b = some nb →
    ∃ a na q, S a ∧ cs a = some na ∧ CopyData na nb ∧ nb.needed = false ∧
      LinkK K cs a q nb.tBranchParent ∧
      ((nb.parent = none ∧ q = none) ∨ ∃ p np g ng, nb.parent = some p ∧ q = some g ∧
        c p = some np ∧ cs g = some ng ∧ np.lng = ng.lng)
  cover : ∀ a na, S a → cs a = some na → ∃ b nb, c b = some nb ∧ nb.lng = na.lng

/-- The cells of `m` from `lo` up to `hi` hold the reduced tree of the source root `x`,
rooted at `r`, node by node: the reduction of the tree of `s` to the kept nodes below `x`. -/
def RedFacts (s : LineageTree) (x : Nat) (m : Mem) (lo hi r : Nat) : Prop :=
  Realises s.mem.cells (fun a => Desc s.mem x a ∧ KS s.mem a) (KS s.mem)
    (viewTree (outside lo hi) m hi [r] 0).mem.cells
/-- A reduced tree in the memory: the source root `x` it was made from, its root `r` and the
range of addresses, from `lo` up to `hi`, that holds its nodes. -/
structure Win where
  x : Nat
  r : Nat
  lo : Nat
  hi : Nat

/-- The window `w` of the memory `m` holds the reduced tree of its source root. -/
def WinOK (s : LineageTree) (m : Mem) (w : Win) : Prop :=
  RedWin s w.x m w.lo w.hi w.r ∧ RedFacts s w.x m w.lo w.hi w.r

/-- Order of the children by lineage id. -/
def kidLeLng (a b : LTree) : Prop := a.node.lng ≤ b.node.lng

instance kidLeLngDecidable : DecidableRel kidLeLng :=
  fun a b => inferInstanceAs (Decidable (a.node.lng ≤ b.node.lng))

/-- The children sorted by lineage id. -/
def sortKidsLng (ks : List LTree) : List LTree := ks.insertionSort kidLeLng

mutual
/-- Canonical form of a transmission tree up to the addresses of its nodes and the order of
the children: the pointers `parent` and `children` are dropped from every record and, at
every node, the children are sorted by their lineage id. -/
def LTree.canonLng : LTree → LTree
  | .mk n ks => .mk (stripNode n) (sortKidsLng (LTree.canonLngList ks))
/-- Canonical forms of the trees of a list. -/
def LTree.canonLngList : List LTree → List LTree
  | [] => []
  | t :: ts => LTree.canonLng t :: LTree.canonLngList ts
end

/-- The cells `c` hold a forest: children and parents point at each other, no child is
listed twice and no lineage is stored twice. -/
structure TreeStore (c : Nat → Option LineageTreeNode) : Prop where
  childLive : ∀ a n ch, c a = some n → ch ∈ n.children →
    ∃ nc, c ch = some nc ∧ nc.parent = some a
  parentLive : ∀ a n p, c a = some n → n.parent = some p →
    ∃ np, c p = some np ∧ a ∈ np.children
  childNodup : ∀ a n, c a = some n → n.children.Nodup
  lngInj : ∀ a b na nb, c a = some na → c b = some nb → na.lng = nb.lng → a = b

/-- Every node stored in `c1` has a counterpart in `c2`: a node with the same record up to
the pointers, which is a root when the node is one and whose parent otherwise carries the
lineage of the parent of the node. -/
def Match (c1 c2 : Nat → Option LineageTreeNode) : Prop :=
  ∀ b nb, c1 b = some nb → ∃ b' nb', c2 b' = some nb' ∧ stripNode nb' = stripNode nb ∧
    (nb.parent = none → nb'.parent = none) ∧
    (∀ p np, nb.parent = some p → c1 p = some np →
      ∃ p' np', nb'.parent = some p' ∧ c2 p' = some np' ∧ np'.lng = np.lng)

/-- Lineage id stored at an address (`0` for a free cell). -/
def lngAt (c : Nat → Option LineageTreeNode) (a : Nat) : Nat :=
  match c a with
  | some n => n.lng
  | none => 0

/-- Removal of a lineage without pruning (the reference behaviour that the pruning of
`removeExtantLineage` is compared with): the node is marked extinct and the lineage is erased
from `extantLngs`; no node is freed or merged. -/
def removeExtantLineageLazy (s : LineageTree) (lng : Nat) : Except Err LineageTree := do
  let lngNode ← s.extantNode lng
  let n ← s.mem.get lngNode
  pure { s with mem := s.mem.set lngNode { n with extant := false },
                extantLngs := mapErase s.extantLngs lng }

/-- Run one call of the public interface, with the removal that does not prune. -/
def applyOpLazy (s : LineageTree) : Op → Except Err LineageTree
  | .remove lng _ => removeExtantLineageLazy s lng
  | op => applyOp s op

/-- Run a sequence of calls, left to right, with the removal that does not prune. -/
def runOpsLazy (s : LineageTree) : List Op → Except Err LineageTree
  | [] => .ok s
  | op :: ops =>
    match applyOpLazy s op with
    | .ok s' => runOpsLazy s' ops
    | .error e => .error e

/-- The lineage id that a call adds to the tree, if any. -/
def Op.addedLng : Op → Option Nat
  | .addExternal _ lng _ => some lng
  | .add _ lng _ _ => some lng
  | _ => none

/-- The forest that `subSampleTree` returns for the tree built by the calls `ops`, which are
run by `run` from the empty tree. -/
def reducedForest (run : LineageTree → List Op → Except Err LineageTree)
    (ord : List Nat → List Nat) (ops : List Op) : Except Err (List LTree) :=
  match run LineageTree.empty ops with
  | .error e => .error e
  | .ok s =>
    match subSampleTree ord s with
    | .error e => .error e
    | .ok (tree, res) => toTreeList (toTree tree.mem.next tree.mem) res

/-- Relation between the cells `ce` of the eagerly pruned tree and the memory `ml` of the
tree that is not pruned: every node of `ce` is stored in `ml` at the same address with the
same data; its parent in `ce` is its nearest ancestor in `ml` that is still stored in `ce`,
with the branching time that the merges leave; a node that is only in `ml` is extinct and
unsampled and the nodes of `ce` below it all hang below one and the same child of it. -/
structure LazyRel (ce : Nat → Option LineageTreeNode) (ml : Mem) : Prop where
  data : ∀ a ne, ce a = some ne → ∃ nl, ml.cells a = some nl ∧ SameData ne nl
  link : ∀ a ne, ce a = some ne →
    LinkK (fun p => ce p ≠ none) ml.cells a ne.parent ne.tBranchParent
  flags : ∀ a nl, ml.cells a = some nl → ce a = none →
    nl.extant = false ∧ nl.sampled = false
  onePath : ∀ a c1 c2 d1 d2 n1 n2, ce a = none → ml.cells c1 = some n1 →
    n1.parent = some a → ml.cells c2 = some n2 → n2.parent = some a →
    Up ml d1 c1 → Up ml d2 c2 → ce d1 ≠ none → ce d2 ≠ none → c1 = c2

/-- The eagerly pruned tree `se` and the tree `sl` built by the same calls without
pruning. -/
structure Lazy (se sl : LineageTree) : Prop where
  inv : Inv se
  struct : Struct none sl
  rel : LazyRel se.mem.cells sl.mem
  next : sl.mem.next = se.mem.next
  extantLngs : sl.extantLngs = se.extantLngs
  rootsNodup : sl.roots.Nodup
  noNeeded : ∀ a nl, sl.mem.cells a = some nl → nl.needed = false

/-- The cells of `m` from the address `lo` on: the part of the memory that holds the trees
returned by a call of `subSampleTree` that started with `lo` allocated addresses. -/
def forestCells (m : Mem) (lo : Nat) (b : Nat) : Option LineageTreeNode :=
  if b < lo then none else m.cells b

/-- The windows of the memory `m` that hold the trees returned by a call of `subSampleTree`
on `s` that started with `lo` allocated addresses. -/
structure Forest (s : LineageTree) (m : Mem) (lo : Nat) (W : List Win) : Prop where
  hs : Struct none s
  bound : ∀ a, m.next ≤ a → m.cells a = none
  win : ∀ w ∈ W, WinOK s m w ∧ lo ≤ w.lo ∧ w.hi ≤ m.next
  tile : ∀ b, lo ≤ b → b < m.next → ∃ w ∈ W, w.lo ≤ b ∧ b < w.hi
  sel : ∀ x ∈ s.roots, HasSampled s.mem x → x ∈ W.map Win.x
  selRoot : ∀ w ∈ W, w.x ∈ s.roots
  nodup : (W.map Win.x).Nodup

/-- The duration `dI = 2.3e-308`, the fraction `23 / 10^309` (the denominator is written out
in decimal): with `R0 = 4` the rates `mu = 1 / dI` and `beta = R0 * mu` are finite and their
sum overflows. -/
def tinyDI : Frac :=
  ⟨23, 1000000000000000000000000000000000000000000000000000000000000000000000000000000000000000000000000000000000000000000000000000000000000000000000000000000000000000000000000000000000000000000000000000000000000000000000000000000000000000000000000000000000000000000000000000000000000000000000000000000000000000000000⟩

/-! # Proofs -/

theorem bind_ok_iff {ε α β : Type} {x : Except ε α} {f : α → Except ε β} {b : β} :
    (x >>= f) = .ok b ↔ ∃ a, x = .ok a ∧ f a = .ok b := by
  cases x <;> simp [bind, Except.bind]

@[simp] theorem Mem.set_cells (m : Mem) (a : Nat) (n : LineageTreeNode) (b : Nat) :
    (m.set a n).cells b = if b = a then some n else m.cells b := rfl

@[simp] theorem Mem.set_next (m : Mem) (a : Nat) (n : LineageTreeNode) :
    (m.set a n).next = m.next := rfl

@[simp] theorem Mem.free_cells (m : Mem) (a b : Nat) :
    (m.free a).cells b = if b = a then none else m.cells b := rfl

@[simp] theorem Mem.free_next (m : Mem) (a : Nat) : (m.free a).next = m.next := rfl

@[simp] theorem Mem.alloc_cells (m : Mem) (n : LineageTreeNode) (b : Nat) :
    (m.alloc n).1.cells b = if b = m.next then some n else m.cells b := rfl

@[simp] theorem Mem.alloc_next (m : Mem) (n : LineageTreeNode) :
    (m.alloc n).1.next = m.next + 1 := rfl

@[simp] theorem Mem.alloc_addr (m : Mem) (n : LineageTreeNode) : (m.alloc n).2 = m.next := rfl

theorem Mem.get_ok_iff (m : Mem) (a : Nat) (n : LineageTreeNode) :
    m.get a = .ok n ↔ m.cells a = some n := by
  unfold Mem.get
  cases h : m.cells a <;> simp

theorem Mem.get_of_cells {m : Mem} {a : Nat} {n : LineageTreeNode} (h : m.cells a = some n) :
    m.get a = .ok n := (Mem.get_ok_iff m a n).2 h

theorem mapFind_mapSet (l : List (Nat × Nat)) (k k' : Nat) (a : Nat) :
    mapFind (mapSet l k a) k' = if k' = k then some a else mapFind l k' := by
  induction l with
  | nil =>
    by_cases h : k' = k
    · simp [mapSet, mapFind, h]
    · have : ¬ k = k' := fun e => h e.symm
      simp [mapSet, mapFind, h, this]
  | cons p rest ih =>
    obtain ⟨k0, a0⟩ := p
    by_cases h0 : k0 = k
    · subst h0
      by_cases h : k' = k0
      · simp [mapSet, mapFind, h]
      · have : ¬ k0 = k' := fun e => h e.symm
        simp [mapSet, mapFind, h, this]
    · by_cases h : k' = k
      · subst h
        simp [mapSet, mapFind, h0, ih]
      · by_cases h1 : k0 = k'
        · simp [mapSet, mapFind, h0, h, h1]
        · simp [mapSet, mapFind, h0, h, h1, ih]

theorem mapFind_mapErase (l : List (Nat × Nat)) (k k' : Nat) :
    mapFind (mapErase l k) k' = if k' = k then none else mapFind l k' := by
  induction l with
  | nil => simp [mapErase, mapFind]
  | cons p rest ih =>
    obtain ⟨k0, a0⟩ := p
    unfold mapErase at ih ⊢
    by_cases h0 : k0 = k
    · subst h0
      by_cases h : k' = k0
      · simp [mapFind, h] at ih ⊢
        simpa [h] using ih
      · have : ¬ k0 = k' := fun e => h e.symm
        simp [mapFind, h, this] at ih ⊢
        simpa [h] using ih
    · by_cases h : k' = k
      · subst h
        simp [mapFind, h0] at ih ⊢
        exact ih
      · by_cases h1 : k0 = k'
        · simp [mapFind, h0, h, h1]
        · simp [mapFind, h0, h, h1] at ih ⊢
          simpa [h] using ih

theorem mem_setInsert {α : Type} [DecidableEq α] (l : List α) (a b : α) :
    b ∈ setInsert l a ↔ b ∈ l ∨ b = a := by
  unfold setInsert
  split
  · constructor
    · intro h; exact Or.inl h
    · rintro (h | h)
      · exact h
      · subst h; assumption
  · simp

theorem mem_setErase {α : Type} [DecidableEq α] (l : List α) (a b : α) :
    b ∈ setErase l a ↔ b ∈ l ∧ b ≠ a := by
  simp [setErase]

theorem swapLast_perm (xs : List Nat) :
    (match xs.getLast? with
     | none => []
     | some l => l :: xs.dropLast).Perm xs := by
  rcases List.eq_nil_or_concat xs with h | ⟨ys, y, h⟩
  · subst h; simp
  · subst h
    simp [List.getLast?_concat, List.dropLast_concat]
    exact (List.perm_append_singleton y ys).symm

theorem eraseChildList_spec (cells : Nat → Option LineageTreeNode) (x : Nat)
    (target : Nat) :
    ∀ cs : List Nat,
      (∀ y ∈ cs, ∃ ny, cells y = some ny ∧ (ny.lng = target ↔ y = x)) →
      ∃ cs', eraseChildList cells target cs = .ok cs' ∧ cs'.Perm (cs.erase x) := by
  intro cs
  induction cs with
  | nil => intro _; exact ⟨[], rfl, List.Perm.refl _⟩
  | cons y ys ih =>
    intro h
    obtain ⟨ny, hy, hiff⟩ := h y (List.mem_cons_self _ _)
    by_cases hyx : y = x
    · subst hyx
      refine ⟨(match ys.getLast? with
               | none => []
               | some l => l :: ys.dropLast), ?_, ?_⟩
      · simp only [eraseChildList, hy, hiff.2 rfl, if_true]
      · simpa using swapLast_perm ys
    · have hne : ¬ ny.lng = target := fun e => hyx (hiff.1 e)
      obtain ⟨cs', h1, h2⟩ := ih (fun z hz => h z (List.mem_cons_of_mem _ hz))
      refine ⟨y :: cs', ?_, ?_⟩
      · simp only [eraseChildList, hy, hne, if_false, h1]
      · rw [List.erase_cons_tail (by simpa using hyx)]
        exact List.Perm.cons y h2

theorem Struct.congr {z : Option Nat} {s s' : LineageTree} (h : Struct z s)
    (hnext : s'.mem.next = s.mem.next) (hroots : s'.roots = s.roots)
    (hfwd : ∀ b nb, s'.mem.cells b = some nb → ∃ nb0, s.mem.cells b = some nb0 ∧
      nb.parent = nb0.parent ∧ nb.children = nb0.children ∧ nb.lng = nb0.lng)
    (hbwd : ∀ b nb0, s.mem.cells b = some nb0 → ∃ nb, s'.mem.cells b = some nb ∧
      nb.parent = nb0.parent ∧ nb.children = nb0.children ∧ nb.lng = nb0.lng) :
    Struct z s' := by
  constructor
  · intro a ha
    cases hc : s'.mem.cells a with
    | none => rfl
    | some nb =>
      obtain ⟨nb0, h0, _⟩ := hfwd a nb hc
      rw [h.bound a (hnext ▸ ha)] at h0
      cases h0
  · intro a n c haz ha hc
    obtain ⟨n0, h0, hp, hch, hl⟩ := hfwd a n ha
    obtain ⟨hcz, nc, hnc, hpar⟩ := h.childLive a n0 c haz h0 (hch ▸ hc)
    obtain ⟨nc', hnc', hp', _, _⟩ := hbwd c nc hnc
    exact ⟨hcz, nc', hnc', hp'.trans hpar⟩
  · intro a n p haz ha hp
    obtain ⟨n0, h0, hp0, hch, hl⟩ := hfwd a n ha
    obtain ⟨hpz, np, hnp, hmem⟩ := h.parentLive a n0 p haz h0 (hp0 ▸ hp)
    obtain ⟨np', hnp', _, hch', _⟩ := hbwd p np hnp
    exact ⟨hpz, np', hnp', hch' ▸ hmem⟩
  · intro a n haz ha
    obtain ⟨n0, h0, hp0, hch, hl⟩ := hfwd a n ha
    exact hch ▸ h.childNodup a n0 haz h0
  · intro a b na nb haz hbz ha hb hl
    obtain ⟨na0, ha0, _, _, hla⟩ := hfwd a na ha
    obtain ⟨nb0, hb0, _, _, hlb⟩ := hfwd b nb hb
    exact h.lngInj a b na0 nb0 haz hbz ha0 hb0 (by rw [← hla, ← hlb, hl])
  · intro a n p haz ha hp
    obtain ⟨n0, h0, hp0, hch, hl⟩ := hfwd a n ha
    exact h.order a n0 p haz h0 (hp0 ▸ hp)
  · intro a
    rw [hroots, h.rootSet a]
    constructor
    · rintro ⟨haz, n, hn, hp⟩
      obtain ⟨n', hn', hp', _, _⟩ := hbwd a n hn
      exact ⟨haz, n', hn', hp'.trans hp⟩
    · rintro ⟨haz, n, hn, hp⟩
      obtain ⟨n0, h0, hp0, _, _⟩ := hfwd a n hn
      exact ⟨haz, n0, h0, hp0 ▸ hp⟩

theorem Struct.empty_struct : Struct none LineageTree.empty := by
  constructor <;> simp [LineageTree.empty]

theorem lngInTree_false {z : Option Nat} {s : LineageTree} (h : Struct z s) {lng : Nat}
    (hf : lngInTree s lng = false) : ∀ a n, s.mem.cells a = some n → n.lng ≠ lng := by
  intro a n ha hl
  have hlt : a < s.mem.next := by
    by_contra hge
    rw [h.bound a (Nat.le_of_not_lt hge)] at ha
    cases ha
  unfold lngInTree at hf
  rw [List.any_eq_false] at hf
  have := hf a (List.mem_range.2 hlt)
  simp [ha, hl] at this

theorem live_lt_next {z : Option Nat} {s : LineageTree} (h : Struct z s) {a : Nat}
    {n : LineageTreeNode} (ha : s.mem.cells a = some n) : a < s.mem.next := by
  by_contra hge
  rw [h.bound a (Nat.le_of_not_lt hge)] at ha
  cases ha

theorem mergeParentChild_nonroot_eq {s : LineageTree} {mid c g : Nat}
    {nm nc ng : LineageTreeNode} {cs' : List Nat}
    (hmid : s.mem.cells mid = some nm) (hch : nm.children = [c]) (hext : nm.extant = false)
    (hc : s.mem.cells c = some nc) (hpar : nm.parent = some g) (hg : s.mem.cells g = some ng)
    (hcg : c ≠ g) (hcm : c ≠ mid) (hgm : g ≠ mid)
    (hcs : eraseChildList (s.mem.set c { nc with parent := some g }).cells nm.lng ng.children
      = .ok cs') :
    ∃ s', mergeParentChild s mid = .ok s' ∧
      (∀ b, s'.mem.cells b =
        if b = mid then none
        else if b = c then some { nc with parent := some g, tBranchParent := nm.tBranchParent }
        else if b = g then some { ng with children := cs' ++ [c] }
        else s.mem.cells b) ∧
      s'.mem.next = s.mem.next ∧ s'.roots = s.roots ∧ s'.extantLngs = s.extantLngs ∧
      s'.sampled_lineages = s.sampled_lineages ∧ s'.nnodes = uintDec s.nnodes := by
  have hgc : g ≠ c := fun e => hcg e.symm
  have hmc : mid ≠ c := fun e => hcm e.symm
  have hmg : mid ≠ g := fun e => hgm e.symm
  simp only [mergeParentChild, bind, Except.bind, Mem.get_of_cells hmid, hch, hext, hpar,
    Mem.get_of_cells hc, eraseChild]
  simp [Mem.get, hgc, hmc, hmg, hcg, hcm, hgm, hg, hmid, hcs, pure, Except.pure]
  intro b
  by_cases h1 : b = mid
  · simp [h1]
  · by_cases h2 : b = c
    · simp [h1, h2, hcm]
    · by_cases h3 : b = g
      · simp [h1, h2, h3, hgm, hgc]
      · simp [h1, h2, h3]
theorem mergeParentChild_root_eq {s : LineageTree} {mid c : Nat}
    {nm nc : LineageTreeNode}
    (hmid : s.mem.cells mid = some nm) (hch : nm.children = [c]) (hext : nm.extant = false)
    (hc : s.mem.cells c = some nc) (hpar : nm.parent = none) (hcm : c ≠ mid) :
    ∃ s', mergeParentChild s mid = .ok s' ∧
      (∀ b, s'.mem.cells b =
        if b = mid then none
        else if b = c then some { nc with parent := none, tBranchParent := nc.t }
        else s.mem.cells b) ∧
      s'.mem.next = s.mem.next ∧ s'.roots = setInsert (setErase s.roots mid) c ∧
      s'.extantLngs = s.extantLngs ∧
      s'.sampled_lineages = s.sampled_lineages ∧ s'.nnodes = uintDec s.nnodes := by
  have hmc : mid ≠ c := fun e => hcm e.symm
  simp only [mergeParentChild, bind, Except.bind, Mem.get_of_cells hmid, hch, hext, hpar,
    Mem.get_of_cells hc]
  simp [Mem.get, hmc, hcm, hmid, pure, Except.pure]
  intro b
  by_cases h1 : b = mid
  · simp [h1]
  · by_cases h2 : b = c
    · simp [h1, h2, hcm]
    · simp [h1, h2]

theorem eraseChildList_congr {cells1 cells2 : Nat → Option LineageTreeNode} (target : Nat) :
    ∀ cs : List Nat,
      (∀ y ∈ cs, (cells1 y).map (fun n => n.lng) = (cells2 y).map (fun n => n.lng)) →
      eraseChildList cells1 target cs = eraseChildList cells2 target cs := by
  intro cs
  induction cs with
  | nil => intro _; rfl
  | cons y ys ih =>
    intro h
    have hy := h y (List.mem_cons_self _ _)
    have ih' := ih (fun z hz => h z (List.mem_cons_of_mem _ hz))
    cases h1 : cells1 y with
    | none =>
      cases h2 : cells2 y with
      | none => simp [eraseChildList, h1, h2]
      | some n2 => simp [h1, h2] at hy
    | some n1 =>
      cases h2 : cells2 y with
      | none => simp [h1, h2] at hy
      | some n2 =>
        simp [h1, h2] at hy
        simp [eraseChildList, h1, h2, hy, ih']

theorem merge_nonroot_rel {z : Option Nat} {s : LineageTree} (hs : Struct z s)
    {mid c g : Nat} {nm : LineageTreeNode} (hz : some mid ≠ z)
    (hmid : s.mem.cells mid = some nm) (hch : nm.children = [c]) (hext : nm.extant = false)
    (hpar : nm.parent = some g) :
    ∃ s' nc ng cs', mergeParentChild s mid = .ok s' ∧ SpliceRel s s' mid c g nm nc ng cs' ∧
      some c ≠ z ∧ some g ≠ z := by
  obtain ⟨hcz, nc, hc, hcpar⟩ := hs.childLive mid nm c hz hmid (by rw [hch]; exact List.mem_singleton_self c)
  obtain ⟨hgz, ng, hg, hmem⟩ := hs.parentLive mid nm g hz hmid hpar
  have hlt1 : g < mid := hs.order mid nm g hz hmid hpar
  have hlt2 : mid < c := hs.order c nc mid hcz hc hcpar
  have hcg : c ≠ g := by omega
  have hcm : c ≠ mid := by omega
  have hgm : g ≠ mid := by omega
  have hpre : ∀ y ∈ ng.children, ∃ ny, s.mem.cells y = some ny ∧ (ny.lng = nm.lng ↔ y = mid) := by
    intro y hy
    obtain ⟨hyz, ny, hny, _⟩ := hs.childLive g ng y hgz hg hy
    refine ⟨ny, hny, ?_, ?_⟩
    · intro hl
      exact hs.lngInj y mid ny nm hyz hz hny hmid hl
    · intro e
      subst e
      rw [hmid] at hny
      cases hny
      rfl
  obtain ⟨cs', hcs, hperm⟩ := eraseChildList_spec s.mem.cells mid nm.lng ng.children hpre
  have hcs' : eraseChildList (s.mem.set c { nc with parent := some g }).cells nm.lng ng.children
      = .ok cs' := by
    rw [← hcs]
    apply eraseChildList_congr
    intro y _
    by_cases hyc : y = c
    · simp [hyc, hc]
    · simp [hyc]
  obtain ⟨s', h1, h2, h3, h4, h5, h6, h7⟩ :=
    mergeParentChild_nonroot_eq hmid hch hext hc hpar hg hcg hcm hgm hcs'
  exact ⟨s', nc, ng, cs', h1,
    ⟨hmid, hc, hg, hch, hpar, hcpar, hmem, hlt1, hlt2, hperm, h2, h3, h4, h5, h6, h7⟩, hcz, hgz⟩

theorem merge_root_rel {z : Option Nat} {s : LineageTree} (hs : Struct z s)
    {mid c : Nat} {nm : LineageTreeNode} (hz : some mid ≠ z)
    (hmid : s.mem.cells mid = some nm) (hch : nm.children = [c]) (hext : nm.extant = false)
    (hpar : nm.parent = none) :
    ∃ s' nc, mergeParentChild s mid = .ok s' ∧ PromoteRel s s' mid c nm nc ∧ some c ≠ z := by
  obtain ⟨hcz, nc, hc, hcpar⟩ := hs.childLive mid nm c hz hmid (by rw [hch]; exact List.mem_singleton_self c)
  have hlt2 : mid < c := hs.order c nc mid hcz hc hcpar
  have hcm : c ≠ mid := by omega
  obtain ⟨s', h1, h2, h3, h4, h5, h6, h7⟩ := mergeParentChild_root_eq hmid hch hext hc hpar hcm
  exact ⟨s', nc, h1, ⟨hmid, hc, hch, hpar, hcpar, hlt2, h2, h3, h4, h5, h6, h7⟩, hcz⟩

theorem SpliceRel.live_splice {s s' : LineageTree} {mid c g : Nat}
    {nm nc ng : LineageTreeNode} {cs' : List Nat}
    (r : SpliceRel s s' mid c g nm nc ng cs') {b : Nat} {nb' : LineageTreeNode}
    (hb : s'.mem.cells b = some nb') :
    b ≠ mid ∧ ∃ nb, s.mem.cells b = some nb ∧ nb'.lng = nb.lng := by
  rw [r.cells b] at hb
  split_ifs at hb with h1 h2 h3
  · subst h2
    cases hb
    exact ⟨h1, nc, r.hc, rfl⟩
  · subst h3
    cases hb
    exact ⟨h1, ng, r.hg, rfl⟩
  · exact ⟨h1, nb', hb, rfl⟩

theorem SpliceRel.mem_cs {s s' : LineageTree} {mid c g : Nat}
    {nm nc ng : LineageTreeNode} {cs' : List Nat}
    (r : SpliceRel s s' mid c g nm nc ng cs') (hnd : ng.children.Nodup) (x : Nat) :
    x ∈ cs' ↔ x ∈ ng.children ∧ x ≠ mid := by
  rw [r.perm.mem_iff, hnd.mem_erase_iff]
  tauto

theorem SpliceRel.struct_splice {z : Option Nat} {s s' : LineageTree} {mid c g : Nat}
    {nm nc ng : LineageTreeNode} {cs' : List Nat}
    (r : SpliceRel s s' mid c g nm nc ng cs') (hs : Struct z s)
    (hcz : some c ≠ z) (hgz : some g ≠ z) : Struct z s' := by
  have hcg : c ≠ g := (lt_trans r.hlt1 r.hlt2).ne'
  have hcm : c ≠ mid := r.hlt2.ne'
  have hgm : g ≠ mid := r.hlt1.ne
  have hndg : ng.children.Nodup := hs.childNodup g ng hgz r.hg
  have hcnot : c ∉ ng.children := by
    intro hmem
    obtain ⟨_, nc0, h0, hp0⟩ := hs.childLive g ng c hgz r.hg hmem
    rw [r.hc] at h0
    cases h0
    rw [r.hcpar] at hp0
    cases hp0
    exact hgm rfl
  have hc' : s'.mem.cells c =
      some { nc with parent := some g, tBranchParent := nm.tBranchParent } := by
    rw [r.cells c]; simp [hcm]
  have hg' : s'.mem.cells g = some { ng with children := cs' ++ [c] } := by
    rw [r.cells g]; simp [hgm, hcg.symm]
  have hother : ∀ b, b ≠ mid → b ≠ c → b ≠ g → s'.mem.cells b = s.mem.cells b := by
    intro b h1 h2 h3
    rw [r.cells b]; simp [h1, h2, h3]
  constructor
  · intro a ha
    have := hs.bound a (r.next ▸ ha)
    rw [r.cells a]
    split_ifs with h1 h2 h3
    · rfl
    · subst h2; rw [r.hc] at this; cases this
    · subst h3; rw [r.hg] at this; cases this
    · exact this
  · intro a n x haz ha hx
    rw [r.cells a] at ha
    split_ifs at ha with h1 h2 h3
    · subst h2
      cases ha
      obtain ⟨hxz, nx, hnx, hxp⟩ := hs.childLive a nc x haz r.hc hx
      have hxa : a < x := hs.order x nx a hxz hnx hxp
      have h1' : x ≠ mid := by
        intro e; subst e
        rw [r.hmid] at hnx; cases hnx
        rw [r.hpar] at hxp; cases hxp
        exact hcg rfl
      have h3' : x ≠ g := by
        intro e; subst e
        exact absurd (lt_trans (lt_trans r.hlt1 r.hlt2) hxa) (lt_irrefl _)
      refine ⟨hxz, nx, ?_, hxp⟩
      rw [hother x h1' hxa.ne' h3']; exact hnx
    · subst h3
      cases ha
      simp only [List.mem_append, List.mem_singleton] at hx
      rcases hx with hx | hx
      · obtain ⟨hx1, hx2⟩ := (r.mem_cs hndg x).1 hx
        obtain ⟨hxz, nx, hnx, hxp⟩ := hs.childLive a ng x haz r.hg hx1
        have hxa : a < x := hs.order x nx a hxz hnx hxp
        have h2' : x ≠ c := fun e => hcnot (e ▸ hx1)
        refine ⟨hxz, nx, ?_, hxp⟩
        rw [hother x hx2 h2' hxa.ne']; exact hnx
      · subst hx
        exact ⟨hcz, _, hc', rfl⟩
    · obtain ⟨hxz, nx, hnx, hxp⟩ := hs.childLive a n x haz ha hx
      have h1' : x ≠ mid := by
        intro e; subst e
        rw [r.hmid] at hnx; cases hnx
        rw [r.hpar] at hxp; cases hxp
        exact h3 rfl
      have h2' : x ≠ c := by
        intro e; subst e
        rw [r.hc] at hnx; cases hnx
        rw [r.hcpar] at hxp; cases hxp
        exact h1 rfl
      by_cases h3' : x = g
      · subst h3'
        rw [r.hg] at hnx; cases hnx
        exact ⟨hxz, _, hg', hxp⟩
      · refine ⟨hxz, nx, ?_, hxp⟩
        rw [hother x h1' h2' h3']; exact hnx
  · intro a n p haz ha hp
    rw [r.cells a] at ha
    split_ifs at ha with h1 h2 h3
    · subst h2
      cases ha
      simp only [Option.some.injEq] at hp
      subst hp
      exact ⟨hgz, _, hg', by simp⟩
    · subst h3
      cases ha
      obtain ⟨hpz, np, hnp, hmem⟩ := hs.parentLive a ng p haz r.hg hp
      have hpa : p < a := hs.order a ng p haz r.hg hp
      have h1' : p ≠ mid := fun e => absurd (lt_trans r.hlt1 (e ▸ hpa)) (lt_irrefl _)
      have h2' : p ≠ c := fun e =>
        absurd (lt_trans (lt_trans r.hlt1 r.hlt2) (e ▸ hpa)) (lt_irrefl _)
      refine ⟨hpz, np, ?_, hmem⟩
      rw [hother p h1' h2' hpa.ne]; exact hnp
    · obtain ⟨hpz, np, hnp, hmem⟩ := hs.parentLive a n p haz ha hp
      have h1' : p ≠ mid := by
        intro e; subst e
        rw [r.hmid] at hnp; cases hnp
        rw [r.hch] at hmem
        exact h2 (List.mem_singleton.1 hmem)
      by_cases h2' : p = c
      · subst h2'
        rw [r.hc] at hnp; cases hnp
        exact ⟨hpz, _, hc', hmem⟩
      · by_cases h3' : p = g
        · subst h3'
          rw [r.hg] at hnp; cases hnp
          refine ⟨hpz, _, hg', ?_⟩
          simp only [List.mem_append, List.mem_singleton]
          exact Or.inl ((r.mem_cs hndg a).2 ⟨hmem, h1⟩)
        · refine ⟨hpz, np, ?_, hmem⟩
          rw [hother p h1' h2' h3']; exact hnp
  · intro a n haz ha
    rw [r.cells a] at ha
    split_ifs at ha with h1 h2 h3
    · subst h2; cases ha
      exact hs.childNodup a nc haz r.hc
    · subst h3; cases ha
      have hnd' : cs'.Nodup := (r.perm.nodup_iff).2 (hndg.erase mid)
      have hcn : c ∉ cs' := fun h => hcnot ((r.mem_cs hndg c).1 h).1
      exact List.Nodup.append hnd' (List.nodup_singleton c)
        (by
          intro x hx1 hx2
          rw [List.mem_singleton] at hx2
          exact hcn (hx2 ▸ hx1))
    · exact hs.childNodup a n haz ha
  · intro a b na nb haz hbz ha hb hl
    obtain ⟨_, na0, ha0, hla⟩ := r.live_splice ha
    obtain ⟨_, nb0, hb0, hlb⟩ := r.live_splice hb
    exact hs.lngInj a b na0 nb0 haz hbz ha0 hb0 (by rw [← hla, ← hlb, hl])
  · intro a n p haz ha hp
    rw [r.cells a] at ha
    split_ifs at ha with h1 h2 h3
    · subst h2; cases ha
      simp only [Option.some.injEq] at hp
      subst hp
      exact lt_trans r.hlt1 r.hlt2
    · subst h3; cases ha
      exact hs.order a ng p haz r.hg hp
    · exact hs.order a n p haz ha hp
  · intro a
    rw [r.roots, hs.rootSet a]
    constructor
    · rintro ⟨haz, n, hn, hp⟩
      have h1 : a ≠ mid := by
        intro e; subst e; rw [r.hmid] at hn; cases hn; rw [r.hpar] at hp; cases hp
      have h2 : a ≠ c := by
        intro e; subst e; rw [r.hc] at hn; cases hn; rw [r.hcpar] at hp; cases hp
      by_cases h3 : a = g
      · subst h3
        rw [r.hg] at hn; cases hn
        exact ⟨haz, _, hg', hp⟩
      · exact ⟨haz, n, by rw [hother a h1 h2 h3]; exact hn, hp⟩
    · rintro ⟨haz, n, hn, hp⟩
      rw [r.cells a] at hn
      split_ifs at hn with h1 h2 h3
      · cases hn; cases hp
      · subst h3; cases hn
        exact ⟨haz, ng, r.hg, hp⟩
      · exact ⟨haz, n, hn, hp⟩

theorem PromoteRel.live_promote {s s' : LineageTree} {mid c : Nat}
    {nm nc : LineageTreeNode}
    (r : PromoteRel s s' mid c nm nc) {b : Nat} {nb' : LineageTreeNode}
    (hb : s'.mem.cells b = some nb') :
    b ≠ mid ∧ ∃ nb, s.mem.cells b = some nb ∧ nb'.lng = nb.lng := by
  rw [r.cells b] at hb
  split_ifs at hb with h1 h2
  · subst h2
    cases hb
    exact ⟨h1, nc, r.hc, rfl⟩
  · exact ⟨h1, nb', hb, rfl⟩

theorem PromoteRel.struct_promote {z : Option Nat} {s s' : LineageTree} {mid c : Nat}
    {nm nc : LineageTreeNode}
    (r : PromoteRel s s' mid c nm nc) (hs : Struct z s)
    (hmz : some mid ≠ z) (hcz : some c ≠ z) : Struct z s' := by
  have hcm : c ≠ mid := r.hlt.ne'
  have hc' : s'.mem.cells c = some { nc with parent := none, tBranchParent := nc.t } := by
    rw [r.cells c]; simp [hcm]
  have hother : ∀ b, b ≠ mid → b ≠ c → s'.mem.cells b = s.mem.cells b := by
    intro b h1 h2
    rw [r.cells b]; simp [h1, h2]
  constructor
  · intro a ha
    have := hs.bound a (r.next ▸ ha)
    rw [r.cells a]
    split_ifs with h1 h2
    · rfl
    · subst h2; rw [r.hc] at this; cases this
    · exact this
  · intro a n x haz ha hx
    rw [r.cells a] at ha
    split_ifs at ha with h1 h2
    · subst h2
      cases ha
      obtain ⟨hxz, nx, hnx, hxp⟩ := hs.childLive a nc x haz r.hc hx
      have hxa : a < x := hs.order x nx a hxz hnx hxp
      have h1' : x ≠ mid := fun e => absurd (lt_trans r.hlt (e ▸ hxa)) (lt_irrefl _)
      refine ⟨hxz, nx, ?_, hxp⟩
      rw [hother x h1' hxa.ne']; exact hnx
    · obtain ⟨hxz, nx, hnx, hxp⟩ := hs.childLive a n x haz ha hx
      have h1' : x ≠ mid := by
        intro e; subst e
        rw [r.hmid] at hnx; cases hnx
        rw [r.hpar] at hxp; cases hxp
      have h2' : x ≠ c := by
        intro e; subst e
        rw [r.hc] at hnx; cases hnx
        rw [r.hcpar] at hxp; cases hxp
        exact h1 rfl
      refine ⟨hxz, nx, ?_, hxp⟩
      rw [hother x h1' h2']; exact hnx
  · intro a n p haz ha hp
    rw [r.cells a] at ha
    split_ifs at ha with h1 h2
    · subst h2
      cases ha
      cases hp
    · obtain ⟨hpz, np, hnp, hmem⟩ := hs.parentLive a n p haz ha hp
      have h1' : p ≠ mid := by
        intro e; subst e
        rw [r.hmid] at hnp; cases hnp
        rw [r.hch] at hmem
        exact h2 (List.mem_singleton.1 hmem)
      by_cases h2' : p = c
      · subst h2'
        rw [r.hc] at hnp; cases hnp
        exact ⟨hpz, _, hc', hmem⟩
      · refine ⟨hpz, np, ?_, hmem⟩
        rw [hother p h1' h2']; exact hnp
  · intro a n haz ha
    rw [r.cells a] at ha
    split_ifs at ha with h1 h2
    · subst h2; cases ha
      exact hs.childNodup a nc haz r.hc
    · exact hs.childNodup a n haz ha
  · intro a b na nb haz hbz ha hb hl
    obtain ⟨_, na0, ha0, hla⟩ := r.live_promote ha
    obtain ⟨_, nb0, hb0, hlb⟩ := r.live_promote hb
    exact hs.lngInj a b na0 nb0 haz hbz ha0 hb0 (by rw [← hla, ← hlb, hl])
  · intro a n p haz ha hp
    rw [r.cells a] at ha
    split_ifs at ha with h1 h2
    · subst h2; cases ha
      cases hp
    · exact hs.order a n p haz ha hp
  · intro a
    rw [r.roots, mem_setInsert, mem_setErase, hs.rootSet a]
    constructor
    · rintro (⟨⟨haz, n, hn, hp⟩, hne⟩ | rfl)
      · have h2 : a ≠ c := by
          intro e; subst e; rw [r.hc] at hn; cases hn; rw [r.hcpar] at hp; cases hp
        exact ⟨haz, n, by rw [hother a hne h2]; exact hn, hp⟩
      · exact ⟨hcz, _, hc', rfl⟩
    · rintro ⟨haz, n, hn, hp⟩
      rw [r.cells a] at hn
      split_ifs at hn with h1 h2
      · exact Or.inr h2
      · exact Or.inl ⟨⟨haz, n, hn, hp⟩, h1⟩

theorem detach_rel {s : LineageTree} (hs : Struct none s) {x p : Nat}
    {nx : LineageTreeNode} (hx : s.mem.cells x = some nx) (hxpar : nx.parent = some p)
    (hleaf : nx.children = []) :
    ∃ m' np cs', eraseChild s.mem p x = .ok m' ∧
      DetachRel s { s with mem := m' } x p nx np cs' := by
  obtain ⟨_, np, hp, hmem⟩ := hs.parentLive x nx p (by simp) hx hxpar
  have hpre : ∀ y ∈ np.children, ∃ ny, s.mem.cells y = some ny ∧ (ny.lng = nx.lng ↔ y = x) := by
    intro y hy
    obtain ⟨_, ny, hny, _⟩ := hs.childLive p np y (by simp) hp hy
    refine ⟨ny, hny, ?_, ?_⟩
    · intro hl
      exact hs.lngInj y x ny nx (by simp) (by simp) hny hx hl
    · intro e
      subst e
      rw [hx] at hny
      cases hny
      rfl
  obtain ⟨cs', hcs, hperm⟩ := eraseChildList_spec s.mem.cells x nx.lng np.children hpre
  refine ⟨s.mem.set p { np with children := cs' }, np, cs', ?_, ?_⟩
  · simp [eraseChild, bind, Except.bind, Mem.get_of_cells hp, Mem.get_of_cells hx, hcs, pure,
      Except.pure]
  · exact ⟨hx, hp, hxpar, hleaf, hmem, hperm, fun b => rfl, rfl, rfl, rfl, rfl, rfl⟩

theorem DetachRel.struct_detach {s s' : LineageTree} {x p : Nat} {nx np : LineageTreeNode}
    {cs' : List Nat} (r : DetachRel s s' x p nx np cs') (hs : Struct none s) :
    Struct (some x) s' := by
  have hndp : np.children.Nodup := hs.childNodup p np (by simp) r.hp
  have hpx : p < x := hs.order x nx p (by simp) r.hx r.hxpar
  have hmemcs : ∀ y, y ∈ cs' ↔ y ∈ np.children ∧ y ≠ x := by
    intro y
    rw [r.perm.mem_iff, hndp.mem_erase_iff]
    tauto
  have hp' : s'.mem.cells p = some { np with children := cs' } := by
    rw [r.cells p]; simp
  have hother : ∀ b, b ≠ p → s'.mem.cells b = s.mem.cells b := by
    intro b h1
    rw [r.cells b]; simp [h1]
  have hsome : ∀ (a b : Nat), a ≠ b → some a ≠ some b := by
    intro a b h e; exact h (Option.some.inj e)
  constructor
  · intro a ha
    have := hs.bound a (r.next ▸ ha)
    rw [r.cells a]
    split_ifs with h1
    · subst h1; rw [r.hp] at this; cases this
    · exact this
  · intro a n c haz ha hc
    rw [r.cells a] at ha
    split_ifs at ha with h1
    · subst h1
      cases ha
      obtain ⟨hc1, hc2⟩ := (hmemcs c).1 hc
      obtain ⟨_, nc, hnc, hcp⟩ := hs.childLive a np c (by simp) r.hp hc1
      have hac : a < c := hs.order c nc a (by simp) hnc hcp
      exact ⟨hsome c x hc2, nc, by rw [hother c hac.ne']; exact hnc, hcp⟩
    · obtain ⟨_, nc, hnc, hcp⟩ := hs.childLive a n c (by simp) ha hc
      have hcx : c ≠ x := by
        intro e; subst e
        rw [r.hx] at hnc; cases hnc
        rw [r.hxpar] at hcp; cases hcp
        exact h1 rfl
      by_cases hcp' : c = p
      · subst hcp'
        rw [r.hp] at hnc; cases hnc
        exact ⟨hsome c x hcx, _, hp', hcp⟩
      · exact ⟨hsome c x hcx, nc, by rw [hother c hcp']; exact hnc, hcp⟩
  · intro a n q haz ha hq
    have hax : a ≠ x := fun e => haz (by rw [e])
    rw [r.cells a] at ha
    have key : ∀ n0, s.mem.cells a = some n0 → n0.parent = some q →
        some q ≠ some x ∧ ∃ nq, s'.mem.cells q = some nq ∧ a ∈ nq.children := by
      intro n0 h0 hq0
      obtain ⟨_, nq, hnq, hmem⟩ := hs.parentLive a n0 q (by simp) h0 hq0
      have hqx : q ≠ x := by
        intro e; subst e
        rw [r.hx] at hnq; cases hnq
        rw [r.hleaf] at hmem
        cases hmem
      by_cases hqp : q = p
      · subst hqp
        rw [r.hp] at hnq; cases hnq
        exact ⟨hsome q x hqx, _, hp', (hmemcs a).2 ⟨hmem, hax⟩⟩
      · exact ⟨hsome q x hqx, nq, by rw [hother q hqp]; exact hnq, hmem⟩
    split_ifs at ha with h1
    · subst h1
      cases ha
      exact key np r.hp hq
    · exact key n ha hq
  · intro a n haz ha
    rw [r.cells a] at ha
    split_ifs at ha with h1
    · subst h1; cases ha
      exact (r.perm.nodup_iff).2 (hndp.erase x)
    · exact hs.childNodup a n (by simp) ha
  · intro a b na nb haz hbz ha hb hl
    have fwd : ∀ (d : Nat) (nd : LineageTreeNode), s'.mem.cells d = some nd →
        ∃ nd0, s.mem.cells d = some nd0 ∧ nd.lng = nd0.lng := by
      intro d nd hd
      rw [r.cells d] at hd
      split_ifs at hd with h1
      · subst h1; cases hd; exact ⟨np, r.hp, rfl⟩
      · exact ⟨nd, hd, rfl⟩
    obtain ⟨na0, ha0, hla⟩ := fwd a na ha
    obtain ⟨nb0, hb0, hlb⟩ := fwd b nb hb
    exact hs.lngInj a b na0 nb0 (by simp) (by simp) ha0 hb0 (by rw [← hla, ← hlb, hl])
  · intro a n q haz ha hq
    rw [r.cells a] at ha
    split_ifs at ha with h1
    · subst h1; cases ha
      exact hs.order a np q (by simp) r.hp hq
    · exact hs.order a n q (by simp) ha hq
  · intro a
    rw [r.roots, hs.rootSet a]
    constructor
    · rintro ⟨_, n, hn, hpn⟩
      have hax : a ≠ x := by
        intro e; subst e; rw [r.hx] at hn; cases hn; rw [r.hxpar] at hpn; cases hpn
      by_cases h1 : a = p
      · subst h1
        rw [r.hp] at hn; cases hn
        exact ⟨hsome a x hax, _, hp', hpn⟩
      · exact ⟨hsome a x hax, n, by rw [hother a h1]; exact hn, hpn⟩
    · rintro ⟨_, n, hn, hpn⟩
      rw [r.cells a] at hn
      split_ifs at hn with h1
      · subst h1; cases hn
        exact ⟨by simp, np, r.hp, hpn⟩
      · exact ⟨by simp, n, hn, hpn⟩

theorem Struct.detachRoot {s : LineageTree} (hs : Struct none s) {x : Nat}
    {nx : LineageTreeNode} (hx : s.mem.cells x = some nx) (hxpar : nx.parent = none)
    (hleaf : nx.children = []) :
    Struct (some x) { s with roots := setErase s.roots x } := by
  have hsome : ∀ (a b : Nat), a ≠ b → some a ≠ some b := by
    intro a b h e; exact h (Option.some.inj e)
  constructor
  · exact hs.bound
  · intro a n c haz ha hc
    obtain ⟨_, nc, hnc, hcp⟩ := hs.childLive a n c (by simp) ha hc
    have hcx : c ≠ x := by
      intro e; subst e
      rw [hx] at hnc; cases hnc
      rw [hxpar] at hcp; cases hcp
    exact ⟨hsome c x hcx, nc, hnc, hcp⟩
  · intro a n q haz ha hq
    obtain ⟨_, nq, hnq, hmem⟩ := hs.parentLive a n q (by simp) ha hq
    have hqx : q ≠ x := by
      intro e; subst e
      rw [hx] at hnq; cases hnq
      rw [hleaf] at hmem
      cases hmem
    exact ⟨hsome q x hqx, nq, hnq, hmem⟩
  · intro a n _ ha
    exact hs.childNodup a n (by simp) ha
  · intro a b na nb _ _ ha hb hl
    exact hs.lngInj a b na nb (by simp) (by simp) ha hb hl
  · intro a n q _ ha hq
    exact hs.order a n q (by simp) ha hq
  · intro a
    show a ∈ setErase s.roots x ↔ _
    rw [mem_setErase, hs.rootSet a]
    constructor
    · rintro ⟨⟨_, n, hn, hpn⟩, hax⟩
      exact ⟨hsome a x hax, n, hn, hpn⟩
    · rintro ⟨haz, n, hn, hpn⟩
      exact ⟨⟨by simp, n, hn, hpn⟩, fun e => haz (by rw [e])⟩

theorem Struct.freeZombie {s : LineageTree} {x : Nat} (hs : Struct (some x) s) :
    Struct none { s with mem := s.mem.free x } := by
  have hsome : ∀ (a : Nat), a ≠ x → some a ≠ some x := by
    intro a h e; exact h (Option.some.inj e)
  have hne : ∀ (a : Nat), some a ≠ some x → a ≠ x := by
    intro a h e; exact h (by rw [e])
  constructor
  · intro a ha
    show (s.mem.free x).cells a = none
    rw [Mem.free_cells]
    split_ifs
    · rfl
    · exact hs.bound a ha
  · intro a n c _ ha hc
    change (s.mem.free x).cells a = some n at ha
    rw [Mem.free_cells] at ha
    split_ifs at ha with h1
    obtain ⟨hcz, nc, hnc, hcp⟩ := hs.childLive a n c (hsome a h1) ha hc
    refine ⟨by simp, nc, ?_, hcp⟩
    show (s.mem.free x).cells c = some nc
    rw [Mem.free_cells, if_neg (hne c hcz)]; exact hnc
  · intro a n q _ ha hq
    change (s.mem.free x).cells a = some n at ha
    rw [Mem.free_cells] at ha
    split_ifs at ha with h1
    obtain ⟨hqz, nq, hnq, hmem⟩ := hs.parentLive a n q (hsome a h1) ha hq
    refine ⟨by simp, nq, ?_, hmem⟩
    show (s.mem.free x).cells q = some nq
    rw [Mem.free_cells, if_neg (hne q hqz)]; exact hnq
  · intro a n _ ha
    change (s.mem.free x).cells a = some n at ha
    rw [Mem.free_cells] at ha
    split_ifs at ha with h1
    exact hs.childNodup a n (hsome a h1) ha
  · intro a b na nb _ _ ha hb hl
    change (s.mem.free x).cells a = some na at ha
    change (s.mem.free x).cells b = some nb at hb
    rw [Mem.free_cells] at ha hb
    split_ifs at ha with h1
    split_ifs at hb with h2
    exact hs.lngInj a b na nb (hsome a h1) (hsome b h2) ha hb hl
  · intro a n q _ ha hq
    change (s.mem.free x).cells a = some n at ha
    rw [Mem.free_cells] at ha
    split_ifs at ha with h1
    exact hs.order a n q (hsome a h1) ha hq
  · intro a
    show a ∈ s.roots ↔ _ ∧ ∃ n, (s.mem.free x).cells a = some n ∧ _
    rw [hs.rootSet a, Mem.free_cells]
    constructor
    · rintro ⟨haz, n, hn, hpn⟩
      exact ⟨by simp, n, by rw [if_neg (hne a haz)]; exact hn, hpn⟩
    · rintro ⟨_, n, hn, hpn⟩
      split_ifs at hn with h1
      exact ⟨hsome a h1, n, hn, hpn⟩

theorem SameData.refl_data (n : LineageTreeNode) : SameData n n :=
  ⟨rfl, rfl, rfl, rfl, rfl, rfl, rfl, rfl⟩

theorem SameData.trans_data {a b c : LineageTreeNode} (h1 : SameData a b) (h2 : SameData b c) :
    SameData a c := by
  obtain ⟨a1, a2, a3, a4, a5, a6, a7, a8⟩ := h1
  obtain ⟨b1, b2, b3, b4, b5, b6, b7, b8⟩ := h2
  exact ⟨b1.trans a1, b2.trans a2, b3.trans a3, b4.trans a4, b5.trans a5, b6.trans a6,
    b7.trans a7, b8.trans a8⟩

theorem Frame.refl_frame (s : LineageTree) : Frame s s :=
  ⟨rfl, rfl, fun _ nb h => ⟨nb, h, SameData.refl_data nb⟩, fun _ _ h1 h2 => by rw [h1] at h2; cases h2⟩

theorem Frame.trans_frame {s s' s'' : LineageTree} (h1 : Frame s s') (h2 : Frame s' s'') :
    Frame s s'' := by
  refine ⟨h2.extantLngs.trans h1.extantLngs, h2.sampled_lineages.trans h1.sampled_lineages,
    ?_, ?_⟩
  · intro b nb'' hb
    obtain ⟨nb', hb', hd'⟩ := h2.fwd b nb'' hb
    obtain ⟨nb, hb0, hd⟩ := h1.fwd b nb' hb'
    exact ⟨nb, hb0, hd.trans_data hd'⟩
  · intro b nb hb hnone
    cases hb' : s'.mem.cells b with
    | none => exact h1.freed b nb hb hb'
    | some nb' =>
      obtain ⟨nb0, hb0, hd⟩ := h1.fwd b nb' hb'
      rw [hb] at hb0
      cases hb0
      obtain ⟨e1, e2⟩ := h2.freed b nb' hb' hnone
      obtain ⟨_, _, _, _, _, d6, d7, _⟩ := hd
      exact ⟨d6 ▸ e1, d7 ▸ e2⟩

theorem SpliceRel.frame_splice {s s' : LineageTree} {mid c g : Nat}
    {nm nc ng : LineageTreeNode} {cs' : List Nat}
    (r : SpliceRel s s' mid c g nm nc ng cs') (hext : nm.extant = false)
    (hsam : nm.sampled = false) : Frame s s' := by
  refine ⟨r.extantLngs, r.sampled_lineages, ?_, ?_⟩
  · intro b nb' hb
    rw [r.cells b] at hb
    split_ifs at hb with h1 h2 h3
    · subst h2; cases hb
      exact ⟨nc, r.hc, ⟨rfl, rfl, rfl, rfl, rfl, rfl, rfl, rfl⟩⟩
    · subst h3; cases hb
      exact ⟨ng, r.hg, ⟨rfl, rfl, rfl, rfl, rfl, rfl, rfl, rfl⟩⟩
    · exact ⟨nb', hb, SameData.refl_data nb'⟩
  · intro b nb hb hnone
    rw [r.cells b] at hnone
    split_ifs at hnone with h1 h2 h3
    · subst h1
      rw [r.hmid] at hb; cases hb
      exact ⟨hext, hsam⟩
    · rw [hb] at hnone; cases hnone

theorem SpliceRel.keepLen_splice {s s' : LineageTree} {mid c g : Nat}
    {nm nc ng : LineageTreeNode} {cs' : List Nat}
    (r : SpliceRel s s' mid c g nm nc ng cs') {b : Nat} {nb nb' : LineageTreeNode}
    (hb : s.mem.cells b = some nb) (hb' : s'.mem.cells b = some nb') :
    nb'.children.length = nb.children.length := by
  rw [r.cells b] at hb'
  split_ifs at hb' with h1 h2 h3
  · subst h2; cases hb'
    rw [r.hc] at hb; cases hb; rfl
  · subst h3; cases hb'
    rw [r.hg] at hb; cases hb
    simp only [List.length_append, List.length_singleton]
    rw [r.perm.length_eq, List.length_erase_of_mem r.hmem]
    have : 0 < ng.children.length := List.length_pos_of_mem r.hmem
    omega
  · rw [hb] at hb'; cases hb'; rfl

theorem PromoteRel.frame_promote {s s' : LineageTree} {mid c : Nat} {nm nc : LineageTreeNode}
    (r : PromoteRel s s' mid c nm nc) (hext : nm.extant = false)
    (hsam : nm.sampled = false) : Frame s s' := by
  refine ⟨r.extantLngs, r.sampled_lineages, ?_, ?_⟩
  · intro b nb' hb
    rw [r.cells b] at hb
    split_ifs at hb with h1 h2
    · subst h2; cases hb
      exact ⟨nc, r.hc, ⟨rfl, rfl, rfl, rfl, rfl, rfl, rfl, rfl⟩⟩
    · exact ⟨nb', hb, SameData.refl_data nb'⟩
  · intro b nb hb hnone
    rw [r.cells b] at hnone
    split_ifs at hnone with h1 h2
    · subst h1
      rw [r.hmid] at hb; cases hb
      exact ⟨hext, hsam⟩
    · rw [hb] at hnone; cases hnone

theorem PromoteRel.keepLen_promote {s s' : LineageTree} {mid c : Nat} {nm nc : LineageTreeNode}
    (r : PromoteRel s s' mid c nm nc) {b : Nat} {nb nb' : LineageTreeNode}
    (hb : s.mem.cells b = some nb) (hb' : s'.mem.cells b = some nb') :
    nb'.children.length = nb.children.length := by
  rw [r.cells b] at hb'
  split_ifs at hb' with h1 h2
  · subst h2; cases hb'
    rw [r.hc] at hb; cases hb; rfl
  · rw [hb] at hb'; cases hb'; rfl

theorem DetachRel.frame_detach {s s' : LineageTree} {x p : Nat} {nx np : LineageTreeNode}
    {cs' : List Nat} (r : DetachRel s s' x p nx np cs') : Frame s s' := by
  refine ⟨r.extantLngs, r.sampled_lineages, ?_, ?_⟩
  · intro b nb' hb
    rw [r.cells b] at hb
    split_ifs at hb with h1
    · subst h1; cases hb
      exact ⟨np, r.hp, ⟨rfl, rfl, rfl, rfl, rfl, rfl, rfl, rfl⟩⟩
    · exact ⟨nb', hb, SameData.refl_data nb'⟩
  · intro b nb hb hnone
    rw [r.cells b] at hnone
    split_ifs at hnone with h1
    rw [hb] at hnone; cases hnone

theorem frame_free {s : LineageTree} {x : Nat} {nx : LineageTreeNode} (n' : Nat)
    (hx : s.mem.cells x = some nx) (hext : nx.extant = false) (hsam : nx.sampled = false) :
    Frame s { s with mem := s.mem.free x, nnodes := n' } := by
  refine ⟨rfl, rfl, ?_, ?_⟩
  · intro b nb' hb
    change (s.mem.free x).cells b = some nb' at hb
    rw [Mem.free_cells] at hb
    split_ifs at hb with h1
    exact ⟨nb', hb, SameData.refl_data nb'⟩
  · intro b nb hb hnone
    change (s.mem.free x).cells b = none at hnone
    rw [Mem.free_cells] at hnone
    split_ifs at hnone with h1
    · subst h1; rw [hx] at hb; cases hb; exact ⟨hext, hsam⟩
    · rw [hb] at hnone; cases hnone

theorem notify_outcome {s1 : LineageTree} (hs1 : Struct none s1) {x p : Nat}
    {nx : LineageTreeNode} (hx : s1.mem.cells x = some nx)
    (hsam : nx.sampled = false) (hleaf : nx.children = []) (hpar : nx.parent = some p)
    (hprune : ∀ np, s1.mem.cells p = some np → np.extant = false → np.sampled = false →
      2 ≤ np.children.length) (fuel : Nat) (ig : Bool) :
    ∃ s2, notifyParent (fuel + 1) s1 p x ig = .ok s2 ∧
      RemoveStep s1 x nx { s2 with mem := s2.mem.free x, nnodes := uintDec s2.nnodes } := by
  obtain ⟨m', np, cs', hm', r⟩ := detach_rel hs1 hx hpar hleaf
  have hsA : Struct (some x) { s1 with mem := m' } := r.struct_detach hs1
  have hpx : p < x := hs1.order x nx p (by simp) hx hpar
  have hpz : some p ≠ some x := fun e => hpx.ne (Option.some.inj e)
  have hp' : m'.cells p = some { np with children := cs' } := by
    have := r.cells p
    simpa using this
  have hlen : cs'.length + 1 = np.children.length := by
    rw [r.perm.length_eq, List.length_erase_of_mem r.hmem]
    have : 0 < np.children.length := List.length_pos_of_mem r.hmem
    omega
  cases hpe : np.extant with
  | true =>
    refine ⟨{ s1 with mem := m' }, ?_, RemoveStep.leafKeep hsam r (Or.inl hpe)⟩
    simp [notifyParent, bind, Except.bind, Mem.get_of_cells r.hp, Mem.get_of_cells hx,
      hsam, hm', hpe, pure, Except.pure]
  | false =>
    cases hps : np.sampled with
    | true =>
      refine ⟨{ s1 with mem := m' }, ?_, RemoveStep.leafKeep hsam r (Or.inr (Or.inl hps))⟩
      simp [notifyParent, bind, Except.bind, Mem.get_of_cells r.hp, Mem.get_of_cells hx,
        hsam, hm', hpe, hps, pure, Except.pure]
    | false =>
      have h2 : 2 ≤ np.children.length := hprune np r.hp hpe hps
      have h0 : cs'.length ≠ 0 := by omega
      by_cases h1 : cs'.length = 1
      · have hunf : notifyParent (fuel + 1) s1 p x ig =
            mergeParentChild { s1 with mem := m' } p := by
          simp [notifyParent, bind, Except.bind, Mem.get_of_cells r.hp, Mem.get_of_cells hx,
            hsam, hm', hpe, hps, Mem.get_of_cells hp', h1]
        rw [hunf]
        obtain ⟨c, hc⟩ := List.length_eq_one.1 h1
        cases hpp : np.parent with
        | none =>
          obtain ⟨sB, nc, hm, r2, _⟩ := @merge_root_rel (some x) { s1 with mem := m' } hsA p c
            { np with children := cs' } hpz hp' hc hpe hpp
          exact ⟨sB, hm, RemoveStep.leafPromote hsam r hpe hps r2⟩
        | some g =>
          obtain ⟨sB, nc, ng, cs'', hm, r2, _, _⟩ :=
            @merge_nonroot_rel (some x) { s1 with mem := m' } hsA p c g
              { np with children := cs' } hpz hp' hc hpe hpp
          exact ⟨sB, hm, RemoveStep.leafSplice hsam r hpe hps r2⟩
      · refine ⟨{ s1 with mem := m' }, ?_,
          RemoveStep.leafKeep hsam r (Or.inr (Or.inr (by omega)))⟩
        simp [notifyParent, bind, Except.bind, Mem.get_of_cells r.hp, Mem.get_of_cells hx,
          hsam, hm', hpe, hps, Mem.get_of_cells hp', h0, h1, pure, Except.pure]

theorem Struct.markExtinct {s : LineageTree} (hs : Struct none s) {x : Nat}
    {nx : LineageTreeNode} (hx : s.mem.cells x = some nx) :
    Struct none { s with mem := s.mem.set x { nx with extant := false } } := by
  refine Struct.congr hs (by rfl) (by rfl) ?_ ?_
  · intro b nb hb
    change (s.mem.set x { nx with extant := false }).cells b = some nb at hb
    rw [Mem.set_cells] at hb
    split_ifs at hb with h1
    · subst h1; cases hb; exact ⟨nx, hx, rfl, rfl, rfl⟩
    · exact ⟨nb, hb, rfl, rfl, rfl⟩
  · intro b nb0 hb
    show ∃ nb, (s.mem.set x { nx with extant := false }).cells b = some nb ∧ _
    rw [Mem.set_cells]
    by_cases h1 : b = x
    · subst h1
      rw [hx] at hb; cases hb
      exact ⟨{ nx with extant := false }, by simp, rfl, rfl, rfl⟩
    · exact ⟨nb0, by simp [h1, hb], rfl, rfl, rfl⟩

theorem list_shape (l : List Nat) : l = [] ∨ (∃ c, l = [c]) ∨ 2 ≤ l.length := by
  match l with
  | [] => exact Or.inl rfl
  | [c] => exact Or.inr (Or.inl ⟨c, rfl⟩)
  | _ :: _ :: _ => exact Or.inr (Or.inr (by simp))

theorem remove_outcome {s : LineageTree} (hs : Struct none s) (hp : Prune s)
    {lng x : Nat} {nx : LineageTreeNode} (hE : mapFind s.extantLngs lng = some x)
    (hx : s.mem.cells x = some nx) (ig : Bool) :
    ∃ s2, removeExtantLineage s lng ig =
        .ok { s2 with extantLngs := mapErase s2.extantLngs lng } ∧
      RemoveStep { s with mem := s.mem.set x { nx with extant := false } } x
        { nx with extant := false } s2 := by
  have hs1 := hs.markExtinct hx
  have hx1 : ({ s with mem := s.mem.set x { nx with extant := false } } : LineageTree).mem.cells x
      = some { nx with extant := false } := by simp
  rcases Bool.eq_false_or_eq_true nx.sampled with hsam | hsam
  · refine ⟨_, ?_, RemoveStep.keep (Or.inl hsam)⟩
    simp [removeExtantLineage, LineageTree.extantNode, hE, bind, Except.bind,
      Mem.get_of_cells hx, hsam, pure, Except.pure]
  · rcases list_shape nx.children with hch | ⟨c, hch⟩ | hlen
    · rcases Option.eq_none_or_eq_some nx.parent with hpar | ⟨p, hpar⟩
      · refine ⟨_, ?_, RemoveStep.leafRoot hsam hch hpar⟩
        simp [removeExtantLineage, LineageTree.extantNode, hE, bind, Except.bind,
          Mem.get_of_cells hx, hsam, hch, hpar, pure, Except.pure]
      · have hpx : p < x := hs.order x nx p (by simp) hx hpar
        have hprune : ∀ np, ({ s with mem := s.mem.set x { nx with extant := false } } :
            LineageTree).mem.cells p = some np → np.extant = false → np.sampled = false →
            2 ≤ np.children.length := by
          intro np hnp h1 h2
          have : s.mem.cells p = some np := by simpa [hpx.ne] using hnp
          exact hp p np this h1 h2
        obtain ⟨s2, h2, r⟩ := notify_outcome hs1 hx1 hsam hch hpar hprune s.mem.next ig
        refine ⟨_, ?_, r⟩
        have h2' := h2
        simp only [hsam, hch, hpar] at h2'
        simp [removeExtantLineage, LineageTree.extantNode, hE, bind, Except.bind,
          Mem.get_of_cells hx, hsam, hch, hpar, h2', pure, Except.pure]
    · rcases Option.eq_none_or_eq_some nx.parent with hpar | ⟨g, hpar⟩
      · obtain ⟨s2, nc, hm, r, _⟩ := merge_root_rel hs1 (by simp) hx1 hch rfl hpar
        refine ⟨s2, ?_, RemoveStep.promoteSelf hsam r⟩
        have hm' := hm
        simp only [hsam, hch, hpar] at hm'
        simp [removeExtantLineage, LineageTree.extantNode, hE, bind, Except.bind,
          Mem.get_of_cells hx, hsam, hch, hpar, hm', pure, Except.pure]
      · obtain ⟨s2, nc, ng, cs', hm, r, _, _⟩ :=
          merge_nonroot_rel hs1 (by simp) hx1 hch rfl hpar
        refine ⟨s2, ?_, RemoveStep.spliceSelf hsam r⟩
        have hm' := hm
        simp only [hsam, hch, hpar] at hm'
        simp [removeExtantLineage, LineageTree.extantNode, hE, bind, Except.bind,
          Mem.get_of_cells hx, hsam, hch, hpar, hm', pure, Except.pure]
    · refine ⟨_, ?_, RemoveStep.keep (Or.inr hlen)⟩
      have h0 : nx.children.length ≠ 0 := by omega
      have h1 : nx.children.length ≠ 1 := by omega
      simp [removeExtantLineage, LineageTree.extantNode, hE, bind, Except.bind,
        Mem.get_of_cells hx, hsam, h0, h1, pure, Except.pure]

theorem Struct.withNnodes {z : Option Nat} {s : LineageTree} (h : Struct z s) (n : Nat) :
    Struct z { s with nnodes := n } :=
  ⟨h.bound, h.childLive, h.parentLive, h.childNodup, h.lngInj, h.order, h.rootSet⟩

theorem some_ne_some {a b : Nat} (h : a ≠ b) : some a ≠ some b :=
  fun e => h (Option.some.inj e)

theorem RemoveStep.struct_remove {s1 s2 : LineageTree} {x : Nat} {nx : LineageTreeNode}
    (st : RemoveStep s1 x nx s2) (hs1 : Struct none s1) (hx : s1.mem.cells x = some nx) :
    Struct none s2 := by
  cases st with
  | keep h => exact hs1
  | spliceSelf hsam r => exact r.struct_splice hs1 (by simp) (by simp)
  | promoteSelf hsam r => exact r.struct_promote hs1 (by simp) (by simp)
  | leafRoot hsam hleaf hpar =>
    exact ((hs1.detachRoot hx hpar hleaf).freeZombie).withNnodes _
  | leafKeep hsam r h => exact ((r.struct_detach hs1).freeZombie).withNnodes _
  | @leafSplice sA sB p c g np nc ng cs' cs'' hsam r hpe hps r2 =>
    have hsA := r.struct_detach hs1
    have hpx : p < x := hs1.order x nx p (by simp) r.hx r.hxpar
    have hpz : some p ≠ some x := some_ne_some hpx.ne
    obtain ⟨hcz, _⟩ := hsA.childLive p _ c hpz r2.hmid (by rw [r2.hch]; simp)
    obtain ⟨hgz, _⟩ := hsA.parentLive p _ g hpz r2.hmid r2.hpar
    exact ((r2.struct_splice hsA hcz hgz).freeZombie).withNnodes _
  | @leafPromote sA sB p c np nc cs' hsam r hpe hps r2 =>
    have hsA := r.struct_detach hs1
    have hpx : p < x := hs1.order x nx p (by simp) r.hx r.hxpar
    have hpz : some p ≠ some x := some_ne_some hpx.ne
    obtain ⟨hcz, _⟩ := hsA.childLive p _ c hpz r2.hmid (by rw [r2.hch]; simp)
    exact ((r2.struct_promote hsA hpz hcz).freeZombie).withNnodes _

theorem DetachRel.x_live {s s' : LineageTree} {x p : Nat} {nx np : LineageTreeNode}
    {cs' : List Nat} (r : DetachRel s s' x p nx np cs') (hpx : p ≠ x) :
    s'.mem.cells x = some nx := by
  rw [r.cells x, if_neg (fun e => hpx e.symm)]
  exact r.hx

theorem RemoveStep.frame_remove {s1 s2 : LineageTree} {x : Nat} {nx : LineageTreeNode}
    (st : RemoveStep s1 x nx s2) (hs1 : Struct none s1) (hx : s1.mem.cells x = some nx)
    (hext : nx.extant = false) : Frame s1 s2 := by
  cases st with
  | keep h => exact Frame.refl_frame s1
  | spliceSelf hsam r => exact r.frame_splice hext hsam
  | promoteSelf hsam r => exact r.frame_promote hext hsam
  | leafRoot hsam hleaf hpar =>
    refine ⟨rfl, rfl, ?_, ?_⟩
    · intro b nb' hb
      change (s1.mem.free x).cells b = some nb' at hb
      rw [Mem.free_cells] at hb
      split_ifs at hb with h1
      exact ⟨nb', hb, SameData.refl_data nb'⟩
    · intro b nb hb hnone
      change (s1.mem.free x).cells b = none at hnone
      rw [Mem.free_cells] at hnone
      split_ifs at hnone with h1
      · subst h1; rw [hx] at hb; cases hb; exact ⟨hext, hsam⟩
      · rw [hb] at hnone; cases hnone
  | @leafKeep sA p np cs' hsam r h =>
    have hpx : p < x := hs1.order x nx p (by simp) r.hx r.hxpar
    exact r.frame_detach.trans_frame (frame_free _ (r.x_live hpx.ne) hext hsam)
  | @leafSplice sA sB p c g np nc ng cs' cs'' hsam r hpe hps r2 =>
    have hpx : p < x := hs1.order x nx p (by simp) r.hx r.hxpar
    have hxB : sB.mem.cells x = some nx := by
      have hxA := r.x_live hpx.ne
      rw [r2.cells x]
      have hxc : x ≠ c := by
        obtain ⟨hcz, _⟩ := (r.struct_detach hs1).childLive p _ c (some_ne_some hpx.ne) r2.hmid
          (by rw [r2.hch]; simp)
        exact fun e => hcz (by rw [e])
      have hxg : x ≠ g := fun e => absurd (lt_trans (e ▸ r2.hlt1) hpx) (lt_irrefl _)
      simp [hpx.ne', hxc, hxg, hxA]
    exact (r.frame_detach.trans_frame (r2.frame_splice hpe hps)).trans_frame (frame_free _ hxB hext hsam)
  | @leafPromote sA sB p c np nc cs' hsam r hpe hps r2 =>
    have hpx : p < x := hs1.order x nx p (by simp) r.hx r.hxpar
    have hxB : sB.mem.cells x = some nx := by
      have hxA := r.x_live hpx.ne
      rw [r2.cells x]
      have hxc : x ≠ c := by
        obtain ⟨hcz, _⟩ := (r.struct_detach hs1).childLive p _ c (some_ne_some hpx.ne) r2.hmid
          (by rw [r2.hch]; simp)
        exact fun e => hcz (by rw [e])
      simp [hpx.ne', hxc, hxA]
    exact (r.frame_detach.trans_frame (r2.frame_promote hpe hps)).trans_frame (frame_free _ hxB hext hsam)

theorem SpliceRel.survivor_splice {s s' : LineageTree} {mid c g : Nat}
    {nm nc ng : LineageTreeNode} {cs' : List Nat}
    (r : SpliceRel s s' mid c g nm nc ng cs') {b : Nat} {nb' : LineageTreeNode}
    (hb : s'.mem.cells b = some nb') :
    b ≠ mid ∧ ∃ nb, s.mem.cells b = some nb ∧ SameData nb nb' ∧
      nb'.children.length = nb.children.length := by
  have h1 : b ≠ mid := (r.live_splice hb).1
  have hb0 := hb
  rw [r.cells b] at hb0
  split_ifs at hb0 with h0 h2 h3
  · subst h2; cases hb0
    exact ⟨h1, nc, r.hc, ⟨rfl, rfl, rfl, rfl, rfl, rfl, rfl, rfl⟩, rfl⟩
  · exact ⟨h1, ng, h3 ▸ r.hg, by cases hb0; exact ⟨rfl, rfl, rfl, rfl, rfl, rfl, rfl, rfl⟩,
      r.keepLen_splice (h3 ▸ r.hg) hb⟩
  · exact ⟨h1, nb', hb0, SameData.refl_data nb', rfl⟩

theorem PromoteRel.survivor_promote {s s' : LineageTree} {mid c : Nat} {nm nc : LineageTreeNode}
    (r : PromoteRel s s' mid c nm nc) {b : Nat} {nb' : LineageTreeNode}
    (hb : s'.mem.cells b = some nb') :
    b ≠ mid ∧ ∃ nb, s.mem.cells b = some nb ∧ SameData nb nb' ∧
      nb'.children.length = nb.children.length := by
  have h1 : b ≠ mid := (r.live_promote hb).1
  have hb0 := hb
  rw [r.cells b] at hb0
  split_ifs at hb0 with h0 h2
  · subst h2; cases hb0
    exact ⟨h1, nc, r.hc, ⟨rfl, rfl, rfl, rfl, rfl, rfl, rfl, rfl⟩, rfl⟩
  · exact ⟨h1, nb', hb0, SameData.refl_data nb', rfl⟩

theorem RemoveStep.prune {s1 s2 : LineageTree} {x : Nat} {nx : LineageTreeNode}
    (st : RemoveStep s1 x nx s2) (hx : s1.mem.cells x = some nx)
    (hp : ∀ a n, a ≠ x → s1.mem.cells a = some n → n.extant = false → n.sampled = false →
      2 ≤ n.children.length) : Prune s2 := by
  cases st with
  | keep h =>
    intro a n ha he hsm
    by_cases hax : a = x
    · subst hax
      rw [hx] at ha; cases ha
      rcases h with h | h
      · rw [h] at hsm; cases hsm
      · exact h
    · exact hp a n hax ha he hsm
  | spliceSelf hsam r =>
    intro a n' ha he hsm
    obtain ⟨hax, n, hn, ⟨_, _, _, _, _, d6, d7, _⟩, hl⟩ := r.survivor_splice ha
    rw [hl]
    exact hp a n hax hn (d6 ▸ he) (d7 ▸ hsm)
  | promoteSelf hsam r =>
    intro a n' ha he hsm
    obtain ⟨hax, n, hn, ⟨_, _, _, _, _, d6, d7, _⟩, hl⟩ := r.survivor_promote ha
    rw [hl]
    exact hp a n hax hn (d6 ▸ he) (d7 ▸ hsm)
  | leafRoot hsam hleaf hpar =>
    intro a n ha he hsm
    change (s1.mem.free x).cells a = some n at ha
    rw [Mem.free_cells] at ha
    split_ifs at ha with h1
    exact hp a n h1 ha he hsm
  | @leafKeep sA p np cs' hsam r h =>
    intro a n ha he hsm
    change (sA.mem.free x).cells a = some n at ha
    rw [Mem.free_cells] at ha
    split_ifs at ha with h1
    rw [r.cells a] at ha
    split_ifs at ha with h2
    · cases ha
      rcases h with h | h | h
      · rw [h] at he; cases he
      · rw [h] at hsm; cases hsm
      · exact h
    · exact hp a n h1 ha he hsm
  | @leafSplice sA sB p c g np nc ng cs' cs'' hsam r hpe hps r2 =>
    intro a n' ha he hsm
    change (sB.mem.free x).cells a = some n' at ha
    rw [Mem.free_cells] at ha
    split_ifs at ha with h1
    obtain ⟨hap, n, hn, ⟨_, _, _, _, _, d6, d7, _⟩, hl⟩ := r2.survivor_splice ha
    rw [hl]
    rw [r.cells a, if_neg hap] at hn
    exact hp a n h1 hn (d6 ▸ he) (d7 ▸ hsm)
  | @leafPromote sA sB p c np nc cs' hsam r hpe hps r2 =>
    intro a n' ha he hsm
    change (sB.mem.free x).cells a = some n' at ha
    rw [Mem.free_cells] at ha
    split_ifs at ha with h1
    obtain ⟨hap, n, hn, ⟨_, _, _, _, _, d6, d7, _⟩, hl⟩ := r2.survivor_promote ha
    rw [hl]
    rw [r.cells a, if_neg hap] at hn
    exact hp a n h1 hn (d6 ▸ he) (d7 ▸ hsm)

theorem TimeInv.of_fwd {s s' : LineageTree} (ht : TimeInv s)
    (fwd : ∀ b nb', s'.mem.cells b = some nb' → ∃ nb, s.mem.cells b = some nb ∧ nb'.t = nb.t)
    {a : Nat} {n n' : LineageTreeNode} (ha : s.mem.cells a = some n)
    (h1 : n'.t = n.t) (h2 : n'.tBranchParent = n.tBranchParent) (h3 : n'.parent = n.parent) :
    n'.tBranchParent ≤ n'.t ∧
      ∀ p np, n'.parent = some p → s'.mem.cells p = some np → np.t ≤ n'.tBranchParent := by
  obtain ⟨t1, t2⟩ := ht a n ha
  refine ⟨by rw [h1, h2]; exact t1, ?_⟩
  intro p np' hp hnp'
  obtain ⟨np, hnp, ht'⟩ := fwd p np' hnp'
  rw [ht', h2]
  exact t2 p np (h3 ▸ hp) hnp

theorem SpliceRel.time_splice {s s' : LineageTree} {mid c g : Nat}
    {nm nc ng : LineageTreeNode} {cs' : List Nat}
    (r : SpliceRel s s' mid c g nm nc ng cs') (ht : TimeInv s) : TimeInv s' := by
  have fwd : ∀ b nb', s'.mem.cells b = some nb' →
      ∃ nb, s.mem.cells b = some nb ∧ nb'.t = nb.t := by
    intro b nb' hb
    obtain ⟨_, nb, hnb, ⟨_, d2, _⟩, _⟩ := r.survivor_splice hb
    exact ⟨nb, hnb, d2⟩
  intro a n' ha
  rw [r.cells a] at ha
  split_ifs at ha with h1 h2 h3
  · subst h2; cases ha
    obtain ⟨m1, m2⟩ := ht mid nm r.hmid
    obtain ⟨c1, c2⟩ := ht a nc r.hc
    have c3 := c2 mid nm r.hcpar r.hmid
    refine ⟨le_trans m1 (le_trans c3 c1), ?_⟩
    intro p np' hp hnp'
    simp only [Option.some.injEq] at hp
    subst hp
    obtain ⟨np, hnp, ht'⟩ := fwd g np' hnp'
    rw [r.hg] at hnp; cases hnp
    rw [ht']
    exact m2 g ng r.hpar r.hg
  · subst h3; cases ha
    exact ht.of_fwd fwd r.hg rfl rfl rfl
  · exact ht.of_fwd fwd ha rfl rfl rfl

theorem PromoteRel.time_promote {s s' : LineageTree} {mid c : Nat} {nm nc : LineageTreeNode}
    (r : PromoteRel s s' mid c nm nc) (ht : TimeInv s) : TimeInv s' := by
  have fwd : ∀ b nb', s'.mem.cells b = some nb' →
      ∃ nb, s.mem.cells b = some nb ∧ nb'.t = nb.t := by
    intro b nb' hb
    obtain ⟨_, nb, hnb, ⟨_, d2, _⟩, _⟩ := r.survivor_promote hb
    exact ⟨nb, hnb, d2⟩
  intro a n' ha
  rw [r.cells a] at ha
  split_ifs at ha with h1 h2
  · subst h2; cases ha
    refine ⟨le_refl _, ?_⟩
    intro p np' hp _
    cases hp
  · exact ht.of_fwd fwd ha rfl rfl rfl

theorem DetachRel.time_detach {s s' : LineageTree} {x p : Nat} {nx np : LineageTreeNode}
    {cs' : List Nat} (r : DetachRel s s' x p nx np cs') (ht : TimeInv s) : TimeInv s' := by
  have fwd : ∀ b nb', s'.mem.cells b = some nb' →
      ∃ nb, s.mem.cells b = some nb ∧ nb'.t = nb.t := by
    intro b nb' hb
    obtain ⟨nb, hnb, ⟨_, d2, _⟩⟩ := r.frame_detach.fwd b nb' hb
    exact ⟨nb, hnb, d2⟩
  intro a n' ha
  rw [r.cells a] at ha
  split_ifs at ha with h1
  · subst h1; cases ha
    exact ht.of_fwd fwd r.hp rfl rfl rfl
  · exact ht.of_fwd fwd ha rfl rfl rfl

theorem TimeInv.free {s : LineageTree} (ht : TimeInv s) (x n : Nat) (rs : List Nat) :
    TimeInv { s with mem := s.mem.free x, nnodes := n, roots := rs } := by
  intro a n' ha
  change (s.mem.free x).cells a = some n' at ha
  rw [Mem.free_cells] at ha
  split_ifs at ha with h1
  refine ht.of_fwd ?_ ha rfl rfl rfl
  intro b nb' hb
  change (s.mem.free x).cells b = some nb' at hb
  rw [Mem.free_cells] at hb
  split_ifs at hb with h2
  exact ⟨nb', hb, rfl⟩

theorem RemoveStep.time_remove {s1 s2 : LineageTree} {x : Nat} {nx : LineageTreeNode}
    (st : RemoveStep s1 x nx s2) (ht : TimeInv s1) : TimeInv s2 := by
  cases st with
  | keep h => exact ht
  | spliceSelf hsam r => exact r.time_splice ht
  | promoteSelf hsam r => exact r.time_promote ht
  | leafRoot hsam hleaf hpar => exact ht.free x _ _
  | leafKeep hsam r h => exact (r.time_detach ht).free x _ _
  | leafSplice hsam r hpe hps r2 => exact (r2.time_splice (r.time_detach ht)).free x _ _
  | leafPromote hsam r hpe hps r2 => exact (r2.time_promote (r.time_detach ht)).free x _ _

theorem addExternal_rel (s : LineageTree) (t : Int) (lng : Nat) (data : Int) :
    AddRootRel s (addExtantLineageExternal s t lng data) t lng data :=
  ⟨fun _ => rfl, rfl, rfl, rfl, rfl, rfl⟩

theorem addExtant_rel {s : LineageTree} {lngParent pa : Nat} {np : LineageTreeNode}
    (hE : mapFind s.extantLngs lngParent = some pa) (hp : s.mem.cells pa = some np)
    (t : Int) (lng : Nat) (data : Int) :
    ∃ s', addExtantLineage s t lng data lngParent = .ok s' ∧ AddRel s s' t lng data pa np := by
  refine ⟨{ s with
      mem := (s.mem.alloc (mkNode lng data t true (some pa))).1.set pa
        { np with children := np.children ++ [s.mem.next] },
      extantLngs := mapSet s.extantLngs lng s.mem.next,
      nnodes := uintInc s.nnodes }, ?_, ?_⟩
  · simp only [addExtantLineage, LineageTree.extantNode, hE, bind, Except.bind,
      Mem.get_of_cells hp, pure, Except.pure]
    rfl
  · refine ⟨hp, ?_, rfl, rfl, rfl, rfl, rfl⟩
    intro b
    by_cases h1 : b = pa
    · simp [h1, Mem.alloc, Mem.set]
    · simp [h1, Mem.alloc, Mem.set]

theorem AddRootRel.struct_addRoot {s s' : LineageTree} {t : Int} {lng : Nat} {data : Int}
    (r : AddRootRel s s' t lng data) (hs : Struct none s)
    (hf : ∀ a n, s.mem.cells a = some n → n.lng ≠ lng) : Struct none s' := by
  have hnew : s'.mem.cells s.mem.next = some (mkNode lng data t true none) := by
    rw [r.cells]; simp
  have hold : ∀ b nb, s.mem.cells b = some nb → s'.mem.cells b = some nb := by
    intro b nb hb
    rw [r.cells b, if_neg (live_lt_next hs hb).ne]
    exact hb
  constructor
  · intro a ha
    rw [r.next] at ha
    rw [r.cells a, if_neg (by omega)]
    exact hs.bound a (by omega)
  · intro a n c _ ha hc
    rw [r.cells a] at ha
    split_ifs at ha with h1
    · cases ha; simp [mkNode] at hc
    · obtain ⟨_, nc, hnc, hcp⟩ := hs.childLive a n c (by simp) ha hc
      exact ⟨by simp, nc, hold c nc hnc, hcp⟩
  · intro a n p _ ha hp
    rw [r.cells a] at ha
    split_ifs at ha with h1
    · cases ha; simp [mkNode] at hp
    · obtain ⟨_, np, hnp, hmem⟩ := hs.parentLive a n p (by simp) ha hp
      exact ⟨by simp, np, hold p np hnp, hmem⟩
  · intro a n _ ha
    rw [r.cells a] at ha
    split_ifs at ha with h1
    · cases ha; simp [mkNode]
    · exact hs.childNodup a n (by simp) ha
  · intro a b na nb _ _ ha hb hl
    rw [r.cells a] at ha
    rw [r.cells b] at hb
    split_ifs at ha with h1
    · split_ifs at hb with h2
      · rw [h1, h2]
      · cases ha
        exact absurd hl.symm (hf b nb hb)
    · split_ifs at hb with h2
      · cases hb
        exact absurd hl (hf a na ha)
      · exact hs.lngInj a b na nb (by simp) (by simp) ha hb hl
  · intro a n p _ ha hp
    rw [r.cells a] at ha
    split_ifs at ha with h1
    · cases ha; simp [mkNode] at hp
    · exact hs.order a n p (by simp) ha hp
  · intro a
    rw [r.roots, mem_setInsert, hs.rootSet a]
    constructor
    · rintro (⟨_, n, hn, hp⟩ | h)
      · exact ⟨by simp, n, hold a n hn, hp⟩
      · subst h
        exact ⟨by simp, _, hnew, rfl⟩
    · rintro ⟨_, n, hn, hp⟩
      rw [r.cells a] at hn
      split_ifs at hn with h1
      · exact Or.inr h1
      · exact Or.inl ⟨by simp, n, hn, hp⟩

theorem AddRel.struct_add {s s' : LineageTree} {t : Int} {lng : Nat} {data : Int} {pa : Nat}
    {np : LineageTreeNode} (r : AddRel s s' t lng data pa np) (hs : Struct none s)
    (hf : ∀ a n, s.mem.cells a = some n → n.lng ≠ lng) : Struct none s' := by
  have hpa : pa < s.mem.next := live_lt_next hs r.hp
  have hnew : s'.mem.cells s.mem.next = some (mkNode lng data t true (some pa)) := by
    rw [r.cells]; simp [hpa.ne']
  have hpa' : s'.mem.cells pa = some { np with children := np.children ++ [s.mem.next] } := by
    rw [r.cells]; simp
  have hold : ∀ b nb, b ≠ pa → s.mem.cells b = some nb → s'.mem.cells b = some nb := by
    intro b nb h1 hb
    rw [r.cells b, if_neg h1, if_neg (live_lt_next hs hb).ne]
    exact hb
  have hnotmem : s.mem.next ∉ np.children := by
    intro h
    obtain ⟨_, nc, hnc, _⟩ := hs.childLive pa np _ (by simp) r.hp h
    exact absurd (live_lt_next hs hnc) (lt_irrefl _)
  constructor
  · intro a ha
    rw [r.next] at ha
    rw [r.cells a, if_neg (by omega), if_neg (by omega)]
    exact hs.bound a (by omega)
  · intro a n c _ ha hc
    rw [r.cells a] at ha
    split_ifs at ha with h1 h2
    · subst h1; cases ha
      simp only [List.mem_append, List.mem_singleton] at hc
      rcases hc with hc | hc
      · obtain ⟨_, nc, hnc, hcp⟩ := hs.childLive a np c (by simp) r.hp hc
        have hac : a < c := hs.order c nc a (by simp) hnc hcp
        exact ⟨by simp, nc, hold c nc hac.ne' hnc, hcp⟩
      · subst hc
        exact ⟨by simp, _, hnew, rfl⟩
    · cases ha; simp [mkNode] at hc
    · obtain ⟨_, nc, hnc, hcp⟩ := hs.childLive a n c (by simp) ha hc
      by_cases hcpa : c = pa
      · subst hcpa
        rw [r.hp] at hnc; cases hnc
        exact ⟨by simp, _, hpa', hcp⟩
      · exact ⟨by simp, nc, hold c nc hcpa hnc, hcp⟩
  · intro a n p _ ha hp
    rw [r.cells a] at ha
    have key : ∀ n0, s.mem.cells a = some n0 → n0.parent = some p →
        some p ≠ none ∧ ∃ nq, s'.mem.cells p = some nq ∧ a ∈ nq.children := by
      intro n0 h0 hp0
      obtain ⟨_, nq, hnq, hmem⟩ := hs.parentLive a n0 p (by simp) h0 hp0
      by_cases hppa : p = pa
      · subst hppa
        rw [r.hp] at hnq; cases hnq
        exact ⟨by simp, _, hpa', by simp [hmem]⟩
      · exact ⟨by simp, nq, hold p nq hppa hnq, hmem⟩
    split_ifs at ha with h1 h2
    · subst h1; cases ha
      exact key np r.hp hp
    · cases ha
      simp only [mkNode, Option.some.injEq] at hp
      subst hp
      exact ⟨by simp, _, hpa', by simp [h2]⟩
    · exact key n ha hp
  · intro a n _ ha
    rw [r.cells a] at ha
    split_ifs at ha with h1 h2
    · subst h1; cases ha
      refine List.Nodup.append (hs.childNodup a np (by simp) r.hp) (List.nodup_singleton _) ?_
      intro y hy1 hy2
      rw [List.mem_singleton] at hy2
      exact hnotmem (hy2 ▸ hy1)
    · cases ha; simp [mkNode]
    · exact hs.childNodup a n (by simp) ha
  · intro a b na nb _ _ ha hb hl
    have fwd : ∀ (d : Nat) (nd : LineageTreeNode), s'.mem.cells d = some nd →
        (d = s.mem.next ∧ nd.lng = lng) ∨
        (d ≠ s.mem.next ∧ ∃ nd0, s.mem.cells d = some nd0 ∧ nd.lng = nd0.lng) := by
      intro d nd hd
      rw [r.cells d] at hd
      split_ifs at hd with h1 h2
      · subst h1; cases hd; exact Or.inr ⟨hpa.ne, np, r.hp, rfl⟩
      · cases hd; exact Or.inl ⟨h2, rfl⟩
      · exact Or.inr ⟨h2, nd, hd, rfl⟩
    rcases fwd a na ha with ⟨ha1, ha2⟩ | ⟨ha1, na0, ha0, hla⟩
    · rcases fwd b nb hb with ⟨hb1, hb2⟩ | ⟨hb1, nb0, hb0, hlb⟩
      · rw [ha1, hb1]
      · exact absurd (by rw [← hlb, ← hl, ha2]) (hf b nb0 hb0)
    · rcases fwd b nb hb with ⟨hb1, hb2⟩ | ⟨hb1, nb0, hb0, hlb⟩
      · exact absurd (by rw [← hla, hl, hb2]) (hf a na0 ha0)
      · exact hs.lngInj a b na0 nb0 (by simp) (by simp) ha0 hb0 (by rw [← hla, ← hlb, hl])
  · intro a n p _ ha hp
    rw [r.cells a] at ha
    split_ifs at ha with h1 h2
    · subst h1; cases ha
      exact hs.order a np p (by simp) r.hp hp
    · cases ha
      simp only [mkNode, Option.some.injEq] at hp
      subst hp
      rw [h2]; exact hpa
    · exact hs.order a n p (by simp) ha hp
  · intro a
    rw [r.roots, hs.rootSet a]
    constructor
    · rintro ⟨_, n, hn, hp⟩
      by_cases h1 : a = pa
      · subst h1
        rw [r.hp] at hn; cases hn
        exact ⟨by simp, _, hpa', hp⟩
      · exact ⟨by simp, n, hold a n h1 hn, hp⟩
    · rintro ⟨_, n, hn, hp⟩
      rw [r.cells a] at hn
      split_ifs at hn with h1 h2
      · subst h1; cases hn
        exact ⟨by simp, np, r.hp, hp⟩
      · cases hn; simp [mkNode] at hp
      · exact ⟨by simp, n, hn, hp⟩

theorem AddRootRel.inv_addRoot {s s' : LineageTree} {t : Int} {lng : Nat} {data : Int}
    (r : AddRootRel s s' t lng data) (h : Inv s)
    (hf : ∀ a n, s.mem.cells a = some n → n.lng ≠ lng) : Inv s' := by
  have hold : ∀ b nb, s.mem.cells b = some nb → s'.mem.cells b = some nb := by
    intro b nb hb
    rw [r.cells b, if_neg (live_lt_next h.struct hb).ne]
    exact hb
  have hnew : s'.mem.cells s.mem.next = some (mkNode lng data t true none) := by
    rw [r.cells]; simp
  refine ⟨r.struct_addRoot h.struct hf, ?_, ?_, ?_, ?_⟩
  · intro a n ha he hsm
    rw [r.cells a] at ha
    split_ifs at ha with h1
    · cases ha; simp [mkNode] at he
    · exact h.prune a n ha he hsm
  · intro l a
    rw [r.extantLngs, mapFind_mapSet]
    constructor
    · intro hfind
      split_ifs at hfind with h1
      · cases hfind
        exact ⟨_, hnew, h1.symm, rfl⟩
      · obtain ⟨n, hn, hl, he⟩ := (h.einv l a).1 hfind
        exact ⟨n, hold a n hn, hl, he⟩
    · rintro ⟨n, hn, hl, he⟩
      rw [r.cells a] at hn
      split_ifs at hn with h1
      · cases hn
        simp only [mkNode] at hl
        rw [if_pos hl.symm, h1]
      · have hne : l ≠ lng := fun e => hf a n hn (hl.trans e)
        rw [if_neg hne]
        exact (h.einv l a).2 ⟨n, hn, hl, he⟩
  · intro l
    rw [r.sampled_lineages, h.sinv l]
    constructor
    · rintro ⟨a, n, hn, hl, hsm⟩
      exact ⟨a, n, hold a n hn, hl, hsm⟩
    · rintro ⟨a, n, hn, hl, hsm⟩
      rw [r.cells a] at hn
      split_ifs at hn with h1
      · cases hn; simp [mkNode] at hsm
      · exact ⟨a, n, hn, hl, hsm⟩
  · intro a n ha
    rw [r.cells a] at ha
    split_ifs at ha with h1
    · cases ha; rfl
    · exact h.noNeeded a n ha

theorem TimeInv.of_parent {s s' : LineageTree} (ht : TimeInv s)
    {a : Nat} {n n' : LineageTreeNode} (ha : s.mem.cells a = some n)
    (h1 : n'.t = n.t) (h2 : n'.tBranchParent = n.tBranchParent) (h3 : n'.parent = n.parent)
    (fwd : ∀ p np', n.parent = some p → s'.mem.cells p = some np' →
      ∃ np, s.mem.cells p = some np ∧ np'.t = np.t) :
    n'.tBranchParent ≤ n'.t ∧
      ∀ p np, n'.parent = some p → s'.mem.cells p = some np → np.t ≤ n'.tBranchParent := by
  obtain ⟨t1, t2⟩ := ht a n ha
  refine ⟨by rw [h1, h2]; exact t1, ?_⟩
  intro p np' hp hnp'
  obtain ⟨np, hnp, ht'⟩ := fwd p np' (h3 ▸ hp) hnp'
  rw [ht', h2]
  exact t2 p np (h3 ▸ hp) hnp

theorem AddRootRel.time_addRoot {s s' : LineageTree} {t : Int} {lng : Nat} {data : Int}
    (r : AddRootRel s s' t lng data) (hs : Struct none s) (ht : TimeInv s) : TimeInv s' := by
  intro a n ha
  rw [r.cells a] at ha
  split_ifs at ha with h1
  · cases ha
    refine ⟨le_refl _, ?_⟩
    intro p np hp _
    simp [mkNode] at hp
  · refine ht.of_parent ha rfl rfl rfl ?_
    intro p np' hp hb
    obtain ⟨_, np, hnp, _⟩ := hs.parentLive a n p (by simp) ha hp
    rw [r.cells p, if_neg (live_lt_next hs hnp).ne, hnp] at hb
    cases hb
    exact ⟨_, hnp, rfl⟩

theorem AddRel.inv_add {s s' : LineageTree} {t : Int} {lng : Nat} {data : Int} {pa : Nat}
    {np : LineageTreeNode} (r : AddRel s s' t lng data pa np) (h : Inv s)
    (hf : ∀ a n, s.mem.cells a = some n → n.lng ≠ lng) : Inv s' := by
  have hpa : pa < s.mem.next := live_lt_next h.struct r.hp
  have hold : ∀ b nb, b ≠ pa → s.mem.cells b = some nb → s'.mem.cells b = some nb := by
    intro b nb h1 hb
    rw [r.cells b, if_neg h1, if_neg (live_lt_next h.struct hb).ne]
    exact hb
  have hpa' : s'.mem.cells pa = some { np with children := np.children ++ [s.mem.next] } := by
    rw [r.cells]; simp
  have hnew : s'.mem.cells s.mem.next = some (mkNode lng data t true (some pa)) := by
    rw [r.cells]; simp [hpa.ne']
  have hold' : ∀ b nb, s.mem.cells b = some nb →
      ∃ nb', s'.mem.cells b = some nb' ∧ SameData nb nb' := by
    intro b nb hb
    by_cases h1 : b = pa
    · subst h1
      rw [r.hp] at hb; cases hb
      exact ⟨_, hpa', ⟨rfl, rfl, rfl, rfl, rfl, rfl, rfl, rfl⟩⟩
    · exact ⟨nb, hold b nb h1 hb, SameData.refl_data nb⟩
  refine ⟨r.struct_add h.struct hf, ?_, ?_, ?_, ?_⟩
  · intro a n ha he hsm
    rw [r.cells a] at ha
    split_ifs at ha with h1 h2
    · subst h1; cases ha
      have := h.prune a np r.hp he hsm
      simp only [List.length_append, List.length_singleton]
      omega
    · cases ha; simp [mkNode] at he
    · exact h.prune a n ha he hsm
  · intro l a
    rw [r.extantLngs, mapFind_mapSet]
    constructor
    · intro hfind
      split_ifs at hfind with h1
      · cases hfind
        exact ⟨_, hnew, h1.symm, rfl⟩
      · obtain ⟨n, hn, hl, he⟩ := (h.einv l a).1 hfind
        obtain ⟨n', hn', ⟨d1, _, _, _, _, d6, _, _⟩⟩ := hold' a n hn
        exact ⟨n', hn', d1.trans hl, d6.trans he⟩
    · rintro ⟨n, hn, hl, he⟩
      rw [r.cells a] at hn
      split_ifs at hn with h1 h2
      · subst h1; cases hn
        have hne : l ≠ lng := fun e => hf a np r.hp (hl.trans e)
        rw [if_neg hne]
        exact (h.einv l a).2 ⟨np, r.hp, hl, he⟩
      · cases hn
        simp only [mkNode] at hl
        rw [if_pos hl.symm, h2]
      · have hne : l ≠ lng := fun e => hf a n hn (hl.trans e)
        rw [if_neg hne]
        exact (h.einv l a).2 ⟨n, hn, hl, he⟩
  · intro l
    rw [r.sampled_lineages, h.sinv l]
    constructor
    · rintro ⟨a, n, hn, hl, hsm⟩
      obtain ⟨n', hn', ⟨d1, _, _, _, _, _, d7, _⟩⟩ := hold' a n hn
      exact ⟨a, n', hn', d1.trans hl, d7.trans hsm⟩
    · rintro ⟨a, n, hn, hl, hsm⟩
      rw [r.cells a] at hn
      split_ifs at hn with h1 h2
      · subst h1; cases hn
        exact ⟨a, np, r.hp, hl, hsm⟩
      · cases hn; simp [mkNode] at hsm
      · exact ⟨a, n, hn, hl, hsm⟩
  · intro a n ha
    rw [r.cells a] at ha
    split_ifs at ha with h1 h2
    · subst h1; cases ha
      exact h.noNeeded a np r.hp
    · cases ha; rfl
    · exact h.noNeeded a n ha

theorem AddRel.time_add {s s' : LineageTree} {t : Int} {lng : Nat} {data : Int} {pa : Nat}
    {np : LineageTreeNode} (r : AddRel s s' t lng data pa np) (hs : Struct none s)
    (ht : TimeInv s) (htime : np.t ≤ t) : TimeInv s' := by
  have hpa : pa < s.mem.next := live_lt_next hs r.hp
  have hpa' : s'.mem.cells pa = some { np with children := np.children ++ [s.mem.next] } := by
    rw [r.cells]; simp
  have fwd : ∀ (a : Nat) (n : LineageTreeNode), s.mem.cells a = some n →
      ∀ p np', n.parent = some p → s'.mem.cells p = some np' →
      ∃ np, s.mem.cells p = some np ∧ np'.t = np.t := by
    intro a n ha p np' hp hb
    obtain ⟨_, nq, hnq, _⟩ := hs.parentLive a n p (by simp) ha hp
    rw [r.cells p] at hb
    split_ifs at hb with h1 h2
    · subst h1; cases hb
      exact ⟨np, r.hp, rfl⟩
    · exact absurd h2 (live_lt_next hs hnq).ne
    · exact ⟨np', hb, rfl⟩
  intro a n ha
  rw [r.cells a] at ha
  split_ifs at ha with h1 h2
  · subst h1; cases ha
    exact ht.of_parent r.hp rfl rfl rfl (fwd a np r.hp)
  · cases ha
    refine ⟨le_refl _, ?_⟩
    intro p nq hp hq
    simp only [mkNode, Option.some.injEq] at hp
    subst hp
    rw [hpa'] at hq
    cases hq
    exact htime
  · exact ht.of_parent ha rfl rfl rfl (fwd a n ha)

theorem sample_rel {s : LineageTree} {lng a : Nat} {n : LineageTreeNode}
    (hE : mapFind s.extantLngs lng = some a) (ha : s.mem.cells a = some n)
    (hl : n.lng = lng) (t : Int) (loc : String) :
    (n.sampled = true ∧ sampleExtantLineage s lng t loc = .ok (s, false)) ∨
    (∃ s', sampleExtantLineage s lng t loc = .ok (s', true) ∧ SampleRel s s' lng t loc a n) := by
  rcases Bool.eq_false_or_eq_true n.sampled with hsam | hsam
  · left
    refine ⟨hsam, ?_⟩
    simp [sampleExtantLineage, LineageTree.extantNode, hE, bind, Except.bind,
      Mem.get_of_cells ha, hsam, pure, Except.pure]
  · right
    refine ⟨{ s with
      mem := s.mem.set a { n with sampled := true, tSample := t, locSample := loc },
      sampled_lineages := setInsert s.sampled_lineages lng }, ?_, ?_⟩
    · simp [sampleExtantLineage, LineageTree.extantNode, hE, bind, Except.bind,
        Mem.get_of_cells ha, hsam, pure, Except.pure]
    · exact ⟨ha, hl, hsam, fun _ => rfl, rfl, rfl, rfl, rfl, rfl⟩

theorem SampleRel.inv_sample {s s' : LineageTree} {lng : Nat} {t : Int} {loc : String} {a : Nat}
    {n : LineageTreeNode} (r : SampleRel s s' lng t loc a n) (h : Inv s) : Inv s' := by
  have ha' : s'.mem.cells a =
      some { n with sampled := true, tSample := t, locSample := loc } := by
    rw [r.cells]; simp
  refine ⟨?_, ?_, ?_, ?_, ?_⟩
  · refine Struct.congr h.struct r.next r.roots ?_ ?_
    · intro b nb hb
      rw [r.cells b] at hb
      split_ifs at hb with h1
      · subst h1; cases hb; exact ⟨n, r.ha, rfl, rfl, rfl⟩
      · exact ⟨nb, hb, rfl, rfl, rfl⟩
    · intro b nb0 hb
      by_cases h1 : b = a
      · subst h1
        rw [r.ha] at hb; cases hb
        exact ⟨_, ha', rfl, rfl, rfl⟩
      · exact ⟨nb0, by rw [r.cells b, if_neg h1]; exact hb, rfl, rfl, rfl⟩
  · intro b nb hb he hsm
    rw [r.cells b] at hb
    split_ifs at hb with h1
    · cases hb; cases hsm
    · exact h.prune b nb hb he hsm
  · intro l b
    rw [r.extantLngs, h.einv l b]
    constructor
    · rintro ⟨nb, hb, hl, he⟩
      by_cases h1 : b = a
      · subst h1
        rw [r.ha] at hb; cases hb
        exact ⟨_, ha', hl, he⟩
      · exact ⟨nb, by rw [r.cells b, if_neg h1]; exact hb, hl, he⟩
    · rintro ⟨nb, hb, hl, he⟩
      rw [r.cells b] at hb
      split_ifs at hb with h1
      · subst h1; cases hb
        exact ⟨n, r.ha, hl, he⟩
      · exact ⟨nb, hb, hl, he⟩
  · intro l
    rw [r.sampled_lineages, mem_setInsert, h.sinv l]
    constructor
    · rintro (⟨b, nb, hb, hl, hsm⟩ | hl)
      · by_cases h1 : b = a
        · subst h1
          rw [r.ha] at hb; cases hb
          exact ⟨b, _, ha', hl, rfl⟩
        · exact ⟨b, nb, by rw [r.cells b, if_neg h1]; exact hb, hl, hsm⟩
      · exact ⟨a, _, ha', by rw [hl]; exact r.hlng, rfl⟩
    · rintro ⟨b, nb, hb, hl, hsm⟩
      rw [r.cells b] at hb
      split_ifs at hb with h1
      · subst h1; cases hb
        exact Or.inr (hl.symm.trans r.hlng)
      · exact Or.inl ⟨b, nb, hb, hl, hsm⟩
  · intro b nb hb
    rw [r.cells b] at hb
    split_ifs at hb with h1
    · cases hb
      exact h.noNeeded a n r.ha
    · exact h.noNeeded b nb hb

theorem SampleRel.time_sample {s s' : LineageTree} {lng : Nat} {t : Int} {loc : String} {a : Nat}
    {n : LineageTreeNode} (r : SampleRel s s' lng t loc a n) (ht : TimeInv s) :
    TimeInv s' := by
  have fwd : ∀ b nb', s'.mem.cells b = some nb' →
      ∃ nb, s.mem.cells b = some nb ∧ nb'.t = nb.t := by
    intro b nb' hb
    rw [r.cells b] at hb
    split_ifs at hb with h1
    · subst h1; cases hb; exact ⟨n, r.ha, rfl⟩
    · exact ⟨nb', hb, rfl⟩
  intro b nb hb
  rw [r.cells b] at hb
  split_ifs at hb with h1
  · subst h1; cases hb
    exact ht.of_fwd fwd r.ha rfl rfl rfl
  · exact ht.of_fwd fwd hb rfl rfl rfl

theorem remove_inv {s : LineageTree} (h : Inv s) {lng x : Nat}
    (hE : mapFind s.extantLngs lng = some x) (ig : Bool) :
    ∃ s', removeExtantLineage s lng ig = .ok s' ∧ Inv s' := by
  obtain ⟨nx, hx, hl, hext⟩ := (h.einv lng x).1 hE
  obtain ⟨s2, hrun, st⟩ := remove_outcome h.struct h.prune hE hx ig
  refine ⟨_, hrun, ?_⟩
  have hs1 := h.struct.markExtinct hx
  have hx1 : ({ s with mem := s.mem.set x { nx with extant := false } } :
      LineageTree).mem.cells x = some { nx with extant := false } := by simp
  have hother : ∀ a, a ≠ x →
      ({ s with mem := s.mem.set x { nx with extant := false } } : LineageTree).mem.cells a
        = s.mem.cells a := by
    intro a ha
    simp [ha]
  have fr := st.frame_remove hs1 hx1 rfl
  have hs2 := st.struct_remove hs1 hx1
  refine ⟨⟨hs2.bound, hs2.childLive, hs2.parentLive, hs2.childNodup, hs2.lngInj, hs2.order,
    hs2.rootSet⟩, ?_, ?_, ?_, ?_⟩
  · apply st.prune hx1
    intro a n hax ha he hsm
    rw [hother a hax] at ha
    exact h.prune a n ha he hsm
  · intro l a
    show mapFind (mapErase s2.extantLngs lng) l = some a ↔ _
    rw [mapFind_mapErase, fr.extantLngs]
    constructor
    · intro hfind
      split_ifs at hfind with h1
      obtain ⟨n, hn, hnl, hne⟩ := (h.einv l a).1 hfind
      have hax : a ≠ x := by
        intro e
        subst e
        rw [hx] at hn; cases hn
        exact h1 (hnl.symm.trans hl)
      have hn1 := (hother a hax).trans hn
      cases h2 : s2.mem.cells a with
      | none =>
        obtain ⟨e1, _⟩ := fr.freed a n hn1 h2
        rw [hne] at e1; cases e1
      | some n' =>
        obtain ⟨n0, hn0, ⟨d1, _, _, _, _, d6, _, _⟩⟩ := fr.fwd a n' h2
        rw [hn1] at hn0; cases hn0
        exact ⟨n', rfl, d1.trans hnl, d6.trans hne⟩
    · rintro ⟨n', hn', hnl, hne⟩
      obtain ⟨n0, hn0, ⟨d1, _, _, _, _, d6, _, _⟩⟩ := fr.fwd a n' hn'
      have hax : a ≠ x := by
        intro e
        subst e
        rw [hx1] at hn0; cases hn0
        rw [hne] at d6
        cases d6
      rw [hother a hax] at hn0
      have hne' : l ≠ lng := by
        intro e
        apply hax
        exact h.struct.lngInj a x n0 nx (by simp) (by simp) hn0 hx
          (by rw [← d1, hnl, e, hl])
      rw [if_neg hne']
      exact (h.einv l a).2 ⟨n0, hn0, d1 ▸ hnl, d6 ▸ hne⟩
  · intro l
    show l ∈ s2.sampled_lineages ↔ _
    rw [fr.sampled_lineages]
    show l ∈ s.sampled_lineages ↔ _
    rw [h.sinv l]
    constructor
    · rintro ⟨a, n, hn, hnl, hsm⟩
      have hn1 : ∃ n1, ({ s with mem := s.mem.set x { nx with extant := false } } :
          LineageTree).mem.cells a = some n1 ∧ n1.lng = l ∧ n1.sampled = true := by
        by_cases hax : a = x
        · subst hax
          rw [hx] at hn; cases hn
          exact ⟨_, hx1, hnl, hsm⟩
        · exact ⟨n, (hother a hax).trans hn, hnl, hsm⟩
      obtain ⟨n1, h1, h2, h3⟩ := hn1
      cases h4 : s2.mem.cells a with
      | none =>
        obtain ⟨_, e2⟩ := fr.freed a n1 h1 h4
        rw [h3] at e2; cases e2
      | some n' =>
        obtain ⟨n0, hn0, ⟨d1, _, _, _, _, _, d7, _⟩⟩ := fr.fwd a n' h4
        rw [h1] at hn0; cases hn0
        exact ⟨a, n', h4, d1.trans h2, d7.trans h3⟩
    · rintro ⟨a, n', hn', hnl, hsm⟩
      obtain ⟨n0, hn0, ⟨d1, _, _, _, _, _, d7, _⟩⟩ := fr.fwd a n' hn'
      by_cases hax : a = x
      · subst hax
        rw [hx1] at hn0; cases hn0
        exact ⟨a, nx, hx, d1 ▸ hnl, d7 ▸ hsm⟩
      · rw [hother a hax] at hn0
        exact ⟨a, n0, hn0, d1 ▸ hnl, d7 ▸ hsm⟩
  · intro a n' hn'
    obtain ⟨n0, hn0, ⟨_, _, _, _, _, _, _, d8⟩⟩ := fr.fwd a n' hn'
    rw [d8]
    by_cases hax : a = x
    · subst hax
      rw [hx1] at hn0; cases hn0
      exact h.noNeeded a nx hx
    · rw [hother a hax] at hn0
      exact h.noNeeded a n0 hn0

theorem remove_time {s : LineageTree} (h : Inv s) (ht : TimeInv s) {lng x : Nat}
    (hE : mapFind s.extantLngs lng = some x) (ig : Bool) {s' : LineageTree}
    (hrun : removeExtantLineage s lng ig = .ok s') : TimeInv s' := by
  obtain ⟨nx, hx, hl, hext⟩ := (h.einv lng x).1 hE
  obtain ⟨s2, hrun2, st⟩ := remove_outcome h.struct h.prune hE hx ig
  rw [hrun] at hrun2
  cases hrun2
  have ht1 : TimeInv { s with mem := s.mem.set x { nx with extant := false } } := by
    have fwd : ∀ b nb', ({ s with mem := s.mem.set x { nx with extant := false } } :
        LineageTree).mem.cells b = some nb' → ∃ nb, s.mem.cells b = some nb ∧ nb'.t = nb.t := by
      intro b nb' hb
      change (s.mem.set x { nx with extant := false }).cells b = some nb' at hb
      rw [Mem.set_cells] at hb
      split_ifs at hb with h1
      · subst h1; cases hb; exact ⟨nx, hx, rfl⟩
      · exact ⟨nb', hb, rfl⟩
    intro b nb hb
    change (s.mem.set x { nx with extant := false }).cells b = some nb at hb
    rw [Mem.set_cells] at hb
    split_ifs at hb with h1
    · subst h1; cases hb
      exact ht.of_fwd fwd hx rfl rfl rfl
    · exact ht.of_fwd fwd hb rfl rfl rfl
  exact st.time_remove ht1

theorem Inv.empty_inv : Inv LineageTree.empty := by
  refine ⟨Struct.empty_struct, ?_, ?_, ?_, ?_⟩
  · intro a n ha; simp [LineageTree.empty] at ha
  · intro l a; simp [LineageTree.empty, mapFind]
  · intro l; simp [LineageTree.empty]
  · intro a n ha; simp [LineageTree.empty] at ha

theorem TimeInv.empty_time : TimeInv LineageTree.empty := by
  intro a n ha; simp [LineageTree.empty] at ha

theorem step_inv {s : LineageTree} (h : Inv s) {op : Op} (hpre : opPre s op = true) :
    ∃ s', applyOp s op = .ok s' ∧ Inv s' := by
  cases op with
  | addExternal t lng data =>
    simp only [opPre, Bool.not_eq_true'] at hpre
    exact ⟨_, rfl, (addExternal_rel s t lng data).inv_addRoot h (lngInTree_false h.struct hpre)⟩
  | add t lng data lngParent =>
    simp only [opPre, Bool.and_eq_true, Bool.not_eq_true', Option.isSome_iff_exists] at hpre
    obtain ⟨hf, pa, hpa⟩ := hpre
    obtain ⟨np, hnp, _, _⟩ := (h.einv lngParent pa).1 hpa
    obtain ⟨s', hrun, r⟩ := addExtant_rel hpa hnp t lng data
    exact ⟨s', hrun, r.inv_add h (lngInTree_false h.struct hf)⟩
  | sample lng t loc =>
    simp only [opPre, Option.isSome_iff_exists] at hpre
    obtain ⟨a, ha⟩ := hpre
    obtain ⟨n, hn, hl, _⟩ := (h.einv lng a).1 ha
    rcases sample_rel ha hn hl t loc with ⟨_, hrun⟩ | ⟨s', hrun, r⟩
    · exact ⟨s, by simp [applyOp, hrun], h⟩
    · exact ⟨s', by simp [applyOp, hrun], r.inv_sample h⟩
  | remove lng ig =>
    simp only [opPre, Option.isSome_iff_exists] at hpre
    obtain ⟨x, hx⟩ := hpre
    exact remove_inv h hx ig

theorem step_time {s s' : LineageTree} (h : Inv s) (ht : TimeInv s) {op : Op}
    (hpre : opPre s op = true) (htm : opTimed s op = true) (hrun : applyOp s op = .ok s') :
    TimeInv s' := by
  cases op with
  | addExternal t lng data =>
    simp only [applyOp, Except.ok.injEq] at hrun
    subst hrun
    exact (addExternal_rel s t lng data).time_addRoot h.struct ht
  | add t lng data lngParent =>
    simp only [opPre, Bool.and_eq_true, Bool.not_eq_true', Option.isSome_iff_exists] at hpre
    obtain ⟨hf, pa, hpa⟩ := hpre
    obtain ⟨np, hnp, _, _⟩ := (h.einv lngParent pa).1 hpa
    obtain ⟨s'', hrun', r⟩ := addExtant_rel hpa hnp t lng data
    simp only [applyOp] at hrun
    rw [hrun] at hrun'
    cases hrun'
    simp only [opTimed, hpa, hnp, decide_eq_true_eq] at htm
    exact r.time_add h.struct ht htm
  | sample lng t loc =>
    simp only [opPre, Option.isSome_iff_exists] at hpre
    obtain ⟨a, ha⟩ := hpre
    obtain ⟨n, hn, hl, _⟩ := (h.einv lng a).1 ha
    rcases sample_rel ha hn hl t loc with ⟨_, hrun'⟩ | ⟨s'', hrun', r⟩
    · simp only [applyOp, hrun', Except.ok.injEq] at hrun
      subst hrun
      exact ht
    · simp only [applyOp, hrun', Except.ok.injEq] at hrun
      subst hrun
      exact r.time_sample ht
  | remove lng ig =>
    simp only [opPre, Option.isSome_iff_exists] at hpre
    obtain ⟨x, hx⟩ := hpre
    exact remove_time h ht hx ig hrun

theorem run_inv {s : LineageTree} (h : Inv s) (ops : List Op) (hv : validOps s ops = true) :
    ∃ s', runOps s ops = .ok s' ∧ Inv s' := by
  induction ops generalizing s with
  | nil => exact ⟨s, rfl, h⟩
  | cons op ops ih =>
    simp only [validOps, Bool.and_eq_true] at hv
    obtain ⟨hpre, hrest⟩ := hv
    obtain ⟨s1, hrun, h1⟩ := step_inv h hpre
    simp only [hrun] at hrest
    obtain ⟨s', hrun', h'⟩ := ih h1 hrest
    exact ⟨s', by simp [runOps, hrun, hrun'], h'⟩

theorem run_time {s : LineageTree} (h : Inv s) (ht : TimeInv s) (ops : List Op)
    (hv : validOps s ops = true) (htm : timedOps s ops = true) :
    ∃ s', runOps s ops = .ok s' ∧ Inv s' ∧ TimeInv s' := by
  induction ops generalizing s with
  | nil => exact ⟨s, rfl, h, ht⟩
  | cons op ops ih =>
    simp only [validOps, Bool.and_eq_true] at hv
    simp only [timedOps, Bool.and_eq_true] at htm
    obtain ⟨hpre, hrest⟩ := hv
    obtain ⟨htm1, htmrest⟩ := htm
    obtain ⟨s1, hrun, h1⟩ := step_inv h hpre
    simp only [hrun] at hrest htmrest
    obtain ⟨s', hrun', h', ht'⟩ := ih h1 (step_time h ht hpre htm1 hrun) hrest htmrest
    exact ⟨s', by simp [runOps, hrun, hrun'], h', ht'⟩

theorem KeepsSampled.refl_keeps (s : LineageTree) : KeepsSampled s s :=
  fun _ n h hs => ⟨n, h, hs, rfl, rfl, rfl⟩

theorem KeepsSampled.trans_keeps {s s' s'' : LineageTree} (h1 : KeepsSampled s s')
    (h2 : KeepsSampled s' s'') : KeepsSampled s s'' := by
  intro a n ha hs
  obtain ⟨n', ha', hs', e1, e2, e3⟩ := h1 a n ha hs
  obtain ⟨n'', ha'', hs'', f1, f2, f3⟩ := h2 a n' ha' hs'
  exact ⟨n'', ha'', hs'', f1.trans e1, f2.trans e2, f3.trans e3⟩

theorem step_keeps {s s' : LineageTree} (h : Inv s) {op : Op} (hpre : opPre s op = true)
    (hrun : applyOp s op = .ok s') : KeepsSampled s s' := by
  cases op with
  | addExternal t lng data =>
    simp only [applyOp, Except.ok.injEq] at hrun
    subst hrun
    intro a n ha hs
    refine ⟨n, ?_, hs, rfl, rfl, rfl⟩
    rw [(addExternal_rel s t lng data).cells a, if_neg (live_lt_next h.struct ha).ne]
    exact ha
  | add t lng data lngParent =>
    simp only [opPre, Bool.and_eq_true, Bool.not_eq_true', Option.isSome_iff_exists] at hpre
    obtain ⟨hf, pa, hpa⟩ := hpre
    obtain ⟨np, hnp, _, _⟩ := (h.einv lngParent pa).1 hpa
    obtain ⟨s'', hrun', r⟩ := addExtant_rel hpa hnp t lng data
    simp only [applyOp] at hrun
    rw [hrun] at hrun'
    cases hrun'
    intro a n ha hs
    by_cases h1 : a = pa
    · subst h1
      rw [hnp] at ha; cases ha
      exact ⟨{ np with children := np.children ++ [s.mem.next] }, by rw [r.cells a]; simp, hs,
        rfl, rfl, rfl⟩
    · refine ⟨n, ?_, hs, rfl, rfl, rfl⟩
      rw [r.cells a, if_neg h1, if_neg (live_lt_next h.struct ha).ne]
      exact ha
  | sample lng t loc =>
    simp only [opPre, Option.isSome_iff_exists] at hpre
    obtain ⟨x, hx⟩ := hpre
    obtain ⟨nx, hnx, hl, _⟩ := (h.einv lng x).1 hx
    rcases sample_rel hx hnx hl t loc with ⟨_, hrun'⟩ | ⟨s'', hrun', r⟩
    · simp only [applyOp, hrun', Except.ok.injEq] at hrun
      subst hrun
      exact KeepsSampled.refl_keeps s
    · simp only [applyOp, hrun', Except.ok.injEq] at hrun
      subst hrun
      intro a n ha hs
      by_cases h1 : a = x
      · subst h1
        rw [r.ha] at ha; cases ha
        rw [r.hsam] at hs; cases hs
      · exact ⟨n, by rw [r.cells a, if_neg h1]; exact ha, hs, rfl, rfl, rfl⟩
  | remove lng ig =>
    simp only [opPre, Option.isSome_iff_exists] at hpre
    obtain ⟨x, hx⟩ := hpre
    obtain ⟨nx, hnx, hl, hext⟩ := (h.einv lng x).1 hx
    obtain ⟨s2, hrun2, st⟩ := remove_outcome h.struct h.prune hx hnx ig
    simp only [applyOp] at hrun
    rw [hrun] at hrun2
    cases hrun2
    have hs1 := h.struct.markExtinct hnx
    have hx1 : ({ s with mem := s.mem.set x { nx with extant := false } } :
        LineageTree).mem.cells x = some { nx with extant := false } := by simp
    have fr := st.frame_remove hs1 hx1 rfl
    intro a n ha hs
    have hn1 : ∃ n1, ({ s with mem := s.mem.set x { nx with extant := false } } :
        LineageTree).mem.cells a = some n1 ∧ n1.sampled = true ∧ n1.lng = n.lng ∧
        n1.tSample = n.tSample ∧ n1.locSample = n.locSample := by
      by_cases hax : a = x
      · subst hax
        rw [hnx] at ha; cases ha
        exact ⟨_, hx1, hs, rfl, rfl, rfl⟩
      · exact ⟨n, by simpa [hax] using ha, hs, rfl, rfl, rfl⟩
    obtain ⟨n1, h1, h2, h3, h4, h5⟩ := hn1
    cases h6 : s2.mem.cells a with
    | none =>
      obtain ⟨_, e2⟩ := fr.freed a n1 h1 h6
      rw [h2] at e2; cases e2
    | some n' =>
      obtain ⟨n0, hn0, ⟨d1, _, d3, d4, _, _, d7, _⟩⟩ := fr.fwd a n' h6
      rw [h1] at hn0; cases hn0
      exact ⟨n', rfl, d7.trans h2, d1.trans h3, d3.trans h4, d4.trans h5⟩

theorem run_keeps {s : LineageTree} (h : Inv s) (ops : List Op)
    (hv : validOps s ops = true) :
    ∃ s', runOps s ops = .ok s' ∧ Inv s' ∧ KeepsSampled s s' := by
  induction ops generalizing s with
  | nil => exact ⟨s, rfl, h, KeepsSampled.refl_keeps s⟩
  | cons op ops ih =>
    simp only [validOps, Bool.and_eq_true] at hv
    obtain ⟨hpre, hrest⟩ := hv
    obtain ⟨s1, hrun, h1⟩ := step_inv h hpre
    simp only [hrun] at hrest
    obtain ⟨s', hrun', h', hk⟩ := ih h1 hrest
    exact ⟨s', by simp [runOps, hrun, hrun'], h', (step_keeps h hpre hrun).trans_keeps hk⟩

theorem validOps_append {s s1 : LineageTree} (ops1 ops2 : List Op)
    (hv : validOps s (ops1 ++ ops2) = true) (hrun : runOps s ops1 = .ok s1) :
    validOps s ops1 = true ∧ validOps s1 ops2 = true := by
  induction ops1 generalizing s with
  | nil =>
    simp only [runOps, Except.ok.injEq] at hrun
    subst hrun
    exact ⟨rfl, hv⟩
  | cons op ops ih =>
    simp only [List.cons_append, validOps, Bool.and_eq_true] at hv ⊢
    obtain ⟨hpre, hrest⟩ := hv
    cases hstep : applyOp s op with
    | error e => simp [runOps, hstep] at hrun
    | ok s' =>
      simp only [runOps, hstep] at hrun
      simp only [hstep] at hrest
      obtain ⟨h1, h2⟩ := ih hrest hrun
      exact ⟨⟨hpre, h1⟩, h2⟩

theorem runOps_prefix {s : LineageTree} (h : Inv s) (ops1 ops2 : List Op)
    (hv : validOps s (ops1 ++ ops2) = true) :
    ∃ s1, runOps s ops1 = .ok s1 ∧ Inv s1 ∧ validOps s1 ops2 = true := by
  induction ops1 generalizing s with
  | nil => exact ⟨s, rfl, h, hv⟩
  | cons op ops ih =>
    simp only [List.cons_append, validOps, Bool.and_eq_true] at hv
    obtain ⟨hpre, hrest⟩ := hv
    obtain ⟨s', hstep, h'⟩ := step_inv h hpre
    simp only [hstep] at hrest
    obtain ⟨s1, hrun, h1, hv1⟩ := ih h' hrest
    exact ⟨s1, by simp [runOps, hstep, hrun], h1, hv1⟩

/-- C1 (pruning invariant): after every sequence of `addExtantLineageExternal`,
`addExtantLineage`, `sampleExtantLineage` and `removeExtantLineage` calls that starts from
the empty tree and respects the preconditions, the run completes and every stored node that
is neither extant nor sampled has at least two children. -/
theorem pruning_invariant (ops : List Op) (hv : validOps LineageTree.empty ops = true) :
    ∃ s, runOps LineageTree.empty ops = .ok s ∧
      ∀ a n, s.mem.cells a = some n → n.extant = false → n.sampled = false →
        2 ≤ n.children.length := by
  obtain ⟨s, hrun, h⟩ := run_inv Inv.empty_inv ops hv
  exact ⟨s, hrun, h.prune⟩

theorem pruning_invariant_witness :
    validOps LineageTree.empty exampleOps = true ∧
    ∃ s, runOps LineageTree.empty exampleOps = .ok s ∧
      ∀ a n, s.mem.cells a = some n → n.extant = false → n.sampled = false →
        2 ≤ n.children.length :=
  ⟨by decide, pruning_invariant exampleOps (by decide)⟩

/-- C7 (bookkeeping invariant): after every valid sequence of calls, `extantLngs` maps
exactly the lineages of the extant nodes to their nodes, `sampled_lineages` is exactly the
set of lineages of sampled nodes, and `roots` is exactly the set of nodes without parent;
moreover a node that is sampled at some point of the run is still stored, with the same
sampling record, at every later point. -/
theorem bookkeeping_invariant (ops1 ops2 : List Op)
    (hv : validOps LineageTree.empty (ops1 ++ ops2) = true) :
    ∃ s1 s2, runOps LineageTree.empty ops1 = .ok s1 ∧ runOps s1 ops2 = .ok s2 ∧
      (∀ lng a, mapFind s2.extantLngs lng = some a ↔
        ∃ n, s2.mem.cells a = some n ∧ n.lng = lng ∧ n.extant = true) ∧
      (∀ lng, lng ∈ s2.sampled_lineages ↔
        ∃ a n, s2.mem.cells a = some n ∧ n.lng = lng ∧ n.sampled = true) ∧
      (∀ a, a ∈ s2.roots ↔ ∃ n, s2.mem.cells a = some n ∧ n.parent = none) ∧
      KeepsSampled s1 s2 := by
  obtain ⟨s1, hrun1, h1, hv2⟩ := runOps_prefix Inv.empty_inv ops1 ops2 hv
  obtain ⟨s2, hrun2, h2, hk⟩ := run_keeps h1 ops2 hv2
  refine ⟨s1, s2, hrun1, hrun2, h2.einv, h2.sinv, ?_, hk⟩
  intro a
  rw [h2.struct.rootSet a]
  simp

theorem bookkeeping_invariant_witness :
    validOps LineageTree.empty (exampleOps.take 6 ++ exampleOps.drop 6) = true ∧
    ∃ s1 s2, runOps LineageTree.empty (exampleOps.take 6) = .ok s1 ∧
      runOps s1 (exampleOps.drop 6) = .ok s2 ∧
      (∀ lng a, mapFind s2.extantLngs lng = some a ↔
        ∃ n, s2.mem.cells a = some n ∧ n.lng = lng ∧ n.extant = true) ∧
      (∀ lng, lng ∈ s2.sampled_lineages ↔
        ∃ a n, s2.mem.cells a = some n ∧ n.lng = lng ∧ n.sampled = true) ∧
      (∀ a, a ∈ s2.roots ↔ ∃ n, s2.mem.cells a = some n ∧ n.parent = none) ∧
      KeepsSampled s1 s2 :=
  ⟨by decide, bookkeeping_invariant (exampleOps.take 6) (exampleOps.drop 6) (by decide)⟩

/-- C8 (edge-time invariant): if every `addExtantLineage` is dated no earlier than the
birth of the infector, then after every valid sequence of calls each stored node `c` has
`tBranchParent ≤ t`, and if it has a parent `p` then `p.t ≤ c.tBranchParent`. -/
theorem edge_time_invariant (ops : List Op) (hv : validOps LineageTree.empty ops = true)
    (htm : timedOps LineageTree.empty ops = true) :
    ∃ s, runOps LineageTree.empty ops = .ok s ∧
      ∀ c nc p np, s.mem.cells c = some nc → nc.parent = some p → s.mem.cells p = some np →
        np.t ≤ nc.tBranchParent ∧ nc.tBranchParent ≤ nc.t := by
  obtain ⟨s, hrun, _, ht⟩ := run_time Inv.empty_inv TimeInv.empty_time ops hv htm
  refine ⟨s, hrun, ?_⟩
  intro c nc p np hc hp hnp
  obtain ⟨t1, t2⟩ := ht c nc hc
  exact ⟨t2 p np hp hnp, t1⟩

theorem edge_time_invariant_witness :
    validOps LineageTree.empty exampleOps = true ∧
    timedOps LineageTree.empty exampleOps = true ∧
    ∃ s, runOps LineageTree.empty exampleOps = .ok s ∧
      ∀ c nc p np, s.mem.cells c = some nc → nc.parent = some p → s.mem.cells p = some np →
        np.t ≤ nc.tBranchParent ∧ nc.tBranchParent ≤ nc.t :=
  ⟨by decide, by decide, edge_time_invariant exampleOps (by decide) (by decide)⟩

theorem kidAt_ok {ks : List LTree} {i : Nat} {c : LTree} (h : kidAt ks i = .ok c) :
    i < ks.length ∧ ks.drop i = c :: ks.drop (i + 1) := by
  unfold kidAt at h
  split at h
  · rename_i k hk
    cases h
    rw [List.get?_eq_some] at hk
    obtain ⟨hlt, hk⟩ := hk
    refine ⟨hlt, ?_⟩
    rw [List.drop_eq_getElem_cons hlt]
    simp only [List.get_eq_getElem] at hk
    rw [hk]
  · cases h

theorem kidAt_set_ne {ks : List LTree} {i j : Nat} (x : LTree) (h : i ≠ j) :
    kidAt (ks.set i x) j = kidAt ks j := by
  unfold kidAt
  simp only [List.get?_eq_getElem?]
  rw [List.getElem?_set_ne h]

theorem drop_set_lt {ks : List LTree} {i j : Nat} (x : LTree) (h : i < j) :
    (ks.set i x).drop j = ks.drop j := by
  rw [List.drop_set_of_lt _ _ h]

theorem branchLength_ok {t dt : Int} {pp : Option PhyloParent}
    (h : branchLength t pp = .ok dt) : ∀ q, pp = some q → q.t ≤ t := by
  intro q hq
  subst hq
  simp only [branchLength] at h
  split_ifs at h with h1
  exact h1

theorem branchLength_nonneg {t dt : Int} {pp : Option PhyloParent}
    (h : branchLength t pp = .ok dt) : 0 ≤ dt := by
  cases pp with
  | none =>
    simp only [branchLength] at h
    cases h
    exact le_refl _
  | some q =>
    simp only [branchLength] at h
    split_ifs at h with h1
    cases h
    omega

theorem sampledLngsList_cons (c : LTree) (ks : List LTree) :
    LTree.sampledLngsList (c :: ks) = c.sampledLngs ++ LTree.sampledLngsList ks := by
  simp [LTree.sampledLngsList]

theorem sampledLngsList_nil : LTree.sampledLngsList [] = [] := by
  simp [LTree.sampledLngsList]

theorem sampledLngsList_perm {l1 l2 : List LTree} (h : l1.Perm l2) :
    (LTree.sampledLngsList l1).Perm (LTree.sampledLngsList l2) := by
  induction h with
  | nil => exact List.Perm.refl _
  | cons x _ ih =>
    rw [sampledLngsList_cons, sampledLngsList_cons]
    exact List.Perm.append_left _ ih
  | swap x y l =>
    simp only [sampledLngsList_cons]
    rw [← List.append_assoc, ← List.append_assoc]
    exact List.Perm.append_right _ List.perm_append_comm
  | trans _ _ ih1 ih2 => exact ih1.trans ih2
theorem phyloInner_post {n : LineageTreeNode} {t dt : Int} {d dc a : Nat}
    {l r : PhyloNode} {pp : Option PhyloParent} {El Er E : List Nat} {ql qr : PhyloParent}
    (hl : GatPost (some ql) El l) (hr : GatPost (some qr) Er r)
    (hql : ql.t = t) (hqr : qr.t = t)
    (hE : (El ++ Er).Perm E) (hpp : ∀ q, pp = some q → q.t ≤ t) (hdt : 0 ≤ dt) :
    GatPost pp E (phyloInner n t dt d dc a l r) := by
  obtain ⟨hl1, hl2, hl5, hl3, hl4⟩ := hl
  obtain ⟨hr1, hr2, hr5, hr3, hr4⟩ := hr
  have h1 := hl4 ql rfl
  have h2 := hr4 qr rfl
  rw [hql] at h1
  rw [hqr] at h2
  refine ⟨?_, ?_, ?_, ?_, ?_⟩
  · simp [phyloInner, PhyloNode.strictlyBinary, hl1, hr1]
  · simp [phyloInner, PhyloNode.timeMonotone, hl2, hr2, h1, h2]
  · simp [phyloInner, PhyloNode.dtNonneg, hl5, hr5, hdt]
  · simp only [phyloInner, PhyloNode.leafLngs]
    exact (List.Perm.append hl3 hr3).trans hE
  · intro q hq
    simpa [phyloInner, PhyloNode.t] using hpp q hq

theorem phyloLeaf_post (n : LineageTreeNode) (t dt : Int) (d dc a : Nat)
    (pp : Option PhyloParent) (hpp : ∀ q, pp = some q → q.t ≤ t) (hdt : 0 ≤ dt) :
    GatPost pp [n.lng] (phyloLeaf n t dt d dc a) := by
  refine ⟨?_, ?_, ?_, ?_, ?_⟩
  · simp [phyloLeaf, PhyloNode.strictlyBinary]
  · simp [phyloLeaf, PhyloNode.timeMonotone]
  · simp [phyloLeaf, PhyloNode.dtNonneg, hdt]
  · simp [phyloLeaf, PhyloNode.leafLngs]
  · intro q hq
    simpa [phyloLeaf, PhyloNode.t] using hpp q hq

theorem GoodKids.tail {n : LineageTreeNode} {c : LTree} {ks : List LTree}
    (h : GoodKids n (c :: ks)) : GoodKids n ks :=
  fun x hx => h x (List.mem_cons_of_mem _ hx)

theorem asParent_lng (n : LineageTreeNode) (d dc a : Nat) (t : Int) :
    (asParent n d dc a t).lng = n.lng := rfl

theorem gatUnsampled_post {rec : LTree → Option PhyloParent → Except Err (LTree × PhyloNode)}
    (hrec : RecSpec rec) {n : LineageTreeNode} {cur : List LTree} {pp : Option PhyloParent}
    {st : ChainState} {r : LTree × PhyloNode} (hs : n.sampled = false)
    (hg : GoodKids n (cur.drop st.depth))
    (h : gatUnsampled rec n cur cur.length pp st = .ok r) :
    GatPost pp (LTree.sampledLngsList (cur.drop st.depth)) r.2 := by
  unfold gatUnsampled at h
  split_ifs at h with h1 h2 h3
  · -- chain continues
    split at h
    · cases h
    rename_i child hchild
    obtain ⟨hlt, hdrop⟩ := kidAt_ok hchild
    rw [hdrop] at hg ⊢
    dsimp only at h
    split at h
    · cases h
    rename_i dt hdt
    split at h
    · cases h
    rename_i child1 left hleft
    split at h
    · cases h
    rename_i node1 right hright
    cases h
    have hc := hg child (List.mem_cons_self _ _)
    have pl := hrec.1 _ _ _ hc.2 (by intro q hq; cases hq; exact fun e => hc.1 e.symm) hleft
    have pr := hrec.2 n _ _ (LTree.sampledLngsList (cur.drop (st.depth + 1))) _
      (asParent_lng _ _ _ _ _) (by
        unfold ChainInv
        rw [if_neg (by simp [hs])]
        simp only [asParent]
        rw [drop_set_lt _ (Nat.lt_succ_self _)]
        exact ⟨hg.tail, rfl⟩) hright
    exact phyloInner_post pl pr rfl rfl (by rw [sampledLngsList_cons]) (branchLength_ok hdt) (branchLength_nonneg hdt)
  · -- the last two children
    split at h
    · cases h
    rename_i child hchild
    obtain ⟨hlt, hdrop⟩ := kidAt_ok hchild
    dsimp only at h
    split at h
    · cases h
    rename_i dt hdt
    split at h
    · cases h
    rename_i child2 hchild2
    obtain ⟨hlt2, hdrop2⟩ := kidAt_ok hchild2
    have hnil : cur.drop (st.depth + 1 + 1) = [] := List.drop_eq_nil_of_le (by omega)
    rw [hdrop, hdrop2, hnil] at hg ⊢
    split at h
    · cases h
    rename_i child1 left hleft
    split at h
    · cases h
    rename_i child3 right hright
    cases h
    have hc := hg child (List.mem_cons_self _ _)
    have hc2 := hg child2 (List.mem_cons_of_mem _ (List.mem_cons_self _ _))
    have pl := hrec.1 _ _ _ hc.2 (by intro q hq; cases hq; exact fun e => hc.1 e.symm) hleft
    have pr := hrec.1 _ _ _ hc2.2 (by intro q hq; cases hq; exact fun e => hc2.1 e.symm) hright
    exact phyloInner_post pl pr rfl rfl
      (by simp [sampledLngsList_cons, sampledLngsList_nil]) (branchLength_ok hdt) (branchLength_nonneg hdt)
theorem gatLeaf_post {n : LineageTreeNode} {ks : List LTree} {pp : Option PhyloParent}
    {st : ChainState} {r : LTree × PhyloNode} (h : gatLeaf n ks pp st = .ok r) :
    n.sampled = true ∧ GatPost pp [n.lng] r.2 := by
  unfold gatLeaf at h
  split_ifs at h with h1
  split at h
  · cases h
  rename_i dt hdt
  cases h
  exact ⟨by simpa using h1, phyloLeaf_post _ _ _ _ _ _ _ (branchLength_ok hdt) (branchLength_nonneg hdt)⟩

theorem gatLate_post {rec : LTree → Option PhyloParent → Except Err (LTree × PhyloNode)}
    (hrec : RecSpec rec) {n : LineageTreeNode} {cur : List LTree} {pp : Option PhyloParent}
    {st : ChainState} {attach : Nat} {r : LTree × PhyloNode} (hs : n.sampled = true)
    (ha : ¬ attach < cur.length)
    (hg : GoodKids n (cur.drop st.depth))
    (ht : ∀ c ∈ cur.drop st.depth, c.node.tBranchParent ≤ n.tSample)
    (h : gatLate rec n cur cur.length pp st attach = .ok r) :
    GatPost pp (n.lng :: LTree.sampledLngsList (cur.drop st.depth)) r.2 := by
  unfold gatLate at h
  split at h
  · cases h
  rename_i child hchild
  obtain ⟨hlt, hdrop⟩ := kidAt_ok hchild
  dsimp only at h
  split at h
  · cases h
  rename_i dt hdt
  have hc := hg child (by rw [hdrop]; exact List.mem_cons_self _ _)
  have htc := ht child (by rw [hdrop]; exact List.mem_cons_self _ _)
  rw [hdrop] at hg ht ⊢
  split_ifs at h with h1
  · split at h
    · cases h
    rename_i child1 left hleft
    split at h
    · cases h
    rename_i node1 right hright
    cases h
    have pl := hrec.1 _ _ _ hc.2 (by intro q hq; cases hq; exact fun e => hc.1 e.symm) hleft
    have pr := hrec.2 n _ _ (n.lng :: LTree.sampledLngsList (cur.drop (st.depth + 1))) _
      (asParent_lng _ _ _ _ _) (by
        unfold ChainInv
        rw [if_pos hs, if_neg (by simpa [asParent] using ha)]
        simp only [asParent]
        rw [drop_set_lt _ (Nat.lt_succ_self _)]
        exact ⟨hg.tail, fun c hc => ht c (List.mem_cons_of_mem _ hc), rfl⟩) hright
    refine phyloInner_post pl pr rfl rfl ?_ (branchLength_ok hdt) (branchLength_nonneg hdt)
    rw [sampledLngsList_cons]
    exact List.perm_middle
  · split at h
    · cases h
    rename_i child1 left hleft
    cases h
    have hnil : cur.drop (st.depth + 1) = [] := List.drop_eq_nil_of_le (by omega)
    have pl := hrec.1 _ _ _ hc.2 (by intro q hq; cases hq; exact fun e => hc.1 e.symm) hleft
    have pr : GatPost (some (asParent n st.depth st.depthChild attach child.node.tBranchParent))
        [n.lng] (phyloLeaf n n.tSample (n.tSample - child.node.tBranchParent)
          (st.depth + 1) 0 uintMinusOne) :=
      phyloLeaf_post _ _ _ _ _ _ _ (by intro q hq; cases hq; exact htc) (by omega)
    refine phyloInner_post pl pr rfl rfl ?_ (branchLength_ok hdt) (branchLength_nonneg hdt)
    rw [sampledLngsList_cons, hnil, sampledLngsList_nil, List.append_nil]
    exact List.perm_append_comm

theorem gatAttach_post {rec : LTree → Option PhyloParent → Except Err (LTree × PhyloNode)}
    (hrec : RecSpec rec) {n : LineageTreeNode} {cur : List LTree} {pp : Option PhyloParent}
    {st : ChainState} {attach : Nat} {r : LTree × PhyloNode} (hs : n.sampled = true)
    (ha : attach < cur.length) (hd : st.depth = attach) (hdc : st.depthChild = st.depth)
    (hg : GoodKids n (cur.drop st.depth))
    (h : gatAttach rec n cur cur.length pp st attach = .ok r) :
    GatPost pp (n.lng :: LTree.sampledLngsList (cur.drop st.depth)) r.2 := by
  unfold gatAttach at h
  split at h
  · cases h
  rename_i dt hdt
  dsimp only at h
  have pr : ∀ dc, GatPost (some (asParent n st.depth dc attach n.tSample))
      [n.lng] (phyloLeaf n n.tSample 0 (st.depth + 1) 0 uintMinusOne) := fun dc =>
    phyloLeaf_post _ _ _ _ _ _ _ (by intro q hq; cases hq; exact le_refl _) (le_refl _)
  split_ifs at h with h1
  · split at h
    · cases h
    rename_i child hchild
    obtain ⟨hlt, hdrop⟩ := kidAt_ok hchild
    rw [hdc] at hdrop
    have hnil : cur.drop (st.depth + 1) = [] := List.drop_eq_nil_of_le (by omega)
    rw [hdrop, hnil] at hg ⊢
    have hc := hg child (List.mem_cons_self _ _)
    split at h
    · cases h
    rename_i child1 left hleft
    cases h
    have pl := hrec.1 _ _ _ hc.2 (by intro q hq; cases hq; exact fun e => hc.1 e.symm) hleft
    refine phyloInner_post pl (pr 0) rfl rfl ?_ (branchLength_ok hdt) (branchLength_nonneg hdt)
    rw [sampledLngsList_cons, sampledLngsList_nil, List.append_nil]
    exact List.perm_append_comm
  · split at h
    · cases h
    rename_i node1 left hleft
    cases h
    have pl := hrec.2 n _ _ (LTree.sampledLngsList (cur.drop st.depth)) _
      (asParent_lng _ _ _ _ _) (by
        unfold ChainInv
        rw [if_pos hs, if_pos (by simpa [asParent] using ha)]
        simp only [asParent]
        refine ⟨fun hle => absurd hle (by omega), fun _ => ⟨hdc, ?_, ?_⟩⟩
        · rw [hdc]; exact hg
        · rw [hdc]) hleft
    refine phyloInner_post pl (pr 0) rfl rfl ?_ (branchLength_ok hdt) (branchLength_nonneg hdt)
    exact List.perm_append_comm

theorem gatStep_post {rec : LTree → Option PhyloParent → Except Err (LTree × PhyloNode)}
    (hrec : RecSpec rec) {n : LineageTreeNode} {cur : List LTree} {pp : Option PhyloParent}
    {st : ChainState} {attach : Nat} {r : LTree × PhyloNode} (hs : n.sampled = true)
    (ha : attach < cur.length) (hd : st.depth ≠ attach)
    (hdc1 : st.depth < attach → st.depthChild = st.depth)
    (hdc2 : attach < st.depth → st.depthChild + 1 = st.depth)
    (hg : GoodKids n (cur.drop st.depthChild))
    (h : gatStep rec n cur cur.length pp st attach = .ok r) :
    GatPost pp ((if st.depth < attach then [n.lng] else []) ++
      LTree.sampledLngsList (cur.drop st.depthChild)) r.2 := by
  unfold gatStep at h
  split at h
  · cases h
  rename_i child hchild
  obtain ⟨hlt, hdrop⟩ := kidAt_ok hchild
  dsimp only at h
  split at h
  · cases h
  rename_i dt hdt
  split at h
  · cases h
  rename_i child1 left hleft
  rw [hdrop] at hg ⊢
  have hc := hg child (List.mem_cons_self _ _)
  have pl := hrec.1 _ _ _ hc.2 (by intro q hq; cases hq; exact fun e => hc.1 e.symm) hleft
  split_ifs at h with h1
  · all_goals
    split at h
    · cases h
    rename_i child2 hchild2
    rw [kidAt_set_ne _ (Nat.ne_of_lt (Nat.lt_succ_self _))] at hchild2
    obtain ⟨hlt2, hdrop2⟩ := kidAt_ok hchild2
    have hnil : cur.drop (st.depthChild + 1 + 1) = [] := List.drop_eq_nil_of_le (by omega)
    rw [hdrop2, hnil] at hg ⊢
    have hc2 := hg child2 (List.mem_cons_of_mem _ (List.mem_cons_self _ _))
    split at h
    · cases h
    rename_i child3 right hright
    cases h
    have pr := hrec.1 _ _ _ hc2.2 (by intro q hq; cases hq; exact fun e => hc2.1 e.symm) hright
    refine phyloInner_post pl pr rfl rfl ?_ (branchLength_ok hdt) (branchLength_nonneg hdt)
    rw [if_neg (by omega)]
    simp [sampledLngsList_cons, sampledLngsList_nil]
  · all_goals
    split at h
    · cases h
    rename_i node1 right hright
    cases h
    have pr := hrec.2 n _ _ ((if st.depth + 1 ≤ attach then [n.lng] else []) ++
        LTree.sampledLngsList (cur.drop (st.depthChild + 1))) _
      (asParent_lng _ _ _ _ _) (by
        unfold ChainInv
        rw [if_pos hs, if_pos (by simpa [asParent] using ha)]
        simp only [asParent]
        refine ⟨fun hle => ?_, fun hgt => ?_⟩
        · rw [if_pos hle]
          have := hdc1 (by omega)
          rw [← this, drop_set_lt _ (Nat.lt_succ_self _)]
          exact ⟨rfl, hg.tail, rfl⟩
        · rw [if_neg (by omega)]
          have := hdc2 (by omega)
          rw [drop_set_lt _ (Nat.lt_succ_self _)]
          exact ⟨by omega, hg.tail, rfl⟩) hright
    refine phyloInner_post pl pr rfl rfl ?_ (branchLength_ok hdt) (branchLength_nonneg hdt)
    rw [sampledLngsList_cons]
    by_cases hlt3 : st.depth < attach
    · have hle3 : st.depth + 1 ≤ attach := hlt3
      rw [if_pos hlt3, if_pos hle3]
      simp only [List.singleton_append]
      exact List.perm_middle
    · have hle3 : ¬ st.depth + 1 ≤ attach := hlt3
      rw [if_neg hlt3, if_neg hle3]
      simp
theorem allList_iff (Q : LineageTreeNode → List LTree → Bool) (ks : List LTree) :
    LTree.allList Q ks = true ↔ ∀ c ∈ ks, c.all Q = true := by
  induction ks with
  | nil => simp [LTree.allList]
  | cons c ks ih => simp [LTree.allList, ih]

theorem goodKids_of_all {n : LineageTreeNode} {K : List LTree}
    (h : (LTree.mk n K).all edgeDistinctQ = true) : GoodKids n K := by
  simp only [LTree.all, Bool.and_eq_true, allList_iff] at h
  intro c hc
  refine ⟨?_, h.2 c hc⟩
  have := h.1
  simp only [edgeDistinctQ, List.all_eq_true, decide_eq_true_eq] at this
  exact this c hc

theorem GoodKids.perm {n : LineageTreeNode} {K K2 : List LTree} (h : GoodKids n K)
    (hp : K2.Perm K) : GoodKids n K2 :=
  fun c hc => h c (hp.mem_iff.mp hc)

theorem attachDepth_le (t : Int) (ks : List LTree) : attachDepth t ks ≤ ks.length := by
  induction ks with
  | nil => simp [attachDepth]
  | cons c ks ih =>
    simp only [attachDepth, List.length_cons]
    split_ifs <;> omega

theorem attachDepth_full (t : Int) (ks : List LTree) (h : ¬ attachDepth t ks < ks.length) :
    ∀ c ∈ ks, c.node.tBranchParent ≤ t := by
  induction ks with
  | nil => simp
  | cons c ks ih =>
    simp only [attachDepth, List.length_cons] at h
    split_ifs at h with h1
    · omega
    · intro x hx
      rcases List.mem_cons.mp hx with rfl | hx
      · omega
      · exact ih (by omega) x hx

theorem entryState_fresh {n : LineageTreeNode} {pp : Option PhyloParent}
    (h : ∀ q, pp = some q → q.lng ≠ n.lng) :
    entryState n pp = { depth := 0, depthChild := 0, attach := uintMinusOne } := by
  cases pp with
  | none => rfl
  | some q =>
    simp only [entryState]
    rw [if_neg (fun e => h q rfl e.symm)]

theorem entryState_chain {n : LineageTreeNode} {q : PhyloParent} (h : q.lng = n.lng) :
    entryState n (some q) =
      { depth := q.depth + 1, depthChild := q.depthChild,
        attach := q.depthAttachSampledNode } := by
  simp only [entryState]
  rw [if_pos h.symm]

theorem sortKids_perm (ks : List LTree) : (sortKids ks).Perm ks :=
  List.perm_insertionSort kidLe ks

theorem sortedKids_perm (c : Prop) [Decidable c] (ks : List LTree) :
    (if c then sortKids ks else ks).Perm ks := by
  split_ifs
  · exact sortKids_perm ks
  · exact List.Perm.refl _

theorem gat_recSpec : ∀ f, RecSpec (getAncestralTree f) := by
  intro f
  induction f with
  | zero =>
    constructor
    · intro T pp r _ _ h
      simp [getAncestralTree] at h
    · intro n cur q E r _ _ h
      simp [getAncestralTree] at h
  | succ f ih =>
    constructor
    · intro T pp r hgood hfresh h
      obtain ⟨n, K⟩ := T
      rw [getAncestralTree] at h
      have hst := entryState_fresh hfresh
      simp only [LTree.node] at hfresh
      rw [entryState_fresh hfresh] at h
      dsimp only at h
      have hperm := sortedKids_perm (1 < K.length ∧ 0 = 0) K
      generalize (if 1 < K.length ∧ 0 = 0 then sortKids K else K) = S at h hperm
      have hlen : K.length = S.length := hperm.length_eq.symm
      have hgS : GoodKids n S := (goodKids_of_all hgood).perm hperm
      have hE : ∀ l : List Nat, (l ++ LTree.sampledLngsList S).Perm
          (l ++ LTree.sampledLngsList K) :=
        fun l => List.Perm.append_left _ (sampledLngsList_perm hperm)
      simp only [LTree.sampledLngs]
      rw [hlen] at h
      have ha0 : (if (0 : Nat) = 0 then attachDepth n.tSample S else uintMinusOne) =
          attachDepth n.tSample S := if_pos rfl
      rw [ha0] at h
      split_ifs at h with h1 h2 h3 h4
      · obtain ⟨hs, hp⟩ := gatLeaf_post h
        have : K = [] := List.eq_nil_of_length_eq_zero (by omega)
        subst this
        simpa [hs, sampledLngsList_nil] using hp
      · have hp := gatAttach_post ih h2 h3 h4 rfl (by exact hgS) h
        rw [if_pos h2]
        obtain ⟨p1, p2, p5, p3, p4⟩ := hp
        exact ⟨p1, p2, p5, p3.trans (hE [n.lng]), p4⟩
      · have hp := gatStep_post ih h2 h3 h4 (fun _ => rfl) (fun hlt => absurd hlt (by simp))
          (by exact hgS) h
        rw [if_pos h2]
        obtain ⟨p1, p2, p5, p3, p4⟩ := hp
        refine ⟨p1, p2, p5, p3.trans ?_, p4⟩
        have : (0 : Nat) < attachDepth n.tSample S := by
          omega
        rw [if_pos this]
        exact hE [n.lng]
      · rw [if_pos h2]
        have hp := gatLate_post ih h2 h3 (by exact hgS) (by exact attachDepth_full _ _ h3) h
        obtain ⟨p1, p2, p5, p3, p4⟩ := hp
        exact ⟨p1, p2, p5, p3.trans (hE [n.lng]), p4⟩
      · have h2' : n.sampled = false := by simpa using h2
        have hp := gatUnsampled_post ih h2' (by exact hgS) h
        rw [if_neg h2]
        obtain ⟨p1, p2, p5, p3, p4⟩ := hp
        exact ⟨p1, p2, p5, p3.trans (hE []), p4⟩
    · intro n cur q E r hq hinv h
      rw [getAncestralTree] at h
      rw [entryState_chain hq] at h
      dsimp only at h
      have hc : (if 1 < cur.length ∧ q.depth + 1 = 0 then sortKids cur else cur) = cur :=
        if_neg (by omega)
      rw [hc] at h
      have ha : (if q.depth + 1 = 0 then attachDepth n.tSample cur
          else q.depthAttachSampledNode) = q.depthAttachSampledNode := if_neg (by omega)
      rw [ha] at h
      unfold ChainInv at hinv
      split_ifs at h with h1 h2 h3 h4
      · obtain ⟨hs, hp⟩ := gatLeaf_post h
        rw [if_pos hs, if_neg (by omega)] at hinv
        obtain ⟨_, _, hE⟩ := hinv
        have : cur = [] := List.eq_nil_of_length_eq_zero h1
        subst this
        rw [hE]
        simpa [sampledLngsList_nil] using hp
      · rw [if_pos h2, if_pos h3] at hinv
        obtain ⟨hdc, hg, hE⟩ := hinv.1 (by omega)
        rw [hE]
        exact gatAttach_post ih h2 h3 h4 hdc hg h
      · rw [if_pos h2, if_pos h3] at hinv
        have hp := gatStep_post ih h2 h3 h4
          (fun hlt => (hinv.1 (by simpa using Nat.le_of_lt hlt)).1)
          (fun hlt => by
            have := (hinv.2 (by simpa using hlt)).1
            simp only
            omega)
          (by
            rcases Nat.lt_or_gt_of_ne h4 with hlt | hlt
            · obtain ⟨e1, e2, _⟩ := hinv.1 (by simpa using Nat.le_of_lt hlt)
              simp only
              rw [e1]
              exact e2
            · exact (hinv.2 (by simpa using hlt)).2.1) h
        rcases Nat.lt_or_gt_of_ne h4 with hlt | hlt
        · obtain ⟨e1, e2, e3⟩ := hinv.1 (by simpa using Nat.le_of_lt hlt)
          rw [e3]
          simp only at hp hlt
          rw [if_pos hlt, e1] at hp
          exact hp
        · obtain ⟨e1, e2, e3⟩ := hinv.2 (by simpa using hlt)
          rw [e3]
          simp only at hp hlt
          rw [if_neg (by omega)] at hp
          exact hp
      · rw [if_pos h2, if_neg h3] at hinv
        obtain ⟨hg, ht, hE⟩ := hinv
        rw [hE]
        exact gatLate_post ih h2 h3 hg ht h
      · have h2' : n.sampled = false := by simpa using h2
        rw [if_neg h2] at hinv
        obtain ⟨hg, hE⟩ := hinv
        rw [hE]
        exact gatUnsampled_post ih h2' hg h

theorem kidAt_of_lt {ks : List LTree} {i : Nat} (h : i < ks.length) :
    ∃ c, kidAt ks i = .ok c ∧ ks.drop i = c :: ks.drop (i + 1) := by
  refine ⟨ks[i], ?_, List.drop_eq_getElem_cons h⟩
  unfold kidAt
  rw [List.get?_eq_getElem?, List.getElem?_eq_getElem h]

theorem branchLength_total {t : Int} {pp : Option PhyloParent}
    (h : ∀ q, pp = some q → q.t ≤ t) : ∃ dt, branchLength t pp = .ok dt := by
  cases pp with
  | none => exact ⟨0, rfl⟩
  | some q =>
    refine ⟨t - q.t, ?_⟩
    simp only [branchLength]
    rw [if_pos (h q rfl)]

theorem weightList_cons (c : LTree) (ks : List LTree) :
    LTree.weightList (c :: ks) = c.weight + LTree.weightList ks := by
  simp [LTree.weightList]

theorem weightList_perm {l1 l2 : List LTree} (h : l1.Perm l2) :
    LTree.weightList l1 = LTree.weightList l2 := by
  induction h with
  | nil => rfl
  | cons x _ ih => rw [weightList_cons, weightList_cons, ih]
  | swap x y l => simp only [weightList_cons]; omega
  | trans _ _ ih1 ih2 => exact ih1.trans ih2

theorem RestKids.tail_rest {n : LineageTreeNode} {c : LTree} {R : List LTree}
    (h : RestKids n (c :: R)) : RestKids n R :=
  ⟨fun x hx => h.1 x (List.mem_cons_of_mem _ hx), (List.pairwise_cons.mp h.2).2⟩

theorem RestKids.head_le {n : LineageTreeNode} {c : LTree} {R : List LTree}
    (h : RestKids n (c :: R)) : ∀ x ∈ R, c.node.tBranchParent ≤ x.node.tBranchParent :=
  fun x hx => (List.pairwise_cons.mp h.2).1 x hx

theorem LowerB.of_head {n : LineageTreeNode} {c : LTree} {R : List LTree}
    (h : RestKids n (c :: R)) (d dc a : Nat) :
    LowerB (some (asParent n d dc a c.node.tBranchParent)) R := by
  intro q hq x hx
  cases hq
  exact h.head_le x hx

theorem child_call {rec : LTree → Option PhyloParent → Except Err (LTree × PhyloNode)}
    {F : Nat} (hrec : RecTotal rec F) {n : LineageTreeNode} {R : List LTree}
    (hR : RestKids n R) {c : LTree} (hc : c ∈ R) (hw : LTree.weightList R ≤ F)
    (d dc a : Nat) (t : Int) (ht : t ≤ c.node.tBranchParent) :
    ∃ r, rec c (some (asParent n d dc a t)) = .ok r := by
  obtain ⟨h1, h2, h3⟩ := hR.1 c hc
  refine hrec.1 c _ h2 ?_ ?_
  · intro q hq
    cases hq
    exact ⟨fun e => h1 e.symm, le_trans ht h3⟩
  · have : c.weight ≤ LTree.weightList R := by
      clear hR hw h1 h2 h3
      induction R with
      | nil => cases hc
      | cons x R ih =>
        rw [weightList_cons]
        rcases List.mem_cons.mp hc with rfl | hc
        · omega
        · have := ih hc
          omega
    omega

theorem gatUnsampled_total
    {rec : LTree → Option PhyloParent → Except Err (LTree × PhyloNode)}
    {F : Nat} (hrec : RecTotal rec F) {n : LineageTreeNode} {cur : List LTree}
    {pp : Option PhyloParent} {st : ChainState} (hs : n.sampled = false)
    (hk : st.depth + 2 ≤ cur.length)
    (hR : RestKids n (cur.drop st.depth)) (hl : LowerB pp (cur.drop st.depth))
    (hF : (cur.length - st.depth) + LTree.weightList (cur.drop st.depth) ≤ F) :
    ∃ r, gatUnsampled rec n cur cur.length pp st = .ok r := by
  obtain ⟨child, hchild, hdrop⟩ := kidAt_of_lt (show st.depth < cur.length by omega)
  obtain ⟨child2, hchild2, hdrop2⟩ := kidAt_of_lt (show st.depth + 1 < cur.length by omega)
  rw [hdrop] at hR hl hF
  rw [weightList_cons] at hF
  obtain ⟨dt, hdt⟩ := branchLength_total (t := child.node.tBranchParent)
    (fun q hq => hl q hq child (List.mem_cons_self _ _))
  obtain ⟨⟨child1, left⟩, hleft⟩ := child_call hrec hR (List.mem_cons_self _ _)
    (by rw [weightList_cons]; omega) st.depth st.depthChild st.attach
    child.node.tBranchParent (le_refl _)
  unfold gatUnsampled
  rw [if_neg (by omega), if_neg (by omega)]
  simp only [hchild, hdt, hleft]
  split_ifs with h1
  · have hinv : ChainInvT n (cur.set st.depth child1)
        (asParent n st.depth st.depthChild st.attach child.node.tBranchParent) F := by
      unfold ChainInvT
      rw [if_neg (by simp [hs])]
      simp only [asParent, List.length_set]
      rw [drop_set_lt _ (Nat.lt_add_one _)]
      exact ⟨by omega, hR.tail_rest, LowerB.of_head hR _ _ _, by omega⟩
    obtain ⟨⟨node1, right⟩, hright⟩ := hrec.2 n _ _ (asParent_lng _ _ _ _ _) hinv
    simp only [hright]
    exact ⟨_, rfl⟩
  · rw [hdrop2] at hR hF
    obtain ⟨⟨child3, right⟩, hright⟩ := child_call hrec hR
      (List.mem_cons_of_mem _ (List.mem_cons_self _ _))
      (by rw [weightList_cons] at hF ⊢; rw [weightList_cons]; omega)
      st.depth st.depthChild st.attach
      child.node.tBranchParent (hR.head_le _ (List.mem_cons_self _ _))
    simp only [hchild2, hright]
    exact ⟨_, rfl⟩
theorem gatLeaf_total {n : LineageTreeNode} {ks : List LTree} {pp : Option PhyloParent}
    {st : ChainState} (hs : n.sampled = true) (hpp : ∀ q, pp = some q → q.t ≤ n.tSample) :
    ∃ r, gatLeaf n ks pp st = .ok r := by
  obtain ⟨dt, hdt⟩ := branchLength_total hpp
  unfold gatLeaf
  rw [if_neg (by simp [hs])]
  simp only [hdt]
  exact ⟨_, rfl⟩

theorem gatLate_total
    {rec : LTree → Option PhyloParent → Except Err (LTree × PhyloNode)}
    {F : Nat} (hrec : RecTotal rec F) {n : LineageTreeNode} {cur : List LTree}
    {pp : Option PhyloParent} {st : ChainState} {attach : Nat} (hs : n.sampled = true)
    (ha : ¬ attach < cur.length) (hk : st.depth + 1 ≤ cur.length)
    (hR : RestKids n (cur.drop st.depth)) (hl : LowerB pp (cur.drop st.depth))
    (hF : (cur.length - st.depth) + LTree.weightList (cur.drop st.depth) ≤ F) :
    ∃ r, gatLate rec n cur cur.length pp st attach = .ok r := by
  obtain ⟨child, hchild, hdrop⟩ := kidAt_of_lt (show st.depth < cur.length by omega)
  rw [hdrop] at hR hl hF
  rw [weightList_cons] at hF
  obtain ⟨dt, hdt⟩ := branchLength_total (t := child.node.tBranchParent)
    (fun q hq => hl q hq child (List.mem_cons_self _ _))
  obtain ⟨⟨child1, left⟩, hleft⟩ := child_call hrec hR (List.mem_cons_self _ _)
    (by rw [weightList_cons]; omega) st.depth st.depthChild attach
    child.node.tBranchParent (le_refl _)
  unfold gatLate
  simp only [hchild, hdt, hleft]
  split_ifs with h1
  · have hinv : ChainInvT n (cur.set st.depth child1)
        (asParent n st.depth st.depthChild attach child.node.tBranchParent) F := by
      unfold ChainInvT
      rw [if_pos hs, if_neg (by simpa [asParent] using ha)]
      simp only [asParent, List.length_set]
      rw [drop_set_lt _ (Nat.lt_add_one _)]
      exact ⟨by omega, hR.tail_rest, LowerB.of_head hR _ _ _, by omega⟩
    obtain ⟨⟨node1, right⟩, hright⟩ := hrec.2 n _ _ (asParent_lng _ _ _ _ _) hinv
    simp only [hright]
    exact ⟨_, rfl⟩
  · exact ⟨_, rfl⟩

theorem attachDepth_head_zero {t : Int} {c : LTree} {R : List LTree}
    (h : attachDepth t (c :: R) = 0) : t < c.node.tBranchParent := by
  simp only [attachDepth] at h
  split_ifs at h with h1
  · exact h1

theorem attachDepth_head_pos {t : Int} {c : LTree} {R : List LTree} {m : Nat}
    (h : attachDepth t (c :: R) = m + 1) :
    c.node.tBranchParent ≤ t ∧ attachDepth t R = m := by
  simp only [attachDepth] at h
  split_ifs at h with h1
  exact ⟨by omega, by omega⟩

theorem gatAttach_total
    {rec : LTree → Option PhyloParent → Except Err (LTree × PhyloNode)}
    {F : Nat} (hrec : RecTotal rec F) {n : LineageTreeNode} {cur : List LTree}
    {pp : Option PhyloParent} {st : ChainState} {attach : Nat} (hs : n.sampled = true)
    (ha : attach < cur.length) (hd : st.depth = attach) (hdc : st.depthChild = st.depth)
    (hR : RestKids n (cur.drop st.depth))
    (hatt : attachDepth n.tSample (cur.drop st.depth) = 0)
    (hpp : ∀ q, pp = some q → q.t ≤ n.tSample)
    (hF : (cur.length - st.depth) + LTree.weightList (cur.drop st.depth) ≤ F) :
    ∃ r, gatAttach rec n cur cur.length pp st attach = .ok r := by
  obtain ⟨child, hchild, hdrop⟩ := kidAt_of_lt (show st.depth < cur.length by omega)
  obtain ⟨dt, hdt⟩ := branchLength_total hpp
  have hR0 := hR
  have hF0 := hF
  rw [hdrop] at hR hF hatt
  have hlt := attachDepth_head_zero hatt
  unfold gatAttach
  simp only [hdt]
  split_ifs with h1
  · obtain ⟨⟨child1, left⟩, hleft⟩ := child_call hrec hR (List.mem_cons_self _ _)
      (by omega) st.depth (st.depthChild + 1) attach n.tSample (le_of_lt hlt)
    rw [hdc]
    simp only [hchild]
    rw [hdc] at hleft
    simp only [hleft]
    exact ⟨_, rfl⟩
  · have hinv : ChainInvT n cur (asParent n st.depth st.depthChild attach n.tSample) F := by
      unfold ChainInvT
      rw [if_pos hs, if_pos (by simpa [asParent] using ha)]
      simp only [asParent]
      refine ⟨by omega, fun hle => absurd hle (by omega), fun _ => ⟨hdc, ?_, ?_, ?_⟩⟩
      · rw [hdc]; exact hR0
      · rw [hdc, hdrop]
        intro q hq x hx
        cases hq
        rcases List.mem_cons.mp hx with rfl | hx
        · exact le_of_lt hlt
        · exact le_trans (le_of_lt hlt) (hR.head_le x hx)
      · rw [hdc]; omega
    obtain ⟨⟨node1, left⟩, hleft⟩ := hrec.2 n _ _ (asParent_lng _ _ _ _ _) hinv
    simp only [hleft]
    exact ⟨_, rfl⟩

theorem gatStep_total
    {rec : LTree → Option PhyloParent → Except Err (LTree × PhyloNode)}
    {F : Nat} (hrec : RecTotal rec F) {n : LineageTreeNode} {cur : List LTree}
    {pp : Option PhyloParent} {st : ChainState} {attach : Nat} (hs : n.sampled = true)
    (ha : attach < cur.length) (hd : st.depth ≠ attach) (hk : st.depth + 1 ≤ cur.length)
    (h1 : st.depth < attach → st.depthChild = st.depth ∧
      attachDepth n.tSample (cur.drop st.depth) + st.depth = attach)
    (h2 : attach < st.depth → st.depthChild + 1 = st.depth)
    (hR : RestKids n (cur.drop st.depthChild)) (hl : LowerB pp (cur.drop st.depthChild))
    (hF : (cur.length - st.depth) + LTree.weightList (cur.drop st.depthChild) ≤ F) :
    ∃ r, gatStep rec n cur cur.length pp st attach = .ok r := by
  have hdck : st.depthChild + 1 < cur.length := by
    rcases Nat.lt_or_gt_of_ne hd with h | h
    · have := (h1 h).1; omega
    · have := h2 h; omega
  obtain ⟨child, hchild, hdrop⟩ := kidAt_of_lt (show st.depthChild < cur.length by omega)
  obtain ⟨child2, hchild2, hdrop2⟩ := kidAt_of_lt hdck
  rw [hdrop] at hR hl hF
  rw [weightList_cons] at hF
  obtain ⟨dt, hdt⟩ := branchLength_total (t := child.node.tBranchParent)
    (fun q hq => hl q hq child (List.mem_cons_self _ _))
  obtain ⟨⟨child1, left⟩, hleft⟩ := child_call hrec hR (List.mem_cons_self _ _)
    (by rw [weightList_cons]; omega) st.depth (st.depthChild + 1) attach
    child.node.tBranchParent (le_refl _)
  unfold gatStep
  simp only [hchild, hdt, hleft]
  split_ifs with h3
  · rw [kidAt_set_ne _ (Nat.ne_of_lt (Nat.lt_add_one _))]
    rw [hdrop2] at hR hF
    obtain ⟨⟨child3, right⟩, hright⟩ := child_call hrec hR
      (List.mem_cons_of_mem _ (List.mem_cons_self _ _))
      (by rw [weightList_cons] at hF ⊢; rw [weightList_cons]; omega)
      st.depth (st.depthChild + 1) attach
      child.node.tBranchParent (hR.head_le _ (List.mem_cons_self _ _))
    simp only [hchild2, hright]
    exact ⟨_, rfl⟩
  · have hinv : ChainInvT n (cur.set st.depthChild child1)
        (asParent n st.depth (st.depthChild + 1) attach child.node.tBranchParent) F := by
      unfold ChainInvT
      rw [if_pos hs, if_pos (by simpa [asParent] using ha)]
      simp only [asParent, List.length_set]
      refine ⟨by omega, fun hle => ?_, fun hgt => ?_⟩
      · obtain ⟨e1, e2⟩ := h1 (by omega)
        rw [← e1, hdrop] at e2
        obtain ⟨m, hm⟩ : ∃ m, attachDepth n.tSample (child :: cur.drop (st.depthChild + 1)) =
            m + 1 := ⟨attach - st.depthChild - 1, by omega⟩
        obtain ⟨e3, e4⟩ := attachDepth_head_pos hm
        rw [← e1, drop_set_lt _ (Nat.lt_add_one _)]
        exact ⟨rfl, by omega, e3, hR.tail_rest, LowerB.of_head hR _ _ _, by omega⟩
      · have e1 := h2 (by omega)
        rw [drop_set_lt _ (Nat.lt_add_one _)]
        exact ⟨by omega, hR.tail_rest, LowerB.of_head hR _ _ _, by omega⟩
    obtain ⟨⟨node1, right⟩, hright⟩ := hrec.2 n _ _ (asParent_lng _ _ _ _ _) hinv
    simp only [hright]
    exact ⟨_, rfl⟩
theorem sortKids_pairwise (ks : List LTree) : (sortKids ks).Pairwise kidLe := by
  have htot : IsTotal LTree kidLe := ⟨fun a b => le_total _ _⟩
  have htr : IsTrans LTree kidLe := ⟨fun a b c h1 h2 => le_trans h1 h2⟩
  exact List.sorted_insertionSort kidLe ks

theorem sortedKids_pairwise (c : Prop) [Decidable c] (ks : List LTree)
    (h : ¬ c → ks.length ≤ 1) : (if c then sortKids ks else ks).Pairwise kidLe := by
  split_ifs with hc
  · exact sortKids_pairwise ks
  · have := h hc
    match ks, this with
    | [], _ => exact List.Pairwise.nil
    | [x], _ => exact List.pairwise_singleton _ _

theorem wellQ_root {n : LineageTreeNode} {K : List LTree}
    (h : (LTree.mk n K).all wellQ = true) :
    (∀ c ∈ K, c.node.lng ≠ n.lng ∧ c.all wellQ = true ∧
      c.node.tBranchParent ≤ c.node.t ∧ n.t ≤ c.node.tBranchParent) ∧
    (n.sampled = false → 2 ≤ K.length) ∧ (n.sampled = true → n.t ≤ n.tSample) := by
  simp only [LTree.all, Bool.and_eq_true, allList_iff, wellQ, edgeDistinctQ, shapeQ, timeQ,
    List.all_eq_true, decide_eq_true_eq, Bool.or_eq_true, Bool.not_eq_true'] at h
  obtain ⟨⟨⟨h1, h2⟩, h3, h4⟩, h5⟩ := h
  refine ⟨fun c hc => ⟨h1 c hc, ?_, (h3 c hc).2, (h3 c hc).1⟩, ?_, ?_⟩
  · have := h5 c hc
    simpa [wellQ, Bool.and_assoc] using this
  · intro hs
    rcases h2 with h2 | h2
    · rw [hs] at h2; cases h2
    · exact h2
  · intro hs
    rcases h4 with h4 | h4
    · rw [hs] at h4; cases h4
    · exact h4

theorem weight_mk (n : LineageTreeNode) (K : List LTree) :
    (LTree.mk n K).weight = 1 + K.length + LTree.weightList K := by
  simp [LTree.weight]

theorem gat_total : ∀ F, RecTotal (getAncestralTree F) F := by
  intro F
  induction F with
  | zero =>
    constructor
    · intro T pp _ _ hw
      obtain ⟨n, K⟩ := T
      rw [weight_mk] at hw
      omega
    · intro n cur q _ hinv
      unfold ChainInvT at hinv
      split_ifs at hinv with h1 h2
      · obtain ⟨h3, h4, h5⟩ := hinv
        rcases Nat.lt_or_ge q.depthAttachSampledNode (q.depth + 1) with h | h
        · have := (h5 h).2.2.2; omega
        · have := (h4 h).2.2.2.2.2; omega
      · have := hinv.2.2.2; omega
      · have := hinv.2.2.2; omega
  | succ F ih =>
    constructor
    · intro T pp hwell hfresh hw
      obtain ⟨n, K⟩ := T
      rw [weight_mk] at hw
      simp only [LTree.node] at hfresh
      obtain ⟨hkids, hshape, htime⟩ := wellQ_root hwell
      rw [getAncestralTree]
      rw [entryState_fresh (fun q hq => (hfresh q hq).1)]
      dsimp only
      have hperm := sortedKids_perm (1 < K.length ∧ 0 = 0) K
      have hsorted := sortedKids_pairwise (1 < K.length ∧ 0 = 0) K (by omega)
      generalize (if 1 < K.length ∧ 0 = 0 then sortKids K else K) = S at hperm hsorted
      have hlen : K.length = S.length := hperm.length_eq.symm
      have hwl := weightList_perm hperm
      have hR : RestKids n S :=
        ⟨fun c hc => by
          obtain ⟨a1, a2, a3, _⟩ := hkids c (hperm.mem_iff.mp hc)
          exact ⟨a1, a2, a3⟩, hsorted⟩
      have hl : LowerB pp S := fun q hq c hc =>
        le_trans (hfresh q hq).2 (hkids c (hperm.mem_iff.mp hc)).2.2.2
      rw [hlen]
      rw [hlen] at hw hshape
      have ha0 : (if (0 : Nat) = 0 then attachDepth n.tSample S else uintMinusOne) =
          attachDepth n.tSample S := if_pos rfl
      rw [ha0]
      split_ifs with h1 h2 h3 h4
      · refine gatLeaf_total ?_ (fun q hq => le_trans (hfresh q hq).2 (htime ?_))
        all_goals
          rcases Bool.eq_false_or_eq_true n.sampled with h | h
          · exact h
          · have := hshape h; omega
      · exact gatAttach_total ih h2 h3 h4 rfl (by exact hR) (by exact h4.symm)
          (fun q hq => le_trans (hfresh q hq).2 (htime h2)) (by simp only [List.drop]; omega)
      · exact gatStep_total ih h2 h3 h4 (by simp only; omega)
          (fun _ => ⟨rfl, by simp⟩) (fun hlt => absurd hlt (by simp))
          (by exact hR) (by exact hl) (by simp only [List.drop]; omega)
      · exact gatLate_total ih h2 h3 (by simp only; omega) (by exact hR) (by exact hl)
          (by simp only [List.drop]; omega)
      · exact gatUnsampled_total ih (by simpa using h2) (by simp only; exact hshape (by simpa using h2))
          (by exact hR) (by exact hl) (by simp only [List.drop]; omega)
    · intro n cur q hq hinv
      rw [getAncestralTree]
      rw [entryState_chain hq]
      dsimp only
      have hc : (if 1 < cur.length ∧ q.depth + 1 = 0 then sortKids cur else cur) = cur :=
        if_neg (by omega)
      rw [hc]
      have ha : (if q.depth + 1 = 0 then attachDepth n.tSample cur
          else q.depthAttachSampledNode) = q.depthAttachSampledNode := if_neg (by omega)
      rw [ha]
      unfold ChainInvT at hinv
      have hk : cur.length ≠ 0 := by
        split_ifs at hinv with h1 h2
        · have := hinv.1; omega
        · have := hinv.1; omega
        · have := hinv.1; omega
      rw [if_neg hk]
      split_ifs with h2 h3 h4
      · rw [if_pos h2, if_pos h3] at hinv
        obtain ⟨e1, e2, e3, e4, e5, e6⟩ := hinv.2.1 (by omega)
        refine gatAttach_total ih h2 h3 h4 e1 e4 ?_ (fun q1 hq1 => by cases hq1; exact e3)
          (by simp only; omega)
        simp only
        omega
      · rw [if_pos h2, if_pos h3] at hinv
        obtain ⟨e0, e1, e2⟩ := hinv
        rcases Nat.lt_or_gt_of_ne h4 with hlt | hlt
        · obtain ⟨f1, f2, f3, f4, f5, f6⟩ := e1 (by omega)
          exact gatStep_total ih h2 h3 h4 (by simp only; omega)
            (fun _ => ⟨f1, f2⟩) (fun h => absurd h (by simp only; omega))
            (by simp only; rw [f1]; exact f4) (by simp only; rw [f1]; exact f5)
            (by simp only; rw [f1]; omega)
        · obtain ⟨f1, f4, f5, f6⟩ := e2 (by omega)
          exact gatStep_total ih h2 h3 h4 (by simp only; omega)
            (fun h => absurd h (by simp only; omega)) (fun _ => by simp only; omega)
            (by simp only; exact f4) (by simp only; exact f5)
            (by simp only; omega)
      · rw [if_pos h2, if_neg h3] at hinv
        obtain ⟨e0, e1, e2, e3⟩ := hinv
        exact gatLate_total ih h2 h3 (by simp only; omega) e1 e2 (by simp only; omega)
      · rw [if_neg h2] at hinv
        obtain ⟨e0, e1, e2, e3⟩ := hinv
        exact gatUnsampled_total ih (by simpa using h2) (by simp only; omega) e1 e2
          (by simp only; omega)

theorem phyloInner_binary (n : LineageTreeNode) (t dt : Int) (d dc a : Nat)
    {l r : PhyloNode} (hl : l.strictlyBinary = true) (hr : r.strictlyBinary = true) :
    (phyloInner n t dt d dc a l r).strictlyBinary = true := by
  simp [phyloInner, PhyloNode.strictlyBinary, hl, hr]

theorem phyloLeaf_binary (n : LineageTreeNode) (t dt : Int) (d dc a : Nat) :
    (phyloLeaf n t dt d dc a).strictlyBinary = true := by
  simp [phyloLeaf, PhyloNode.strictlyBinary]

theorem gat_binary : ∀ (fuel : Nat) (T : LTree) (pp : Option PhyloParent)
    (r : LTree × PhyloNode), getAncestralTree fuel T pp = .ok r →
    r.2.strictlyBinary = true := by
  intro fuel
  induction fuel with
  | zero =>
    intro T pp r h
    simp [getAncestralTree] at h
  | succ f ih =>
    intro T pp r h
    obtain ⟨n, K⟩ := T
    rw [getAncestralTree] at h
    dsimp only at h
    generalize (if 1 < K.length ∧ (entryState n pp).depth = 0 then sortKids K else K) = S at h
    generalize (if (entryState n pp).depth = 0 then attachDepth n.tSample S
      else (entryState n pp).attach) = a at h
    generalize entryState n pp = st at h
    split_ifs at h
    · unfold gatLeaf at h
      split_ifs at h
      split at h
      · cases h
      cases h
      exact phyloLeaf_binary _ _ _ _ _ _
    · unfold gatAttach at h
      split at h
      · cases h
      dsimp only at h
      split_ifs at h
      · split at h
        · cases h
        split at h
        · cases h
        rename_i hl
        cases h
        exact phyloInner_binary _ _ _ _ _ _ (ih _ _ _ hl) (phyloLeaf_binary _ _ _ _ _ _)
      · split at h
        · cases h
        rename_i hl
        cases h
        exact phyloInner_binary _ _ _ _ _ _ (ih _ _ _ hl) (phyloLeaf_binary _ _ _ _ _ _)
    · unfold gatStep at h
      split at h
      · cases h
      dsimp only at h
      split at h
      · cases h
      split at h
      · cases h
      rename_i hl
      split_ifs at h
      · split at h
        · cases h
        split at h
        · cases h
        rename_i hr
        cases h
        exact phyloInner_binary _ _ _ _ _ _ (ih _ _ _ hl) (ih _ _ _ hr)
      · split at h
        · cases h
        rename_i hr
        cases h
        exact phyloInner_binary _ _ _ _ _ _ (ih _ _ _ hl) (ih _ _ _ hr)
    · unfold gatLate at h
      split at h
      · cases h
      dsimp only at h
      split at h
      · cases h
      split_ifs at h
      · split at h
        · cases h
        rename_i hl
        split at h
        · cases h
        rename_i hr
        cases h
        exact phyloInner_binary _ _ _ _ _ _ (ih _ _ _ hl) (ih _ _ _ hr)
      · split at h
        · cases h
        rename_i hl
        cases h
        exact phyloInner_binary _ _ _ _ _ _ (ih _ _ _ hl) (phyloLeaf_binary _ _ _ _ _ _)
    · unfold gatUnsampled at h
      split_ifs at h
      · split at h
        · cases h
        dsimp only at h
        split at h
        · cases h
        split at h
        · cases h
        rename_i hl
        split at h
        · cases h
        rename_i hr
        cases h
        exact phyloInner_binary _ _ _ _ _ _ (ih _ _ _ hl) (ih _ _ _ hr)
      · split at h
        · cases h
        dsimp only at h
        split at h
        · cases h
        split at h
        · cases h
        split at h
        · cases h
        rename_i hl
        split at h
        · cases h
        rename_i hr
        cases h
        exact phyloInner_binary _ _ _ _ _ _ (ih _ _ _ hl) (ih _ _ _ hr)
mutual
theorem all_wellQ : ∀ T : LTree, T.all edgeDistinctQ = true → T.all shapeQ = true →
    T.all timeQ = true → T.all wellQ = true
  | .mk n ks, h1, h2, h3 => by
    simp only [LTree.all, Bool.and_eq_true] at h1 h2 h3 ⊢
    exact ⟨by simp [wellQ, h1.1, h2.1, h3.1], allList_wellQ ks h1.2 h2.2 h3.2⟩
theorem allList_wellQ : ∀ ks : List LTree, LTree.allList edgeDistinctQ ks = true →
    LTree.allList shapeQ ks = true → LTree.allList timeQ ks = true →
    LTree.allList wellQ ks = true
  | [], _, _, _ => by simp [LTree.allList]
  | t :: ts, h1, h2, h3 => by
    simp only [LTree.allList, Bool.and_eq_true] at h1 h2 h3 ⊢
    exact ⟨all_wellQ t h1.1 h2.1 h3.1, allList_wellQ ts h1.2 h2.2 h3.2⟩
end

theorem gat_root_total (r : LTree) (h1 : r.all edgeDistinctQ = true)
    (h2 : r.all shapeQ = true) (h3 : r.all timeQ = true) :
    ∃ res, getAncestralTree r.weight r none = .ok res :=
  (gat_total r.weight).1 r none (all_wellQ r h1 h2 h3) (fun _ hq => by cases hq) (le_refl _)

theorem gat_root_post (r : LTree) (h1 : r.all edgeDistinctQ = true) (fuel : Nat)
    (res : LTree × PhyloNode) (h : getAncestralTree fuel r none = .ok res) :
    GatPost none r.sampledLngs res.2 :=
  (gat_recSpec fuel).1 r none res h1 (fun _ hq => by cases hq) h

/-- Remark: the chain of a node is recognised by comparing lineages, so a child that
carries the lineage of its parent is taken for a continuation of the chain of the parent:
`clashTree` has ordered times, yet its phylogeny has an edge that goes back in time and
the sampled lineage `3` is missing from its leaves. -/
theorem lineage_clash_example :
    clashTree.all timeQ = true ∧ clashTree.all shapeQ = true ∧
    clashTree.all edgeDistinctQ = false ∧
    ∃ r p, getAncestralTree 20 clashTree none = .ok (r, p) ∧ p.timeMonotone = false ∧
      p.leafLngs = [4, 1, 2, 1] := by
  refine ⟨by decide, by decide, by decide, _, _, rfl, by decide, by decide⟩

/-- C3 (strict binarity).  For every transmission tree `r` in which every leaf is sampled
and every unsampled node has at least two children, every node of a phylogeny returned by
`getAncestralTree` on `r` has either both children or none; and the call does return a
phylogeny when moreover the lineages along every edge are distinct and the times are
ordered (with fuel `r.weight`). -/
theorem strict_binarity (r : LTree) (hshape : r.all shapeQ = true) :
    (∀ fuel r1 p, getAncestralTree fuel r none = .ok (r1, p) → p.strictlyBinary = true) ∧
    (r.all edgeDistinctQ = true → r.all timeQ = true →
      ∃ r1 p, getAncestralTree r.weight r none = .ok (r1, p) ∧ p.strictlyBinary = true) := by
  refine ⟨fun fuel r1 p h => gat_binary fuel r none (r1, p) h, fun h1 h3 => ?_⟩
  obtain ⟨⟨r1, p⟩, h⟩ := gat_root_total r h1 hshape h3
  exact ⟨r1, p, h, gat_binary _ r none (r1, p) h⟩

theorem strict_binarity_witness :
    sampleTree.all shapeQ = true ∧
    (∀ fuel r1 p, getAncestralTree fuel sampleTree none = .ok (r1, p) →
      p.strictlyBinary = true) ∧
    (sampleTree.all edgeDistinctQ = true → sampleTree.all timeQ = true →
      ∃ r1 p, getAncestralTree sampleTree.weight sampleTree none = .ok (r1, p) ∧
        p.strictlyBinary = true) :=
  ⟨by decide, strict_binarity sampleTree (by decide)⟩

/-- C4 (phylogeny time monotonicity).  For every transmission tree `r` (lineages identify
its nodes, so no child carries the lineage of its parent) with `p.t ≤ c.tBranchParent ≤ c.t`
on every edge and `t ≤ tSample` on every sampled node, every phylogeny returned by
`getAncestralTree` on `r` has `c.t ≥ p.t` on every edge and no negative `dt`; and the call
does return a phylogeny when `r` is reduced, that is every leaf is sampled and every
unsampled node has at least two children (with fuel `r.weight`). -/
theorem phylogeny_time_monotone (r : LTree) (hid : r.all edgeDistinctQ = true)
    (htime : r.all timeQ = true) :
    (∀ fuel r1 p, getAncestralTree fuel r none = .ok (r1, p) →
      p.timeMonotone = true ∧ p.dtNonneg = true) ∧
    (r.all shapeQ = true →
      ∃ r1 p, getAncestralTree r.weight r none = .ok (r1, p) ∧
        p.timeMonotone = true ∧ p.dtNonneg = true) := by
  refine ⟨fun fuel r1 p h => ?_, fun h2 => ?_⟩
  · have hp := gat_root_post r hid fuel (r1, p) h
    exact ⟨hp.2.1, hp.2.2.1⟩
  · obtain ⟨⟨r1, p⟩, h⟩ := gat_root_total r hid h2 htime
    have hp := gat_root_post r hid _ (r1, p) h
    exact ⟨r1, p, h, hp.2.1, hp.2.2.1⟩

theorem phylogeny_time_monotone_witness :
    sampleTree.all edgeDistinctQ = true ∧ sampleTree.all timeQ = true ∧
    ((∀ fuel r1 p, getAncestralTree fuel sampleTree none = .ok (r1, p) →
      p.timeMonotone = true ∧ p.dtNonneg = true) ∧
    (sampleTree.all shapeQ = true →
      ∃ r1 p, getAncestralTree sampleTree.weight sampleTree none = .ok (r1, p) ∧
        p.timeMonotone = true ∧ p.dtNonneg = true)) :=
  ⟨by decide, by decide, phylogeny_time_monotone sampleTree (by decide) (by decide)⟩

theorem clearNeeded_eq {n n' : LineageTreeNode} (h : clearNeeded n' = clearNeeded n) :
    n' = { n with needed := n'.needed } := by
  cases n; cases n'
  simp only [clearNeeded, LineageTreeNode.mk.injEq] at h ⊢
  obtain ⟨h1, h2, h3, h4, h5, h6, h7, h8, h9, _, h11⟩ := h
  simp [h1, h2, h3, h4, h5, h6, h7, h8, h9, h11]

theorem SameSrc.of_src {lo : Nat} {m0 m : Mem} (h : SameSrc lo m0 m) {a : Nat}
    {n : LineageTreeNode} (ha : a < lo) (hc : m0.cells a = some n) :
    ∃ n', m.cells a = some n' ∧ n' = { n with needed := n'.needed } := by
  have := h a ha (by rw [hc]; simp)
  rw [hc] at this
  cases h0 : m.cells a with
  | none => rw [h0] at this; simp at this
  | some n' =>
    rw [h0] at this
    simp only [Option.map_some', Option.some.injEq] at this
    exact ⟨n', rfl, clearNeeded_eq this⟩

theorem SameSrc.refl_src (lo : Nat) (m : Mem) : SameSrc lo m m := fun _ _ _ => rfl

theorem SameSrc.trans_src {lo : Nat} {m0 m1 m2 : Mem} (h1 : SameSrc lo m0 m1)
    (h2 : SameSrc lo m1 m2) : SameSrc lo m0 m2 :=
  fun a ha hl => (h2 a ha (fun h0 => by
    have := h1 a ha hl
    rw [h0] at this
    cases h3 : m0.cells a with
    | none => exact hl h3
    | some n => rw [h3] at this; cases this)).trans (h1 a ha hl)

theorem Desc.trans_desc {m : Mem} {a b c : Nat} (h1 : Desc m a b) (h2 : Desc m b c) :
    Desc m a c := by
  induction h2 with
  | refl => exact h1
  | step _ hb hc ih => exact Desc.step ih hb hc

theorem Desc.child {m : Mem} {a c : Nat} {n : LineageTreeNode} (ha : m.cells a = some n)
    (hc : c ∈ n.children) : Desc m a c :=
  Desc.step Desc.refl ha hc

theorem Desc.cases_head {m : Mem} {r x : Nat} (h : Desc m r x) :
    x = r ∨ ∃ nr c, m.cells r = some nr ∧ c ∈ nr.children ∧ Desc m c x := by
  induction h with
  | refl => exact Or.inl rfl
  | step hd hb hc ih =>
    rename_i b c nb
    rcases ih with rfl | ⟨nr, c0, h1, h2, h3⟩
    · exact Or.inr ⟨nb, c, hb, hc, Desc.refl⟩
    · exact Or.inr ⟨nr, c0, h1, h2, Desc.step h3 hb hc⟩

theorem Desc.live {s : LineageTree} (hs : Struct none s) {r x : Nat} {nr : LineageTreeNode}
    (hr : s.mem.cells r = some nr) (h : Desc s.mem r x) :
    ∃ nx, s.mem.cells x = some nx := by
  induction h with
  | refl => exact ⟨nr, hr⟩
  | step _ hb hc _ =>
    obtain ⟨_, nc, h1, _⟩ := hs.childLive _ _ _ (by simp) hb hc
    exact ⟨nc, h1⟩

theorem Desc.le_desc {s : LineageTree} (hs : Struct none s) {r x : Nat} (h : Desc s.mem r x) :
    r ≤ x := by
  induction h with
  | refl => exact le_refl _
  | step _ hb hc ih =>
    obtain ⟨_, nc, h1, h2⟩ := hs.childLive _ _ _ (by simp) hb hc
    have := hs.order _ _ _ (by simp) h1 h2
    omega

theorem Desc.up {s : LineageTree} (hs : Struct none s) {r x : Nat} (h : Desc s.mem r x) :
    x = r ∨ ∃ nx p, s.mem.cells x = some nx ∧ nx.parent = some p ∧ Desc s.mem r p := by
  cases h with
  | refl => exact Or.inl rfl
  | step hd hb hc =>
    obtain ⟨_, nc, h1, h2⟩ := hs.childLive _ _ _ (by simp) hb hc
    exact Or.inr ⟨nc, _, h1, h2, hd⟩

theorem Desc.chain {s : LineageTree} (hs : Struct none s) {a b x : Nat}
    (h1 : Desc s.mem a x) (h2 : Desc s.mem b x) : Desc s.mem a b ∨ Desc s.mem b a := by
  induction h1 with
  | refl => exact Or.inr h2
  | step hd hb hc ih =>
    rename_i y c ny
    rcases h2.up hs with rfl | ⟨nx, p, e1, e2, e3⟩
    · exact Or.inl (Desc.step hd hb hc)
    · obtain ⟨_, nc, e4, e5⟩ := hs.childLive _ _ _ (by simp) hb hc
      rw [e1] at e4
      cases e4
      rw [e2] at e5
      cases e5
      exact ih e3

theorem Desc.siblings {s : LineageTree} (hs : Struct none s) {p c1 c2 x : Nat}
    {np : LineageTreeNode} (hp : s.mem.cells p = some np) (h1 : c1 ∈ np.children)
    (h2 : c2 ∈ np.children) (d1 : Desc s.mem c1 x) (d2 : Desc s.mem c2 x) : c1 = c2 := by
  have key : ∀ a b, a ∈ np.children → b ∈ np.children → Desc s.mem a b → a = b := by
    intro a b ha hb hd
    rcases hd.up hs with e | ⟨nb, q, e1, e2, e3⟩
    · exact e.symm
    · obtain ⟨_, nb2, e4, e5⟩ := hs.childLive _ _ _ (by simp) hp hb
      rw [e1] at e4
      cases e4
      rw [e2] at e5
      cases e5
      obtain ⟨_, na, e6, e7⟩ := hs.childLive _ _ _ (by simp) hp ha
      have := hs.order _ _ _ (by simp) e6 e7
      have := e3.le_desc hs
      omega
  rcases Desc.chain hs d1 d2 with h | h
  · exact key _ _ h1 h2 h
  · exact (key _ _ h2 h1 h).symm

theorem Desc.not_parent {s : LineageTree} (hs : Struct none s) {p c : Nat}
    {np : LineageTreeNode} (hp : s.mem.cells p = some np) (hc : c ∈ np.children) :
    ¬ Desc s.mem c p := by
  intro hd
  obtain ⟨_, nc, e1, e2⟩ := hs.childLive _ _ _ (by simp) hp hc
  have := hs.order _ _ _ (by simp) e1 e2
  have := hd.le_desc hs
  omega
theorem SrcInv.get_src {s : LineageTree} {m : Mem} (h : SrcInv s m) {a : Nat}
    {n : LineageTreeNode} (ha : s.mem.cells a = some n) :
    ∃ n', m.cells a = some n' ∧ m.get a = .ok n' ∧ n' = { n with needed := n'.needed } := by
  obtain ⟨n', h1, h2⟩ := h.same.of_src (live_lt_next h.struct ha) ha
  exact ⟨n', h1, Mem.get_of_cells h1, h2⟩

theorem Desc.head_iff {m : Mem} {r x : Nat} {nr : LineageTreeNode}
    (hr : m.cells r = some nr) :
    Desc m r x ↔ x = r ∨ ∃ c ∈ nr.children, Desc m c x := by
  constructor
  · intro h
    rcases h.cases_head with e | ⟨nr2, c, h1, h2, h3⟩
    · exact Or.inl e
    · rw [hr] at h1
      cases h1
      exact Or.inr ⟨c, h2, h3⟩
  · rintro (rfl | ⟨c, hc, hd⟩)
    · exact Desc.refl
    · exact (Desc.child hr hc).trans_desc hd

theorem sampledLoop_spec (s : LineageTree) (cs0 : List Nat)
    (rec : Nat → List Nat → Except Err (List Nat))
    (hrec : ∀ c acc, (∃ n, s.mem.cells c = some n) → c ∈ cs0 →
      ∃ L, rec c acc = .ok (acc ++ L) ∧
        ∀ l, l ∈ L ↔ ∃ b nb, Desc s.mem c b ∧ s.mem.cells b = some nb ∧
          nb.sampled = true ∧ nb.lng = l) :
    ∀ (cs : List Nat) (acc : List Nat),
      (∀ c ∈ cs, c ∈ cs0 ∧ ∃ n, s.mem.cells c = some n) →
      ∃ L, sampledLoop rec cs acc = .ok (acc ++ L) ∧
        ∀ l, l ∈ L ↔ ∃ c ∈ cs, ∃ b nb, Desc s.mem c b ∧ s.mem.cells b = some nb ∧
          nb.sampled = true ∧ nb.lng = l := by
  intro cs
  induction cs with
  | nil =>
    intro acc _
    exact ⟨[], by simp [sampledLoop], by simp⟩
  | cons c cs ih =>
    intro acc hcs
    obtain ⟨hc0, hlive⟩ := hcs c (List.mem_cons_self _ _)
    obtain ⟨L1, h1, h2⟩ := hrec c acc hlive hc0
    obtain ⟨L2, h3, h4⟩ := ih (acc ++ L1) (fun x hx => hcs x (List.mem_cons_of_mem _ hx))
    refine ⟨L1 ++ L2, ?_, ?_⟩
    · simp only [sampledLoop, h1, h3, List.append_assoc]
    · intro l
      rw [List.mem_append, h2, h4]
      constructor
      · rintro (h | ⟨x, hx, h⟩)
        · exact ⟨c, List.mem_cons_self _ _, h⟩
        · exact ⟨x, List.mem_cons_of_mem _ hx, h⟩
      · rintro ⟨x, hx, h⟩
        rcases List.mem_cons.mp hx with rfl | hx
        · exact Or.inl h
        · exact Or.inr ⟨x, hx, h⟩

theorem getSampledRec_spec {s : LineageTree} {m : Mem} (h : SrcInv s m) :
    ∀ (fuel node : Nat) (lngs : List Nat), (∃ n, s.mem.cells node = some n) →
      s.mem.next ≤ fuel + node →
      ∃ L, getSampledLineagesRecursive fuel m node lngs = .ok (lngs ++ L) ∧
        ∀ l, l ∈ L ↔ ∃ b nb, Desc s.mem node b ∧ s.mem.cells b = some nb ∧
          nb.sampled = true ∧ nb.lng = l := by
  intro fuel
  induction fuel with
  | zero =>
    intro node lngs ⟨n, hn⟩ hf
    have := live_lt_next h.struct hn
    omega
  | succ fuel ih =>
    intro node lngs ⟨n, hn⟩ hf
    obtain ⟨n', hc', hg, hn'⟩ := h.get_src hn
    have hch : n'.children = n.children := by rw [hn']
    have hsam : n'.sampled = n.sampled := by rw [hn']
    have hlng : n'.lng = n.lng := by rw [hn']
    obtain ⟨L, h1, h2⟩ := sampledLoop_spec s n.children
      (getSampledLineagesRecursive fuel m)
      (fun c acc hl hc => by
        obtain ⟨nc, hnc⟩ := hl
        obtain ⟨_, nc2, e1, e2⟩ := h.struct.childLive _ _ _ (by simp) hn hc
        have := h.struct.order _ _ _ (by simp) e1 e2
        exact ih c acc ⟨nc, hnc⟩ (by omega))
      n.children (if n.sampled = true then lngs ++ [n.lng] else lngs)
      (fun c hc => by
        obtain ⟨_, nc2, e1, e2⟩ := h.struct.childLive _ _ _ (by simp) hn hc
        exact ⟨hc, nc2, e1⟩)
    simp only [getSampledLineagesRecursive, hg, hch, hsam, hlng, h1]
    by_cases hs : n.sampled = true
    · refine ⟨n.lng :: L, by simp [hs], ?_⟩
      intro l
      rw [List.mem_cons, h2]
      constructor
      · rintro (rfl | ⟨c, hc, b, nb, e1, e2⟩)
        · exact ⟨node, n, Desc.refl, hn, hs, rfl⟩
        · exact ⟨b, nb, (Desc.child hn hc).trans_desc e1, e2⟩
      · rintro ⟨b, nb, e1, e2, e3, e4⟩
        rcases (Desc.head_iff hn).mp e1 with rfl | ⟨c, hc, hd⟩
        · rw [hn] at e2
          cases e2
          exact Or.inl e4.symm
        · exact Or.inr ⟨c, hc, b, nb, hd, e2, e3, e4⟩
    · refine ⟨L, by simp [hs], ?_⟩
      intro l
      rw [h2]
      constructor
      · rintro ⟨c, hc, b, nb, e1, e2⟩
        exact ⟨b, nb, (Desc.child hn hc).trans_desc e1, e2⟩
      · rintro ⟨b, nb, e1, e2, e3, e4⟩
        rcases (Desc.head_iff hn).mp e1 with rfl | ⟨c, hc, hd⟩
        · rw [hn] at e2
          cases e2
          exact absurd e3 hs
        · exact ⟨c, hc, b, nb, hd, e2, e3, e4⟩
theorem OnlyNeeded.refl_only (m : Mem) : OnlyNeeded m m := ⟨rfl, fun _ => rfl⟩

theorem OnlyNeeded.trans_only {m1 m2 m3 : Mem} (h1 : OnlyNeeded m1 m2)
    (h2 : OnlyNeeded m2 m3) : OnlyNeeded m1 m3 :=
  ⟨h2.1.trans h1.1, fun a => (h2.2 a).trans (h1.2 a)⟩

theorem OnlyNeeded.set_flag {m : Mem} {a : Nat} {n : LineageTreeNode}
    (h : m.cells a = some n) (f : Bool) : OnlyNeeded m (m.set a { n with needed := f }) := by
  refine ⟨rfl, fun b => ?_⟩
  simp only [Mem.set]
  split_ifs with hb
  · subst hb
    rw [h]
    rfl
  · rfl

theorem OnlyNeeded.fwd {m m' : Mem} (h : OnlyNeeded m m') {a : Nat} {n : LineageTreeNode}
    (hc : m.cells a = some n) :
    ∃ n', m'.cells a = some n' ∧ n' = { n with needed := n'.needed } := by
  have := h.2 a
  rw [hc] at this
  cases h0 : m'.cells a with
  | none => rw [h0] at this; simp at this
  | some n' =>
    rw [h0] at this
    simp only [Option.map_some', Option.some.injEq] at this
    exact ⟨n', rfl, clearNeeded_eq this⟩

theorem OnlyNeeded.symm_only {m m' : Mem} (h : OnlyNeeded m m') : OnlyNeeded m' m :=
  ⟨h.1.symm, fun a => (h.2 a).symm⟩

theorem SrcInv.only_needed {s : LineageTree} {m m' : Mem} (h : SrcInv s m)
    (ho : OnlyNeeded m m') : SrcInv s m' where
  struct := h.struct
  same := fun a ha hl => (ho.2 a).trans (h.same a ha hl)
  next_le := by rw [ho.1]; exact h.next_le
  bound := fun a ha => by
    have h1 := h.bound a (by rw [← ho.1]; exact ha)
    have h2 := ho.2 a
    rw [h1] at h2
    cases h3 : m'.cells a with
    | none => rfl
    | some n => rw [h3] at h2; simp at h2

theorem hasSampled_iff {s : LineageTree} {a : Nat} {n : LineageTreeNode}
    (ha : s.mem.cells a = some n) :
    HasSampled s.mem a ↔ (n.sampled = true ∨ ∃ c ∈ n.children, HasSampled s.mem c) := by
  constructor
  · rintro ⟨b, nb, hd, hb, hs⟩
    rcases (Desc.head_iff ha).mp hd with rfl | ⟨c, hc, hd2⟩
    · rw [ha] at hb
      cases hb
      exact Or.inl hs
    · exact Or.inr ⟨c, hc, b, nb, hd2, hb, hs⟩
  · rintro (hs | ⟨c, hc, b, nb, hd, hb, hs⟩)
    · exact ⟨a, n, Desc.refl, ha, hs⟩
    · exact ⟨b, nb, (Desc.child ha hc).trans_desc hd, hb, hs⟩

theorem child_desc_ne {s : LineageTree} (hs : Struct none s) {node c b : Nat}
    {n : LineageTreeNode} (hn : s.mem.cells node = some n) (hc : c ∈ n.children)
    (hd : Desc s.mem c b) : b ≠ node := by
  rintro rfl
  exact Desc.not_parent hs hn hc hd

theorem markLoop_spec {s : LineageTree} (hs : Struct none s) {node : Nat}
    {n : LineageTreeNode} (hn : s.mem.cells node = some n)
    (rec : Mem → Nat → Except Err (Mem × Bool)) (acc : Bool)
    (hrec : ∀ m c, SrcInv s m → c ∈ n.children →
      (∀ b nb, Desc s.mem c b → m.cells b = some nb → nb.needed = true →
        HasSampled s.mem b) →
      ∃ m' f, rec m c = .ok (m', f) ∧ MarkPost s c m m' ∧ (f = true ↔ HasSampled s.mem c)) :
    ∀ (cs : List Nat) (m : Mem), (∀ c ∈ cs, c ∈ n.children) → SrcInv s m →
      (∀ c ∈ cs, ∀ b nb, Desc s.mem c b → m.cells b = some nb → nb.needed = true →
        HasSampled s.mem b) →
      ∃ m', markLoop rec node acc m cs = .ok m' ∧ MarkLoopPost s node acc cs m m' := by
  intro cs
  induction cs with
  | nil =>
    intro m _ _ _
    refine ⟨m, by simp [markLoop], OnlyNeeded.refl_only m, fun _ _ _ => rfl, ?_, ?_⟩
    · intro c hc
      cases hc
    · intro nn nn' h1 h2
      rw [h1] at h2
      cases h2
      simp
  | cons c rest ih =>
    intro m hcs hm hsound
    have hc := hcs c (List.mem_cons_self _ _)
    obtain ⟨m1, f, h1, hp1, hf⟩ := hrec m c hm hc (hsound c (List.mem_cons_self _ _))
    have hm1 : SrcInv s m1 := hm.only_needed hp1.only
    obtain ⟨nn1, hnn1, hg1, _⟩ := hm1.get_src hn
    -- the memory after the update of `node->needed`
    obtain ⟨m1', hm1', hloop, hnode⟩ : ∃ m1', OnlyNeeded m1 m1' ∧
        markLoop rec node acc m (c :: rest) = markLoop rec node acc m1' rest ∧
        (∀ a, a ≠ node → m1'.cells a = m1.cells a) ∧
        ∃ nn1', m1'.cells node = some nn1' ∧
          (nn1'.needed = true ↔ (nn1.needed = true ∨ (acc = true ∧ f = true))) := by
      cases acc with
      | false =>
        refine ⟨m1, OnlyNeeded.refl_only m1, by simp [markLoop, h1], fun _ _ => rfl, nn1, hnn1,
          by simp⟩
      | true =>
        refine ⟨m1.set node { nn1 with needed := nn1.needed || f },
          OnlyNeeded.set_flag hnn1 _, by simp [markLoop, h1, hg1], ?_,
          { nn1 with needed := nn1.needed || f }, ?_, ?_⟩
        · intro a ha
          simp [Mem.set, ha]
        · simp [Mem.set]
        · simp
    obtain ⟨hframe1, nn1', hnn1', hflag1⟩ := hnode
    have hm1s : SrcInv s m1' := hm1.only_needed hm1'
    have hne : ∀ c' ∈ c :: rest, ∀ b, Desc s.mem c' b → b ≠ node :=
      fun c' hc' b hd => child_desc_ne hs hn (hcs c' hc') hd
    obtain ⟨m', h2, hp2⟩ := ih m1' (fun x hx => hcs x (List.mem_cons_of_mem _ hx)) hm1s
      (by
        intro c' hc' b nb hd hb hneed
        have hbn := hne c' (List.mem_cons_of_mem _ hc') b hd
        rw [hframe1 b hbn] at hb
        by_cases hdc : Desc s.mem c b
        · exact (hp1.flags b nb hdc hb).mp hneed
        · rw [hp1.frame b hdc] at hb
          exact hsound c' (List.mem_cons_of_mem _ hc') b nb hd hb hneed)
    refine ⟨m', hloop.trans h2, ?_, ?_, ?_, ?_⟩
    · exact (hp1.only.trans_only hm1').trans_only hp2.only
    · intro a ha hnd
      rw [hp2.frame a ha (fun c' hc' => hnd c' (List.mem_cons_of_mem _ hc')), hframe1 a ha,
        hp1.frame a (hnd c (List.mem_cons_self _ _))]
    · intro c' hc' b nb' hd hb
      by_cases hex : ∃ c'' ∈ rest, Desc s.mem c'' b
      · obtain ⟨c'', hc'', hd''⟩ := hex
        exact hp2.flags c'' hc'' b nb' hd'' hb
      · have hbn := hne c' hc' b hd
        rw [hp2.frame b hbn (fun c'' hc'' hd'' => hex ⟨c'', hc'', hd''⟩), hframe1 b hbn] at hb
        rcases List.mem_cons.mp hc' with rfl | hc'r
        · exact hp1.flags b nb' hd hb
        · exact absurd ⟨c', hc'r, hd⟩ hex
    · intro nn nn' e1 e2
      have e3 : m1.cells node = some nn := by
        rw [hp1.frame node (Desc.not_parent hs hn hc)]
        exact e1
      rw [hnn1] at e3
      cases e3
      rw [hp2.self nn1' nn' hnn1' e2, hflag1, hf]
      constructor
      · rintro ((h | ⟨h, h'⟩) | ⟨h, c', hc', h'⟩)
        · exact Or.inl h
        · exact Or.inr ⟨h, c, List.mem_cons_self _ _, h'⟩
        · exact Or.inr ⟨h, c', List.mem_cons_of_mem _ hc', h'⟩
      · rintro (h | ⟨h, c', hc', h'⟩)
        · exact Or.inl (Or.inl h)
        · rcases List.mem_cons.mp hc' with rfl | hc'r
          · exact Or.inl (Or.inr ⟨h, h'⟩)
          · exact Or.inr ⟨h, c', hc'r, h'⟩
theorem mark_finish {s : LineageTree} (hs : Struct none s) {node : Nat}
    {n : LineageTreeNode} (hn : s.mem.cells node = some n) {m ma : Mem} (hm : SrcInv s m)
    (acc : Bool) (rec : Mem → Nat → Except Err (Mem × Bool))
    (hrec : ∀ m c, SrcInv s m → c ∈ n.children →
      (∀ b nb, Desc s.mem c b → m.cells b = some nb → nb.needed = true →
        HasSampled s.mem b) →
      ∃ m' f, rec m c = .ok (m', f) ∧ MarkPost s c m m' ∧ (f = true ↔ HasSampled s.mem c))
    (hma : OnlyNeeded m ma) (hframe : ∀ a, a ≠ node → ma.cells a = m.cells a)
    {na : LineageTreeNode} (hna : ma.cells node = some na)
    (hflag : (na.needed = true ∨ (acc = true ∧ ∃ c ∈ n.children, HasSampled s.mem c)) ↔
      HasSampled s.mem node)
    (hsound : ∀ b nb, Desc s.mem node b → m.cells b = some nb → nb.needed = true →
      HasSampled s.mem b) (cs : List Nat) (hcs : cs = n.children) :
    ∃ m' f, markFinish node (markLoop rec node acc ma cs) = .ok (m', f) ∧
      MarkPost s node m m' ∧ (f = true ↔ HasSampled s.mem node) := by
  subst hcs
  have hmas : SrcInv s ma := hm.only_needed hma
  obtain ⟨m2, h2, hp2⟩ := markLoop_spec hs hn rec acc hrec n.children ma (fun _ h => h) hmas
    (by
      intro c hc b nb hd hb hneed
      rw [hframe b (child_desc_ne hs hn hc hd)] at hb
      exact hsound b nb ((Desc.child hn hc).trans_desc hd) hb hneed)
  have hm2 : SrcInv s m2 := hmas.only_needed hp2.only
  obtain ⟨n2, hn2, hg2, _⟩ := hm2.get_src hn
  have hself := hp2.self na n2 hna hn2
  refine ⟨m2, n2.needed, by simp [markFinish, h2, hg2], ⟨hma.trans_only hp2.only, ?_, ?_⟩,
    hself.trans hflag⟩
  · intro a hnd
    have ha : a ≠ node := by
      rintro rfl
      exact hnd Desc.refl
    rw [hp2.frame a ha (fun c hc hd => hnd ((Desc.child hn hc).trans_desc hd)), hframe a ha]
  · intro b nb' hd hb
    rcases (Desc.head_iff hn).mp hd with rfl | ⟨c, hc, hd2⟩
    · rw [hn2] at hb
      cases hb
      exact hself.trans hflag
    · exact hp2.flags c hc b nb' hd2 hb

theorem mark_spec {s : LineageTree} (hs : Struct none s) (L : List Nat)
    (hL : ∀ b nb, s.mem.cells b = some nb → nb.lng ∈ L → nb.sampled = true) :
    ∀ (fuel : Nat) (m : Mem) (node : Nat), SrcInv s m → (∃ n, s.mem.cells node = some n) →
      s.mem.next ≤ fuel + node →
      (∀ b nb, Desc s.mem node b → m.cells b = some nb → nb.needed = true →
        HasSampled s.mem b) →
      ∃ m' f, markNodeNeeded fuel m node L = .ok (m', f) ∧ MarkPost s node m m' ∧
        (f = true ↔ HasSampled s.mem node) := by
  intro fuel
  induction fuel with
  | zero =>
    intro m node _ ⟨n, hn⟩ hf
    have := live_lt_next hs hn
    omega
  | succ fuel ih =>
    intro m node hm ⟨n, hn⟩ hf hsound
    obtain ⟨n', hc', hg, hn'⟩ := hm.get_src hn
    have hch : n'.children = n.children := by rw [hn']
    have hsam : n'.sampled = n.sampled := by rw [hn']
    have hlng : n'.lng = n.lng := by rw [hn']
    have hrec : ∀ m c, SrcInv s m → c ∈ n.children →
        (∀ b nb, Desc s.mem c b → m.cells b = some nb → nb.needed = true →
          HasSampled s.mem b) →
        ∃ m' f, markNodeNeeded fuel m c L = .ok (m', f) ∧ MarkPost s c m m' ∧
          (f = true ↔ HasSampled s.mem c) := by
      intro m1 c hm1 hc hs1
      obtain ⟨_, nc, e1, e2⟩ := hs.childLive _ _ _ (by simp) hn hc
      have := hs.order _ _ _ (by simp) e1 e2
      exact ih m1 c hm1 ⟨nc, e1⟩ (by omega) hs1
    have hiff := hasSampled_iff hn
    simp only [markNodeNeeded, hg]
    have hset : ∀ f : Bool, (∀ a, a ≠ node →
        (m.set node { n' with needed := f }).cells a = m.cells a) ∧
        (m.set node { n' with needed := f }).cells node = some { n' with needed := f } :=
      fun f => ⟨fun a ha => by simp [Mem.set, ha], by simp [Mem.set]⟩
    split_ifs with h1 h2 h3
    · -- extant and sampled
      have hsn : n.sampled = true := by
        simp only [Bool.or_eq_true, List.contains_eq_any_beq, List.any_eq_true,
          beq_iff_eq] at h2
        rcases h2 with ⟨x, hx, rfl⟩ | h2
        · exact hL node n hn (by rw [← hlng]; exact hx)
        · rw [← hsam]; exact h2
      exact mark_finish hs hn hm false _ hrec (OnlyNeeded.set_flag hc' true) (hset true).1
        (hset true).2 (by simp [hiff, hsn]) hsound _ hch
    · -- extant, not sampled
      have hsn : n.sampled = false := by
        simp only [Bool.or_eq_true, not_or, Bool.not_eq_true] at h2
        rw [← hsam]
        exact h2.2
      exact mark_finish hs hn hm true _ hrec (OnlyNeeded.refl_only m) (fun _ _ => rfl) hc'
        (by
          rw [hiff]
          simp only [hsn, Bool.false_eq_true, false_or, true_and]
          constructor
          · rintro (h | h)
            · have := hsound node n' Desc.refl hc' h
              rw [hiff] at this
              simpa [hsn] using this
            · exact h
          · exact fun h => Or.inr h) hsound _ hch
    · -- extinct and sampled
      rw [hsam] at h3
      exact mark_finish hs hn hm true _ hrec (OnlyNeeded.set_flag hc' true) (hset true).1
        (hset true).2 (by simp [hiff, h3]) hsound _ hch
    · -- extinct, not sampled
      rw [hsam] at h3
      exact mark_finish hs hn hm true _ hrec (OnlyNeeded.set_flag hc' false) (hset false).1
        (hset false).2 (by simp [hiff, h3]) hsound _ hch

theorem SrcInv.extend {s : LineageTree} {m m' : Mem} (h : SrcInv s m)
    (hnext : m.next ≤ m'.next) (hbelow : ∀ b, b < m.next → m'.cells b = m.cells b)
    (hbound : ∀ b, m'.next ≤ b → m'.cells b = none) : SrcInv s m' where
  struct := h.struct
  same := fun a ha hl => by
    rw [hbelow a (lt_of_lt_of_le ha h.next_le)]
    exact h.same a ha hl
  next_le := le_trans h.next_le hnext
  bound := hbound

theorem FlagsOK.extend_flags {s : LineageTree} {m m' : Mem} {a : Nat} (h : FlagsOK s a m)
    (hm : SrcInv s m) {n : LineageTreeNode} (ha : s.mem.cells a = some n)
    (hbelow : ∀ b, b < m.next → m'.cells b = m.cells b) : FlagsOK s a m' := by
  intro b nb hd hb
  obtain ⟨nx, hx⟩ := Desc.live hm.struct ha hd
  have hlt := live_lt_next hm.struct hx
  rw [hbelow b (lt_of_lt_of_le hlt hm.next_le)] at hb
  exact h b nb hd hb

theorem FlagsOK.child_flags {s : LineageTree} {m : Mem} {a c : Nat} {n : LineageTreeNode}
    (h : FlagsOK s a m) (ha : s.mem.cells a = some n) (hc : c ∈ n.children) :
    FlagsOK s c m :=
  fun b nb hd hb => h b nb ((Desc.child ha hc).trans_desc hd) hb

theorem NodeOK.mono {s : LineageTree} {m m2 : Mem} {lo lo2 hi hi2 : Nat}
    {S S2 : Nat → Prop} {b : Nat} {nb : LineageTreeNode}
    (h : NodeOK s m lo hi S b nb) (hS : ∀ x, S x → S2 x) (hlo : lo2 ≤ lo) (hhi : hi ≤ hi2)
    (hcells : ∀ c, lo2 < c → c < hi → m2.cells c = m.cells c)
    (hroot : ∀ np, lo ≤ lo2 → m.cells lo2 = some np → ∃ np2, m2.cells lo2 = some np2 ∧
      (∀ c, c ∈ np.children → c ∈ np2.children) ∧ np2.lng = np.lng ∧ np2.t = np.t)
    (hb : b < hi) : NodeOK s m2 lo2 hi2 S2 b nb where
  src := by
    obtain ⟨x, nx, h1, h2, h3⟩ := h.src
    exact ⟨x, nx, hS x h1, h2, h3⟩
  up := by
    obtain ⟨p, np, h1, h2, h3, h4, h5⟩ := h.up
    rcases Nat.lt_or_ge lo2 p with hp | hp
    · exact ⟨p, np, h1, by omega, h3, by rw [hcells p hp (by omega)]; exact h4, h5⟩
    · have : p = lo2 := by omega
      subst this
      obtain ⟨np2, e1, e2, _⟩ := hroot np h2 h4
      exact ⟨p, np2, h1, le_refl _, h3, e1, e2 b h5⟩
  kids := by
    intro c hc
    obtain ⟨h1, h2, nc, h3, h4⟩ := h.kids c hc
    have hb2 : lo2 < c := by
      obtain ⟨p, np, _, e2, e3, _⟩ := h.up
      omega
    exact ⟨h1, by omega, nc, by rw [hcells c hb2 h2]; exact h3, h4⟩
  nodup := h.nodup
  leaf := h.leaf
  mirror := by
    intro p np' hp hnp'
    obtain ⟨p0, np0, h1, h2, h3, h4, _⟩ := h.up
    rw [hp] at h1
    cases h1
    rcases Nat.lt_or_ge lo2 p with hlt | hge
    · rw [hcells p hlt (by omega)] at hnp'
      exact h.mirror p np' hp hnp'
    · have : p = lo2 := by omega
      subst this
      obtain ⟨np2, e1, _, e3, e4⟩ := hroot np0 h2 h4
      rw [hnp'] at e1
      cases e1
      obtain ⟨x, nx, y, ny, f1, f2, f3, f4, f5, f6⟩ := h.mirror p np0 hp h4
      exact ⟨x, nx, y, ny, f1, f2, f3, f4, e3.trans f5, e4.trans f6⟩
theorem extLoop_skip {s : LineageTree} {m0 m : Mem} {lo : Nat} {nr0 : LineageTreeNode}
    {done : List Nat} {c : Nat} (inv : ExtLoopInv s m0 lo nr0 done m)
    (hc : ¬ HasSampled s.mem c) : ExtLoopInv s m0 lo nr0 (done ++ [c]) m where
  next_lt := inv.next_lt
  below := inv.below
  bound := inv.bound
  root := by
    obtain ⟨ks, h1, h2, h3, h4⟩ := inv.root
    refine ⟨ks, h1, h2, h3, fun hk c' hc' => ?_⟩
    rcases List.mem_append.mp hc' with h | h
    · exact h4 hk c' h
    · rw [List.mem_singleton.mp h]
      exact hc
  node := by
    intro b h1 h2
    obtain ⟨nb, e1, e2⟩ := inv.node b h1 h2
    refine ⟨nb, e1, e2.mono ?_ (le_refl _) (le_refl _) (fun _ _ _ => rfl)
      (fun np _ h => ⟨np, h, fun _ h => h, rfl, rfl⟩) h2⟩
    rintro x ⟨c', hc', hd⟩
    exact ⟨c', List.mem_append_left _ hc', hd⟩
  inj := inv.inj
  cover := by
    intro c' hc' x nx hd hx hs
    rcases List.mem_append.mp hc' with h | h
    · exact inv.cover c' h x nx hd hx hs
    · rw [List.mem_singleton.mp h] at hd
      exact absurd ⟨x, nx, hd, hx, hs⟩ hc

theorem extLoop_step {s : LineageTree} (hs : Struct none s) {a : Nat} {n : LineageTreeNode}
    (hn : s.mem.cells a = some n) {m0 m m1 : Mem} {lo : Nat} {nr0 : LineageTreeNode}
    (hcopy0 : IsCopy n nr0)
    {done rest : List Nat} {c : Nat} (hdone : done ++ c :: rest = n.children)
    (inv : ExtLoopInv s m0 lo nr0 done m) (post : CopyPost s c (some lo) m m1)
    {ks : List Nat} (hks : m.cells lo = some { nr0 with children := ks }) :
    ExtLoopInv s m0 lo nr0 (done ++ [c])
      (m1.set lo { nr0 with children := ks ++ [m.next] }) := by
  have hlo := inv.next_lt
  have hlt := post.next_lt
  have hcell : ∀ b, b ≠ lo →
      (m1.set lo { nr0 with children := ks ++ [m.next] }).cells b = m1.cells b :=
    fun b hb => by simp [Mem.set, hb]
  have hcell0 : (m1.set lo { nr0 with children := ks ++ [m.next] }).cells lo =
      some { nr0 with children := ks ++ [m.next] } := by simp [Mem.set]
  have hold : ∀ b, b ≠ lo → b < m.next →
      (m1.set lo { nr0 with children := ks ++ [m.next] }).cells b = m.cells b :=
    fun b hb hb2 => by rw [hcell b hb, post.below b hb2]
  have hnd : n.children.Nodup := hs.childNodup _ _ (by simp) hn
  have hcin : c ∈ n.children := by rw [← hdone]; simp
  have hcnot : c ∉ done := by
    rw [← hdone] at hnd
    have := (List.nodup_append.mp hnd).2.2
    intro hcd
    exact this hcd (List.mem_cons_self _ _) 
  obtain ⟨ks0, h1, h2, h3, h4⟩ := inv.root
  rw [hks] at h1
  have hkseq : ks0 = ks := by
    simp only [Option.some.injEq, LineageTreeNode.mk.injEq] at h1
    exact h1.2.2.2.2.2.2.2.1.symm
  subst hkseq
  obtain ⟨nc, nr, hnc, hnr, hcopy, hpar, hnodup, hkids, hleaf⟩ := post.root
  -- the source of a node of the copy of `c`
  have hsrcNew : ∀ b nb, m.next ≤ b → m1.cells b = some nb →
      ∃ x nx, Desc s.mem c x ∧ s.mem.cells x = some nx ∧ nb.lng = nx.lng := by
    intro b nb hb hnb
    rcases Nat.eq_or_lt_of_le hb with e | e
    · rw [← e, hnr] at hnb
      cases hnb
      exact ⟨c, nc, Desc.refl, hnc, hcopy.1⟩
    · have hb2 : b < m1.next := by
        by_contra hge
        rw [post.bound b (by omega)] at hnb
        cases hnb
      obtain ⟨nb2, e1, e2⟩ := post.node b e hb2
      rw [hnb] at e1
      cases e1
      obtain ⟨x, nx, e3, e4, e5⟩ := e2.src
      exact ⟨x, nx, e3.1, e4, e5.1⟩
  refine ⟨?_, ?_, ?_, ?_, ?_, ?_, ?_⟩
  · show lo < m1.next
    omega
  · intro b hb
    rw [hold b (by omega) (by omega)]
    exact inv.below b hb
  · intro b hb
    have : m1.next ≤ b := hb
    rw [hcell b (by omega)]
    exact post.bound b hb
  · refine ⟨ks0 ++ [m.next], hcell0, ?_, ?_, ?_⟩
    · rw [List.nodup_append]
      refine ⟨h2, List.nodup_singleton _, ?_⟩
      intro x hx hx2
      rw [List.mem_singleton] at hx2
      have := (h3 x hx).2.1
      omega
    · intro k hk
      rcases List.mem_append.mp hk with hk | hk
      · obtain ⟨e1, e2, nk, e3, e4⟩ := h3 k hk
        refine ⟨e1, ?_, nk, ?_, e4⟩
        · show k < m1.next
          omega
        · rw [hold k (by omega) e2]
          exact e3
      · rw [List.mem_singleton.mp hk]
        refine ⟨hlo, hlt, nr, ?_, hpar⟩
        rw [hcell _ (by omega)]
        exact hnr
    · intro h
      simp at h
  · intro b hb1 hb2
    have hb2' : b < m1.next := hb2
    rcases Nat.lt_trichotomy b m.next with hb | hb | hb
    · obtain ⟨nb, e1, e2⟩ := inv.node b hb1 hb
      refine ⟨nb, by rw [hold b (by omega) hb]; exact e1, ?_⟩
      refine e2.mono ?_ (le_refl _) (le_of_lt hlt) (fun x hx1 hx2 => hold x (by omega) hx2)
        ?_ hb
      · rintro x ⟨c', hc', hd⟩
        exact ⟨c', List.mem_append_left _ hc', hd⟩
      · intro np _ hnp
        rw [hks] at hnp
        cases hnp
        exact ⟨_, hcell0, fun x hx => List.mem_append_left _ hx, rfl, rfl⟩
    · subst hb
      refine ⟨nr, by rw [hcell _ (by omega)]; exact hnr, ?_, ?_, ?_, hnodup, hleaf, ?_⟩
      · exact ⟨c, nc, ⟨c, by simp, Desc.refl⟩, hnc, hcopy⟩
      · exact ⟨lo, _, hpar, le_refl _, hlo, hcell0, by simp⟩
      · intro k hk
        obtain ⟨e1, e2, nk, e3, e4⟩ := hkids k hk
        exact ⟨e1, e2, nk, by rw [hcell k (by omega)]; exact e3, e4⟩
      · intro p np hp hnp
        rw [hpar] at hp
        cases hp
        rw [hcell0] at hnp
        cases hnp
        obtain ⟨_, nc2, g1, g2⟩ := hs.childLive _ _ _ (by simp) hn hcin
        rw [hnc] at g1
        cases g1
        exact ⟨c, nc, a, n, hnc, hcopy, g2, hn, hcopy0.1, hcopy0.2.2.1⟩
    · obtain ⟨nb, e1, e2⟩ := post.node b hb hb2'
      refine ⟨nb, by rw [hcell b (by omega)]; exact e1, ?_⟩
      refine e2.mono ?_ (le_of_lt hlo) (le_refl _) (fun x hx1 _ => hcell x (by omega)) ?_ hb2'
      · rintro x ⟨hd, _⟩
        exact ⟨c, by simp, hd⟩
      · intro np hle _
        omega
  · intro b1 b2 n1 n2 hb1 hb2 e1 e2 hl
    rw [hcell b1 (by omega)] at e1
    rw [hcell b2 (by omega)] at e2
    have key : ∀ b1 b2 n1 n2, lo < b1 → b1 < m.next → m.next ≤ b2 → m1.cells b1 = some n1 →
        m1.cells b2 = some n2 → n1.lng = n2.lng → False := by
      intro b1 b2 n1 n2 g1 g2 g3 e1 e2 hl
      rw [post.below b1 g2] at e1
      obtain ⟨nb, f1, f2⟩ := inv.node b1 g1 g2
      rw [e1] at f1
      cases f1
      obtain ⟨x1, nx1, ⟨c1, hc1, hd1⟩, f3, f4⟩ := f2.src
      obtain ⟨x2, nx2, hd2, f5, f6⟩ := hsrcNew b2 n2 g3 e2
      have hx : x1 = x2 := hs.lngInj x1 x2 nx1 nx2 (by simp) (by simp) f3 f5
        (by rw [← f4.1, ← f6, hl])
      subst hx
      have hc1in : c1 ∈ n.children := by rw [← hdone]; simp [hc1]
      have := Desc.siblings hs hn hc1in hcin hd1 hd2
      subst this
      exact hcnot hc1
    rcases Nat.lt_or_ge b1 m.next with g1 | g1 <;> rcases Nat.lt_or_ge b2 m.next with g2 | g2
    · rw [post.below b1 g1] at e1
      rw [post.below b2 g2] at e2
      exact inv.inj b1 b2 n1 n2 hb1 hb2 e1 e2 hl
    · exact (key b1 b2 n1 n2 hb1 g1 g2 e1 e2 hl).elim
    · exact (key b2 b1 n2 n1 hb2 g2 g1 e2 e1 hl.symm).elim
    · exact post.inj b1 b2 n1 n2 g1 g2 e1 e2 hl
  · intro c' hc' x nx hd hx hsx
    rcases List.mem_append.mp hc' with h | h
    · obtain ⟨b, nb, e1, e2, e3⟩ := inv.cover c' h x nx hd hx hsx
      have hb : b < m.next := by
        by_contra hge
        rw [inv.bound b (by omega)] at e2
        cases e2
      exact ⟨b, nb, e1, by rw [hold b (by omega) hb]; exact e2, e3⟩
    · rw [List.mem_singleton.mp h] at hd
      obtain ⟨b, nb, e1, e2, e3⟩ := post.cover x nx hd hx hsx
      exact ⟨b, nb, by omega, by rw [hcell b (by omega)]; exact e2, e3⟩
theorem SrcInv.set_copy {s : LineageTree} {m : Mem} (h : SrcInv s m) {lo : Nat}
    (hlo : s.mem.next ≤ lo) (hlt : lo < m.next) (r : LineageTreeNode) :
    SrcInv s (m.set lo r) where
  struct := h.struct
  same := fun a ha hl => by
    have : a ≠ lo := by omega
    simp only [Mem.set, if_neg this]
    exact h.same a ha hl
  next_le := h.next_le
  bound := fun a ha => by
    have h1 : m.next ≤ a := ha
    have : a ≠ lo := by omega
    simp only [Mem.set, if_neg this]
    exact h.bound a h1

theorem FlagsOK.same_src {s : LineageTree} {m m' : Mem} {a : Nat} (h : FlagsOK s a m)
    (hs : Struct none s) {n : LineageTreeNode} (ha : s.mem.cells a = some n)
    (hbelow : ∀ b, b < s.mem.next → m'.cells b = m.cells b) : FlagsOK s a m' := by
  intro b nb hd hb
  obtain ⟨nx, hx⟩ := Desc.live hs ha hd
  rw [hbelow b (live_lt_next hs hx)] at hb
  exact h b nb hd hb

theorem extractLoop_spec {s : LineageTree} (hs : Struct none s) {a : Nat}
    {n : LineageTreeNode} (hn : s.mem.cells a = some n) {m0 : Mem} {lo : Nat}
    {nr0 : LineageTreeNode} (hcopy0 : IsCopy n nr0) (hlo : s.mem.next ≤ lo)
    (rec : Mem → Nat → Except Err (Mem × Nat))
    (hrec : ∀ m c, c ∈ n.children → SrcInv s m → FlagsOK s c m → HasSampled s.mem c →
      ∃ m', rec m c = .ok (m', m.next) ∧ CopyPost s c (some lo) m m') :
    ∀ (rest done : List Nat) (m : Mem), done ++ rest = n.children → SrcInv s m →
      FlagsOK s a m → ExtLoopInv s m0 lo nr0 done m →
      ∃ m', extractLoop rec lo m rest = .ok m' ∧ ExtLoopInv s m0 lo nr0 n.children m' := by
  intro rest
  induction rest with
  | nil =>
    intro done m hdone _ _ inv
    rw [List.append_nil] at hdone
    subst hdone
    exact ⟨m, by simp [extractLoop], inv⟩
  | cons c rest ih =>
    intro done m hdone hm hfl inv
    have hcin : c ∈ n.children := by rw [← hdone]; simp
    obtain ⟨_, nc, hnc, _⟩ := hs.childLive _ _ _ (by simp) hn hcin
    obtain ⟨nc', hc1, hg, _⟩ := hm.get_src hnc
    have hflag := hfl c nc' (Desc.child hn hcin) hc1
    have hdone' : (done ++ [c]) ++ rest = n.children := by
      rw [List.append_assoc]; exact hdone
    by_cases hneed : nc'.needed = true
    · obtain ⟨m1, h1, post⟩ := hrec m c hcin hm (hfl.child_flags hn hcin) (hflag.mp hneed)
      obtain ⟨ks, hks, _⟩ := inv.root
      have hlo1 : m1.cells lo = some { nr0 with children := ks } := by
        rw [post.below lo inv.next_lt]
        exact hks
      have inv2 := extLoop_step hs hn hcopy0 hdone inv post hks
      have hm1 : SrcInv s m1 := hm.extend (le_of_lt post.next_lt) post.below post.bound
      have hm2 : SrcInv s (m1.set lo { nr0 with children := ks ++ [m.next] }) :=
        hm1.set_copy hlo (lt_trans inv.next_lt post.next_lt) _
      have hfl2 : FlagsOK s a (m1.set lo { nr0 with children := ks ++ [m.next] }) := by
        refine hfl.same_src hs hn (fun b hb => ?_)
        have hb2 : b ≠ lo := by omega
        simp only [Mem.set, if_neg hb2]
        exact post.below b (lt_of_lt_of_le hb hm.next_le)
      obtain ⟨m', h2, inv'⟩ := ih (done ++ [c]) _ hdone' hm2 hfl2 inv2
      refine ⟨m', ?_, inv'⟩
      simp only [extractLoop, hg, hneed, if_true, h1, Mem.get_of_cells hlo1]
      exact h2
    · have inv2 : ExtLoopInv s m0 lo nr0 (done ++ [c]) m :=
        extLoop_skip inv (fun h => hneed (hflag.mpr h))
      obtain ⟨m', h2, inv'⟩ := ih (done ++ [c]) m hdone' hm hfl inv2
      refine ⟨m', ?_, inv'⟩
      simp only [extractLoop, hg, hneed]
      exact h2
theorem extract_spec {s : LineageTree} (hs : Struct none s) :
    ∀ (fuel : Nat) (m : Mem) (a : Nat) (par : Option Nat), SrcInv s m → FlagsOK s a m →
      (∃ n, s.mem.cells a = some n) → HasSampled s.mem a → s.mem.next ≤ fuel + a →
      ∃ m', extractSubTree fuel m a par = .ok (m', m.next) ∧ CopyPost s a par m m' := by
  intro fuel
  induction fuel with
  | zero =>
    intro m a par _ _ ⟨n, hn⟩ _ hf
    have := live_lt_next hs hn
    omega
  | succ fuel ih =>
    intro m a par hm hfl ⟨n, hn⟩ hsam hf
    obtain ⟨n', hc', hg, hn'⟩ := hm.get_src hn
    have hch : n'.children = n.children := by rw [hn']
    -- the memory and the record of the copy when the loop starts
    generalize hnr0 : ({ mkNode n'.lng n'.data n'.t n'.extant par with
      sampled := n'.sampled, tSample := n'.tSample, locSample := n'.locSample,
      tBranchParent := n'.tBranchParent } : LineageTreeNode) = nr0
    have hcopy : IsCopy n nr0 := by
      rw [← hnr0, hn']
      simp [IsCopy, mkNode]
    have hnr0c : nr0 = { nr0 with children := [] } := by
      rw [← hnr0]
      rfl
    have hnr0p : nr0.parent = par := by
      rw [← hnr0]
      rfl
    generalize hm2 : ((m.alloc (mkNode n'.lng n'.data n'.t n'.extant par)).1.set m.next nr0) = m2
    have hm2c : ∀ b, m2.cells b = if b = m.next then some nr0 else m.cells b := by
      intro b
      rw [← hm2]
      simp only [Mem.set, Mem.alloc]
      split_ifs <;> rfl
    have hm2n : m2.next = m.next + 1 := by
      rw [← hm2]
      rfl
    have hm2s : SrcInv s m2 := hm.extend (by omega)
      (fun b hb => by rw [hm2c, if_neg (by omega)])
      (fun b hb => by rw [hm2c, if_neg (by omega)]; exact hm.bound b (by omega))
    have hfl2 : FlagsOK s a m2 := hfl.same_src hs hn
      (fun b hb => by
        have := hm.next_le
        rw [hm2c, if_neg (by omega)])
    have inv0 : ExtLoopInv s m2 m.next nr0 [] m2 := by
      refine ⟨by omega, fun _ _ => rfl, ?_, ?_, ?_, ?_, ?_⟩
      · intro b hb
        rw [hm2c, if_neg (by omega)]
        exact hm.bound b (by omega)
      · refine ⟨[], ?_, List.nodup_nil, ?_, ?_⟩
        · rw [hm2c, if_pos rfl, ← hnr0c]
        · intro k hk
          cases hk
        · intro _ c hc
          cases hc
      · intro b h1 h2
        omega
      · intro b1 b2 n1 n2 h1 _ e1
        rw [hm2c, if_neg (by omega), hm.bound b1 (by omega)] at e1
        cases e1
      · intro c hc
        cases hc
    obtain ⟨m3, h3, inv⟩ := extractLoop_spec hs hn hcopy hm.next_le
      (fun m' c => extractSubTree fuel m' c (some m.next))
      (fun m' c hc hm' hfl' hs' => by
        obtain ⟨_, nc, e1, e2⟩ := hs.childLive _ _ _ (by simp) hn hc
        have := hs.order _ _ _ (by simp) e1 e2
        exact ih m' c (some m.next) hm' hfl' ⟨nc, e1⟩ hs' (by omega))
      n.children [] m2 rfl hm2s hfl2 inv0
    refine ⟨m3, ?_, ?_⟩
    · simp only [extractSubTree, hg]
      simp only [Mem.alloc] at hm2 ⊢
      rw [hnr0, hm2, hch, h3]
    · obtain ⟨ks, r1, r2, r3, r4⟩ := inv.root
      have hnochild : ∀ x, (Desc s.mem a x ∧ x ≠ a) ↔ ∃ c ∈ n.children, Desc s.mem c x := by
        intro x
        constructor
        · rintro ⟨hd, hne⟩
          rcases (Desc.head_iff hn).mp hd with e | h
          · exact absurd e hne
          · exact h
        · rintro ⟨c, hc, hd⟩
          exact ⟨(Desc.child hn hc).trans_desc hd, child_desc_ne hs hn hc hd⟩
      refine ⟨inv.next_lt, ?_, inv.bound, ?_, ?_, ?_, ?_⟩
      · intro b hb
        rw [inv.below b hb, hm2c, if_neg (by omega)]
      · refine ⟨n, _, hn, r1, ?_, hnr0p, r2, r3, ?_⟩
        · exact hcopy
        · intro hk
          have hk' : ks = [] := hk
          have h5 := r4 hk'
          rcases (hasSampled_iff hn).mp hsam with h | ⟨c, hc, h⟩
          · show nr0.sampled = true
            rw [hcopy.2.2.2.2.1]
            exact h
          · exact absurd h (h5 c hc)
      · intro b h1 h2
        obtain ⟨nb, e1, e2⟩ := inv.node b h1 h2
        exact ⟨nb, e1, e2.mono (fun x hx => (hnochild x).mpr hx) (le_refl _) (le_refl _)
          (fun _ _ _ => rfl) (fun np _ h => ⟨np, h, fun _ h => h, rfl, rfl⟩) h2⟩
      · intro b1 b2 n1 n2 h1 h2 e1 e2 hl
        have key : ∀ b nb, m.next < b → m3.cells b = some nb → nb.lng ≠ n.lng := by
          intro b nb hb hnb hl
          have hb2 : b < m3.next := by
            by_contra hge
            rw [inv.bound b (by omega)] at hnb
            cases hnb
          obtain ⟨nb2, f1, f2⟩ := inv.node b hb hb2
          rw [hnb] at f1
          cases f1
          obtain ⟨x, nx, ⟨c, hc, hd⟩, f3, f4⟩ := f2.src
          have : x = a := hs.lngInj x a nx n (by simp) (by simp) f3 hn (by rw [← f4.1, hl])
          exact child_desc_ne hs hn hc hd this
        rcases Nat.eq_or_lt_of_le h1 with g1 | g1 <;> rcases Nat.eq_or_lt_of_le h2 with g2 | g2
        · rw [← g1, ← g2]
        · rw [← g1, r1] at e1
          cases e1
          exact absurd (hl.symm.trans hcopy.1) (key b2 n2 g2 e2)
        · rw [← g2, r1] at e2
          cases e2
          exact absurd (hl.trans hcopy.1) (key b1 n1 g1 e1)
        · exact inv.inj b1 b2 n1 n2 g1 g2 e1 e2 hl
      · intro x nx hd hx hsx
        rcases (Desc.head_iff hn).mp hd with e | ⟨c, hc, hd2⟩
        · subst e
          rw [hn] at hx
          cases hx
          exact ⟨m.next, _, le_refl _, r1, hcopy.1, by
            show nr0.sampled = true
            rw [hcopy.2.2.2.2.1]; exact hsx⟩
        · obtain ⟨b, nb, f1, f2, f3⟩ := inv.cover c hc x nx hd2 hx hsx
          exact ⟨b, nb, le_of_lt f1, f2, f3⟩

theorem Up.trans_up {m : Mem} {a b c : Nat} (h1 : Up m a b) (h2 : Up m b c) : Up m a c := by
  induction h2 with
  | refl => exact h1
  | step _ hb hp ih => exact Up.step ih hb hp

theorem Up.le_up {s : LineageTree} (hs : Struct none s) {x b : Nat} (h : Up s.mem x b) :
    b ≤ x := by
  induction h with
  | refl => exact le_refl _
  | step _ hb hp ih =>
    have := hs.order _ _ _ (by simp) hb hp
    omega

theorem ElimRel.refl_elim (L : List Nat) (V : LineageTree) : ElimRel L V V where
  surv := fun b nb' h => ⟨nb', h, SameData.refl_data nb', rfl⟩
  gone := fun b nb h1 h2 => by rw [h1] at h2; cases h2
  up := fun _ _ h => h
  roots := fun h => h

theorem ElimRel.trans_elim {L : List Nat} {V1 V2 V3 : LineageTree} (h1 : ElimRel L V1 V2)
    (h2 : ElimRel L V2 V3) : ElimRel L V1 V3 where
  surv := fun b nb' h => by
    obtain ⟨nb2, e1, e2, e3⟩ := h2.surv b nb' h
    obtain ⟨nb1, f1, f2, f3⟩ := h1.surv b nb2 e1
    exact ⟨nb1, f1, f2.trans_data e2, e3.trans f3⟩
  gone := fun b nb h hn => by
    cases h3 : V2.mem.cells b with
    | none => exact h1.gone b nb h h3
    | some nb2 =>
      obtain ⟨nb1, f1, f2, f3⟩ := h1.surv b nb2 h3
      rw [h] at f1
      cases f1
      obtain ⟨g1, g2⟩ := h2.gone b nb2 h3 hn
      exact ⟨by rw [← f3]; exact g1, by rw [← f2.1]; exact g2⟩
  up := fun x b h => h1.up x b (h2.up x b h)
  roots := fun h => h2.roots (h1.roots h)

theorem ElimRel.of_splice {L : List Nat} {s s' : LineageTree} {mid c g : Nat}
    {nm nc ng : LineageTreeNode} {cs' : List Nat}
    (r : SpliceRel s s' mid c g nm nc ng cs') (hL : nm.lng ∉ L) : ElimRel L s s' where
  surv := fun b nb' h => (r.survivor_splice h).2
  gone := fun b nb h hn => by
    have := r.cells b
    rw [hn] at this
    split_ifs at this with h1 h2 h3
    · subst h1
      rw [r.hmid] at h
      cases h
      exact ⟨by rw [r.hch]; rfl, hL⟩
    · rw [h] at this
      cases this
  up := fun x b h => by
    induction h with
    | refl => exact Up.refl
    | step _ hb hp ih =>
      rename_i b' p nb' _
      have hcell := r.cells b'
      rw [hb] at hcell
      split_ifs at hcell with h1 h2 h3
      · subst h2
        cases hcell
        simp only [Option.some.injEq] at hp
        subst hp
        exact Up.step (Up.step ih r.hc r.hcpar) r.hmid r.hpar
      · subst h3
        cases hcell
        exact Up.step ih r.hg hp
      · exact Up.step ih hcell.symm hp
  roots := fun h => by rw [r.roots]; exact h

theorem ElimRel.of_promote {L : List Nat} {s s' : LineageTree} {mid c : Nat}
    {nm nc : LineageTreeNode} (r : PromoteRel s s' mid c nm nc) (hL : nm.lng ∉ L)
    (hs : Struct none s) :
    ElimRel L s s' where
  surv := fun b nb' h => (r.survivor_promote h).2
  gone := fun b nb h hn => by
    have := r.cells b
    rw [hn] at this
    split_ifs at this with h1 h2
    · subst h1
      rw [r.hmid] at h
      cases h
      exact ⟨by rw [r.hch]; rfl, hL⟩
    · rw [h] at this
      cases this
  up := fun x b h => by
    induction h with
    | refl => exact Up.refl
    | step _ hb hp ih =>
      rename_i b' p nb' _
      have hcell := r.cells b'
      rw [hb] at hcell
      split_ifs at hcell with h1 h2
      · subst h2
        cases hcell
        cases hp
      · exact Up.step ih hcell.symm hp
  roots := fun h => by
    obtain ⟨r0, hr0⟩ := h
    have hmidroot : mid ∈ s.roots := (hs.rootSet mid).mpr ⟨by simp, nm, r.hmid, r.hpar⟩
    rw [hr0] at hmidroot
    have : mid = r0 := List.mem_singleton.mp hmidroot
    subst this
    refine ⟨c, ?_⟩
    rw [r.roots, hr0]
    simp [setErase, setInsert]
theorem Mem.get_set_eq (m : Mem) (a : Nat) (n : LineageTreeNode) :
    (m.set a n).get a = .ok n := by
  simp [Mem.get, Mem.set]

theorem Mem.get_set_ne {a b : Nat} (h : b ≠ a) (m : Mem) (n : LineageTreeNode) :
    (m.set a n).get b = m.get b := by
  simp [Mem.get, Mem.set, h]

theorem promoteOnlyChild_eq {m : Mem} {c : Nat} {nc : LineageTreeNode}
    (hc : m.cells c = some nc) :
    ∃ m2, promoteOnlyChild m c = .ok m2 ∧ m2.next = m.next ∧
      ∀ b, m2.cells b =
        if b = c then some { nc with parent := none, tBranchParent := nc.t }
        else m.cells b := by
  refine ⟨(m.set c { nc with parent := none }).set c
    { nc with parent := none, tBranchParent := nc.t }, ?_, rfl, ?_⟩
  · simp only [promoteOnlyChild, Mem.get_of_cells hc]
    simp [Mem.get, Mem.set]
  · intro b
    by_cases h : b = c <;> simp [Mem.set, h]

theorem adoptOnlyChild_eq {m : Mem} {mid c g : Nat} {nm nc ng : LineageTreeNode}
    {cs' : List Nat} (hmid : m.cells mid = some nm) (hc : m.cells c = some nc)
    (hg : m.cells g = some ng) (hcg : c ≠ g) (hcm : c ≠ mid) (hgm : g ≠ mid)
    (hcs : eraseChildList (m.set c { nc with parent := some g }).cells nm.lng ng.children
      = .ok cs') :
    ∃ m4, adoptOnlyChild m mid c g = .ok (m4, nm.parent) ∧ m4.next = m.next ∧
      ∀ b, m4.cells b =
        if b = c then some { nc with parent := some g, tBranchParent := nm.tBranchParent }
        else if b = g then some { ng with children := cs' ++ [c] }
        else m.cells b := by
  have hgc : g ≠ c := fun e => hcg e.symm
  have hmc : mid ≠ c := fun e => hcm e.symm
  have hmg : mid ≠ g := fun e => hgm e.symm
  refine ⟨(((m.set c { nc with parent := some g }).set g { ng with children := cs' }).set g
    { ng with children := cs' ++ [c] }).set c
    { nc with parent := some g, tBranchParent := nm.tBranchParent }, ?_, rfl, ?_⟩
  · simp only [adoptOnlyChild, Mem.get_of_cells hc, eraseChild, bind, Except.bind,
      Mem.get_set_eq, Mem.get_set_ne hgc, Mem.get_set_ne hmc, Mem.get_set_ne hmg,
      Mem.get_set_ne hcg, Mem.get_of_cells hg, Mem.get_of_cells hmid, hcs, pure,
      Except.pure]
  · intro b
    by_cases h2 : b = c
    · simp [Mem.set, h2, hcg]
    · by_cases h3 : b = g
      · simp [Mem.set, h3, hgc]
      · simp [Mem.set, h2, h3]

theorem rrnm_up {fuel : Nat} {m : Mem} {mid : Nat} {nm : LineageTreeNode} {L : List Nat}
    (hmid : m.cells mid = some nm) (hgood : Good L nm) :
    removeRedundantNodeMerge (fuel + 1) m (some mid) L =
      match nm.parent with
      | some g => removeRedundantNodeMerge fuel m (some g) L
      | none => .ok m := by
  rw [removeRedundantNodeMerge]
  simp only [Mem.get_of_cells hmid]
  unfold Good at hgood
  by_cases h1 : nm.children.length = 1
  · have h2 : nm.lng ∈ L := by
      by_contra h
      exact hgood ⟨h1, h⟩
    have h3 : L.contains nm.lng = true := by simpa using h2
    simp only [h1, if_true, h3, Bool.not_true, Bool.false_eq_true, if_false]
    cases nm.parent <;> rfl
  · simp only [h1, if_false]
    cases nm.parent <;> rfl

theorem rrnm_promote {fuel : Nat} {m : Mem} {mid c : Nat} {nm : LineageTreeNode}
    {L : List Nat} (hmid : m.cells mid = some nm) (hch : nm.children = [c])
    (hL : nm.lng ∉ L) (hpar : nm.parent = none) :
    removeRedundantNodeMerge (fuel + 1) m (some mid) L =
      match promoteOnlyChild m c with
      | .error e => .error e
      | .ok m2 => .ok (m2.free mid) := by
  rw [removeRedundantNodeMerge]
  have h3 : L.contains nm.lng = false := by simpa using hL
  simp only [Mem.get_of_cells hmid, hch, hpar, h3, List.length_singleton, if_true,
    Bool.not_false]
  try rfl

theorem rrnm_splice {fuel : Nat} {m : Mem} {mid c g : Nat} {nm : LineageTreeNode}
    {L : List Nat} (hmid : m.cells mid = some nm) (hch : nm.children = [c])
    (hL : nm.lng ∉ L) (hpar : nm.parent = some g) :
    removeRedundantNodeMerge (fuel + 1) m (some mid) L =
      match adoptOnlyChild m mid c g with
      | .error e => .error e
      | .ok (m4, parent) =>
        match removeRedundantNodeMerge fuel m4 parent L with
        | .error e => .error e
        | .ok m5 => .ok (m5.free mid) := by
  rw [removeRedundantNodeMerge]
  have h3 : L.contains nm.lng = false := by simpa using hL
  simp only [Mem.get_of_cells hmid, hch, hpar, h3, List.length_singleton, if_true,
    Bool.not_false]
  try rfl

theorem view_cells (H : Nat → Bool) (m : Mem) (nx : Nat) (R : List Nat) (k : Nat) (a : Nat) :
    (viewTree H m nx R k).mem.cells a = if H a = true then none else m.cells a := rfl

theorem view_live {H : Nat → Bool} {m : Mem} {nx : Nat} {R : List Nat} {k : Nat} {a : Nat}
    {n : LineageTreeNode} (h : (viewTree H m nx R k).mem.cells a = some n) :
    H a = false ∧ m.cells a = some n := by
  rw [view_cells] at h
  split_ifs at h with h1
  exact ⟨by simpa using h1, h⟩

theorem view_free {H : Nat → Bool} (m : Mem) (nx : Nat) (R : List Nat) (k : Nat) (mid : Nat) :
    viewTree H (m.free mid) nx R k = viewTree (fun a => H a || a == mid) m nx R k := by
  simp only [viewTree, Mem.free, LineageTree.mk.injEq, Mem.mk.injEq, and_true, true_and]
  funext a
  by_cases h1 : H a = true
  · simp [h1]
  · by_cases h2 : a = mid
    · simp [h2]
    · simp [h1, h2]

theorem Up.from_child {m : Mem} {mid g b : Nat} {nm : LineageTreeNode}
    (hmid : m.cells mid = some nm) (hpar : nm.parent = some g) (h : Up m mid b) :
    b = mid ∨ Up m g b := by
  induction h with
  | refl => exact Or.inl rfl
  | step _ hb hp ih =>
    rcases ih with e | ih
    · subst e
      rw [hmid] at hb
      cases hb
      rw [hpar] at hp
      cases hp
      exact Or.inr Up.refl
    · exact Or.inr (Up.step ih hb hp)

theorem Up.root_eq {m : Mem} {mid b : Nat} {nm : LineageTreeNode}
    (hmid : m.cells mid = some nm) (hpar : nm.parent = none) (h : Up m mid b) : b = mid := by
  induction h with
  | refl => rfl
  | step _ hb hp ih =>
    subst ih
    rw [hmid] at hb
    cases hb
    rw [hpar] at hp
    cases hp

theorem Up.congr_up {s : LineageTree} (hs : Struct none s) {m' : Mem} {g b : Nat}
    (hpar : ∀ a na, a ≤ g → s.mem.cells a = some na →
      ∃ na', m'.cells a = some na' ∧ na'.parent = na.parent)
    (h : Up s.mem g b) : Up m' g b := by
  induction h with
  | refl => exact Up.refl
  | step hu hb hp ih =>
    obtain ⟨na', e1, e2⟩ := hpar _ _ (hu.le_up hs) hb
    exact Up.step ih e1 (by rw [e2]; exact hp)

theorem Good.of_same {L : List Nat} {nb nb' : LineageTreeNode} (h : Good L nb)
    (hd : SameData nb nb') (hl : nb'.children.length = nb.children.length) : Good L nb' := by
  unfold Good at h ⊢
  rw [hl, hd.1]
  exact h

theorem view_next (H : Nat → Bool) (m : Mem) (nx : Nat) (R : List Nat) (k : Nat) :
    (viewTree H m nx R k).mem.next = nx := rfl

theorem view_roots (H : Nat → Bool) (m : Mem) (nx : Nat) (R : List Nat) (k : Nat) :
    (viewTree H m nx R k).roots = R := rfl

theorem view_nnodes (H : Nat → Bool) (m : Mem) (nx : Nat) (R : List Nat) (k : Nat) :
    (viewTree H m nx R k).nnodes = k := rfl

theorem view_extantLngs (H : Nat → Bool) (m : Mem) (nx : Nat) (R : List Nat) (k : Nat) :
    (viewTree H m nx R k).extantLngs = [] := rfl

theorem view_sampled (H : Nat → Bool) (m : Mem) (nx : Nat) (R : List Nat) (k : Nat) :
    (viewTree H m nx R k).sampled_lineages = [] := rfl

theorem promote_view {H : Nat → Bool} {m m2 : Mem} {nx : Nat} {R : List Nat} {k : Nat}
    {mid c : Nat} {nm nc : LineageTreeNode}
    (hmid : (viewTree H m nx R k).mem.cells mid = some nm)
    (hch : nm.children = [c]) (hpar : nm.parent = none)
    (hc : (viewTree H m nx R k).mem.cells c = some nc) (hcpar : nc.parent = some mid)
    (hlt2 : mid < c)
    (h3 : ∀ b, m2.cells b =
        if b = c then some { nc with parent := none, tBranchParent := nc.t }
        else m.cells b) :
    PromoteRel (viewTree H m nx R k)
      (viewTree H (m2.free mid) nx (setInsert (setErase R mid) c) (uintDec k))
      mid c nm nc :=
  { hmid := hmid, hc := hc, hch := hch, hpar := hpar, hcpar := hcpar, hlt := hlt2,
    cells := by
      intro b
      have hHc := (view_live hc).1
      rw [view_cells, view_cells]
      by_cases e1 : b = mid
      · subst e1
        rw [if_pos rfl]
        by_cases hH : H b = true
        · rw [if_pos hH]
        · rw [if_neg hH]
          simp [Mem.free]
      · rw [if_neg e1]
        by_cases e2 : b = c
        · subst e2
          rw [if_pos rfl, if_neg (by rw [hHc]; simp)]
          simp only [Mem.free, if_neg e1]
          rw [h3, if_pos rfl]
        · rw [if_neg e2]
          by_cases hH : H b = true
          · rw [if_pos hH, if_pos hH]
          · rw [if_neg hH, if_neg hH]
            simp only [Mem.free, if_neg e1]
            rw [h3, if_neg e2]
    next := by rw [view_next, view_next],
    roots := by rw [view_roots, view_roots],
    extantLngs := by rw [view_extantLngs, view_extantLngs],
    sampled_lineages := by rw [view_sampled, view_sampled],
    nnodes := by rw [view_nnodes, view_nnodes] }

theorem splice_view {H : Nat → Bool} {m m4 : Mem} {nx : Nat} {R : List Nat} {k : Nat}
    {mid c g : Nat} {nm nc ng : LineageTreeNode} {cs' : List Nat}
    (hmid : (viewTree H m nx R k).mem.cells mid = some nm)
    (hc : (viewTree H m nx R k).mem.cells c = some nc)
    (hg : (viewTree H m nx R k).mem.cells g = some ng)
    (hch : nm.children = [c]) (hpar : nm.parent = some g) (hcpar : nc.parent = some mid)
    (hmem : mid ∈ ng.children) (hlt1 : g < mid) (hlt2 : mid < c)
    (hperm : cs'.Perm (ng.children.erase mid))
    (h3 : ∀ b, m4.cells b =
        if b = c then some { nc with parent := some g, tBranchParent := nm.tBranchParent }
        else if b = g then some { ng with children := cs' ++ [c] }
        else m.cells b) :
    SpliceRel (viewTree H m nx R k)
      (viewTree (fun a => H a || a == mid) m4 nx R (uintDec k))
      mid c g nm nc ng cs' :=
  { hmid := hmid, hc := hc, hg := hg, hch := hch, hpar := hpar, hcpar := hcpar,
    hmem := hmem, hlt1 := hlt1, hlt2 := hlt2, perm := hperm,
    cells := by
      intro b
      have hHc := (view_live hc).1
      have hHg := (view_live hg).1
      rw [view_cells, view_cells]
      by_cases e1 : b = mid
      · subst e1
        rw [if_pos rfl, if_pos (by simp)]
      · rw [if_neg e1]
        have hH2 : ((H b || b == mid) = true) ↔ (H b = true) := by simp [e1]
        by_cases e2 : b = c
        · subst e2
          rw [if_pos rfl, if_neg (by rw [hH2, hHc]; simp), h3, if_pos rfl]
        · rw [if_neg e2]
          by_cases e3 : b = g
          · subst e3
            rw [if_pos rfl, if_neg (by rw [hH2, hHg]; simp), h3, if_neg e2, if_pos rfl]
          · rw [if_neg e3]
            by_cases hH : H b = true
            · rw [if_pos hH, if_pos (hH2.mpr hH)]
            · rw [if_neg hH, if_neg (fun h => hH (hH2.mp h)), h3, if_neg e2, if_neg e3]
    next := by rw [view_next, view_next],
    roots := by rw [view_roots, view_roots],
    extantLngs := by rw [view_extantLngs, view_extantLngs],
    sampled_lineages := by rw [view_sampled, view_sampled],
    nnodes := by rw [view_nnodes, view_nnodes] }

theorem walk_spec (L : List Nat) (P : LineageTree → Prop)
    (hPs : ∀ (s s' : LineageTree) (mid c g : Nat) (nm nc ng : LineageTreeNode)
      (cs' : List Nat), SpliceRel s s' mid c g nm nc ng cs' → nm.lng ∉ L → P s → P s')
    (hPp : ∀ (s s' : LineageTree) (mid c : Nat) (nm nc : LineageTreeNode),
      PromoteRel s s' mid c nm nc → nm.lng ∉ L → P s → P s') :
    ∀ (fuel : Nat) (H : Nat → Bool) (m : Mem) (nx : Nat) (R : List Nat) (k : Nat)
      (mid : Nat) (nm : LineageTreeNode),
      Struct none (viewTree H m nx R k) → (viewTree H m nx R k).mem.cells mid = some nm →
      mid < fuel → P (viewTree H m nx R k) →
      ∃ m' R' k', removeRedundantNodeMerge fuel m (some mid) L = .ok m' ∧
        m'.next = m.next ∧ (∀ a, H a = true → m'.cells a = m.cells a) ∧
        Struct none (viewTree H m' nx R' k') ∧
        ElimRel L (viewTree H m nx R k) (viewTree H m' nx R' k') ∧
        (∀ b nb', Up (viewTree H m nx R k).mem mid b →
          (viewTree H m' nx R' k').mem.cells b = some nb' → Good L nb') ∧
        P (viewTree H m' nx R' k') := by
  intro fuel
  induction fuel with
  | zero =>
    intro H m nx R k mid nm _ _ hf _
    omega
  | succ fuel ih =>
    intro H m nx R k mid nm hs hmid hf hP
    obtain ⟨hHmid, hmidm⟩ := view_live hmid
    by_cases hbad : nm.children.length = 1 ∧ nm.lng ∉ L
    · obtain ⟨hlen, hL⟩ := hbad
      obtain ⟨c, hch⟩ : ∃ c, nm.children = [c] := by
        match h : nm.children, hlen with
        | [c], _ => exact ⟨c, rfl⟩
      obtain ⟨_, nc, hc, hcpar⟩ := hs.childLive mid nm c (by simp) hmid
        (by rw [hch]; exact List.mem_singleton_self c)
      obtain ⟨hHc, hcm⟩ := view_live hc
      have hlt2 : mid < c := hs.order c nc mid (by simp) hc hcpar
      cases hpar : nm.parent with
      | none =>
        obtain ⟨m2, h1, h2, h3⟩ := promoteOnlyChild_eq hcm
        have hrel : PromoteRel (viewTree H m nx R k)
            (viewTree H (m2.free mid) nx (setInsert (setErase R mid) c) (uintDec k))
            mid c nm nc := promote_view hmid hch hpar hc hcpar hlt2 h3
        refine ⟨m2.free mid, setInsert (setErase R mid) c, uintDec k, ?_, h2, ?_,
          hrel.struct_promote hs (by simp) (by simp),
          ElimRel.of_promote hrel hL hs, ?_, hPp _ _ _ _ _ _ hrel hL hP⟩
        · rw [rrnm_promote hmidm hch hL hpar, h1]
        · intro a ha
          have e1 : a ≠ mid := by rintro rfl; rw [hHmid] at ha; cases ha
          have e2 : a ≠ c := by rintro rfl; rw [hHc] at ha; cases ha
          simp [Mem.free, h3, e1, e2]
        · intro b nb' hup hb
          have := Up.root_eq hmid hpar hup
          subst this
          have := hrel.cells b
          rw [hb, if_pos rfl] at this
          cases this
      | some g =>
        obtain ⟨_, ng, hg, hmem⟩ := hs.parentLive mid nm g (by simp) hmid hpar
        obtain ⟨hHg, hgm⟩ := view_live hg
        have hlt1 : g < mid := hs.order mid nm g (by simp) hmid hpar
        have hpre : ∀ y ∈ ng.children, ∃ ny, (viewTree H m nx R k).mem.cells y = some ny ∧
            (ny.lng = nm.lng ↔ y = mid) := by
          intro y hy
          obtain ⟨_, ny, hny, _⟩ := hs.childLive g ng y (by simp) hg hy
          refine ⟨ny, hny, ?_, ?_⟩
          · intro hl
            exact hs.lngInj y mid ny nm (by simp) (by simp) hny hmid hl
          · intro e
            subst e
            rw [hmid] at hny
            cases hny
            rfl
        obtain ⟨cs', hcs, hperm⟩ :=
          eraseChildList_spec (viewTree H m nx R k).mem.cells mid nm.lng ng.children hpre
        have hcs' : eraseChildList (m.set c { nc with parent := some g }).cells nm.lng
            ng.children = .ok cs' := by
          rw [← hcs]
          apply eraseChildList_congr
          intro y hy
          obtain ⟨ny, hny, _⟩ := hpre y hy
          rw [hny]
          by_cases hyc : y = c
          · subst hyc
            rw [hc] at hny
            cases hny
            simp [Mem.set]
          · simp [Mem.set, hyc, (view_live hny).2]
        obtain ⟨m4, h1, h2, h3⟩ := adoptOnlyChild_eq hmidm hcm hgm (by omega) (by omega)
          (by omega) hcs'
        have hrel : SpliceRel (viewTree H m nx R k)
            (viewTree (fun a => H a || a == mid) m4 nx R (uintDec k))
            mid c g nm nc ng cs' :=
          splice_view hmid hc hg hch hpar hcpar hmem hlt1 hlt2 hperm h3
        have hs4 := hrel.struct_splice hs (by simp) (by simp)
        have hg4 : (viewTree (fun a => H a || a == mid) m4 nx R (uintDec k)).mem.cells g =
            some { ng with children := cs' ++ [c] } := by
          rw [hrel.cells g, if_neg (by omega), if_neg (by omega), if_pos rfl]
        obtain ⟨m5, R5, k5, e1, e2, e3, e4, e5, e6, e7⟩ :=
          ih (fun a => H a || a == mid) m4 nx R (uintDec k) g _ hs4 hg4 (by omega)
            (hPs _ _ _ _ _ _ _ _ _ hrel hL hP)
        refine ⟨m5.free mid, R5, k5, ?_, ?_, ?_, ?_, ?_, ?_, ?_⟩
        · rw [rrnm_splice hmidm hch hL hpar, h1]
          simp only [hpar, e1]
        · exact e2.trans h2
        · intro a ha
          have f1 : a ≠ mid := by rintro rfl; rw [hHmid] at ha; cases ha
          have f2 : a ≠ c := by rintro rfl; rw [hHc] at ha; cases ha
          have f3 : a ≠ g := by rintro rfl; rw [hHg] at ha; cases ha
          simp only [Mem.free, if_neg f1]
          rw [e3 a (by simp [ha]), h3, if_neg f2, if_neg f3]
        · rw [view_free]
          exact e4
        · rw [view_free]
          exact (ElimRel.of_splice hrel hL).trans_elim e5
        · intro b nb' hup hb
          rw [view_free] at hb
          rcases Up.from_child hmid hpar hup with e | hup2
          · subst e
            rw [view_cells] at hb
            simp at hb
          · refine e6 b nb' (Up.congr_up hs ?_ hup2) hb
            intro a na ha hna
            rw [hrel.cells a, if_neg (by omega), if_neg (by omega)]
            by_cases e : a = g
            · subst e
              rw [hg] at hna
              cases hna
              exact ⟨{ ng with children := cs' ++ [c] }, by rw [if_pos rfl], rfl⟩
            · exact ⟨na, by rw [if_neg e]; exact hna, rfl⟩
        · rw [view_free]
          exact e7
    · have hgood : Good L nm := hbad
      cases hpar : nm.parent with
      | none =>
        refine ⟨m, R, k, ?_, rfl, fun _ _ => rfl, hs, ElimRel.refl_elim L _, ?_, hP⟩
        · rw [rrnm_up hmidm hgood, hpar]
        · intro b nb' hup hb
          have := Up.root_eq hmid hpar hup
          subst this
          rw [hmid] at hb
          cases hb
          exact hgood
      | some g =>
        obtain ⟨_, ng, hg, hmem⟩ := hs.parentLive mid nm g (by simp) hmid hpar
        have hlt1 : g < mid := hs.order mid nm g (by simp) hmid hpar
        obtain ⟨m5, R5, k5, e1, e2, e3, e4, e5, e6, e7⟩ :=
          ih H m nx R k g ng hs hg (by omega) hP
        refine ⟨m5, R5, k5, ?_, e2, e3, e4, e5, ?_, e7⟩
        · rw [rrnm_up hmidm hgood, hpar]
          exact e1
        · intro b nb' hup hb
          rcases Up.from_child hmid hpar hup with e | hup2
          · subst e
            obtain ⟨nb, f1, f2, f3⟩ := e5.surv b nb' hb
            rw [hmid] at f1
            cases f1
            exact hgood.of_same f2 f3
          · exact e6 b nb' hup2 hb

theorem branchLength_exact {t dt : Int} {pp : Option PhyloParent}
    (h : branchLength t pp = .ok dt) :
    (∀ q, pp = some q → dt = t - q.t) ∧ (pp = none → dt = 0) := by
  cases pp with
  | none =>
    simp only [branchLength] at h
    cases h
    exact ⟨fun _ hq => (by cases hq), fun _ => rfl⟩
  | some q =>
    simp only [branchLength] at h
    split_ifs at h with h1
    cases h
    exact ⟨fun _ hq => (by cases hq; rfl), fun hq => (by cases hq)⟩

theorem phyloInner_dt {n : LineageTreeNode} {t dt : Int} {d dc a : Nat}
    {l r : PhyloNode} {pp : Option PhyloParent} {ql qr : PhyloParent}
    (hl : DtPost (some ql) l) (hr : DtPost (some qr) r) (hql : ql.t = t) (hqr : qr.t = t)
    (hdt : branchLength t pp = .ok dt) : DtPost pp (phyloInner n t dt d dc a l r) := by
  have h1 := hl.2.1 ql rfl
  have h2 := hr.2.1 qr rfl
  rw [hql] at h1
  rw [hqr] at h2
  refine ⟨?_, ?_, ?_⟩
  · simp [phyloInner, PhyloNode.dtExact, h1, h2, hl.1, hr.1]
  · intro q hq
    simpa [phyloInner, PhyloNode.dt, PhyloNode.t] using (branchLength_exact hdt).1 q hq
  · intro hq
    simpa [phyloInner, PhyloNode.dt] using (branchLength_exact hdt).2 hq

theorem phyloLeaf_dt (n : LineageTreeNode) (t dt : Int) (d dc a : Nat)
    (pp : Option PhyloParent) (h1 : ∀ q, pp = some q → dt = t - q.t)
    (h2 : pp = none → dt = 0) : DtPost pp (phyloLeaf n t dt d dc a) := by
  refine ⟨by simp [phyloLeaf, PhyloNode.dtExact], ?_, ?_⟩
  · intro q hq
    simpa [phyloLeaf, PhyloNode.dt, PhyloNode.t] using h1 q hq
  · intro hq
    simpa [phyloLeaf, PhyloNode.dt] using h2 hq

theorem sampledLeaf_dt (n : LineageTreeNode) (t dt : Int) (d dc a : Nat) (q : PhyloParent)
    (h : dt = t - q.t) : DtPost (some q) (phyloLeaf n t dt d dc a) :=
  phyloLeaf_dt n t dt d dc a (some q) (fun _ hq => by cases hq; exact h)
    (fun hq => by cases hq)

theorem gat_dt : ∀ (fuel : Nat) (T : LTree) (pp : Option PhyloParent)
    (r : LTree × PhyloNode), getAncestralTree fuel T pp = .ok r → DtPost pp r.2 := by
  intro fuel
  induction fuel with
  | zero =>
    intro T pp r h
    simp [getAncestralTree] at h
  | succ f ih =>
    intro T pp r h
    obtain ⟨n, K⟩ := T
    rw [getAncestralTree] at h
    dsimp only at h
    generalize (if 1 < K.length ∧ (entryState n pp).depth = 0 then sortKids K else K) = S at h
    generalize (if (entryState n pp).depth = 0 then attachDepth n.tSample S
      else (entryState n pp).attach) = a at h
    generalize entryState n pp = st at h
    split_ifs at h
    · unfold gatLeaf at h
      split_ifs at h
      split at h
      · cases h
      rename_i hdt
      cases h
      exact phyloLeaf_dt _ _ _ _ _ _ _ (branchLength_exact hdt).1 (branchLength_exact hdt).2
    · unfold gatAttach at h
      split at h
      · cases h
      rename_i hdt
      dsimp only at h
      split_ifs at h
      · split at h
        · cases h
        split at h
        · cases h
        rename_i hl
        cases h
        exact phyloInner_dt (ih _ _ _ hl)
          (sampledLeaf_dt n n.tSample 0 _ _ _ (asParent n 0 0 0 n.tSample)
            (by simp [asParent])) rfl rfl hdt
      · split at h
        · cases h
        rename_i hl
        cases h
        exact phyloInner_dt (ih _ _ _ hl)
          (sampledLeaf_dt n n.tSample 0 _ _ _ (asParent n 0 0 0 n.tSample)
            (by simp [asParent])) rfl rfl hdt
    · unfold gatStep at h
      split at h
      · cases h
      dsimp only at h
      split at h
      · cases h
      rename_i hdt
      split at h
      · cases h
      rename_i hl
      split_ifs at h
      · split at h
        · cases h
        split at h
        · cases h
        rename_i hr
        cases h
        exact phyloInner_dt (ih _ _ _ hl) (ih _ _ _ hr) rfl rfl hdt
      · split at h
        · cases h
        rename_i hr
        cases h
        exact phyloInner_dt (ih _ _ _ hl) (ih _ _ _ hr) rfl rfl hdt
    · unfold gatLate at h
      split at h
      · cases h
      rename_i child _
      dsimp only at h
      split at h
      · cases h
      rename_i hdt
      split_ifs at h
      · split at h
        · cases h
        rename_i hl
        split at h
        · cases h
        rename_i hr
        cases h
        exact phyloInner_dt (ih _ _ _ hl) (ih _ _ _ hr) rfl rfl hdt
      · split at h
        · cases h
        rename_i hl
        cases h
        exact phyloInner_dt (ih _ _ _ hl)
          (sampledLeaf_dt n n.tSample _ _ _ _
            (asParent n 0 0 0 child.node.tBranchParent) (by simp [asParent])) rfl rfl hdt
    · unfold gatUnsampled at h
      split_ifs at h
      · split at h
        · cases h
        dsimp only at h
        split at h
        · cases h
        rename_i hdt
        split at h
        · cases h
        rename_i hl
        split at h
        · cases h
        rename_i hr
        cases h
        exact phyloInner_dt (ih _ _ _ hl) (ih _ _ _ hr) rfl rfl hdt
      · split at h
        · cases h
        dsimp only at h
        split at h
        · cases h
        rename_i hdt
        split at h
        · cases h
        split at h
        · cases h
        rename_i hl
        split at h
        · cases h
        rename_i hr
        cases h
        exact phyloInner_dt (ih _ _ _ hl) (ih _ _ _ hr) rfl rfl hdt

/-- C16 (branch lengths).  Whenever `getAncestralTree` completes on a transmission tree
`r`, the root of the phylogeny has `dt = 0` and every other phylogeny node `c` with
phylogeny parent `p` has `c.dt = c.t - p.t`, the leaves made for sampled ancestors
included. -/
theorem branch_lengths_exact (fuel : Nat) (r r1 : LTree) (p : PhyloNode)
    (h : getAncestralTree fuel r none = .ok (r1, p)) :
    p.dt = 0 ∧ p.dtExact = true := by
  have hp := gat_dt fuel r none (r1, p) h
  exact ⟨hp.2.2 rfl, hp.1⟩

theorem branch_lengths_exact_witness :
    ∃ r1 p, getAncestralTree 20 sampleTree none = .ok (r1, p) ∧ p.dt = 0 ∧
      p.dtExact = true :=
  ⟨_, _, rfl, branch_lengths_exact 20 sampleTree _ _ rfl⟩

/-- C13 (sampling).  `sampleExtantLineage( lng, t, loc )` on an extant lineage whose node
is already sampled returns `false` and leaves the tree manager unchanged; otherwise it
returns `true`, sets `sampled`, `tSample = t` and `locSample = loc` on the node of the
lineage, inserts `lng` into `sampled_lineages` and changes nothing else; without the last
argument the location is `"@"`. -/
theorem sample_behaviour (s : LineageTree) (lng : Nat) (t : Int) (loc : String) (a : Nat)
    (n : LineageTreeNode) (hE : mapFind s.extantLngs lng = some a)
    (ha : s.mem.cells a = some n) :
    (n.sampled = true → sampleExtantLineage s lng t loc = .ok (s, false)) ∧
    (n.sampled = false →
      ∃ s', sampleExtantLineage s lng t loc = .ok (s', true) ∧
        s'.mem.cells a = some { n with sampled := true, tSample := t, locSample := loc } ∧
        (∀ b, b ≠ a → s'.mem.cells b = s.mem.cells b) ∧ s'.mem.next = s.mem.next ∧
        (∀ l, l ∈ s'.sampled_lineages ↔ l ∈ s.sampled_lineages ∨ l = lng) ∧
        s'.extantLngs = s.extantLngs ∧ s'.roots = s.roots ∧ s'.nnodes = s.nnodes) ∧
    sampleExtantLineageDefault s lng t = sampleExtantLineage s lng t "@" := by
  refine ⟨?_, ?_, rfl⟩
  · intro hs
    simp [sampleExtantLineage, LineageTree.extantNode, hE, Mem.get_of_cells ha, hs, bind,
      Except.bind, pure, Except.pure]
  · intro hs
    refine ⟨{ s with
        mem := s.mem.set a { n with sampled := true, tSample := t, locSample := loc },
        sampled_lineages := setInsert s.sampled_lineages lng }, ?_, ?_, ?_, rfl, ?_, rfl, rfl,
      rfl⟩
    · simp [sampleExtantLineage, LineageTree.extantNode, hE, Mem.get_of_cells ha, hs, bind,
        Except.bind, pure, Except.pure]
    · simp [Mem.set]
    · intro b hb
      simp [Mem.set, hb]
    · intro l
      exact mem_setInsert _ _ _

theorem sample_behaviour_witness :
    mapFind oneRoot.extantLngs 1 = some 0 ∧
    oneRoot.mem.cells 0 = some (mkNode 1 0 0 true none) ∧
    ((mkNode 1 0 0 true none).sampled = true →
      sampleExtantLineage oneRoot 1 7 "x" = .ok (oneRoot, false)) ∧
    ((mkNode 1 0 0 true none).sampled = false →
      ∃ s', sampleExtantLineage oneRoot 1 7 "x" = .ok (s', true) ∧
        s'.mem.cells 0 = some { mkNode 1 0 0 true none with
          sampled := true, tSample := 7, locSample := "x" } ∧
        (∀ b, b ≠ 0 → s'.mem.cells b = oneRoot.mem.cells b) ∧
        s'.mem.next = oneRoot.mem.next ∧
        (∀ l, l ∈ s'.sampled_lineages ↔ l ∈ oneRoot.sampled_lineages ∨ l = 1) ∧
        s'.extantLngs = oneRoot.extantLngs ∧ s'.roots = oneRoot.roots ∧
        s'.nnodes = oneRoot.nnodes) ∧
    sampleExtantLineageDefault oneRoot 1 7 = sampleExtantLineage oneRoot 1 7 "@" :=
  ⟨rfl, rfl, sample_behaviour oneRoot 1 7 "x" 0 (mkNode 1 0 0 true none) rfl rfl⟩

/-- C14, as the code behaves: `addExtantLineageExternal( t, lng, data )` called with a
lineage that is already a key of `extantLngs` does not fail: from the state that holds the
extant root `1` at address 0 the call with `lng = 1` again returns a state with a second
root at address 1, two nodes, and `extantLngs[1]` redirected to the new node. -/
theorem addExternal_existing_key :
    mapFind oneRoot.extantLngs 1 = some 0 ∧
    applyOp oneRoot (.addExternal 5 1 0) = .ok (addExtantLineageExternal oneRoot 5 1 0) ∧
    mapFind (addExtantLineageExternal oneRoot 5 1 0).extantLngs 1 = some 1 ∧
    (addExtantLineageExternal oneRoot 5 1 0).roots = [0, 1] ∧
    (addExtantLineageExternal oneRoot 5 1 0).nnodes = 2 ∧
    (addExtantLineageExternal oneRoot 5 1 0).mem.cells 0 = some (mkNode 1 0 0 true none) ∧
    (addExtantLineageExternal oneRoot 5 1 0).mem.cells 1 = some (mkNode 1 0 5 true none) := by
  refine ⟨rfl, rfl, rfl, rfl, rfl, rfl, rfl⟩

/-- C14, amended.  `addExtantLineageExternal( t, lng, data )` never fails and does not look
at `extantLngs` first: it always stores a new extant node without parent at the next
address, inserts it into `roots`, sets `extantLngs[lng]` to it (replacing an entry that was
there), leaves the other keys and all other nodes as they were and increments `nnodes`. -/
theorem addExternal_behaviour (s : LineageTree) (t : Int) (lng : Nat) (data : Int) :
    applyOp s (.addExternal t lng data) = .ok (addExtantLineageExternal s t lng data) ∧
    (addExtantLineageExternal s t lng data).mem.cells s.mem.next =
      some (mkNode lng data t true none) ∧
    (∀ b, b ≠ s.mem.next →
      (addExtantLineageExternal s t lng data).mem.cells b = s.mem.cells b) ∧
    (addExtantLineageExternal s t lng data).mem.next = s.mem.next + 1 ∧
    (∀ a, a ∈ (addExtantLineageExternal s t lng data).roots ↔ a ∈ s.roots ∨ a = s.mem.next) ∧
    mapFind (addExtantLineageExternal s t lng data).extantLngs lng = some s.mem.next ∧
    (∀ l, l ≠ lng →
      mapFind (addExtantLineageExternal s t lng data).extantLngs l = mapFind s.extantLngs l) ∧
    (addExtantLineageExternal s t lng data).nnodes = uintInc s.nnodes ∧
    (addExtantLineageExternal s t lng data).sampled_lineages = s.sampled_lineages := by
  refine ⟨rfl, ?_, ?_, rfl, ?_, ?_, ?_, rfl, rfl⟩
  · simp [addExtantLineageExternal, Mem.alloc]
  · intro b hb
    simp [addExtantLineageExternal, Mem.alloc, hb]
  · intro a
    exact mem_setInsert _ _ _
  · simp [addExtantLineageExternal, Mem.alloc, mapFind_mapSet]
  · intro l hl
    simp [addExtantLineageExternal, Mem.alloc, mapFind_mapSet, hl]

/-- C15 (removal of a sampled lineage).  `removeExtantLineage( lng )` on a lineage whose
node is sampled keeps the node with the same parent and children, changes or frees no
other node and leaves `nnodes`, `roots` and `sampled_lineages` as they were; only the flag
`extant` of the node becomes false and `lng` is erased from `extantLngs`. -/
theorem remove_sampled_frame (s : LineageTree) (lng : Nat) (ig : Bool) (a : Nat)
    (n : LineageTreeNode) (hE : mapFind s.extantLngs lng = some a)
    (ha : s.mem.cells a = some n) (hs : n.sampled = true) :
    ∃ s', removeExtantLineage s lng ig = .ok s' ∧
      s'.mem.cells a = some { n with extant := false } ∧
      (∀ b, b ≠ a → s'.mem.cells b = s.mem.cells b) ∧ s'.mem.next = s.mem.next ∧
      s'.nnodes = s.nnodes ∧ s'.roots = s.roots ∧
      s'.sampled_lineages = s.sampled_lineages ∧
      s'.extantLngs = mapErase s.extantLngs lng := by
  refine ⟨{ s with mem := s.mem.set a { n with extant := false },
                   extantLngs := mapErase s.extantLngs lng }, ?_, ?_, ?_, rfl, rfl, rfl, rfl,
    rfl⟩
  · simp [removeExtantLineage, LineageTree.extantNode, hE, Mem.get_of_cells ha, hs, bind,
      Except.bind, pure, Except.pure]
  · simp [Mem.set]
  · intro b hb
    simp [Mem.set, hb]

theorem remove_sampled_frame_witness :
    ∃ s0, sampleExtantLineage oneRoot 1 7 "@" = .ok (s0, true) ∧
      mapFind s0.extantLngs 1 = some 0 ∧
      ∃ s', removeExtantLineage s0 1 false = .ok s' ∧
        s'.mem.cells 0 = some { mkNode 1 0 0 true none with
          sampled := true, tSample := 7, locSample := "@", extant := false } ∧
        (∀ b, b ≠ 0 → s'.mem.cells b = s0.mem.cells b) ∧ s'.mem.next = s0.mem.next ∧
        s'.nnodes = s0.nnodes ∧ s'.roots = s0.roots ∧
        s'.sampled_lineages = s0.sampled_lineages ∧
        s'.extantLngs = mapErase s0.extantLngs 1 :=
  ⟨_, rfl, rfl, remove_sampled_frame _ 1 false 0
    { mkNode 1 0 0 true none with sampled := true, tSample := 7, locSample := "@" }
    rfl rfl rfl⟩

theorem newick_acc (dtStr : Int → String) :
    ∀ (p : PhyloNode) (nhx : String), p.strictlyBinary = true →
      PhyloNode2Newick dtStr nhx p = .ok (nhx ++ renderNewick dtStr p)
  | .mk lng _ _ _ dt _ _ _ none none, nhx, _ => by
    simp [PhyloNode2Newick, renderNewick, lng2string]
  | .mk lng _ _ _ dt depth _ _ (some l) (some r), nhx, h => by
    simp only [PhyloNode.strictlyBinary, Bool.and_eq_true] at h
    have h1 := newick_acc dtStr l (nhx ++ "(") h.1
    have h2 := newick_acc dtStr r (nhx ++ "(" ++ renderNewick dtStr l ++ ",") h.2
    rw [PhyloNode2Newick, h1]
    simp only []
    rw [h2]
    simp only [renderNewick, lng2string, String.append_assoc]
  | .mk _ _ _ _ _ _ _ _ (some l) none, _, h => by
    simp [PhyloNode.strictlyBinary] at h
  | .mk _ _ _ _ _ _ _ _ none (some r), _, h => by
    simp [PhyloNode.strictlyBinary] at h

/-- C17 (Newick format).  For every strictly binary phylogeny `getSimpleNewick( root )`
returns the rendering of the root followed by `;`, where a node without left child renders
as `lng:dt` and every other node as `(left,right)lng-depth:dt`. -/
theorem newick_format (dtStr : Int → String) (root : PhyloNode)
    (h : root.strictlyBinary = true) :
    getSimpleNewick dtStr root = .ok (renderNewick dtStr root ++ ";") := by
  simp [getSimpleNewick, newick_acc dtStr root "" h]

theorem newick_format_witness :
    (PhyloNode.mk 1 0 "NA" 2 0 0 0 0
        (some (.mk 3 0 "@" 5 3 0 0 0 none none))
        (some (.mk 4 0 "@" 6 4 0 0 0 none none))).strictlyBinary = true ∧
    getSimpleNewick (fun d => toString d) (PhyloNode.mk 1 0 "NA" 2 0 0 0 0
        (some (.mk 3 0 "@" 5 3 0 0 0 none none))
        (some (.mk 4 0 "@" 6 4 0 0 0 none none))) =
      .ok (renderNewick (fun d => toString d) (PhyloNode.mk 1 0 "NA" 2 0 0 0 0
        (some (.mk 3 0 "@" 5 3 0 0 0 none none))
        (some (.mk 4 0 "@" 6 4 0 0 0 none none))) ++ ";") :=
  ⟨by decide, newick_format _ _ (by decide)⟩

theorem newick_example :
    getSimpleNewick (fun d => toString d) (PhyloNode.mk 1 0 "NA" 2 0 0 0 0
        (some (.mk 3 0 "@" 5 3 0 0 0 none none))
        (some (.mk 4 0 "@" 6 4 0 0 0 none none))) = .ok "(3:3,4:4)1-0:0;" := by
  decide

theorem Frac.toInt_range {x : Frac} {n : Nat} (h0 : 0 ≤ x.num)
    (h1 : x.num < (n : Int) * (x.den : Int)) : 0 ≤ x.toInt ∧ x.toInt < (n : Int) := by
  obtain ⟨a, ha⟩ := Int.eq_ofNat_of_zero_le h0
  have h2 : a < x.den * n := by
    rw [ha] at h1
    have h3 : (a : Int) < ((n * x.den : Nat) : Int) := by push_cast; exact h1
    have h4 := Int.ofNat_lt.mp h3
    rw [Nat.mul_comm] at h4
    exact h4
  unfold Frac.toInt
  rw [if_pos h0, ha]
  simp only [Int.toNat_ofNat]
  exact ⟨Int.ofNat_nonneg _, by exact_mod_cast Nat.div_lt_of_lt_mul h2⟩

theorem getUniInt_range {g : RandomStream} (hg : g.unitRange) (pos : Nat) {n : Int}
    (hn : 0 ≤ n) : 0 ≤ (getUniInt g pos n).1 ∧ (getUniInt g pos n).1 ≤ n := by
  unfold getUniInt
  by_cases h : n = 0
  · simp [h]
  · rw [if_neg h]
    obtain ⟨N, hN⟩ := Int.eq_ofNat_of_zero_le (show 0 ≤ n + 1 by omega)
    obtain ⟨u0, u1⟩ := hg pos
    have h0 : 0 ≤ ((getUni g pos).1.mul (Frac.ofInt (n + 1))).num := by
      show 0 ≤ (g.uni pos).num * (n + 1)
      exact mul_nonneg u0 (by omega)
    have h1 : ((getUni g pos).1.mul (Frac.ofInt (n + 1))).num <
        (N : Int) * (((getUni g pos).1.mul (Frac.ofInt (n + 1))).den : Int) := by
      show (g.uni pos).num * (n + 1) < (N : Int) * (((g.uni pos).den * 1 : Nat) : Int)
      rw [← hN]
      push_cast
      nlinarith
    have h2 := Frac.toInt_range h0 h1
    simp only at h2 ⊢
    omega

theorem getBool_zero (g : RandomStream) (pos : Nat) {prob : Frac} (h : prob.isZero = true) :
    getBool g pos prob = (false, pos) := by
  simp [getBool, h]

theorem getBool_one {g : RandomStream} (hg : g.unitRange) (pos : Nat) {prob : Frac}
    (h1 : prob.num = (prob.den : Int)) (h2 : 0 < prob.den) :
    (getBool g pos prob).1 = true := by
  obtain ⟨u0, u1⟩ := hg pos
  have hz : prob.isZero = false := by
    simp only [Frac.isZero, decide_eq_false_iff_not]
    omega
  simp only [getBool, hz, Bool.false_eq_true, if_false, getUni, Frac.le, decide_eq_true_eq, h1]
  have h3 : (0 : Int) < prob.den := by exact_mod_cast h2
  nlinarith

theorem vecAt_ok {v : List Nat} {ix : Int} (h0 : 0 ≤ ix) (h1 : ix < (v.length : Int)) :
    ∃ x, vecAt v ix = .ok x ∧ v[ix.toNat]? = some x ∧ x ∈ v := by
  have h2 : ix.toNat < v.length := by omega
  refine ⟨v[ix.toNat], ?_, List.getElem?_eq_getElem h2, List.getElem_mem h2⟩
  simp [vecAt, not_lt.2 h0, List.getElem?_eq_getElem h2]

theorem mem_of_getElem_some {l : List Nat} {i x : Nat} (h : l[i]? = some x) : x ∈ l := by
  obtain ⟨hi, e⟩ := List.getElem?_eq_some.1 h
  rw [← e]
  exact List.getElem_mem hi

theorem set_perm_erase : ∀ (l : List Nat) (i x b : Nat), l.Nodup → l[i]? = some x →
    (l.set i b).Perm (b :: l.erase x)
  | [], i, x, b, _, h => by simp at h
  | a :: l, 0, x, b, _, h => by
    simp only [List.getElem?_cons_zero, Option.some.injEq] at h
    subst h
    simp
  | a :: l, i + 1, x, b, hn, h => by
    simp only [List.getElem?_cons_succ] at h
    have hx : x ∈ l := mem_of_getElem_some h
    have hne : a ≠ x := by
      rintro rfl
      exact (List.nodup_cons.1 hn).1 hx
    have ih := set_perm_erase l i x b (List.nodup_cons.1 hn).2 h
    rw [List.set_cons_succ, List.erase_cons_tail (by simpa using hne)]
    exact (List.Perm.cons a ih).trans (List.Perm.swap b a _)

theorem rmv_element_spec {v : List Nat} {ix : Int} {x : Nat} (hn : v.Nodup) (h0 : 0 ≤ ix)
    (hx : v[ix.toNat]? = some x) :
    ∃ w, rmv_element v ix = .ok w ∧ w.Perm (v.erase x) := by
  have hv : vecAt v ix = .ok x := by simp [vecAt, not_lt.2 h0, hx]
  rcases List.eq_nil_or_concat v with h | ⟨init, b, h⟩
  · subst h; simp at hx
  · rw [List.concat_eq_append] at h
    subst h
    have hlast : (init ++ [b]).getLast? = some b := List.getLast?_concat init
    have hb : b ∉ init := by
      intro hb
      have := List.nodup_append.1 hn
      exact this.2.2 hb (List.mem_singleton_self b)
    unfold rmv_element
    rw [hv, hlast]
    refine ⟨_, rfl, ?_⟩
    obtain ⟨hi, hxi⟩ := List.getElem?_eq_some.1 hx
    by_cases hlt : ix.toNat < init.length
    · rw [List.set_append_left _ _ hlt, List.dropLast_concat]
      have hxi2 : init[ix.toNat]? = some x := by
        rw [← hx, List.getElem?_append_left hlt]
      have hxm : x ∈ init := mem_of_getElem_some hxi2
      rw [List.erase_append_left _ hxm]
      exact (set_perm_erase init _ x b (List.nodup_append.1 hn).1 hxi2).trans
        (List.perm_append_singleton b _).symm
    · have hge : init.length ≤ ix.toNat := Nat.le_of_not_lt hlt
      have hxb : x = b := by
        rw [List.getElem?_append_right hge] at hx
        have h3 : ix.toNat - init.length = 0 := by
          simp only [List.length_append, List.length_singleton] at hi
          omega
        rw [h3] at hx
        simpa using hx.symm
      subst hxb
      have h3 : ix.toNat - init.length = 0 := by
        simp only [List.length_append, List.length_singleton] at hi
        omega
      rw [List.set_append_right _ _ hge, h3, List.erase_append_right _ hb]
      simp

theorem remove_frame {s : LineageTree} (h : Inv s) {lng x : Nat}
    (hE : mapFind s.extantLngs lng = some x) (ig : Bool) :
    ∃ s', removeExtantLineage s lng ig = .ok s' ∧ Inv s' ∧
      s'.extantLngs = mapErase s.extantLngs lng ∧
      s'.sampled_lineages = s.sampled_lineages ∧
      ((∀ a ∈ s.roots, ∀ b ∈ s.roots, a = b) → ∀ a ∈ s'.roots, ∀ b ∈ s'.roots, a = b) ∧
      ∀ b nb', s'.mem.cells b = some nb' → ∃ nb, s.mem.cells b = some nb ∧
        nb'.lng = nb.lng ∧ nb'.sampled = nb.sampled ∧ nb'.t = nb.t ∧
        nb'.tSample = nb.tSample ∧
        (nb'.extant = true → nb.extant = true ∧ b ≠ x) := by
  obtain ⟨nx, hx, hl, hext⟩ := (h.einv lng x).1 hE
  obtain ⟨s2, hrun, st⟩ := remove_outcome h.struct h.prune hE hx ig
  obtain ⟨s', hrun', hinv⟩ := remove_inv h hE ig
  have hs1 := h.struct.markExtinct hx
  have hx1 : ({ s with mem := s.mem.set x { nx with extant := false } } :
      LineageTree).mem.cells x = some { nx with extant := false } := by simp
  have fr := st.frame_remove hs1 hx1 rfl
  rw [hrun] at hrun'
  simp only [Except.ok.injEq] at hrun'
  subst hrun'
  refine ⟨_, hrun, hinv, ?_, ?_, ?_, ?_⟩
  · show mapErase s2.extantLngs lng = _
    rw [fr.extantLngs]
  · show s2.sampled_lineages = _
    rw [fr.sampled_lineages]
  · intro hu
    have hu1 : ∀ a ∈ ({ s with mem := s.mem.set x { nx with extant := false } } :
        LineageTree).roots, ∀ b ∈ ({ s with mem := s.mem.set x { nx with extant := false } } :
        LineageTree).roots, a = b := hu
    have key : ∀ (R : List Nat) (p c : Nat), p ∈ R → (∀ a ∈ R, ∀ b ∈ R, a = b) →
        ∀ a ∈ setInsert (setErase R p) c, ∀ b ∈ setInsert (setErase R p) c, a = b := by
      intro R p c hp hR a ha b hb
      rw [mem_setInsert, mem_setErase] at ha hb
      rcases ha with ⟨ha, hne⟩ | ha
      · exact absurd (hR a ha p hp) hne
      · rcases hb with ⟨hb, hne⟩ | hb
        · exact absurd (hR b hb p hp) hne
        · rw [ha, hb]
    show ∀ a ∈ s2.roots, ∀ b ∈ s2.roots, a = b
    cases st with
    | keep h => exact hu1
    | spliceSelf hsam r => rw [r.roots]; exact hu1
    | promoteSelf hsam r =>
      rw [r.roots]
      exact key _ _ _ ((hs1.rootSet x).2 ⟨by simp, _, r.hmid, r.hpar⟩) hu1
    | leafRoot hsam hleaf hpar =>
      intro a ha b hb
      exact hu1 a ((mem_setErase _ _ _).1 ha).1 b ((mem_setErase _ _ _).1 hb).1
    | leafKeep hsam r h =>
      show ∀ a ∈ _, ∀ b ∈ _, a = b
      intro a ha b hb
      have ha' : a ∈ _ := r.roots ▸ ha
      have hb' : b ∈ _ := r.roots ▸ hb
      exact hu1 a ha' b hb'
    | leafSplice hsam r hpe hps r2 =>
      intro a ha b hb
      have ha' : a ∈ _ := r.roots ▸ r2.roots ▸ ha
      have hb' : b ∈ _ := r.roots ▸ r2.roots ▸ hb
      exact hu1 a ha' b hb'
    | leafPromote hsam r hpe hps r2 =>
      intro a ha b hb
      have hp : _ ∈ _ := (hs1.rootSet _).2 ⟨by simp, _, r.hp, r2.hpar⟩
      have ha' : a ∈ setInsert (setErase _ _) _ := r.roots ▸ r2.roots ▸ ha
      have hb' : b ∈ setInsert (setErase _ _) _ := r.roots ▸ r2.roots ▸ hb
      exact key _ _ _ hp hu1 a ha' b hb'
  · intro b nb' hb
    obtain ⟨nb1, h1, d1, d2, d3, _, _, d6, d7, _⟩ := fr.fwd b nb' hb
    by_cases hbx : b = x
    · subst hbx
      rw [hx1] at h1
      cases h1
      exact ⟨nx, hx, d1, d7, d2, d3, fun he => by rw [d6] at he; cases he⟩
    · have h2 : s.mem.cells b = some nb1 := by simpa [hbx] using h1
      exact ⟨nb1, h2, d1, d7, d2, d3, fun he => ⟨by rw [← d6]; exact he, hbx⟩⟩
theorem infection_spec {g : RandomStream} (hg : g.unitRange) {s : Simulator} (h : SimInv s)
    (hI : 1 ≤ s.I) (pos : Nat) :
    ∃ s2 p3, apply_infection g s pos = .ok (s2, p3) ∧ SimInv s2 ∧ SameParams s s2 ∧
      s2.n_sampled = s.n_sampled ∧ s2.next_lng = s.next_lng + 1 ∧ s2.I = s.I + 1 := by
  obtain ⟨r0, r1⟩ := getUniInt_range hg pos (show 0 ≤ s.I - 1 by omega)
  obtain ⟨lp, hv, _, hmem⟩ := vecAt_ok r0 (by rw [← h.card]; omega)
  obtain ⟨pa, hpa⟩ := (h.keys lp).1 hmem
  obtain ⟨np, hnp, hlp, hext⟩ := (h.inv.einv lp pa).1 hpa
  obtain ⟨tr, hrun, r⟩ := addExtant_rel hpa hnp s.t s.next_lng 0
  have hf : ∀ a n, s.tree_mngr.mem.cells a = some n → n.lng ≠ s.next_lng :=
    fun a n ha => (h.fresh a n ha).ne
  have hinv := r.inv_add h.inv hf
  refine ⟨{ s with tree_mngr := tr, I_lngs := s.I_lngs ++ [s.next_lng],
                   next_lng := s.next_lng + 1, I := s.I + 1 },
    (getUniInt g pos (s.I - 1)).2, by simp only [apply_infection, hv, hrun], ?_,
    ⟨rfl, rfl, rfl, rfl, rfl, rfl, rfl⟩, rfl, rfl, rfl⟩
  have hnew : s.next_lng ∉ s.I_lngs := by
    intro hm
    obtain ⟨a, ha⟩ := (h.keys _).1 hm
    obtain ⟨n, hn, hl, _⟩ := (h.inv.einv _ a).1 ha
    exact hf a n hn hl
  have hcells : ∀ b nb', tr.mem.cells b = some nb' →
      (nb'.lng = s.next_lng ∧ nb'.sampled = false) ∨
      ∃ nb, s.tree_mngr.mem.cells b = some nb ∧ nb'.lng = nb.lng ∧
        nb'.sampled = nb.sampled ∧ nb'.extant = nb.extant := by
    intro b nb' hb
    rw [r.cells b] at hb
    split_ifs at hb with h1 h2
    · cases hb; subst h1; exact Or.inr ⟨np, hnp, rfl, rfl, rfl⟩
    · cases hb; exact Or.inl ⟨rfl, rfl⟩
    · exact Or.inr ⟨nb', hb, rfl, rfl, rfl⟩
  refine ⟨hinv, ?_, ?_, ?_, ?_, ?_, ?_, ?_⟩
  · show s.I + 1 = ((s.I_lngs ++ [s.next_lng]).length : Int)
    simp [h.card]
  · show (s.I_lngs ++ [s.next_lng]).Nodup
    refine List.nodup_append.2 ⟨h.nodup, List.nodup_singleton _, ?_⟩
    intro a ha hb
    rw [List.mem_singleton] at hb
    subst hb
    exact hnew ha
  · intro l
    show l ∈ s.I_lngs ++ [s.next_lng] ↔ ∃ a, mapFind tr.extantLngs l = some a
    rw [r.extantLngs, mapFind_mapSet, List.mem_append, List.mem_singleton]
    by_cases hl : l = s.next_lng
    · simp [hl]
    · simp only [hl, or_false, if_false]
      exact h.keys l
  · intro a n ha
    show n.lng < s.next_lng + 1
    rcases hcells a n ha with ⟨e, _⟩ | ⟨nb, hb, e, _⟩
    · omega
    · have := h.fresh a nb hb
      omega
  · intro a n ha he
    rcases hcells a n ha with ⟨_, e⟩ | ⟨nb, hb, _, e2, e3⟩
    · exact e
    · rw [e2]
      exact h.extUns a nb hb (by rw [← e3]; exact he)
  · show tr.sampled_lineages.length = s.n_sampled
    rw [r.sampled_lineages]
    exact h.nsamp
  · show ∀ a ∈ tr.roots, ∀ b ∈ tr.roots, a = b
    rw [r.roots]
    exact h.rootU

theorem removal_spec {g : RandomStream} (hg : g.unitRange) {s : Simulator} (h : SimInv s)
    (hI : 1 ≤ s.I) (pos : Nat) (prob : Frac) :
    ∃ s2 p3 lng, apply_removal g s pos prob = .ok (s2, p3) ∧ SimInv s2 ∧ SameParams s s2 ∧
      s2.next_lng = s.next_lng ∧ s2.I = s.I - 1 ∧
      vecAt s.I_lngs (getUniInt g pos (s.I - 1)).1 = .ok lng ∧
      s2.n_sampled = s.n_sampled +
        (if (getBool g (getUniInt g pos (s.I - 1)).2 prob).1 = true then 1 else 0) ∧
      ((getBool g (getUniInt g pos (s.I - 1)).2 prob).1 = true →
        ∃ tr, sampleExtantLineage s.tree_mngr lng s.t "@" = .ok (tr, true)) := by
  obtain ⟨r0, r1⟩ := getUniInt_range hg pos (show 0 ≤ s.I - 1 by omega)
  obtain ⟨lng, hv, hget, hmem⟩ := vecAt_ok r0 (by rw [← h.card]; omega)
  obtain ⟨x, hE⟩ := (h.keys lng).1 hmem
  obtain ⟨nx, hx, hl, hext⟩ := (h.inv.einv lng x).1 hE
  have hns : nx.sampled = false := h.extUns x nx hx hext
  have hstep : ∃ s1, sampleIf g s (getUniInt g pos (s.I - 1)).2 prob lng = .ok s1 ∧
      Inv s1.tree_mngr ∧ s1.tree_mngr.extantLngs = s.tree_mngr.extantLngs ∧
      s1.tree_mngr.roots = s.tree_mngr.roots ∧
      (∀ b nb', s1.tree_mngr.mem.cells b = some nb' →
        ∃ nb, s.tree_mngr.mem.cells b = some nb ∧ nb'.lng = nb.lng ∧
          nb'.extant = nb.extant ∧ (b ≠ x → nb'.sampled = nb.sampled)) ∧
      s1.tree_mngr.sampled_lineages.length = s1.n_sampled ∧
      s1.n_sampled = s.n_sampled +
        (if (getBool g (getUniInt g pos (s.I - 1)).2 prob).1 = true then 1 else 0) ∧
      s1.I_lngs = s.I_lngs ∧ s1.I = s.I ∧ s1.next_lng = s.next_lng ∧ SameParams s s1 ∧
      ((getBool g (getUniInt g pos (s.I - 1)).2 prob).1 = true →
        ∃ tr, sampleExtantLineage s.tree_mngr lng s.t "@" = .ok (tr, true)) := by
    by_cases hb : (getBool g (getUniInt g pos (s.I - 1)).2 prob).1 = true
    · rcases sample_rel hE hx hl s.t "@" with ⟨hc, _⟩ | ⟨tr, hrun, r⟩
      · rw [hns] at hc; cases hc
      · refine ⟨{ s with tree_mngr := tr, n_sampled := s.n_sampled + 1 },
          by simp only [sampleIf, hb, if_true, hrun], r.inv_sample h.inv, r.extantLngs,
          r.roots, ?_, ?_, by simp [hb], rfl, rfl, rfl, ⟨rfl, rfl, rfl, rfl, rfl, rfl, rfl⟩,
          fun _ => ⟨tr, hrun⟩⟩
        · intro b nb' hb'
          have hb2 : tr.mem.cells b = some nb' := hb'
          rw [r.cells b] at hb2
          split_ifs at hb2 with h1
          · cases hb2; subst h1; exact ⟨nx, hx, rfl, rfl, fun hne => absurd rfl hne⟩
          · exact ⟨nb', hb2, rfl, rfl, fun _ => rfl⟩
        · show tr.sampled_lineages.length = s.n_sampled + 1
          rw [r.sampled_lineages, ← h.nsamp]
          have hnot : lng ∉ s.tree_mngr.sampled_lineages := by
            intro hm
            obtain ⟨a, n, ha, hla, hsa⟩ := (h.inv.sinv lng).1 hm
            have hax := h.inv.struct.lngInj a x n nx (by simp) (by simp) ha hx
              (hla.trans hl.symm)
            subst hax
            rw [hx] at ha; cases ha
            rw [hns] at hsa; cases hsa
          simp [setInsert, hnot]
    · refine ⟨s, by simp only [sampleIf, hb]; rfl, h.inv, rfl, rfl,
        fun b nb' hb' => ⟨nb', hb', rfl, rfl, fun _ => rfl⟩, h.nsamp, by simp [hb], rfl, rfl,
        rfl, ⟨rfl, rfl, rfl, rfl, rfl, rfl, rfl⟩, fun hc => absurd hc hb⟩
  obtain ⟨s1, hs1, hinv1, hE1, hR1, hc1, hn1, hcount, hL1, hI1, hnl1, hpar1, hsam1⟩ := hstep
  obtain ⟨tr2, hrun2, hinv2, hE2, hS2, hR2, hc2⟩ := remove_frame hinv1
    (show mapFind s1.tree_mngr.extantLngs lng = some x by rw [hE1]; exact hE) false
  obtain ⟨w, hw, hperm⟩ := rmv_element_spec h.nodup r0 hget
  refine ⟨{ s1 with tree_mngr := tr2, I_lngs := w, I := s1.I - 1 },
    (getBool g (getUniInt g pos (s.I - 1)).2 prob).2, lng, ?_, ?_, hpar1, hnl1,
    by show s1.I - 1 = s.I - 1; rw [hI1], hv, hcount, hsam1⟩
  · simp only [apply_removal, hv, hs1, hrun2, hL1, hw]
  · refine ⟨hinv2, ?_, ?_, ?_, ?_, ?_, ?_, ?_⟩
    · show s1.I - 1 = (w.length : Int)
      rw [hperm.length_eq, List.length_erase_of_mem hmem, hI1, h.card]
      have : 1 ≤ s.I_lngs.length := List.length_pos_of_mem hmem
      omega
    · exact hperm.nodup_iff.2 (h.nodup.erase lng)
    · intro l
      show l ∈ w ↔ ∃ a, mapFind tr2.extantLngs l = some a
      rw [hperm.mem_iff, h.nodup.mem_erase_iff, hE2, mapFind_mapErase, hE1]
      by_cases hl2 : l = lng
      · simp [hl2]
      · simp only [hl2, ne_eq, not_false_eq_true, true_and, if_false]
        exact h.keys l
    · intro a n ha
      show n.lng < s1.next_lng
      obtain ⟨n1, h1, e1, _⟩ := hc2 a n ha
      obtain ⟨n0, h0, e0, _⟩ := hc1 a n1 h1
      rw [hnl1, e1, e0]
      exact h.fresh a n0 h0
    · intro a n ha he
      obtain ⟨n1, h1, e1, e2, _, _, e5⟩ := hc2 a n ha
      obtain ⟨he1, hax⟩ := e5 he
      obtain ⟨n0, h0, f0, f1, f2⟩ := hc1 a n1 h1
      rw [e2, f2 hax]
      exact h.extUns a n0 h0 (by rw [← f1]; exact he1)
    · show tr2.sampled_lineages.length = s1.n_sampled
      rw [hS2]
      exact hn1
    · show ∀ a ∈ tr2.roots, ∀ b ∈ tr2.roots, a = b
      exact hR2 (by rw [hR1]; exact h.rootU)

theorem drawEvent_spec {g : RandomStream} {s s1 : Simulator} {pos p2 : Nat} {inf : Bool}
    (h : drawEvent g s pos = some (s1, p2, inf)) :
    (totRate s).isZero = false ∧ ∃ t1, s1 = { s with t := t1 } := by
  unfold drawEvent at h
  split_ifs at h with hz
  simp only [Option.some.injEq, Prod.mk.injEq] at h
  exact ⟨by simpa using hz, _, h.1.symm⟩

theorem vecAt_nil (ix : Int) : vecAt [] ix = .error .outOfBounds := by
  unfold vecAt
  split_ifs
  · rfl
  · simp

theorem Dbl.round_fin {q a : Frac} (h : Dbl.round q = .fin a) : a = q ∧ q.den ≠ 0 := by
  unfold Dbl.round at h
  split_ifs at h with h1 h2 h3
  simp only [Dbl.fin.injEq] at h
  exact ⟨h.symm, h1⟩

theorem Dbl.round_zero {d : Nat} (hd : d ≠ 0) : Dbl.round ⟨0, d⟩ = .fin ⟨0, d⟩ := by
  have h0 : (0 : Int) < (d : Int) := by
    have := Nat.pos_of_ne_zero hd
    exact_mod_cast this
  have hh : (0 : Int) < (Dbl.huge : Int) := by decide
  have hp : (0 : Int) < (Dbl.huge : Int) * (d : Int) := mul_pos hh h0
  unfold Dbl.round
  rw [if_neg (by simpa using hd), if_neg (by simp only; omega), if_neg (by simp only; omega)]

theorem Dbl.huge_eq : Dbl.huge = 2 ^ 1024 - 2 ^ 970 := by
  norm_num [Dbl.huge]

theorem Dbl.add_fin {x y : Dbl} {a : Frac} (h : x.add y = .fin a) : a.den ≠ 0 := by
  cases x with
  | fin b =>
    cases y with
    | fin c =>
      obtain ⟨e, hd⟩ := Dbl.round_fin h
      rw [e]
      exact hd
    | inf r => cases h
    | nan => cases h
  | inf r =>
    cases y with
    | fin c => cases h
    | inf r2 =>
      simp only [Dbl.add] at h
      split_ifs at h
    | nan => cases h
  | nan => cases y <;> cases h

/-- The loop of `simulate` halts at `I = 0` when `beta + mu` is finite. -/
theorem totRate_zero {s : Simulator} {a : Frac} (hfin : s.beta.add s.mu = .fin a)
    (hI : s.I = 0) : (totRate s).isZero = true := by
  have hd := Dbl.add_fin hfin
  unfold totRate
  rw [hfin, hI]
  show (Dbl.round ⟨a.num * 0, a.den * 1⟩).isZero = true
  rw [mul_zero, Dbl.round_zero (by simpa using hd)]
  rfl

/-- The total rate is zero only at `I = 0` when `beta + mu` is finite and not zero. -/
theorem totRate_isZero {s : Simulator} {a : Frac} (hfin : s.beta.add s.mu = .fin a)
    (ha : a.num ≠ 0) (hz : (totRate s).isZero = true) : s.I = 0 := by
  unfold totRate at hz
  rw [hfin] at hz
  cases hr : Dbl.round (a.mul (Frac.ofInt s.I)) with
  | fin q =>
    have hz' : (Dbl.round (a.mul (Frac.ofInt s.I))).isZero = true := hz
    rw [hr] at hz'
    obtain ⟨e, _⟩ := Dbl.round_fin hr
    subst e
    simp only [Dbl.isZero, Frac.isZero, Frac.mul, Frac.ofInt, decide_eq_true_eq] at hz'
    rcases mul_eq_zero.1 hz' with h1 | h1
    · exact absurd h1 ha
    · exact h1
  | inf b =>
    have hz' : (Dbl.round (a.mul (Frac.ofInt s.I))).isZero = true := hz
    rw [hr] at hz'
    cases hz'
  | nan =>
    have hz' : (Dbl.round (a.mul (Frac.ofInt s.I))).isZero = true := hz
    rw [hr] at hz'
    cases hz'

theorem drawEvent_finite {g : RandomStream} {s : Simulator} {pos : Nat}
    {ev : Simulator × Nat × Bool} {a : Frac} (hfin : s.beta.add s.mu = .fin a)
    (hd : drawEvent g s pos = some ev) : s.I ≠ 0 := by
  intro hI
  unfold drawEvent at hd
  rw [if_pos (totRate_zero hfin hI)] at hd
  cases hd

theorem drawEvent_none {g : RandomStream} {s : Simulator} {pos : Nat} {a : Frac}
    (hfin : s.beta.add s.mu = .fin a) (ha : a.num ≠ 0) (hd : drawEvent g s pos = none) :
    s.I = 0 := by
  unfold drawEvent at hd
  split_ifs at hd with hz
  exact totRate_isZero hfin ha hz

/-- An event that completes was drawn with `I ≠ 0`: at `I = 0` the vector `I_lngs` is
empty and both `apply_infection` and `apply_removal` read it out of bounds. -/
theorem event_pos {g : RandomStream} {s : Simulator} (h : SimInv s) {pos p2 : Nat}
    {s1 : Simulator} {inf : Bool} (hd : drawEvent g s pos = some (s1, p2, inf))
    {r : Simulator × Nat} (he : applyEvent g s1 p2 inf = .ok r) : s.I ≠ 0 := by
  obtain ⟨_, t1, rfl⟩ := drawEvent_spec hd
  intro hI
  have hl : s.I_lngs = [] := by
    have hc := h.card
    rw [hI] at hc
    have : s.I_lngs.length = 0 := by exact_mod_cast hc.symm
    exact List.length_eq_zero.mp this
  cases inf with
  | true =>
    simp only [applyEvent, if_true, apply_infection, hl, vecAt_nil] at he
    cases he
  | false =>
    simp only [applyEvent, Bool.false_eq_true, if_false, apply_removal, hl, vecAt_nil] at he
    cases he

theorem SimInv.with_t {s : Simulator} (h : SimInv s) (t1 : Int) :
    SimInv { s with t := t1 } :=
  ⟨h.inv, h.card, h.nodup, h.keys, h.fresh, h.extUns, h.nsamp, h.rootU⟩

theorem event_spec {g : RandomStream} (hg : g.unitRange) {s : Simulator} (h : SimInv s)
    {pos p2 : Nat} {s1 : Simulator} {inf : Bool}
    (hd : drawEvent g s pos = some (s1, p2, inf)) (hI : s.I ≠ 0) :
    ∃ s2 p3, applyEvent g s1 p2 inf = .ok (s2, p3) ∧ SimInv s2 ∧ SameParams s s2 ∧
      (inf = true →
        s2.n_sampled = s.n_sampled ∧ s2.next_lng = s.next_lng + 1 ∧ s2.I = s.I + 1) ∧
      (inf = false → s2.next_lng = s.next_lng ∧ s2.I = s.I - 1 ∧
        ∃ lng, vecAt s1.I_lngs (getUniInt g p2 (s1.I - 1)).1 = .ok lng ∧
          s2.n_sampled = s.n_sampled +
            (if (getBool g (getUniInt g p2 (s1.I - 1)).2 s1.rho).1 = true then 1 else 0) ∧
          ((getBool g (getUniInt g p2 (s1.I - 1)).2 s1.rho).1 = true →
            ∃ tr, sampleExtantLineage s1.tree_mngr lng s1.t "@" = .ok (tr, true))) := by
  obtain ⟨_, t1, rfl⟩ := drawEvent_spec hd
  have h1 := h.with_t t1
  have hI1 : 1 ≤ s.I := by
    have := h.card
    omega
  cases inf with
  | true =>
    obtain ⟨s2, p3, hrun, hinv, hp, a1, a2, a3⟩ := infection_spec hg h1 hI1 p2
    exact ⟨s2, p3, (by simp only [applyEvent, if_true]; exact hrun), hinv, hp,
      fun _ => ⟨a1, a2, a3⟩, fun hc => by cases hc⟩
  | false =>
    obtain ⟨s2, p3, lng, hrun, hinv, hp, a1, a2, a3, a4, a5⟩ :=
      removal_spec hg h1 hI1 p2 s.rho
    exact ⟨s2, p3, (by simp only [applyEvent, Bool.false_eq_true, if_false]; exact hrun), hinv,
      hp, (fun hc => by cases hc), fun _ => ⟨a1, a2, lng, a3, a4, a5⟩⟩

theorem initial_inv (mc ms : Int) (R0 dI rho : Frac) :
    SimInv (initialSimulator mc ms R0 dI rho) := by
  have r := addExternal_rel LineageTree.empty 0 1 0
  have hcells : ∀ b nb, (addExtantLineageExternal LineageTree.empty 0 1 0).mem.cells b =
      some nb → nb = mkNode 1 0 0 true none := by
    intro b nb hb
    rw [r.cells b] at hb
    split_ifs at hb
    · cases hb; rfl
    · cases hb
  refine ⟨r.inv_addRoot Inv.empty_inv (fun a n ha => by cases ha), rfl,
    (show [1].Nodup by decide), ?_, ?_, ?_,
    rfl, ?_⟩
  · intro l
    show l ∈ [1] ↔ ∃ a, mapFind [(1, 0)] l = some a
    by_cases hl : l = 1
    · subst hl; simp [mapFind]
    · have : ¬ (1 = l) := fun e => hl e.symm
      simp [mapFind, hl, this]
  · intro a n ha
    rw [hcells a n ha]
    show 1 < 2
    omega
  · intro a n ha _
    rw [hcells a n ha]
    rfl
  · intro a ha b hb
    have ha' : a ∈ [0] := ha
    have hb' : b ∈ [0] := hb
    simp only [List.mem_singleton] at ha' hb'
    rw [ha', hb']

theorem SameParams.refl_params (s : Simulator) : SameParams s s :=
  ⟨rfl, rfl, rfl, rfl, rfl, rfl, rfl⟩

theorem SameParams.trans_params {a b c : Simulator} (h1 : SameParams a b)
    (h2 : SameParams b c) : SameParams a c := by
  obtain ⟨a1, a2, a3, a4, a5, a6, a7⟩ := h1
  obtain ⟨b1, b2, b3, b4, b5, b6, b7⟩ := h2
  exact ⟨b1.trans a1, b2.trans a2, b3.trans a3, b4.trans a4, b5.trans a5, b6.trans a6,
    b7.trans a7⟩

theorem atHead_inv {g : RandomStream} (hg : g.unitRange) {s0 : Simulator} {p0 : Nat}
    (h0 : SimInv s0) {k : Nat} {s : Simulator} {p : Nat} (h : AtHead g s0 p0 k s p) :
    SimInv s ∧ SameParams s0 s := by
  induction h with
  | start => exact ⟨h0, SameParams.refl_params s0⟩
  | next hh hd he _ _ ih =>
    obtain ⟨s2, p3, hrun, hinv, hp, _⟩ := event_spec hg ih.1 hd (event_pos ih.1 hd he)
    rw [he] at hrun
    simp only [Except.ok.injEq, Prod.mk.injEq] at hrun
    obtain ⟨e1, _⟩ := hrun
    subst e1
    exact ⟨hinv, ih.2.trans_params hp⟩
theorem rho_one_heads {g : RandomStream} (hg : g.unitRange) {s0 : Simulator} {p0 : Nat}
    (h0 : SimInv s0) (hr1 : s0.rho.num = (s0.rho.den : Int)) (hr2 : 0 < s0.rho.den)
    (hn0 : s0.n_sampled = 0) {k : Nat} {s : Simulator} {p : Nat}
    (h : AtHead g s0 p0 k s p) : s.n_sampled = k := by
  induction h with
  | start => exact hn0
  | @next k s s1 s2 p p2 p3 inf hh hd he _ _ ih =>
    obtain ⟨hinv, hp⟩ := atHead_inv hg h0 hh
    obtain ⟨_, t1, e1⟩ := drawEvent_spec hd
    obtain ⟨s2', p3', hrun, _, _, a1, a2⟩ := event_spec hg hinv hd (event_pos hinv hd he)
    rw [he] at hrun
    simp only [Except.ok.injEq, Prod.mk.injEq] at hrun
    obtain ⟨e2, _⟩ := hrun
    subst e2
    cases inf with
    | true =>
      rw [(a1 rfl).1, ih]
      rfl
    | false =>
      obtain ⟨_, _, lng, _, a3, _⟩ := a2 rfl
      have hrho : s1.rho = s0.rho := by rw [e1]; exact hp.2.2.1
      have hb := getBool_one hg (getUniInt g p2 (s1.I - 1)).2 (hrho ▸ hr1) (hrho ▸ hr2)
      rw [a3, if_pos hb, ih]
      rfl

theorem rho_zero_heads {g : RandomStream} (hg : g.unitRange) {s0 : Simulator} {p0 : Nat}
    (h0 : SimInv s0) (hr : s0.rho.isZero = true) (hn0 : s0.n_sampled = 0) {k : Nat}
    {s : Simulator} {p : Nat} (h : AtHead g s0 p0 k s p) : s.n_sampled = 0 := by
  induction h with
  | start => exact hn0
  | @next k s s1 s2 p p2 p3 inf hh hd he _ _ ih =>
    obtain ⟨hinv, hp⟩ := atHead_inv hg h0 hh
    obtain ⟨_, t1, e1⟩ := drawEvent_spec hd
    obtain ⟨s2', p3', hrun, _, _, a1, a2⟩ := event_spec hg hinv hd (event_pos hinv hd he)
    rw [he] at hrun
    simp only [Except.ok.injEq, Prod.mk.injEq] at hrun
    obtain ⟨e2, _⟩ := hrun
    subst e2
    cases inf with
    | true => rw [(a1 rfl).1, ih]
    | false =>
      obtain ⟨_, _, lng, _, a3, _⟩ := a2 rfl
      have hrho : s1.rho = s0.rho := by rw [e1]; exact hp.2.2.1
      have hb := getBool_zero g (getUniInt g p2 (s1.I - 1)).2 (hrho ▸ hr)
      rw [a3, hb, ih]
      rfl

theorem zero_run {g : RandomStream} (hg : g.unitRange) :
    ∀ (fuel : Nat) (s : Simulator) (pos : Nat), SimInv s → s.rho.isZero = true →
      s.n_sampled = 0 → 1 ≤ s.max_samples →
      (∃ a, s.beta.add s.mu = Dbl.fin a ∧ a.num ≠ 0) →
      (∀ res, simulate g fuel s pos = .ok res →
        res.1 = false ∧ res.2.1.n_sampled = 0 ∧ res.2.1.max_cases = s.max_cases ∧
          (res.2.1.I = 0 ∨ (res.2.1.next_lng : Int) > res.2.1.max_cases)) ∧
      (2 * (s.max_cases + 1 - (s.next_lng : Int)).toNat + s.I.toNat < fuel →
        ∃ res, simulate g fuel s pos = .ok res) := by
  intro fuel
  induction fuel with
  | zero =>
    intro s pos _ _ _ _ _
    exact ⟨fun res h => by simp [simulate] at h, fun h => by omega⟩
  | succ fuel ih =>
    intro s pos hinv hr hn hms hrate
    cases hd : drawEvent g s pos with
    | none =>
      have hI : s.I = 0 := by
        obtain ⟨a, hfin, ha⟩ := hrate
        exact drawEvent_none hfin ha hd
      refine ⟨fun res h => ?_, fun _ => ⟨(false, s, pos), by simp only [simulate, hd]⟩⟩
      simp only [simulate, hd, Except.ok.injEq] at h
      subst h
      exact ⟨rfl, hn, rfl, Or.inl hI⟩
    | some ev =>
      obtain ⟨s1, p2, inf⟩ := ev
      obtain ⟨_, t1, e1⟩ := drawEvent_spec hd
      have hI : s.I ≠ 0 := by
        obtain ⟨a, hfin, _⟩ := hrate
        exact drawEvent_finite hfin hd
      obtain ⟨s2, p3, hrun, hinv2, hp, a1, a2⟩ := event_spec hg hinv hd hI
      have hrho : s1.rho = s.rho := by rw [e1]
      have hn2 : s2.n_sampled = 0 := by
        cases inf with
        | true => rw [(a1 rfl).1, hn]
        | false =>
          obtain ⟨_, _, lng, _, a3, _⟩ := a2 rfl
          have hb := getBool_zero g (getUniInt g p2 (s1.I - 1)).2 (hrho ▸ hr)
          rw [a3, hb, hn]
          rfl
      obtain ⟨q1, q2, q3, q4, q5, q6, q7⟩ := hp
      have hms2 : ¬ ((s2.n_sampled : Int) ≥ s2.max_samples) := by
        rw [hn2, q7]
        simp only [Nat.cast_zero, ge_iff_le, not_le]
        omega
      have hstep : simulate g (fuel + 1) s pos =
          if (s2.next_lng : Int) > s2.max_cases then .ok (false, s2, p3)
          else simulate g fuel s2 p3 := by
        simp only [simulate, hd, hrun, if_neg hms2]
      by_cases hmc : (s2.next_lng : Int) > s2.max_cases
      · rw [hstep, if_pos hmc]
        refine ⟨fun res h => ?_, fun _ => ⟨_, rfl⟩⟩
        simp only [Except.ok.injEq] at h
        subst h
        exact ⟨rfl, hn2, q6, Or.inr hmc⟩
      · rw [hstep, if_neg hmc]
        obtain ⟨b1, b2⟩ := ih s2 p3 hinv2 (by rw [q3]; exact hr) hn2 (by rw [q7]; exact hms)
          (by rw [q5, q4]; exact hrate)
        refine ⟨fun res h => ?_, fun hf => b2 ?_⟩
        · obtain ⟨c1, c2, c3, c4⟩ := b1 res h
          exact ⟨c1, c2, c3.trans q6, c4⟩
        · have hc := hinv.card
          have e3 : 0 ≤ s.I := by rw [hc]; exact Int.ofNat_nonneg _
          have hmc2 : ¬ ((s2.next_lng : Int) > s.max_cases) := by rw [← q6]; exact hmc
          rw [q6]
          cases inf with
          | true =>
            obtain ⟨_, d2, d3⟩ := a1 rfl
            have e1 : (s2.next_lng : Int) = (s.next_lng : Int) + 1 := by rw [d2]; push_cast; rfl
            rw [e1] at hmc2 ⊢
            rw [d3]
            omega
          | false =>
            obtain ⟨d2, d3, _⟩ := a2 rfl
            have e1 : (s2.next_lng : Int) = (s.next_lng : Int) := by rw [d2]
            rw [e1, d3]
            omega

theorem getUniInt_floor (g : RandomStream) (hg : g.unitRange) (pos : Nat) {n : Int}
    (hn : 0 ≤ n) (h0 : n ≠ 0) :
    getUniInt g pos n = ((g.uni pos).num * (n + 1) / ((g.uni pos).den : Int), pos + 1) := by
  obtain ⟨u0, _⟩ := hg pos
  have h1 : 0 ≤ (g.uni pos).num * (n + 1) := mul_nonneg u0 (by omega)
  obtain ⟨a, ha⟩ := Int.eq_ofNat_of_zero_le h1
  simp only [getUniInt, if_neg h0, getUni, Frac.mul, Frac.ofInt, Frac.toInt, if_pos h1, ha,
    Int.toNat_ofNat, Nat.mul_one, Int.ofNat_ediv]
  rw [if_pos (Int.ofNat_nonneg a)]

theorem constStream_unit {u : Frac} (h0 : 0 ≤ u.num) (h1 : u.num < (u.den : Int)) :
    (constStream u).unitRange :=
  fun _ => ⟨h0, h1⟩

/-- The case `rho = 0` when `beta + mu` is finite and not zero: `n_sampled` is `0` at
every head of the loop of `simulate`, the loop never reports success, and with enough fuel
it halts with failure, by extinction or because `next_lng > max_cases`, so that
`simulate_BD` returns the empty string. -/
theorem zero_run_initial (gen : Int → RandomStream) (ord : List Nat → List Nat)
    (dtStr : Int → String) (seed max_cases max_samples : Int) (R0 dI rho : Frac)
    (hg : (gen seed).unitRange) (hrho : rho.isZero = true) (hms : 1 ≤ max_samples)
    (hrate : ∃ a, (initialSimulator max_cases max_samples R0 dI rho).beta.add
      (initialSimulator max_cases max_samples R0 dI rho).mu = Dbl.fin a ∧ a.num ≠ 0) :
    (∀ k s p, AtHead (gen seed) (initialSimulator max_cases max_samples R0 dI rho) 0 k s p →
      s.n_sampled = 0) ∧
    (∀ fuel s p, simulate (gen seed) fuel (initialSimulator max_cases max_samples R0 dI rho) 0
      ≠ .ok (true, s, p)) ∧
    ∃ F, ∀ fuel, F ≤ fuel →
      (∃ s p, simulate (gen seed) fuel (initialSimulator max_cases max_samples R0 dI rho) 0 =
          .ok (false, s, p) ∧ s.n_sampled = 0 ∧ (s.I = 0 ∨ (s.next_lng : Int) > max_cases)) ∧
      simulate_BD gen ord dtStr fuel seed max_cases max_samples R0 dI rho = .ok "" := by
  have hinv := initial_inv max_cases max_samples R0 dI rho
  have hrun := fun fuel => zero_run hg fuel (initialSimulator max_cases max_samples R0 dI rho) 0
    hinv hrho rfl hms hrate
  refine ⟨fun k s p h => rho_zero_heads hg hinv hrho rfl h, fun fuel s p h => ?_,
    2 * (max_cases + 1 - 2).toNat + 2, fun fuel hf => ?_⟩
  · have := ((hrun fuel).1 _ h).1
    cases this
  · obtain ⟨res, hres⟩ := (hrun fuel).2 (by
      show 2 * (max_cases + 1 - ((1 + 1 : Nat) : Int)).toNat + ((0 : Int) + 1).toNat < fuel
      have e1 : (((1 + 1 : Nat) : Int)) = 2 := rfl
      have e2 : ((0 : Int) + 1).toNat = 1 := rfl
      rw [e1, e2]
      omega)
    obtain ⟨c1, c2, c3, c4⟩ := (hrun fuel).1 res hres
    obtain ⟨b, s, p⟩ := res
    simp only at c1 c2 c3 c4
    subst c1
    refine ⟨⟨s, p, hres, c2, ?_⟩, ?_⟩
    · rw [← show s.max_cases = max_cases from c3]
      exact c4
    · simp only [simulate_BD, hres, Bool.false_eq_true, if_false]

/-- The case `rho = 1`: at every head of the loop of `simulate` reached after `k` removal
events `n_sampled = k` and `sampled_lineages` has `k` elements; an event that is drawn
while `I ≠ 0` runs without fault, and when it is a removal the call of
`sampleExtantLineage` returns `true`. -/
theorem one_run_heads (gen : Int → RandomStream) (seed max_cases max_samples : Int)
    (R0 dI rho : Frac) (hg : (gen seed).unitRange) (hr1 : rho.num = (rho.den : Int))
    (hr2 : 0 < rho.den) (k : Nat) (s : Simulator) (p : Nat)
    (h : AtHead (gen seed) (initialSimulator max_cases max_samples R0 dI rho) 0 k s p) :
    s.n_sampled = k ∧ s.tree_mngr.sampled_lineages.length = k ∧
    ∀ s1 p2 inf, drawEvent (gen seed) s p = some (s1, p2, inf) → s.I ≠ 0 →
      ∃ s2 p3, applyEvent (gen seed) s1 p2 inf = .ok (s2, p3) ∧
        s2.n_sampled = (if inf = true then k else k + 1) ∧
        s2.tree_mngr.sampled_lineages.length = s2.n_sampled ∧
        (inf = false →
          ∃ lng tr, vecAt s1.I_lngs (getUniInt (gen seed) p2 (s1.I - 1)).1 = .ok lng ∧
            (getBool (gen seed) (getUniInt (gen seed) p2 (s1.I - 1)).2 s1.rho).1 = true ∧
            sampleExtantLineage s1.tree_mngr lng s1.t "@" = .ok (tr, true)) := by
  have h0 := initial_inv max_cases max_samples R0 dI rho
  obtain ⟨hinv, hp⟩ := atHead_inv hg h0 h
  have hk : s.n_sampled = k := rho_one_heads hg h0 hr1 hr2 rfl h
  refine ⟨hk, by rw [hinv.nsamp, hk], fun s1 p2 inf hd hI => ?_⟩
  obtain ⟨_, t1, e1⟩ := drawEvent_spec hd
  obtain ⟨s2, p3, hrun, hinv2, _, a1, a2⟩ := event_spec hg hinv hd hI
  have hrho : s1.rho = rho := by rw [e1]; exact hp.2.2.1
  have hb := getBool_one hg (getUniInt (gen seed) p2 (s1.I - 1)).2
    (show s1.rho.num = (s1.rho.den : Int) by rw [hrho]; exact hr1)
    (show 0 < s1.rho.den by rw [hrho]; exact hr2)
  refine ⟨s2, p3, hrun, ?_, hinv2.nsamp, fun hi => ?_⟩
  · cases inf with
    | true => rw [(a1 rfl).1, hk]; rfl
    | false =>
      obtain ⟨_, _, lng, _, a3, _⟩ := a2 rfl
      rw [a3, if_pos hb, hk]
      rfl
  · obtain ⟨_, _, lng, a3, _, a5⟩ := a2 hi
    obtain ⟨tr, htr⟩ := a5 hb
    exact ⟨lng, tr, a3, hb, htr⟩

/-- C10 (result of `simulate_BD`).  With `max_samples = 0` the loop of `simulate` reports
success after the first event although no lineage has been sampled; `subSampleTree()` then
returns no tree and `simulate_BD` reads the first element of an empty vector instead of
returning a string that ends with `;`. -/
theorem simulate_BD_unguarded :
    (∃ s p, simulate (constStream ⟨0, 1⟩) 10 (initialSimulator 1000 0 ⟨2, 1⟩ ⟨1, 1⟩ ⟨1, 1⟩) 0 =
      .ok (true, s, p) ∧ s.n_sampled = 0) ∧
    simulate_BD (fun _ => constStream ⟨0, 1⟩) id (fun d => toString d) 10 1 1000 0 ⟨2, 1⟩
      ⟨1, 1⟩ ⟨1, 1⟩ = .error .outOfBounds :=
  ⟨⟨_, _, rfl, rfl⟩, by decide⟩

/-- C21 (uniform index selection).  For every `n ≥ 0` and every stream with uniform variates
in `[0, 1)`, `getUniInt( n )` lies in `[0, n]`, so it is a valid index of every vector of
`n + 1` elements; for `n ≠ 0` it is the floor of `u * (n + 1)` for the next uniform variate
`u = num / den` and consumes that variate; for `n = 0` it is `0` and consumes nothing. -/
theorem uniform_index (g : RandomStream) (hg : g.unitRange) (pos : Nat) (n : Int)
    (hn : 0 ≤ n) :
    (0 ≤ (getUniInt g pos n).1 ∧ (getUniInt g pos n).1 ≤ n) ∧
    (∀ v : List Nat, (v.length : Int) = n + 1 → ∃ x, vecAt v (getUniInt g pos n).1 = .ok x) ∧
    (n ≠ 0 → getUniInt g pos n =
      ((g.uni pos).num * (n + 1) / ((g.uni pos).den : Int), pos + 1)) ∧
    (n = 0 → getUniInt g pos n = (0, pos)) := by
  have hr := getUniInt_range hg pos hn
  refine ⟨hr, fun v hv => ?_, fun h0 => getUniInt_floor g hg pos hn h0, fun h0 => by
    simp [getUniInt, h0]⟩
  obtain ⟨x, hx, _⟩ := @vecAt_ok v (getUniInt g pos n).1 hr.1 (by omega)
  exact ⟨x, hx⟩

theorem uniform_index_witness :
    (constStream ⟨3, 4⟩).unitRange ∧ (0 : Int) ≤ 4 ∧
    (getUniInt (constStream ⟨3, 4⟩) 0 4).1 = 3 ∧
    (∀ v : List Nat, (v.length : Int) = 4 + 1 →
      ∃ x, vecAt v (getUniInt (constStream ⟨3, 4⟩) 0 4).1 = .ok x) := by
  have hg : (constStream ⟨3, 4⟩).unitRange := constStream_unit (by decide) (by decide)
  exact ⟨hg, by decide, by decide, (uniform_index (constStream ⟨3, 4⟩) hg 0 4 (by decide)).2.1⟩

/-- C23 (example E4), the claimed time.  In the phylogeny of the tree with the root `1`
and the children `2`, `3`, `4` born at 1, 2, 3, of which `3` and `4` are sampled, the
internal node does not have `t = 3`. -/
theorem e4_time_not_three : e4Run.map (fun r => decide (r.1.t = 3)) = .ok false := by
  decide!

/-- C23 (example E4), amended.  The phylogeny of that tree has exactly the two leaves `3`
and `4` and exactly one internal node, which has both children and `t = 2`, the branching
time of the earlier sampled child; the Newick string is `(3:2,4:3)1-0:0;`. -/
theorem e4_phylogeny :
    e4Run.map (fun r => (r.1.leafLngs, r.1.innerCount, r.1.strictlyBinary, r.1.t, r.2)) =
      .ok ([3, 4], 1, true, 2, "(3:2,4:3)1-0:0;") := by
  decide!

/-- C24 (example E5).  For the root `1` sampled at 2.5 with the sampled childless children
`2` and `3` branching at 1 and 3 (times in half units), the phylogeny has three leaves; its
root is the internal node at `t = 1` whose left child is the leaf of `2` and whose right
child is the internal node at `t = 2.5`; that node has the leaf of `3` as left child and,
as right child, the leaf of the root lineage `1` with `dt = 0`, `t = 2.5` and the sampling
location of the root. -/
theorem e5_sampled_ancestor :
    ∃ r1 p a c2 c3 leaf, getAncestralTree 20 e5Tree none = .ok (r1, p) ∧
      p.leafLngs = [2, 3, 1] ∧ p.t = 2 ∧ p.lng = 1 ∧
      p.leftChild = some c2 ∧ c2.leafLngs = [2] ∧ c2.leftChild = none ∧
      p.rightChild = some a ∧ a.t = 5 ∧ a.lng = 1 ∧
      a.leftChild = some c3 ∧ c3.leafLngs = [3] ∧ c3.leftChild = none ∧
      a.rightChild = some leaf ∧ leaf.lng = 1 ∧ leaf.dt = 0 ∧ leaf.t = 5 ∧
      leaf.locSample = "@" ∧ leaf.leftChild = none ∧ leaf.rightChild = none :=
  ⟨_, _, _, _, _, _, rfl, rfl, rfl, rfl, rfl, rfl, rfl, rfl, rfl, rfl, rfl, rfl, rfl, rfl, rfl,
    rfl, rfl, rfl, rfl, rfl⟩

mutual
theorem count_sampled : ∀ T : LTree,
    T.sampledLngs.length = T.count sampledTipQ + T.count sampledAncestorQ
  | .mk n ks => by
    have ih := countList_sampled ks
    simp only [LTree.sampledLngs, LTree.count, List.length_append, ih, sampledTipQ,
      sampledAncestorQ]
    rcases Bool.eq_false_or_eq_true n.sampled with hs | hs
    · by_cases h : ks.length = 0
      · simp [hs, h]
        omega
      · have h1 : 1 ≤ ks.length := by omega
        simp [hs, h, h1]
        omega
    · simp [hs]
theorem countList_sampled : ∀ ks : List LTree,
    (LTree.sampledLngsList ks).length =
      LTree.countList sampledTipQ ks + LTree.countList sampledAncestorQ ks
  | [] => by simp [LTree.sampledLngsList, LTree.countList]
  | t :: ts => by
    have h1 := count_sampled t
    have h2 := countList_sampled ts
    simp only [LTree.sampledLngsList, LTree.countList, List.length_append, h1, h2]
    omega
end

/-- C22 (example E6), the claimed count.  In the run in which lineage `1` infects `2` and
both are then removed and sampled, `n_sampled = 2`, the reduced tree has one sampled
ancestor and the phylogeny has two leaves, not three. -/
theorem e6_leaves_not_sum : e6Run = .ok (2, 1, 2) := by
  decide!

/-- C22 (example E6), amended.  The number of leaves of a phylogeny that
`getAncestralTree` returns for a tree `r` (lineages identify the nodes) equals the number of
sampled nodes of `r`, that is the number of sampled childless nodes plus the number of
sampled ancestors; every sampled lineage, ancestor or not, gives one leaf. -/
theorem leaves_count_sampled (r : LTree) (hid : r.all edgeDistinctQ = true) (fuel : Nat)
    (r1 : LTree) (p : PhyloNode) (h : getAncestralTree fuel r none = .ok (r1, p)) :
    p.leafLngs.length = r.sampledLngs.length ∧
    p.leafLngs.length = r.count sampledTipQ + r.count sampledAncestorQ := by
  have hp := (gat_root_post r hid fuel (r1, p) h).2.2.2.1
  have hl : p.leafLngs.length = r.sampledLngs.length := hp.length_eq
  exact ⟨hl, hl.trans (count_sampled r)⟩

theorem leaves_count_sampled_witness :
    sampleTree.all edgeDistinctQ = true ∧
    ∃ r1 p, getAncestralTree 20 sampleTree none = .ok (r1, p) ∧
      p.leafLngs.length = 4 ∧ sampleTree.count sampledTipQ = 3 ∧
      sampleTree.count sampledAncestorQ = 1 ∧
      p.leafLngs.length = sampleTree.count sampledTipQ + sampleTree.count sampledAncestorQ :=
  ⟨by decide, _, _, rfl, by decide, by decide, by decide,
    (leaves_count_sampled sampleTree (by decide) 20 _ _ rfl).2⟩
theorem set_self_of_get : ∀ (l : List LTree) (i : Nat) (c : LTree), l.get? i = some c →
    l.set i c = l
  | [], _, _, h => by simp at h
  | a :: l, 0, c, h => by
    simp only [List.get?_cons_zero, Option.some.injEq] at h
    subst h
    rfl
  | a :: l, i + 1, c, h => by
    simp only [List.get?_cons_succ] at h
    simp only [List.set_cons_succ, set_self_of_get l i c h]

theorem set_kidAt_self {ks : List LTree} {i : Nat} {c : LTree} (h : kidAt ks i = .ok c) :
    ks.set i c = ks := by
  unfold kidAt at h
  split at h
  · rename_i k hk
    cases h
    exact set_self_of_get ks i _ hk
  · cases h

theorem kidAt_mem {ks : List LTree} {i : Nat} {c : LTree} (h : kidAt ks i = .ok c) :
    c ∈ ks := by
  have h1 := (kidAt_ok h).2
  have h2 : c ∈ ks.drop i := by rw [h1]; exact List.mem_cons_self _ _
  exact List.mem_of_mem_drop h2

theorem sortKids_asc {n : LineageTreeNode} {ks : List LTree} (h : ascQ n ks = true) :
    sortKids ks = ks := by
  simp only [ascQ, decide_eq_true_eq] at h
  exact List.Sorted.insertionSort_eq (h.imp (fun hab => le_of_lt hab))

theorem same_child {rec : LTree → Option PhyloParent → Except Err (LTree × PhyloNode)}
    (hrec : RecSame rec) {ks : List LTree} (hk : ∀ c ∈ ks, c.all ascQ = true) {i : Nat}
    {c c1 : LTree} {q : Option PhyloParent} {p : PhyloNode} (hc : kidAt ks i = .ok c)
    (hl : rec c q = .ok (c1, p)) : c1 = c :=
  hrec c q (c1, p) (hk c (kidAt_mem hc)) hl

theorem gat_same : ∀ fuel : Nat, RecSame (getAncestralTree fuel) := by
  intro fuel
  induction fuel with
  | zero =>
    intro T pp r _ h
    simp [getAncestralTree] at h
  | succ f ih =>
    intro T pp r hT h
    obtain ⟨n, K⟩ := T
    have hT0 := hT
    simp only [LTree.all, Bool.and_eq_true] at hT
    obtain ⟨hasc, hall⟩ := hT
    have hk : ∀ c ∈ K, c.all ascQ = true := (allList_iff ascQ K).1 hall
    rw [getAncestralTree] at h
    dsimp only at h
    have hS : (if 1 < K.length ∧ (entryState n pp).depth = 0 then sortKids K else K) = K := by
      split_ifs
      · exact sortKids_asc hasc
      · rfl
    rw [hS] at h
    generalize (if (entryState n pp).depth = 0 then attachDepth n.tSample K
      else (entryState n pp).attach) = a at h
    generalize entryState n pp = st at h
    split_ifs at h
    · unfold gatLeaf at h
      split_ifs at h
      split at h
      · cases h
      cases h
      rfl
    · unfold gatAttach at h
      split at h
      · cases h
      dsimp only at h
      split_ifs at h
      · split at h
        · cases h
        rename_i child hchild
        split at h
        · cases h
        rename_i c1 left hl
        cases h
        have e1 := same_child ih hk hchild hl
        subst e1
        simp only [set_kidAt_self hchild]
      · split at h
        · cases h
        rename_i node1 left hl
        cases h
        have hh := ih _ _ _ hT0 hl
        exact hh
    · unfold gatStep at h
      split at h
      · cases h
      rename_i child hchild
      dsimp only at h
      split at h
      · cases h
      split at h
      · cases h
      rename_i c1 left hl
      have e1 := same_child ih hk hchild hl
      subst e1
      simp only [set_kidAt_self hchild] at h
      split_ifs at h
      · split at h
        · cases h
        rename_i child2 hchild2
        split at h
        · cases h
        rename_i c2 right hr
        cases h
        have e2 := same_child ih hk hchild2 hr
        subst e2
        simp only [set_kidAt_self hchild2]
      · split at h
        · cases h
        rename_i node1 right hr
        cases h
        have hh := ih _ _ _ hT0 hr
        exact hh
    · unfold gatLate at h
      split at h
      · cases h
      rename_i child hchild
      dsimp only at h
      split at h
      · cases h
      split_ifs at h
      · split at h
        · cases h
        rename_i c1 left hl
        have e1 := same_child ih hk hchild hl
        subst e1
        simp only [set_kidAt_self hchild] at h
        split at h
        · cases h
        rename_i node1 right hr
        cases h
        have hh := ih _ _ _ hT0 hr
        exact hh
      · split at h
        · cases h
        rename_i c1 left hl
        cases h
        have e1 := same_child ih hk hchild hl
        subst e1
        simp only [set_kidAt_self hchild]
    · unfold gatUnsampled at h
      split_ifs at h
      · split at h
        · cases h
        rename_i child hchild
        dsimp only at h
        split at h
        · cases h
        split at h
        · cases h
        rename_i c1 left hl
        have e1 := same_child ih hk hchild hl
        subst e1
        simp only [set_kidAt_self hchild] at h
        split at h
        · cases h
        rename_i node1 right hr
        cases h
        have hh := ih _ _ _ hT0 hr
        exact hh
      · split at h
        · cases h
        rename_i child hchild
        dsimp only at h
        split at h
        · cases h
        split at h
        · cases h
        rename_i child2 hchild2
        split at h
        · cases h
        rename_i c1 left hl
        split at h
        · cases h
        rename_i c2 right hr
        cases h
        have e1 := same_child ih hk hchild hl
        have e2 := same_child ih hk hchild2 hr
        subst e1
        subst e2
        simp only [set_kidAt_self hchild, set_kidAt_self hchild2]

/-- C25 (purity of the builder), the claimed frame.  On a tree whose children are not in
the order of their branching times `getAncestralTree` changes the order of the children:
the children `2`, `3` of the root of `unsortedTree` come back as `3`, `2`. -/
theorem gat_reorders_children :
    ∃ r1 p, getAncestralTree 20 unsortedTree none = .ok (r1, p) ∧
      unsortedTree.kids.map (fun k => k.node.lng) = [2, 3] ∧
      r1.kids.map (fun k => k.node.lng) = [3, 2] ∧ r1.node = unsortedTree.node :=
  ⟨_, _, rfl, rfl, rfl, rfl⟩

/-- C25 (purity of the builder), amended.  `getAncestralTree` sorts the vectors `children`
in place; when the children of every node of `r` are in strictly ascending order of
`tBranchParent`, the tree after the call is `r` itself: every node has the same fields and
the same children in the same order. -/
theorem gat_keeps_sorted (r : LTree) (hasc : r.all ascQ = true) (fuel : Nat)
    (pp : Option PhyloParent) (r1 : LTree) (p : PhyloNode)
    (h : getAncestralTree fuel r pp = .ok (r1, p)) : r1 = r :=
  gat_same fuel r pp (r1, p) hasc h

theorem gat_keeps_sorted_witness :
    e5Tree.all ascQ = true ∧
    ∃ r1 p, getAncestralTree 20 e5Tree none = .ok (r1, p) ∧ r1 = e5Tree :=
  ⟨by decide, _, _, rfl, gat_keeps_sorted e5Tree (by decide) 20 none _ _ rfl⟩

/-- C27 (merge-parent-child).  When `removeExtantLineage` is applied to the lineage of an
unsampled node `x` with exactly one child `c`, then afterwards `x` is freed, `nnodes` is
decremented and `lng` is erased from `extantLngs`.  If `x` had a parent `g`, then `c` has
the parent `g` and the branching time of `x`, the children of `g` are those it had with `x`
replaced by `c` (which occurs once), the roots are the same and every node other than `x`,
`c`, `g` is unchanged.  If `x` was a root, then `c` has no parent and its branching time is
its birth time, `c` replaces `x` in `roots` and every node other than `x`, `c` is
unchanged.  In both cases `c` keeps its children and its other fields. -/
theorem merge_parent_child (s : LineageTree) (h : Inv s) (lng x c : Nat)
    (nx : LineageTreeNode) (ig : Bool) (hE : mapFind s.extantLngs lng = some x)
    (hx : s.mem.cells x = some nx) (hs : nx.sampled = false) (hc : nx.children = [c]) :
    ∃ s' nc, removeExtantLineage s lng ig = .ok s' ∧ s.mem.cells c = some nc ∧
      s'.mem.cells x = none ∧ s'.nnodes = uintDec s.nnodes ∧
      s'.extantLngs = mapErase s.extantLngs lng ∧
      s'.sampled_lineages = s.sampled_lineages ∧
      (∀ g, nx.parent = some g →
        ∃ ng ch, s.mem.cells g = some ng ∧
          s'.mem.cells c = some { nc with parent := some g,
                                          tBranchParent := nx.tBranchParent } ∧
          s'.mem.cells g = some { ng with children := ch } ∧
          ch.Perm (c :: ng.children.erase x) ∧ c ∉ ng.children ∧ x ∉ ch ∧
          s'.roots = s.roots ∧
          ∀ b, b ≠ x → b ≠ c → b ≠ g → s'.mem.cells b = s.mem.cells b) ∧
      (nx.parent = none →
        s'.mem.cells c = some { nc with parent := none, tBranchParent := nc.t } ∧
        s'.roots = setInsert (setErase s.roots x) c ∧
        ∀ b, b ≠ x → b ≠ c → s'.mem.cells b = s.mem.cells b) := by
  obtain ⟨s2, hrun, st⟩ := remove_outcome h.struct h.prune hE hx ig
  have hs1 := h.struct.markExtinct hx
  have hcell : ∀ b, b ≠ x →
      ({ s with mem := s.mem.set x { nx with extant := false } } : LineageTree).mem.cells b =
        s.mem.cells b := by
    intro b hb
    simp [hb]
  cases st with
  | keep hk =>
    rcases hk with hk | hk
    · rw [hs] at hk; cases hk
    · simp only [hc, List.length_singleton] at hk
      omega
  | spliceSelf hsam r =>
    rename_i c1 g1 nc1 ng1 cs1
    have e1 : c = c1 := by
      have := r.hch
      simp only [hc, List.cons.injEq, and_true] at this
      exact this
    subst e1
    have hcx : c ≠ x := (Nat.ne_of_lt r.hlt2).symm
    have hgx : g1 ≠ x := Nat.ne_of_lt r.hlt1
    have hc0 := r.hc
    rw [hcell c hcx] at hc0
    have hg0 := r.hg
    rw [hcell g1 hgx] at hg0
    refine ⟨_, _, hrun, hc0, ?_, r.nnodes, by rw [← r.extantLngs], r.sampled_lineages,
      fun g hg => ?_, fun hn => ?_⟩
    · show s2.mem.cells x = none
      rw [r.cells x, if_pos rfl]
    · have e2 : some g = some g1 := hg.symm.trans r.hpar
      simp only [Option.some.injEq] at e2
      subst e2
      have hcg : c ≠ g := Nat.ne_of_gt (lt_trans r.hlt1 r.hlt2)
      have hnot : c ∉ ng1.children := by
        intro hm
        obtain ⟨_, nc2, h1, h2⟩ := h.struct.childLive g _ c (by simp) hg0 hm
        rw [hc0] at h1
        cases h1
        have := r.hcpar
        rw [h2] at this
        simp only [Option.some.injEq] at this
        exact hgx this
      refine ⟨ng1, cs1 ++ [c], hg0, ?_, ?_, ?_, hnot, ?_, r.roots, fun b h1 h2 h3 => ?_⟩
      · show s2.mem.cells c = _
        rw [r.cells c, if_neg hcx, if_pos rfl]
      · show s2.mem.cells g = _
        rw [r.cells g, if_neg hgx, if_neg hcg.symm, if_pos rfl]
      · exact (List.perm_append_singleton c _).trans (List.Perm.cons c r.perm)
      · intro hm
        rcases List.mem_append.1 hm with hm | hm
        · have := (r.perm.mem_iff).1 hm
          have hnd := h.struct.childNodup g _ (by simp) hg0
          exact ((hnd.mem_erase_iff).1 this).1 rfl
        · simp only [List.mem_singleton] at hm
          exact hcx hm.symm
      · show s2.mem.cells b = _
        rw [r.cells b, if_neg h1, if_neg h2, if_neg h3]
        exact hcell b h1
    · have := r.hpar
      rw [show ({ nx with extant := false } : LineageTreeNode).parent = nx.parent from rfl,
        hn] at this
      cases this
  | promoteSelf hsam r =>
    rename_i c1 nc1
    have e1 : c = c1 := by
      have := r.hch
      simp only [hc, List.cons.injEq, and_true] at this
      exact this
    subst e1
    have hcx : c ≠ x := (Nat.ne_of_lt r.hlt).symm
    have hc0 := r.hc
    rw [hcell c hcx] at hc0
    refine ⟨_, _, hrun, hc0, ?_, r.nnodes, by rw [← r.extantLngs], r.sampled_lineages,
      fun g hg => ?_, fun hn => ⟨?_, r.roots, fun b h1 h2 => ?_⟩⟩
    · show s2.mem.cells x = none
      rw [r.cells x, if_pos rfl]
    · have := r.hpar
      rw [show ({ nx with extant := false } : LineageTreeNode).parent = nx.parent from rfl,
        hg] at this
      cases this
    · show s2.mem.cells c = _
      rw [r.cells c, if_neg hcx, if_pos rfl]
    · show s2.mem.cells b = _
      rw [r.cells b, if_neg h1, if_neg h2]
      exact hcell b h1
  | leafRoot hsam hleaf hpar =>
    rw [show ({ nx with extant := false } : LineageTreeNode).children = nx.children from rfl,
      hc] at hleaf
    cases hleaf
  | leafKeep hsam r hk =>
    have := r.hleaf
    rw [show ({ nx with extant := false } : LineageTreeNode).children = nx.children from rfl,
      hc] at this
    cases this
  | leafSplice hsam r hpe hps r2 =>
    have := r.hleaf
    rw [show ({ nx with extant := false } : LineageTreeNode).children = nx.children from rfl,
      hc] at this
    cases this
  | leafPromote hsam r hpe hps r2 =>
    have := r.hleaf
    rw [show ({ nx with extant := false } : LineageTreeNode).children = nx.children from rfl,
      hc] at this
    cases this

theorem merge_parent_child_witness :
    ∃ s s' nc, runOps LineageTree.empty chainOps = .ok s ∧
      removeExtantLineage s 2 false = .ok s' ∧ s.mem.cells 2 = some nc ∧
      s'.mem.cells 1 = none ∧ s'.nnodes = uintDec s.nnodes ∧
      ∃ ng ch, s.mem.cells 0 = some ng ∧
        s'.mem.cells 2 = some { nc with parent := some 0, tBranchParent := 1 } ∧
        s'.mem.cells 0 = some { ng with children := ch } ∧
        ch.Perm (2 :: ng.children.erase 1) := by
  obtain ⟨s, hrun, hinv⟩ := run_inv Inv.empty_inv chainOps (by decide)
  have e : runOps LineageTree.empty chainOps = .ok _ := rfl
  rw [e] at hrun
  simp only [Except.ok.injEq] at hrun
  subst hrun
  obtain ⟨s', nc, h1, h2, h3, h4, _, _, h7, _⟩ := merge_parent_child _ hinv 2 1 2
    { mkNode 2 0 1 true (some 0) with children := [2] } false rfl rfl rfl rfl
  obtain ⟨ng, ch, g1, g2, g3, g4, _⟩ := h7 0 rfl
  exact ⟨_, s', nc, e, h1, h2, h3, h4, ng, ch, g1, g2, g3, g4⟩
theorem liveBelow_congr {c c1 : Nat → Option LineageTreeNode} :
    ∀ n, (∀ a, a < n → (c1 a).isSome = (c a).isSome) → liveBelow c1 n = liveBelow c n
  | 0, _ => rfl
  | n + 1, h => by
    simp only [liveBelow, h n (Nat.lt_add_one n),
      liveBelow_congr n (fun a ha => h a (Nat.lt_succ_of_lt ha))]

theorem liveBelow_kill {c c1 : Nat → Option LineageTreeNode} {x : Nat}
    (hx : (c x).isSome = true) (hx1 : c1 x = none)
    (ho : ∀ a, a ≠ x → (c1 a).isSome = (c a).isSome) :
    ∀ n, x < n → liveBelow c1 n + 1 = liveBelow c n
  | 0, h => by omega
  | n + 1, h => by
    simp only [liveBelow]
    by_cases hn : x = n
    · subst hn
      rw [liveBelow_congr x (fun a ha => ho a (Nat.ne_of_lt ha)), hx1, hx]
      simp
    · have ih := liveBelow_kill hx hx1 ho n (by omega)
      rw [ho n (fun e => hn e.symm)]
      omega

theorem liveCount_same {m m1 : Mem} (hn : m1.next = m.next)
    (h : ∀ a, (m1.cells a).isSome = (m.cells a).isSome) : liveCount m1 = liveCount m := by
  unfold liveCount
  rw [hn]
  exact liveBelow_congr _ (fun a _ => h a)

theorem liveCount_kill {m m1 : Mem} {x : Nat} {nx : LineageTreeNode} (hn : m1.next = m.next)
    (hlt : x < m.next) (hx : m.cells x = some nx) (hx1 : m1.cells x = none)
    (ho : ∀ a, a ≠ x → (m1.cells a).isSome = (m.cells a).isSome) :
    liveCount m1 + 1 = liveCount m := by
  unfold liveCount
  rw [hn]
  exact liveBelow_kill (by rw [hx]; rfl) hx1 ho _ hlt

theorem liveCount_new {m m1 : Mem} {n : LineageTreeNode} (hn : m1.next = m.next + 1)
    (hx : m1.cells m.next = some n)
    (ho : ∀ a, a ≠ m.next → (m1.cells a).isSome = (m.cells a).isSome) :
    liveCount m1 = liveCount m + 1 := by
  unfold liveCount
  rw [hn]
  simp only [liveBelow, hx, Option.isSome_some, if_true]
  rw [liveBelow_congr _ (fun a ha => ho a (Nat.ne_of_lt ha))]

theorem uintDec_count {nn L L1 : Nat} (h : nn = L % 2 ^ 32) (hL : L1 + 1 = L) :
    uintDec nn = L1 % 2 ^ 32 := by
  unfold uintDec
  omega

theorem uintInc_count {nn L : Nat} (h : nn = L % 2 ^ 32) :
    uintInc nn = (L + 1) % 2 ^ 32 := by
  unfold uintInc
  omega

theorem SpliceRel.count_splice {s s1 : LineageTree} {mid c g : Nat}
    {nm nc ng : LineageTreeNode} {cs : List Nat} (r : SpliceRel s s1 mid c g nm nc ng cs)
    {z : Option Nat} (hs : Struct z s) : liveCount s1.mem + 1 = liveCount s.mem := by
  refine liveCount_kill r.next (live_lt_next hs r.hmid) r.hmid (by rw [r.cells, if_pos rfl])
    (fun a ha => ?_)
  rw [r.cells a, if_neg ha]
  split_ifs with h1 h2
  · subst h1; rw [r.hc]; rfl
  · subst h2; rw [r.hg]; rfl
  · rfl

theorem PromoteRel.count_promote {s s1 : LineageTree} {mid c : Nat}
    {nm nc : LineageTreeNode} (r : PromoteRel s s1 mid c nm nc)
    {z : Option Nat} (hs : Struct z s) : liveCount s1.mem + 1 = liveCount s.mem := by
  refine liveCount_kill r.next (live_lt_next hs r.hmid) r.hmid (by rw [r.cells, if_pos rfl])
    (fun a ha => ?_)
  rw [r.cells a, if_neg ha]
  split_ifs with h1
  · subst h1; rw [r.hc]; rfl
  · rfl

theorem DetachRel.count_detach {s s1 : LineageTree} {x p : Nat}
    {nx np : LineageTreeNode} {cs : List Nat} (r : DetachRel s s1 x p nx np cs) :
    liveCount s1.mem = liveCount s.mem := by
  refine liveCount_same r.next (fun a => ?_)
  rw [r.cells a]
  split_ifs with h1
  · subst h1; rw [r.hp]; rfl
  · rfl

theorem count_free {s : LineageTree} {z : Option Nat} (hs : Struct z s) {x : Nat} {nx : LineageTreeNode}
    (hx : s.mem.cells x = some nx) : liveCount (s.mem.free x) + 1 = liveCount s.mem := by
  refine liveCount_kill rfl (live_lt_next hs hx) hx (by simp) (fun a ha => ?_)
  simp [ha]

theorem remove_count {s : LineageTree} (h : Inv s) (hn : NInv s) {lng x : Nat}
    (hE : mapFind s.extantLngs lng = some x) (ig : Bool) :
    ∃ s', removeExtantLineage s lng ig = .ok s' ∧ NInv s' := by
  obtain ⟨nx, hx, hl, hext⟩ := (h.einv lng x).1 hE
  obtain ⟨s2, hrun, st⟩ := remove_outcome h.struct h.prune hE hx ig
  refine ⟨_, hrun, ?_⟩
  have hs1 := h.struct.markExtinct hx
  have hx1 : ({ s with mem := s.mem.set x { nx with extant := false } } :
      LineageTree).mem.cells x = some { nx with extant := false } := by simp
  have hc1 : liveCount ({ s with mem := s.mem.set x { nx with extant := false } } :
      LineageTree).mem = liveCount s.mem := by
    refine liveCount_same rfl (fun a => ?_)
    show ((s.mem.set x { nx with extant := false }).cells a).isSome = _
    rw [Mem.set_cells]
    split_ifs with h1
    · subst h1; rw [hx]; rfl
    · rfl
  have hn1 : s.nnodes = liveCount ({ s with mem := s.mem.set x { nx with extant := false } } :
      LineageTree).mem % 2 ^ 32 := by rw [hc1]; exact hn
  show s2.nnodes = liveCount s2.mem % 2 ^ 32
  cases st with
  | keep hk => exact hn1
  | spliceSelf hsam r =>
    rw [r.nnodes]
    exact uintDec_count hn1 (r.count_splice hs1)
  | promoteSelf hsam r =>
    rw [r.nnodes]
    exact uintDec_count hn1 (r.count_promote hs1)
  | leafRoot hsam hleaf hpar =>
    exact uintDec_count hn1 (count_free hs1 hx1)
  | @leafKeep sA p np cs1 hsam r hk =>
    have hpx : p < x := hs1.order x _ p (by simp) r.hx r.hxpar
    have hxA := r.x_live hpx.ne
    have hsA := r.struct_detach hs1
    refine uintDec_count ?_ (count_free hsA hxA)
    rw [r.nnodes, r.count_detach]
    exact hn1
  | @leafSplice sA sB p c g np nc ng cs1 cs2 hsam r hpe hps r2 =>
    have hpx : p < x := hs1.order x _ p (by simp) r.hx r.hxpar
    have hsA := r.struct_detach hs1
    have hpz : some p ≠ some x := some_ne_some hpx.ne
    obtain ⟨hcz, _⟩ := hsA.childLive p _ c hpz r2.hmid (by rw [r2.hch]; simp)
    obtain ⟨hgz, _⟩ := hsA.parentLive p _ g hpz r2.hmid r2.hpar
    have hsB := r2.struct_splice hsA hcz hgz
    have hxB : sB.mem.cells x = some { nx with extant := false } := by
      have hxA := r.x_live hpx.ne
      rw [r2.cells x]
      have hxc : x ≠ c := fun e => hcz (by rw [e])
      have hxg : x ≠ g := fun e => absurd (lt_trans (e ▸ r2.hlt1) hpx) (lt_irrefl _)
      simp [hpx.ne', hxc, hxg, hxA]
    refine uintDec_count ?_ (count_free hsB hxB)
    rw [r2.nnodes]
    refine uintDec_count ?_ (r2.count_splice hsA)
    rw [r.nnodes, r.count_detach]
    exact hn1
  | @leafPromote sA sB p c np nc cs1 hsam r hpe hps r2 =>
    have hpx : p < x := hs1.order x _ p (by simp) r.hx r.hxpar
    have hsA := r.struct_detach hs1
    have hpz : some p ≠ some x := some_ne_some hpx.ne
    obtain ⟨hcz, _⟩ := hsA.childLive p _ c hpz r2.hmid (by rw [r2.hch]; simp)
    have hsB := r2.struct_promote hsA hpz hcz
    have hxB : sB.mem.cells x = some { nx with extant := false } := by
      have hxA := r.x_live hpx.ne
      rw [r2.cells x]
      have hxc : x ≠ c := fun e => hcz (by rw [e])
      simp [hpx.ne', hxc, hxA]
    refine uintDec_count ?_ (count_free hsB hxB)
    rw [r2.nnodes]
    refine uintDec_count ?_ (r2.count_promote hsA)
    rw [r.nnodes, r.count_detach]
    exact hn1

theorem step_count {s : LineageTree} (h : Inv s) (hn : NInv s) {op : Op}
    (hpre : opPre s op = true) : ∃ s', applyOp s op = .ok s' ∧ NInv s' := by
  cases op with
  | addExternal t lng data =>
    refine ⟨_, rfl, ?_⟩
    have r := addExternal_rel s t lng data
    show _ = liveCount _ % 2 ^ 32
    rw [r.nnodes, liveCount_new r.next (by rw [r.cells, if_pos rfl]) (fun a ha => by
      rw [r.cells a, if_neg ha])]
    exact uintInc_count hn
  | add t lng data lngParent =>
    simp only [opPre, Bool.and_eq_true, Bool.not_eq_true', Option.isSome_iff_exists] at hpre
    obtain ⟨hf, pa, hpa⟩ := hpre
    obtain ⟨np, hnp, _, _⟩ := (h.einv lngParent pa).1 hpa
    obtain ⟨s1, hrun, r⟩ := addExtant_rel hpa hnp t lng data
    refine ⟨s1, hrun, ?_⟩
    have hlt := live_lt_next h.struct hnp
    show _ = liveCount _ % 2 ^ 32
    rw [r.nnodes, liveCount_new r.next
      (by rw [r.cells, if_neg (Nat.ne_of_gt hlt), if_pos rfl]) (fun a ha => by
        rw [r.cells a, if_neg ha]
        split_ifs with h1
        · subst h1; rw [hnp]; rfl
        · rfl)]
    exact uintInc_count hn
  | sample lng t loc =>
    simp only [opPre, Option.isSome_iff_exists] at hpre
    obtain ⟨x, hx⟩ := hpre
    obtain ⟨nx, hnx, hl, _⟩ := (h.einv lng x).1 hx
    rcases sample_rel hx hnx hl t loc with ⟨_, hrun⟩ | ⟨s1, hrun, r⟩
    · exact ⟨s, by simp only [applyOp, hrun], hn⟩
    · refine ⟨s1, by simp only [applyOp, hrun], ?_⟩
      show _ = liveCount _ % 2 ^ 32
      rw [r.nnodes, liveCount_same r.next (fun a => by
        rw [r.cells a]
        split_ifs with h1
        · subst h1; rw [hnx]; rfl
        · rfl)]
      exact hn
  | remove lng ig =>
    simp only [opPre, Option.isSome_iff_exists] at hpre
    obtain ⟨x, hx⟩ := hpre
    exact remove_count h hn hx ig

theorem run_count {s : LineageTree} (h : Inv s) (hn : NInv s) (ops : List Op)
    (hv : validOps s ops = true) : ∃ s', runOps s ops = .ok s' ∧ Inv s' ∧ NInv s' := by
  induction ops generalizing s with
  | nil => exact ⟨s, rfl, h, hn⟩
  | cons op ops ih =>
    simp only [validOps, Bool.and_eq_true] at hv
    obtain ⟨hpre, hrest⟩ := hv
    obtain ⟨s1, hrun, h1⟩ := step_inv h hpre
    obtain ⟨s2, hrun2, hn1⟩ := step_count h hn hpre
    rw [hrun] at hrun2
    cases hrun2
    simp only [hrun] at hrest
    obtain ⟨s3, hrun3, h3, hn3⟩ := ih h1 hn1 hrest
    exact ⟨s3, by simp [runOps, hrun, hrun3], h3, hn3⟩
theorem desc_of_root {s : LineageTree} (hs : Struct none s) :
    ∀ (d b : Nat) (nb : LineageTreeNode), s.mem.cells b = some nb → b ≤ d →
      ∃ r ∈ s.roots, Desc s.mem r b := by
  intro d
  induction d with
  | zero =>
    intro b nb hb hd
    cases hp : nb.parent with
    | none => exact ⟨b, (hs.rootSet b).mpr ⟨by simp, nb, hb, hp⟩, Desc.refl⟩
    | some p =>
      have := hs.order _ _ _ (by simp) hb hp
      omega
  | succ d ih =>
    intro b nb hb hd
    cases hp : nb.parent with
    | none => exact ⟨b, (hs.rootSet b).mpr ⟨by simp, nb, hb, hp⟩, Desc.refl⟩
    | some p =>
      have := hs.order _ _ _ (by simp) hb hp
      obtain ⟨_, np, h1, h2⟩ := hs.parentLive _ _ _ (by simp) hb hp
      obtain ⟨r, hr, hd2⟩ := ih p np h1 (by omega)
      exact ⟨r, hr, Desc.step hd2 h1 h2⟩

theorem Freed.congr_freed {s : LineageTree} {F G : Nat → Prop} {m : Mem} (h : Freed s F m)
    (hFG : ∀ b, F b ↔ G b) : Freed s G m :=
  ⟨h.1, fun b => ⟨fun hg => (h.2 b).1 ((hFG b).2 hg),
    fun hg => (h.2 b).2 (fun hf => hg ((hFG b).1 hf))⟩⟩

theorem deleteKids_spec {s : LineageTree}
    (rec : Mem → Nat → Except Err Mem) (cs0 : List Nat)
    (hdis : ∀ c1 ∈ cs0, ∀ c2 ∈ cs0, ∀ b, Desc s.mem c1 b → Desc s.mem c2 b → c1 = c2)
    (hrec : ∀ c ∈ cs0, ∀ m F, Freed s F m → (∀ b, Desc s.mem c b → ¬ F b) →
      ∃ m1, rec m c = .ok m1 ∧ Freed s (fun b => F b ∨ Desc s.mem c b) m1) :
    ∀ (cs : List Nat) (m : Mem) (F : Nat → Prop), (∀ c ∈ cs, c ∈ cs0) → cs.Nodup →
      Freed s F m → (∀ c ∈ cs, ∀ b, Desc s.mem c b → ¬ F b) →
      ∃ m1, deleteKids rec m cs = .ok m1 ∧
        Freed s (fun b => F b ∨ ∃ c ∈ cs, Desc s.mem c b) m1 := by
  intro cs
  induction cs with
  | nil =>
    intro m F _ _ hF _
    exact ⟨m, rfl, hF.congr_freed (fun b => by simp)⟩
  | cons c cs ih =>
    intro m F hsub hnd hF hfree
    obtain ⟨m1, h1, hF1⟩ := hrec c (hsub c (List.mem_cons_self _ _)) m F hF
      (hfree c (List.mem_cons_self _ _))
    have hnd2 := List.nodup_cons.1 hnd
    obtain ⟨m2, h2, hF2⟩ := ih m1 (fun b => F b ∨ Desc s.mem c b)
      (fun c1 hc1 => hsub c1 (List.mem_cons_of_mem _ hc1)) hnd2.2 hF1 (by
        intro c1 hc1 b hd hor
        rcases hor with hf | hd2
        · exact hfree c1 (List.mem_cons_of_mem _ hc1) b hd hf
        · have := hdis c (hsub c (List.mem_cons_self _ _)) c1
            (hsub c1 (List.mem_cons_of_mem _ hc1)) b hd2 hd
          subst this
          exact hnd2.1 hc1)
    refine ⟨m2, by simp only [deleteKids, h1, h2], hF2.congr_freed (fun b => ?_)⟩
    simp only [List.mem_cons, exists_eq_or_imp]
    tauto

theorem delete_spec {s : LineageTree} (hs : Struct none s) :
    ∀ (fuel : Nat) (a : Nat) (m : Mem) (F : Nat → Prop), Freed s F m →
      (∃ n, s.mem.cells a = some n) → (∀ b, Desc s.mem a b → ¬ F b) →
      s.mem.next ≤ fuel + a →
      ∃ m1, deleteLineageTreeNodeTree fuel m a = .ok m1 ∧
        Freed s (fun b => F b ∨ Desc s.mem a b) m1 := by
  intro fuel
  induction fuel with
  | zero =>
    intro a m F _ ⟨n, hn⟩ _ hfuel
    have := live_lt_next hs hn
    omega
  | succ fuel ih =>
    intro a m F hF ⟨n, hn⟩ hfree hfuel
    have hma : m.cells a = some n := by
      rw [(hF.2 a).2 (hfree a Desc.refl)]
      exact hn
    have hkids := deleteKids_spec (deleteLineageTreeNodeTree fuel) n.children.reverse
      (fun c1 h1 c2 h2 b d1 d2 =>
        Desc.siblings hs hn (List.mem_reverse.1 h1) (List.mem_reverse.1 h2) d1 d2)
      (fun c hc m0 F0 hF0 hfree0 => by
        obtain ⟨_, nc, h1, h2⟩ := hs.childLive a n c (by simp) hn (List.mem_reverse.1 hc)
        have := hs.order _ _ _ (by simp) h1 h2
        exact ih c m0 F0 hF0 ⟨nc, h1⟩ hfree0 (by omega))
      n.children.reverse m F (fun c hc => hc)
      (List.nodup_reverse.2 (hs.childNodup a n (by simp) hn)) hF
      (fun c hc b hd => hfree b ((Desc.child hn (List.mem_reverse.1 hc)).trans_desc hd))
    obtain ⟨m1, h1, hF1⟩ := hkids
    refine ⟨m1.free a, by simp only [deleteLineageTreeNodeTree, Mem.get_of_cells hma, h1],
      hF1.1, fun b => ⟨fun hb => ?_, fun hb => ?_⟩⟩
    · rw [Mem.free_cells]
      by_cases hba : b = a
      · rw [if_pos hba]
      · rw [if_neg hba]
        refine (hF1.2 b).1 ?_
        rcases hb with hb | hb
        · exact Or.inl hb
        · rcases (Desc.head_iff hn).1 hb with e | ⟨c, hc, hd⟩
          · exact absurd e hba
          · exact Or.inr ⟨c, List.mem_reverse.2 hc, hd⟩
    · have hba : b ≠ a := fun e => hb (Or.inr (e ▸ Desc.refl))
      rw [Mem.free_cells, if_neg hba]
      refine (hF1.2 b).2 ?_
      rintro (hf | ⟨c, hc, hd⟩)
      · exact hb (Or.inl hf)
      · exact hb (Or.inr ((Desc.child hn (List.mem_reverse.1 hc)).trans_desc hd))

theorem liveBelow_none {c : Nat → Option LineageTreeNode} (h : ∀ a, c a = none) :
    ∀ n, liveBelow c n = 0
  | 0 => rfl
  | n + 1 => by simp [liveBelow, liveBelow_none h n, h n]

theorem reset_spec {s : LineageTree} (h : Inv s) (hnd : s.roots.Nodup) :
    ∃ s0, reset s = .ok s0 ∧ s0.nnodes = 0 ∧ s0.roots = [] ∧ s0.extantLngs = [] ∧
      s0.sampled_lineages = [] ∧ (∀ a, s0.mem.cells a = none) ∧ liveCount s0.mem = 0 := by
  have hs := h.struct
  have hroot : ∀ r ∈ s.roots, ∃ n, s.mem.cells r = some n ∧ n.parent = none :=
    fun r hr => ((hs.rootSet r).1 hr).2
  have hloop := deleteKids_spec (deleteLineageTreeNodeTree (s.mem.next + 1)) s.roots
    (fun r1 h1 r2 h2 b d1 d2 => by
      obtain ⟨n1, e1, p1⟩ := hroot r1 h1
      obtain ⟨n2, e2, p2⟩ := hroot r2 h2
      rcases Desc.chain hs d1 d2 with d | d
      · rcases d.up hs with e | ⟨nx, p, f1, f2, _⟩
        · exact e.symm
        · rw [e2] at f1; cases f1; rw [p2] at f2; cases f2
      · rcases d.up hs with e | ⟨nx, p, f1, f2, _⟩
        · exact e
        · rw [e1] at f1; cases f1; rw [p1] at f2; cases f2)
    (fun r hr m F hF hfree => by
      obtain ⟨n, e, _⟩ := hroot r hr
      exact delete_spec hs _ r m F hF ⟨n, e⟩ hfree (by omega))
    s.roots s.mem (fun _ => False) (fun c hc => hc) hnd
    ⟨rfl, fun b => ⟨fun hb => hb.elim, fun _ => rfl⟩⟩ (fun _ _ _ _ hf => hf)
  obtain ⟨m1, h1, hF1⟩ := hloop
  have hall : ∀ a, m1.cells a = none := by
    intro a
    cases ha : s.mem.cells a with
    | none =>
      by_cases hf : (False ∨ ∃ c ∈ s.roots, Desc s.mem c a)
      · exact (hF1.2 a).1 hf
      · rw [(hF1.2 a).2 hf, ha]
    | some n =>
      obtain ⟨r, hr, hd⟩ := desc_of_root hs a a n ha (le_refl _)
      exact (hF1.2 a).1 (Or.inr ⟨r, hr, hd⟩)
  exact ⟨{ mem := m1, nnodes := 0, extantLngs := [], roots := [], sampled_lineages := [] },
    by simp only [reset, h1], rfl, rfl, rfl, rfl, hall, liveBelow_none hall m1.next⟩
theorem nodup_setErase {l : List Nat} (h : l.Nodup) (a : Nat) : (setErase l a).Nodup :=
  h.filter _

theorem nodup_setInsert {l : List Nat} (h : l.Nodup) (a : Nat) : (setInsert l a).Nodup := by
  unfold setInsert
  split_ifs with h1
  · exact h
  · refine List.nodup_append.2 ⟨h, List.nodup_singleton a, ?_⟩
    intro b hb hb2
    rw [List.mem_singleton] at hb2
    subst hb2
    exact h1 hb

theorem RemoveStep.roots_cases {s1 s2 : LineageTree} {x : Nat} {nx : LineageTreeNode}
    (st : RemoveStep s1 x nx s2) :
    s2.roots = s1.roots ∨ (∃ p c, s2.roots = setInsert (setErase s1.roots p) c) ∨
      s2.roots = setErase s1.roots x := by
  cases st with
  | keep h => exact Or.inl rfl
  | spliceSelf hsam r => exact Or.inl r.roots
  | promoteSelf hsam r => exact Or.inr (Or.inl ⟨_, _, r.roots⟩)
  | leafRoot hsam hleaf hpar => exact Or.inr (Or.inr rfl)
  | leafKeep hsam r h => exact Or.inl r.roots
  | leafSplice hsam r hpe hps r2 => exact Or.inl (r2.roots.trans r.roots)
  | @leafPromote sA sB p c np nc cs1 hsam r hpe hps r2 =>
    refine Or.inr (Or.inl ⟨p, c, ?_⟩)
    show sB.roots = setInsert (setErase s1.roots p) c
    rw [← r.roots]
    exact r2.roots

theorem step_roots {s : LineageTree} (h : Inv s) (hn : s.roots.Nodup) {op : Op}
    (hpre : opPre s op = true) {s1 : LineageTree} (hrun : applyOp s op = .ok s1) :
    s1.roots.Nodup := by
  cases op with
  | addExternal t lng data =>
    simp only [applyOp, Except.ok.injEq] at hrun
    subst hrun
    exact nodup_setInsert hn _
  | add t lng data lngParent =>
    simp only [opPre, Bool.and_eq_true, Bool.not_eq_true', Option.isSome_iff_exists] at hpre
    obtain ⟨hf, pa, hpa⟩ := hpre
    obtain ⟨np, hnp, _, _⟩ := (h.einv lngParent pa).1 hpa
    obtain ⟨s2, hrun2, r⟩ := addExtant_rel hpa hnp t lng data
    simp only [applyOp] at hrun
    rw [hrun] at hrun2
    cases hrun2
    rw [r.roots]
    exact hn
  | sample lng t loc =>
    simp only [opPre, Option.isSome_iff_exists] at hpre
    obtain ⟨x, hx⟩ := hpre
    obtain ⟨nx, hnx, hl, _⟩ := (h.einv lng x).1 hx
    rcases sample_rel hx hnx hl t loc with ⟨_, hrun2⟩ | ⟨s2, hrun2, r⟩
    · simp only [applyOp, hrun2, Except.ok.injEq] at hrun
      subst hrun
      exact hn
    · simp only [applyOp, hrun2, Except.ok.injEq] at hrun
      subst hrun
      rw [r.roots]
      exact hn
  | remove lng ig =>
    simp only [opPre, Option.isSome_iff_exists] at hpre
    obtain ⟨x, hx⟩ := hpre
    obtain ⟨nx, hnx, hl, hext⟩ := (h.einv lng x).1 hx
    obtain ⟨s2, hrun2, st⟩ := remove_outcome h.struct h.prune hx hnx ig
    simp only [applyOp] at hrun
    rw [hrun] at hrun2
    cases hrun2
    show s2.roots.Nodup
    rcases st.roots_cases with e | ⟨p, c, e⟩ | e
    · rw [e]; exact hn
    · rw [e]; exact nodup_setInsert (nodup_setErase hn _) _
    · rw [e]; exact nodup_setErase hn _

theorem run_roots {s : LineageTree} (h : Inv s) (hn : s.roots.Nodup) (ops : List Op)
    (hv : validOps s ops = true) {s1 : LineageTree} (hrun : runOps s ops = .ok s1) :
    s1.roots.Nodup := by
  induction ops generalizing s with
  | nil =>
    simp only [runOps, Except.ok.injEq] at hrun
    subst hrun
    exact hn
  | cons op ops ih =>
    simp only [validOps, Bool.and_eq_true] at hv
    obtain ⟨hpre, hrest⟩ := hv
    obtain ⟨s2, hstep, h2⟩ := step_inv h hpre
    simp only [hstep] at hrest
    simp only [runOps, hstep] at hrun
    exact ih h2 (step_roots h hn hpre hstep) hrest hrun

theorem NInv.empty_count : NInv LineageTree.empty := by
  show (0 : Nat) = liveBelow _ 0 % 2 ^ 32
  rfl

/-- C26 (node counter).  After every sequence of calls that starts from the empty tree and
respects the preconditions, the run completes and `nnodes` equals, as an `unsigned int`,
the number of nodes that are allocated and not yet freed; these are exactly the nodes
reachable from `roots`.  A following `reset()` completes, frees every node and leaves
`nnodes = 0` with no root. -/
theorem node_counter (ops : List Op) (hv : validOps LineageTree.empty ops = true) :
    ∃ s, runOps LineageTree.empty ops = .ok s ∧
      s.nnodes = liveCount s.mem % 2 ^ 32 ∧
      (∀ a, (∃ n, s.mem.cells a = some n) ↔ ∃ r ∈ s.roots, Desc s.mem r a) ∧
      ∃ s0, reset s = .ok s0 ∧ s0.nnodes = 0 ∧ s0.roots = [] ∧
        (∀ a, s0.mem.cells a = none) ∧ liveCount s0.mem = 0 := by
  obtain ⟨s, hrun, hinv, hn⟩ := run_count Inv.empty_inv NInv.empty_count ops hv
  have hnd := run_roots Inv.empty_inv (List.nodup_nil) ops hv hrun
  obtain ⟨s0, h0, h1, h2, _, _, h5, h6⟩ := reset_spec hinv hnd
  refine ⟨s, hrun, hn, fun a => ⟨fun ⟨n, ha⟩ => desc_of_root hinv.struct a a n ha (le_refl _),
    fun ⟨r, hr, hd⟩ => ?_⟩, s0, h0, h1, h2, h5, h6⟩
  obtain ⟨nr, hnr, _⟩ := ((hinv.struct.rootSet r).1 hr).2
  exact Desc.live hinv.struct hnr hd

theorem node_counter_witness :
    validOps LineageTree.empty exampleOps = true ∧
    ∃ s, runOps LineageTree.empty exampleOps = .ok s ∧
      s.nnodes = liveCount s.mem % 2 ^ 32 ∧
      ∃ s0, reset s = .ok s0 ∧ s0.nnodes = 0 ∧ liveCount s0.mem = 0 := by
  obtain ⟨s, h1, h2, _, s0, h4, h5, _, _, h8⟩ := node_counter exampleOps (by decide)
  exact ⟨by decide, s, h1, h2, s0, h4, h5, h8⟩

theorem UChain.two_le {n : LineageTreeNode} {d : Nat} {R : List LTree} {p : PhyloNode}
    (h : UChain n d R p) : 2 ≤ R.length := by
  induction h with
  | last _ _ _ => simp
  | step _ _ _ ih => simp only [List.length_cons]; omega

theorem drop_two_nil {cur : List LTree} {d : Nat} (h1 : d + 1 < cur.length)
    (h2 : ¬ d < cur.length - 2) : cur.drop (d + 1 + 1) = [] := by
  apply List.drop_eq_nil_of_le
  omega

theorem gatUnsampled_chain {f : Nat} {n : LineageTreeNode} {cur : List LTree}
    {pp : Option PhyloParent} {st : ChainState} {res : LTree × PhyloNode}
    (hP : ∀ cur q res, q.lng = n.lng →
      getAncestralTree f (.mk n cur) (some q) = .ok res →
      UChain n (q.depth + 1) (cur.drop (q.depth + 1)) res.2)
    (h : gatUnsampled (getAncestralTree f) n cur cur.length pp st = .ok res) :
    UChain n st.depth (cur.drop st.depth) res.2 := by
  unfold gatUnsampled at h
  split_ifs at h with h1 h2 h3
  · split at h
    · cases h
    rename_i child hchild
    dsimp only at h
    split at h
    · cases h
    split at h
    · cases h
    rename_i c1 left hl
    split at h
    · cases h
    rename_i node1 right hr
    cases h
    rw [(kidAt_ok hchild).2]
    have hc := hP _ _ _ (asParent_lng _ _ _ _ _) hr
    simp only [asParent] at hc
    rw [drop_set_lt _ (Nat.lt_add_one _)] at hc
    exact UChain.step ⟨rfl, rfl, rfl, rfl, rfl⟩ ⟨f, c1, hl⟩ hc
  · split at h
    · cases h
    rename_i child hchild
    dsimp only at h
    split at h
    · cases h
    split at h
    · cases h
    rename_i child2 hchild2
    split at h
    · cases h
    rename_i c1 left hl
    split at h
    · cases h
    rename_i c2 right hr
    cases h
    rw [(kidAt_ok hchild).2, (kidAt_ok hchild2).2, drop_two_nil (kidAt_ok hchild2).1 h3]
    exact UChain.last ⟨rfl, rfl, rfl, rfl, rfl⟩ ⟨f, c1, hl⟩ ⟨f, c2, hr⟩

theorem unsampled_rec (n : LineageTreeNode) (hs : n.sampled = false) :
    ∀ (f : Nat) (cur : List LTree) (q : PhyloParent) (res : LTree × PhyloNode),
      q.lng = n.lng → getAncestralTree f (.mk n cur) (some q) = .ok res →
      UChain n (q.depth + 1) (cur.drop (q.depth + 1)) res.2 := by
  intro f
  induction f with
  | zero =>
    intro cur q res _ h
    simp [getAncestralTree] at h
  | succ f ih =>
    intro cur q res hq h
    rw [getAncestralTree] at h
    dsimp only at h
    rw [entryState_chain hq] at h
    simp only [Nat.add_one_ne_zero, and_false, if_false, hs, Bool.false_eq_true] at h
    split_ifs at h with h1
    · unfold gatLeaf at h
      simp [hs] at h
    · exact gatUnsampled_chain ih h

theorem UChain.link {n : LineageTreeNode} {d : Nat} {R : List LTree} {p : PhyloNode}
    (h : UChain n d R p) :
    ∀ i, i + 1 < R.length → ∃ link l c, p.linkAt i = some link ∧ link.lng = n.lng ∧
      link.depth = d + i ∧ R[i]? = some c ∧ link.t = c.node.tBranchParent ∧
      link.leftChild = some l ∧ PhyloOf c link.asParent l ∧
      (i + 2 = R.length →
        ∃ c2 r, R[i + 1]? = some c2 ∧ link.rightChild = some r ∧ PhyloOf c2 link.asParent r) := by
  induction h with
  | @last d c1 c2 p l r hn h1 h2 =>
    intro i hi
    have hi0 : i = 0 := by
      simp only [List.length_cons, List.length_nil] at hi
      omega
    subst hi0
    exact ⟨p, l, c1, rfl, hn.1, hn.2.1, (by simp), hn.2.2.1, hn.2.2.2.1, h1,
      fun _ => ⟨c2, r, (by simp), hn.2.2.2.2, h2⟩⟩
  | @step d c rest p l r hn h1 hc ih =>
    intro i hi
    cases i with
    | zero =>
      refine ⟨p, l, c, rfl, hn.1, hn.2.1, (by simp), hn.2.2.1, hn.2.2.2.1, h1, fun h2 => ?_⟩
      have := hc.two_le
      simp only [List.length_cons] at h2
      omega
    | succ i =>
      simp only [List.length_cons] at hi
      obtain ⟨link, l2, c2, e1, e2, e3, e4, e5, e6, e7, e8⟩ := ih i (by omega)
      refine ⟨link, l2, c2, ?_, e2, by omega, by simpa using e4, e5, e6, e7, fun h2 => ?_⟩
      · simp only [PhyloNode.linkAt, hn.2.2.2.2]
        exact e1
      · simp only [List.length_cons] at h2
        obtain ⟨c3, r3, f1, f2, f3⟩ := e8 (by omega)
        exact ⟨c3, r3, by simpa using f1, f2, f3⟩

/-- C28 (unsampled multifurcation).  For an unsampled node `n` with `k ≥ 2` children that
is entered from a phylogeny node of another lineage (or from none), every phylogeny that
`getAncestralTree` returns is the chain `UChain n 0 children_sorted`, where
`children_sorted` is the children in ascending order of branching time: the link at
position `d` carries the lineage of `n`, has depth `d` and the branching time of
`children_sorted[d]`, its left child is the phylogeny of `children_sorted[d]`, and its right
child is the next link, except for the link at position `k − 2`, the last of the `k − 1`
links, whose right child is the phylogeny of `children_sorted[k − 1]`.  And the call does
return this chain, with any fuel from the weight of the tree on, when the tree below `n`
meets the conditions of the builder (lineages distinct along edges, unsampled nodes with at
least two children, ordered times) and the node it is entered from is not younger than
`n`. -/
theorem unsampled_chain (n : LineageTreeNode) (ks : List LTree)
    (pp : Option PhyloParent) (hs : n.sampled = false)
    (hk : 2 ≤ ks.length) (hfresh : ∀ q, pp = some q → q.lng ≠ n.lng) :
    (∀ fuel r1 p, getAncestralTree fuel (.mk n ks) pp = .ok (r1, p) →
      UChain n 0 (sortKids ks) p ∧ (sortKids ks).Perm ks ∧ (sortKids ks).Pairwise kidLe ∧
      ∀ i, i + 1 < ks.length → ∃ link l c, p.linkAt i = some link ∧ link.lng = n.lng ∧
        link.depth = i ∧ (sortKids ks)[i]? = some c ∧ link.t = c.node.tBranchParent ∧
        link.leftChild = some l ∧ PhyloOf c link.asParent l ∧
        (i + 2 = ks.length → ∃ c2 r, (sortKids ks)[i + 1]? = some c2 ∧
          link.rightChild = some r ∧ PhyloOf c2 link.asParent r)) ∧
    ((LTree.mk n ks).all wellQ = true → (∀ q, pp = some q → q.t ≤ n.t) →
      ∀ fuel, (LTree.mk n ks).weight ≤ fuel →
        ∃ r1 p, getAncestralTree fuel (.mk n ks) pp = .ok (r1, p) ∧
          UChain n 0 (sortKids ks) p ∧
          ∀ i, i + 1 < ks.length → ∃ link l c, p.linkAt i = some link ∧ link.lng = n.lng ∧
            link.depth = i ∧ (sortKids ks)[i]? = some c ∧ link.t = c.node.tBranchParent ∧
            link.leftChild = some l ∧ PhyloOf c link.asParent l ∧
            (i + 2 = ks.length → ∃ c2 r, (sortKids ks)[i + 1]? = some c2 ∧
              link.rightChild = some r ∧ PhyloOf c2 link.asParent r)) := by
  have hlen0 : (sortKids ks).length = ks.length := (sortKids_perm ks).length_eq
  have part : ∀ fuel r1 p, getAncestralTree fuel (.mk n ks) pp = .ok (r1, p) →
      UChain n 0 (sortKids ks) p ∧ (sortKids ks).Perm ks ∧ (sortKids ks).Pairwise kidLe ∧
      ∀ i, i + 1 < ks.length → ∃ link l c, p.linkAt i = some link ∧ link.lng = n.lng ∧
        link.depth = i ∧ (sortKids ks)[i]? = some c ∧ link.t = c.node.tBranchParent ∧
        link.leftChild = some l ∧ PhyloOf c link.asParent l ∧
        (i + 2 = ks.length → ∃ c2 r, (sortKids ks)[i + 1]? = some c2 ∧
          link.rightChild = some r ∧ PhyloOf c2 link.asParent r) := by
    intro fuel r1 p h
    suffices hu : UChain n 0 (sortKids ks) p by
      refine ⟨hu, sortKids_perm ks, sortKids_pairwise ks, fun i hi => ?_⟩
      obtain ⟨link, l, c, e1, e2, e3, e4, e5, e6, e7, e8⟩ := hu.link i (by omega)
      exact ⟨link, l, c, e1, e2, by omega, e4, e5, e6, e7, fun h2 => e8 (by omega)⟩
    cases fuel with
    | zero => simp [getAncestralTree] at h
    | succ f =>
      rw [getAncestralTree] at h
      dsimp only at h
      rw [entryState_fresh hfresh] at h
      have hk1 : 1 < ks.length := by omega
      have hk0 : ¬ ks.length = 0 := by omega
      simp only [hk1, true_and, if_true, hs, Bool.false_eq_true, if_false, hk0] at h
      have hlen : (sortKids ks).length = ks.length := (sortKids_perm ks).length_eq
      rw [← hlen] at h
      exact gatUnsampled_chain (unsampled_rec n hs f) h
  refine ⟨part, fun hwell hlow fuel hf => ?_⟩
  obtain ⟨⟨r1, p⟩, hrun⟩ := (gat_total fuel).1 (.mk n ks) pp hwell
    (fun q hq => ⟨hfresh q hq, hlow q hq⟩) hf
  obtain ⟨a1, _, _, a4⟩ := part fuel r1 p hrun
  exact ⟨r1, p, hrun, a1, a4⟩

theorem unsampled_chain_witness :
    fanTree.node.sampled = false ∧ 2 ≤ fanTree.kids.length ∧
    fanTree.all wellQ = true ∧
    ∃ r1 p, getAncestralTree fanTree.weight fanTree none = .ok (r1, p) ∧
      UChain fanTree.node 0 (sortKids fanTree.kids) p ∧
      (sortKids fanTree.kids).map (fun c => c.node.lng) = [3, 4, 2] := by
  obtain ⟨r1, p, h1, h2, _⟩ := (unsampled_chain fanTree.node fanTree.kids none rfl (by decide)
    (fun _ hq => by cases hq)).2 (by decide) (fun _ hq => by cases hq) fanTree.weight
    (le_refl _)
  exact ⟨rfl, by decide, by decide, r1, p, h1, h2, by decide⟩
theorem drop_one_nil {cur : List LTree} {d : Nat} (h1 : d < cur.length)
    (h2 : ¬ d < cur.length - 1) : cur.drop (d + 1) = [] := by
  apply List.drop_eq_nil_of_le
  omega

theorem gatLate_chain {f : Nat} {n : LineageTreeNode} {cur : List LTree}
    {pp : Option PhyloParent} {st : ChainState} {attach : Nat} {res : LTree × PhyloNode}
    (hP : ∀ cur q res, q.lng = n.lng → cur ≠ [] → ¬ q.depthAttachSampledNode < cur.length →
      getAncestralTree f (.mk n cur) (some q) = .ok res →
      LChain n (q.depth + 1) (cur.drop (q.depth + 1)) res.2)
    (hna : ¬ attach < cur.length)
    (h : gatLate (getAncestralTree f) n cur cur.length pp st attach = .ok res) :
    LChain n st.depth (cur.drop st.depth) res.2 := by
  unfold gatLate at h
  split at h
  · cases h
  rename_i child hchild
  dsimp only at h
  split at h
  · cases h
  split_ifs at h with h1
  · split at h
    · cases h
    rename_i c1 left hl
    split at h
    · cases h
    rename_i node1 right hr
    cases h
    rw [(kidAt_ok hchild).2]
    have hne : cur.set st.depth c1 ≠ [] := by
      intro e
      have e2 := congrArg List.length e
      have e3 := (kidAt_ok hchild).1
      simp only [List.length_set, List.length_nil] at e2
      omega
    have hc := hP _ _ _ (asParent_lng _ _ _ _ _) hne
      (by simpa only [asParent, List.length_set] using hna) hr
    simp only [asParent] at hc
    rw [drop_set_lt _ (Nat.lt_add_one _)] at hc
    exact LChain.step ⟨rfl, rfl, rfl, rfl, rfl⟩ ⟨f, c1, hl⟩ hc
  · split at h
    · cases h
    rename_i c1 left hl
    cases h
    rw [(kidAt_ok hchild).2, drop_one_nil (kidAt_ok hchild).1 h1]
    exact LChain.last ⟨rfl, rfl, rfl, rfl, rfl⟩ ⟨f, c1, hl⟩ ⟨rfl, rfl, rfl, rfl, rfl, rfl, rfl⟩

theorem gatStep_chain {f : Nat} {n : LineageTreeNode} {cur : List LTree}
    {pp : Option PhyloParent} {st : ChainState} {attach : Nat} {res : LTree × PhyloNode}
    (hP : ∀ cur q res, q.lng = n.lng → q.depthAttachSampledNode < cur.length →
      getAncestralTree f (.mk n cur) (some q) = .ok res →
      (q.depth + 1 ≤ q.depthAttachSampledNode → q.depthChild = q.depth + 1 →
        EChain n (q.depth + 1) (q.depthAttachSampledNode - (q.depth + 1))
          (cur.drop (q.depth + 1)) res.2) ∧
      (q.depthAttachSampledNode < q.depth + 1 → q.depthChild + 1 = q.depth + 1 →
        UChain n (q.depth + 1) (cur.drop q.depthChild) res.2))
    (ha : attach < cur.length)
    (h : gatStep (getAncestralTree f) n cur cur.length pp st attach = .ok res) :
    (st.depth < attach → st.depthChild = st.depth →
      EChain n st.depth (attach - st.depth) (cur.drop st.depth) res.2) ∧
    (attach < st.depth → st.depthChild + 1 = st.depth →
      UChain n st.depth (cur.drop st.depthChild) res.2) := by
  unfold gatStep at h
  split at h
  · cases h
  rename_i child hchild
  dsimp only at h
  split at h
  · cases h
  split at h
  · cases h
  rename_i c1 left hl
  split_ifs at h with h1
  · split at h
    · cases h
    rename_i child2 hchild2
    split at h
    · cases h
    rename_i c2 right hr
    cases h
    rw [kidAt_set_ne _ (Nat.ne_of_lt (Nat.lt_add_one _))] at hchild2
    refine ⟨fun h2 _ => by omega, fun h2 h3 => ?_⟩
    rw [(kidAt_ok hchild).2, (kidAt_ok hchild2).2,
      List.drop_eq_nil_of_le (by omega : cur.length ≤ st.depthChild + 1 + 1)]
    exact UChain.last ⟨rfl, rfl, rfl, rfl, rfl⟩ ⟨f, c1, hl⟩ ⟨f, c2, hr⟩
  · split at h
    · cases h
    rename_i node1 right hr
    cases h
    have hc := hP _ _ _ (asParent_lng _ _ _ _ _)
      (by simpa only [asParent, List.length_set] using ha) hr
    simp only [asParent] at hc
    refine ⟨fun h2 h3 => ?_, fun h2 h3 => ?_⟩
    · have hc1 := hc.1 (by omega) (by omega)
      rw [h3] at hchild hc1
      rw [drop_set_lt _ (Nat.lt_add_one _)] at hc1
      rw [(kidAt_ok hchild).2]
      obtain ⟨m, hm⟩ : ∃ m, attach - st.depth = m + 1 := ⟨attach - st.depth - 1, by omega⟩
      rw [hm]
      have e : attach - (st.depth + 1) = m := by omega
      rw [e] at hc1
      exact EChain.pre ⟨rfl, rfl, rfl, rfl, rfl⟩ ⟨f, c1, hl⟩ hc1
    · have hc2 := hc.2 (by omega) (by omega)
      rw [drop_set_lt _ (Nat.lt_add_one _)] at hc2
      rw [(kidAt_ok hchild).2]
      exact UChain.step ⟨rfl, rfl, rfl, rfl, rfl⟩ ⟨f, c1, hl⟩ hc2

theorem gatAttach_chain {f : Nat} {n : LineageTreeNode} {cur : List LTree}
    {pp : Option PhyloParent} {st : ChainState} {attach : Nat} {res : LTree × PhyloNode}
    (hP : ∀ cur q res, q.lng = n.lng → q.depthAttachSampledNode < cur.length →
      getAncestralTree f (.mk n cur) (some q) = .ok res →
      (q.depthAttachSampledNode < q.depth + 1 → q.depthChild + 1 = q.depth + 1 →
        UChain n (q.depth + 1) (cur.drop q.depthChild) res.2))
    (ha : attach < cur.length) (hd : st.depth = attach) (hdc : st.depthChild = st.depth)
    (h : gatAttach (getAncestralTree f) n cur cur.length pp st attach = .ok res) :
    EChain n st.depth 0 (cur.drop st.depth) res.2 := by
  unfold gatAttach at h
  split at h
  · cases h
  dsimp only at h
  split_ifs at h with h1
  · split at h
    · cases h
    rename_i child hchild
    split at h
    · cases h
    rename_i c1 left hl
    cases h
    rw [hdc] at hchild
    rw [(kidAt_ok hchild).2, List.drop_eq_nil_of_le (by omega : cur.length ≤ st.depth + 1)]
    exact EChain.attachLast ⟨rfl, rfl, rfl, rfl, rfl⟩ ⟨f, c1, hl⟩
      ⟨rfl, rfl, rfl, rfl, rfl, rfl, rfl⟩
  · split at h
    · cases h
    rename_i node1 left hl
    cases h
    have hc := hP _ _ _ (asParent_lng _ _ _ _ _) (by simpa only [asParent] using ha) hl
      (by simp only [asParent]; omega) (by simp only [asParent]; omega)
    simp only [asParent] at hc
    rw [hdc] at hc
    exact EChain.attach ⟨rfl, rfl, rfl, rfl, rfl⟩ hc ⟨rfl, rfl, rfl, rfl, rfl, rfl, rfl⟩

theorem sampled_rec (n : LineageTreeNode) (hs : n.sampled = true) :
    ∀ (f : Nat) (cur : List LTree) (q : PhyloParent) (res : LTree × PhyloNode),
      q.lng = n.lng → cur ≠ [] → getAncestralTree f (.mk n cur) (some q) = .ok res →
      (¬ q.depthAttachSampledNode < cur.length →
        LChain n (q.depth + 1) (cur.drop (q.depth + 1)) res.2) ∧
      (q.depthAttachSampledNode < cur.length →
        (q.depth + 1 ≤ q.depthAttachSampledNode → q.depthChild = q.depth + 1 →
          EChain n (q.depth + 1) (q.depthAttachSampledNode - (q.depth + 1))
            (cur.drop (q.depth + 1)) res.2) ∧
        (q.depthAttachSampledNode < q.depth + 1 → q.depthChild + 1 = q.depth + 1 →
          UChain n (q.depth + 1) (cur.drop q.depthChild) res.2)) := by
  intro f
  induction f with
  | zero =>
    intro cur q res _ _ h
    simp [getAncestralTree] at h
  | succ f ih =>
    intro cur q res hq hne h
    have hk0 : ¬ cur.length = 0 := fun e => hne (List.length_eq_zero.1 e)
    have hne2 : ∀ (c2 : List LTree), c2.length = cur.length → c2 ≠ [] := by
      intro c2 h2 e
      rw [e] at h2
      exact hk0 h2.symm
    rw [getAncestralTree] at h
    dsimp only at h
    rw [entryState_chain hq] at h
    simp only [Nat.add_one_ne_zero, and_false, if_false, hs, if_true, hk0] at h
    have hL : ∀ cur2 q2 res2, q2.lng = n.lng → cur2 ≠ [] →
        ¬ q2.depthAttachSampledNode < cur2.length →
        getAncestralTree f (.mk n cur2) (some q2) = .ok res2 →
        LChain n (q2.depth + 1) (cur2.drop (q2.depth + 1)) res2.2 :=
      fun cur2 q2 res2 h1 he h2 h3 => (ih cur2 q2 res2 h1 he h3).1 h2
    have hE : ∀ cur2 q2 res2, q2.lng = n.lng → q2.depthAttachSampledNode < cur2.length →
        getAncestralTree f (.mk n cur2) (some q2) = .ok res2 →
        (q2.depth + 1 ≤ q2.depthAttachSampledNode → q2.depthChild = q2.depth + 1 →
          EChain n (q2.depth + 1) (q2.depthAttachSampledNode - (q2.depth + 1))
            (cur2.drop (q2.depth + 1)) res2.2) ∧
        (q2.depthAttachSampledNode < q2.depth + 1 → q2.depthChild + 1 = q2.depth + 1 →
          UChain n (q2.depth + 1) (cur2.drop q2.depthChild) res2.2) := by
      intro cur2 q2 res2 h1 h2 h3
      have he : cur2 ≠ [] := by
        intro e
        subst e
        simp at h2
      exact (ih cur2 q2 res2 h1 he h3).2 h2
    split_ifs at h with h1 h2
    · refine ⟨fun hc => absurd h1 hc, fun _ => ⟨fun h3 h4 => ?_, fun h3 _ => by omega⟩⟩
      have := gatAttach_chain (fun c2 q2 r2 e1 e2 e3 => (hE c2 q2 r2 e1 e2 e3).2) h1 h2 h4 h
      have e : q.depthAttachSampledNode - (q.depth + 1) = 0 := by omega
      rw [e]
      exact this
    · refine ⟨fun hc => absurd h1 hc, fun _ => ?_⟩
      have := gatStep_chain hE h1 h
      refine ⟨fun h3 h4 => this.1 (by simp only at h2 ⊢; omega) h4, fun h3 h4 => this.2 h3 h4⟩
    · exact ⟨fun _ => gatLate_chain hL h1 h, fun hc => absurd hc h1⟩
theorem attachDepth_count (t : Int) : ∀ l : List LTree, l.Pairwise kidLe →
    attachDepth t l = l.countP (fun c => decide (c.node.tBranchParent ≤ t))
  | [], _ => rfl
  | c :: rest, h => by
    have h2 := List.pairwise_cons.1 h
    have ih := attachDepth_count t rest h2.2
    by_cases h1 : t < c.node.tBranchParent
    · have hz : rest.countP (fun c => decide (c.node.tBranchParent ≤ t)) = 0 := by
        rw [List.countP_eq_zero]
        intro x hx
        have : c.node.tBranchParent ≤ x.node.tBranchParent := h2.1 x hx
        simp only [decide_eq_true_eq, not_le]
        omega
      have hnot : ¬ c.node.tBranchParent ≤ t := by omega
      simp [attachDepth, List.countP_cons, h1, hnot, hz]
    · have hle : c.node.tBranchParent ≤ t := by omega
      simp [attachDepth, List.countP_cons, h1, hle, ih]

theorem sortKids_one {ks : List LTree} (h : ks.length = 1) : sortKids ks = ks := by
  match ks, h with
  | [c], _ => rfl

theorem sampled_top (n : LineageTreeNode) (hs : n.sampled = true) (fuel : Nat)
    (ks : List LTree) (pp : Option PhyloParent) (res : LTree × PhyloNode)
    (hk : 1 ≤ ks.length) (hfresh : ∀ q, pp = some q → q.lng ≠ n.lng)
    (h : getAncestralTree fuel (.mk n ks) pp = .ok res) :
    (attachDepth n.tSample (sortKids ks) < ks.length →
      EChain n 0 (attachDepth n.tSample (sortKids ks)) (sortKids ks) res.2) ∧
    (¬ attachDepth n.tSample (sortKids ks) < ks.length → LChain n 0 (sortKids ks) res.2) := by
  cases fuel with
  | zero => simp [getAncestralTree] at h
  | succ f =>
    have hlen : (sortKids ks).length = ks.length := (sortKids_perm ks).length_eq
    have hk0 : ¬ ks.length = 0 := by omega
    rw [getAncestralTree] at h
    dsimp only at h
    rw [entryState_fresh hfresh] at h
    have hS : (if 1 < ks.length ∧
        ({ depth := 0, depthChild := 0, attach := uintMinusOne } : ChainState).depth = 0
        then sortKids ks else ks) = sortKids ks := by
      split_ifs with h1
      · rfl
      · have : ks.length = 1 := by
          by_contra h2
          exact h1 ⟨by omega, rfl⟩
        exact (sortKids_one this).symm
    rw [hS] at h
    simp only [hk0, if_false, hs, if_true] at h
    rw [← hlen] at h ⊢
    have ih := sampled_rec n hs f
    have hne : ∀ (c2 : List LTree) (q2 : PhyloParent), q2.depthAttachSampledNode < c2.length →
        c2 ≠ [] := by
      intro c2 q2 h2 e
      subst e
      simp at h2
    split_ifs at h with h1 h2
    · refine ⟨fun _ => ?_, fun hc => absurd h1 hc⟩
      have := gatAttach_chain
        (fun c2 q2 r2 e1 e2 e3 => ((ih c2 q2 r2 e1 (hne c2 q2 e2) e3).2 e2).2) h1 h2 rfl h
      rw [← h2]
      exact this
    · refine ⟨fun _ => ?_, fun hc => absurd h1 hc⟩
      have := gatStep_chain
        (fun c2 q2 r2 e1 e2 e3 => (ih c2 q2 r2 e1 (hne c2 q2 e2) e3).2 e2) h1 h
      exact this.1 (Nat.pos_of_ne_zero (fun e => h2 e.symm)) rfl
    · refine ⟨fun hc => absurd hc h1, fun _ => ?_⟩
      exact gatLate_chain (fun c2 q2 r2 e1 e2 e3 e4 => (ih c2 q2 r2 e1 e2 e4).1 e3) h1 h

/-- C29 (sampled ancestor placement).  For a sampled node `n` with `k ≥ 1` children that is
entered from a phylogeny node of another lineage (or from none), let `children_sorted` be
the children in ascending order of branching time and `a` the number of children with
`tBranchParent ≤ n.tSample` (a tie counts, so the leaf comes after the equal-time child).
If `a < k` every phylogeny that `getAncestralTree` returns is the chain
`EChain n 0 a children_sorted`: `k` links of the lineage of `n`, of which the link at
position `a` has the sampling time and the leaf of `n` (lineage, sampling time and location
of `n`, branch length `0`) as its right child.  If `a = k` it is the chain
`LChain n 0 children_sorted`: `k` links, the last of which has the leaf of `n` as right
child, with branch length `n.tSample` minus the branching time of the last child.  Every
child is attached once, as a left child (or as the right child of the last link), in the
order of `children_sorted`.  And the call does return this chain, with any fuel from the
weight of the tree on, when the tree below `n` meets the conditions of the builder (lineages
distinct along edges, unsampled nodes with at least two children, ordered times) and the
node it is entered from is not younger than `n`. -/
theorem sampled_chain (n : LineageTreeNode) (ks : List LTree)
    (pp : Option PhyloParent) (hs : n.sampled = true)
    (hk : 1 ≤ ks.length) (hfresh : ∀ q, pp = some q → q.lng ≠ n.lng) :
    ((sortKids ks).Perm ks ∧ (sortKids ks).Pairwise kidLe ∧
      attachDepth n.tSample (sortKids ks) =
        ks.countP (fun c => decide (c.node.tBranchParent ≤ n.tSample)) ∧
      attachDepth n.tSample (sortKids ks) ≤ ks.length) ∧
    (∀ fuel r1 p, getAncestralTree fuel (.mk n ks) pp = .ok (r1, p) →
      (attachDepth n.tSample (sortKids ks) < ks.length →
        EChain n 0 (attachDepth n.tSample (sortKids ks)) (sortKids ks) p) ∧
      (attachDepth n.tSample (sortKids ks) = ks.length → LChain n 0 (sortKids ks) p)) ∧
    ((LTree.mk n ks).all wellQ = true → (∀ q, pp = some q → q.t ≤ n.t) →
      ∀ fuel, (LTree.mk n ks).weight ≤ fuel →
        ∃ r1 p, getAncestralTree fuel (.mk n ks) pp = .ok (r1, p) ∧
          (attachDepth n.tSample (sortKids ks) < ks.length →
            EChain n 0 (attachDepth n.tSample (sortKids ks)) (sortKids ks) p) ∧
          (attachDepth n.tSample (sortKids ks) = ks.length →
            LChain n 0 (sortKids ks) p)) := by
  have hle : attachDepth n.tSample (sortKids ks) ≤ ks.length := by
    have h1 := attachDepth_le n.tSample (sortKids ks)
    rw [(sortKids_perm ks).length_eq] at h1
    exact h1
  have part : ∀ fuel r1 p, getAncestralTree fuel (.mk n ks) pp = .ok (r1, p) →
      (attachDepth n.tSample (sortKids ks) < ks.length →
        EChain n 0 (attachDepth n.tSample (sortKids ks)) (sortKids ks) p) ∧
      (attachDepth n.tSample (sortKids ks) = ks.length → LChain n 0 (sortKids ks) p) := by
    intro fuel r1 p h
    have ht := sampled_top n hs fuel ks pp (r1, p) hk hfresh h
    exact ⟨ht.1, fun hc => ht.2 (by omega)⟩
  refine ⟨⟨sortKids_perm ks, sortKids_pairwise ks, ?_, hle⟩, part,
    fun hwell hlow fuel hf => ?_⟩
  · rw [attachDepth_count _ _ (sortKids_pairwise ks)]
    exact (sortKids_perm ks).countP_eq _
  · obtain ⟨⟨r1, p⟩, hrun⟩ := (gat_total fuel).1 (.mk n ks) pp hwell
      (fun q hq => ⟨hfresh q hq, hlow q hq⟩) hf
    exact ⟨r1, p, hrun, part fuel r1 p hrun⟩

theorem sampled_chain_witness :
    e5Tree.node.sampled = true ∧ 1 ≤ e5Tree.kids.length ∧ e5Tree.all wellQ = true ∧
    attachDepth e5Tree.node.tSample (sortKids e5Tree.kids) = 1 ∧
    (∃ r1 p, getAncestralTree e5Tree.weight e5Tree none = .ok (r1, p) ∧
      EChain e5Tree.node 0 1 (sortKids e5Tree.kids) p) ∧
    sampleTree.node.sampled = true ∧ 1 ≤ sampleTree.kids.length ∧
    sampleTree.all wellQ = true ∧
    attachDepth sampleTree.node.tSample (sortKids sampleTree.kids) = 2 ∧
    ∃ r1 p, getAncestralTree sampleTree.weight sampleTree none = .ok (r1, p) ∧
      LChain sampleTree.node 0 (sortKids sampleTree.kids) p := by
  obtain ⟨r1, p, h1, h2, _⟩ := (sampled_chain e5Tree.node e5Tree.kids none rfl (by decide)
    (fun _ hq => by cases hq)).2.2 (by decide) (fun _ hq => by cases hq) e5Tree.weight
    (le_refl _)
  obtain ⟨r1', p', g1, _, g3⟩ := (sampled_chain sampleTree.node sampleTree.kids none rfl
    (by decide) (fun _ hq => by cases hq)).2.2 (by decide) (fun _ hq => by cases hq)
    sampleTree.weight (le_refl _)
  exact ⟨rfl, by decide, by decide, by decide, ⟨r1, p, h1, h2 (by decide)⟩,
    rfl, by decide, by decide, by decide, r1', p', g1, g3 (by decide)⟩

theorem Desc.to_up {s : LineageTree} (hs : Struct none s) {a b : Nat} (h : Desc s.mem a b) :
    Up s.mem b a := by
  induction h with
  | refl => exact Up.refl
  | step _ hb hc ih =>
    obtain ⟨_, nc, h1, h2⟩ := hs.childLive _ _ _ (by simp) hb hc
    exact (Up.step Up.refl h1 h2).trans_up ih

theorem leaf_exists {s : LineageTree} (hs : Struct none s) :
    ∀ (d b : Nat) (nb : LineageTreeNode), s.mem.cells b = some nb → s.mem.next ≤ d + b →
      ∃ l nl, Desc s.mem b l ∧ s.mem.cells l = some nl ∧ nl.children = [] := by
  intro d
  induction d with
  | zero =>
    intro b nb hb hd
    have := live_lt_next hs hb
    omega
  | succ d ih =>
    intro b nb hb hd
    cases hch : nb.children with
    | nil => exact ⟨b, nb, Desc.refl, hb, hch⟩
    | cons c rest =>
      have hc : c ∈ nb.children := by rw [hch]; exact List.mem_cons_self _ _
      obtain ⟨_, nc, h1, h2⟩ := hs.childLive _ _ _ (by simp) hb hc
      have := hs.order _ _ _ (by simp) h1 h2
      obtain ⟨l, nl, e1, e2, e3⟩ := ih c nc h1 (by omega)
      exact ⟨l, nl, (Desc.child hb hc).trans_desc e1, e2, e3⟩

theorem leavesLoop_spec (s : LineageTree) (cs0 : List Nat)
    (rec : List Nat → Nat → Except Err (List Nat))
    (hrec : ∀ acc c, c ∈ cs0 →
      ∃ L, rec acc c = .ok L ∧
        ∀ l, l ∈ L ↔ l ∈ acc ∨ (Desc s.mem c l ∧ ∃ nl, s.mem.cells l = some nl ∧
          nl.children = [])) :
    ∀ (cs : List Nat) (acc : List Nat), (∀ c ∈ cs, c ∈ cs0) →
      ∃ L, leavesLoop rec acc cs = .ok L ∧
        ∀ l, l ∈ L ↔ l ∈ acc ∨ ∃ c ∈ cs, (Desc s.mem c l ∧ ∃ nl, s.mem.cells l = some nl ∧
          nl.children = []) := by
  intro cs
  induction cs with
  | nil =>
    intro acc _
    exact ⟨acc, by simp [leavesLoop], by simp⟩
  | cons c cs ih =>
    intro acc hcs
    obtain ⟨L1, h1, h2⟩ := hrec acc c (hcs c (List.mem_cons_self _ _))
    obtain ⟨L2, h3, h4⟩ := ih L1 (fun x hx => hcs x (List.mem_cons_of_mem _ hx))
    refine ⟨L2, by simp only [leavesLoop, h1, h3], ?_⟩
    intro l
    rw [h4, h2]
    constructor
    · rintro ((h | h) | ⟨x, hx, h⟩)
      · exact Or.inl h
      · exact Or.inr ⟨c, List.mem_cons_self _ _, h⟩
      · exact Or.inr ⟨x, List.mem_cons_of_mem _ hx, h⟩
    · rintro (h | ⟨x, hx, h⟩)
      · exact Or.inl (Or.inl h)
      · rcases List.mem_cons.mp hx with rfl | hx
        · exact Or.inl (Or.inr h)
        · exact Or.inr ⟨x, hx, h⟩

theorem findLeaves_spec {H : Nat → Bool} {m : Mem} {nx : Nat} {R : List Nat} {k : Nat}
    (hs : Struct none (viewTree H m nx R k)) :
    ∀ (fuel node : Nat) (acc : List Nat) (n : LineageTreeNode),
      (viewTree H m nx R k).mem.cells node = some n → nx ≤ fuel + node →
      ∃ L, findLeaves fuel m acc node = .ok L ∧
        ∀ l, l ∈ L ↔ l ∈ acc ∨ (Desc (viewTree H m nx R k).mem node l ∧
          ∃ nl, (viewTree H m nx R k).mem.cells l = some nl ∧ nl.children = []) := by
  intro fuel
  induction fuel with
  | zero =>
    intro node acc n hn hf
    have := live_lt_next hs hn
    simp only [viewTree] at this
    omega
  | succ fuel ih =>
    intro node acc n hn hf
    have hm := (view_live hn).2
    simp only [findLeaves, Mem.get_of_cells hm]
    by_cases hlen : n.children.length = 0
    · have hnil : n.children = [] := List.eq_nil_of_length_eq_zero hlen
      refine ⟨setInsert acc node, by simp [hlen], ?_⟩
      intro l
      rw [mem_setInsert]
      constructor
      · rintro (h | h)
        · exact Or.inl h
        · subst h
          exact Or.inr ⟨Desc.refl, n, hn, hnil⟩
      · rintro (h | ⟨hd, _⟩)
        · exact Or.inl h
        · rcases (Desc.head_iff hn).mp hd with e | ⟨c, hc, _⟩
          · exact Or.inr e
          · rw [hnil] at hc
            cases hc
    · obtain ⟨L, h1, h2⟩ := leavesLoop_spec (viewTree H m nx R k) n.children
        (findLeaves fuel m)
        (fun acc' c hc => by
          obtain ⟨_, nc, e1, e2⟩ := hs.childLive _ _ _ (by simp) hn hc
          have := hs.order _ _ _ (by simp) e1 e2
          exact ih c acc' nc e1 (by omega))
        n.children acc (fun _ h => h)
      refine ⟨L, by simp [hlen, h1], ?_⟩
      intro l
      rw [h2]
      constructor
      · rintro (h | ⟨c, hc, hd, h⟩)
        · exact Or.inl h
        · exact Or.inr ⟨(Desc.child hn hc).trans_desc hd, h⟩
      · rintro (h | ⟨hd, nl, e1, e2⟩)
        · exact Or.inl h
        · rcases (Desc.head_iff hn).mp hd with e | ⟨c, hc, hd2⟩
          · subst e
            rw [hn] at e1
            cases e1
            rw [e2] at hlen
            simp at hlen
          · exact Or.inr ⟨c, hc, hd2, nl, e1, e2⟩

theorem findRoot_spec {H : Nat → Bool} {m : Mem} {nx : Nat} {R : List Nat} {k : Nat}
    (hs : Struct none (viewTree H m nx R k)) :
    ∀ (fuel x : Nat) (n : LineageTreeNode),
      (viewTree H m nx R k).mem.cells x = some n → x < fuel →
      ∃ r, findRoot fuel m x = .ok r ∧ r ∈ R := by
  intro fuel
  induction fuel with
  | zero =>
    intro x n _ hf
    omega
  | succ fuel ih =>
    intro x n hn hf
    have hm := (view_live hn).2
    simp only [findRoot, Mem.get_of_cells hm]
    cases hp : n.parent with
    | none => exact ⟨x, rfl, (hs.rootSet x).mpr ⟨by simp, n, hn, hp⟩⟩
    | some p =>
      obtain ⟨_, np, h1, _⟩ := hs.parentLive _ _ _ (by simp) hn hp
      have := hs.order _ _ _ (by simp) hn hp
      exact ih p np h1 (by omega)
theorem Clean.mono_clean {L : List Nat} {V V' : LineageTree} {l : Nat} (h : Clean L V l)
    (r : ElimRel L V V') : Clean L V' l := by
  intro b nb' hup hne hb
  obtain ⟨nb, h1, h2, h3⟩ := r.surv b nb' hb
  exact (h b nb (r.up l b hup) hne h1).of_same h2 h3

theorem ElimRel.leaf_stays {L : List Nat} {V V' : LineageTree} (r : ElimRel L V V') {l : Nat}
    {nl : LineageTreeNode} (hl : V.mem.cells l = some nl) (hch : nl.children = []) :
    ∃ nl', V'.mem.cells l = some nl' ∧ nl'.children = [] := by
  cases h : V'.mem.cells l with
  | none =>
    have := (r.gone l nl hl h).1
    rw [hch] at this
    simp at this
  | some nl' =>
    obtain ⟨nl0, h1, _, h3⟩ := r.surv l nl' h
    rw [hl] at h1
    cases h1
    rw [hch] at h3
    exact ⟨nl', rfl, List.eq_nil_of_length_eq_zero h3⟩

theorem rrnm_none (fuel : Nat) (m : Mem) (L : List Nat) :
    removeRedundantNodeMerge (fuel + 1) m none L = .ok m := by
  simp [removeRedundantNodeMerge]

theorem elimLoop_spec (L : List Nat) (P : LineageTree → Prop)
    (hPs : ∀ (s s' : LineageTree) (mid c g : Nat) (nm nc ng : LineageTreeNode)
      (cs' : List Nat), SpliceRel s s' mid c g nm nc ng cs' → nm.lng ∉ L → P s → P s')
    (hPp : ∀ (s s' : LineageTree) (mid c : Nat) (nm nc : LineageTreeNode),
      PromoteRel s s' mid c nm nc → nm.lng ∉ L → P s → P s')
    (H : Nat → Bool) (nx fuel : Nat) (hf : nx < fuel) :
    ∀ (leaves : List Nat) (m : Mem) (R : List Nat) (k : Nat),
      Struct none (viewTree H m nx R k) → P (viewTree H m nx R k) →
      (∀ l ∈ leaves, ∃ nl, (viewTree H m nx R k).mem.cells l = some nl ∧ nl.children = []) →
      ∃ m' R' k', eliminateLoop fuel L m leaves = .ok m' ∧
        m'.next = m.next ∧ (∀ a, H a = true → m'.cells a = m.cells a) ∧
        Struct none (viewTree H m' nx R' k') ∧
        ElimRel L (viewTree H m nx R k) (viewTree H m' nx R' k') ∧
        P (viewTree H m' nx R' k') ∧
        ∀ l ∈ leaves, Clean L (viewTree H m' nx R' k') l := by
  intro leaves
  induction leaves with
  | nil =>
    intro m R k hs hP _
    exact ⟨m, R, k, rfl, rfl, fun _ _ => rfl, hs, ElimRel.refl_elim L _, hP,
      fun l hl => (by cases hl)⟩
  | cons leaf rest ih =>
    intro m R k hs hP hl
    obtain ⟨nl, hnl, hch⟩ := hl leaf (List.mem_cons_self _ _)
    have hnlm := (view_live hnl).2
    -- the walk from the parent of the leaf
    have step : ∃ m1 R1 k1, removeRedundantNodeMerge fuel m nl.parent L = .ok m1 ∧
        m1.next = m.next ∧ (∀ a, H a = true → m1.cells a = m.cells a) ∧
        Struct none (viewTree H m1 nx R1 k1) ∧
        ElimRel L (viewTree H m nx R k) (viewTree H m1 nx R1 k1) ∧
        P (viewTree H m1 nx R1 k1) ∧ Clean L (viewTree H m1 nx R1 k1) leaf := by
      cases hpar : nl.parent with
      | none =>
        obtain ⟨f, rfl⟩ : ∃ f, fuel = f + 1 := ⟨fuel - 1, by omega⟩
        refine ⟨m, R, k, rrnm_none f m L, rfl, fun _ _ => rfl, hs, ElimRel.refl_elim L _, hP,
          ?_⟩
        intro b nb hup hne _
        exact absurd (Up.root_eq hnl hpar hup) hne
      | some p =>
        obtain ⟨_, np, hp, _⟩ := hs.parentLive leaf nl p (by simp) hnl hpar
        have hlt : p < nx := by
          have := live_lt_next hs hp
          rw [view_next] at this
          exact this
        obtain ⟨m1, R1, k1, e1, e2, e3, e4, e5, e6, e7⟩ :=
          walk_spec L P hPs hPp fuel H m nx R k p np hs hp (by omega) hP
        refine ⟨m1, R1, k1, e1, e2, e3, e4, e5, e7, ?_⟩
        intro b nb hup hne hb
        rcases Up.from_child hnl hpar (e5.up leaf b hup) with e | hup2
        · exact absurd e hne
        · exact e6 b nb hup2 hb
    obtain ⟨m1, R1, k1, e1, e2, e3, e4, e5, e6, e7⟩ := step
    obtain ⟨m2, R2, k2, f1, f2, f3, f4, f5, f6, f7⟩ := ih m1 R1 k1 e4 e6
      (fun l hl' => by
        obtain ⟨nl2, g1, g2⟩ := hl l (List.mem_cons_of_mem _ hl')
        exact e5.leaf_stays g1 g2)
    refine ⟨m2, R2, k2, ?_, f2.trans e2, fun a ha => (f3 a ha).trans (e3 a ha), f4,
      e5.trans_elim f5, f6, ?_⟩
    · simp only [eliminateLoop, Mem.get_of_cells hnlm, e1]
      exact f1
    · intro l hl'
      rcases List.mem_cons.mp hl' with rfl | h
      · exact e7.mono_clean f5
      · exact f7 l h
theorem elimNodes_spec (L : List Nat) (P : LineageTree → Prop)
    (hPs : ∀ (s s' : LineageTree) (mid c g : Nat) (nm nc ng : LineageTreeNode)
      (cs' : List Nat), SpliceRel s s' mid c g nm nc ng cs' → nm.lng ∉ L → P s → P s')
    (hPp : ∀ (s s' : LineageTree) (mid c : Nat) (nm nc : LineageTreeNode),
      PromoteRel s s' mid c nm nc → nm.lng ∉ L → P s → P s')
    (ord : List Nat → List Nat) (hord : ∀ l, (ord l).Perm l)
    (H : Nat → Bool) (nx fuel : Nat) (hf : nx < fuel) (m : Mem) (r k : Nat)
    (hs : Struct none (viewTree H m nx [r] k)) (hP : P (viewTree H m nx [r] k)) :
    ∃ m' r' k', eliminateRedundantNodes ord fuel m r L = .ok (m', r') ∧
      m'.next = m.next ∧ (∀ a, H a = true → m'.cells a = m.cells a) ∧
      Struct none (viewTree H m' nx [r'] k') ∧
      ElimRel L (viewTree H m nx [r] k) (viewTree H m' nx [r'] k') ∧
      P (viewTree H m' nx [r'] k') ∧
      ∀ b nb, (viewTree H m' nx [r'] k').mem.cells b = some nb → Good L nb := by
  obtain ⟨_, nr, hr, _⟩ := (hs.rootSet r).mp (by rw [view_roots]; exact List.mem_singleton_self r)
  have hrlt : r < nx := by
    have := live_lt_next hs hr
    rw [view_next] at this
    exact this
  obtain ⟨found, h1, h2⟩ := findLeaves_spec hs fuel r [] nr hr (by omega)
  have hfound : ∀ l, l ∈ ord found ↔ ∃ nl, (viewTree H m nx [r] k).mem.cells l = some nl ∧
      nl.children = [] := by
    intro l
    rw [(hord found).mem_iff, h2]
    constructor
    · rintro (h | ⟨_, h⟩)
      · cases h
      · exact h
    · rintro ⟨nl, e1, e2⟩
      refine Or.inr ⟨?_, nl, e1, e2⟩
      obtain ⟨r0, hr0, hd⟩ := desc_of_root hs l l nl e1 (le_refl _)
      rw [view_roots, List.mem_singleton] at hr0
      rw [← hr0]
      exact hd
  obtain ⟨m1, R1, k1, e1, e2, e3, e4, e5, e6, e7⟩ :=
    elimLoop_spec L P hPs hPp H nx fuel hf (ord found) m [r] k hs hP
      (fun l hl => (hfound l).mp hl)
  obtain ⟨r1, hR1⟩ := e5.roots ⟨r, by rw [view_roots]⟩
  rw [view_roots] at hR1
  subst hR1
  -- there is a leaf
  obtain ⟨l0, nl0, _, g2, g3⟩ := leaf_exists hs nx r nr hr (by rw [view_next]; omega)
  have hl0 : l0 ∈ ord found := (hfound l0).mpr ⟨nl0, g2, g3⟩
  cases hlv : ord found with
  | nil =>
    rw [hlv] at hl0
    cases hl0
  | cons first rest =>
    have hfirst : first ∈ ord found := by rw [hlv]; exact List.mem_cons_self _ _
    obtain ⟨nf, f1, f2⟩ := (hfound first).mp hfirst
    obtain ⟨nf', f3, _⟩ := e5.leaf_stays f1 f2
    have hflt : first < nx := by
      have := live_lt_next e4 f3
      rw [view_next] at this
      exact this
    obtain ⟨r', f4, f5⟩ := findRoot_spec e4 fuel first nf' f3 (by omega)
    rw [List.mem_singleton] at f5
    subst f5
    refine ⟨m1, r', k1, ?_, e2, e3, e4, e5, e6, ?_⟩
    · have e1' := e1
      rw [hlv] at e1'
      simp only [eliminateRedundantNodes, h1, hlv, e1', f4]
    · intro b nb hb
      obtain ⟨l, nl, d1, d2, d3⟩ := leaf_exists e4 nx b nb hb (by rw [view_next]; omega)
      by_cases hbl : b = l
      · subst hbl
        rw [hb] at d2
        cases d2
        intro hbad
        rw [d3] at hbad
        simp at hbad
      · obtain ⟨nl1, c1, _, c3⟩ := e5.surv l nl d2
        have hlen : nl1.children = [] := by
          rw [d3] at c3
          exact List.eq_nil_of_length_eq_zero c3.symm
        have hl : l ∈ ord found := (hfound l).mpr ⟨nl1, c1, hlen⟩
        exact e7 l hl b nb (Desc.to_up e4 d1) hbl hb
theorem outside_false {lo hi a : Nat} : outside lo hi a = false ↔ lo ≤ a ∧ a < hi := by
  simp [outside]

theorem win_live {lo hi : Nat} {m : Mem} {nx : Nat} {R : List Nat} {k a : Nat}
    {n : LineageTreeNode} :
    (viewTree (outside lo hi) m nx R k).mem.cells a = some n ↔
      (lo ≤ a ∧ a < hi) ∧ m.cells a = some n := by
  rw [view_cells]
  constructor
  · intro h
    split_ifs at h with h1
    exact ⟨outside_false.mp (by simpa using h1), h⟩
  · rintro ⟨h1, h2⟩
    rw [if_neg (by rw [outside_false.mpr h1]; simp)]
    exact h2

theorem copy_view {s : LineageTree} {m m' : Mem} {a : Nat}
    (post : CopyPost s a none m m') (k : Nat) :
    Struct none (viewTree (outside m.next m'.next) m' m'.next [m.next] k) := by
  obtain ⟨n, nr, hn, hnr, hcopy, hpar, hnodup, hkids, hleaf⟩ := post.root
  have hlt := post.next_lt
  have cases_node : ∀ b nb, (viewTree (outside m.next m'.next) m' m'.next [m.next] k).mem.cells b
      = some nb → (b = m.next ∧ nb = nr) ∨
        (m.next < b ∧ b < m'.next ∧
          NodeOK s m' m.next m'.next (fun x => Desc s.mem a x ∧ x ≠ a) b nb) := by
    intro b nb hb
    obtain ⟨⟨h1, h2⟩, h3⟩ := win_live.mp hb
    rcases Nat.eq_or_lt_of_le h1 with e | e
    · left
      subst e
      rw [hnr] at h3
      cases h3
      exact ⟨rfl, rfl⟩
    · right
      obtain ⟨nb2, e1, e2⟩ := post.node b e h2
      rw [h3] at e1
      cases e1
      exact ⟨e, h2, e2⟩
  constructor
  · intro b hb
    rw [view_next] at hb
    rw [view_cells, if_pos]
    simp only [outside, Bool.not_eq_true', Bool.and_eq_false_imp, decide_eq_true_eq,
      decide_eq_false_iff_not]
    intro _
    omega
  · intro b nb c _ hb hc
    refine ⟨by simp, ?_⟩
    rcases cases_node b nb hb with ⟨rfl, rfl⟩ | ⟨h1, h2, ok⟩
    · obtain ⟨e1, e2, nc, e3, e4⟩ := hkids c hc
      exact ⟨nc, win_live.mpr ⟨⟨by omega, e2⟩, e3⟩, e4⟩
    · obtain ⟨e1, e2, nc, e3, e4⟩ := ok.kids c hc
      exact ⟨nc, win_live.mpr ⟨⟨by omega, e2⟩, e3⟩, e4⟩
  · intro b nb p _ hb hp
    refine ⟨by simp, ?_⟩
    rcases cases_node b nb hb with ⟨rfl, rfl⟩ | ⟨h1, h2, ok⟩
    · rw [hpar] at hp
      cases hp
    · obtain ⟨p', np, e1, e2, e3, e4, e5⟩ := ok.up
      rw [hp] at e1
      cases e1
      exact ⟨np, win_live.mpr ⟨⟨e2, by omega⟩, e4⟩, e5⟩
  · intro b nb _ hb
    rcases cases_node b nb hb with ⟨rfl, rfl⟩ | ⟨h1, h2, ok⟩
    · exact hnodup
    · exact ok.nodup
  · intro b1 b2 n1 n2 _ _ h1 h2 hl
    obtain ⟨⟨g1, _⟩, g2⟩ := win_live.mp h1
    obtain ⟨⟨g3, _⟩, g4⟩ := win_live.mp h2
    exact post.inj b1 b2 n1 n2 g1 g3 g2 g4 hl
  · intro b nb p _ hb hp
    rcases cases_node b nb hb with ⟨rfl, rfl⟩ | ⟨h1, h2, ok⟩
    · rw [hpar] at hp
      cases hp
    · obtain ⟨p', np, e1, e2, e3, e4, e5⟩ := ok.up
      rw [hp] at e1
      cases e1
      exact e3
  · intro b
    rw [view_roots, List.mem_singleton]
    constructor
    · rintro rfl
      exact ⟨by simp, nr, win_live.mpr ⟨⟨le_refl _, hlt⟩, hnr⟩, hpar⟩
    · rintro ⟨_, nb, hb, hp⟩
      rcases cases_node b nb hb with ⟨rfl, rfl⟩ | ⟨h1, h2, ok⟩
      · rfl
      · obtain ⟨p', np, e1, _⟩ := ok.up
        rw [hp] at e1
        cases e1
theorem copy_cases {s : LineageTree} {m m' : Mem} {a : Nat} {par : Option Nat}
    (post : CopyPost s a par m m') {R : List Nat} {k b : Nat} {nb : LineageTreeNode}
    (hb : (viewTree (outside m.next m'.next) m' m'.next R k).mem.cells b = some nb) :
    (b = m.next ∧ ∃ n, s.mem.cells a = some n ∧ IsCopy n nb ∧ nb.parent = par ∧
        (nb.children = [] → nb.sampled = true)) ∨
      (m.next < b ∧ b < m'.next ∧
        NodeOK s m' m.next m'.next (fun x => Desc s.mem a x ∧ x ≠ a) b nb) := by
  obtain ⟨n, nr, hn, hnr, hcopy, hpar, _, _, hleaf⟩ := post.root
  obtain ⟨⟨h1, h2⟩, h3⟩ := win_live.mp hb
  rcases Nat.eq_or_lt_of_le h1 with e | e
  · left
    subst e
    rw [hnr] at h3
    cases h3
    exact ⟨rfl, n, hn, hcopy, hpar, hleaf⟩
  · right
    obtain ⟨nb2, e1, e2⟩ := post.node b e h2
    rw [h3] at e1
    cases e1
    exact ⟨e, h2, e2⟩

theorem copy_src {s : LineageTree} {m m' : Mem} {a : Nat} {par : Option Nat}
    (post : CopyPost s a par m m') {R : List Nat} {k b : Nat} {nb : LineageTreeNode}
    (hb : (viewTree (outside m.next m'.next) m' m'.next R k).mem.cells b = some nb) :
    ∃ x nx, Desc s.mem a x ∧ s.mem.cells x = some nx ∧ IsCopy nx nb := by
  rcases copy_cases post hb with ⟨_, n, h1, h2, _⟩ | ⟨_, _, ok⟩
  · exact ⟨a, n, Desc.refl, h1, h2⟩
  · obtain ⟨x, nx, h1, h2, h3⟩ := ok.src
    exact ⟨x, nx, h1.1, h2, h3⟩

theorem copy_leaf {s : LineageTree} {m m' : Mem} {a : Nat} {par : Option Nat}
    (post : CopyPost s a par m m') {R : List Nat} {k b : Nat} {nb : LineageTreeNode}
    (hb : (viewTree (outside m.next m'.next) m' m'.next R k).mem.cells b = some nb)
    (hch : nb.children = []) : nb.sampled = true := by
  rcases copy_cases post hb with ⟨_, n, _, _, _, h⟩ | ⟨_, _, ok⟩
  · exact h hch
  · exact ok.leaf hch

theorem copy_cover {s : LineageTree} {m m' : Mem} {a : Nat} {par : Option Nat}
    (post : CopyPost s a par m m') (R : List Nat) (k : Nat) {x : Nat} {nx : LineageTreeNode}
    (hd : Desc s.mem a x) (hx : s.mem.cells x = some nx) (hsam : nx.sampled = true) :
    ∃ b nb, (viewTree (outside m.next m'.next) m' m'.next R k).mem.cells b = some nb ∧
      nb.lng = nx.lng ∧ nb.sampled = true := by
  obtain ⟨b, nb, h1, h2, h3, h4⟩ := post.cover x nx hd hx hsam
  have hlt : b < m'.next := by
    by_contra hge
    rw [post.bound b (by omega)] at h2
    cases h2
  exact ⟨b, nb, win_live.mpr ⟨⟨h1, hlt⟩, h2⟩, h3, h4⟩

theorem copy_time {s : LineageTree} {m m' : Mem} {a : Nat}
    (post : CopyPost s a none m m') (R : List Nat) (k : Nat) (ht : TimeInv s) :
    TimeInv (viewTree (outside m.next m'.next) m' m'.next R k) := by
  intro b nb hb
  obtain ⟨x, nx, _, hx, hc⟩ := copy_src post hb
  obtain ⟨t1, _⟩ := ht x nx hx
  refine ⟨by rw [hc.2.2.2.2.2.2.2.1, hc.2.2.1]; exact t1, ?_⟩
  intro p np hp hnp
  rcases copy_cases post hb with ⟨_, n, _, _, h, _⟩ | ⟨_, _, ok⟩
  · rw [h] at hp
    cases hp
  · obtain ⟨y, ny, z, nz, f1, f2, f3, f4, f5, f6⟩ := ok.mirror p np hp (win_live.mp hnp).2
    rw [f2.2.2.2.2.2.2.2.1, f6]
    exact (ht y ny f1).2 z nz f3 f4
theorem Struct.view_k {H : Nat → Bool} {m : Mem} {nx : Nat} {R : List Nat} {k : Nat}
    (h : Struct none (viewTree H m nx R k)) (k' : Nat) : Struct none (viewTree H m nx R k') :=
  ⟨h.bound, h.childLive, h.parentLive, h.childNodup, h.lngInj, h.order, h.rootSet⟩

theorem view_cells_k (H : Nat → Bool) (m : Mem) (nx : Nat) (R R' : List Nat) (k k' : Nat)
    (a : Nat) :
    (viewTree H m nx R k).mem.cells a = (viewTree H m nx R' k').mem.cells a := rfl

theorem TimeInv.view_time {H : Nat → Bool} {m : Mem} {nx : Nat} {R : List Nat} {k : Nat}
    (h : TimeInv (viewTree H m nx R k)) (R' : List Nat) (k' : Nat) :
    TimeInv (viewTree H m nx R' k') :=
  fun a n ha => h a n ha

theorem getSampledLineages_spec {s : LineageTree} {m : Mem} (hm : SrcInv s m) {x : Nat}
    {nx : LineageTreeNode} (hx : s.mem.cells x = some nx) (hpar : nx.parent = none) :
    ∃ L, getSampledLineages (m.next + 1) m x = .ok L ∧
      (∀ l, l ∈ L ↔ ∃ b nb, Desc s.mem x b ∧ s.mem.cells b = some nb ∧
        nb.sampled = true ∧ nb.lng = l) ∧
      (L.length > 0 ↔ HasSampled s.mem x) := by
  obtain ⟨n', _, hg, hn'⟩ := hm.get_src hx
  have hp : n'.parent = none := by rw [hn']; exact hpar
  obtain ⟨L, h1, h2⟩ := getSampledRec_spec hm (m.next + 1) x [] ⟨nx, hx⟩
    (by have := hm.next_le; omega)
  refine ⟨L, ?_, h2, ?_⟩
  · simp only [getSampledLineages, hg, hp, ne_eq, not_true_eq_false, if_false, h1,
      List.nil_append]
  · constructor
    · intro hl
      cases L with
      | nil => simp at hl
      | cons a rest =>
        obtain ⟨b, nb, e1, e2, e3, _⟩ := (h2 a).mp (List.mem_cons_self _ _)
        exact ⟨b, nb, e1, e2, e3⟩
    · rintro ⟨b, nb, e1, e2, e3⟩
      have : nb.lng ∈ L := (h2 nb.lng).mpr ⟨b, nb, e1, e2, e3, rfl⟩
      exact List.length_pos_of_mem this
theorem CopyData.of_copy {nx nb0 nb : LineageTreeNode} (h1 : IsCopy nx nb0)
    (h2 : SameData nb0 nb) : CopyData nx nb := by
  obtain ⟨c1, c2, c3, c4, c5, c6, c7, _, _⟩ := h1
  obtain ⟨d1, d2, d3, d4, d5, d6, d7, _⟩ := h2
  exact ⟨d1.trans c1, d2.trans c3, d3.trans c6, d4.trans c7, d7.trans c5, d6.trans c4,
    d5.trans c2⟩

theorem subSampleRoot_spec (ord : List Nat → List Nat) (hord : ∀ l, (ord l).Perm l)
    {s : LineageTree} {m : Mem} (hm : SrcInv s m) (hfl : FlagsSound s m) {x : Nat}
    {nx : LineageTreeNode} (hx : s.mem.cells x = some nx) (hpar : nx.parent = none) :
    ∃ m' res, subSampleRoot ord m x = .ok (m', res) ∧ SrcInv s m' ∧ FlagsSound s m' ∧
      m.next ≤ m'.next ∧
      (∀ a, a < m.next → (s.mem.next ≤ a ∨ s.mem.cells a = none) → m'.cells a = m.cells a) ∧
      ((res = none ∧ ¬ HasSampled s.mem x) ∨
        (∃ r, res = some r ∧ HasSampled s.mem x ∧ RedWin s x m' m.next m'.next r)) := by
  have hs := hm.struct
  obtain ⟨L, hL1, hL2, hL3⟩ := getSampledLineages_spec hm hx hpar
  by_cases hsam : HasSampled s.mem x
  swap
  · refine ⟨m, none, ?_, hm, hfl, le_refl _, fun _ _ _ => rfl, Or.inl ⟨rfl, hsam⟩⟩
    have : ¬ L.length > 0 := fun h => hsam (hL3.mp h)
    simp only [subSampleRoot, hL1, this, if_false]
  have hlen : L.length > 0 := hL3.mpr hsam
  have hL : ∀ b nb, s.mem.cells b = some nb → nb.lng ∈ L → nb.sampled = true := by
    intro b nb hb hl
    obtain ⟨b', nb', _, e2, e3, e4⟩ := (hL2 nb.lng).mp hl
    have := hs.lngInj b' b nb' nb (by simp) (by simp) e2 hb e4
    subst this
    rw [hb] at e2
    cases e2
    exact e3
  -- marking
  obtain ⟨m1, f, hmark, mpost, _⟩ := mark_spec hs L hL (m.next + 1) m x hm ⟨nx, hx⟩
    (by have := hm.next_le; omega)
    (fun b nb hd hb hn => by
      obtain ⟨nb0, hb0⟩ := Desc.live hs hx hd
      exact hfl b nb (by rw [hb0]; simp) hb hn)
  have hm1 : SrcInv s m1 := hm.only_needed mpost.only
  have hn1 : m1.next = m.next := mpost.only.1
  have hfl1 : FlagsSound s m1 := by
    intro b nb hb hc hn
    by_cases hd : Desc s.mem x b
    · exact (mpost.flags b nb hd hc).mp hn
    · rw [mpost.frame b hd] at hc
      exact hfl b nb hb hc hn
  have hnotsrc : ∀ a, (s.mem.next ≤ a ∨ s.mem.cells a = none) → ¬ Desc s.mem x a := by
    intro a ha hd
    obtain ⟨na, hna⟩ := Desc.live hs hx hd
    have := live_lt_next hs hna
    rcases ha with ha | ha
    · omega
    · rw [ha] at hna
      cases hna
  -- copying
  obtain ⟨m2, hext, post⟩ := extract_spec hs (m1.next + 1) m1 x none hm1 mpost.flags
    ⟨nx, hx⟩ hsam (by have := hm1.next_le; omega)
  have hlt := post.next_lt
  -- pruning the copy
  have hs0 := copy_view post 0
  obtain ⟨m3, r', k3, helim, e2, e3, e4, e5, e6, e7⟩ :=
    elimNodes_spec L (fun V => TimeInv s → TimeInv V)
      (fun _ _ _ _ _ _ _ _ _ r _ h ht => r.time_splice (h ht))
      (fun _ _ _ _ _ _ r _ h ht => r.time_promote (h ht))
      ord hord (outside m1.next m2.next) m2.next (m2.next + 1) (by omega) m2 m1.next 0 hs0
      (fun ht => copy_time post _ _ ht)
  have hhid : ∀ a, a < m1.next ∨ m2.next ≤ a → m3.cells a = m2.cells a := by
    intro a ha
    apply e3
    simp only [outside, Bool.not_eq_true', Bool.and_eq_false_imp, decide_eq_true_eq,
      decide_eq_false_iff_not]
    omega
  have hm3 : SrcInv s m3 := by
    refine ⟨hs, ?_, ?_, ?_⟩
    · intro a ha hl
      have h1 : a < m1.next := lt_of_lt_of_le ha hm1.next_le
      rw [hhid a (Or.inl h1), post.below a h1]
      exact hm1.same a ha hl
    · rw [e2]
      exact le_trans hm1.next_le (le_of_lt hlt)
    · intro a ha
      rw [e2] at ha
      rw [hhid a (Or.inr ha)]
      exact post.bound a ha
  have hfl3 : FlagsSound s m3 := by
    intro b nb hb hc hn
    obtain ⟨nb0, hb0⟩ := Option.ne_none_iff_exists'.mp hb
    have h1 : b < m1.next := lt_of_lt_of_le (live_lt_next hs hb0) hm1.next_le
    rw [hhid b (Or.inl h1), post.below b h1] at hc
    exact hfl1 b nb hb hc hn
  refine ⟨m3, some r', ?_, hm3, hfl3, ?_, ?_, Or.inr ⟨r', rfl, hsam, ?_⟩⟩
  · simp only [subSampleRoot, hL1, hlen, if_true, hmark, hext, helim]
  · rw [e2]
    omega
  · intro a ha2 ha1
    have h1 : a < m1.next := by omega
    rw [hhid a (Or.inl h1), post.below a h1, mpost.frame a (hnotsrc a ha1)]
  · rw [← hn1, e2]
    have hsrc0 : ∀ b nb, (viewTree (outside m1.next m2.next) m3 m2.next [r'] 0).mem.cells b
        = some nb → ∃ nb0 a na, (viewTree (outside m1.next m2.next) m2 m2.next [m1.next]
          0).mem.cells b = some nb0 ∧ SameData nb0 nb ∧
          nb.children.length = nb0.children.length ∧ Desc s.mem x a ∧
          s.mem.cells a = some na ∧ IsCopy na nb0 := by
      intro b nb hb
      obtain ⟨nb0, h1, h2, h3⟩ := e5.surv b nb hb
      obtain ⟨a, na, g1, g2, g3⟩ := copy_src post h1
      exact ⟨nb0, a, na, h1, h2, h3, g1, g2, g3⟩
    refine ⟨hm1.next_le, by rw [e2], e4.view_k 0, ?_, ?_, ?_, ?_⟩
    · intro b nb hb
      obtain ⟨nb0, a, na, _, h2, _, g1, g2, g3⟩ := hsrc0 b nb hb
      exact ⟨a, na, g1, g2, CopyData.of_copy g3 h2⟩
    · intro b nb hb
      obtain ⟨nb0, a, na, h1, h2, h3, g1, g2, g3⟩ := hsrc0 b nb hb
      have hsame : nb.sampled = na.sampled := (CopyData.of_copy g3 h2).2.2.2.2.1
      rcases list_shape nb.children with h | ⟨c, h⟩ | h
      · left
        have h0 : nb0.children = [] := by
          rw [h] at h3
          exact List.eq_nil_of_length_eq_zero h3.symm
        rw [h2.2.2.2.2.2.2.1]
        exact copy_leaf post h1 h0
      · left
        have hgood := e7 b nb hb
        have hin : nb.lng ∈ L := by
          by_contra hnot
          exact hgood ⟨by rw [h]; rfl, hnot⟩
        rw [(CopyData.of_copy g3 h2).1] at hin
        rw [hsame]
        exact hL a na g2 hin
      · exact Or.inr h
    · intro a na hd ha hsa
      obtain ⟨b, nb0, h1, h2, _⟩ := copy_cover post [m1.next] 0 hd ha hsa
      cases h3 : (viewTree (outside m1.next m2.next) m3 m2.next [r'] k3).mem.cells b with
      | none =>
        have := (e5.gone b nb0 h1 h3).2
        rw [h2] at this
        exact absurd ((hL2 na.lng).mpr ⟨a, na, hd, ha, hsa, rfl⟩) this
      | some nb =>
        obtain ⟨nb1, g1, g2, _⟩ := e5.surv b nb h3
        rw [h1] at g1
        cases g1
        exact ⟨b, nb, h3, g2.1.trans h2⟩
    · intro ht
      exact (e6 ht).view_time _ _
theorem RedWin.frame_win {s : LineageTree} {x : Nat} {m m' : Mem} {lo hi r : Nat}
    (h : RedWin s x m lo hi r) (hnext : m.next ≤ m'.next)
    (hsame : ∀ a, s.mem.next ≤ a → a < m.next → m'.cells a = m.cells a) :
    RedWin s x m' lo hi r := by
  have hv : viewTree (outside lo hi) m' hi [r] 0 = viewTree (outside lo hi) m hi [r] 0 := by
    simp only [viewTree, LineageTree.mk.injEq, Mem.mk.injEq, and_true, true_and]
    funext a
    by_cases h1 : outside lo hi a = true
    · rw [if_pos h1, if_pos h1]
    · rw [if_neg h1, if_neg h1]
      have h2 := outside_false.mp (by simpa using h1)
      exact hsame a (le_trans h.lo_ge h2.1) (lt_of_lt_of_le h2.2 h.hi_le)
  refine ⟨h.lo_ge, le_trans h.hi_le hnext, ?_, ?_, ?_, ?_, ?_⟩
  · rw [hv]; exact h.struct
  · rw [hv]; exact h.src
  · rw [hv]; exact h.shape
  · rw [hv]; exact h.cover
  · rw [hv]; exact h.time

theorem subSampleLoop_spec (ord : List Nat → List Nat) (hord : ∀ l, (ord l).Perm l)
    {s : LineageTree} :
    ∀ (roots : List Nat) (m : Mem) (res done : List Nat), SrcInv s m → FlagsSound s m →
      (∀ x ∈ roots, ∃ nx, s.mem.cells x = some nx ∧ nx.parent = none) →
      List.Forall₂ (fun x r => ∃ lo hi, RedWin s x m lo hi r) done res →
      ∃ m' res' sel, subSampleLoop ord m res roots = .ok (m', res') ∧ SrcInv s m' ∧
        FlagsSound s m' ∧
        List.Forall₂ (fun x r => ∃ lo hi, RedWin s x m' lo hi r) (done ++ sel) res' ∧
        sel.Sublist roots ∧ (∀ x ∈ roots, x ∈ sel ↔ HasSampled s.mem x) ∧
        m.next ≤ m'.next ∧
        (∀ a, a < m.next → (s.mem.next ≤ a ∨ s.mem.cells a = none) →
          m'.cells a = m.cells a) := by
  intro roots
  induction roots with
  | nil =>
    intro m res done hm hfl _ hres
    exact ⟨m, res, [], rfl, hm, hfl, by rw [List.append_nil]; exact hres,
      List.Sublist.refl _, fun x hx => (by cases hx), le_refl _, fun _ _ _ => rfl⟩
  | cons x rest ih =>
    intro m res done hm hfl hroots hres
    obtain ⟨nx, hx, hpar⟩ := hroots x (List.mem_cons_self _ _)
    obtain ⟨m1, r1, h1, hm1, hfl1, hn1, hsame, hcase⟩ :=
      subSampleRoot_spec ord hord hm hfl hx hpar
    have hres1 : List.Forall₂ (fun x r => ∃ lo hi, RedWin s x m1 lo hi r) done res :=
      hres.imp (fun _ _ ⟨lo, hi, h⟩ =>
        ⟨lo, hi, h.frame_win hn1 (fun a h1 h2 => hsame a h2 (Or.inl h1))⟩)
    rcases hcase with ⟨rfl, hno⟩ | ⟨r, rfl, hyes, hwin⟩
    · obtain ⟨m', res', sel, e1, e2, e3, e4, e5, e6, e7, e8⟩ := ih m1 res done hm1 hfl1
        (fun y hy => hroots y (List.mem_cons_of_mem _ hy)) hres1
      refine ⟨m', res', sel, ?_, e2, e3, e4, e5.cons x, ?_, le_trans hn1 e7,
        fun a h1 h2 => (e8 a (lt_of_lt_of_le h1 hn1) h2).trans (hsame a h1 h2)⟩
      · simp only [subSampleLoop, h1]
        exact e1
      · intro y hy
        rcases List.mem_cons.mp hy with rfl | hy
        · constructor
          · intro hsel
            exact ((e6 y (e5.subset hsel)).mp hsel)
          · intro h
            exact absurd h hno
        · exact e6 y hy
    · have hres2 : List.Forall₂ (fun x r => ∃ lo hi, RedWin s x m1 lo hi r) (done ++ [x])
          (res ++ [r]) :=
        List.rel_append hres1 (List.Forall₂.cons ⟨_, _, hwin⟩ List.Forall₂.nil)
      obtain ⟨m', res', sel, e1, e2, e3, e4, e5, e6, e7, e8⟩ :=
        ih m1 (res ++ [r]) (done ++ [x])
        hm1 hfl1 (fun y hy => hroots y (List.mem_cons_of_mem _ hy)) hres2
      refine ⟨m', res', x :: sel, ?_, e2, e3, ?_, e5.cons₂ x, ?_, le_trans hn1 e7,
        fun a h1 h2 => (e8 a (lt_of_lt_of_le h1 hn1) h2).trans (hsame a h1 h2)⟩
      · simp only [subSampleLoop, h1]
        exact e1
      · rw [List.append_assoc] at e4
        exact e4
      · intro y hy
        rcases List.mem_cons.mp hy with rfl | hy
        · exact ⟨fun _ => hyes, fun _ => List.mem_cons_self _ _⟩
        · constructor
          · intro hsel
            rcases List.mem_cons.mp hsel with rfl | h
            · exact hyes
            · exact (e6 y hy).mp h
          · intro h
            exact List.mem_cons_of_mem _ ((e6 y hy).mpr h)

theorem SrcInv.refl_inv {s : LineageTree} (hs : Struct none s) : SrcInv s s.mem :=
  ⟨hs, SameSrc.refl_src _ _, le_refl _, hs.bound⟩

theorem subSampleTree_spec (ord : List Nat → List Nat) (hord : ∀ l, (ord l).Perm l)
    {s : LineageTree} (h : Inv s) :
    ∃ m' res sel, subSampleTree ord s = .ok ({ s with mem := m' }, res) ∧ SrcInv s m' ∧
      List.Forall₂ (fun x r => ∃ lo hi, RedWin s x m' lo hi r) sel res ∧
      sel.Sublist s.roots ∧ (∀ x ∈ s.roots, x ∈ sel ↔ HasSampled s.mem x) ∧
      (∀ a, a < s.mem.next → s.mem.cells a = none → m'.cells a = none) := by
  obtain ⟨m', res, sel, e1, e2, _, e4, e5, e6, _, e8⟩ :=
    subSampleLoop_spec ord hord s.roots s.mem [] [] (SrcInv.refl_inv h.struct)
      (fun b nb _ hb hn => by
        rw [h.noNeeded b nb hb] at hn
        cases hn)
      (fun x hx => by
        obtain ⟨_, nx, h1, h2⟩ := (h.struct.rootSet x).mp hx
        exact ⟨nx, h1, h2⟩)
      List.Forall₂.nil
  refine ⟨m', res, sel, ?_, e2, ?_, e5, e6, ?_⟩
  · simp only [subSampleTree, e1]
  · rw [List.nil_append] at e4
    exact e4
  · intro a ha hnone
    rw [e8 a ha (Or.inr hnone)]
    exact hnone

theorem Repr.node_eq {c : Nat → Option LineageTreeNode} {a : Nat} {T : LTree}
    (h : Repr c a T) : c a = some T.node := by
  cases h with
  | mk h1 _ => exact h1

theorem Repr.kids_repr {c : Nat → Option LineageTreeNode} {a : Nat} {T : LTree}
    (h : Repr c a T) : ReprList c T.node.children T.kids := by
  cases h with
  | mk _ h2 => exact h2

theorem ReprList.length_eq {c : Nat → Option LineageTreeNode} :
    ∀ {cs : List Nat} {Ts : List LTree}, ReprList c cs Ts → Ts.length = cs.length
  | [], _, h => by cases h; rfl
  | _ :: _, _, h => by
    cases h with
    | cons _ h2 => simp [ReprList.length_eq h2]

theorem ReprList.mem_kid {c : Nat → Option LineageTreeNode} :
    ∀ {cs : List Nat} {Ts : List LTree}, ReprList c cs Ts → ∀ K ∈ Ts, ∃ a ∈ cs, Repr c a K
  | [], _, h => by
    cases h
    intro K hK
    cases hK
  | _ :: _, _, h => by
    cases h with
    | cons h1 h2 =>
      intro K hK
      rcases List.mem_cons.mp hK with rfl | hK
      · exact ⟨_, List.mem_cons_self _ _, h1⟩
      · obtain ⟨a, ha, hr⟩ := ReprList.mem_kid h2 K hK
        exact ⟨a, List.mem_cons_of_mem _ ha, hr⟩

mutual
theorem Repr.all_of {c : Nat → Option LineageTreeNode} {Q : LineageTreeNode → List LTree → Bool}
    (hQ : ∀ b nb ks, c b = some nb → ReprList c nb.children ks → Q nb ks = true) :
    ∀ (T : LTree) (a : Nat), Repr c a T → T.all Q = true
  | .mk n ks, a, h => by
    cases h with
    | mk h1 h2 =>
      simp only [LTree.all, Bool.and_eq_true]
      exact ⟨hQ a n ks h1 h2, ReprList.allList_of hQ ks _ h2⟩
theorem ReprList.allList_of {c : Nat → Option LineageTreeNode}
    {Q : LineageTreeNode → List LTree → Bool}
    (hQ : ∀ b nb ks, c b = some nb → ReprList c nb.children ks → Q nb ks = true) :
    ∀ (Ts : List LTree) (cs : List Nat), ReprList c cs Ts → LTree.allList Q Ts = true
  | [], _, _ => by simp [LTree.allList]
  | T :: Ts, _, h => by
    cases h with
    | cons h1 h2 =>
      simp only [LTree.allList, Bool.and_eq_true]
      exact ⟨Repr.all_of hQ T _ h1, ReprList.allList_of hQ Ts _ h2⟩
end

theorem toTreeList_repr (c : Nat → Option LineageTreeNode) (rec : Nat → Except Err LTree)
    (cs0 : List Nat) (hrec : ∀ a ∈ cs0, ∃ T, rec a = .ok T ∧ Repr c a T) :
    ∀ cs : List Nat, (∀ a ∈ cs, a ∈ cs0) →
      ∃ Ts, toTreeList rec cs = .ok Ts ∧ ReprList c cs Ts := by
  intro cs
  induction cs with
  | nil =>
    intro _
    exact ⟨[], rfl, ReprList.nil⟩
  | cons a cs ih =>
    intro h
    obtain ⟨T, h1, h2⟩ := hrec a (h a (List.mem_cons_self _ _))
    obtain ⟨Ts, h3, h4⟩ := ih (fun x hx => h x (List.mem_cons_of_mem _ hx))
    exact ⟨T :: Ts, by simp only [toTreeList, h1, h3], ReprList.cons h2 h4⟩

theorem toTree_repr {H : Nat → Bool} {m : Mem} {nx : Nat} {R : List Nat} {k : Nat}
    (hs : Struct none (viewTree H m nx R k)) :
    ∀ (fuel a : Nat) (n : LineageTreeNode),
      (viewTree H m nx R k).mem.cells a = some n → nx ≤ fuel + a →
      ∃ T, toTree fuel m a = .ok T ∧ Repr (viewTree H m nx R k).mem.cells a T := by
  intro fuel
  induction fuel with
  | zero =>
    intro a n hn hf
    have := live_lt_next hs hn
    rw [view_next] at this
    omega
  | succ fuel ih =>
    intro a n hn hf
    have hm := (view_live hn).2
    obtain ⟨Ts, h1, h2⟩ := toTreeList_repr (viewTree H m nx R k).mem.cells
      (toTree fuel m) n.children
      (fun c hc => by
        obtain ⟨_, nc, e1, e2⟩ := hs.childLive _ _ _ (by simp) hn hc
        have := hs.order _ _ _ (by simp) e1 e2
        exact ih c nc e1 (by omega))
      n.children (fun _ h => h)
    exact ⟨.mk n Ts, by simp only [toTree, Mem.get_of_cells hm, h1], Repr.mk hn h2⟩
theorem SampleTimeInv.of_fwd_sample {s s' : LineageTree} (ht : SampleTimeInv s)
    (fwd : ∀ b nb', s'.mem.cells b = some nb' → (nb'.sampled = true → nb'.t ≤ nb'.tSample) ∨
      ∃ nb, s.mem.cells b = some nb ∧ nb'.t = nb.t ∧ nb'.tSample = nb.tSample ∧
        nb'.sampled = nb.sampled) : SampleTimeInv s' := by
  intro b nb' hb hsam
  rcases fwd b nb' hb with h | ⟨nb, h1, h2, h3, h4⟩
  · exact h hsam
  · rw [h2, h3]
    exact ht b nb h1 (h4 ▸ hsam)

theorem step_sampleTime {s s' : LineageTree} (h : Inv s) (ht : SampleTimeInv s) {op : Op}
    (hpre : opPre s op = true) (htm : opSampleTimed s op = true)
    (hrun : applyOp s op = .ok s') : SampleTimeInv s' := by
  cases op with
  | addExternal t lng data =>
    simp only [applyOp, Except.ok.injEq] at hrun
    subst hrun
    refine ht.of_fwd_sample (fun b nb' hb => ?_)
    rw [(addExternal_rel s t lng data).cells b] at hb
    split_ifs at hb with h1
    · cases hb
      left
      intro hsam
      simp [mkNode] at hsam
    · exact Or.inr ⟨nb', hb, rfl, rfl, rfl⟩
  | add t lng data lngParent =>
    simp only [opPre, Bool.and_eq_true, Bool.not_eq_true', Option.isSome_iff_exists] at hpre
    obtain ⟨hf, pa, hpa⟩ := hpre
    obtain ⟨np, hnp, _, _⟩ := (h.einv lngParent pa).1 hpa
    obtain ⟨s'', hrun', r⟩ := addExtant_rel hpa hnp t lng data
    simp only [applyOp] at hrun
    rw [hrun] at hrun'
    cases hrun'
    refine ht.of_fwd_sample (fun b nb' hb => ?_)
    rw [r.cells b] at hb
    split_ifs at hb with h1 h2
    · cases hb
      subst h1
      exact Or.inr ⟨np, hnp, rfl, rfl, rfl⟩
    · cases hb
      left
      intro hsam
      simp [mkNode] at hsam
    · exact Or.inr ⟨nb', hb, rfl, rfl, rfl⟩
  | sample lng t loc =>
    simp only [opPre, Option.isSome_iff_exists] at hpre
    obtain ⟨a, ha⟩ := hpre
    obtain ⟨n, hn, hl, _⟩ := (h.einv lng a).1 ha
    simp only [opSampleTimed, ha, hn, decide_eq_true_eq] at htm
    rcases sample_rel ha hn hl t loc with ⟨_, hrun'⟩ | ⟨s'', hrun', r⟩
    · simp only [applyOp, hrun', Except.ok.injEq] at hrun
      subst hrun
      exact ht
    · simp only [applyOp, hrun', Except.ok.injEq] at hrun
      subst hrun
      refine ht.of_fwd_sample (fun b nb' hb => ?_)
      rw [r.cells b] at hb
      split_ifs at hb with h1
      · cases hb
        left
        intro _
        have hn2 := r.ha
        subst h1
        rw [hn] at hn2
        cases hn2
        exact htm
      · exact Or.inr ⟨nb', hb, rfl, rfl, rfl⟩
  | remove lng ig =>
    simp only [opPre, Option.isSome_iff_exists] at hpre
    obtain ⟨x, hx⟩ := hpre
    obtain ⟨nx, hnx, hl, hext⟩ := (h.einv lng x).1 hx
    obtain ⟨s2, hrun2, st⟩ := remove_outcome h.struct h.prune hx hnx ig
    simp only [applyOp] at hrun
    rw [hrun] at hrun2
    cases hrun2
    have hs1 := h.struct.markExtinct hnx
    have hx1 : ({ s with mem := s.mem.set x { nx with extant := false } } :
        LineageTree).mem.cells x = some { nx with extant := false } := by simp
    have fr := st.frame_remove hs1 hx1 rfl
    refine ht.of_fwd_sample (fun b nb' hb => ?_)
    obtain ⟨nb1, h1, d1, d2, d3, _, _, _, d7, _⟩ := fr.fwd b nb' hb
    right
    by_cases hbx : b = x
    · subst hbx
      rw [hx1] at h1
      cases h1
      exact ⟨nx, hnx, d2, d3, d7⟩
    · have h1' : s.mem.cells b = some nb1 := by simpa [hbx] using h1
      exact ⟨nb1, h1', d2, d3, d7⟩

theorem run_sampleTime {s : LineageTree} (h : Inv s) (ht : TimeInv s) (hst : SampleTimeInv s)
    (ops : List Op) (hv : validOps s ops = true) (htm : timedOps s ops = true)
    (hsm : sampleTimedOps s ops = true) :
    ∃ s', runOps s ops = .ok s' ∧ Inv s' ∧ TimeInv s' ∧ SampleTimeInv s' := by
  induction ops generalizing s with
  | nil => exact ⟨s, rfl, h, ht, hst⟩
  | cons op ops ih =>
    simp only [validOps, Bool.and_eq_true] at hv
    simp only [timedOps, Bool.and_eq_true] at htm
    simp only [sampleTimedOps, Bool.and_eq_true] at hsm
    obtain ⟨hpre, hrest⟩ := hv
    obtain ⟨htm1, htmrest⟩ := htm
    obtain ⟨hsm1, hsmrest⟩ := hsm
    obtain ⟨s1, hrun, h1⟩ := step_inv h hpre
    simp only [hrun] at hrest htmrest hsmrest
    obtain ⟨s', hrun', h', ht', hst'⟩ := ih h1 (step_time h ht hpre htm1 hrun)
      (step_sampleTime h hst hpre hsm1 hrun) hrest htmrest hsmrest
    exact ⟨s', by simp [runOps, hrun, hrun'], h', ht', hst'⟩
theorem RedWin.tree {s : LineageTree} {x : Nat} {m : Mem} {lo hi r : Nat}
    (h : RedWin s x m lo hi r) (fuel : Nat) (hf : hi ≤ fuel) :
    ∃ T, toTree fuel m r = .ok T ∧
      Repr (viewTree (outside lo hi) m hi [r] 0).mem.cells r T := by
  obtain ⟨_, nr, hr, _⟩ := (h.struct.rootSet r).mp
    (by rw [view_roots]; exact List.mem_singleton_self r)
  exact toTree_repr h.struct fuel r nr hr (by omega)

theorem edge_of_repr {s : LineageTree} (hs : Struct none s) {a : Nat} {T : LTree}
    (h : Repr s.mem.cells a T) : T.all edgeDistinctQ = true := by
  refine Repr.all_of (fun b nb ks hb hks => ?_) T a h
  simp only [edgeDistinctQ, List.all_eq_true, decide_eq_true_eq]
  intro K hK hl
  obtain ⟨c, hc, hr⟩ := hks.mem_kid K hK
  obtain ⟨_, nc, h1, h2⟩ := hs.childLive b nb c (by simp) hb hc
  have hlt := hs.order c nc b (by simp) h1 h2
  have := hs.lngInj c b K.node nb (by simp) (by simp) hr.node_eq hb hl
  omega

theorem shape_of_repr {s : LineageTree} {a : Nat} {T : LTree}
    (hshape : ∀ b nb, s.mem.cells b = some nb → nb.sampled = true ∨ 2 ≤ nb.children.length)
    (h : Repr s.mem.cells a T) : T.all shapeQ = true := by
  refine Repr.all_of (fun b nb ks hb hks => ?_) T a h
  simp only [shapeQ, Bool.or_eq_true, decide_eq_true_eq]
  rw [hks.length_eq]
  exact hshape b nb hb

theorem time_of_repr {s : LineageTree} (hs : Struct none s) (ht : TimeInv s)
    (hst : SampleTimeInv s) {a : Nat} {T : LTree} (h : Repr s.mem.cells a T) :
    T.all timeQ = true := by
  refine Repr.all_of (fun b nb ks hb hks => ?_) T a h
  simp only [timeQ, Bool.and_eq_true, List.all_eq_true, decide_eq_true_eq, Bool.or_eq_true,
    Bool.not_eq_true']
  refine ⟨?_, ?_⟩
  · intro K hK
    obtain ⟨c, hc, hr⟩ := hks.mem_kid K hK
    obtain ⟨_, nc, h1, h2⟩ := hs.childLive b nb c (by simp) hb hc
    rw [hr.node_eq] at h1
    cases h1
    obtain ⟨t1, t2⟩ := ht c K.node hr.node_eq
    exact ⟨t2 b nb h2 hb, t1⟩
  · rcases Bool.eq_false_or_eq_true nb.sampled with h1 | h1
    · exact Or.inr (hst b nb hb h1)
    · exact Or.inl h1

theorem RedWin.sample_time {s : LineageTree} {x : Nat} {m : Mem} {lo hi r : Nat}
    (h : RedWin s x m lo hi r) (hst : SampleTimeInv s) :
    SampleTimeInv (viewTree (outside lo hi) m hi [r] 0) := by
  intro b nb hb hsam
  obtain ⟨a, na, _, h2, c1, c2, c3, _, c5, _⟩ := h.src b nb hb
  rw [c2, c3]
  exact hst a na h2 (c5 ▸ hsam)

theorem RedWin.builder_total {s : LineageTree} {x : Nat} {m : Mem} {lo hi r : Nat}
    (h : RedWin s x m lo hi r) (ht : TimeInv s) (hst : SampleTimeInv s) (fuel : Nat)
    (hf : hi ≤ fuel) :
    ∃ T out, toTree fuel m r = .ok T ∧ getAncestralTree T.weight T none = .ok out ∧
      T.all edgeDistinctQ = true ∧ T.all shapeQ = true ∧ T.all timeQ = true := by
  obtain ⟨T, h1, h2⟩ := h.tree fuel hf
  have e1 := edge_of_repr h.struct h2
  have e2 := shape_of_repr h.shape h2
  have e3 := time_of_repr h.struct (h.time ht) (h.sample_time hst) h2
  obtain ⟨out, h3⟩ := gat_root_total T e1 e2 e3
  exact ⟨T, out, h1, h3, e1, e2, e3⟩

theorem forall2_mem_right {α β : Type} {R : α → β → Prop} {xs : List α} {ys : List β}
    (h : List.Forall₂ R xs ys) : ∀ y ∈ ys, ∃ x ∈ xs, R x y := by
  induction h with
  | nil =>
    intro y hy
    cases hy
  | cons h1 _ ih =>
    intro y hy
    rcases List.mem_cons.mp hy with rfl | hy
    · exact ⟨_, List.mem_cons_self _ _, h1⟩
    · obtain ⟨x, hx, hr⟩ := ih y hy
      exact ⟨x, List.mem_cons_of_mem _ hx, hr⟩

/-- Claim C30: for every state reached by a valid sequence of calls whose event times are
ordered (a transmission is not dated before the birth of the infector, a lineage is not
sampled before its birth), `subSampleTree` returns, and on every tree it returns
`getAncestralTree` runs to completion: no assertion of the builder fails and no index into
`children_sorted` is out of bounds.  The unspecified iteration order of the set of leaves is
the parameter `ord`. -/
theorem builder_assertions_unreachable (ord : List Nat → List Nat)
    (hord : ∀ l, (ord l).Perm l) (ops : List Op)
    (hv : validOps LineageTree.empty ops = true)
    (htm : timedOps LineageTree.empty ops = true)
    (hsm : sampleTimedOps LineageTree.empty ops = true) :
    ∃ s tree res, runOps LineageTree.empty ops = .ok s ∧
      subSampleTree ord s = .ok (tree, res) ∧
      ∀ r ∈ res, ∃ T out, toTree (tree.mem.next + 1) tree.mem r = .ok T ∧
        getAncestralTree T.weight T none = .ok out := by
  obtain ⟨s, hrun, hinv, ht, hst⟩ := run_sampleTime Inv.empty_inv TimeInv.empty_time
    (fun a n ha => by simp [LineageTree.empty] at ha) ops hv htm hsm
  obtain ⟨m', res, sel, h1, _, h3, _, _⟩ := subSampleTree_spec ord hord hinv
  refine ⟨s, _, res, hrun, h1, ?_⟩
  intro r hr
  obtain ⟨x, _, lo, hi, hwin⟩ := forall2_mem_right h3 r hr
  obtain ⟨T, out, e1, e2, _⟩ := hwin.builder_total ht hst (m'.next + 1)
    (le_trans hwin.hi_le (Nat.le_succ _))
  exact ⟨T, out, e1, e2⟩

theorem builder_assertions_unreachable_witness :
    (∀ l : List Nat, (id l).Perm l) ∧ validOps LineageTree.empty exampleOps = true ∧
    timedOps LineageTree.empty exampleOps = true ∧
    sampleTimedOps LineageTree.empty exampleOps = true ∧
    ∃ s tree res, runOps LineageTree.empty exampleOps = .ok s ∧
      subSampleTree id s = .ok (tree, res) ∧
      ∀ r ∈ res, ∃ T out, toTree (tree.mem.next + 1) tree.mem r = .ok T ∧
        getAncestralTree T.weight T none = .ok out :=
  ⟨fun l => List.Perm.refl l, by decide, by decide, by decide,
    builder_assertions_unreachable id (fun l => List.Perm.refl l) exampleOps (by decide)
      (by decide) (by decide)⟩

mutual
theorem sampledLngs_nodes : ∀ T : LTree,
    T.sampledLngs = (T.nodes.filter (fun n => n.sampled)).map (fun n => n.lng)
  | .mk n ks => by
    have ih := sampledLngsList_nodes ks
    simp only [LTree.sampledLngs, LTree.nodes, ih, List.filter_cons]
    rcases Bool.eq_false_or_eq_true n.sampled with hs | hs <;> simp [hs]
theorem sampledLngsList_nodes : ∀ ks : List LTree,
    LTree.sampledLngsList ks =
      ((LTree.nodesList ks).filter (fun n => n.sampled)).map (fun n => n.lng)
  | [] => by simp [LTree.sampledLngsList, LTree.nodesList]
  | t :: ts => by
    have h1 := sampledLngs_nodes t
    have h2 := sampledLngsList_nodes ts
    simp only [LTree.sampledLngsList, LTree.nodesList, h1, h2, List.filter_append,
      List.map_append]
end

theorem mem_sampledLngs (T : LTree) (l : Nat) :
    l ∈ T.sampledLngs ↔ ∃ n ∈ T.nodes, n.sampled = true ∧ n.lng = l := by
  rw [sampledLngs_nodes]
  simp only [List.mem_map, List.mem_filter]
  constructor
  · rintro ⟨n, ⟨h1, h2⟩, h3⟩
    exact ⟨n, h1, h2, h3⟩
  · rintro ⟨n, h1, h2, h3⟩
    exact ⟨n, ⟨h1, h2⟩, h3⟩

mutual
theorem Repr.nodes_iff {m : Mem} : ∀ (T : LTree) (a : Nat), Repr m.cells a T →
    ∀ n', n' ∈ T.nodes ↔ ∃ b, Desc m a b ∧ m.cells b = some n'
  | .mk n ks, a, h => by
    cases h with
    | mk h1 h2 =>
      intro n'
      have ih := ReprList.nodesList_iff ks _ h2 n'
      simp only [LTree.nodes, List.mem_cons, ih]
      constructor
      · rintro (rfl | ⟨c, hc, b, hd, hb⟩)
        · exact ⟨a, Desc.refl, h1⟩
        · exact ⟨b, (Desc.child h1 hc).trans_desc hd, hb⟩
      · rintro ⟨b, hd, hb⟩
        rcases (Desc.head_iff h1).mp hd with rfl | ⟨c, hc, hd2⟩
        · rw [h1] at hb
          cases hb
          exact Or.inl rfl
        · exact Or.inr ⟨c, hc, b, hd2, hb⟩
theorem ReprList.nodesList_iff {m : Mem} : ∀ (Ts : List LTree) (cs : List Nat),
    ReprList m.cells cs Ts →
    ∀ n', n' ∈ LTree.nodesList Ts ↔ ∃ c ∈ cs, ∃ b, Desc m c b ∧ m.cells b = some n'
  | [], _, h => by
    cases h
    intro n'
    simp [LTree.nodesList]
  | T :: Ts, _, h => by
    cases h with
    | cons h1 h2 =>
      intro n'
      have ih1 := Repr.nodes_iff T _ h1 n'
      have ih2 := ReprList.nodesList_iff Ts _ h2 n'
      simp only [LTree.nodesList, List.mem_append, ih1, ih2, List.mem_cons]
      constructor
      · rintro (⟨b, hd, hb⟩ | ⟨c, hc, b, hd, hb⟩)
        · exact ⟨_, Or.inl rfl, b, hd, hb⟩
        · exact ⟨c, Or.inr hc, b, hd, hb⟩
      · rintro ⟨c, rfl | hc, b, hd, hb⟩
        · exact Or.inl ⟨b, hd, hb⟩
        · exact Or.inr ⟨c, hc, b, hd, hb⟩
end

mutual
theorem Repr.lng_nodup {s : LineageTree} (hs : Struct none s) :
    ∀ (T : LTree) (a : Nat), Repr s.mem.cells a T → (T.nodes.map (fun n => n.lng)).Nodup
  | .mk n ks, a, h => by
    cases h with
    | mk h1 h2 =>
      have ih := ReprList.lngList_nodup hs ks n.children a n h1 h2 (fun _ h => h)
        (hs.childNodup a n (by simp) h1)
      simp only [LTree.nodes, List.map_cons, List.nodup_cons]
      refine ⟨?_, ih⟩
      intro hin
      obtain ⟨n', hn', hl⟩ := List.mem_map.mp hin
      obtain ⟨c, hc, b, hd, hb⟩ := (ReprList.nodesList_iff ks _ h2 n').mp hn'
      have := hs.lngInj b a n' n (by simp) (by simp) hb h1 hl
      exact child_desc_ne hs h1 hc hd this
theorem ReprList.lngList_nodup {s : LineageTree} (hs : Struct none s) :
    ∀ (Ts : List LTree) (cs : List Nat) (a : Nat) (n : LineageTreeNode),
    s.mem.cells a = some n → ReprList s.mem.cells cs Ts → (∀ c ∈ cs, c ∈ n.children) →
    cs.Nodup → ((LTree.nodesList Ts).map (fun n => n.lng)).Nodup
  | [], _, _, _, _, _, _, _ => by simp [LTree.nodesList]
  | T :: Ts, _, a, n, ha, h, hsub, hnd => by
    cases h with
    | @cons c cs _ _ h1 h2 =>
      have ih1 := Repr.lng_nodup hs T _ h1
      have ih2 := ReprList.lngList_nodup hs Ts cs a n ha h2
        (fun x hx => hsub x (List.mem_cons_of_mem _ hx)) (List.nodup_cons.mp hnd).2
      simp only [LTree.nodesList, List.map_append]
      rw [List.nodup_append]
      refine ⟨ih1, ih2, ?_⟩
      intro l hl1 hl2
      obtain ⟨n1, hn1, e1⟩ := List.mem_map.mp hl1
      obtain ⟨n2, hn2, e2⟩ := List.mem_map.mp hl2
      obtain ⟨b1, d1, g1⟩ := (Repr.nodes_iff T _ h1 n1).mp hn1
      obtain ⟨c2, hc2, b2, d2, g2⟩ := (ReprList.nodesList_iff Ts _ h2 n2).mp hn2
      have hb : b1 = b2 := hs.lngInj b1 b2 n1 n2 (by simp) (by simp) g1 g2 (e1.trans e2.symm)
      subst hb
      have := Desc.siblings hs ha (hsub c (List.mem_cons_self _ _))
        (hsub c2 (List.mem_cons_of_mem _ hc2)) d1 d2
      subst this
      exact (List.nodup_cons.mp hnd).1 hc2
end

theorem Repr.sampled_nodup {s : LineageTree} (hs : Struct none s) {T : LTree} {a : Nat}
    (h : Repr s.mem.cells a T) : T.sampledLngs.Nodup := by
  rw [sampledLngs_nodes]
  have h1 := Repr.lng_nodup hs T a h
  have h2 : ((T.nodes.filter (fun n => n.sampled)).map (fun n => n.lng)).Sublist
      (T.nodes.map (fun n => n.lng)) := (List.filter_sublist _).map _
  exact h2.nodup h1
theorem RedWin.sampled_iff {s : LineageTree} (hs : Struct none s) {x : Nat} {m : Mem}
    {lo hi r : Nat} (h : RedWin s x m lo hi r) {T : LTree}
    (hT : Repr (viewTree (outside lo hi) m hi [r] 0).mem.cells r T) (l : Nat) :
    l ∈ T.sampledLngs ↔ ∃ b nb, Desc s.mem x b ∧ s.mem.cells b = some nb ∧
      nb.sampled = true ∧ nb.lng = l := by
  rw [mem_sampledLngs]
  constructor
  · rintro ⟨n, hn, hsam, hl⟩
    obtain ⟨b, _, hb⟩ := (Repr.nodes_iff T r hT n).mp hn
    obtain ⟨a, na, h1, h2, c1, _, _, _, c5, _⟩ := h.src b n hb
    exact ⟨a, na, h1, h2, c5 ▸ hsam, c1 ▸ hl⟩
  · rintro ⟨a, na, hd, ha, hsam, hl⟩
    obtain ⟨b, nb, hb, hlng⟩ := h.cover a na hd ha hsam
    obtain ⟨a', na', _, h2, c1, _, _, _, c5, _⟩ := h.src b nb hb
    have : a' = a := hs.lngInj a' a na' na (by simp) (by simp) h2 ha (c1.symm.trans hlng)
    subst this
    rw [ha] at h2
    cases h2
    obtain ⟨r0, hr0, hdesc⟩ := desc_of_root h.struct b b nb hb (le_refl _)
    rw [view_roots, List.mem_singleton] at hr0
    subst hr0
    exact ⟨nb, (Repr.nodes_iff T r0 hT nb).mpr ⟨b, hdesc, hb⟩, c5.trans hsam, hlng.trans hl⟩

theorem RedWin.nodes_src {s : LineageTree} {x : Nat} {m : Mem}
    {lo hi r : Nat} (h : RedWin s x m lo hi r) {T : LTree}
    (hT : Repr (viewTree (outside lo hi) m hi [r] 0).mem.cells r T) :
    ∀ n ∈ T.nodes, ∃ a na, Desc s.mem x a ∧ s.mem.cells a = some na ∧ CopyData na n := by
  intro n hn
  obtain ⟨b, _, hb⟩ := (Repr.nodes_iff T r hT n).mp hn
  exact h.src b n hb

/-- Claim C9: `subSampleTree` leaves the source tree as it was.  For every state `s` reached
by a valid sequence of calls the call returns, the sets `roots`, `extantLngs` and
`sampled_lineages` and the counter `nnodes` of the tree manager are unchanged, every node of
`s` is still stored at its address with the same record up to the scratch flag `needed`
(so with the same `lng`, `t`, `tSample`, `tBranchParent`, `locSample`, `parent`, `children`
in the same order, `extant` and `sampled`), and no freed cell of `s` is occupied.  The
unspecified iteration order of the set of leaves is the parameter `ord`. -/
theorem subsample_keeps_source (ord : List Nat → List Nat) (hord : ∀ l, (ord l).Perm l)
    (ops : List Op) (hv : validOps LineageTree.empty ops = true) :
    ∃ s tree res, runOps LineageTree.empty ops = .ok s ∧
      subSampleTree ord s = .ok (tree, res) ∧
      tree.roots = s.roots ∧ tree.extantLngs = s.extantLngs ∧
      tree.sampled_lineages = s.sampled_lineages ∧ tree.nnodes = s.nnodes ∧
      (∀ a n, s.mem.cells a = some n →
        ∃ n', tree.mem.cells a = some n' ∧ n' = { n with needed := n'.needed }) ∧
      (∀ a, a < s.mem.next → s.mem.cells a = none → tree.mem.cells a = none) := by
  obtain ⟨s, hrun, hinv⟩ := run_inv Inv.empty_inv ops hv
  obtain ⟨m', res, sel, h1, h2, _, _, _, h6⟩ := subSampleTree_spec ord hord hinv
  refine ⟨s, _, res, hrun, h1, rfl, rfl, rfl, rfl, ?_, ?_⟩
  · intro a n ha
    obtain ⟨n', e1, _, e2⟩ := h2.get_src ha
    exact ⟨n', e1, e2⟩
  · intro a ha hnone
    exact h6 a ha hnone

theorem subsample_keeps_source_witness :
    (∀ l : List Nat, (id l).Perm l) ∧ validOps LineageTree.empty exampleOps = true ∧
    ∃ s tree res, runOps LineageTree.empty exampleOps = .ok s ∧
      subSampleTree id s = .ok (tree, res) ∧
      tree.roots = s.roots ∧ tree.extantLngs = s.extantLngs ∧
      tree.sampled_lineages = s.sampled_lineages ∧ tree.nnodes = s.nnodes ∧
      (∀ a n, s.mem.cells a = some n →
        ∃ n', tree.mem.cells a = some n' ∧ n' = { n with needed := n'.needed }) ∧
      (∀ a, a < s.mem.next → s.mem.cells a = none → tree.mem.cells a = none) :=
  ⟨fun l => List.Perm.refl l, by decide,
    subsample_keeps_source id (fun l => List.Perm.refl l) exampleOps (by decide)⟩

/-- Claim C5: shape of the reduced trees.  For every state reached by a valid sequence of
calls `subSampleTree` returns, and in every tree it returns every node is sampled or has at
least two children: every leaf is sampled and no unsampled node has exactly one child.  The
unspecified iteration order of the set of leaves is the parameter `ord`. -/
theorem reduced_tree_shape (ord : List Nat → List Nat) (hord : ∀ l, (ord l).Perm l)
    (ops : List Op) (hv : validOps LineageTree.empty ops = true) :
    ∃ s tree res, runOps LineageTree.empty ops = .ok s ∧
      subSampleTree ord s = .ok (tree, res) ∧
      ∀ r ∈ res, ∃ T, toTree (tree.mem.next + 1) tree.mem r = .ok T ∧
        T.all shapeQ = true := by
  obtain ⟨s, hrun, hinv⟩ := run_inv Inv.empty_inv ops hv
  obtain ⟨m', res, sel, h1, _, h3, _, _⟩ := subSampleTree_spec ord hord hinv
  refine ⟨s, _, res, hrun, h1, ?_⟩
  intro r hr
  obtain ⟨x, _, lo, hi, hwin⟩ := forall2_mem_right h3 r hr
  obtain ⟨T, e1, e2⟩ := hwin.tree (m'.next + 1) (le_trans hwin.hi_le (Nat.le_succ _))
  exact ⟨T, e1, shape_of_repr hwin.shape e2⟩

theorem reduced_tree_shape_witness :
    (∀ l : List Nat, (id l).Perm l) ∧ validOps LineageTree.empty exampleOps = true ∧
    ∃ s tree res, runOps LineageTree.empty exampleOps = .ok s ∧
      subSampleTree id s = .ok (tree, res) ∧
      ∀ r ∈ res, ∃ T, toTree (tree.mem.next + 1) tree.mem r = .ok T ∧
        T.all shapeQ = true :=
  ⟨fun l => List.Perm.refl l, by decide,
    reduced_tree_shape id (fun l => List.Perm.refl l) exampleOps (by decide)⟩

/-- Claim C6: result of `subSampleTree`.  For every state `s` reached by a valid sequence of
calls the call returns one tree for each root of `s` whose tree holds a sampled node, in the
order of the roots, and none for the other roots (`sel` lists the roots that get a tree).
The sampled lineages of the tree returned for the root `x` are exactly the lineages of the
sampled nodes below `x`, and every node of that tree carries `lng`, `t`, `tSample`,
`locSample`, `sampled`, `extant` (and `data`) of a node below `x` with the same lineage.
The unspecified iteration order of the set of leaves is the parameter `ord`. -/
theorem subsample_result (ord : List Nat → List Nat) (hord : ∀ l, (ord l).Perm l)
    (ops : List Op) (hv : validOps LineageTree.empty ops = true) :
    ∃ s tree res sel, runOps LineageTree.empty ops = .ok s ∧
      subSampleTree ord s = .ok (tree, res) ∧
      sel.Sublist s.roots ∧ (∀ x ∈ s.roots, x ∈ sel ↔ HasSampled s.mem x) ∧
      List.Forall₂ (fun x r => ∃ T, toTree (tree.mem.next + 1) tree.mem r = .ok T ∧
        (∀ l, l ∈ T.sampledLngs ↔ ∃ b nb, Desc s.mem x b ∧ s.mem.cells b = some nb ∧
          nb.sampled = true ∧ nb.lng = l) ∧
        (∀ n ∈ T.nodes, ∃ a na, Desc s.mem x a ∧ s.mem.cells a = some na ∧
          CopyData na n)) sel res := by
  obtain ⟨s, hrun, hinv⟩ := run_inv Inv.empty_inv ops hv
  obtain ⟨m', res, sel, h1, _, h3, h4, h5, _⟩ := subSampleTree_spec ord hord hinv
  refine ⟨s, _, res, sel, hrun, h1, h4, h5, ?_⟩
  refine h3.imp ?_
  rintro x r ⟨lo, hi, hwin⟩
  obtain ⟨T, e1, e2⟩ := hwin.tree (m'.next + 1) (le_trans hwin.hi_le (Nat.le_succ _))
  exact ⟨T, e1, hwin.sampled_iff hinv.struct e2, hwin.nodes_src e2⟩

theorem subsample_result_witness :
    (∀ l : List Nat, (id l).Perm l) ∧ validOps LineageTree.empty exampleOps = true ∧
    ∃ s tree res sel, runOps LineageTree.empty exampleOps = .ok s ∧
      subSampleTree id s = .ok (tree, res) ∧
      sel.Sublist s.roots ∧ (∀ x ∈ s.roots, x ∈ sel ↔ HasSampled s.mem x) ∧
      List.Forall₂ (fun x r => ∃ T, toTree (tree.mem.next + 1) tree.mem r = .ok T ∧
        (∀ l, l ∈ T.sampledLngs ↔ ∃ b nb, Desc s.mem x b ∧ s.mem.cells b = some nb ∧
          nb.sampled = true ∧ nb.lng = l) ∧
        (∀ n ∈ T.nodes, ∃ a na, Desc s.mem x a ∧ s.mem.cells a = some na ∧
          CopyData na n)) sel res :=
  ⟨fun l => List.Perm.refl l, by decide,
    subsample_result id (fun l => List.Perm.refl l) exampleOps (by decide)⟩

/-- Claim C2: leaf round trip.  For every state reached by a valid sequence of calls and
every reduced tree `T` returned by `subSampleTree`, the sampled lineages of `T` are pairwise
distinct, and the lineages at the leaves of every phylogeny that `getAncestralTree` returns
on `T` are, as a multiset, exactly the sampled lineages of `T`: each sampled node, with or
without children, gives one leaf, and there is no other leaf.  The call does return a
phylogeny when the event times of the calls are ordered (with fuel `T.weight`).  The
unspecified iteration order of the set of leaves is the parameter `ord`. -/
theorem leaf_round_trip (ord : List Nat → List Nat) (hord : ∀ l, (ord l).Perm l)
    (ops : List Op) (hv : validOps LineageTree.empty ops = true) :
    ∃ s tree res, runOps LineageTree.empty ops = .ok s ∧
      subSampleTree ord s = .ok (tree, res) ∧
      ∀ r ∈ res, ∃ T, toTree (tree.mem.next + 1) tree.mem r = .ok T ∧
        T.sampledLngs.Nodup ∧
        (∀ fuel T1 p, getAncestralTree fuel T none = .ok (T1, p) →
          p.leafLngs.Perm T.sampledLngs) ∧
        (timedOps LineageTree.empty ops = true →
          sampleTimedOps LineageTree.empty ops = true →
          ∃ T1 p, getAncestralTree T.weight T none = .ok (T1, p) ∧
            p.leafLngs.Perm T.sampledLngs) := by
  obtain ⟨s, hrun, hinv⟩ := run_inv Inv.empty_inv ops hv
  obtain ⟨m', res, sel, h1, _, h3, _, _⟩ := subSampleTree_spec ord hord hinv
  refine ⟨s, _, res, hrun, h1, ?_⟩
  intro r hr
  obtain ⟨x, _, lo, hi, hwin⟩ := forall2_mem_right h3 r hr
  obtain ⟨T, e1, e2⟩ := hwin.tree (m'.next + 1) (le_trans hwin.hi_le (Nat.le_succ _))
  have hedge := edge_of_repr hwin.struct e2
  have hpost : ∀ fuel T1 p, getAncestralTree fuel T none = .ok (T1, p) →
      p.leafLngs.Perm T.sampledLngs :=
    fun fuel T1 p h => (gat_root_post T hedge fuel (T1, p) h).2.2.2.1
  refine ⟨T, e1, Repr.sampled_nodup hwin.struct e2, hpost, ?_⟩
  intro htm hsm
  obtain ⟨s2, hrun2, _, ht, hst⟩ := run_sampleTime Inv.empty_inv TimeInv.empty_time
    (fun a n ha => by simp [LineageTree.empty] at ha) ops hv htm hsm
  rw [hrun] at hrun2
  cases hrun2
  have e3 := time_of_repr hwin.struct (hwin.time ht) (hwin.sample_time hst) e2
  obtain ⟨⟨T1, p⟩, h⟩ := gat_root_total T hedge (shape_of_repr hwin.shape e2) e3
  exact ⟨T1, p, h, hpost _ T1 p h⟩

theorem leaf_round_trip_witness :
    (∀ l : List Nat, (id l).Perm l) ∧ validOps LineageTree.empty exampleOps = true ∧
    ∃ s tree res, runOps LineageTree.empty exampleOps = .ok s ∧
      subSampleTree id s = .ok (tree, res) ∧
      ∀ r ∈ res, ∃ T, toTree (tree.mem.next + 1) tree.mem r = .ok T ∧
        T.sampledLngs.Nodup ∧
        (∀ fuel T1 p, getAncestralTree fuel T none = .ok (T1, p) →
          p.leafLngs.Perm T.sampledLngs) ∧
        (timedOps LineageTree.empty exampleOps = true →
          sampleTimedOps LineageTree.empty exampleOps = true →
          ∃ T1 p, getAncestralTree T.weight T none = .ok (T1, p) ∧
            p.leafLngs.Perm T.sampledLngs) :=
  ⟨fun l => List.Perm.refl l, by decide,
    leaf_round_trip id (fun l => List.Perm.refl l) exampleOps (by decide)⟩

theorem lngInTree_of_fresh {s : LineageTree} {lng : Nat}
    (h : ∀ a n, s.mem.cells a = some n → n.lng ≠ lng) : lngInTree s lng = false := by
  unfold lngInTree
  rw [List.any_eq_false]
  intro a _
  cases hc : s.mem.cells a with
  | none => simp
  | some n => simpa using h a n hc

theorem vecAt_mem {v : List Nat} {ix : Int} {x : Nat} (h : vecAt v ix = .ok x) : x ∈ v := by
  unfold vecAt at h
  split_ifs at h
  cases hv : v[ix.toNat]? with
  | none => rw [hv] at h; cases h
  | some y =>
    rw [hv] at h
    cases h
    exact mem_of_getElem_some hv

theorem infection_ops {g : RandomStream} {s s2 : Simulator} (h : SimInv s) {pos p3 : Nat}
    (he : apply_infection g s pos = .ok (s2, p3)) :
    ∃ lp, validOps s.tree_mngr [.add s.t s.next_lng 0 lp] = true ∧
      runOps s.tree_mngr [.add s.t s.next_lng 0 lp] = .ok s2.tree_mngr ∧ s2.t = s.t := by
  unfold apply_infection at he
  cases hv : vecAt s.I_lngs (getUniInt g pos (s.I - 1)).1 with
  | error e => rw [hv] at he; cases he
  | ok lp =>
    rw [hv] at he
    simp only at he
    cases hadd : addExtantLineage s.tree_mngr s.t s.next_lng 0 lp with
    | error e => rw [hadd] at he; cases he
    | ok tr =>
      rw [hadd] at he
      simp only [Except.ok.injEq, Prod.mk.injEq] at he
      obtain ⟨e1, _⟩ := he
      subst e1
      obtain ⟨pa, hpa⟩ := (h.keys lp).1 (vecAt_mem hv)
      have hfresh : lngInTree s.tree_mngr s.next_lng = false :=
        lngInTree_of_fresh (fun a n ha => (h.fresh a n ha).ne)
      refine ⟨lp, ?_, ?_, rfl⟩
      · simp [validOps, opPre, hfresh, hpa, applyOp, hadd]
      · simp [runOps, applyOp, hadd]

theorem removal_ops {g : RandomStream} {s s2 : Simulator} (h : SimInv s) {pos p3 : Nat}
    {prob : Frac} (he : apply_removal g s pos prob = .ok (s2, p3)) :
    ∃ lng ops, (ops = [.remove lng false] ∨ ops = [.sample lng s.t "@", .remove lng false]) ∧
      validOps s.tree_mngr ops = true ∧ runOps s.tree_mngr ops = .ok s2.tree_mngr ∧
      s2.t = s.t := by
  unfold apply_removal at he
  cases hv : vecAt s.I_lngs (getUniInt g pos (s.I - 1)).1 with
  | error e => rw [hv] at he; cases he
  | ok lng =>
    rw [hv] at he
    simp only at he
    obtain ⟨x, hE⟩ := (h.keys lng).1 (vecAt_mem hv)
    obtain ⟨nx, hx, hl, _⟩ := (h.inv.einv lng x).1 hE
    cases hsi : sampleIf g s (getUniInt g pos (s.I - 1)).2 prob lng with
    | error e => rw [hsi] at he; cases he
    | ok s1 =>
      rw [hsi] at he
      simp only at he
      cases hrm : removeExtantLineage s1.tree_mngr lng false with
      | error e => rw [hrm] at he; cases he
      | ok tr =>
        rw [hrm] at he
        simp only at he
        cases hrv : rmv_element s1.I_lngs (getUniInt g pos (s.I - 1)).1 with
        | error e => rw [hrv] at he; cases he
        | ok v =>
          rw [hrv] at he
          simp only [Except.ok.injEq, Prod.mk.injEq] at he
          obtain ⟨e1, _⟩ := he
          subst e1
          unfold sampleIf at hsi
          split_ifs at hsi with hb
          · cases hsam : sampleExtantLineage s.tree_mngr lng s.t "@" with
            | error e => rw [hsam] at hsi; cases hsi
            | ok r =>
              obtain ⟨trS, b⟩ := r
              rw [hsam] at hsi
              simp only [Except.ok.injEq] at hsi
              subst hsi
              have hext : trS.extantLngs = s.tree_mngr.extantLngs := by
                rcases sample_rel hE hx hl s.t "@" with ⟨_, h1⟩ | ⟨s', h1, r⟩
                · rw [hsam] at h1
                  cases h1
                  rfl
                · rw [hsam] at h1
                  cases h1
                  exact r.extantLngs
              refine ⟨lng, _, Or.inr rfl, ?_, ?_, rfl⟩
              · simp [validOps, opPre, hE, applyOp, hsam, hext, hrm]
              · simp [runOps, applyOp, hsam, hrm]
          · simp only [Except.ok.injEq] at hsi
            subst hsi
            refine ⟨lng, _, Or.inl rfl, ?_, ?_, rfl⟩
            · simp [validOps, opPre, hE, applyOp, hrm]
            · simp [runOps, applyOp, hrm]

theorem event_ops {g : RandomStream} {s : Simulator} (h : SimInv s) {pos p2 p3 : Nat}
    {s1 s2 : Simulator} {inf : Bool} (hd : drawEvent g s pos = some (s1, p2, inf))
    (he : applyEvent g s1 p2 inf = .ok (s2, p3)) :
    ∃ ops, validOps s.tree_mngr ops = true ∧ runOps s.tree_mngr ops = .ok s2.tree_mngr ∧
      s2.t = s1.t ∧
      ((∃ lp, ops = [.add s1.t s.next_lng 0 lp]) ∨ (∃ lng, ops = [.remove lng false]) ∨
        (∃ lng, ops = [.sample lng s1.t "@", .remove lng false])) := by
  obtain ⟨_, t1, rfl⟩ := drawEvent_spec hd
  have h1 := h.with_t t1
  cases inf with
  | true =>
    simp only [applyEvent, if_true] at he
    obtain ⟨lp, e1, e2, e3⟩ := infection_ops h1 he
    exact ⟨_, e1, e2, e3, Or.inl ⟨lp, rfl⟩⟩
  | false =>
    simp only [applyEvent, Bool.false_eq_true, if_false] at he
    obtain ⟨lng, ops, e0, e1, e2, e3⟩ := removal_ops h1 he
    rcases e0 with rfl | rfl
    · exact ⟨_, e1, e2, e3, Or.inr (Or.inl ⟨lng, rfl⟩)⟩
    · exact ⟨_, e1, e2, e3, Or.inr (Or.inr ⟨lng, rfl⟩)⟩
theorem step_clock {s s' : LineageTree} (h : Inv s) {T : Int}
    (hc : ∀ a n, s.mem.cells a = some n → n.t ≤ T) {op : Op}
    (hpre : opPre s op = true) (hb : opBefore T op = true)
    (hrun : applyOp s op = .ok s') : ∀ a n, s'.mem.cells a = some n → n.t ≤ T := by
  cases op with
  | addExternal t lng data =>
    simp only [applyOp, Except.ok.injEq] at hrun
    subst hrun
    simp only [opBefore, decide_eq_true_eq] at hb
    intro b nb' hb'
    rw [(addExternal_rel s t lng data).cells b] at hb'
    split_ifs at hb' with h1
    · cases hb'
      exact hb
    · exact hc b nb' hb'
  | add t lng data lngParent =>
    simp only [opPre, Bool.and_eq_true, Bool.not_eq_true', Option.isSome_iff_exists] at hpre
    obtain ⟨hf, pa, hpa⟩ := hpre
    obtain ⟨np, hnp, _, _⟩ := (h.einv lngParent pa).1 hpa
    obtain ⟨s'', hrun', r⟩ := addExtant_rel hpa hnp t lng data
    simp only [applyOp] at hrun
    rw [hrun] at hrun'
    cases hrun'
    simp only [opBefore, decide_eq_true_eq] at hb
    intro b nb' hb'
    rw [r.cells b] at hb'
    split_ifs at hb' with h1 h2
    · cases hb'
      exact hc pa np hnp
    · cases hb'
      exact hb
    · exact hc b nb' hb'
  | sample lng t loc =>
    simp only [opPre, Option.isSome_iff_exists] at hpre
    obtain ⟨a, ha⟩ := hpre
    obtain ⟨n, hn, hl, _⟩ := (h.einv lng a).1 ha
    rcases sample_rel ha hn hl t loc with ⟨_, hrun'⟩ | ⟨s'', hrun', r⟩
    · simp only [applyOp, hrun', Except.ok.injEq] at hrun
      subst hrun
      exact hc
    · simp only [applyOp, hrun', Except.ok.injEq] at hrun
      subst hrun
      intro b nb' hb'
      rw [r.cells b] at hb'
      split_ifs at hb' with h1
      · cases hb'
        exact hc a n hn
      · exact hc b nb' hb'
  | remove lng ig =>
    simp only [opPre, Option.isSome_iff_exists] at hpre
    obtain ⟨x, hx⟩ := hpre
    obtain ⟨s2, hrun2, _, _, _, _, hfwd⟩ := remove_frame h hx ig
    simp only [applyOp] at hrun
    rw [hrun] at hrun2
    cases hrun2
    intro b nb' hb'
    obtain ⟨nb, h1, _, _, h4, _⟩ := hfwd b nb' hb'
    rw [h4]
    exact hc b nb h1

theorem run_clock {s : LineageTree} (h : Inv s) {T : Int}
    (hc : ∀ a n, s.mem.cells a = some n → n.t ≤ T) (ops : List Op)
    (hv : validOps s ops = true) (hb : ∀ op ∈ ops, opBefore T op = true)
    {s' : LineageTree} (hrun : runOps s ops = .ok s') :
    ∀ a n, s'.mem.cells a = some n → n.t ≤ T := by
  induction ops generalizing s with
  | nil =>
    simp only [runOps, Except.ok.injEq] at hrun
    subst hrun
    exact hc
  | cons op ops ih =>
    simp only [validOps, Bool.and_eq_true] at hv
    obtain ⟨hpre, hrest⟩ := hv
    obtain ⟨s1, hstep, h1⟩ := step_inv h hpre
    simp only [hstep] at hrest
    simp only [runOps, hstep] at hrun
    exact ih h1 (step_clock h hc hpre (hb op (List.mem_cons_self _ _)) hstep) hrest
      (fun o ho => hb o (List.mem_cons_of_mem _ ho)) hrun

theorem step_sampledNodup {s s' : LineageTree} (h : Inv s)
    (hn : s.sampled_lineages.Nodup) {op : Op} (hpre : opPre s op = true)
    (hrun : applyOp s op = .ok s') : s'.sampled_lineages.Nodup := by
  cases op with
  | addExternal t lng data =>
    simp only [applyOp, Except.ok.injEq] at hrun
    subst hrun
    rw [(addExternal_rel s t lng data).sampled_lineages]
    exact hn
  | add t lng data lngParent =>
    simp only [opPre, Bool.and_eq_true, Bool.not_eq_true', Option.isSome_iff_exists] at hpre
    obtain ⟨hf, pa, hpa⟩ := hpre
    obtain ⟨np, hnp, _, _⟩ := (h.einv lngParent pa).1 hpa
    obtain ⟨s'', hrun', r⟩ := addExtant_rel hpa hnp t lng data
    simp only [applyOp] at hrun
    rw [hrun] at hrun'
    cases hrun'
    rw [r.sampled_lineages]
    exact hn
  | sample lng t loc =>
    simp only [opPre, Option.isSome_iff_exists] at hpre
    obtain ⟨a, ha⟩ := hpre
    obtain ⟨n, hn', hl, _⟩ := (h.einv lng a).1 ha
    rcases sample_rel ha hn' hl t loc with ⟨_, hrun'⟩ | ⟨s'', hrun', r⟩
    · simp only [applyOp, hrun', Except.ok.injEq] at hrun
      subst hrun
      exact hn
    · simp only [applyOp, hrun', Except.ok.injEq] at hrun
      subst hrun
      rw [r.sampled_lineages]
      exact nodup_setInsert hn _
  | remove lng ig =>
    simp only [opPre, Option.isSome_iff_exists] at hpre
    obtain ⟨x, hx⟩ := hpre
    obtain ⟨s2, hrun2, _, _, hS, _⟩ := remove_frame h hx ig
    simp only [applyOp] at hrun
    rw [hrun] at hrun2
    cases hrun2
    rw [hS]
    exact hn

theorem run_sampledNodup {s : LineageTree} (h : Inv s) (hn : s.sampled_lineages.Nodup)
    (ops : List Op) (hv : validOps s ops = true) {s' : LineageTree}
    (hrun : runOps s ops = .ok s') : s'.sampled_lineages.Nodup := by
  induction ops generalizing s with
  | nil =>
    simp only [runOps, Except.ok.injEq] at hrun
    subst hrun
    exact hn
  | cons op ops ih =>
    simp only [validOps, Bool.and_eq_true] at hv
    obtain ⟨hpre, hrest⟩ := hv
    obtain ⟨s1, hstep, h1⟩ := step_inv h hpre
    simp only [hstep] at hrest
    simp only [runOps, hstep] at hrun
    exact ih h1 (step_sampledNodup h hn hpre hstep) hrest hrun
theorem timed_add {s : LineageTree} {T : Int} (hc : ∀ a n, s.mem.cells a = some n → n.t ≤ T)
    (lng : Nat) (data : Int) (lp : Nat) :
    timedOps s [.add T lng data lp] = true ∧ sampleTimedOps s [.add T lng data lp] = true := by
  constructor
  · have h1 : opTimed s (.add T lng data lp) = true := by
      simp only [opTimed]
      cases hm : mapFind s.extantLngs lp with
      | none => rfl
      | some a =>
        cases hp : s.mem.cells a with
        | none => simp [hp]
        | some p => simpa [hp] using hc a p hp
    simp only [timedOps, h1, Bool.true_and]
    cases applyOp s (.add T lng data lp) <;> rfl
  · simp only [sampleTimedOps, opSampleTimed, Bool.true_and]
    cases applyOp s (.add T lng data lp) <;> rfl

theorem timed_remove (s : LineageTree) (lng : Nat) (ig : Bool) :
    timedOps s [.remove lng ig] = true ∧ sampleTimedOps s [.remove lng ig] = true := by
  constructor
  · simp only [timedOps, opTimed, Bool.true_and]
    cases applyOp s (.remove lng ig) <;> rfl
  · simp only [sampleTimedOps, opSampleTimed, Bool.true_and]
    cases applyOp s (.remove lng ig) <;> rfl

theorem timed_sample_remove {s : LineageTree} {T : Int}
    (hc : ∀ a n, s.mem.cells a = some n → n.t ≤ T) (lng : Nat) (loc : String) (ig : Bool) :
    timedOps s [.sample lng T loc, .remove lng ig] = true ∧
      sampleTimedOps s [.sample lng T loc, .remove lng ig] = true := by
  constructor
  · simp only [timedOps, opTimed, Bool.true_and]
    cases h1 : applyOp s (.sample lng T loc) with
    | error e => rfl
    | ok s1 =>
      simp only
      cases applyOp s1 (.remove lng ig) <;> rfl
  · have h1 : opSampleTimed s (.sample lng T loc) = true := by
      simp only [opSampleTimed]
      cases hm : mapFind s.extantLngs lng with
      | none => rfl
      | some a =>
        cases hp : s.mem.cells a with
        | none => simp [hp]
        | some p => simpa [hp] using hc a p hp
    rw [sampleTimedOps, h1, Bool.true_and]
    cases h2 : applyOp s (.sample lng T loc) with
    | error e => rfl
    | ok s1 =>
      simp only [sampleTimedOps, opSampleTimed, Bool.true_and]
      cases applyOp s1 (.remove lng ig) <;> rfl

theorem event_sets {g : RandomStream} {s : Simulator} (h : SimInv s) (hs : SimSets s)
    {pos p2 p3 : Nat} {s1 s2 : Simulator} {inf : Bool}
    (hd : drawEvent g s pos = some (s1, p2, inf))
    (he : applyEvent g s1 p2 inf = .ok (s2, p3)) : SimSets s2 := by
  obtain ⟨ops, hv, hrun, _, _⟩ := event_ops h hd he
  exact ⟨run_roots h.inv hs.rootsNodup ops hv hrun,
    run_sampledNodup h.inv hs.sampledNodup ops hv hrun⟩

theorem event_time {g : RandomStream} {s : Simulator} (h : SimInv s) (ht : SimTime s)
    {pos p2 p3 : Nat} {s1 s2 : Simulator} {inf : Bool}
    (hd : drawEvent g s pos = some (s1, p2, inf))
    (he : applyEvent g s1 p2 inf = .ok (s2, p3)) (hle : s.t ≤ s1.t) : SimTime s2 := by
  obtain ⟨ops, hv, hrun, ht2, hshape⟩ := event_ops h hd he
  have hc : ∀ a n, s.tree_mngr.mem.cells a = some n → n.t ≤ s1.t :=
    fun a n ha => le_trans (ht.clock a n ha) hle
  have htimed : timedOps s.tree_mngr ops = true ∧ sampleTimedOps s.tree_mngr ops = true ∧
      ∀ op ∈ ops, opBefore s1.t op = true := by
    rcases hshape with ⟨lp, rfl⟩ | ⟨lng, rfl⟩ | ⟨lng, rfl⟩
    · obtain ⟨a1, a2⟩ := timed_add hc s.next_lng 0 lp
      refine ⟨a1, a2, fun op hop => ?_⟩
      rw [List.mem_singleton.mp hop]
      simp [opBefore]
    · obtain ⟨a1, a2⟩ := timed_remove s.tree_mngr lng false
      refine ⟨a1, a2, fun op hop => ?_⟩
      rw [List.mem_singleton.mp hop]
      rfl
    · obtain ⟨a1, a2⟩ := timed_sample_remove hc lng "@" false
      refine ⟨a1, a2, fun op hop => ?_⟩
      simp only [List.mem_cons, List.mem_singleton, List.not_mem_nil, or_false] at hop
      rcases hop with rfl | rfl <;> rfl
  obtain ⟨s', hrun', _, e1, e2⟩ := run_sampleTime h.inv ht.time ht.stime ops hv htimed.1
    htimed.2.1
  rw [hrun] at hrun'
  cases hrun'
  refine ⟨e1, e2, ?_⟩
  rw [ht2]
  exact run_clock h.inv hc ops hv htimed.2.2 hrun

theorem Frac.toInt_nonneg {x : Frac} (h : 0 ≤ x.num) : 0 ≤ x.toInt := by
  unfold Frac.toInt
  rw [if_pos h]
  exact Int.ofNat_nonneg _

theorem Dbl.nonneg_round {q : Frac} (h : 0 ≤ q.num) : (Dbl.round q).finNonneg := by
  unfold Dbl.round
  split_ifs
  · trivial
  · trivial
  · trivial
  · exact h

theorem Dbl.nonneg_add {x y : Dbl} (hx : x.finNonneg) (hy : y.finNonneg) :
    (x.add y).finNonneg := by
  cases x with
  | fin a =>
    cases y with
    | fin b =>
      refine Dbl.nonneg_round ?_
      show 0 ≤ a.num * (b.den : Int) + b.num * (a.den : Int)
      have h1 : (0 : Int) ≤ (a.den : Int) := Int.ofNat_nonneg _
      have h2 : (0 : Int) ≤ (b.den : Int) := Int.ofNat_nonneg _
      have hx' : 0 ≤ a.num := hx
      have hy' : 0 ≤ b.num := hy
      positivity
    | inf r => trivial
    | nan => trivial
  | inf r =>
    cases y with
    | fin b => trivial
    | inf r2 =>
      simp only [Dbl.add]
      split_ifs <;> trivial
    | nan => trivial
  | nan => cases y <;> trivial

theorem Dbl.nonneg_mul {x y : Dbl} (hx : x.finNonneg) (hy : y.finNonneg) :
    (x.mul y).finNonneg := by
  cases x with
  | fin a =>
    cases y with
    | fin b =>
      refine Dbl.nonneg_round ?_
      show 0 ≤ a.num * b.num
      exact Int.mul_nonneg hx hy
    | inf r =>
      simp only [Dbl.mul]
      split_ifs <;> trivial
    | nan => trivial
  | inf r =>
    cases y with
    | fin b =>
      simp only [Dbl.mul]
      split_ifs <;> trivial
    | inf r2 => trivial
    | nan => trivial
  | nan => cases y <;> trivial

theorem Dbl.nonneg_div {x y : Dbl} (hx : x.finNonneg) (hy : y.finNonneg) :
    (x.div y).finNonneg := by
  cases x with
  | fin a =>
    cases y with
    | fin b =>
      simp only [Dbl.div]
      split_ifs with h1 h2
      · trivial
      · trivial
      · refine Dbl.nonneg_round ?_
        show 0 ≤ a.num * (b.den : Int) * b.num.sign
        have hx' : 0 ≤ a.num := hx
        have hy' : 0 ≤ b.num := hy
        have h3 : 0 ≤ b.num.sign := Int.sign_nonneg.mpr hy'
        have h4 : (0 : Int) ≤ (b.den : Int) := Int.ofNat_nonneg _
        exact Int.mul_nonneg (Int.mul_nonneg hx' h4) h3
    | inf r => exact le_refl _
    | nan => trivial
  | inf r => cases y <;> trivial
  | nan => cases y <;> trivial

theorem getExpo_nonneg {g : RandomStream} (hg : g.expoNonneg) (pos : Nat) (rate : Dbl)
    (hr : rate.finNonneg) : 0 ≤ (getExpo g pos rate).1 := by
  cases rate with
  | fin q =>
    apply Frac.toInt_nonneg
    show 0 ≤ g.expo pos * (q.den : Int) * q.num.sign
    have h1 : 0 ≤ q.num.sign := Int.sign_nonneg.mpr hr
    have h2 : (0 : Int) ≤ q.den := Int.ofNat_nonneg _
    exact Int.mul_nonneg (Int.mul_nonneg (hg pos) h2) h1
  | inf r => exact le_refl _
  | nan => exact le_refl _

theorem drawEvent_clock {g : RandomStream} (hg : g.expoNonneg) {s s1 : Simulator}
    {pos p2 : Nat} {inf : Bool} (hI : 0 ≤ s.I) (hrate : (s.beta.add s.mu).finNonneg)
    (hd : drawEvent g s pos = some (s1, p2, inf)) : s.t ≤ s1.t := by
  unfold drawEvent at hd
  split_ifs at hd with hz
  simp only [Option.some.injEq, Prod.mk.injEq] at hd
  obtain ⟨e1, _⟩ := hd
  subst e1
  have := getExpo_nonneg hg pos (totRate s) (Dbl.nonneg_mul hrate hI)
  show s.t ≤ s.t + _
  omega

theorem initial_rate_nonneg (mc ms : Int) {R0 dI : Frac} (rho : Frac) (hR : R0.pos)
    (hd : dI.pos) :
    ((initialSimulator mc ms R0 dI rho).beta.add
      (initialSimulator mc ms R0 dI rho).mu).finNonneg := by
  have h1 : (Dbl.round dI).finNonneg := Dbl.nonneg_round (le_of_lt hd.1)
  have h2 : (Dbl.round R0).finNonneg := Dbl.nonneg_round (le_of_lt hR.1)
  have h3 : ((Dbl.ofInt 1).div (Dbl.round dI)).finNonneg :=
    Dbl.nonneg_div (show (0 : Int) ≤ 1 by decide) h1
  exact Dbl.nonneg_add (Dbl.nonneg_mul h2 h3) h3

theorem simulate_success {g : RandomStream} {s0 : Simulator} {p0 : Nat} :
    ∀ (fuel k : Nat) (sh : Simulator) (ph : Nat), AtHead g s0 p0 k sh ph →
      ∀ s p, simulate g fuel sh ph = .ok (true, s, p) →
      ∃ k' s' p' s1 p2 inf, AtHead g s0 p0 k' s' p' ∧
        drawEvent g s' p' = some (s1, p2, inf) ∧ applyEvent g s1 p2 inf = .ok (s, p) ∧
        ¬ ((s.next_lng : Int) > s.max_cases) ∧ (s.n_sampled : Int) ≥ s.max_samples := by
  intro fuel
  induction fuel with
  | zero =>
    intro k sh ph _ s p h
    simp [simulate] at h
  | succ fuel ih =>
    intro k sh ph hh s p h
    rw [simulate] at h
    cases hd : drawEvent g sh ph with
    | none =>
      rw [hd] at h
      simp at h
    | some r =>
      obtain ⟨s1, p2, inf⟩ := r
      rw [hd] at h
      simp only at h
      cases he : applyEvent g s1 p2 inf with
      | error e =>
        rw [he] at h
        cases h
      | ok r2 =>
        obtain ⟨s2, p3⟩ := r2
        rw [he] at h
        simp only at h
        split_ifs at h with h1 h2
        · simp at h
        · simp only [Except.ok.injEq, Prod.mk.injEq] at h
          obtain ⟨_, e1, e2⟩ := h
          subst e1
          subst e2
          exact ⟨k, sh, ph, s1, p2, inf, hh, hd, he, h1, h2⟩
        · exact ih _ s2 p3 (AtHead.next hh hd he h1 h2) s p h

theorem atHead_sets {g : RandomStream} (hg : g.unitRange) {s0 : Simulator} {p0 : Nat}
    (h0 : SimInv s0) (hs0 : SimSets s0) {k : Nat} {s : Simulator} {p : Nat}
    (h : AtHead g s0 p0 k s p) : SimSets s := by
  induction h with
  | start => exact hs0
  | next hh hd he _ _ ih => exact event_sets (atHead_inv hg h0 hh).1 ih hd he

theorem atHead_time {g : RandomStream} (hg : g.unitRange) (hx : g.expoNonneg)
    {s0 : Simulator} {p0 : Nat} (h0 : SimInv s0) (ht0 : SimTime s0)
    (hrate : (s0.beta.add s0.mu).finNonneg) {k : Nat} {s : Simulator} {p : Nat}
    (h : AtHead g s0 p0 k s p) : SimTime s := by
  induction h with
  | start => exact ht0
  | next hh hd he _ _ ih =>
    obtain ⟨hinv, hp⟩ := atHead_inv hg h0 hh
    have hI := hinv.card
    refine event_time hinv ih hd he (drawEvent_clock hx (by omega) ?_ hd)
    rw [hp.2.2.2.2.1, hp.2.2.2.1]
    exact hrate

theorem initial_sets (mc ms : Int) (R0 dI rho : Frac) :
    SimSets (initialSimulator mc ms R0 dI rho) :=
  ⟨nodup_setInsert List.nodup_nil _, List.nodup_nil⟩

theorem initial_time (mc ms : Int) (R0 dI rho : Frac) :
    SimTime (initialSimulator mc ms R0 dI rho) := by
  have r := addExternal_rel LineageTree.empty 0 1 0
  have hcells : ∀ b nb, (addExtantLineageExternal LineageTree.empty 0 1 0).mem.cells b =
      some nb → nb = mkNode 1 0 0 true none := by
    intro b nb hb
    rw [r.cells b] at hb
    split_ifs at hb
    · cases hb; rfl
    · cases hb
  refine ⟨r.time_addRoot Struct.empty_struct TimeInv.empty_time, ?_, ?_⟩
  · intro a n ha hsam
    have := hcells a n ha
    subst this
    cases hsam
  · intro a n ha
    have := hcells a n ha
    subst this
    exact le_refl _

/-- The state in which `simulate` reports success, started from the state that
`simulate_BD` sets up with `max_samples ≥ 1`. -/
theorem final_state {g : RandomStream} (hg : g.unitRange) (mc ms : Int) (R0 dI rho : Frac)
    (hms : 1 ≤ ms) {fuel : Nat} {s : Simulator} {p : Nat}
    (hsim : simulate g fuel (initialSimulator mc ms R0 dI rho) 0 = .ok (true, s, p)) :
    SimInv s ∧ (s.n_sampled : Int) = ms ∧ SimSets s ∧
      (g.expoNonneg → R0.pos → dI.pos → SimTime s) := by
  have h0 := initial_inv mc ms R0 dI rho
  obtain ⟨k, sh, ph, s1, p2, inf, hh, hd, he, _, hge⟩ :=
    simulate_success fuel 0 _ 0 AtHead.start s p hsim
  obtain ⟨hinv, hp⟩ := atHead_inv hg h0 hh
  obtain ⟨s2, p3, hrun, hinv2, hp2, a1, a2⟩ := event_spec hg hinv hd (event_pos hinv hd he)
  rw [he] at hrun
  simp only [Except.ok.injEq, Prod.mk.injEq] at hrun
  obtain ⟨e1, _⟩ := hrun
  subst e1
  have hmax : s.max_samples = ms := hp2.2.2.2.2.2.2.trans hp.2.2.2.2.2.2
  have hbelow : (sh.n_sampled : Int) < ms := by
    cases hh with
    | start => exact_mod_cast hms
    | next hh' _ _ _ hlt =>
      have hp' := (atHead_inv hg h0 (AtHead.next hh' ‹_› ‹_› ‹_› hlt)).2
      rw [hp'.2.2.2.2.2.2] at hlt
      exact lt_of_not_ge hlt
  rw [hmax] at hge
  have hn : (s.n_sampled : Int) = ms := by
    cases inf with
    | true =>
      have := (a1 rfl).1
      rw [this] at hge
      omega
    | false =>
      obtain ⟨_, _, lng, _, a3, _⟩ := a2 rfl
      rw [a3] at hge ⊢
      split_ifs at hge ⊢ with hb
      · push_cast at hge ⊢
        omega
      · simp only [add_zero] at hge
        omega
  refine ⟨hinv2, hn, event_sets hinv (atHead_sets hg h0 (initial_sets mc ms R0 dI rho) hh) hd he,
    fun hx hR hdI => ?_⟩
  have hrate := initial_rate_nonneg mc ms rho hR hdI
  have ht := atHead_time hg hx h0 (initial_time mc ms R0 dI rho) hrate hh
  have hI := hinv.card
  refine event_time hinv ht hd he (drawEvent_clock hx (by omega) ?_ hd)
  rw [hp.2.2.2.2.1, hp.2.2.2.1]
  exact hrate
theorem singleton_of_all_eq {l : List Nat} (hn : l.Nodup) (h : ∀ a ∈ l, ∀ b ∈ l, a = b)
    {x : Nat} (hx : x ∈ l) : l = [x] := by
  cases l with
  | nil => cases hx
  | cons y rest =>
    have hy : x = y := h x hx y (List.mem_cons_self _ _)
    subst hy
    cases rest with
    | nil => rfl
    | cons z rest2 =>
      have hz : z = x := h z (List.mem_cons_of_mem _ (List.mem_cons_self _ _)) x
        (List.mem_cons_self _ _)
      subst hz
      simp at hn

theorem success_tree (ord : List Nat → List Nat) (hord : ∀ l, (ord l).Perm l)
    {s : LineageTree} (h : Inv s) (hroot : ∀ a ∈ s.roots, ∀ b ∈ s.roots, a = b)
    (hrn : s.roots.Nodup) (hsn : s.sampled_lineages.Nodup)
    (hpos : 0 < s.sampled_lineages.length) :
    ∃ m' r x lo hi T, subSampleTree ord s = .ok ({ s with mem := m' }, [r]) ∧
      RedWin s x m' lo hi r ∧ toTree (m'.next + 1) m' r = .ok T ∧
      Repr (viewTree (outside lo hi) m' hi [r] 0).mem.cells r T ∧
      T.sampledLngs.Perm s.sampled_lineages := by
  obtain ⟨l, hl⟩ := List.exists_mem_of_length_pos hpos
  obtain ⟨a, na, ha, hlng, hsam⟩ := (h.sinv l).mp hl
  obtain ⟨x, hx, hdx⟩ := desc_of_root h.struct a a na ha (le_refl _)
  have hroots : s.roots = [x] := singleton_of_all_eq hrn hroot hx
  have hall : ∀ b nb, s.mem.cells b = some nb → Desc s.mem x b := by
    intro b nb hb
    obtain ⟨y, hy, hd⟩ := desc_of_root h.struct b b nb hb (le_refl _)
    rw [hroots, List.mem_singleton] at hy
    subst hy
    exact hd
  obtain ⟨m', res, sel, h1, _, h3, h4, h5, _⟩ := subSampleTree_spec ord hord h
  have hxs : x ∈ sel := (h5 x hx).mpr ⟨a, na, hdx, ha, hsam⟩
  have hsel : sel = [x] := by
    rw [hroots] at h4
    rcases List.sublist_singleton.mp h4 with e | e
    · rw [e] at hxs
      cases hxs
    · exact e
  subst hsel
  cases h3 with
  | cons hw hrest =>
    cases hrest
    obtain ⟨lo, hi, hwin⟩ := hw
    obtain ⟨T, e1, e2⟩ := hwin.tree (m'.next + 1) (le_trans hwin.hi_le (Nat.le_succ _))
    refine ⟨m', _, x, lo, hi, T, h1, hwin, e1, e2, ?_⟩
    rw [List.perm_ext_iff_of_nodup (Repr.sampled_nodup hwin.struct e2) hsn]
    intro l'
    rw [hwin.sampled_iff h.struct e2 l', h.sinv l']
    constructor
    · rintro ⟨b, nb, _, hb, hs, hl'⟩
      exact ⟨b, nb, hb, hl', hs⟩
    · rintro ⟨b, nb, hb, hl', hs⟩
      exact ⟨b, nb, hall b nb hb, hb, hs, hl'⟩
theorem commaCount_append (a b : String) :
    commaCount (a ++ b) = commaCount a + commaCount b := by
  simp [commaCount, String.toList, String.data_append]

theorem digitChar_ne_comma (d : Nat) (h : d < 10) : Nat.digitChar d ≠ ',' := by
  interval_cases d <;> decide

theorem toDigitsCore_count (fuel : Nat) : ∀ (n : Nat) (ds : List Char),
    (Nat.toDigitsCore 10 fuel n ds).count ',' = ds.count ',' := by
  induction fuel with
  | zero =>
    intro n ds
    simp [Nat.toDigitsCore]
  | succ fuel ih =>
    intro n ds
    simp only [Nat.toDigitsCore]
    split_ifs
    · rw [List.count_cons_of_ne (digitChar_ne_comma _ (Nat.mod_lt _ (by decide))).symm]
    · rw [ih, List.count_cons_of_ne (digitChar_ne_comma _ (Nat.mod_lt _ (by decide))).symm]

theorem commaCount_nat (n : Nat) : commaCount (toString n) = 0 := by
  show (Nat.repr n).toList.count ',' = 0
  simp only [Nat.repr, Nat.toDigits, List.asString, String.toList]
  rw [toDigitsCore_count]
  rfl

theorem commaCount_int (d : Int) : commaCount (toString d) = 0 := by
  cases d with
  | ofNat n => exact commaCount_nat n
  | negSucc n =>
    show commaCount ("-" ++ Nat.repr (Nat.succ n)) = 0
    rw [commaCount_append]
    have := commaCount_nat (Nat.succ n)
    simp only [commaCount] at this ⊢
    rw [show (toString (Nat.succ n) : String) = Nat.repr (Nat.succ n) from rfl] at this
    rw [this]
    rfl

theorem leaves_inner : ∀ p : PhyloNode, p.strictlyBinary = true →
    p.leafLngs.length = p.innerCount + 1
  | .mk _ _ _ _ _ _ _ _ none none, _ => by simp [PhyloNode.leafLngs, PhyloNode.innerCount]
  | .mk _ _ _ _ _ _ _ _ (some l) (some r), h => by
    simp only [PhyloNode.strictlyBinary, Bool.and_eq_true] at h
    have h1 := leaves_inner l h.1
    have h2 := leaves_inner r h.2
    simp only [PhyloNode.leafLngs, PhyloNode.innerCount, List.length_append, h1, h2]
    omega
  | .mk _ _ _ _ _ _ _ _ (some l) none, h => by simp [PhyloNode.strictlyBinary] at h
  | .mk _ _ _ _ _ _ _ _ none (some r), h => by simp [PhyloNode.strictlyBinary] at h

theorem commaCount_render (dtStr : Int → String) (hdt : ∀ d, commaCount (dtStr d) = 0) :
    ∀ p : PhyloNode, p.strictlyBinary = true →
      commaCount (renderNewick dtStr p) = p.innerCount
  | .mk lng _ _ _ dt _ _ _ none none, _ => by
    simp only [renderNewick, commaCount_append, commaCount_nat, hdt, PhyloNode.innerCount]
    rfl
  | .mk lng _ _ _ dt depth _ _ (some l) (some r), h => by
    simp only [PhyloNode.strictlyBinary, Bool.and_eq_true] at h
    have h1 := commaCount_render dtStr hdt l h.1
    have h2 := commaCount_render dtStr hdt r h.2
    simp only [renderNewick, commaCount_append, commaCount_nat, hdt, PhyloNode.innerCount,
      h1, h2]
    have e1 : commaCount "(" = 0 := rfl
    have e2 : commaCount "," = 1 := rfl
    have e3 : commaCount ")" = 0 := rfl
    have e4 : commaCount "-" = 0 := rfl
    have e5 : commaCount ":" = 0 := rfl
    rw [e1, e2, e3, e4, e5]
    omega
  | .mk _ _ _ _ _ _ _ _ (some l) none, h => by simp [PhyloNode.strictlyBinary] at h
  | .mk _ _ _ _ _ _ _ _ none (some r), h => by simp [PhyloNode.strictlyBinary] at h
mutual
theorem sampled_ge_one : ∀ T : LTree, T.all shapeQ = true → 1 ≤ T.sampledLngs.length
  | .mk n ks, h => by
    simp only [LTree.all, Bool.and_eq_true, shapeQ, Bool.or_eq_true, decide_eq_true_eq] at h
    have ih := sampledList_ge ks h.2
    simp only [LTree.sampledLngs, List.length_append]
    rcases h.1 with h1 | h1
    · simp [h1]
    · omega
theorem sampledList_ge : ∀ ks : List LTree, LTree.allList shapeQ ks = true →
    ks.length ≤ (LTree.sampledLngsList ks).length
  | [], _ => by simp
  | t :: ts, h => by
    simp only [LTree.allList, Bool.and_eq_true] at h
    have h1 := sampled_ge_one t h.1
    have h2 := sampledList_ge ts h.2
    simp only [LTree.sampledLngsList, List.length_append, List.length_cons]
    omega
end

theorem single_node {T : LTree} (h : T.all shapeQ = true) (h1 : T.sampledLngs.length = 1) :
    ∃ n, T = .mk n [] ∧ n.sampled = true ∧ T.sampledLngs = [n.lng] := by
  obtain ⟨n, ks⟩ := T
  simp only [LTree.all, Bool.and_eq_true, shapeQ, Bool.or_eq_true, decide_eq_true_eq] at h
  have ih := sampledList_ge ks h.2
  simp only [LTree.sampledLngs, List.length_append] at h1
  rcases h.1 with hs | hs
  · simp only [hs, if_true, List.length_singleton] at h1
    have hk : ks = [] := List.eq_nil_of_length_eq_zero (by omega)
    subst hk
    exact ⟨n, rfl, hs, by simp [LTree.sampledLngs, hs, LTree.sampledLngsList]⟩
  · omega

theorem gat_single (n : LineageTreeNode) (hs : n.sampled = true) :
    getAncestralTree (LTree.mk n []).weight (.mk n []) none =
      .ok (.mk n [], phyloLeaf n n.tSample 0 0 0 uintMinusOne) := by
  rw [weight_mk]
  simp [LTree.weightList, getAncestralTree, gatLeaf, branchLength, entryState, hs]

theorem newick_single (dtStr : Int → String) (n : LineageTreeNode) :
    getSimpleNewick dtStr (phyloLeaf n n.tSample 0 0 0 uintMinusOne) =
      .ok (toString n.lng ++ ":" ++ dtStr 0 ++ ";") := by
  simp [getSimpleNewick, phyloLeaf, PhyloNode2Newick, lng2string]

/-- Claim C11: leaf and comma count.  For every random stream (uniform variates in
`[0, 1)`) and every `max_samples ≥ 1`, when the loop of `simulate` reports success
`n_sampled = max_samples`, `subSampleTree` returns exactly one tree, and every phylogeny
that `getAncestralTree` returns on it has exactly `max_samples` leaves; `simulate_BD` then
returns its rendering followed by `;`, a string with exactly `max_samples - 1` commas
(`dtStr`, which prints a branch length, produces no comma).  The builder does return a
phylogeny when the exponential variates of the stream are not negative and `R0`, `dI` are
positive.  The unspecified iteration order of the set of leaves is the parameter `ord`. -/
theorem leaf_comma_count (gen : Int → RandomStream) (ord : List Nat → List Nat)
    (dtStr : Int → String) (fuel : Nat) (seed max_cases max_samples : Int)
    (R0 dI rho : Frac) (hg : (gen seed).unitRange) (hord : ∀ l, (ord l).Perm l)
    (hdt : ∀ d, commaCount (dtStr d) = 0) (hms : 1 ≤ max_samples) (s : Simulator) (p : Nat)
    (hsim : simulate (gen seed) fuel (initialSimulator max_cases max_samples R0 dI rho) 0 =
      .ok (true, s, p)) :
    (s.n_sampled : Int) = max_samples ∧
    ∃ tree r T, subSampleTree ord s.tree_mngr = .ok (tree, [r]) ∧
      toTree (tree.mem.next + 1) tree.mem r = .ok T ∧
      (∀ T1 ph, getAncestralTree T.weight T none = .ok (T1, ph) →
        (ph.leafLngs.length : Int) = max_samples ∧
        simulate_BD gen ord dtStr fuel seed max_cases max_samples R0 dI rho =
          .ok (renderNewick dtStr ph ++ ";") ∧
        (commaCount (renderNewick dtStr ph ++ ";") : Int) = max_samples - 1) ∧
      ((gen seed).expoNonneg → R0.pos → dI.pos →
        ∃ T1 ph, getAncestralTree T.weight T none = .ok (T1, ph)) := by
  obtain ⟨hinv, hn, hsets, htime⟩ := final_state hg max_cases max_samples R0 dI rho hms hsim
  have hpos : 0 < s.tree_mngr.sampled_lineages.length := by
    rw [hinv.nsamp]
    omega
  obtain ⟨m', r, x, lo, hi, T, h1, hwin, h2, h3, h4⟩ :=
    success_tree ord hord hinv.inv hinv.rootU hsets.rootsNodup hsets.sampledNodup hpos
  have hedge := edge_of_repr hwin.struct h3
  have hshape := shape_of_repr hwin.shape h3
  refine ⟨hn, _, r, T, h1, h2, ?_, ?_⟩
  · intro T1 ph hgat
    have hpost := gat_root_post T hedge _ (T1, ph) hgat
    have hbin : ph.strictlyBinary = true := hpost.1
    have hlen : ph.leafLngs.length = s.n_sampled := by
      rw [hpost.2.2.2.1.length_eq, h4.length_eq, hinv.nsamp]
    have hstr : simulate_BD gen ord dtStr fuel seed max_cases max_samples R0 dI rho =
        .ok (renderNewick dtStr ph ++ ";") := by
      simp only [simulate_BD, hsim, if_true, newickOfTree, h1, h2, hgat]
      simp [getSimpleNewick, newick_acc dtStr ph "" hbin]
    refine ⟨by rw [hlen]; exact hn, hstr, ?_⟩
    have hc : commaCount (renderNewick dtStr ph ++ ";") = ph.innerCount := by
      rw [commaCount_append, commaCount_render dtStr hdt ph hbin]
      rfl
    have := leaves_inner ph hbin
    rw [hc]
    omega
  · intro hx hR hdI
    have ht := htime hx hR hdI
    have e3 := time_of_repr hwin.struct (hwin.time ht.time) (hwin.sample_time ht.stime) h3
    obtain ⟨⟨T1, ph⟩, hgat⟩ := gat_root_total T hedge hshape e3
    exact ⟨T1, ph, hgat⟩

/-- Claim C18: `max_samples = 1`.  For every random stream (uniform variates in `[0, 1)`)
on which the loop of `simulate` reports success, exactly one lineage is sampled,
`subSampleTree` returns exactly one tree, that tree is the single node of the sampled
lineage, without children, and `simulate_BD` returns the single-leaf string `lng:dt;`
with `dt = 0`, without parentheses or commas around it.  The unspecified iteration order of
the set of leaves is the parameter `ord`. -/
theorem single_sample_leaf (gen : Int → RandomStream) (ord : List Nat → List Nat)
    (dtStr : Int → String) (fuel : Nat) (seed max_cases : Int)
    (R0 dI rho : Frac) (hg : (gen seed).unitRange) (hord : ∀ l, (ord l).Perm l)
    (s : Simulator) (p : Nat)
    (hsim : simulate (gen seed) fuel (initialSimulator max_cases 1 R0 dI rho) 0 =
      .ok (true, s, p)) :
    ∃ tree r n, subSampleTree ord s.tree_mngr = .ok (tree, [r]) ∧
      toTree (tree.mem.next + 1) tree.mem r = .ok (.mk n []) ∧
      n.sampled = true ∧ n.children = [] ∧ n.parent = none ∧
      s.tree_mngr.sampled_lineages = [n.lng] ∧
      simulate_BD gen ord dtStr fuel seed max_cases 1 R0 dI rho =
        .ok (toString n.lng ++ ":" ++ dtStr 0 ++ ";") := by
  obtain ⟨hinv, hn, hsets, _⟩ := final_state hg max_cases 1 R0 dI rho (le_refl _) hsim
  have hlen : s.tree_mngr.sampled_lineages.length = 1 := by
    rw [hinv.nsamp]
    exact_mod_cast hn
  obtain ⟨m', r, x, lo, hi, T, h1, hwin, h2, h3, h4⟩ :=
    success_tree ord hord hinv.inv hinv.rootU hsets.rootsNodup hsets.sampledNodup
      (by rw [hlen]; exact Nat.one_pos)
  have hshape := shape_of_repr hwin.shape h3
  obtain ⟨n, hT, hs, hl⟩ := single_node hshape (by rw [h4.length_eq, hlen])
  subst hT
  have hrec := h3.node_eq
  have hkids := h3.kids_repr
  have hch : n.children = [] := by
    have := hkids.length_eq
    simp only [LTree.node, LTree.kids, List.length_nil] at this
    exact List.eq_nil_of_length_eq_zero this.symm
  have hpar : n.parent = none := by
    obtain ⟨_, nr, hr, hp⟩ := (hwin.struct.rootSet r).mp
      (by rw [view_roots]; exact List.mem_singleton_self r)
    rw [hrec] at hr
    cases hr
    exact hp
  have hS : s.tree_mngr.sampled_lineages = [n.lng] := by
    rw [hl] at h4
    exact List.perm_singleton.mp h4.symm
  refine ⟨_, r, n, h1, h2, hs, hch, hpar, hS, ?_⟩
  simp only [simulate_BD, hsim, if_true, newickOfTree, h1, h2, gat_single n hs]
  exact newick_single dtStr n
theorem tieStream_unit : tieStream.unitRange := by
  intro k
  simp only [tieStream, pairStream]
  by_cases hk : k < 19
  · interval_cases k <;> decide
  · rw [List.getD_eq_default _ _ (by simp; omega)]
    decide

theorem tieStream_success :
    ∃ s p, simulate tieStream 10 (initialSimulator 1000 2 ⟨1, 1⟩ ⟨1, 1⟩ ⟨1, 2⟩) 0 =
      .ok (true, s, p) := by
  have h : (match simulate tieStream 10 (initialSimulator 1000 2 ⟨1, 1⟩ ⟨1, 1⟩ ⟨1, 2⟩) 0 with
      | .ok (true, _, _) => true
      | _ => false) = true := by decide!
  cases hs : simulate tieStream 10 (initialSimulator 1000 2 ⟨1, 1⟩ ⟨1, 1⟩ ⟨1, 2⟩) 0 with
  | error e =>
    rw [hs] at h
    cases h
  | ok r =>
    obtain ⟨b, s, p⟩ := r
    rw [hs] at h
    cases b with
    | false => cases h
    | true => exact ⟨s, p, rfl⟩

theorem leaf_comma_count_witness :
    tieStream.unitRange ∧ (∀ l : List Nat, (id l).Perm l) ∧
    (∀ d : Int, commaCount (toString d) = 0) ∧ (1 : Int) ≤ 2 ∧
    ∃ s p, simulate tieStream 10 (initialSimulator 1000 2 ⟨1, 1⟩ ⟨1, 1⟩ ⟨1, 2⟩) 0 =
        .ok (true, s, p) ∧
      (s.n_sampled : Int) = 2 ∧
      ∃ tree r T, subSampleTree id s.tree_mngr = .ok (tree, [r]) ∧
        toTree (tree.mem.next + 1) tree.mem r = .ok T ∧
        (∀ T1 ph, getAncestralTree T.weight T none = .ok (T1, ph) →
          (ph.leafLngs.length : Int) = 2 ∧
          simulate_BD (fun _ => tieStream) id (fun d => toString d) 10 0 1000 2 ⟨1, 1⟩ ⟨1, 1⟩
            ⟨1, 2⟩ = .ok (renderNewick (fun d => toString d) ph ++ ";") ∧
          (commaCount (renderNewick (fun d => toString d) ph ++ ";") : Int) = 2 - 1) ∧
        (tieStream.expoNonneg → (⟨1, 1⟩ : Frac).pos → (⟨1, 1⟩ : Frac).pos →
          ∃ T1 ph, getAncestralTree T.weight T none = .ok (T1, ph)) := by
  obtain ⟨s, p, hs⟩ := tieStream_success
  exact ⟨tieStream_unit, fun l => List.Perm.refl l, commaCount_int, by decide, s, p, hs,
    leaf_comma_count (fun _ => tieStream) id (fun d => toString d) 10 0 1000 2 ⟨1, 1⟩ ⟨1, 1⟩
      ⟨1, 2⟩ tieStream_unit (fun l => List.Perm.refl l) commaCount_int (by decide) s p hs⟩

theorem single_sample_leaf_witness :
    (constStream ⟨3, 4⟩).unitRange ∧ (∀ l : List Nat, (id l).Perm l) ∧
    ∃ s p, simulate (constStream ⟨3, 4⟩) 10 (initialSimulator 100 1 ⟨2, 1⟩ ⟨1, 1⟩ ⟨1, 1⟩) 0 =
        .ok (true, s, p) ∧
      ∃ tree r n, subSampleTree id s.tree_mngr = .ok (tree, [r]) ∧
        toTree (tree.mem.next + 1) tree.mem r = .ok (.mk n []) ∧
        n.sampled = true ∧ n.children = [] ∧ n.parent = none ∧
        s.tree_mngr.sampled_lineages = [n.lng] ∧
        simulate_BD (fun _ => constStream ⟨3, 4⟩) id (fun d => toString d) 10 0 100 1 ⟨2, 1⟩
          ⟨1, 1⟩ ⟨1, 1⟩ = .ok (toString n.lng ++ ":" ++ toString (0 : Int) ++ ";") := by
  have hg : (constStream ⟨3, 4⟩).unitRange := constStream_unit (by decide) (by decide)
  exact ⟨hg, fun l => List.Perm.refl l, _, _, rfl,
    single_sample_leaf (fun _ => constStream ⟨3, 4⟩) id (fun d => toString d) 10 0 100
      ⟨2, 1⟩ ⟨1, 1⟩ ⟨1, 1⟩ hg (fun l => List.Perm.refl l) _ _ rfl⟩

theorem success_root {s : LineageTree} (h : Inv s)
    (hroot : ∀ a ∈ s.roots, ∀ b ∈ s.roots, a = b) (hrn : s.roots.Nodup)
    (hpos : 0 < s.sampled_lineages.length) :
    ∃ x nx, s.roots = [x] ∧ s.mem.cells x = some nx ∧ nx.parent = none ∧
      HasSampled s.mem x := by
  obtain ⟨l, hl⟩ := List.exists_mem_of_length_pos hpos
  obtain ⟨a, na, ha, _, hsam⟩ := (h.sinv l).mp hl
  obtain ⟨x, hx, hdx⟩ := desc_of_root h.struct a a na ha (le_refl _)
  obtain ⟨_, nx, h1, h2⟩ := (h.struct.rootSet x).mp hx
  exact ⟨x, nx, singleton_of_all_eq hrn hroot hx, h1, h2, a, na, hdx, ha, hsam⟩

/-- Claim C36: single tree on success.  For every random stream (uniform variates in
`[0, 1)`) and every `max_samples ≥ 1`, in the state in which the loop of `simulate` reports
success the tree manager has exactly one root, the tree of that root holds a sampled node,
and `subSampleTree` returns a vector of exactly one tree, so that its first element, which
`simulate_BD` reads, exists.  The unspecified iteration order of the set of leaves is the
parameter `ord`. -/
theorem single_tree_on_success (g : RandomStream) (ord : List Nat → List Nat)
    (fuel : Nat) (max_cases max_samples : Int) (R0 dI rho : Frac)
    (hg : g.unitRange) (hord : ∀ l, (ord l).Perm l) (hms : 1 ≤ max_samples)
    (s : Simulator) (p : Nat)
    (hsim : simulate g fuel (initialSimulator max_cases max_samples R0 dI rho) 0 =
      .ok (true, s, p)) :
    (∃ x nx, s.tree_mngr.roots = [x] ∧ s.tree_mngr.mem.cells x = some nx ∧
      nx.parent = none ∧ HasSampled s.tree_mngr.mem x) ∧
    ∃ tree res r, subSampleTree ord s.tree_mngr = .ok (tree, res) ∧ res.length = 1 ∧
      res[0]? = some r := by
  obtain ⟨hinv, hn, hsets, _⟩ := final_state hg max_cases max_samples R0 dI rho hms hsim
  have hpos : 0 < s.tree_mngr.sampled_lineages.length := by
    rw [hinv.nsamp]
    omega
  refine ⟨success_root hinv.inv hinv.rootU hsets.rootsNodup hpos, ?_⟩
  obtain ⟨m', r, x, lo, hi, T, h1, _⟩ :=
    success_tree ord hord hinv.inv hinv.rootU hsets.rootsNodup hsets.sampledNodup hpos
  exact ⟨_, [r], r, h1, rfl, rfl⟩

theorem single_tree_on_success_witness :
    tieStream.unitRange ∧ (∀ l : List Nat, (id l).Perm l) ∧ (1 : Int) ≤ 2 ∧
    ∃ s p, simulate tieStream 10 (initialSimulator 1000 2 ⟨1, 1⟩ ⟨1, 1⟩ ⟨1, 2⟩) 0 =
        .ok (true, s, p) ∧
      (∃ x nx, s.tree_mngr.roots = [x] ∧ s.tree_mngr.mem.cells x = some nx ∧
        nx.parent = none ∧ HasSampled s.tree_mngr.mem x) ∧
      ∃ tree res r, subSampleTree id s.tree_mngr = .ok (tree, res) ∧ res.length = 1 ∧
        res[0]? = some r := by
  obtain ⟨s, p, hs⟩ := tieStream_success
  exact ⟨tieStream_unit, fun l => List.Perm.refl l, by decide, s, p, hs,
    single_tree_on_success tieStream id 10 1000 2 ⟨1, 1⟩ ⟨1, 1⟩ ⟨1, 2⟩ tieStream_unit
      (fun l => List.Perm.refl l) (by decide) s p hs⟩

theorem notify_no_cascade {s1 : LineageTree} (hs1 : Struct none s1) {x p : Nat}
    {nx : LineageTreeNode} (hx : s1.mem.cells x = some nx)
    (hsam : nx.sampled = false) (hleaf : nx.children = []) (hpar : nx.parent = some p)
    (hprune : ∀ np, s1.mem.cells p = some np → np.extant = false → np.sampled = false →
      2 ≤ np.children.length) (fuel : Nat) (ig : Bool) :
    (∃ np m1 p1, s1.mem.cells p = some np ∧ eraseChild s1.mem p x = .ok m1 ∧
      m1.cells p = some p1 ∧
      (np.extant = false → np.sampled = false → p1.children.length ≠ 0)) ∧
    notifyParent (fuel + 1) s1 p x ig = notifyParent 1 s1 p x ig := by
  obtain ⟨m', np, cs', hm', r⟩ := detach_rel hs1 hx hpar hleaf
  have hp' : m'.cells p = some { np with children := cs' } := by
    have := r.cells p
    simpa using this
  have hlen : cs'.length + 1 = np.children.length := by
    rw [r.perm.length_eq, List.length_erase_of_mem r.hmem]
    have : 0 < np.children.length := List.length_pos_of_mem r.hmem
    omega
  refine ⟨⟨np, m', _, r.hp, hm', hp', fun hpe hps => ?_⟩, ?_⟩
  · have := hprune np r.hp hpe hps
    show cs'.length ≠ 0
    omega
  · cases hpe : np.extant with
    | true =>
      simp [notifyParent, bind, Except.bind, Mem.get_of_cells r.hp, Mem.get_of_cells hx,
        hsam, hm', hpe, pure, Except.pure]
    | false =>
      cases hps : np.sampled with
      | true =>
        simp [notifyParent, bind, Except.bind, Mem.get_of_cells r.hp, Mem.get_of_cells hx,
          hsam, hm', hpe, hps, pure, Except.pure]
      | false =>
        have h2 : 2 ≤ np.children.length := hprune np r.hp hpe hps
        have h0 : cs'.length ≠ 0 := by omega
        simp [notifyParent, bind, Except.bind, Mem.get_of_cells r.hp, Mem.get_of_cells hx,
          hsam, hm', hpe, hps, Mem.get_of_cells hp', h0, pure, Except.pure]

theorem remove_freed {s : LineageTree} (h : Inv s) {lng x : Nat}
    (hE : mapFind s.extantLngs lng = some x) (ig : Bool) :
    ∃ nx s', s.mem.cells x = some nx ∧ removeExtantLineage s lng ig = .ok s' ∧
      liveCount s.mem ≤ liveCount s'.mem + 2 ∧
      (∀ a, (s.mem.cells a).isSome = true → s'.mem.cells a = none →
        a = x ∨ nx.parent = some a) := by
  obtain ⟨nx, hx, hl, hext⟩ := (h.einv lng x).1 hE
  obtain ⟨s2, hrun, st⟩ := remove_outcome h.struct h.prune hE hx ig
  refine ⟨nx, _, hx, hrun, ?_⟩
  have hs1 := h.struct.markExtinct hx
  have hx1 : ({ s with mem := s.mem.set x { nx with extant := false } } :
      LineageTree).mem.cells x = some { nx with extant := false } := by simp
  have hsome : ∀ a, (({ s with mem := s.mem.set x { nx with extant := false } } :
      LineageTree).mem.cells a).isSome = (s.mem.cells a).isSome := by
    intro a
    show ((s.mem.set x { nx with extant := false }).cells a).isSome = _
    rw [Mem.set_cells]
    split_ifs with h1
    · subst h1; rw [hx]; rfl
    · rfl
  have hc1 : liveCount (s.mem.set x { nx with extant := false }) = liveCount s.mem :=
    liveCount_same rfl hsome
  show liveCount s.mem ≤ liveCount s2.mem + 2 ∧
    ∀ a, (s.mem.cells a).isSome = true → s2.mem.cells a = none → a = x ∨ nx.parent = some a
  cases st with
  | keep hk =>
    refine ⟨?_, fun a ha hn => ?_⟩
    · show liveCount s.mem ≤ liveCount (s.mem.set x { nx with extant := false }) + 2
      omega
    have := hsome a
    rw [hn, ha] at this
    cases this
  | spliceSelf hsam r =>
    have k1 : liveCount s2.mem + 1 = liveCount (s.mem.set x { nx with extant := false }) :=
      r.count_splice hs1
    refine ⟨by omega, fun a ha hn => ?_⟩
    by_contra hne
    push_neg at hne
    have e := r.cells a
    rw [if_neg hne.1, hn] at e
    have hs := hsome a
    rw [ha] at hs
    split_ifs at e
    rw [← e] at hs
    cases hs
  | promoteSelf hsam r =>
    have k1 : liveCount s2.mem + 1 = liveCount (s.mem.set x { nx with extant := false }) :=
      r.count_promote hs1
    refine ⟨by omega, fun a ha hn => ?_⟩
    by_contra hne
    push_neg at hne
    have e := r.cells a
    rw [if_neg hne.1, hn] at e
    have hs := hsome a
    rw [ha] at hs
    split_ifs at e
    rw [← e] at hs
    cases hs
  | leafRoot hsam hleaf hpar =>
    have k1 : liveCount ((s.mem.set x { nx with extant := false }).free x) + 1 =
        liveCount (s.mem.set x { nx with extant := false }) := count_free hs1 hx1
    refine ⟨?_, fun a ha hn => ?_⟩
    · show liveCount s.mem ≤ liveCount ((s.mem.set x { nx with extant := false }).free x) + 2
      omega
    by_contra hne
    push_neg at hne
    have hs := hsome a
    rw [ha] at hs
    have e : (s.mem.set x { nx with extant := false }).cells a = none := by
      simpa [hne.1] using hn
    rw [show ({ s with mem := s.mem.set x { nx with extant := false } } :
      LineageTree).mem.cells a = none from e] at hs
    cases hs
  | @leafKeep sA p np cs1 hsam r hk =>
    have hpx : p < x := hs1.order x _ p (by simp) r.hx r.hxpar
    have hxA := r.x_live hpx.ne
    have hsA := r.struct_detach hs1
    have k1 : liveCount (sA.mem.free x) + 1 = liveCount sA.mem := count_free hsA hxA
    have k2 : liveCount sA.mem = liveCount (s.mem.set x { nx with extant := false }) :=
      r.count_detach
    refine ⟨?_, fun a ha hn => ?_⟩
    · show liveCount s.mem ≤ liveCount (sA.mem.free x) + 2
      omega
    by_contra hne
    push_neg at hne
    have hs := hsome a
    rw [ha] at hs
    have e : sA.mem.cells a = none := by simpa [hne.1] using hn
    rw [r.cells a] at e
    split_ifs at e
    rw [e] at hs
    cases hs
  | @leafSplice sA sB p c g np nc ng cs1 cs2 hsam r hpe hps r2 =>
    have hpx : p < x := hs1.order x _ p (by simp) r.hx r.hxpar
    have hsA := r.struct_detach hs1
    have hpz : some p ≠ some x := some_ne_some hpx.ne
    obtain ⟨hcz, _⟩ := hsA.childLive p _ c hpz r2.hmid (by rw [r2.hch]; simp)
    obtain ⟨hgz, _⟩ := hsA.parentLive p _ g hpz r2.hmid r2.hpar
    have hsB := r2.struct_splice hsA hcz hgz
    have hxB : sB.mem.cells x = some { nx with extant := false } := by
      have hxA := r.x_live hpx.ne
      rw [r2.cells x]
      have hxc : x ≠ c := fun e => hcz (by rw [e])
      have hxg : x ≠ g := fun e => absurd (lt_trans (e ▸ r2.hlt1) hpx) (lt_irrefl _)
      simp [hpx.ne', hxc, hxg, hxA]
    have k1 : liveCount (sB.mem.free x) + 1 = liveCount sB.mem := count_free hsB hxB
    have k2 : liveCount sA.mem = liveCount (s.mem.set x { nx with extant := false }) :=
      r.count_detach
    have k3 : liveCount sB.mem + 1 = liveCount sA.mem := r2.count_splice hsA
    refine ⟨?_, fun a ha hn => ?_⟩
    · show liveCount s.mem ≤ liveCount (sB.mem.free x) + 2
      omega
    by_contra hne
    push_neg at hne
    have hap : a ≠ p := fun e => hne.2 (by rw [e]; exact r.hxpar)
    have hs := hsome a
    rw [ha] at hs
    have e : sB.mem.cells a = none := by simpa [hne.1] using hn
    rw [r2.cells a, if_neg hap] at e
    split_ifs at e
    rw [r.cells a, if_neg hap] at e
    rw [e] at hs
    cases hs
  | @leafPromote sA sB p c np nc cs1 hsam r hpe hps r2 =>
    have hpx : p < x := hs1.order x _ p (by simp) r.hx r.hxpar
    have hsA := r.struct_detach hs1
    have hpz : some p ≠ some x := some_ne_some hpx.ne
    obtain ⟨hcz, _⟩ := hsA.childLive p _ c hpz r2.hmid (by rw [r2.hch]; simp)
    have hsB := r2.struct_promote hsA hpz hcz
    have hxB : sB.mem.cells x = some { nx with extant := false } := by
      have hxA := r.x_live hpx.ne
      rw [r2.cells x]
      have hxc : x ≠ c := fun e => hcz (by rw [e])
      simp [hpx.ne', hxc, hxA]
    have k1 : liveCount (sB.mem.free x) + 1 = liveCount sB.mem := count_free hsB hxB
    have k2 : liveCount sA.mem = liveCount (s.mem.set x { nx with extant := false }) :=
      r.count_detach
    have k3 : liveCount sB.mem + 1 = liveCount sA.mem := r2.count_promote hsA
    refine ⟨?_, fun a ha hn => ?_⟩
    · show liveCount s.mem ≤ liveCount (sB.mem.free x) + 2
      omega
    by_contra hne
    push_neg at hne
    have hap : a ≠ p := fun e => hne.2 (by rw [e]; exact r.hxpar)
    have hs := hsome a
    rw [ha] at hs
    have e : sB.mem.cells a = none := by simpa [hne.1] using hn
    rw [r2.cells a, if_neg hap] at e
    split_ifs at e
    rw [r.cells a, if_neg hap] at e
    rw [e] at hs
    cases hs

/-- Claim C33 (bounded cascade): in every state reached from the empty tree by a sequence of
calls that respects the preconditions, a call `removeExtantLineage( lng, ignore_sampled )`
on an extant lineage completes and frees at most two nodes, which are the node of `lng`
and possibly its parent.  When the removed node is an unsampled leaf with a parent, the
parent still has a child after the erasure if it is extinct and unsampled, so the branch
`nChildren == 0` of `notifyParent` is not entered, and `notifyParent` gives the same result
when it is not allowed any recursive call. -/
theorem bounded_cascade (ops : List Op) (hv : validOps LineageTree.empty ops = true)
    (lng : Nat) (ig : Bool) :
    ∃ s, runOps LineageTree.empty ops = .ok s ∧
      ∀ x, mapFind s.extantLngs lng = some x →
        ∃ nx s', s.mem.cells x = some nx ∧ removeExtantLineage s lng ig = .ok s' ∧
          liveCount s.mem ≤ liveCount s'.mem + 2 ∧
          (∀ a, (s.mem.cells a).isSome = true → s'.mem.cells a = none →
            a = x ∨ nx.parent = some a) ∧
          (∀ par, nx.parent = some par → nx.sampled = false → nx.children = [] →
            (∃ np m1 p1, s.mem.cells par = some np ∧
              eraseChild (s.mem.set x { nx with extant := false }) par x = .ok m1 ∧
              m1.cells par = some p1 ∧
              (np.extant = false → np.sampled = false → p1.children.length ≠ 0)) ∧
            notifyParent (s.mem.next + 1)
                { s with mem := s.mem.set x { nx with extant := false } } par x ig =
              notifyParent 1
                { s with mem := s.mem.set x { nx with extant := false } } par x ig) := by
  obtain ⟨s, hrun, h⟩ := run_inv Inv.empty_inv ops hv
  refine ⟨s, hrun, fun x hE => ?_⟩
  obtain ⟨nx, s', hx, hrm, hcnt, hfree⟩ := remove_freed h hE ig
  refine ⟨nx, s', hx, hrm, hcnt, hfree, fun par hpar hsam hleaf => ?_⟩
  have hs1 := h.struct.markExtinct hx
  have hx1 : ({ s with mem := s.mem.set x { nx with extant := false } } :
      LineageTree).mem.cells x = some { nx with extant := false } := by simp
  have hpx : par < x := h.struct.order x nx par (by simp) hx hpar
  have hcell : ∀ np, ({ s with mem := s.mem.set x { nx with extant := false } } :
      LineageTree).mem.cells par = some np ↔ s.mem.cells par = some np := by
    intro np
    show (s.mem.set x { nx with extant := false }).cells par = some np ↔ _
    rw [Mem.set_cells, if_neg hpx.ne]
  obtain ⟨⟨np, m1, p1, h1, h2, h3, h4⟩, h5⟩ :=
    notify_no_cascade hs1 hx1 hsam hleaf hpar
      (fun np hnp => h.prune par np ((hcell np).1 hnp)) s.mem.next ig
  exact ⟨⟨np, m1, p1, (hcell np).1 h1, h2, h3, h4⟩, h5⟩

theorem bounded_cascade_witness :
    validOps LineageTree.empty (exampleOps.take 4) = true ∧
    ∃ s, runOps LineageTree.empty (exampleOps.take 4) = .ok s ∧
      ∀ x, mapFind s.extantLngs 4 = some x →
        ∃ nx s', s.mem.cells x = some nx ∧ removeExtantLineage s 4 false = .ok s' ∧
          liveCount s.mem ≤ liveCount s'.mem + 2 := by
  obtain ⟨s, h1, h2⟩ := bounded_cascade (exampleOps.take 4) (by decide) 4 false
  refine ⟨by decide, s, h1, fun x hx => ?_⟩
  obtain ⟨nx, s', h3, h4, h5, _⟩ := h2 x hx
  exact ⟨nx, s', h3, h4, h5⟩

theorem countBelow_sum (c : Nat → Option LineageTreeNode) (p : LineageTreeNode → Bool) :
    ∀ n, countBelow c p n = ∑ a in Finset.range n, (if nodeIs c p a then 1 else 0)
  | 0 => rfl
  | n + 1 => by rw [countBelow, countBelow_sum c p n, Finset.sum_range_succ]

theorem countBelow_card (c : Nat → Option LineageTreeNode) (p : LineageTreeNode → Bool)
    (n : Nat) :
    countBelow c p n = ((Finset.range n).filter (fun a => nodeIs c p a = true)).card := by
  rw [countBelow_sum, Finset.card_filter]

theorem liveBelow_count (c : Nat → Option LineageTreeNode) :
    ∀ n, liveBelow c n = countBelow c (fun _ => true) n
  | 0 => rfl
  | n + 1 => by
    rw [liveBelow, countBelow, liveBelow_count c n]
    cases h : c n <;> simp [nodeIs, h]

theorem countBelow_split (c : Nat → Option LineageTreeNode) (p : LineageTreeNode → Bool) :
    ∀ n, countBelow c (fun _ => true) n =
      countBelow c p n + countBelow c (fun x => !p x) n
  | 0 => rfl
  | n + 1 => by
    rw [countBelow, countBelow, countBelow, countBelow_split c p n]
    cases h : c n with
    | none => simp [nodeIs, h]
    | some nd =>
      cases hp : p nd <;> simp [nodeIs, h, hp] <;> omega

theorem countBelow_or (c : Nat → Option LineageTreeNode) (p q : LineageTreeNode → Bool) :
    ∀ n, countBelow c (fun x => p x || q x) n ≤ countBelow c p n + countBelow c q n
  | 0 => Nat.le_refl _
  | n + 1 => by
    have ih := countBelow_or c p q n
    rw [countBelow, countBelow, countBelow]
    cases h : c n with
    | none => simp [nodeIs, h]; omega
    | some nd =>
      cases hp : p nd <;> cases hq : q nd <;> simp [nodeIs, h, hp, hq] <;> omega

theorem mapFind_mem_keys {l : List (Nat × Nat)} {k a : Nat} (h : mapFind l k = some a) :
    k ∈ l.map Prod.fst := by
  induction l with
  | nil => cases h
  | cons p rest ih =>
    obtain ⟨k0, a0⟩ := p
    simp only [mapFind] at h
    by_cases hk : k0 = k
    · simp [hk]
    · rw [if_neg hk] at h
      simp [ih h]

theorem count_le_keys {s : LineageTree} (hs : Struct none s) (p : LineageTreeNode → Bool)
    (keys : List Nat)
    (hk : ∀ a n, s.mem.cells a = some n → p n = true → n.lng ∈ keys) :
    countBelow s.mem.cells p s.mem.next ≤ keys.length := by
  rw [countBelow_card]
  refine le_trans ?_ (List.toFinset_card_le keys)
  refine Finset.card_le_card_of_injOn
    (fun a => match s.mem.cells a with
      | some n => n.lng
      | none => 0) ?_ ?_
  · intro a ha
    have ha' := (Finset.mem_filter.1 (Finset.mem_coe.1 ha)).2
    unfold nodeIs at ha'
    cases h : s.mem.cells a with
    | none => rw [h] at ha'; cases ha'
    | some n =>
      rw [h] at ha'
      simp only [Finset.mem_coe, List.mem_toFinset]
      have := hk a n h ha'
      simpa [h] using this
  · intro a ha b hb e
    have ha' := (Finset.mem_filter.1 (Finset.mem_coe.1 ha)).2
    have hb' := (Finset.mem_filter.1 (Finset.mem_coe.1 hb)).2
    unfold nodeIs at ha' hb'
    cases h1 : s.mem.cells a with
    | none => rw [h1] at ha'; cases ha'
    | some na =>
      cases h2 : s.mem.cells b with
      | none => rw [h2] at hb'; cases hb'
      | some nb =>
        simp only [h1, h2] at e
        exact hs.lngInj a b na nb (by simp) (by simp) h1 h2 e

theorem roots_count {s : LineageTree} (hs : Struct none s) (hr : s.roots.Nodup) :
    countBelow s.mem.cells (fun n => n.parent.isNone) s.mem.next = s.roots.length := by
  rw [countBelow_card, ← List.toFinset_card_of_nodup hr]
  congr 1
  ext a
  simp only [Finset.mem_filter, Finset.mem_range, List.mem_toFinset, hs.rootSet a, nodeIs]
  constructor
  · rintro ⟨_, h⟩
    cases hc : s.mem.cells a with
    | none => rw [hc] at h; cases h
    | some n =>
      rw [hc] at h
      exact ⟨by simp, n, rfl, Option.isNone_iff_eq_none.1 h⟩
  · rintro ⟨_, n, hn, hp⟩
    refine ⟨live_lt_next hs hn, ?_⟩
    rw [hn]
    simp [hp]

theorem nonroots_count {s : LineageTree} (hs : Struct none s) :
    countBelow s.mem.cells (fun n => !n.parent.isNone) s.mem.next =
      ∑ p in Finset.range s.mem.next,
        (match s.mem.cells p with
         | some np => np.children.length
         | none => 0) := by
  rw [countBelow_card]
  rw [Finset.card_eq_sum_card_fiberwise (f := fun a => match s.mem.cells a with
      | some n => n.parent.getD 0
      | none => 0) (t := Finset.range s.mem.next)]
  · refine Finset.sum_congr rfl (fun p _ => ?_)
    cases hp : s.mem.cells p with
    | none =>
      rw [Finset.card_eq_zero, Finset.filter_eq_empty_iff]
      intro a ha
      have ha' := (Finset.mem_filter.1 ha).2
      unfold nodeIs at ha'
      cases hc : s.mem.cells a with
      | none => rw [hc] at ha'; cases ha'
      | some n =>
        rw [hc] at ha'
        cases hq : n.parent with
        | none => simp [hq] at ha'
        | some q =>
          simp only [hq, Option.getD_some]
          intro e
          obtain ⟨_, np, hnp, _⟩ := hs.parentLive a n q (by simp) hc hq
          rw [e, hp] at hnp
          cases hnp
    | some np =>
      show _ = np.children.length
      rw [← List.toFinset_card_of_nodup (hs.childNodup p np (by simp) hp)]
      congr 1
      ext a
      simp only [Finset.mem_filter, Finset.mem_range, List.mem_toFinset, nodeIs]
      constructor
      · rintro ⟨⟨_, h1⟩, h2⟩
        cases hc : s.mem.cells a with
        | none => rw [hc] at h1; cases h1
        | some n =>
          rw [hc] at h1 h2
          cases hq : n.parent with
          | none => simp [hq] at h1
          | some q =>
            simp only [hq, Option.getD_some] at h2
            obtain ⟨_, np', hnp, hmem⟩ := hs.parentLive a n q (by simp) hc hq
            rw [h2, hp] at hnp
            cases hnp
            exact hmem
      · intro hmem
        obtain ⟨_, nc, hnc, hpar⟩ := hs.childLive p np a (by simp) hp hmem
        refine ⟨⟨live_lt_next hs hnc, ?_⟩, ?_⟩
        · rw [hnc]; simp [hpar]
        · rw [hnc]; simp [hpar]
  · intro a ha
    have ha' := (Finset.mem_filter.1 ha).2
    unfold nodeIs at ha'
    cases hc : s.mem.cells a with
    | none => rw [hc] at ha'; cases ha'
    | some n =>
      rw [hc] at ha'
      cases hq : n.parent with
      | none => simp [hq] at ha'
      | some q =>
        obtain ⟨_, np, hnp, _⟩ := hs.parentLive a n q (by simp) hc hq
        simp only [hq, Option.getD_some, Finset.mem_range]
        exact live_lt_next hs hnp

theorem count_bound {s : LineageTree} (h : Inv s) (hr : s.roots.Nodup) :
    liveCount s.mem + s.roots.length ≤ 2 * markedCount s.mem := by
  have hs := h.struct
  have e1 := countBelow_split s.mem.cells (fun n => n.extant || n.sampled) s.mem.next
  have e2 := countBelow_split s.mem.cells (fun n => n.parent.isNone) s.mem.next
  have e3 := roots_count hs hr
  have e4 := nonroots_count hs
  have e5 : 2 * countBelow s.mem.cells (fun n => !(n.extant || n.sampled)) s.mem.next ≤
      ∑ p in Finset.range s.mem.next,
        (match s.mem.cells p with
         | some np => np.children.length
         | none => 0) := by
    rw [countBelow_sum, Finset.mul_sum]
    refine Finset.sum_le_sum (fun p _ => ?_)
    cases hp : s.mem.cells p with
    | none => simp [nodeIs, hp]
    | some np =>
      by_cases hm : (np.extant || np.sampled) = true
      · simp [nodeIs, hp, hm]
      · have hm' : (np.extant || np.sampled) = false := by simpa using hm
        have hx : np.extant = false ∧ np.sampled = false := by
          simpa [Bool.or_eq_false_iff] using hm'
        have := h.prune p np hp hx.1 hx.2
        simp [nodeIs, hp, hx.1, hx.2]
        exact this
  have e0 : liveCount s.mem = countBelow s.mem.cells (fun _ => true) s.mem.next :=
    liveBelow_count _ _
  unfold markedCount
  omega

/-- Claim C38 (node-count bound): after every sequence of calls that starts from the empty
tree and respects the preconditions, the run completes and the number of stored nodes plus
the number of roots is at most twice the number of stored nodes that are extant or sampled;
the same holds for the counter `nnodes`, the extant or sampled nodes are at most
`|E| + |S|`, and hence `nnodes ≤ 2 · (|E| + |S|)`. -/
theorem node_count_bound (ops : List Op) (hv : validOps LineageTree.empty ops = true) :
    ∃ s, runOps LineageTree.empty ops = .ok s ∧
      liveCount s.mem + s.roots.length ≤ 2 * markedCount s.mem ∧
      s.nnodes + s.roots.length ≤ 2 * markedCount s.mem ∧
      markedCount s.mem ≤ s.extantLngs.length + s.sampled_lineages.length ∧
      s.nnodes ≤ 2 * (s.extantLngs.length + s.sampled_lineages.length) := by
  obtain ⟨s, hrun, hinv, hn⟩ := run_count Inv.empty_inv NInv.empty_count ops hv
  have hnd := run_roots Inv.empty_inv (List.nodup_nil) ops hv hrun
  have h1 := count_bound hinv hnd
  have h2 : s.nnodes ≤ liveCount s.mem := by
    rw [hn]
    exact Nat.mod_le _ _
  have h3 : markedCount s.mem ≤ s.extantLngs.length + s.sampled_lineages.length := by
    refine le_trans (countBelow_or _ _ _ _) (Nat.add_le_add ?_ ?_)
    · have := count_le_keys hinv.struct (fun n => n.extant) (s.extantLngs.map Prod.fst)
        (fun a n hc he => mapFind_mem_keys ((hinv.einv n.lng a).2 ⟨n, hc, rfl, he⟩))
      simpa using this
    · exact count_le_keys hinv.struct (fun n => n.sampled) s.sampled_lineages
        (fun a n hc he => (hinv.sinv n.lng).2 ⟨a, n, hc, rfl, he⟩)
  exact ⟨s, hrun, h1, by omega, h3, by omega⟩

theorem node_count_bound_witness :
    validOps LineageTree.empty exampleOps = true ∧
    ∃ s, runOps LineageTree.empty exampleOps = .ok s ∧
      liveCount s.mem + s.roots.length ≤ 2 * markedCount s.mem ∧
      s.nnodes + s.roots.length ≤ 2 * markedCount s.mem ∧
      markedCount s.mem ≤ s.extantLngs.length + s.sampled_lineages.length ∧
      s.nnodes ≤ 2 * (s.extantLngs.length + s.sampled_lineages.length) :=
  ⟨by decide, node_count_bound exampleOps (by decide)⟩

theorem mapFind_keys_iff (l : List (Nat × Nat)) (k : Nat) :
    (∃ a, mapFind l k = some a) ↔ k ∈ l.map Prod.fst := by
  refine ⟨fun ⟨a, h⟩ => mapFind_mem_keys h, fun h => ?_⟩
  induction l with
  | nil => simp at h
  | cons p rest ih =>
    obtain ⟨k0, a0⟩ := p
    by_cases hk : k0 = k
    · exact ⟨a0, by simp [mapFind, hk]⟩
    · have hr : k ∈ rest.map Prod.fst := by
        simp only [List.map_cons, List.mem_cons] at h
        rcases h with h | h
        · exact absurd h.symm hk
        · exact h
      obtain ⟨a, ha⟩ := ih hr
      exact ⟨a, by simp [mapFind, hk, ha]⟩

theorem keys_mapSet (l : List (Nat × Nat)) (k a : Nat) :
    (mapSet l k a).map Prod.fst =
      if k ∈ l.map Prod.fst then l.map Prod.fst else l.map Prod.fst ++ [k] := by
  induction l with
  | nil => simp [mapSet]
  | cons p rest ih =>
    obtain ⟨k0, a0⟩ := p
    by_cases hk : k0 = k
    · simp [mapSet, hk]
    · have hk' : ¬ k = k0 := fun e => hk e.symm
      simp only [mapSet, if_neg hk, List.map_cons, ih, List.mem_cons, hk', false_or]
      split_ifs <;> simp

theorem keys_mapSet_nodup {l : List (Nat × Nat)} (h : (l.map Prod.fst).Nodup) (k a : Nat) :
    ((mapSet l k a).map Prod.fst).Nodup := by
  rw [keys_mapSet]
  split_ifs with hk
  · exact h
  · exact List.Nodup.append h (List.nodup_singleton k) (by
      intro x hx hx'
      rw [List.mem_singleton] at hx'
      subst hx'
      exact hk hx)

theorem keys_mapErase_nodup {l : List (Nat × Nat)} (h : (l.map Prod.fst).Nodup) (k : Nat) :
    ((mapErase l k).map Prod.fst).Nodup := by
  unfold mapErase
  exact (List.Nodup.sublist (List.Sublist.map _ (List.filter_sublist l)) h)

theorem sample_extantLngs {s s' : LineageTree} {lng : Nat} {t : Int} {loc : String} {b : Bool}
    (h : sampleExtantLineage s lng t loc = .ok (s', b)) : s'.extantLngs = s.extantLngs := by
  unfold sampleExtantLineage at h
  simp only [bind, Except.bind] at h
  cases h1 : s.extantNode lng with
  | error e => rw [h1] at h; cases h
  | ok a =>
    rw [h1] at h
    simp only at h
    cases h2 : s.mem.get a with
    | error e => rw [h2] at h; cases h
    | ok n =>
      rw [h2] at h
      simp only at h
      split_ifs at h <;> cases h <;> rfl

theorem sampleIf_extantLngs {g : RandomStream} {s s1 : Simulator} {pos : Nat} {prob : Frac}
    {lng : Nat} (h : sampleIf g s pos prob lng = .ok s1) :
    s1.tree_mngr.extantLngs = s.tree_mngr.extantLngs := by
  unfold sampleIf at h
  split_ifs at h with hb
  · cases hsam : sampleExtantLineage s.tree_mngr lng s.t "@" with
    | error e => rw [hsam] at h; cases h
    | ok r =>
      obtain ⟨trS, b⟩ := r
      rw [hsam] at h
      simp only [Except.ok.injEq] at h
      subst h
      exact sample_extantLngs hsam
  · cases h
    rfl

theorem infection_keys {g : RandomStream} {s s2 : Simulator} (h : SimInv s)
    (hk : (s.tree_mngr.extantLngs.map Prod.fst).Nodup) {pos p3 : Nat}
    (he : apply_infection g s pos = .ok (s2, p3)) :
    (s2.tree_mngr.extantLngs.map Prod.fst).Nodup := by
  unfold apply_infection at he
  cases hv : vecAt s.I_lngs (getUniInt g pos (s.I - 1)).1 with
  | error e => rw [hv] at he; cases he
  | ok lp =>
    rw [hv] at he
    simp only at he
    cases hadd : addExtantLineage s.tree_mngr s.t s.next_lng 0 lp with
    | error e => rw [hadd] at he; cases he
    | ok tr =>
      rw [hadd] at he
      simp only [Except.ok.injEq, Prod.mk.injEq] at he
      obtain ⟨e1, _⟩ := he
      subst e1
      obtain ⟨pa, hpa⟩ := (h.keys lp).1 (vecAt_mem hv)
      obtain ⟨np, hnp, _, _⟩ := (h.inv.einv lp pa).1 hpa
      obtain ⟨tr', hrun, r⟩ := addExtant_rel hpa hnp s.t s.next_lng 0
      rw [hadd] at hrun
      cases hrun
      show (tr.extantLngs.map Prod.fst).Nodup
      rw [r.extantLngs]
      exact keys_mapSet_nodup hk _ _

theorem removal_keys {g : RandomStream} {s s2 : Simulator} (h : SimInv s)
    (hk : (s.tree_mngr.extantLngs.map Prod.fst).Nodup) {pos p3 : Nat} {prob : Frac}
    (he : apply_removal g s pos prob = .ok (s2, p3)) :
    (s2.tree_mngr.extantLngs.map Prod.fst).Nodup := by
  unfold apply_removal at he
  cases hv : vecAt s.I_lngs (getUniInt g pos (s.I - 1)).1 with
  | error e => rw [hv] at he; cases he
  | ok lng =>
    rw [hv] at he
    simp only at he
    obtain ⟨x, hE⟩ := (h.keys lng).1 (vecAt_mem hv)
    cases hsi : sampleIf g s (getUniInt g pos (s.I - 1)).2 prob lng with
    | error e => rw [hsi] at he; cases he
    | ok s1 =>
      rw [hsi] at he
      simp only at he
      cases hrm : removeExtantLineage s1.tree_mngr lng false with
      | error e => rw [hrm] at he; cases he
      | ok tr =>
        rw [hrm] at he
        simp only at he
        cases hrv : rmv_element s1.I_lngs (getUniInt g pos (s.I - 1)).1 with
        | error e => rw [hrv] at he; cases he
        | ok v =>
          rw [hrv] at he
          simp only [Except.ok.injEq, Prod.mk.injEq] at he
          obtain ⟨e1, _⟩ := he
          subst e1
          have hE1 := sampleIf_extantLngs hsi
          have hinv1 : Inv s1.tree_mngr := by
            unfold sampleIf at hsi
            split_ifs at hsi with hb
            · cases hsam : sampleExtantLineage s.tree_mngr lng s.t "@" with
              | error e => rw [hsam] at hsi; cases hsi
              | ok r =>
                obtain ⟨trS, b⟩ := r
                rw [hsam] at hsi
                simp only [Except.ok.injEq] at hsi
                subst hsi
                obtain ⟨nx, hx, hl, _⟩ := (h.inv.einv lng x).1 hE
                rcases sample_rel hE hx hl s.t "@" with ⟨_, h1⟩ | ⟨s', h1, r⟩
                · rw [hsam] at h1
                  cases h1
                  exact h.inv
                · rw [hsam] at h1
                  cases h1
                  exact r.inv_sample h.inv
            · cases hsi
              exact h.inv
          obtain ⟨tr2, hrun2, _, hE2, _⟩ := remove_frame hinv1
            (show mapFind s1.tree_mngr.extantLngs lng = some x by rw [hE1]; exact hE) false
          rw [hrm] at hrun2
          cases hrun2
          show (tr.extantLngs.map Prod.fst).Nodup
          rw [hE2, hE1]
          exact keys_mapErase_nodup hk _

theorem SimReach.inv_keys {g : RandomStream} (hg : g.unitRange) {s0 s : Simulator}
    (h0 : SimInv s0) (hk0 : (s0.tree_mngr.extantLngs.map Prod.fst).Nodup)
    (h : SimReach g s0 s) : SimInv s ∧ (s.tree_mngr.extantLngs.map Prod.fst).Nodup := by
  induction h with
  | start => exact ⟨h0, hk0⟩
  | tick dt _ ih => exact ⟨ih.1.with_t _, ih.2⟩
  | @infection s s2 pos p2 _ hI he ih =>
    have hI1 : 1 ≤ s.I := by
      have := ih.1.card
      omega
    obtain ⟨s2', p3, hrun, hinv, _⟩ := infection_spec hg ih.1 hI1 pos
    rw [he] at hrun
    simp only [Except.ok.injEq, Prod.mk.injEq] at hrun
    obtain ⟨e1, _⟩ := hrun
    subst e1
    exact ⟨hinv, infection_keys ih.1 ih.2 he⟩
  | @removal s s2 pos p2 prob _ hI he ih =>
    have hI1 : 1 ≤ s.I := by
      have := ih.1.card
      omega
    obtain ⟨s2', p3, lng, hrun, hinv, _⟩ := removal_spec hg ih.1 hI1 pos prob
    rw [he] at hrun
    simp only [Except.ok.injEq, Prod.mk.injEq] at hrun
    obtain ⟨e1, _⟩ := hrun
    subst e1
    exact ⟨hinv, removal_keys ih.1 ih.2 he⟩

/-- Consistency of the simulator and the tree in the states reached by calls that are
made while `I ≠ 0`: `I` is the length of `I_lngs` and the number of entries of
`extantLngs`, the entries of `I_lngs` are pairwise distinct and are exactly the keys of
`extantLngs`, and every lineage stored in the tree is smaller than `next_lng`.  Hence, while
`I ≠ 0`, `apply_infection` completes, the lineage it adds is not in the tree and the
infector it picks is extant; `apply_removal` completes, and the lineage it picks is extant
both when it is sampled and when it is removed. -/
theorem simulator_tree_consistency (g : RandomStream) (hg : g.unitRange)
    (max_cases max_samples : Int) (R0 dI rho : Frac) (s : Simulator)
    (h : SimReach g (initialSimulator max_cases max_samples R0 dI rho) s) :
    s.I = (s.I_lngs.length : Int) ∧ s.I_lngs.length = s.tree_mngr.extantLngs.length ∧
    s.I_lngs.Nodup ∧ (s.tree_mngr.extantLngs.map Prod.fst).Nodup ∧
    (∀ lng, lng ∈ s.I_lngs ↔ lng ∈ s.tree_mngr.extantLngs.map Prod.fst) ∧
    (∀ a n, s.tree_mngr.mem.cells a = some n → n.lng < s.next_lng) ∧
    (s.I ≠ 0 → ∀ pos,
      (∃ s2 p2 lp, apply_infection g s pos = .ok (s2, p2) ∧
        vecAt s.I_lngs (getUniInt g pos (s.I - 1)).1 = .ok lp ∧
        opPre s.tree_mngr (.add s.t s.next_lng 0 lp) = true) ∧
      ∀ prob, ∃ s2 p2 lng s1, apply_removal g s pos prob = .ok (s2, p2) ∧
        vecAt s.I_lngs (getUniInt g pos (s.I - 1)).1 = .ok lng ∧
        opPre s.tree_mngr (.sample lng s.t "@") = true ∧
        sampleIf g s (getUniInt g pos (s.I - 1)).2 prob lng = .ok s1 ∧
        opPre s1.tree_mngr (.remove lng false) = true) := by
  obtain ⟨hinv, hk⟩ := SimReach.inv_keys hg (initial_inv max_cases max_samples R0 dI rho)
    (show ([((1 : Nat), (0 : Nat))].map Prod.fst).Nodup by decide) h
  have hmem : ∀ lng, lng ∈ s.I_lngs ↔ lng ∈ s.tree_mngr.extantLngs.map Prod.fst :=
    fun lng => (hinv.keys lng).trans (mapFind_keys_iff _ lng)
  have hlen : s.I_lngs.length = s.tree_mngr.extantLngs.length := by
    have hp : s.I_lngs.Perm (s.tree_mngr.extantLngs.map Prod.fst) :=
      (List.perm_ext_iff_of_nodup hinv.nodup hk).2 hmem
    rw [hp.length_eq, List.length_map]
  refine ⟨hinv.card, hlen, hinv.nodup, hk, hmem, hinv.fresh, fun hI pos => ?_⟩
  have hI1 : 1 ≤ s.I := by
    have := hinv.card
    omega
  constructor
  · obtain ⟨s2, p3, hrun, _⟩ := infection_spec hg hinv hI1 pos
    obtain ⟨r0, r1⟩ := getUniInt_range hg pos (show 0 ≤ s.I - 1 by omega)
    obtain ⟨lp, hv, _, hm⟩ := vecAt_ok r0 (show (getUniInt g pos (s.I - 1)).1 <
      (s.I_lngs.length : Int) by rw [← hinv.card]; omega)
    obtain ⟨pa, hpa⟩ := (hinv.keys lp).1 hm
    have hfresh : lngInTree s.tree_mngr s.next_lng = false :=
      lngInTree_of_fresh (fun a n ha => (hinv.fresh a n ha).ne)
    exact ⟨s2, p3, lp, hrun, hv, by simp [opPre, hfresh, hpa]⟩
  · intro prob
    obtain ⟨s2, p3, lng, hrun, _, _, _, _, hv, _⟩ := removal_spec hg hinv hI1 pos prob
    obtain ⟨x, hE⟩ := (hinv.keys lng).1 (vecAt_mem hv)
    have he := hrun
    unfold apply_removal at he
    rw [hv] at he
    simp only at he
    cases hsi : sampleIf g s (getUniInt g pos (s.I - 1)).2 prob lng with
    | error e => rw [hsi] at he; cases he
    | ok s1 =>
      refine ⟨s2, p3, lng, s1, hrun, hv, by simp [opPre, hE], hsi, ?_⟩
      simp [opPre, sampleIf_extantLngs hsi, hE]

theorem simulate_total {g : RandomStream} (hg : g.unitRange) :
    ∀ (fuel : Nat) (s : Simulator) (pos : Nat), SimInv s →
      (∃ a, s.beta.add s.mu = Dbl.fin a) →
      2 * (s.max_cases + 1 - (s.next_lng : Int)).toNat + s.I.toNat < fuel →
        ∃ res, simulate g fuel s pos = .ok res := by
  intro fuel
  induction fuel with
  | zero =>
    intro s pos _ _ hf
    omega
  | succ fuel ih =>
    intro s pos hinv hfin hf
    cases hd : drawEvent g s pos with
    | none => exact ⟨(false, s, pos), by simp only [simulate, hd]⟩
    | some ev =>
      obtain ⟨s1, p2, inf⟩ := ev
      obtain ⟨_, t1, e1⟩ := drawEvent_spec hd
      have hI : s.I ≠ 0 := by
        obtain ⟨a, ha⟩ := hfin
        exact drawEvent_finite ha hd
      obtain ⟨s2, p3, hrun, hinv2, hp, a1, a2⟩ := event_spec hg hinv hd hI
      obtain ⟨q1, q2, q3, q4, q5, q6, q7⟩ := hp
      by_cases hmc : (s2.next_lng : Int) > s2.max_cases
      · exact ⟨(false, s2, p3), by simp only [simulate, hd, hrun, if_pos hmc]⟩
      · by_cases hms : (s2.n_sampled : Int) ≥ s2.max_samples
        · exact ⟨(true, s2, p3), by simp only [simulate, hd, hrun, if_neg hmc, if_pos hms]⟩
        · have hstep : simulate g (fuel + 1) s pos = simulate g fuel s2 p3 := by
            simp only [simulate, hd, hrun, if_neg hmc, if_neg hms]
          rw [hstep]
          refine ih s2 p3 hinv2 (by rw [q5, q4]; exact hfin) ?_
          have hc := hinv.card
          have e3 : 0 ≤ s.I := by rw [hc]; exact Int.ofNat_nonneg _
          have hmc2 : ¬ ((s2.next_lng : Int) > s.max_cases) := by rw [← q6]; exact hmc
          rw [q6]
          cases inf with
          | true =>
            obtain ⟨_, d2, d3⟩ := a1 rfl
            have e1 : (s2.next_lng : Int) = (s.next_lng : Int) + 1 := by rw [d2]; push_cast; rfl
            rw [e1] at hmc2 ⊢
            rw [d3]
            omega
          | false =>
            obtain ⟨d2, d3, _⟩ := a2 rfl
            have e1 : (s2.next_lng : Int) = (s.next_lng : Int) := by rw [d2]
            rw [e1, d3]
            omega

/-- Termination of the loop of `simulate` when `beta + mu` is finite: for every random
stream with uniform variates in `[0, 1)` and every `max_cases ≥ 1`, `simulate()` started
after `initialise_single_infection` returns within `2 · max_cases` iterations of its loop.
At the head of every iteration that draws an event, `I ≥ 1` and
`next_lng ≤ max_cases + 1`, the event completes, and it either increments `next_lng` (a
transmission) or decrements `I` and leaves `next_lng` unchanged (a removal). -/
theorem gillespie_finite (g : RandomStream) (hg : g.unitRange)
    (max_cases max_samples : Int) (R0 dI rho : Frac) (hmc : 1 ≤ max_cases)
    (hfin : ∃ a, (initialSimulator max_cases max_samples R0 dI rho).beta.add
      (initialSimulator max_cases max_samples R0 dI rho).mu = Dbl.fin a) :
    (∀ fuel, 2 * max_cases.toNat ≤ fuel →
      ∃ res, simulate g fuel (initialSimulator max_cases max_samples R0 dI rho) 0 = .ok res) ∧
    (∀ k s p s1 p2 inf,
      AtHead g (initialSimulator max_cases max_samples R0 dI rho) 0 k s p →
      drawEvent g s p = some (s1, p2, inf) →
      1 ≤ s.I ∧ (s.next_lng : Int) ≤ max_cases + 1 ∧
      ∃ s2 p3, applyEvent g s1 p2 inf = .ok (s2, p3) ∧
        ((s2.next_lng = s.next_lng + 1 ∧ s2.I = s.I + 1) ∨
          (s2.next_lng = s.next_lng ∧ s2.I = s.I - 1))) := by
  have hinv := initial_inv max_cases max_samples R0 dI rho
  refine ⟨fun fuel hf => simulate_total hg fuel _ 0 hinv hfin ?_, ?_⟩
  · show 2 * (max_cases + 1 - ((1 + 1 : Nat) : Int)).toNat + ((0 : Int) + 1).toNat < fuel
    have e1 : (((1 + 1 : Nat) : Int)) = 2 := rfl
    have e2 : ((0 : Int) + 1).toNat = 1 := rfl
    rw [e1, e2]
    omega
  · intro k s p s1 p2 inf hh hd
    obtain ⟨hs, hp⟩ := atHead_inv hg hinv hh
    have hI : s.I ≠ 0 := by
      obtain ⟨a, ha⟩ := hfin
      have hfin2 : s.beta.add s.mu = Dbl.fin a := by
        rw [hp.2.2.2.2.1, hp.2.2.2.1]
        exact ha
      exact drawEvent_finite hfin2 hd
    obtain ⟨s2, p3, hrun, _, _, a1, a2⟩ := event_spec hg hs hd hI
    have hI1 : 1 ≤ s.I := by
      have := hs.card
      omega
    have hn : (s.next_lng : Int) ≤ max_cases + 1 := by
      cases hh with
      | start =>
        show (((1 + 1 : Nat) : Int)) ≤ max_cases + 1
        have e1 : (((1 + 1 : Nat) : Int)) = 2 := rfl
        rw [e1]
        omega
      | next hh' hd' he' hc1 hc2 =>
        obtain ⟨_, _, _, _, _, q6, _⟩ := hp
        have : max_cases = s.max_cases := q6.symm
        rw [this]
        omega
    refine ⟨hI1, hn, s2, p3, hrun, ?_⟩
    cases inf with
    | true =>
      obtain ⟨_, d2, d3⟩ := a1 rfl
      exact Or.inl ⟨d2, d3⟩
    | false =>
      obtain ⟨d2, d3, _⟩ := a2 rfl
      exact Or.inr ⟨d2, d3⟩

theorem Link.functional {L : List Nat} {V : LineageTree} {b : Nat} {q : Option Nat} {t : Int}
    (h : Link L V b q t) : ∀ {q' : Option Nat} {t' : Int}, Link L V b q' t' → q' = q ∧ t' = t := by
  induction h with
  | @root b nb h1 h2 =>
    intro q' t' h'
    cases h' with
    | root g1 g2 => rw [h1] at g1; cases g1; exact ⟨rfl, rfl⟩
    | kept g1 g2 _ _ => rw [h1] at g1; cases g1; rw [h2] at g2; cases g2
    | skipRoot g1 g2 _ _ _ => rw [h1] at g1; cases g1; rw [h2] at g2; cases g2
    | skip g1 g2 _ _ _ => rw [h1] at g1; cases g1; rw [h2] at g2; cases g2
  | @kept b p nb np h1 h2 h3 h4 =>
    intro q' t' h'
    cases h' with
    | root g1 g2 => rw [h1] at g1; cases g1; rw [h2] at g2; cases g2
    | kept g1 g2 _ _ => rw [h1] at g1; cases g1; rw [h2] at g2; cases g2; exact ⟨rfl, rfl⟩
    | skipRoot g1 g2 g3 g4 _ =>
      rw [h1] at g1; cases g1; rw [h2] at g2; cases g2; rw [h3] at g3; cases g3
      exact absurd h4 g4
    | skip g1 g2 g3 g4 _ =>
      rw [h1] at g1; cases g1; rw [h2] at g2; cases g2; rw [h3] at g3; cases g3
      exact absurd h4 g4
  | @skipRoot b p nb np t h1 h2 h3 h4 _ ih =>
    intro q' t' h'
    cases h' with
    | root g1 g2 => rw [h1] at g1; cases g1; rw [h2] at g2; cases g2
    | kept g1 g2 g3 g4 =>
      rw [h1] at g1; cases g1; rw [h2] at g2; cases g2; rw [h3] at g3; cases g3
      exact absurd g4 h4
    | skipRoot g1 g2 g3 g4 g5 => rw [h1] at g1; cases g1; exact ⟨rfl, rfl⟩
    | skip g1 g2 g3 g4 g5 =>
      rw [h1] at g1; cases g1; rw [h2] at g2; cases g2
      have := (ih g5).1
      cases this
  | @skip b p g nb np t h1 h2 h3 h4 _ ih =>
    intro q' t' h'
    cases h' with
    | root g1 g2 => rw [h1] at g1; cases g1; rw [h2] at g2; cases g2
    | kept g1 g2 g3 g4 =>
      rw [h1] at g1; cases g1; rw [h2] at g2; cases g2; rw [h3] at g3; cases g3
      exact absurd g4 h4
    | skipRoot g1 g2 g3 g4 g5 =>
      rw [h1] at g1; cases g1; rw [h2] at g2; cases g2
      have := (ih g5).1
      cases this
    | skip g1 g2 g3 g4 g5 =>
      rw [h1] at g1; cases g1; rw [h2] at g2; cases g2
      exact ih g5

theorem Good.congr_good {L : List Nat} {n n' : LineageTreeNode} (h1 : n'.lng = n.lng)
    (h2 : n'.children.length = n.children.length) : Good L n' ↔ Good L n := by
  unfold Good
  rw [h1, h2]

theorem Link.link_splice {L : List Nat} {s s' : LineageTree} {mid c g : Nat}
    {nm nc ng : LineageTreeNode} {cs' : List Nat} (r : SpliceRel s s' mid c g nm nc ng cs')
    (hL : nm.lng ∉ L) {b : Nat} {q : Option Nat} {t : Int} (h : Link L s' b q t) :
    Link L s b q t := by
  have hbad : ¬ Good L nm := fun hg => hg ⟨by rw [r.hch]; rfl, hL⟩
  have hlen : (cs' ++ [c]).length = ng.children.length := by
    rw [List.length_append, r.perm.length_eq, List.length_erase_of_mem r.hmem]
    have : 0 < ng.children.length := List.length_pos_of_mem r.hmem
    simp
    omega
  -- a kept cell other than `c` keeps its parent, branching time and birth time
  have hcell : ∀ x nx', s'.mem.cells x = some nx' → x ≠ c →
      ∃ nx, s.mem.cells x = some nx ∧ nx.parent = nx'.parent ∧
        nx.tBranchParent = nx'.tBranchParent ∧ nx.t = nx'.t := by
    intro x nx' hx hxc
    rw [r.cells x] at hx
    split_ifs at hx with e1 e2
    · cases hx
      exact ⟨ng, e2 ▸ r.hg, rfl, rfl, rfl⟩
    · exact ⟨nx', hx, rfl, rfl, rfl⟩
  -- goodness of a kept cell is unchanged
  have hgood : ∀ x nx', s'.mem.cells x = some nx' →
      ∃ nx, s.mem.cells x = some nx ∧ (Good L nx' ↔ Good L nx) ∧ x ≠ mid := by
    intro x nx' hx
    rw [r.cells x] at hx
    split_ifs at hx with e1 e2 e3
    · cases hx
      exact ⟨nc, e2 ▸ r.hc, Good.congr_good rfl rfl, e1⟩
    · cases hx
      exact ⟨ng, e3 ▸ r.hg, Good.congr_good rfl hlen, e1⟩
    · exact ⟨nx', hx, Iff.rfl, e1⟩
  have hc' : s'.mem.cells c =
      some { nc with parent := some g, tBranchParent := nm.tBranchParent } := by
    rw [r.cells c, if_neg (Nat.ne_of_gt r.hlt2), if_pos rfl]
  induction h with
  | @root b nb h1 h2 =>
    by_cases hbc : b = c
    · subst hbc
      rw [hc'] at h1
      cases h1
      cases h2
    · obtain ⟨nx, e1, e2, e3, _⟩ := hcell b nb h1 hbc
      rw [← e3]
      exact Link.root e1 (e2.trans h2)
  | @kept b p nb np h1 h2 h3 h4 =>
    obtain ⟨np0, f1, f2, f3⟩ := hgood p np h3
    by_cases hbc : b = c
    · subst hbc
      rw [hc'] at h1
      cases h1
      cases h2
      show Link L s b (some g) nm.tBranchParent
      exact Link.skip r.hc r.hcpar r.hmid hbad (Link.kept r.hmid r.hpar f1 (f2.mp h4))
    · obtain ⟨nx, e1, e2, e3, _⟩ := hcell b nb h1 hbc
      rw [← e3]
      exact Link.kept e1 (e2.trans h2) f1 (f2.mp h4)
  | @skipRoot b p nb np t h1 h2 h3 h4 _ ih =>
    obtain ⟨np0, f1, f2, f3⟩ := hgood p np h3
    by_cases hbc : b = c
    · subst hbc
      rw [hc'] at h1
      cases h1
      cases h2
      show Link L s b none nc.t
      exact Link.skipRoot r.hc r.hcpar r.hmid hbad
        (Link.skipRoot r.hmid r.hpar f1 (fun hg => h4 (f2.mpr hg)) ih)
    · obtain ⟨nx, e1, e2, _, e4⟩ := hcell b nb h1 hbc
      rw [← e4]
      exact Link.skipRoot e1 (e2.trans h2) f1 (fun hg => h4 (f2.mpr hg)) ih
  | @skip b p g' nb np t h1 h2 h3 h4 _ ih =>
    obtain ⟨np0, f1, f2, f3⟩ := hgood p np h3
    by_cases hbc : b = c
    · subst hbc
      rw [hc'] at h1
      cases h1
      cases h2
      exact Link.skip r.hc r.hcpar r.hmid hbad
        (Link.skip r.hmid r.hpar f1 (fun hg => h4 (f2.mpr hg)) ih)
    · obtain ⟨nx, e1, e2, _, _⟩ := hcell b nb h1 hbc
      exact Link.skip e1 (e2.trans h2) f1 (fun hg => h4 (f2.mpr hg)) ih

theorem Link.link_promote {L : List Nat} {s s' : LineageTree} {mid c : Nat}
    {nm nc : LineageTreeNode} (r : PromoteRel s s' mid c nm nc)
    (hL : nm.lng ∉ L) {b : Nat} {q : Option Nat} {t : Int} (h : Link L s' b q t) :
    Link L s b q t := by
  have hbad : ¬ Good L nm := fun hg => hg ⟨by rw [r.hch]; rfl, hL⟩
  have hcell : ∀ x nx', s'.mem.cells x = some nx' → x ≠ c → s.mem.cells x = some nx' := by
    intro x nx' hx hxc
    rw [r.cells x] at hx
    split_ifs at hx with e1
    exact hx
  have hgood : ∀ x nx', s'.mem.cells x = some nx' →
      ∃ nx, s.mem.cells x = some nx ∧ (Good L nx' ↔ Good L nx) := by
    intro x nx' hx
    rw [r.cells x] at hx
    split_ifs at hx with e1 e2
    · cases hx
      exact ⟨nc, e2 ▸ r.hc, Good.congr_good rfl rfl⟩
    · exact ⟨nx', hx, Iff.rfl⟩
  have hc' : s'.mem.cells c = some { nc with parent := none, tBranchParent := nc.t } := by
    rw [r.cells c, if_neg (Nat.ne_of_gt r.hlt), if_pos rfl]
  induction h with
  | @root b nb h1 h2 =>
    by_cases hbc : b = c
    · subst hbc
      rw [hc'] at h1
      cases h1
      show Link L s b none nc.t
      exact Link.skipRoot r.hc r.hcpar r.hmid hbad (Link.root r.hmid r.hpar)
    · exact Link.root (hcell b nb h1 hbc) h2
  | @kept b p nb np h1 h2 h3 h4 =>
    obtain ⟨np0, f1, f2⟩ := hgood p np h3
    by_cases hbc : b = c
    · subst hbc
      rw [hc'] at h1
      cases h1
      cases h2
    · exact Link.kept (hcell b nb h1 hbc) h2 f1 (f2.mp h4)
  | @skipRoot b p nb np t h1 h2 h3 h4 _ ih =>
    obtain ⟨np0, f1, f2⟩ := hgood p np h3
    by_cases hbc : b = c
    · subst hbc
      rw [hc'] at h1
      cases h1
      cases h2
    · exact Link.skipRoot (hcell b nb h1 hbc) h2 f1 (fun hg => h4 (f2.mpr hg)) ih
  | @skip b p g' nb np t h1 h2 h3 h4 _ ih =>
    obtain ⟨np0, f1, f2⟩ := hgood p np h3
    by_cases hbc : b = c
    · subst hbc
      rw [hc'] at h1
      cases h1
      cases h2
    · exact Link.skip (hcell b nb h1 hbc) h2 f1 (fun hg => h4 (f2.mpr hg)) ih

theorem elim_links (L : List Nat) (ord : List Nat → List Nat) (hord : ∀ l, (ord l).Perm l)
    (H : Nat → Bool) (nx fuel : Nat) (hf : nx < fuel) (m : Mem) (r k : Nat)
    (hs : Struct none (viewTree H m nx [r] k)) :
    ∃ m' r' k', eliminateRedundantNodes ord fuel m r L = .ok (m', r') ∧
      m'.next = m.next ∧ (∀ a, H a = true → m'.cells a = m.cells a) ∧
      Struct none (viewTree H m' nx [r'] k') ∧
      ElimRel L (viewTree H m nx [r] k) (viewTree H m' nx [r'] k') ∧
      (∀ b q t, Link L (viewTree H m' nx [r'] k') b q t → Link L (viewTree H m nx [r] k) b q t) ∧
      ∀ b nb, (viewTree H m' nx [r'] k').mem.cells b = some nb → Good L nb :=
  elimNodes_spec L (fun V => ∀ b q t, Link L V b q t → Link L (viewTree H m nx [r] k) b q t)
    (fun _ _ _ _ _ _ _ _ _ rel hL h b q t hl => h b q t (Link.link_splice rel hL hl))
    (fun _ _ _ _ _ _ rel hL h b q t hl => h b q t (Link.link_promote rel hL hl))
    ord hord H nx fuel hf m r k hs (fun _ _ _ hl => hl)

theorem link_of_good {L : List Nat} {V : LineageTree} (hs : Struct none V)
    (hgood : ∀ b nb, V.mem.cells b = some nb → Good L nb) {b : Nat} {nb : LineageTreeNode}
    (hb : V.mem.cells b = some nb) : Link L V b nb.parent nb.tBranchParent := by
  cases hp : nb.parent with
  | none => exact Link.root hb hp
  | some p =>
    obtain ⟨_, np, hnp, _⟩ := hs.parentLive b nb p (by simp) hb hp
    exact Link.kept hb hp hnp (hgood p np hnp)

theorem strip_eq {n1 n2 : LineageTreeNode} (h : SameData n1 n2) (hp : n2.parent = n1.parent)
    (ht : n2.tBranchParent = n1.tBranchParent) : stripKids n1 = stripKids n2 := by
  obtain ⟨a1, a2, a3, a4, a5, a6, a7, a8⟩ := h
  cases n1
  cases n2
  simp only [stripKids] at *
  simp only [LineageTreeNode.mk.injEq]
  simp_all

theorem SameData.symm_data {n n' : LineageTreeNode} (h : SameData n n') : SameData n' n := by
  obtain ⟨a1, a2, a3, a4, a5, a6, a7, a8⟩ := h
  exact ⟨a1.symm, a2.symm, a3.symm, a4.symm, a5.symm, a6.symm, a7.symm, a8.symm⟩

/-- Two trees that result from the same tree by removing its redundant nodes hold the same
nodes, with the same links. -/
theorem elim_unique_cell {L : List Nat} {V V1 V2 : LineageTree}
    (hs1 : Struct none V1) (hs2 : Struct none V2)
    (r1 : ElimRel L V V1) (r2 : ElimRel L V V2)
    (l1 : ∀ b q t, Link L V1 b q t → Link L V b q t)
    (l2 : ∀ b q t, Link L V2 b q t → Link L V b q t)
    (g1 : ∀ b nb, V1.mem.cells b = some nb → Good L nb)
    (g2 : ∀ b nb, V2.mem.cells b = some nb → Good L nb) (a : Nat) :
    (V1.mem.cells a).map stripKids = (V2.mem.cells a).map stripKids := by
  have key : ∀ {W W' : LineageTree}, Struct none W → Struct none W' → ElimRel L V W →
      ElimRel L V W' → (∀ b q t, Link L W b q t → Link L V b q t) →
      (∀ b q t, Link L W' b q t → Link L V b q t) →
      (∀ b nb, W.mem.cells b = some nb → Good L nb) →
      (∀ b nb, W'.mem.cells b = some nb → Good L nb) →
      ∀ n, W.mem.cells a = some n → ∃ n', W'.mem.cells a = some n' ∧
        stripKids n = stripKids n' := by
    intro W W' hsW hsW' rW rW' lW lW' gW gW' n hn
    obtain ⟨n0, h0, d0, len0⟩ := rW.surv a n hn
    cases hn' : W'.mem.cells a with
    | none =>
      obtain ⟨e1, e2⟩ := rW'.gone a n0 h0 hn'
      exact absurd ⟨by rw [len0]; exact e1, by rw [d0.1]; exact e2⟩ (gW a n hn)
    | some n' =>
      obtain ⟨n0', h0', d0', _⟩ := rW'.surv a n' hn'
      rw [h0] at h0'
      cases h0'
      have k1 := lW a _ _ (link_of_good hsW gW hn)
      have k2 := lW' a _ _ (link_of_good hsW' gW' hn')
      obtain ⟨e1, e2⟩ := k1.functional k2
      exact ⟨n', rfl, strip_eq (d0.symm_data.trans_data d0') e1 e2⟩
  cases h1 : V1.mem.cells a with
  | none =>
    cases h2 : V2.mem.cells a with
    | none => rfl
    | some n2 =>
      obtain ⟨n1, e1, _⟩ := key hs2 hs1 r2 r1 l2 l1 g2 g1 n2 h2
      rw [h1] at e1
      cases e1
  | some n1 =>
    obtain ⟨n2, e1, e2⟩ := key hs1 hs2 r1 r2 l1 l2 g1 g2 n1 h1
    rw [e1]
    simp only [Option.map_some', e2]

theorem kids_perm_of_strip {V1 V2 : LineageTree} (hs1 : Struct none V1) (hs2 : Struct none V2)
    (h : ∀ a, (V1.mem.cells a).map stripKids = (V2.mem.cells a).map stripKids)
    {a : Nat} {n1 n2 : LineageTreeNode} (h1 : V1.mem.cells a = some n1)
    (h2 : V2.mem.cells a = some n2) : n1.children.Perm n2.children := by
  have key : ∀ {W W' : LineageTree}, Struct none W → Struct none W' →
      (∀ a, (W.mem.cells a).map stripKids = (W'.mem.cells a).map stripKids) →
      ∀ {n n' : LineageTreeNode}, W.mem.cells a = some n → W'.mem.cells a = some n' →
      ∀ c, c ∈ n.children → c ∈ n'.children := by
    intro W W' hsW hsW' hW n n' hn hn' c hc
    obtain ⟨_, nc, hnc, hpar⟩ := hsW.childLive a n c (by simp) hn hc
    have e := hW c
    rw [hnc] at e
    cases hc' : W'.mem.cells c with
    | none => rw [hc'] at e; cases e
    | some nc' =>
      rw [hc'] at e
      simp only [Option.map_some', Option.some.injEq] at e
      have hp : nc'.parent = some a := by
        have : (stripKids nc').parent = (stripKids nc).parent := by rw [e]
        exact this.trans hpar
      obtain ⟨_, na, hna, hmem⟩ := hsW'.parentLive c nc' a (by simp) hc' hp
      rw [hn'] at hna
      cases hna
      exact hmem
  exact (List.perm_ext_iff_of_nodup (hs1.childNodup a n1 (by simp) h1)
    (hs2.childNodup a n2 (by simp) h2)).2
    (fun c => ⟨key hs1 hs2 h h1 h2 c, key hs2 hs1 (fun a => (h a).symm) h2 h1 c⟩)

/-- The memory and the root that `eliminateRedundantNodes` returns do not depend on the
order in which the leaves are processed, up to the order of the vectors `children`. -/
theorem elim_two_orders (L : List Nat) (ord1 ord2 : List Nat → List Nat)
    (hord1 : ∀ l, (ord1 l).Perm l) (hord2 : ∀ l, (ord2 l).Perm l)
    (H : Nat → Bool) (nx fuel : Nat) (hf : nx < fuel) (m : Mem) (r k : Nat)
    (hs : Struct none (viewTree H m nx [r] k)) :
    ∃ m1 m2 r' k1 k2, eliminateRedundantNodes ord1 fuel m r L = .ok (m1, r') ∧
      eliminateRedundantNodes ord2 fuel m r L = .ok (m2, r') ∧ SameUpToKids m1 m2 ∧
      Struct none (viewTree H m1 nx [r'] k1) ∧ Struct none (viewTree H m2 nx [r'] k2) ∧
      (∀ a, (viewTree H m1 nx [r'] k1).mem.cells a = none ↔
        (viewTree H m2 nx [r'] k2).mem.cells a = none) := by
  obtain ⟨m1, r1, k1, a1, a2, a3, a4, a5, a6, a7⟩ := elim_links L ord1 hord1 H nx fuel hf m r k hs
  obtain ⟨m2, r2, k2, b1, b2, b3, b4, b5, b6, b7⟩ := elim_links L ord2 hord2 H nx fuel hf m r k hs
  have hcell := elim_unique_cell a4 b4 a5 b5 a6 b6 a7 b7
  have hr : r1 = r2 := by
    obtain ⟨_, n1, hn1, hp1⟩ := (a4.rootSet r1).mp (by rw [view_roots]; simp)
    have e := hcell r1
    rw [hn1] at e
    cases h2 : (viewTree H m2 nx [r2] k2).mem.cells r1 with
    | none => rw [h2] at e; cases e
    | some n2 =>
      rw [h2] at e
      simp only [Option.map_some', Option.some.injEq] at e
      have hp : n2.parent = none := by
        have : (stripKids n2).parent = (stripKids n1).parent := by rw [e]
        exact this.trans hp1
      have := (b4.rootSet r1).mpr ⟨by simp, n2, h2, hp⟩
      rw [view_roots, List.mem_singleton] at this
      exact this
  subst hr
  refine ⟨m1, m2, r1, k1, k2, a1, b1, ?_, a4, b4, ?_⟩
  · intro a
    by_cases hH : H a = true
    · rw [a3 a hH, b3 a hH]
      exact ⟨rfl, fun n1 n2 h1 h2 => by rw [h1] at h2; cases h2; exact List.Perm.refl _⟩
    · have e1 : (viewTree H m1 nx [r1] k1).mem.cells a = m1.cells a := by
        rw [view_cells, if_neg hH]
      have e2 : (viewTree H m2 nx [r1] k2).mem.cells a = m2.cells a := by
        rw [view_cells, if_neg hH]
      refine ⟨by rw [← e1, ← e2]; exact hcell a, fun n1 n2 h1 h2 => ?_⟩
      exact kids_perm_of_strip a4 b4 hcell (e1.trans h1) (e2.trans h2)
  · intro a
    have e := hcell a
    constructor
    · intro h
      rw [h] at e
      cases h2 : (viewTree H m2 nx [r1] k2).mem.cells a with
      | none => rfl
      | some n => rw [h2] at e; cases e
    · intro h
      rw [h] at e
      cases h2 : (viewTree H m1 nx [r1] k1).mem.cells a with
      | none => rfl
      | some n => rw [h2] at e; cases e

theorem canonList_map (ks : List LTree) : LTree.canonList ks = ks.map LTree.canon := by
  induction ks with
  | nil => rfl
  | cons k ks ih => simp [LTree.canonList, ih]

theorem canon_mk (n : LineageTreeNode) (ks : List LTree) :
    (LTree.mk n ks).canon = .mk (stripNode n) (sortKids (ks.map LTree.canon)) := by
  rw [LTree.canon, canonList_map]

theorem canon_node (T : LTree) : T.canon.node = stripNode T.node := by
  obtain ⟨n, ks⟩ := T
  rw [canon_mk]
  rfl

theorem canon_tbp (T : LTree) : T.canon.node.tBranchParent = T.node.tBranchParent := by
  rw [canon_node]
  rfl

theorem canon_lng (T : LTree) : T.canon.node.lng = T.node.lng := by
  rw [canon_node]
  rfl

theorem sortKids_map_canon (ks : List LTree) :
    sortKids (ks.map LTree.canon) = (sortKids ks).map LTree.canon := by
  unfold sortKids
  rw [List.map_insertionSort kidLe kidLe LTree.canon ks]
  intro a _ b _
  unfold kidLe
  rw [canon_tbp, canon_tbp]

theorem sortKids_idem (ks : List LTree) : sortKids (sortKids ks) = sortKids ks :=
  List.Sorted.insertionSort_eq (sortKids_pairwise ks)

theorem canon_of_sorted_kids (n : LineageTreeNode) {k1 kc : List LTree}
    (h : k1.map LTree.canon = (sortKids kc).map LTree.canon) :
    (LTree.mk n k1).canon = (LTree.mk n kc).canon := by
  rw [canon_mk, canon_mk, h, ← sortKids_map_canon, sortKids_idem]

theorem canon_of_kids (n : LineageTreeNode) {k1 kc : List LTree}
    (h : k1.map LTree.canon = kc.map LTree.canon) :
    (LTree.mk n k1).canon = (LTree.mk n kc).canon := by
  rw [canon_mk, canon_mk, h]

theorem canon_strip {n n' : LineageTreeNode} {ks ks' : List LTree}
    (h : (LTree.mk n ks).canon = (LTree.mk n' ks').canon) :
    stripNode n = stripNode n' ∧
      (sortKids ks).map LTree.canon = (sortKids ks').map LTree.canon := by
  rw [canon_mk, canon_mk] at h
  simp only [LTree.mk.injEq] at h
  rw [sortKids_map_canon, sortKids_map_canon] at h
  exact h

theorem kidAt_canon {cs cs' : List LTree} (h : cs.map LTree.canon = cs'.map LTree.canon)
    (i : Nat) :
    (kidAt cs i = .error .outOfBounds ∧ kidAt cs' i = .error .outOfBounds) ∨
      ∃ c c', kidAt cs i = .ok c ∧ kidAt cs' i = .ok c' ∧ c.canon = c'.canon := by
  have hlen : cs.length = cs'.length := by
    have := congrArg List.length h
    simpa using this
  unfold kidAt
  simp only [List.get?_eq_getElem?]
  by_cases hi : i < cs.length
  · right
    have hi' : i < cs'.length := by omega
    refine ⟨cs[i], cs'[i], by rw [List.getElem?_eq_getElem hi],
      by rw [List.getElem?_eq_getElem hi'], ?_⟩
    have e1 : (cs.map LTree.canon)[i]? = some (cs[i].canon) := by
      rw [List.getElem?_map, List.getElem?_eq_getElem hi]
      rfl
    have e2 : (cs'.map LTree.canon)[i]? = some (cs'[i].canon) := by
      rw [List.getElem?_map, List.getElem?_eq_getElem hi']
      rfl
    rw [h] at e1
    rw [e1] at e2
    exact Option.some.inj e2
  · left
    have hi' : ¬ i < cs'.length := by omega
    rw [List.getElem?_eq_none (by omega), List.getElem?_eq_none (by omega)]
    exact ⟨rfl, rfl⟩

theorem set_canon {cs : List LTree} {i : Nat} {c c1 : LTree} (h : kidAt cs i = .ok c)
    (hc : c1.canon = c.canon) : (cs.set i c1).map LTree.canon = cs.map LTree.canon := by
  obtain ⟨hlt, hdrop⟩ := kidAt_ok h
  have hget : cs[i] = c := by
    have := List.drop_eq_getElem_cons hlt
    rw [hdrop] at this
    simp only [List.cons.injEq] at this
    exact this.1.symm
  rw [List.map_set, hc, ← hget]
  apply List.ext_getElem
  · simp
  · intro j h1 h2
    rw [List.getElem_set]
    split_ifs with e
    · subst e
      simp
    · rfl

theorem attachDepth_canon (t : Int) :
    ∀ {cs cs' : List LTree}, cs.map LTree.canon = cs'.map LTree.canon →
      attachDepth t cs = attachDepth t cs'
  | [], [], _ => rfl
  | [], _ :: _, h => by simp at h
  | _ :: _, [], h => by simp at h
  | c :: cs, c' :: cs', h => by
    simp only [List.map_cons, List.cons.injEq] at h
    have e : c.node.tBranchParent = c'.node.tBranchParent := by
      rw [← canon_tbp c, ← canon_tbp c', h.1]
    simp only [attachDepth, e, attachDepth_canon t h.2]

theorem strip_fields {n n' : LineageTreeNode} (h : stripNode n = stripNode n') :
    n'.lng = n.lng ∧ n'.data = n.data ∧ n'.locSample = n.locSample ∧ n'.sampled = n.sampled ∧
      n'.tSample = n.tSample ∧ n'.t = n.t ∧ n'.tBranchParent = n.tBranchParent := by
  cases n
  cases n'
  simp only [stripNode, LineageTreeNode.mk.injEq] at h
  simp_all

theorem entryState_strip {n n' : LineageTreeNode} (h : stripNode n = stripNode n')
    (pp : Option PhyloParent) : entryState n' pp = entryState n pp := by
  obtain ⟨hl, _⟩ := strip_fields h
  cases pp with
  | none => rfl
  | some q => simp only [entryState, hl]

theorem entryKids_strip {n n' : LineageTreeNode} (h : stripNode n = stripNode n')
    (pp : Option PhyloParent) (ks : List LTree) : entryKids n' pp ks = entryKids n pp ks := by
  unfold entryKids
  rw [entryState_strip h]

theorem entryKids_length (n : LineageTreeNode) (pp : Option PhyloParent) (ks : List LTree) :
    (entryKids n pp ks).length = ks.length := by
  unfold entryKids
  split_ifs
  · exact (sortKids_perm ks).length_eq
  · rfl

theorem sortKids_short {ks : List LTree} (h : ¬ 1 < ks.length) : sortKids ks = ks := by
  match ks, h with
  | [], _ => rfl
  | [_], _ => rfl
  | _ :: _ :: _, h => simp at h

theorem entryKids_code (n : LineageTreeNode) (pp : Option PhyloParent) (ks : List LTree) :
    (if 1 < ks.length ∧ (entryState n pp).depth = 0 then sortKids ks else ks) =
      entryKids n pp ks := by
  unfold entryKids
  by_cases h1 : 1 < ks.length
  · by_cases h2 : (entryState n pp).depth = 0
    · rw [if_pos ⟨h1, h2⟩, if_pos h2]
    · rw [if_neg (fun h => h2 h.2), if_neg h2]
  · rw [if_neg (fun h => h1 h.1)]
    split_ifs
    · exact (sortKids_short h1).symm
    · rfl

theorem goodKidsC_of_canon {n : LineageTreeNode} {ks : List LTree}
    (h : (LTree.mk n ks).canon.all edgeDistinctQ = true) : GoodKidsC n ks := by
  rw [canon_mk] at h
  simp only [LTree.all, Bool.and_eq_true, allList_iff] at h
  obtain ⟨h1, h2⟩ := h
  intro c hc
  have hmem : c.canon ∈ sortKids (ks.map LTree.canon) :=
    (sortKids_perm _).mem_iff.mpr (List.mem_map_of_mem _ hc)
  refine ⟨?_, h2 _ hmem⟩
  simp only [edgeDistinctQ, List.all_eq_true, decide_eq_true_eq] at h1
  have := h1 _ hmem
  rw [canon_lng] at this
  exact this

theorem GoodKidsC.sorted {n : LineageTreeNode} {ks : List LTree} (h : GoodKidsC n ks) :
    GoodKidsC n (sortKids ks) :=
  fun c hc => h c ((sortKids_perm ks).mem_iff.mp hc)

theorem GoodKidsC.set_kid {n : LineageTreeNode} {cs : List LTree} (h : GoodKidsC n cs)
    {i : Nat} {c c1 : LTree} (hk : kidAt cs i = .ok c) (hc : c1.canon = c.canon) :
    GoodKidsC n (cs.set i c1) := by
  intro x hx
  rcases List.mem_or_eq_of_mem_set hx with hx | rfl
  · exact h x hx
  · obtain ⟨e1, e2⟩ := h c (kidAt_mem hk)
    refine ⟨?_, by rw [hc]; exact e2⟩
    rw [← canon_lng x, hc, canon_lng]
    exact e1

theorem entryState_child {n : LineageTreeNode} {q : PhyloParent} (h : n.lng ≠ q.lng) :
    (entryState n (some q)).depth = 0 := by
  simp [entryState, h]

theorem entryState_same {n : LineageTreeNode} {q : PhyloParent} (h : n.lng = q.lng) :
    (entryState n (some q)).depth ≠ 0 := by
  simp [entryState, h]

theorem child_sim {rec : LTree → Option PhyloParent → Except Err (LTree × PhyloNode)}
    (hrec : GatSim rec) {c c' : LTree} (hc : c.canon = c'.canon) {q : PhyloParent}
    (hl : c.node.lng ≠ q.lng) (hed : c.canon.all edgeDistinctQ = true) :
    ChildRel c.canon (rec c (some q)) (rec c' (some q)) := by
  obtain ⟨nc, kc⟩ := c
  obtain ⟨nc', kc'⟩ := c'
  obtain ⟨hs, hk⟩ := canon_strip hc
  have hd : (entryState nc (some q)).depth = 0 := entryState_child hl
  have e1 : entryKids nc (some q) kc = sortKids kc := by unfold entryKids; rw [if_pos hd]
  have e2 : entryKids nc (some q) kc' = sortKids kc' := by unfold entryKids; rw [if_pos hd]
  have h := hrec nc nc' kc kc' (some q) hs (by rw [e1, e2]; exact hk)
    (by rw [e1]; exact (goodKidsC_of_canon hed).sorted)
  rw [e1] at h
  cases h1 : rec (.mk nc kc) (some q) with
  | error e =>
    cases h2 : rec (.mk nc' kc') (some q) with
    | error e' =>
      rw [h1, h2] at h
      exact h
    | ok r' =>
      rw [h1, h2] at h
      exact h.elim
  | ok r =>
    obtain ⟨T1, P1⟩ := r
    cases h2 : rec (.mk nc' kc') (some q) with
    | error e' =>
      rw [h1, h2] at h
      exact h.elim
    | ok r' =>
      obtain ⟨T2, P2⟩ := r'
      rw [h1, h2] at h
      obtain ⟨hP, k1, k2, rfl, rfl, f1, f2⟩ := h
      refine ⟨hP, canon_of_sorted_kids nc f1, ?_⟩
      rw [hc]
      exact canon_of_sorted_kids nc' (by rw [f2, hk])

theorem reentry_sim {rec : LTree → Option PhyloParent → Except Err (LTree × PhyloNode)}
    (hrec : GatSim rec) {n n' : LineageTreeNode} (hs : stripNode n = stripNode n')
    {cs cs' : List LTree} (hcs : cs.map LTree.canon = cs'.map LTree.canon)
    (hgk : GoodKidsC n cs) {q : PhyloParent} (hq : n.lng = q.lng) :
    ResRel n n' cs (rec (.mk n cs) (some q)) (rec (.mk n' cs') (some q)) := by
  have hd : (entryState n (some q)).depth ≠ 0 := entryState_same hq
  have e1 : ∀ ks, entryKids n (some q) ks = ks := by
    intro ks
    unfold entryKids
    rw [if_neg hd]
  have h := hrec n n' cs cs' (some q) hs (by rw [e1, e1]; exact hcs) (by rw [e1]; exact hgk)
  rw [e1] at h
  exact h

theorem resRel_err (n n' : LineageTreeNode) (cs : List LTree) (e : Err) :
    ResRel n n' cs (.error e) (.error e) := by
  simp [ResRel]

theorem resRel_ok {n n' : LineageTreeNode} {cs k1 k2 : List LTree} (P : PhyloNode)
    (h1 : k1.map LTree.canon = cs.map LTree.canon)
    (h2 : k2.map LTree.canon = cs.map LTree.canon) :
    ResRel n n' cs (.ok (.mk n k1, P)) (.ok (.mk n' k2, P)) := by
  simp only [ResRel, true_and]
  exact ⟨k1, k2, rfl, rfl, h1, h2⟩

theorem resRel_cases {n n' : LineageTreeNode} {cs : List LTree}
    {r r' : Except Err (LTree × PhyloNode)} (h : ResRel n n' cs r r') :
    (∃ e, r = .error e ∧ r' = .error e) ∨
      ∃ k1 k2 P, r = .ok (.mk n k1, P) ∧ r' = .ok (.mk n' k2, P) ∧
        k1.map LTree.canon = cs.map LTree.canon ∧ k2.map LTree.canon = cs.map LTree.canon := by
  cases r with
  | error e =>
    cases r' with
    | error e' =>
      simp only [ResRel] at h
      subst h
      exact Or.inl ⟨e, rfl, rfl⟩
    | ok x => exact h.elim
  | ok x =>
    obtain ⟨T1, P1⟩ := x
    cases r' with
    | error e' => exact h.elim
    | ok x' =>
      obtain ⟨T2, P2⟩ := x'
      simp only [ResRel] at h
      obtain ⟨rfl, k1, k2, rfl, rfl, h1, h2⟩ := h
      exact Or.inr ⟨k1, k2, P1, rfl, rfl, h1, h2⟩

theorem childRel_cases {C : LTree} {r r' : Except Err (LTree × PhyloNode)}
    (h : ChildRel C r r') :
    (∃ e, r = .error e ∧ r' = .error e) ∨
      ∃ T1 T2 P, r = .ok (T1, P) ∧ r' = .ok (T2, P) ∧ T1.canon = C ∧ T2.canon = C := by
  cases r with
  | error e =>
    cases r' with
    | error e' =>
      simp only [ChildRel] at h
      subst h
      exact Or.inl ⟨e, rfl, rfl⟩
    | ok x => exact h.elim
  | ok x =>
    obtain ⟨T1, P1⟩ := x
    cases r' with
    | error e' => exact h.elim
    | ok x' =>
      obtain ⟨T2, P2⟩ := x'
      simp only [ChildRel] at h
      obtain ⟨rfl, h1, h2⟩ := h
      exact Or.inr ⟨T1, T2, P1, rfl, rfl, h1, h2⟩

theorem asParent_strip {n n' : LineageTreeNode} (h : stripNode n = stripNode n')
    (d dc a : Nat) (t : Int) : asParent n' d dc a t = asParent n d dc a t := by
  obtain ⟨hl, _⟩ := strip_fields h
  simp only [asParent, hl]

theorem phyloInner_strip {n n' : LineageTreeNode} (h : stripNode n = stripNode n')
    (t dt : Int) (d dc a : Nat) (l r : PhyloNode) :
    phyloInner n' t dt d dc a l r = phyloInner n t dt d dc a l r := by
  obtain ⟨hl, hd, _⟩ := strip_fields h
  simp only [phyloInner, hl, hd]

theorem phyloLeaf_strip {n n' : LineageTreeNode} (h : stripNode n = stripNode n')
    (t dt : Int) (d dc a : Nat) :
    phyloLeaf n' t dt d dc a = phyloLeaf n t dt d dc a := by
  obtain ⟨hl, hd, hloc, _⟩ := strip_fields h
  simp only [phyloLeaf, hl, hd, hloc]

theorem tbp_of_canon {c c' : LTree} (h : c.canon = c'.canon) :
    c'.node.tBranchParent = c.node.tBranchParent := by
  rw [← canon_tbp c', ← h, canon_tbp]

theorem gatUnsampled_sim
    {rec : LTree → Option PhyloParent → Except Err (LTree × PhyloNode)} (hrec : GatSim rec)
    {n n' : LineageTreeNode} (hs : stripNode n = stripNode n') {cs cs' : List LTree}
    (hcs : cs.map LTree.canon = cs'.map LTree.canon) (hgk : GoodKidsC n cs)
    (len : Nat) (pp : Option PhyloParent) (st : ChainState) :
    ResRel n n' cs (gatUnsampled rec n cs len pp st) (gatUnsampled rec n' cs' len pp st) := by
  unfold gatUnsampled
  by_cases c1 : len < 2
  · rw [if_pos c1, if_pos c1]
    exact resRel_err _ _ _ _
  rw [if_neg c1, if_neg c1]
  by_cases c2 : st.depth = len
  · rw [if_pos c2, if_pos c2]
    exact resRel_err _ _ _ _
  rw [if_neg c2, if_neg c2]
  rcases kidAt_canon hcs st.depth with ⟨k1, k2⟩ | ⟨c, c', k1, k2, hc⟩
  · rw [k1, k2]
    exact resRel_err _ _ _ _
  rw [k1, k2]
  dsimp only
  rw [tbp_of_canon hc]
  cases hb : branchLength c.node.tBranchParent pp with
  | error e => exact resRel_err _ _ _ _
  | ok dt =>
    dsimp only
    simp only [asParent_strip hs, phyloInner_strip hs]
    obtain ⟨hcl, hced⟩ := hgk c (kidAt_mem k1)
    have hchild := child_sim hrec hc
      (q := asParent n st.depth st.depthChild st.attach c.node.tBranchParent) hcl hced
    by_cases c3 : st.depth < len - 2
    · rw [if_pos c3, if_pos c3]
      rcases childRel_cases hchild with ⟨e, r1, r2⟩ | ⟨T1, T2, P, r1, r2, f1, f2⟩
      · rw [r1, r2]
        exact resRel_err _ _ _ _
      · rw [r1, r2]
        dsimp only
        have hset : (cs.set st.depth T1).map LTree.canon =
            (cs'.set st.depth T2).map LTree.canon := by
          rw [set_canon k1 f1, set_canon k2 (f2.trans hc), hcs]
        have hre := reentry_sim hrec hs hset (hgk.set_kid k1 f1)
          (q := asParent n st.depth st.depthChild st.attach c.node.tBranchParent) rfl
        rcases resRel_cases hre with ⟨e, r3, r4⟩ | ⟨ka, kb, P2, r3, r4, g1, g2⟩
        · rw [r3, r4]
          exact resRel_err _ _ _ _
        · rw [r3, r4]
          exact resRel_ok _ (g1.trans (set_canon k1 f1)) (g2.trans (set_canon k1 f1))
    · rw [if_neg c3, if_neg c3]
      rcases kidAt_canon hcs (st.depth + 1) with ⟨j1, j2⟩ | ⟨d, d', j1, j2, hd⟩
      · rw [j1, j2]
        exact resRel_err _ _ _ _
      rw [j1, j2]
      dsimp only
      rcases childRel_cases hchild with ⟨e, r1, r2⟩ | ⟨T1, T2, P, r1, r2, f1, f2⟩
      · rw [r1, r2]
        exact resRel_err _ _ _ _
      rw [r1, r2]
      dsimp only
      obtain ⟨hdl, hded⟩ := hgk d (kidAt_mem j1)
      have hchild2 := child_sim hrec hd
        (q := asParent n st.depth st.depthChild st.attach c.node.tBranchParent) hdl hded
      rcases childRel_cases hchild2 with ⟨e, r3, r4⟩ | ⟨U1, U2, P2, r3, r4, g1, g2⟩
      · rw [r3, r4]
        exact resRel_err _ _ _ _
      rw [r3, r4]
      have i1 : kidAt (cs.set st.depth T1) (st.depth + 1) = .ok d := by
        rw [kidAt_set_ne _ (by omega)]
        exact j1
      have i2 : kidAt (cs'.set st.depth T2) (st.depth + 1) = .ok d' := by
        rw [kidAt_set_ne _ (by omega)]
        exact j2
      refine resRel_ok _ ((set_canon i1 g1).trans (set_canon k1 f1)) ?_
      rw [set_canon i2 (g2.trans hd), set_canon k2 (f2.trans hc), hcs]

theorem gatLate_sim
    {rec : LTree → Option PhyloParent → Except Err (LTree × PhyloNode)} (hrec : GatSim rec)
    {n n' : LineageTreeNode} (hs : stripNode n = stripNode n') {cs cs' : List LTree}
    (hcs : cs.map LTree.canon = cs'.map LTree.canon) (hgk : GoodKidsC n cs)
    (len : Nat) (pp : Option PhyloParent) (st : ChainState) (attach : Nat) :
    ResRel n n' cs (gatLate rec n cs len pp st attach)
      (gatLate rec n' cs' len pp st attach) := by
  obtain ⟨_, _, _, _, hts, _, _⟩ := strip_fields hs
  unfold gatLate
  rcases kidAt_canon hcs st.depth with ⟨k1, k2⟩ | ⟨c, c', k1, k2, hc⟩
  · rw [k1, k2]
    exact resRel_err _ _ _ _
  rw [k1, k2]
  dsimp only
  rw [tbp_of_canon hc]
  cases hb : branchLength c.node.tBranchParent pp with
  | error e => exact resRel_err _ _ _ _
  | ok dt =>
    dsimp only
    simp only [asParent_strip hs, phyloInner_strip hs, phyloLeaf_strip hs, hts]
    obtain ⟨hcl, hced⟩ := hgk c (kidAt_mem k1)
    have hchild := child_sim hrec hc
      (q := asParent n st.depth st.depthChild attach c.node.tBranchParent) hcl hced
    rcases childRel_cases hchild with ⟨e, r1, r2⟩ | ⟨T1, T2, P, r1, r2, f1, f2⟩
    · rw [r1, r2]
      split_ifs <;> exact resRel_err _ _ _ _
    rw [r1, r2]
    dsimp only
    by_cases c3 : st.depth < len - 1
    · rw [if_pos c3, if_pos c3]
      have hset : (cs.set st.depth T1).map LTree.canon =
          (cs'.set st.depth T2).map LTree.canon := by
        rw [set_canon k1 f1, set_canon k2 (f2.trans hc), hcs]
      have hre := reentry_sim hrec hs hset (hgk.set_kid k1 f1)
        (q := asParent n st.depth st.depthChild attach c.node.tBranchParent) rfl
      rcases resRel_cases hre with ⟨e, r3, r4⟩ | ⟨ka, kb, P2, r3, r4, g1, g2⟩
      · rw [r3, r4]
        exact resRel_err _ _ _ _
      · rw [r3, r4]
        exact resRel_ok _ (g1.trans (set_canon k1 f1)) (g2.trans (set_canon k1 f1))
    · rw [if_neg c3, if_neg c3]
      refine resRel_ok _ (set_canon k1 f1) ?_
      rw [set_canon k2 (f2.trans hc), hcs]

theorem gatStep_sim
    {rec : LTree → Option PhyloParent → Except Err (LTree × PhyloNode)} (hrec : GatSim rec)
    {n n' : LineageTreeNode} (hs : stripNode n = stripNode n') {cs cs' : List LTree}
    (hcs : cs.map LTree.canon = cs'.map LTree.canon) (hgk : GoodKidsC n cs)
    (len : Nat) (pp : Option PhyloParent) (st : ChainState) (attach : Nat) :
    ResRel n n' cs (gatStep rec n cs len pp st attach)
      (gatStep rec n' cs' len pp st attach) := by
  unfold gatStep
  rcases kidAt_canon hcs st.depthChild with ⟨k1, k2⟩ | ⟨c, c', k1, k2, hc⟩
  · rw [k1, k2]
    exact resRel_err _ _ _ _
  rw [k1, k2]
  dsimp only
  rw [tbp_of_canon hc]
  cases hb : branchLength c.node.tBranchParent pp with
  | error e => exact resRel_err _ _ _ _
  | ok dt =>
    dsimp only
    simp only [asParent_strip hs, phyloInner_strip hs]
    obtain ⟨hcl, hced⟩ := hgk c (kidAt_mem k1)
    have hchild := child_sim hrec hc
      (q := asParent n st.depth (st.depthChild + 1) attach c.node.tBranchParent) hcl hced
    rcases childRel_cases hchild with ⟨e, r1, r2⟩ | ⟨T1, T2, P, r1, r2, f1, f2⟩
    · rw [r1, r2]
      exact resRel_err _ _ _ _
    rw [r1, r2]
    dsimp only
    have hset : (cs.set st.depthChild T1).map LTree.canon =
        (cs'.set st.depthChild T2).map LTree.canon := by
      rw [set_canon k1 f1, set_canon k2 (f2.trans hc), hcs]
    have hgk1 := hgk.set_kid k1 f1
    by_cases c3 : st.depth = len - 1
    · rw [if_pos c3, if_pos c3]
      rcases kidAt_canon hset (st.depthChild + 1) with ⟨j1, j2⟩ | ⟨d, d', j1, j2, hd⟩
      · rw [j1, j2]
        exact resRel_err _ _ _ _
      rw [j1, j2]
      dsimp only
      obtain ⟨hdl, hded⟩ := hgk1 d (kidAt_mem j1)
      have hchild2 := child_sim hrec hd
        (q := asParent n st.depth (st.depthChild + 1) attach c.node.tBranchParent) hdl hded
      rcases childRel_cases hchild2 with ⟨e, r3, r4⟩ | ⟨U1, U2, P2, r3, r4, g1, g2⟩
      · rw [r3, r4]
        exact resRel_err _ _ _ _
      rw [r3, r4]
      refine resRel_ok _ ((set_canon j1 g1).trans (set_canon k1 f1)) ?_
      rw [set_canon j2 (g2.trans hd), set_canon k2 (f2.trans hc), hcs]
    · rw [if_neg c3, if_neg c3]
      have hre := reentry_sim hrec hs hset hgk1
        (q := asParent n st.depth (st.depthChild + 1) attach c.node.tBranchParent) rfl
      rcases resRel_cases hre with ⟨e, r3, r4⟩ | ⟨ka, kb, P2, r3, r4, g1, g2⟩
      · rw [r3, r4]
        exact resRel_err _ _ _ _
      · rw [r3, r4]
        exact resRel_ok _ (g1.trans (set_canon k1 f1)) (g2.trans (set_canon k1 f1))

theorem gatAttach_sim
    {rec : LTree → Option PhyloParent → Except Err (LTree × PhyloNode)} (hrec : GatSim rec)
    {n n' : LineageTreeNode} (hs : stripNode n = stripNode n') {cs cs' : List LTree}
    (hcs : cs.map LTree.canon = cs'.map LTree.canon) (hgk : GoodKidsC n cs)
    (len : Nat) (pp : Option PhyloParent) (st : ChainState) (attach : Nat) :
    ResRel n n' cs (gatAttach rec n cs len pp st attach)
      (gatAttach rec n' cs' len pp st attach) := by
  obtain ⟨_, _, _, _, hts, _, _⟩ := strip_fields hs
  unfold gatAttach
  rw [hts]
  cases hb : branchLength n.tSample pp with
  | error e => exact resRel_err _ _ _ _
  | ok dt =>
    dsimp only
    simp only [asParent_strip hs, phyloInner_strip hs, phyloLeaf_strip hs, hts]
    by_cases c3 : st.depthChild = len - 1
    · rw [if_pos c3, if_pos c3]
      rcases kidAt_canon hcs st.depthChild with ⟨k1, k2⟩ | ⟨c, c', k1, k2, hc⟩
      · rw [k1, k2]
        exact resRel_err _ _ _ _
      rw [k1, k2]
      dsimp only
      obtain ⟨hcl, hced⟩ := hgk c (kidAt_mem k1)
      have hchild := child_sim hrec hc
        (q := asParent n st.depth (st.depthChild + 1) attach n.tSample) hcl hced
      rcases childRel_cases hchild with ⟨e, r1, r2⟩ | ⟨T1, T2, P, r1, r2, f1, f2⟩
      · rw [r1, r2]
        exact resRel_err _ _ _ _
      rw [r1, r2]
      refine resRel_ok _ (set_canon k1 f1) ?_
      rw [set_canon k2 (f2.trans hc), hcs]
    · rw [if_neg c3, if_neg c3]
      have hre := reentry_sim hrec hs hcs hgk
        (q := asParent n st.depth st.depthChild attach n.tSample) rfl
      rcases resRel_cases hre with ⟨e, r3, r4⟩ | ⟨ka, kb, P2, r3, r4, g1, g2⟩
      · rw [r3, r4]
        exact resRel_err _ _ _ _
      · rw [r3, r4]
        exact resRel_ok _ g1 g2

theorem gatLeaf_sim {n n' : LineageTreeNode} (hs : stripNode n = stripNode n')
    {cs cs' : List LTree} (hcs : cs.map LTree.canon = cs'.map LTree.canon)
    (pp : Option PhyloParent) (st : ChainState) :
    ResRel n n' cs (gatLeaf n cs pp st) (gatLeaf n' cs' pp st) := by
  obtain ⟨_, _, _, hsam, hts, _, _⟩ := strip_fields hs
  unfold gatLeaf
  rw [hsam, hts]
  by_cases c : (!n.sampled) = true
  · rw [if_pos c, if_pos c]
    exact resRel_err _ _ _ _
  rw [if_neg c, if_neg c]
  cases hb : branchLength n.tSample pp with
  | error e => exact resRel_err _ _ _ _
  | ok dt =>
    dsimp only
    rw [phyloLeaf_strip hs]
    exact resRel_ok _ rfl hcs.symm

theorem gat_sim : ∀ fuel : Nat, GatSim (getAncestralTree fuel) := by
  intro fuel
  induction fuel with
  | zero =>
    intro n n' ks ks' pp _ _ _
    simp only [getAncestralTree]
    exact resRel_err _ _ _ _
  | succ f ih =>
    intro n n' ks ks' pp hs hcs hgk
    obtain ⟨_, _, _, hsam, hts, _, _⟩ := strip_fields hs
    have hlen : ks'.length = ks.length := by
      have := congrArg List.length hcs
      simp only [List.length_map, entryKids_length] at this
      exact this.symm
    rw [getAncestralTree, getAncestralTree]
    dsimp only
    rw [entryState_strip hs, hlen, hsam, hts, entryKids_code n pp ks,
      show (if 1 < ks.length ∧ (entryState n pp).depth = 0 then sortKids ks' else ks') =
        entryKids n pp ks' by rw [← hlen]; exact entryKids_code n pp ks']
    by_cases c0 : ks.length = 0
    · rw [if_pos c0, if_pos c0]
      exact gatLeaf_sim hs hcs pp _
    rw [if_neg c0, if_neg c0]
    by_cases c1 : n.sampled = true
    · rw [if_pos c1, if_pos c1]
      rw [attachDepth_canon n.tSample hcs.symm]
      split_ifs <;>
        first
        | exact gatAttach_sim ih hs hcs hgk _ pp _ _
        | exact gatStep_sim ih hs hcs hgk _ pp _ _
        | exact gatLate_sim ih hs hcs hgk _ pp _ _
    · rw [if_neg c1, if_neg c1]
      exact gatUnsampled_sim ih hs hcs hgk _ pp _

theorem gat_canon {T T' : LTree} (h : T.canon = T'.canon)
    (hed : T.canon.all edgeDistinctQ = true) (fuel : Nat) :
    (getAncestralTree fuel T none).map Prod.snd =
      (getAncestralTree fuel T' none).map Prod.snd := by
  obtain ⟨n, ks⟩ := T
  obtain ⟨n', ks'⟩ := T'
  obtain ⟨hs, hk⟩ := canon_strip h
  have e1 : ∀ l, entryKids n none l = sortKids l := fun l => rfl
  have hsim := gat_sim fuel n n' ks ks' none hs (by rw [e1, e1]; exact hk)
    (by rw [e1]; exact (goodKidsC_of_canon hed).sorted)
  rcases resRel_cases hsim with ⟨e, r1, r2⟩ | ⟨k1, k2, P, r1, r2, _, _⟩
  · rw [r1, r2]
  · rw [r1, r2]
    rfl

mutual
theorem weight_canon : ∀ T : LTree, T.canon.weight = T.weight
  | .mk n ks => by
    rw [canon_mk, LTree.weight, LTree.weight, weightList_perm (sortKids_perm _),
      (sortKids_perm _).length_eq, List.length_map, weightList_canon ks]
theorem weightList_canon : ∀ ks : List LTree,
    LTree.weightList (ks.map LTree.canon) = LTree.weightList ks
  | [] => rfl
  | k :: ks => by
    rw [List.map_cons, weightList_cons, weightList_cons, weight_canon k, weightList_canon ks]
end

mutual
theorem edge_canon : ∀ T : LTree, T.all edgeDistinctQ = true →
    T.canon.all edgeDistinctQ = true
  | .mk n ks, h => by
    simp only [LTree.all, Bool.and_eq_true] at h
    obtain ⟨h1, h2⟩ := h
    have ih := edgeList_canon ks h2
    rw [canon_mk]
    simp only [LTree.all, Bool.and_eq_true, allList_iff]
    simp only [edgeDistinctQ, List.all_eq_true, decide_eq_true_eq] at h1 ⊢
    refine ⟨fun k hk => ?_, fun k hk => ?_⟩
    · obtain ⟨c, hc, rfl⟩ := List.mem_map.mp ((sortKids_perm _).mem_iff.mp hk)
      rw [canon_lng]
      exact h1 c hc
    · obtain ⟨c, hc, rfl⟩ := List.mem_map.mp ((sortKids_perm _).mem_iff.mp hk)
      exact ih c hc
theorem edgeList_canon : ∀ ks : List LTree, LTree.allList edgeDistinctQ ks = true →
    ∀ c ∈ ks, c.canon.all edgeDistinctQ = true
  | [], _ => fun c hc => by cases hc
  | k :: ks, h => by
    simp only [LTree.allList, Bool.and_eq_true] at h
    intro c hc
    rcases List.mem_cons.mp hc with rfl | hc
    · exact edge_canon c h.1
    · exact edgeList_canon ks h.2 c hc
end

mutual
theorem Repr.unique_tree {c : Nat → Option LineageTreeNode} :
    ∀ (T : LTree) (a : Nat) (T' : LTree), Repr c a T → Repr c a T' → T = T'
  | .mk n ks, a, .mk n' ks', h, h' => by
    cases h with
    | mk h1 h2 =>
      cases h' with
      | mk g1 g2 =>
        rw [h1] at g1
        cases g1
        rw [ReprList.functionalList ks _ ks' h2 g2]
theorem ReprList.functionalList {c : Nat → Option LineageTreeNode} :
    ∀ (Ts : List LTree) (cs : List Nat) (Ts' : List LTree), ReprList c cs Ts →
      ReprList c cs Ts' → Ts = Ts'
  | [], _, _, h, h' => by
    cases h
    cases h'
    rfl
  | T :: Ts, _, _, h, h' => by
    cases h with
    | cons h1 h2 =>
      cases h' with
      | cons g1 g2 =>
        rw [Repr.unique_tree T _ _ h1 g1, ReprList.functionalList Ts _ _ h2 g2]
end

theorem ReprList.map_eq {c : Nat → Option LineageTreeNode} {β : Type} (G : LTree → β)
    (F : Nat → β) : ∀ {cs : List Nat} {Ts : List LTree}, ReprList c cs Ts →
      (∀ x ∈ cs, ∀ K, Repr c x K → G K = F x) → Ts.map G = cs.map F
  | [], _, h, _ => by cases h; rfl
  | x :: cs, _, h, hF => by
    cases h with
    | cons h1 h2 =>
      rw [List.map_cons, List.map_cons, hF x (List.mem_cons_self _ _) _ h1,
        ReprList.map_eq G F h2 (fun y hy K hK => hF y (List.mem_cons_of_mem _ hy) K hK)]

theorem ReprList.kid_of_mem {c : Nat → Option LineageTreeNode} :
    ∀ {cs : List Nat} {Ts : List LTree}, ReprList c cs Ts → ∀ x ∈ cs, ∃ K ∈ Ts, Repr c x K
  | [], _, h, x, hx => by cases hx
  | y :: cs, _, h, x, hx => by
    cases h with
    | cons h1 h2 =>
      rcases List.mem_cons.mp hx with rfl | hx
      · exact ⟨_, List.mem_cons_self _ _, h1⟩
      · obtain ⟨K, hK, hr⟩ := ReprList.kid_of_mem h2 x hx
        exact ⟨K, List.mem_cons_of_mem _ hK, hr⟩

theorem strip_node_of_kids {n1 n2 : LineageTreeNode} (h : stripKids n1 = stripKids n2) :
    stripNode n1 = stripNode n2 := by
  cases n1
  cases n2
  simp only [stripKids, LineageTreeNode.mk.injEq] at h
  simp only [stripNode, LineageTreeNode.mk.injEq]
  simp_all

theorem sortKids_perm_eq {l1 l2 : List LTree} (h : l1.Perm l2)
    (hd : (l1.map (fun k => k.node.tBranchParent)).Nodup) : sortKids l1 = sortKids l2 := by
  refine List.Perm.eq_of_sorted ?_ (sortKids_pairwise l1) (sortKids_pairwise l2)
    (((sortKids_perm l1).trans h).trans (sortKids_perm l2).symm)
  intro a b ha hb h1 h2
  have ha' : a ∈ l1 := (sortKids_perm l1).mem_iff.mp ha
  have hb' : b ∈ l1 := h.mem_iff.mpr ((sortKids_perm l2).mem_iff.mp hb)
  exact List.inj_on_of_nodup_map hd ha' hb' (le_antisymm h1 h2)

mutual
theorem canon_of_repr {c1 c2 : Nat → Option LineageTreeNode}
    (hstrip : ∀ a, (c1 a).map stripKids = (c2 a).map stripKids)
    (hperm : ∀ a n1 n2, c1 a = some n1 → c2 a = some n2 → n1.children.Perm n2.children) :
    ∀ (T1 : LTree) (a : Nat) (T2 : LTree), Repr c1 a T1 → Repr c2 a T2 →
      T1.all distinctQ = true → T1.canon = T2.canon
  | .mk n1 ks1, a, .mk n2 ks2, h, h', hd => by
    cases h with
    | mk h1 h2 =>
      cases h' with
      | mk g1 g2 =>
        simp only [LTree.all, Bool.and_eq_true] at hd
        obtain ⟨hd1, hd2⟩ := hd
        have ih := canonList_of_repr hstrip hperm ks1 hd2
        have hs : stripNode n1 = stripNode n2 := by
          have := hstrip a
          rw [h1, g1] at this
          simp only [Option.map_some', Option.some.injEq] at this
          exact strip_node_of_kids this
        have hp := hperm a n1 n2 h1 g1
        have hex : ∀ x, ∃ C : LTree, ∀ K, Repr c2 x K → K.canon = C := by
          intro x
          by_cases hx : ∃ K, Repr c2 x K
          · obtain ⟨K0, hK0⟩ := hx
            exact ⟨K0.canon, fun K hK => by rw [Repr.unique_tree K x K0 hK hK0]⟩
          · exact ⟨.mk n1 [], fun K hK => absurd ⟨K, hK⟩ hx⟩
        choose F hF using hex
        have e2 : ks2.map LTree.canon = n2.children.map F :=
          ReprList.map_eq LTree.canon F g2 (fun x _ K hK => hF x K hK)
        have e1 : ks1.map LTree.canon = n1.children.map F := by
          refine ReprList.map_eq LTree.canon F h2 (fun x hx K hK => ?_)
          obtain ⟨K2, _, hK2⟩ := g2.kid_of_mem x (hp.mem_iff.mp hx)
          obtain ⟨K1, hK1, hr1⟩ := h2.kid_of_mem x hx
          rw [Repr.unique_tree K x K1 hK hr1, ← hF x K2 hK2]
          exact ih K1 hK1 x K2 hr1 hK2
        rw [canon_mk, canon_mk, hs]
        congr 1
        refine sortKids_perm_eq (by rw [e1, e2]; exact hp.map F) ?_
        simp only [distinctQ, decide_eq_true_eq] at hd1
        rw [List.map_map]
        have : ((fun k => k.node.tBranchParent) ∘ LTree.canon) =
            (fun k : LTree => k.node.tBranchParent) := by
          funext k
          exact canon_tbp k
        rw [this]
        exact hd1
theorem canonList_of_repr {c1 c2 : Nat → Option LineageTreeNode}
    (hstrip : ∀ a, (c1 a).map stripKids = (c2 a).map stripKids)
    (hperm : ∀ a n1 n2, c1 a = some n1 → c2 a = some n2 → n1.children.Perm n2.children) :
    ∀ (Ts1 : List LTree), LTree.allList distinctQ Ts1 = true →
      ∀ K1 ∈ Ts1, ∀ (x : Nat) (K2 : LTree), Repr c1 x K1 → Repr c2 x K2 →
        K1.canon = K2.canon
  | [], _ => fun K1 hK1 => by cases hK1
  | T :: Ts, hd => by
    simp only [LTree.allList, Bool.and_eq_true] at hd
    intro K1 hK1 x K2 hr1 hr2
    rcases List.mem_cons.mp hK1 with rfl | hK1
    · exact canon_of_repr hstrip hperm K1 x K2 hr1 hr2 hd.1
    · exact canonList_of_repr hstrip hperm Ts hd.2 K1 hK1 x K2 hr1 hr2
end

theorem SameUpToKids.view {m1 m2 : Mem} (h : SameUpToKids m1 m2) (H : Nat → Bool)
    (nx : Nat) (R1 R2 : List Nat) (k1 k2 : Nat) :
    (∀ a, ((viewTree H m1 nx R1 k1).mem.cells a).map stripKids =
      ((viewTree H m2 nx R2 k2).mem.cells a).map stripKids) ∧
    ∀ a n1 n2, (viewTree H m1 nx R1 k1).mem.cells a = some n1 →
      (viewTree H m2 nx R2 k2).mem.cells a = some n2 → n1.children.Perm n2.children := by
  constructor
  · intro a
    rw [view_cells, view_cells]
    split_ifs
    · rfl
    · exact (h a).1
  · intro a n1 n2 h1 h2
    exact (h a).2 n1 n2 (view_live h1).2 (view_live h2).2

theorem Struct.view_self {s : LineageTree} (h : Struct none s) (k : Nat) :
    Struct none (viewTree (fun _ => false) s.mem s.mem.next s.roots k) :=
  Struct.congr h rfl rfl
    (fun b nb hb => ⟨nb, (view_live hb).2, rfl, rfl, rfl⟩)
    (fun b nb hb => ⟨nb, by rw [view_cells]; simpa using hb, rfl, rfl, rfl⟩)

/-- Claim C37 (order independence of `eliminateRedundantNodes`).  For every well-formed tree
with root `r` stored in the visible part of the memory (in particular every tree that
`extractSubTree` returns), every list `L` of sampled lineages and any two orders `ord1`,
`ord2` in which the set of leaves is iterated, both runs complete and return the same root,
and the two memories hold the same nodes with the same fields, `tBranchParent` included, up
to the order of the vectors `children`.  Consequently the two trees have the same
canonical form when sibling values of `tBranchParent` are pairwise distinct, and then
`getAncestralTree` builds the same phylogeny and `getSimpleNewick` the same string. -/
theorem elimination_order_independent (L : List Nat) (ord1 ord2 : List Nat → List Nat)
    (hord1 : ∀ l, (ord1 l).Perm l) (hord2 : ∀ l, (ord2 l).Perm l)
    (H : Nat → Bool) (nx fuel : Nat) (hf : nx < fuel) (m : Mem) (r k : Nat)
    (hs : Struct none (viewTree H m nx [r] k)) :
    ∃ m1 m2 r', eliminateRedundantNodes ord1 fuel m r L = .ok (m1, r') ∧
      eliminateRedundantNodes ord2 fuel m r L = .ok (m2, r') ∧ SameUpToKids m1 m2 ∧
      ∀ fuelT, nx ≤ fuelT + r' →
        ∃ T1 T2, toTree fuelT m1 r' = .ok T1 ∧ toTree fuelT m2 r' = .ok T2 ∧
          (T1.all distinctQ = true →
            T1.canon = T2.canon ∧ T1.weight = T2.weight ∧
            (getAncestralTree T1.weight T1 none).map Prod.snd =
              (getAncestralTree T2.weight T2 none).map Prod.snd ∧
            ∀ dtStr : Int → String,
              ((getAncestralTree T1.weight T1 none).map Prod.snd).bind (getSimpleNewick dtStr) =
              ((getAncestralTree T2.weight T2 none).map Prod.snd).bind
                (getSimpleNewick dtStr)) := by
  obtain ⟨m1, m2, r', k1, k2, h1, h2, h3, h4, h5, _⟩ :=
    elim_two_orders L ord1 ord2 hord1 hord2 H nx fuel hf m r k hs
  refine ⟨m1, m2, r', h1, h2, h3, fun fuelT hfT => ?_⟩
  obtain ⟨_, n1, hn1, _⟩ := (h4.rootSet r').mp (by rw [view_roots]; simp)
  obtain ⟨_, n2, hn2, _⟩ := (h5.rootSet r').mp (by rw [view_roots]; simp)
  obtain ⟨T1, e1, rep1⟩ := toTree_repr h4 fuelT r' n1 hn1 hfT
  obtain ⟨T2, e2, rep2⟩ := toTree_repr h5 fuelT r' n2 hn2 hfT
  refine ⟨T1, T2, e1, e2, fun hd => ?_⟩
  obtain ⟨v1, v2⟩ := h3.view H nx [r'] [r'] k1 k2
  have hc : T1.canon = T2.canon := canon_of_repr v1 v2 T1 r' T2 rep1 rep2 hd
  have hw : T1.weight = T2.weight := by
    rw [← weight_canon T1, hc, weight_canon T2]
  have hed : T1.canon.all edgeDistinctQ = true := edge_canon T1 (edge_of_repr h4 rep1)
  have hg : (getAncestralTree T1.weight T1 none).map Prod.snd =
      (getAncestralTree T2.weight T2 none).map Prod.snd := by
    rw [← hw]
    exact gat_canon hc hed T1.weight
  exact ⟨hc, hw, hg, fun dtStr => by rw [hg]⟩

theorem elimination_order_independent_witness :
    (∀ l : List Nat, (id l).Perm l) ∧ (∀ l : List Nat, l.reverse.Perm l) ∧
    Struct none (viewTree (fun _ => false) forkTree.mem 4 [0] 0) ∧
    ∃ m1 m2 r', eliminateRedundantNodes id 5 forkTree.mem 0 [3, 4] = .ok (m1, r') ∧
      eliminateRedundantNodes List.reverse 5 forkTree.mem 0 [3, 4] = .ok (m2, r') ∧
      SameUpToKids m1 m2 := by
  have hs : Struct none (viewTree (fun _ => false) forkTree.mem 4 [0] 0) := by
    obtain ⟨s, hrun, hinv⟩ := run_inv Inv.empty_inv (exampleOps.take 4) (by decide)
    have e : forkTree = s := by
      unfold forkTree
      rw [hrun]
    have hv := hinv.struct.view_self 0
    rw [← e] at hv
    exact hv
  obtain ⟨m1, m2, r', h1, h2, h3, _⟩ :=
    elimination_order_independent [3, 4] id List.reverse (fun l => List.Perm.refl l)
      (fun l => List.reverse_perm l) (fun _ => false) 4 5 (by decide) forkTree.mem 0 0 hs
  exact ⟨fun l => List.Perm.refl l, fun l => List.reverse_perm l, hs, m1, m2, r', h1, h2, h3⟩

theorem LinkK.unique_link {K : Nat → Prop} {c : Nat → Option LineageTreeNode} {b : Nat}
    {q : Option Nat} {t : Int} (h : LinkK K c b q t) :
    ∀ {q' : Option Nat} {t' : Int}, LinkK K c b q' t' → q' = q ∧ t' = t := by
  induction h with
  | @root b nb h1 h2 =>
    intro q' t' h'
    cases h' with
    | root g1 g2 => rw [h1] at g1; cases g1; exact ⟨rfl, rfl⟩
    | kept g1 g2 _ => rw [h1] at g1; cases g1; rw [h2] at g2; cases g2
    | skipRoot g1 g2 _ _ => rw [h1] at g1; cases g1; rw [h2] at g2; cases g2
    | skip g1 g2 _ _ => rw [h1] at g1; cases g1; rw [h2] at g2; cases g2
  | @kept b p nb h1 h2 h4 =>
    intro q' t' h'
    cases h' with
    | root g1 g2 => rw [h1] at g1; cases g1; rw [h2] at g2; cases g2
    | kept g1 g2 _ => rw [h1] at g1; cases g1; rw [h2] at g2; cases g2; exact ⟨rfl, rfl⟩
    | skipRoot g1 g2 g4 _ =>
      rw [h1] at g1; cases g1; rw [h2] at g2; cases g2
      exact absurd h4 g4
    | skip g1 g2 g4 _ =>
      rw [h1] at g1; cases g1; rw [h2] at g2; cases g2
      exact absurd h4 g4
  | @skipRoot b p nb t h1 h2 h4 _ ih =>
    intro q' t' h'
    cases h' with
    | root g1 g2 => rw [h1] at g1; cases g1; rw [h2] at g2; cases g2
    | kept g1 g2 g4 =>
      rw [h1] at g1; cases g1; rw [h2] at g2; cases g2
      exact absurd g4 h4
    | skipRoot g1 g2 g4 g5 => rw [h1] at g1; cases g1; exact ⟨rfl, rfl⟩
    | skip g1 g2 g4 g5 =>
      rw [h1] at g1; cases g1; rw [h2] at g2; cases g2
      have := (ih g5).1
      cases this
  | @skip b p g nb t h1 h2 h4 _ ih =>
    intro q' t' h'
    cases h' with
    | root g1 g2 => rw [h1] at g1; cases g1; rw [h2] at g2; cases g2
    | kept g1 g2 g4 =>
      rw [h1] at g1; cases g1; rw [h2] at g2; cases g2
      exact absurd g4 h4
    | skipRoot g1 g2 g4 g5 =>
      rw [h1] at g1; cases g1; rw [h2] at g2; cases g2
      have := (ih g5).1
      cases this
    | skip g1 g2 g4 g5 =>
      rw [h1] at g1; cases g1; rw [h2] at g2; cases g2
      exact ih g5

theorem LinkK.congr_k {K K' : Nat → Prop} {c : Nat → Option LineageTreeNode} {b : Nat}
    {q : Option Nat} {t : Int} (h : LinkK K c b q t) (hk : ∀ p, K p ↔ K' p) :
    LinkK K' c b q t := by
  induction h with
  | root h1 h2 => exact LinkK.root h1 h2
  | kept h1 h2 h3 => exact LinkK.kept h1 h2 ((hk _).mp h3)
  | skipRoot h1 h2 h3 _ ih => exact LinkK.skipRoot h1 h2 (fun h => h3 ((hk _).mpr h)) ih
  | skip h1 h2 h3 _ ih => exact LinkK.skip h1 h2 (fun h => h3 ((hk _).mpr h)) ih

theorem LinkK.live_link {K : Nat → Prop} {c : Nat → Option LineageTreeNode} {b : Nat}
    {q : Option Nat} {t : Int} (h : LinkK K c b q t) : ∃ nb, c b = some nb := by
  cases h with
  | root h1 _ => exact ⟨_, h1⟩
  | kept h1 _ _ => exact ⟨_, h1⟩
  | skipRoot h1 _ _ _ => exact ⟨_, h1⟩
  | skip h1 _ _ _ => exact ⟨_, h1⟩

theorem LinkK.target_kept {K : Nat → Prop} {c : Nat → Option LineageTreeNode} {b g : Nat}
    {q : Option Nat} {t : Int} (h : LinkK K c b q t) (hq : q = some g) : K g := by
  induction h with
  | root h1 h2 => cases hq
  | kept h1 h2 h3 => cases hq; exact h3
  | skipRoot h1 h2 h3 _ ih => cases hq
  | skip h1 h2 h3 _ ih => exact ih hq

theorem KS.sampled_below {m : Mem} {a : Nat} (h : KS m a) : HasSampled m a := by
  obtain ⟨na, ha, h | ⟨c1, c2, h1, _, _, ⟨z, nz, d1, d2, d3⟩, _⟩⟩ := h
  · exact ⟨a, na, Desc.refl, ha, h⟩
  · exact ⟨z, nz, (Desc.child ha h1).trans_desc d1, d2, d3⟩

theorem CopyTree.src_of {s V : LineageTree} {x : Nat} (h : CopyTree s x V) {b a : Nat}
    {nb na : LineageTreeNode} (hb : V.mem.cells b = some nb) (ha : s.mem.cells a = some na)
    (hl : nb.lng = na.lng) : Desc s.mem x a ∧ IsCopy na nb := by
  obtain ⟨a', na', h1, h2, h3⟩ := h.src b nb hb
  have : a' = a := h.hs.lngInj a' a na' na (by simp) (by simp) h2 ha (h3.1.symm.trans hl)
  subst this
  rw [ha] at h2
  cases h2
  exact ⟨h1, h3⟩

theorem CopyTree.par_none {s V : LineageTree} {x : Nat} (h : CopyTree s x V) {b a : Nat}
    {nb na : LineageTreeNode} (hb : V.mem.cells b = some nb) (ha : s.mem.cells a = some na)
    (hl : nb.lng = na.lng) (hp : nb.parent = none) : a = x ∧ na.parent = none := by
  obtain ⟨nx, h1, h2⟩ := h.top b nb hb hp
  obtain ⟨nx', h3, h4⟩ := h.hx
  rw [h1] at h3
  cases h3
  have : a = x := h.hs.lngInj a x na nx (by simp) (by simp) ha h1 (hl.symm.trans h2)
  subst this
  rw [ha] at h1
  cases h1
  exact ⟨rfl, h4⟩

theorem CopyTree.par_some {s V : LineageTree} {x : Nat} (h : CopyTree s x V) {b a p : Nat}
    {nb na : LineageTreeNode} (hb : V.mem.cells b = some nb) (ha : s.mem.cells a = some na)
    (hl : nb.lng = na.lng) (hp : nb.parent = some p) :
    ∃ np y ny, V.mem.cells p = some np ∧ na.parent = some y ∧ s.mem.cells y = some ny ∧
      np.lng = ny.lng ∧ b ∈ np.children ∧ a ∈ ny.children := by
  obtain ⟨_, np, hnp, hmem⟩ := h.hv.parentLive b nb p (by simp) hb hp
  obtain ⟨a', na', y, ny, h1, h2, h3, h4, h5⟩ := h.mirror b nb p np hb hp hnp
  have : a' = a := h.hs.lngInj a' a na' na (by simp) (by simp) h1 ha (h2.symm.trans hl)
  subst this
  rw [ha] at h1
  cases h1
  obtain ⟨_, ny', hy', hmem'⟩ := h.hs.parentLive a' na y (by simp) ha h3
  rw [h4] at hy'
  cases hy'
  exact ⟨np, y, ny, hnp, h3, h4, h5, hmem, hmem'⟩

theorem CopyTree.desc_src {s V : LineageTree} {x : Nat} (h : CopyTree s x V) {b l : Nat}
    (hd : Desc V.mem b l) : ∀ {a z : Nat} {nb na nl nz : LineageTreeNode},
      V.mem.cells b = some nb → s.mem.cells a = some na → nb.lng = na.lng →
      V.mem.cells l = some nl → s.mem.cells z = some nz → nl.lng = nz.lng →
      Desc s.mem a z := by
  induction hd with
  | refl =>
    intro a z nb na nl nz hb ha hl hl' hz hlz
    rw [hb] at hl'
    cases hl'
    have : a = z := h.hs.lngInj a z na nz (by simp) (by simp) ha hz (hl.symm.trans hlz)
    subst this
    exact Desc.refl
  | @step c' c'' nc' hd hc' hmem ih =>
    intro a z nb na nl nz hb ha hl hl' hz hlz
    obtain ⟨_, nc'', e1, e2⟩ := h.hv.childLive c' nc' c'' (by simp) hc' hmem
    rw [hl'] at e1
    cases e1
    obtain ⟨np, y, ny, f1, f2, f3, f4, _, f6⟩ := h.par_some hl' hz hlz e2
    rw [hc'] at f1
    cases f1
    exact Desc.step (ih hb ha hl hc' f3 f4) f3 f6

theorem CopyTree.src_sampled {s V : LineageTree} {x : Nat} (h : CopyTree s x V) {b a : Nat}
    {nb na : LineageTreeNode} (hb : V.mem.cells b = some nb) (ha : s.mem.cells a = some na)
    (hl : nb.lng = na.lng) : HasSampled s.mem a := by
  obtain ⟨l, nl, d1, d2, d3⟩ := leaf_exists h.hv V.mem.next b nb hb (by omega)
  obtain ⟨z, nz, _, g2, g3⟩ := h.src l nl d2
  have hsam := h.leaf l nl d2 d3
  exact ⟨z, nz, h.desc_src d1 hb ha hl d2 g2 g3.1, g2, by rw [← g3.2.2.2.2.1]; exact hsam⟩

theorem CopyTree.cover_up {s V : LineageTree} {x : Nat} (h : CopyTree s x V) {a z : Nat}
    (hd : Desc s.mem a z) : ∀ {na nz : LineageTreeNode} {bz : Nat} {nbz : LineageTreeNode},
      s.mem.cells a = some na → s.mem.cells z = some nz → V.mem.cells bz = some nbz →
      nbz.lng = nz.lng → ∃ b nb, V.mem.cells b = some nb ∧ nb.lng = na.lng := by
  induction hd with
  | refl =>
    intro na nz bz nbz ha hz hbz hl
    rw [ha] at hz
    cases hz
    exact ⟨bz, nbz, hbz, hl⟩
  | @step y z ny hd hy hmem ih =>
    intro na nz bz nbz ha hz hbz hl
    obtain ⟨_, nz', e1, e2⟩ := h.hs.childLive y ny z (by simp) hy hmem
    rw [hz] at e1
    cases e1
    cases hp : nbz.parent with
    | none =>
      have := (h.par_none hbz hz hl hp).2
      rw [e2] at this
      cases this
    | some p =>
      obtain ⟨np, y', ny', f1, f2, f3, f4, _, _⟩ := h.par_some hbz hz hl hp
      rw [e2] at f2
      cases f2
      rw [hy] at f3
      cases f3
      exact ih ha hy f1 f4

theorem CopyTree.cover_all {s V : LineageTree} {x : Nat} (h : CopyTree s x V) {a : Nat}
    {na : LineageTreeNode} (hd : Desc s.mem x a) (ha : s.mem.cells a = some na)
    (hsam : HasSampled s.mem a) : ∃ b nb, V.mem.cells b = some nb ∧ nb.lng = na.lng := by
  obtain ⟨z, nz, d1, d2, d3⟩ := hsam
  obtain ⟨bz, nbz, e1, e2⟩ := h.cover z nz (hd.trans_desc d1) d2 d3
  exact h.cover_up d1 ha d2 e1 e2
theorem two_of_length {l : List Nat} (h : 2 ≤ l.length) (hn : l.Nodup) :
    ∃ c1 c2, c1 ∈ l ∧ c2 ∈ l ∧ c1 ≠ c2 := by
  match l, h, hn with
  | c1 :: c2 :: rest, _, hn =>
    refine ⟨c1, c2, by simp, by simp, ?_⟩
    intro e
    subst e
    simp at hn

theorem CopyTree.good_iff {s V : LineageTree} {x : Nat} (h : CopyTree s x V) {L : List Nat}
    (hL2 : ∀ l, l ∈ L ↔ ∃ a na, Desc s.mem x a ∧ s.mem.cells a = some na ∧
      na.sampled = true ∧ na.lng = l)
    {b a : Nat} {nb na : LineageTreeNode} (hb : V.mem.cells b = some nb)
    (ha : s.mem.cells a = some na) (hl : nb.lng = na.lng) : Good L nb ↔ KS s.mem a := by
  obtain ⟨hda, hcopy⟩ := h.src_of hb ha hl
  constructor
  · intro hg
    refine ⟨na, ha, ?_⟩
    rcases list_shape nb.children with h0 | ⟨c, h1⟩ | h2
    · left
      rw [← hcopy.2.2.2.2.1]
      exact h.leaf b nb hb h0
    · left
      have hin : nb.lng ∈ L := by
        by_contra hnot
        exact hg ⟨by rw [h1]; rfl, hnot⟩
      obtain ⟨a', na', _, e2, e3, e4⟩ := (hL2 nb.lng).mp hin
      have : a' = a := h.hs.lngInj a' a na' na (by simp) (by simp) e2 ha (e4.trans hl)
      subst this
      rw [ha] at e2
      cases e2
      exact e3
    · right
      obtain ⟨c1, c2, m1, m2, hne⟩ := two_of_length h2 (h.hv.childNodup b nb (by simp) hb)
      have key : ∀ c, c ∈ nb.children → ∃ y ny nc, y ∈ na.children ∧ HasSampled s.mem y ∧
          s.mem.cells y = some ny ∧ V.mem.cells c = some nc ∧ nc.lng = ny.lng := by
        intro c hc
        obtain ⟨_, nc, e1, e2⟩ := h.hv.childLive b nb c (by simp) hb hc
        obtain ⟨y, ny, _, g2, g3⟩ := h.src c nc e1
        obtain ⟨np, a', na', f1, f2, f3, f4, _, f6⟩ := h.par_some e1 g2 g3.1 e2
        rw [hb] at f1
        cases f1
        have : a' = a := h.hs.lngInj a' a na' na (by simp) (by simp) f3 ha (f4.symm.trans hl)
        subst this
        rw [ha] at f3
        cases f3
        exact ⟨y, ny, nc, f6, h.src_sampled e1 g2 g3.1, g2, e1, g3.1⟩
      obtain ⟨y1, ny1, nc1, a1, a2, a3, a4, a5⟩ := key c1 m1
      obtain ⟨y2, ny2, nc2, b1, b2, b3, b4, b5⟩ := key c2 m2
      refine ⟨y1, y2, a1, b1, ?_, a2, b2⟩
      intro e
      subst e
      rw [a3] at b3
      cases b3
      exact hne (h.hv.lngInj c1 c2 nc1 nc2 (by simp) (by simp) a4 b4 (a5.trans b5.symm))
  · rintro ⟨na', ha', hk⟩ ⟨hlen, hnot⟩
    rw [ha] at ha'
    cases ha'
    rcases hk with hsam | ⟨y1, y2, m1, m2, hne, s1, s2⟩
    · exact hnot ((hL2 nb.lng).mpr ⟨a, na, hda, ha, hsam, hl.symm⟩)
    · have key : ∀ y, y ∈ na.children → HasSampled s.mem y → ∃ c nc ny, c ∈ nb.children ∧
          V.mem.cells c = some nc ∧ s.mem.cells y = some ny ∧ nc.lng = ny.lng := by
        intro y hy hsy
        obtain ⟨_, ny, e1, e2⟩ := h.hs.childLive a na y (by simp) ha hy
        obtain ⟨c, nc, g1, g2⟩ := h.cover_all (Desc.step hda ha hy) e1 hsy
        cases hp : nc.parent with
        | none =>
          have := (h.par_none g1 e1 g2 hp).2
          rw [e2] at this
          cases this
        | some p =>
          obtain ⟨np, a', na', f1, f2, f3, f4, f5, _⟩ := h.par_some g1 e1 g2 hp
          rw [e2] at f2
          cases f2
          rw [ha] at f3
          cases f3
          have : p = b := h.hv.lngInj p b np nb (by simp) (by simp) f1 hb (f4.trans hl.symm)
          subst this
          rw [hb] at f1
          cases f1
          exact ⟨c, nc, ny, f5, g1, e1, g2⟩
      obtain ⟨c1, nc1, ny1, a1, a2, a3, a4⟩ := key y1 m1 s1
      obtain ⟨c2, nc2, ny2, b1, b2, b3, b4⟩ := key y2 m2 s2
      obtain ⟨c, hc⟩ := List.length_eq_one.mp hlen
      rw [hc, List.mem_singleton] at a1 b1
      subst a1
      subst b1
      rw [a2] at b2
      cases b2
      exact hne (h.hs.lngInj y1 y2 ny1 ny2 (by simp) (by simp) a3 b3 (a4.symm.trans b4))

theorem CopyTree.link_src {s V : LineageTree} {x : Nat} (h : CopyTree s x V) {L : List Nat}
    (hL2 : ∀ l, l ∈ L ↔ ∃ a na, Desc s.mem x a ∧ s.mem.cells a = some na ∧
      na.sampled = true ∧ na.lng = l)
    {b : Nat} {q : Option Nat} {t : Int} (hl : Link L V b q t) :
    ∀ {a : Nat} {nb na : LineageTreeNode}, V.mem.cells b = some nb →
      s.mem.cells a = some na → nb.lng = na.lng →
      ∃ q', LinkK (KS s.mem) s.mem.cells a q' t ∧ ((q = none ∧ q' = none) ∨
        ∃ g g' ng ng', q = some g ∧ q' = some g' ∧ V.mem.cells g = some ng ∧
          s.mem.cells g' = some ng' ∧ ng.lng = ng'.lng) := by
  induction hl with
  | @root b nb0 h1 h2 =>
    intro a nb na hb ha hlng
    rw [h1] at hb
    cases hb
    obtain ⟨_, hcopy⟩ := h.src_of h1 ha hlng
    refine ⟨none, ?_, Or.inl ⟨rfl, rfl⟩⟩
    rw [hcopy.2.2.2.2.2.2.2.1]
    exact LinkK.root ha (h.par_none h1 ha hlng h2).2
  | @kept b p nb0 np h1 h2 h3 h4 =>
    intro a nb na hb ha hlng
    rw [h1] at hb
    cases hb
    obtain ⟨_, hcopy⟩ := h.src_of h1 ha hlng
    obtain ⟨np', y, ny, f1, f2, f3, f4, _, _⟩ := h.par_some h1 ha hlng h2
    rw [h3] at f1
    cases f1
    refine ⟨some y, ?_, Or.inr ⟨p, y, np, ny, rfl, rfl, h3, f3, f4⟩⟩
    rw [hcopy.2.2.2.2.2.2.2.1]
    exact LinkK.kept ha f2 ((h.good_iff hL2 h3 f3 f4).mp h4)
  | @skipRoot b p nb0 np t h1 h2 h3 h4 _ ih =>
    intro a nb na hb ha hlng
    rw [h1] at hb
    cases hb
    obtain ⟨_, hcopy⟩ := h.src_of h1 ha hlng
    obtain ⟨np', y, ny, f1, f2, f3, f4, _, _⟩ := h.par_some h1 ha hlng h2
    rw [h3] at f1
    cases f1
    obtain ⟨q', k1, k2⟩ := ih h3 f3 f4
    rcases k2 with ⟨_, rfl⟩ | ⟨g, _, _, _, e, _⟩
    · refine ⟨none, ?_, Or.inl ⟨rfl, rfl⟩⟩
      rw [hcopy.2.2.1]
      exact LinkK.skipRoot ha f2 (fun hk => h4 ((h.good_iff hL2 h3 f3 f4).mpr hk)) k1
    · cases e
  | @skip b p g nb0 np t h1 h2 h3 h4 _ ih =>
    intro a nb na hb ha hlng
    rw [h1] at hb
    cases hb
    obtain ⟨np', y, ny, f1, f2, f3, f4, _, _⟩ := h.par_some h1 ha hlng h2
    rw [h3] at f1
    cases f1
    obtain ⟨q', k1, k2⟩ := ih h3 f3 f4
    rcases k2 with ⟨e, _⟩ | ⟨g0, g', ng, ng', e1, rfl, e3, e4, e5⟩
    · cases e
    · cases e1
      exact ⟨some g', LinkK.skip ha f2 (fun hk => h4 ((h.good_iff hL2 h3 f3 f4).mpr hk)) k1,
        Or.inr ⟨_, g', ng, ng', rfl, rfl, e3, e4, e5⟩⟩

theorem copy_tree {s : LineageTree} {m m' : Mem} {a : Nat} (hs : Struct none s)
    (post : CopyPost s a none m m') {nx : LineageTreeNode} (hx : s.mem.cells a = some nx)
    (hpar : nx.parent = none) :
    CopyTree s a (viewTree (outside m.next m'.next) m' m'.next [m.next] 0) where
  hs := hs
  hv := copy_view post 0
  hx := ⟨nx, hx, hpar⟩
  src := fun b nb hb => copy_src post hb
  top := fun b nb hb hp => by
    rcases copy_cases post hb with ⟨_, n, h1, h2, _⟩ | ⟨_, _, ok⟩
    · exact ⟨n, h1, h2.1⟩
    · obtain ⟨p, _, e, _⟩ := ok.up
      rw [hp] at e
      cases e
  mirror := fun b nb p np hb hp hnp => by
    rcases copy_cases post hb with ⟨_, n, _, _, h3, _⟩ | ⟨_, _, ok⟩
    · rw [hp] at h3
      cases h3
    · obtain ⟨x, nx, y, ny, f1, f2, f3, f4, f5, _⟩ := ok.mirror p np hp (win_live.mp hnp).2
      exact ⟨x, nx, y, ny, f1, f2.1, f3, f4, f5⟩
  leaf := fun b nb hb hc => copy_leaf post hb hc
  cover := fun x nx hd hx hsam => by
    obtain ⟨b, nb, h1, h2, _⟩ := copy_cover post [m.next] 0 hd hx hsam
    exact ⟨b, nb, h1, h2⟩
theorem subSampleRoot_facts (ord : List Nat → List Nat) (hord : ∀ l, (ord l).Perm l)
    {s : LineageTree} {m : Mem} (hm : SrcInv s m) (hfl : FlagsSound s m) {x : Nat}
    {nx : LineageTreeNode} (hx : s.mem.cells x = some nx) (hpar : nx.parent = none)
    {m' : Mem} {r : Nat} (hrun : subSampleRoot ord m x = .ok (m', some r)) :
    RedFacts s x m' m.next m'.next r := by
  have hs := hm.struct
  obtain ⟨L, hL1, hL2, hL3⟩ := getSampledLineages_spec hm hx hpar
  by_cases hsam : HasSampled s.mem x
  swap
  · have : ¬ L.length > 0 := fun h => hsam (hL3.mp h)
    simp only [subSampleRoot, hL1, this, if_false] at hrun
    cases hrun
  have hlen : L.length > 0 := hL3.mpr hsam
  have hL : ∀ b nb, s.mem.cells b = some nb → nb.lng ∈ L → nb.sampled = true := by
    intro b nb hb hl
    obtain ⟨b', nb', _, e2, e3, e4⟩ := (hL2 nb.lng).mp hl
    have := hs.lngInj b' b nb' nb (by simp) (by simp) e2 hb e4
    subst this
    rw [hb] at e2
    cases e2
    exact e3
  obtain ⟨m1, f, hmark, mpost, _⟩ := mark_spec hs L hL (m.next + 1) m x hm ⟨nx, hx⟩
    (by have := hm.next_le; omega)
    (fun b nb hd hb hn => by
      obtain ⟨nb0, hb0⟩ := Desc.live hs hx hd
      exact hfl b nb (by rw [hb0]; simp) hb hn)
  have hm1 : SrcInv s m1 := hm.only_needed mpost.only
  have hn1 : m1.next = m.next := mpost.only.1
  obtain ⟨m2, hext, post⟩ := extract_spec hs (m1.next + 1) m1 x none hm1 mpost.flags
    ⟨nx, hx⟩ hsam (by have := hm1.next_le; omega)
  have hlt := post.next_lt
  have hs0 := copy_view post 0
  obtain ⟨m3, r', k3, helim, e2, e3, e4, e5, e6, e7⟩ :=
    elim_links L ord hord (outside m1.next m2.next) m2.next (m2.next + 1) (by omega) m2
      m1.next 0 hs0
  simp only [subSampleRoot, hL1, hlen, if_true, hmark, hext, helim] at hrun
  simp only [Except.ok.injEq, Prod.mk.injEq, Option.some.injEq] at hrun
  obtain ⟨rfl, rfl⟩ := hrun
  have ct := copy_tree hs post hx hpar
  rw [← hn1, e2]
  have e4' := e4.view_k 0
  have hgood0 : ∀ b nb nb0, (viewTree (outside m1.next m2.next) m3 m2.next [r'] 0).mem.cells b
      = some nb → (viewTree (outside m1.next m2.next) m2 m2.next [m1.next] 0).mem.cells b
      = some nb0 → SameData nb0 nb → nb.children.length = nb0.children.length →
      Good L nb0 := by
    intro b nb nb0 hb _ h2 h3 hbad
    exact e7 b nb hb ⟨h3.trans hbad.1, by rw [h2.1]; exact hbad.2⟩
  refine ⟨?_, ?_⟩
  · intro b nb hb
    obtain ⟨nb0, h1, h2, h3⟩ := e5.surv b nb hb
    obtain ⟨a, na, g1, g2, g3⟩ := ct.src b nb0 h1
    have hk : KS s.mem a := (ct.good_iff hL2 h1 g2 g3.1).mp (hgood0 b nb nb0 hb h1 h2 h3)
    have hlink := e6 b _ _ (link_of_good e4 e7 hb)
    obtain ⟨q', k1, k2⟩ := ct.link_src hL2 hlink h1 g2 g3.1
    refine ⟨a, na, q', ⟨g1, hk⟩, g2, CopyData.of_copy g3 h2, ?_, k1, ?_⟩
    · rw [h2.2.2.2.2.2.2.2]
      exact g3.2.2.2.2.2.2.2.2
    · rcases k2 with ⟨c1, c2⟩ | ⟨g, g', ng, ng', c1, c2, c3, c4, c5⟩
      · exact Or.inl ⟨c1, c2⟩
      · obtain ⟨_, np, hnp, _⟩ := e4'.parentLive b nb g (by simp) hb c1
        obtain ⟨np0, d1, d2, _⟩ := e5.surv g np hnp
        rw [c3] at d1
        cases d1
        exact Or.inr ⟨g, np, g', ng', c1, c2, hnp, c4, d2.1.trans c5⟩
  · rintro a na ⟨hd, hk⟩ ha
    obtain ⟨b, nb0, h1, h2⟩ := ct.cover_all hd ha hk.sampled_below
    have hg0 : Good L nb0 := (ct.good_iff hL2 h1 ha h2).mpr hk
    cases h3 : (viewTree (outside m1.next m2.next) m3 m2.next [r'] k3).mem.cells b with
    | none => exact absurd (e5.gone b nb0 h1 h3) hg0
    | some nb =>
      obtain ⟨nb1, g1, g2, _⟩ := e5.surv b nb h3
      rw [h1] at g1
      cases g1
      exact ⟨b, nb, h3, g2.1.trans h2⟩

theorem RedFacts.frame_facts {s : LineageTree} {x : Nat} {m m' : Mem} {lo hi r : Nat}
    (h : RedFacts s x m lo hi r)
    (hsame : ∀ a, lo ≤ a → a < hi → m'.cells a = m.cells a) :
    RedFacts s x m' lo hi r := by
  have hv : viewTree (outside lo hi) m' hi [r] 0 = viewTree (outside lo hi) m hi [r] 0 := by
    simp only [viewTree, LineageTree.mk.injEq, Mem.mk.injEq, and_true, true_and]
    funext a
    by_cases h1 : outside lo hi a = true
    · rw [if_pos h1, if_pos h1]
    · rw [if_neg h1, if_neg h1]
      have h2 := outside_false.mp (by simpa using h1)
      exact hsame a h2.1 h2.2
  unfold RedFacts
  rw [hv]
  exact h
theorem subSampleRoot_none {ord : List Nat → List Nat} {m m' : Mem} {x : Nat}
    (h : subSampleRoot ord m x = .ok (m', none)) : m' = m := by
  simp only [subSampleRoot] at h
  split at h
  · cases h
  · split at h
    · split at h
      · cases h
      · split at h
        · cases h
        · split at h
          · cases h
          · cases h
    · simp only [Except.ok.injEq, Prod.mk.injEq, and_true] at h
      exact h.symm

theorem subSampleLoop_wins (ord : List Nat → List Nat) (hord : ∀ l, (ord l).Perm l)
    {s : LineageTree} :
    ∀ (roots : List Nat) (m : Mem) (res : List Nat), SrcInv s m → FlagsSound s m →
      (∀ x ∈ roots, ∃ nx, s.mem.cells x = some nx ∧ nx.parent = none) →
      ∃ (m' : Mem) (W : List Win), subSampleLoop ord m res roots = .ok (m', res ++ W.map Win.r) ∧
        SrcInv s m' ∧
        FlagsSound s m' ∧ m.next ≤ m'.next ∧
        (∀ a, a < m.next → (s.mem.next ≤ a ∨ s.mem.cells a = none) →
          m'.cells a = m.cells a) ∧
        (W.map Win.x).Sublist roots ∧
        (∀ x ∈ roots, x ∈ W.map Win.x ↔ HasSampled s.mem x) ∧
        (∀ w ∈ W, WinOK s m' w ∧ m.next ≤ w.lo ∧ w.hi ≤ m'.next) ∧
        (∀ b, m.next ≤ b → b < m'.next → ∃ w ∈ W, w.lo ≤ b ∧ b < w.hi) := by
  intro roots
  induction roots with
  | nil =>
    intro m res hm hfl _
    exact ⟨m, [], by simp [subSampleLoop], hm, hfl, le_refl _, fun _ _ _ => rfl,
      List.Sublist.refl _, fun x hx => (by cases hx), fun w hw => (by cases hw),
      fun b h1 h2 => (by omega)⟩
  | cons x rest ih =>
    intro m res hm hfl hroots
    obtain ⟨nx, hx, hpar⟩ := hroots x (List.mem_cons_self _ _)
    obtain ⟨m1, r1, h1, hm1, hfl1, hn1, hsame, hcase⟩ :=
      subSampleRoot_spec ord hord hm hfl hx hpar
    rcases hcase with ⟨rfl, hno⟩ | ⟨r, rfl, hyes, hwin⟩
    · have hmm : m1 = m := subSampleRoot_none h1
      subst hmm
      obtain ⟨m', W, e1, e2, e3, e4, e5, e6, e7, e8, e9⟩ := ih m1 res hm1 hfl1
        (fun y hy => hroots y (List.mem_cons_of_mem _ hy))
      refine ⟨m', W, ?_, e2, e3, e4, e5, e6.cons x, ?_, e8, e9⟩
      · simp only [subSampleLoop, h1]
        exact e1
      · intro y hy
        rcases List.mem_cons.mp hy with rfl | hy
        · constructor
          · intro hsel
            exact ((e7 y (e6.subset hsel)).mp hsel)
          · intro h
            exact absurd h hno
        · exact e7 y hy
    · have hfacts := subSampleRoot_facts ord hord hm hfl hx hpar h1
      obtain ⟨m', W, e1, e2, e3, e4, e5, e6, e7, e8, e9⟩ := ih m1 (res ++ [r]) hm1 hfl1
        (fun y hy => hroots y (List.mem_cons_of_mem _ hy))
      have hfr : ∀ a, m.next ≤ a → a < m1.next → m'.cells a = m1.cells a := by
        intro a h2 h3
        exact e5 a h3 (Or.inl (le_trans hm.next_le h2))
      refine ⟨m', ⟨x, r, m.next, m1.next⟩ :: W, ?_, e2, e3, le_trans hn1 e4, ?_,
        e6.cons₂ x, ?_, ?_, ?_⟩
      · simp only [subSampleLoop, h1]
        rw [e1, List.map_cons, List.append_assoc]
        rfl
      · intro a h2 h3
        exact (e5 a (lt_of_lt_of_le h2 hn1) h3).trans (hsame a h2 h3)
      · intro y hy
        rw [List.map_cons, List.mem_cons]
        rcases List.mem_cons.mp hy with rfl | hy
        · exact ⟨fun _ => hyes, fun _ => Or.inl rfl⟩
        · constructor
          · rintro (rfl | h)
            · exact hyes
            · exact (e7 y hy).mp h
          · intro h
            exact Or.inr ((e7 y hy).mpr h)
      · intro w hw
        rcases List.mem_cons.mp hw with rfl | hw
        · exact ⟨⟨hwin.frame_win e4 (fun a h2 h3 => e5 a h3 (Or.inl h2)),
            hfacts.frame_facts hfr⟩, le_refl _, e4⟩
        · obtain ⟨g1, g2, g3⟩ := e8 w hw
          exact ⟨g1, le_trans hn1 g2, g3⟩
      · intro b h2 h3
        by_cases hb : b < m1.next
        · exact ⟨_, List.mem_cons_self _ _, h2, hb⟩
        · obtain ⟨w, g1, g2⟩ := e9 b (by omega) h3
          exact ⟨w, List.mem_cons_of_mem _ g1, g2⟩
theorem canonLngList_map (ks : List LTree) :
    LTree.canonLngList ks = ks.map LTree.canonLng := by
  induction ks with
  | nil => rfl
  | cons k ks ih => simp [LTree.canonLngList, ih]

theorem canonLng_mk (n : LineageTreeNode) (ks : List LTree) :
    (LTree.mk n ks).canonLng = .mk (stripNode n) (sortKidsLng (ks.map LTree.canonLng)) := by
  rw [LTree.canonLng, canonLngList_map]

theorem canonLng_node (T : LTree) : T.canonLng.node = stripNode T.node := by
  obtain ⟨n, ks⟩ := T
  rw [canonLng_mk]
  rfl

theorem canonLng_lng (T : LTree) : T.canonLng.node.lng = T.node.lng := by
  rw [canonLng_node]
  rfl

theorem sortKidsLng_perm (ks : List LTree) : (sortKidsLng ks).Perm ks :=
  List.perm_insertionSort kidLeLng ks

theorem sortKidsLng_pairwise (ks : List LTree) : (sortKidsLng ks).Pairwise kidLeLng := by
  have htot : IsTotal LTree kidLeLng := ⟨fun a b => le_total _ _⟩
  have htr : IsTrans LTree kidLeLng := ⟨fun a b c h1 h2 => le_trans h1 h2⟩
  exact List.sorted_insertionSort kidLeLng ks

theorem sortKidsLng_perm_eq {l1 l2 : List LTree} (h : l1.Perm l2)
    (hd : (l1.map (fun k => k.node.lng)).Nodup) : sortKidsLng l1 = sortKidsLng l2 := by
  refine List.Perm.eq_of_sorted ?_ (sortKidsLng_pairwise l1) (sortKidsLng_pairwise l2)
    (((sortKidsLng_perm l1).trans h).trans (sortKidsLng_perm l2).symm)
  intro a b ha hb h1 h2
  have ha' : a ∈ l1 := (sortKidsLng_perm l1).mem_iff.mp ha
  have hb' : b ∈ l1 := h.mem_iff.mpr ((sortKidsLng_perm l2).mem_iff.mp hb)
  exact List.inj_on_of_nodup_map hd ha' hb' (le_antisymm h1 h2)

theorem lngAt_some {c : Nat → Option LineageTreeNode} {a : Nat} {n : LineageTreeNode}
    (h : c a = some n) : lngAt c a = n.lng := by
  simp only [lngAt, h]

theorem stripNode_lng {n n' : LineageTreeNode} (h : stripNode n' = stripNode n) :
    n'.lng = n.lng := by
  have : (stripNode n').lng = (stripNode n).lng := by rw [h]
  exact this

/-- Core of the comparison of two forests: two lists of trees, stored at nodes that carry
the same lineages, have the same canonical forms up to their order once the trees stored at
the same lineage have the same canonical form. -/
theorem canonLng_kids {c1 c2 : Nat → Option LineageTreeNode} (t1 : TreeStore c1)
    (t2 : TreeStore c2) {cs1 cs2 : List Nat} {ks1 ks2 : List LTree}
    (r1 : ReprList c1 cs1 ks1) (r2 : ReprList c2 cs2 ks2)
    (n1 : cs1.Nodup) (n2 : cs2.Nodup)
    (l1 : ∀ x ∈ cs1, ∃ nx, c1 x = some nx) (l2 : ∀ x ∈ cs2, ∃ nx, c2 x = some nx)
    (h12 : ∀ x ∈ cs1, ∃ x' ∈ cs2, lngAt c2 x' = lngAt c1 x)
    (h21 : ∀ x' ∈ cs2, ∃ x ∈ cs1, lngAt c1 x = lngAt c2 x')
    (ih : ∀ K1 ∈ ks1, ∀ (x x' : Nat) (K2 : LTree), Repr c1 x K1 → Repr c2 x' K2 →
      lngAt c1 x = lngAt c2 x' → K1.canonLng = K2.canonLng) :
    (ks1.map LTree.canonLng).Perm (ks2.map LTree.canonLng) ∧
      sortKidsLng (ks1.map LTree.canonLng) = sortKidsLng (ks2.map LTree.canonLng) := by
  have inj1 : ∀ x ∈ cs1, ∀ y ∈ cs1, lngAt c1 x = lngAt c1 y → x = y := by
    intro x hx y hy h
    obtain ⟨nx, ex⟩ := l1 x hx
    obtain ⟨ny, ey⟩ := l1 y hy
    rw [lngAt_some ex, lngAt_some ey] at h
    exact t1.lngInj x y nx ny ex ey h
  have inj2 : ∀ x ∈ cs2, ∀ y ∈ cs2, lngAt c2 x = lngAt c2 y → x = y := by
    intro x hx y hy h
    obtain ⟨nx, ex⟩ := l2 x hx
    obtain ⟨ny, ey⟩ := l2 y hy
    rw [lngAt_some ex, lngAt_some ey] at h
    exact t2.lngInj x y nx ny ex ey h
  have hex : ∀ l : Nat, ∃ C : LTree, ∀ x ∈ cs2, ∀ K, Repr c2 x K → lngAt c2 x = l →
      K.canonLng = C := by
    intro l
    by_cases hex0 : ∃ x ∈ cs2, ∃ K, Repr c2 x K ∧ lngAt c2 x = l
    · obtain ⟨x0, hx0, K0, hK0, hl0⟩ := hex0
      refine ⟨K0.canonLng, fun x hx K hK hl => ?_⟩
      have : x = x0 := inj2 x hx x0 hx0 (hl.trans hl0.symm)
      subst this
      rw [Repr.unique_tree K x K0 hK hK0]
    · exact ⟨.mk (mkNode 0 0 0 false none) [], fun x hx K hK hl =>
        absurd ⟨x, hx, K, hK, hl⟩ hex0⟩
  choose F hF using hex
  have e2 : ks2.map LTree.canonLng = cs2.map (fun x => F (lngAt c2 x)) :=
    ReprList.map_eq LTree.canonLng (fun x => F (lngAt c2 x)) r2
      (fun x hx K hK => hF _ x hx K hK rfl)
  have e1 : ks1.map LTree.canonLng = cs1.map (fun x => F (lngAt c1 x)) := by
    refine ReprList.map_eq LTree.canonLng (fun x => F (lngAt c1 x)) r1 (fun x hx K hK => ?_)
    obtain ⟨x', hx', hl⟩ := h12 x hx
    obtain ⟨K2, _, hK2⟩ := r2.kid_of_mem x' hx'
    obtain ⟨K1, hK1, hr1⟩ := r1.kid_of_mem x hx
    rw [Repr.unique_tree K x K1 hK hr1, ih K1 hK1 x x' K2 hr1 hK2 hl.symm]
    show K2.canonLng = F (lngAt c1 x)
    rw [← hl]
    exact hF _ x' hx' K2 hK2 rfl
  have hp : (cs1.map (lngAt c1)).Perm (cs2.map (lngAt c2)) := by
    refine (List.perm_ext_iff_of_nodup (List.Nodup.map_on inj1 n1)
      (List.Nodup.map_on inj2 n2)).2 (fun l => ?_)
    simp only [List.mem_map]
    constructor
    · rintro ⟨x, hx, rfl⟩
      obtain ⟨x', hx', hl⟩ := h12 x hx
      exact ⟨x', hx', hl⟩
    · rintro ⟨x', hx', rfl⟩
      obtain ⟨x, hx, hl⟩ := h21 x' hx'
      exact ⟨x, hx, hl⟩
  have hperm : (ks1.map LTree.canonLng).Perm (ks2.map LTree.canonLng) := by
    rw [e1, e2]
    have := hp.map F
    rw [List.map_map, List.map_map] at this
    exact this
  refine ⟨hperm, sortKidsLng_perm_eq hperm ?_⟩
  rw [List.map_map]
  have e3 : ks1.map ((fun k => k.node.lng) ∘ LTree.canonLng) = cs1.map (lngAt c1) :=
    ReprList.map_eq _ (lngAt c1) r1 (fun x _ K hK => by
      show K.canonLng.node.lng = lngAt c1 x
      rw [canonLng_lng, lngAt_some hK.node_eq])
  rw [e3]
  exact List.Nodup.map_on inj1 n1

theorem match_child {c1 c2 : Nat → Option LineageTreeNode} (t1 : TreeStore c1)
    (t2 : TreeStore c2) (h : Match c1 c2) {b1 b2 : Nat} {n1 n2 : LineageTreeNode}
    (h1 : c1 b1 = some n1) (h2 : c2 b2 = some n2) (hl : n1.lng = n2.lng) :
    ∀ x ∈ n1.children, ∃ x' ∈ n2.children, lngAt c2 x' = lngAt c1 x := by
  intro x hx
  obtain ⟨nx, e1, e2⟩ := t1.childLive b1 n1 x h1 hx
  obtain ⟨x', nx', f1, f2, _, f4⟩ := h x nx e1
  obtain ⟨p', np', g1, g2, g3⟩ := f4 b1 n1 e2 h1
  have : p' = b2 := t2.lngInj p' b2 np' n2 g2 h2 (g3.trans hl)
  subst this
  obtain ⟨np, k1, k2⟩ := t2.parentLive x' nx' p' f1 g1
  rw [h2] at k1
  cases k1
  exact ⟨x', k2, by rw [lngAt_some f1, lngAt_some e1]; exact stripNode_lng f2⟩

mutual
/-- Two trees stored in matching forests at nodes of the same lineage have the same
canonical form. -/
theorem canonLng_of_match {c1 c2 : Nat → Option LineageTreeNode} (t1 : TreeStore c1)
    (t2 : TreeStore c2) (h12 : Match c1 c2) (h21 : Match c2 c1) :
    ∀ (T1 : LTree) (b1 b2 : Nat) (T2 : LTree), Repr c1 b1 T1 → Repr c2 b2 T2 →
      lngAt c1 b1 = lngAt c2 b2 → T1.canonLng = T2.canonLng
  | .mk n1 ks1, b1, b2, .mk n2 ks2, h, h', hl => by
    cases h with
    | mk h1 h2 =>
      cases h' with
      | mk g1 g2 =>
        rw [lngAt_some h1, lngAt_some g1] at hl
        have ih := canonLngList_of_match t1 t2 h12 h21 ks1
        have hs : stripNode n1 = stripNode n2 := by
          obtain ⟨b', nb', f1, f2, _, _⟩ := h12 b1 n1 h1
          have : b' = b2 := t2.lngInj b' b2 nb' n2 f1 g1 ((stripNode_lng f2).trans hl)
          subst this
          rw [g1] at f1
          cases f1
          exact f2.symm
        rw [canonLng_mk, canonLng_mk, hs]
        congr 1
        exact (canonLng_kids t1 t2 h2 g2 (t1.childNodup b1 n1 h1) (t2.childNodup b2 n2 g1)
          (fun x hx => by
            obtain ⟨nx, e, _⟩ := t1.childLive b1 n1 x h1 hx
            exact ⟨nx, e⟩)
          (fun x hx => by
            obtain ⟨nx, e, _⟩ := t2.childLive b2 n2 x g1 hx
            exact ⟨nx, e⟩)
          (match_child t1 t2 h12 h1 g1 hl)
          (match_child t2 t1 h21 g1 h1 hl.symm) ih).2
theorem canonLngList_of_match {c1 c2 : Nat → Option LineageTreeNode} (t1 : TreeStore c1)
    (t2 : TreeStore c2) (h12 : Match c1 c2) (h21 : Match c2 c1) :
    ∀ (Ts1 : List LTree), ∀ K1 ∈ Ts1, ∀ (x x' : Nat) (K2 : LTree), Repr c1 x K1 →
      Repr c2 x' K2 → lngAt c1 x = lngAt c2 x' → K1.canonLng = K2.canonLng
  | [] => fun K1 hK1 => by cases hK1
  | T :: Ts => by
    intro K1 hK1 x x' K2 hr1 hr2 hl
    rcases List.mem_cons.mp hK1 with rfl | hK1
    · exact canonLng_of_match t1 t2 h12 h21 K1 x x' K2 hr1 hr2 hl
    · exact canonLngList_of_match t1 t2 h12 h21 Ts K1 hK1 x x' K2 hr1 hr2 hl
end
theorem stripNode_eq {n n' n'' : LineageTreeNode} (h : CopyData n n') (h' : CopyData n n'')
    (hn : n'.needed = n''.needed) (ht : n'.tBranchParent = n''.tBranchParent) :
    stripNode n' = stripNode n'' := by
  obtain ⟨a1, a2, a3, a4, a5, a6, a7⟩ := h
  obtain ⟨b1, b2, b3, b4, b5, b6, b7⟩ := h'
  cases n'
  cases n''
  simp only [stripNode, LineageTreeNode.mk.injEq] at *
  simp_all

theorem Realises.match_of {cs c1 c2 : Nat → Option LineageTreeNode} {S K : Nat → Prop}
    (hinj : ∀ a b na nb, cs a = some na → cs b = some nb → na.lng = nb.lng → a = b)
    (f1 : Realises cs S K c1) (f2 : Realises cs S K c2) : Match c1 c2 := by
  intro b nb hb
  obtain ⟨a, na, q, hS, ha, hcd, hnd, hlk, hpar⟩ := f1.node b nb hb
  obtain ⟨b', nb', hb', hl'⟩ := f2.cover a na hS ha
  obtain ⟨a', na', q', _, ha', hcd', hnd', hlk', hpar'⟩ := f2.node b' nb' hb'
  have : a' = a := hinj a' a na' na ha' ha (hcd'.1.symm.trans hl')
  subst this
  rw [ha] at ha'
  cases ha'
  obtain ⟨e1, e2⟩ := hlk.unique_link hlk'
  subst e1
  refine ⟨b', nb', hb', stripNode_eq hcd' hcd (hnd'.trans hnd.symm) e2, ?_, ?_⟩
  · intro hp
    rcases hpar with ⟨_, rfl⟩ | ⟨p, _, _, _, e, _⟩
    · rcases hpar' with ⟨h, _⟩ | ⟨_, _, _, _, _, e, _⟩
      · exact h
      · cases e
    · rw [hp] at e
      cases e
  · intro p np hp hnp
    rcases hpar with ⟨e, _⟩ | ⟨p0, np0, g, ng, e1, rfl, e3, e4, e5⟩
    · rw [hp] at e
      cases e
    · rw [hp] at e1
      cases e1
      rw [hnp] at e3
      cases e3
      rcases hpar' with ⟨_, e⟩ | ⟨p', np', g', ng', k1, k2, k3, k4, k5⟩
      · cases e
      · cases k2
        rw [e4] at k4
        cases k4
        exact ⟨p', np', k1, k3, k5.trans e5.symm⟩

theorem Struct.tree_store {V : LineageTree} (h : Struct none V) : TreeStore V.mem.cells where
  childLive := fun a n ch ha hc => (h.childLive a n ch (by simp) ha hc).2
  parentLive := fun a n p ha hp => (h.parentLive a n p (by simp) ha hp).2
  childNodup := fun a n ha => h.childNodup a n (by simp) ha
  lngInj := fun a b na nb ha hb hl => h.lngInj a b na nb (by simp) (by simp) ha hb hl

theorem match_root {c1 c2 : Nat → Option LineageTreeNode} (h : Match c1 c2) {r1 r2 : Nat}
    {n1 : LineageTreeNode} (h1 : c1 r1 = some n1) (hp : n1.parent = none)
    (hroot : ∀ b nb, c2 b = some nb → nb.parent = none → b = r2) :
    lngAt c1 r1 = lngAt c2 r2 := by
  obtain ⟨b', nb', f1, f2, f3, _⟩ := h r1 n1 h1
  have := hroot b' nb' f1 (f3 hp)
  subst this
  rw [lngAt_some h1, lngAt_some f1]
  exact (stripNode_lng f2).symm

theorem has_sampled_all {V : LineageTree} (hs : Struct none V)
    (hshape : ∀ b nb, V.mem.cells b = some nb → nb.sampled = true ∨ 2 ≤ nb.children.length)
    {b : Nat} {nb : LineageTreeNode} (hb : V.mem.cells b = some nb) : HasSampled V.mem b := by
  obtain ⟨l, nl, d1, d2, d3⟩ := leaf_exists hs V.mem.next b nb hb (by omega)
  refine ⟨l, nl, d1, d2, ?_⟩
  rcases hshape l nl d2 with h | h
  · exact h
  · rw [d3] at h
    simp at h

theorem all_ks {V : LineageTree} (hs : Struct none V)
    (hshape : ∀ b nb, V.mem.cells b = some nb → nb.sampled = true ∨ 2 ≤ nb.children.length)
    {b : Nat} {nb : LineageTreeNode} (hb : V.mem.cells b = some nb) : KS V.mem b := by
  refine ⟨nb, hb, ?_⟩
  rcases hshape b nb hb with h | h
  · exact Or.inl h
  · obtain ⟨c1, c2, m1, m2, hne⟩ := two_of_length h (hs.childNodup b nb (by simp) hb)
    obtain ⟨_, n1, e1, _⟩ := hs.childLive b nb c1 (by simp) hb m1
    obtain ⟨_, n2, e2, _⟩ := hs.childLive b nb c2 (by simp) hb m2
    exact Or.inr ⟨c1, c2, m1, m2, hne, has_sampled_all hs hshape e1,
      has_sampled_all hs hshape e2⟩

theorem CopyData.self_data (n : LineageTreeNode) : CopyData n n :=
  ⟨rfl, rfl, rfl, rfl, rfl, rfl, rfl⟩

/-- A tree in which every node is sampled or has two children is its own reduction. -/
theorem self_realises {V : LineageTree} (hs : Struct none V) {r : Nat}
    (hroots : V.roots = [r])
    (hshape : ∀ b nb, V.mem.cells b = some nb → nb.sampled = true ∨ 2 ≤ nb.children.length)
    (hneeded : ∀ b nb, V.mem.cells b = some nb → nb.needed = false) :
    Realises V.mem.cells (fun a => Desc V.mem r a ∧ KS V.mem a) (KS V.mem) V.mem.cells where
  node := fun b nb hb => by
    obtain ⟨x, hx, hd⟩ := desc_of_root hs b b nb hb (le_refl _)
    rw [hroots, List.mem_singleton] at hx
    subst hx
    refine ⟨b, nb, nb.parent, ⟨hd, all_ks hs hshape hb⟩, hb, CopyData.self_data nb,
      hneeded b nb hb, ?_, ?_⟩
    · cases hp : nb.parent with
      | none => exact LinkK.root hb hp
      | some p =>
        obtain ⟨_, np, hnp, _⟩ := hs.parentLive b nb p (by simp) hb hp
        exact LinkK.kept hb hp (all_ks hs hshape hnp)
    · cases hp : nb.parent with
      | none => exact Or.inl ⟨rfl, rfl⟩
      | some p =>
        obtain ⟨_, np, hnp, _⟩ := hs.parentLive b nb p (by simp) hb hp
        exact Or.inr ⟨p, np, p, np, rfl, rfl, hnp, hnp, rfl⟩
  cover := fun a na _ ha => ⟨a, na, ha, rfl⟩

theorem sublist_eq_of_mem : ∀ {l l1 l2 : List Nat}, l.Nodup → l1.Sublist l → l2.Sublist l →
    (∀ x ∈ l, x ∈ l1 ↔ x ∈ l2) → l1 = l2
  | [], l1, l2, _, h1, h2, _ => by
    rw [List.sublist_nil.mp h1, List.sublist_nil.mp h2]
  | a :: l, l1, l2, hn, h1, h2, h => by
    have hna : a ∉ l := (List.nodup_cons.mp hn).1
    have hnl : l.Nodup := (List.nodup_cons.mp hn).2
    cases h1 with
    | cons _ h1 =>
      cases h2 with
      | cons _ h2 =>
        exact sublist_eq_of_mem hnl h1 h2 (fun x hx => h x (List.mem_cons_of_mem _ hx))
      | cons₂ _ h2 =>
        have := (h a (List.mem_cons_self _ _)).mpr (List.mem_cons_self _ _)
        exact absurd (h1.subset this) hna
    | cons₂ _ h1 =>
      cases h2 with
      | cons _ h2 =>
        have := (h a (List.mem_cons_self _ _)).mp (List.mem_cons_self _ _)
        exact absurd (h2.subset this) hna
      | cons₂ _ h2 =>
        rename_i l1' l2'
        have : l1' = l2' := by
          refine sublist_eq_of_mem hnl h1 h2 (fun x hx => ?_)
          have hxa : x ≠ a := fun e => hna (e ▸ hx)
          have := h x (List.mem_cons_of_mem _ hx)
          simp only [List.mem_cons, hxa, false_or] at this
          exact this
        rw [this]

/-- The tree below the root of a window, read from the memory. -/
theorem win_tree {s : LineageTree} {m : Mem} {w : Win} (h : WinOK s m w) (fuel : Nat)
    (hf : w.hi ≤ fuel + w.r) :
    ∃ T n, toTree fuel m w.r = .ok T ∧
      (viewTree (outside w.lo w.hi) m w.hi [w.r] 0).mem.cells w.r = some n ∧
      n.parent = none ∧ Repr (viewTree (outside w.lo w.hi) m w.hi [w.r] 0).mem.cells w.r T := by
  obtain ⟨_, n, hn, hp⟩ := (h.1.struct.rootSet w.r).mp (by rw [view_roots]; simp)
  obtain ⟨T, h1, h2⟩ := toTree_repr h.1.struct fuel w.r n hn hf
  exact ⟨T, n, h1, hn, hp, h2⟩

theorem win_root_only {s : LineageTree} {m : Mem} {w : Win} (h : WinOK s m w) :
    ∀ b nb, (viewTree (outside w.lo w.hi) m w.hi [w.r] 0).mem.cells b = some nb →
      nb.parent = none → b = w.r := by
  intro b nb hb hp
  have := (h.1.struct.rootSet b).mpr ⟨by simp, nb, hb, hp⟩
  rw [view_roots, List.mem_singleton] at this
  exact this
theorem subSampleRoot_parts {ord : List Nat → List Nat} {m m3 : Mem} {x r3 : Nat}
    (h : subSampleRoot ord m x = .ok (m3, some r3)) :
    ∃ L m1 f m2 c, getSampledLineages (m.next + 1) m x = .ok L ∧
      markNodeNeeded (m.next + 1) m x L = .ok (m1, f) ∧
      extractSubTree (m1.next + 1) m1 x none = .ok (m2, c) ∧
      eliminateRedundantNodes ord (m2.next + 1) m2 c L = .ok (m3, r3) := by
  simp only [subSampleRoot] at h
  split at h
  · cases h
  · rename_i L hL
    split at h
    · split at h
      · cases h
      · rename_i m1 f hmark
        split at h
        · cases h
        · rename_i m2 c hext
          split at h
          · cases h
          · rename_i m3' r3' helim
            simp only [Except.ok.injEq, Prod.mk.injEq, Option.some.injEq] at h
            obtain ⟨rfl, rfl⟩ := h
            exact ⟨L, m1, f, m2, c, hL, hmark, hext, helim⟩
    · cases h

/-- Running the reduction on a reduced tree returns a copy of it, up to the order of the
children. -/
theorem rerun_window (ord : List Nat → List Nat) (hord : ∀ l, (ord l).Perm l)
    {s : LineageTree} {m : Mem} {w : Win} (hb : ∀ a, m.next ≤ a → m.cells a = none)
    (hw : WinOK s m w) (hhi : w.hi ≤ m.next) :
    ∃ m3 r3 T1 T3, subSampleRoot ord m w.r = .ok (m3, some r3) ∧
      toTree m.next m w.r = .ok T1 ∧ toTree m3.next m3 r3 = .ok T3 ∧
      T1.canonLng = T3.canonLng := by
  have hs2 := hw.1.struct
  have hshape := hw.1.shape
  have hneeded : ∀ b nb, (viewTree (outside w.lo w.hi) m w.hi [w.r] 0).mem.cells b = some nb →
      nb.needed = false := by
    intro b nb hb
    obtain ⟨_, _, _, _, _, _, h, _⟩ := hw.2.node b nb hb
    exact h
  obtain ⟨T1, n, t1, hn, hp, rep1⟩ := win_tree hw m.next (by omega)
  have hsrc : SrcInv (viewTree (outside w.lo w.hi) m w.hi [w.r] 0) m := by
    refine ⟨hs2, ?_, ?_, hb⟩
    · intro a _ hl
      rw [view_cells] at hl ⊢
      split_ifs at hl ⊢ with h1
      · exact absurd rfl hl
      · rfl
    · rw [view_next]
      exact hhi
  have hfl : FlagsSound (viewTree (outside w.lo w.hi) m w.hi [w.r] 0) m := by
    intro b nb hl _ _
    obtain ⟨nb0, hb0⟩ := Option.ne_none_iff_exists'.mp hl
    exact has_sampled_all hs2 hshape hb0
  obtain ⟨m3, res, h1, hm3, _, hn3, _, hcase⟩ := subSampleRoot_spec ord hord hsrc hfl hn hp
  rcases hcase with ⟨_, hno⟩ | ⟨r3, rfl, _, hwin⟩
  · exact absurd (has_sampled_all hs2 hshape hn) hno
  have hfacts := subSampleRoot_facts ord hord hsrc hfl hn hp h1
  have hw3 : WinOK (viewTree (outside w.lo w.hi) m w.hi [w.r] 0) m3 ⟨w.r, r3, m.next, m3.next⟩ :=
    ⟨hwin, hfacts⟩
  obtain ⟨T3, n3, t3, hn3', hp3, rep3⟩ := win_tree hw3 m3.next (by show m3.next ≤ _; omega)
  have hself := self_realises hs2 (view_roots _ _ _ _ _) hshape hneeded
  have hinj := hs2.tree_store.lngInj
  have m12 : Match (viewTree (outside w.lo w.hi) m w.hi [w.r] 0).mem.cells
      (viewTree (outside m.next m3.next) m3 m3.next [r3] 0).mem.cells :=
    Realises.match_of hinj hself hfacts
  have m21 : Match (viewTree (outside m.next m3.next) m3 m3.next [r3] 0).mem.cells
      (viewTree (outside w.lo w.hi) m w.hi [w.r] 0).mem.cells :=
    Realises.match_of hinj hfacts hself
  refine ⟨m3, r3, T1, T3, h1, t1, t3, ?_⟩
  exact canonLng_of_match hs2.tree_store hwin.struct.tree_store m12 m21 T1 w.r r3 T3 rep1 rep3
    (match_root m12 hn hp (win_root_only hw3))

/-- Two calls of `subSampleTree` in a row: the windows of the memory that hold the trees
returned by each call. -/
theorem two_calls (ord1 ord2 : List Nat → List Nat) (hord1 : ∀ l, (ord1 l).Perm l)
    (hord2 : ∀ l, (ord2 l).Perm l) {s : LineageTree} (h : Inv s) (hrn : s.roots.Nodup) :
    ∃ (m1 m2 : Mem) (W1 W2 : List Win),
      subSampleTree ord1 s = .ok ({ s with mem := m1 }, W1.map Win.r) ∧
      subSampleTree ord2 { s with mem := m1 } = .ok ({ s with mem := m2 }, W2.map Win.r) ∧
      W1.map Win.x = W2.map Win.x ∧ SrcInv s m1 ∧ SrcInv s m2 ∧
      (∀ w ∈ W1, WinOK s m1 w ∧ w.hi ≤ m1.next) ∧
      (∀ w ∈ W2, WinOK s m2 w ∧ w.hi ≤ m2.next) := by
  have hroots : ∀ x ∈ s.roots, ∃ nx, s.mem.cells x = some nx ∧ nx.parent = none := by
    intro x hx
    obtain ⟨_, nx, h1, h2⟩ := (h.struct.rootSet x).mp hx
    exact ⟨nx, h1, h2⟩
  obtain ⟨m1, W1, a1, a2, a3, _, _, a6, a7, a8, _⟩ :=
    subSampleLoop_wins ord1 hord1 s.roots s.mem [] (SrcInv.refl_inv h.struct)
      (fun b nb _ hb hn => by
        rw [h.noNeeded b nb hb] at hn
        cases hn) hroots
  obtain ⟨m2, W2, b1, b2, _, _, _, b6, b7, b8, _⟩ :=
    subSampleLoop_wins ord2 hord2 s.roots m1 [] a2 a3 hroots
  refine ⟨m1, m2, W1, W2, ?_, ?_, ?_, a2, b2, fun w hw => ⟨(a8 w hw).1, (a8 w hw).2.2⟩,
    fun w hw => ⟨(b8 w hw).1, (b8 w hw).2.2⟩⟩
  · simp only [subSampleTree, a1, List.nil_append]
  · simp only [subSampleTree, b1, List.nil_append]
  · exact sublist_eq_of_mem hrn a6 b6 (fun x hx => (a7 x hx).trans (b7 x hx).symm)

/-- The trees returned for the same source root by two calls of `subSampleTree` agree up to
the order of the children. -/
theorem same_root_trees {s : LineageTree} (hs : Struct none s) {m1 m2 : Mem} {w1 w2 : Win}
    (h1 : WinOK s m1 w1) (h2 : WinOK s m2 w2) (hx : w1.x = w2.x) (f1 f2 : Nat)
    (hf1 : w1.hi ≤ f1 + w1.r) (hf2 : w2.hi ≤ f2 + w2.r) :
    ∃ T1 T2, toTree f1 m1 w1.r = .ok T1 ∧ toTree f2 m2 w2.r = .ok T2 ∧
      T1.canonLng = T2.canonLng := by
  obtain ⟨T1, n1, t1, hn1, hp1, rep1⟩ := win_tree h1 f1 hf1
  obtain ⟨T2, n2, t2, hn2, hp2, rep2⟩ := win_tree h2 f2 hf2
  have g1 := h1.2
  have g2 := h2.2
  unfold RedFacts at g1 g2
  rw [hx] at g1
  have hinj := hs.tree_store.lngInj
  have m12 := Realises.match_of hinj g1 g2
  have m21 := Realises.match_of hinj g2 g1
  exact ⟨T1, T2, t1, t2, canonLng_of_match h1.1.struct.tree_store h2.1.struct.tree_store
    m12 m21 T1 w1.r w2.r T2 rep1 rep2 (match_root m12 hn1 hp1 (win_root_only h2))⟩
/-- Claim C31 (idempotence of the reduction).  Let `s` be reached by a valid sequence of
calls, let a first call of `subSampleTree` return the trees `res1` and a second call, made
on the tree manager as the first call left it (flags `needed` included), the trees `res2`.
Both calls return, `res2` has as many trees as `res1`, and the trees at the same position
are equal up to the addresses of the nodes and the order of the children (they have the same
canonical form `canonLng`, which drops the pointers and sorts the children by lineage).
Moreover the pipeline `getSampledLineages`, `markNodeNeeded`, `extractSubTree`,
`eliminateRedundantNodes`, run on the root of any tree of `res1`, returns and yields a tree
that is equal to that tree up to the order of the children.  The unspecified iteration orders
of the sets of leaves are the parameters `ord1`, `ord2`, `ord3`. -/
theorem reduction_idempotent (ord1 ord2 ord3 : List Nat → List Nat)
    (hord1 : ∀ l, (ord1 l).Perm l) (hord2 : ∀ l, (ord2 l).Perm l)
    (hord3 : ∀ l, (ord3 l).Perm l)
    (ops : List Op) (hv : validOps LineageTree.empty ops = true) :
    ∃ s tree1 res1 tree2 res2, runOps LineageTree.empty ops = .ok s ∧
      subSampleTree ord1 s = .ok (tree1, res1) ∧
      subSampleTree ord2 tree1 = .ok (tree2, res2) ∧
      res2.length = res1.length ∧
      (∀ (i : Nat) r1 r2, res1[i]? = some r1 → res2[i]? = some r2 →
        ∃ T1 T2, toTree tree1.mem.next tree1.mem r1 = .ok T1 ∧
          toTree tree2.mem.next tree2.mem r2 = .ok T2 ∧ T1.canonLng = T2.canonLng) ∧
      (∀ r1 ∈ res1, ∃ L m1 f m2 c m3 r3 T1 T3,
        getSampledLineages (tree1.mem.next + 1) tree1.mem r1 = .ok L ∧
        markNodeNeeded (tree1.mem.next + 1) tree1.mem r1 L = .ok (m1, f) ∧
        extractSubTree (m1.next + 1) m1 r1 none = .ok (m2, c) ∧
        eliminateRedundantNodes ord3 (m2.next + 1) m2 c L = .ok (m3, r3) ∧
        toTree tree1.mem.next tree1.mem r1 = .ok T1 ∧ toTree m3.next m3 r3 = .ok T3 ∧
        T1.canonLng = T3.canonLng) := by
  obtain ⟨s, hrun, hinv⟩ := run_inv Inv.empty_inv ops hv
  have hrn : s.roots.Nodup :=
    run_roots Inv.empty_inv (by simp [LineageTree.empty]) ops hv hrun
  obtain ⟨m1, m2, W1, W2, a1, a2, a3, a4, a5, a6, a7⟩ :=
    two_calls ord1 ord2 hord1 hord2 hinv hrn
  refine ⟨s, _, _, _, _, hrun, a1, a2, ?_, ?_, ?_⟩
  · rw [List.length_map, List.length_map, ← List.length_map W2 Win.x, ← a3, List.length_map]
  · intro i r1 r2 h1 h2
    rw [List.getElem?_map] at h1 h2
    cases hw1 : W1[i]? with
    | none => rw [hw1] at h1; cases h1
    | some w1 =>
      cases hw2 : W2[i]? with
      | none => rw [hw2] at h2; cases h2
      | some w2 =>
        rw [hw1] at h1
        rw [hw2] at h2
        simp only [Option.map_some', Option.some.injEq] at h1 h2
        subst h1
        subst h2
        have hx : w1.x = w2.x := by
          have e1 : (W1.map Win.x)[i]? = some w1.x := by rw [List.getElem?_map, hw1]; rfl
          have e2 : (W2.map Win.x)[i]? = some w2.x := by rw [List.getElem?_map, hw2]; rfl
          rw [a3, e2] at e1
          exact (Option.some.inj e1).symm
        obtain ⟨g1, g2⟩ := a6 w1 (List.getElem?_mem hw1)
        obtain ⟨k1, k2⟩ := a7 w2 (List.getElem?_mem hw2)
        exact same_root_trees hinv.struct g1 k1 hx m1.next m2.next (by omega) (by omega)
  · intro r1 hr1
    obtain ⟨w, hw, rfl⟩ := List.mem_map.mp hr1
    obtain ⟨g1, g2⟩ := a6 w hw
    obtain ⟨m3, r3, T1, T3, e1, e2, e3, e4⟩ := rerun_window ord3 hord3 a4.bound g1 g2
    obtain ⟨L, n1, f, n2, c, p1, p2, p3, p4⟩ := subSampleRoot_parts e1
    exact ⟨L, n1, f, n2, c, m3, r3, T1, T3, p1, p2, p3, p4, e2, e3, e4⟩

theorem reduction_idempotent_witness :
    (∀ l : List Nat, (id l).Perm l) ∧ validOps LineageTree.empty exampleOps = true ∧
    ∃ s tree1 res1 tree2 res2, runOps LineageTree.empty exampleOps = .ok s ∧
      subSampleTree id s = .ok (tree1, res1) ∧
      subSampleTree id tree1 = .ok (tree2, res2) ∧
      res2.length = res1.length ∧
      (∀ (i : Nat) r1 r2, res1[i]? = some r1 → res2[i]? = some r2 →
        ∃ T1 T2, toTree tree1.mem.next tree1.mem r1 = .ok T1 ∧
          toTree tree2.mem.next tree2.mem r2 = .ok T2 ∧ T1.canonLng = T2.canonLng) ∧
      (∀ r1 ∈ res1, ∃ L m1 f m2 c m3 r3 T1 T3,
        getSampledLineages (tree1.mem.next + 1) tree1.mem r1 = .ok L ∧
        markNodeNeeded (tree1.mem.next + 1) tree1.mem r1 L = .ok (m1, f) ∧
        extractSubTree (m1.next + 1) m1 r1 none = .ok (m2, c) ∧
        eliminateRedundantNodes id (m2.next + 1) m2 c L = .ok (m3, r3) ∧
        toTree tree1.mem.next tree1.mem r1 = .ok T1 ∧ toTree m3.next m3 r3 = .ok T3 ∧
        T1.canonLng = T3.canonLng) :=
  ⟨fun l => List.Perm.refl l, by decide,
    reduction_idempotent id id id (fun l => List.Perm.refl l) (fun l => List.Perm.refl l)
      (fun l => List.Perm.refl l) exampleOps (by decide)⟩

theorem Up.head_cases {m : Mem} {x b : Nat} (h : Up m x b) :
    x = b ∨ ∃ nx p, m.cells x = some nx ∧ nx.parent = some p ∧ Up m p b := by
  induction h with
  | refl => exact Or.inl rfl
  | @step b p nb _ hb hp ih =>
    rcases ih with e | ⟨nx, p0, h1, h2, h3⟩
    · subst e
      exact Or.inr ⟨nb, p, hb, hp, Up.refl⟩
    · exact Or.inr ⟨nx, p0, h1, h2, Up.step h3 hb hp⟩

theorem Up.head_step {m : Mem} {x p b : Nat} {nx : LineageTreeNode}
    (hx : m.cells x = some nx) (hp : nx.parent = some p) (h : Up m p b) : Up m x b :=
  (Up.step Up.refl hx hp).trans_up h

theorem Up.congr_par {m m' : Mem} {x b : Nat}
    (hpar : ∀ a na, m.cells a = some na →
      ∃ na', m'.cells a = some na' ∧ na'.parent = na.parent)
    (h : Up m x b) : Up m' x b := by
  induction h with
  | refl => exact Up.refl
  | step _ hb hp ih =>
    obtain ⟨na', e1, e2⟩ := hpar _ _ hb
    exact Up.step ih e1 (by rw [e2]; exact hp)

theorem Up.comparable {m : Mem} {d a b : Nat} (h1 : Up m d a) (h2 : Up m d b) :
    Up m a b ∨ Up m b a := by
  induction h1 with
  | refl => exact Or.inl h2
  | @step a' a na' _ ha' hp ih =>
    rcases ih with h | h
    · rcases h.head_cases with e | ⟨nx, p0, e1, e2, e3⟩
      · subst e
        exact Or.inr (Up.step Up.refl ha' hp)
      · rw [ha'] at e1
        cases e1
        rw [hp] at e2
        cases e2
        exact Or.inl e3
    · exact Or.inr (Up.step h ha' hp)

theorem Up.le_of_order {m : Mem}
    (hord : ∀ a n p, m.cells a = some n → n.parent = some p → p < a) {x b : Nat}
    (h : Up m x b) : b ≤ x := by
  induction h with
  | refl => exact le_refl _
  | step _ hb hp ih =>
    have := hord _ _ _ hb hp
    omega

theorem LinkK.up_target {K : Nat → Prop} {m : Mem} {b : Nat} {q : Option Nat} {t : Int}
    (h : LinkK K m.cells b q t) : ∀ g, q = some g → Up m b g := by
  induction h with
  | root h1 h2 => intro g hg; cases hg
  | kept h1 h2 h3 =>
    intro g hg
    cases hg
    exact Up.step Up.refl h1 h2
  | skipRoot h1 h2 h3 _ ih => intro g hg; cases hg
  | skip h1 h2 h3 _ ih =>
    intro g0 hg
    exact Up.head_step h1 h2 (ih g0 hg)

theorem LinkK.above {K : Nat → Prop} {m : Mem} {b : Nat} {q : Option Nat} {t : Int}
    (h : LinkK K m.cells b q t) : ∀ a, Up m b a → a ≠ b → K a →
      ∃ p, q = some p ∧ Up m p a := by
  induction h with
  | root h1 h2 =>
    intro a hu hne _
    rcases hu.head_cases with e | ⟨nx, p0, e1, e2, _⟩
    · exact absurd e.symm hne
    · rw [h1] at e1
      cases e1
      rw [h2] at e2
      cases e2
  | @kept b p nb h1 h2 h3 =>
    intro a hu hne _
    rcases hu.head_cases with e | ⟨nx, p0, e1, e2, e3⟩
    · exact absurd e.symm hne
    · rw [h1] at e1
      cases e1
      rw [h2] at e2
      cases e2
      exact ⟨p, rfl, e3⟩
  | @skipRoot b p nb t h1 h2 h3 _ ih =>
    intro a hu hne hk
    rcases hu.head_cases with e | ⟨nx, p0, e1, e2, e3⟩
    · exact absurd e.symm hne
    · rw [h1] at e1
      cases e1
      rw [h2] at e2
      cases e2
      have hap : a ≠ p := fun e => h3 (e ▸ hk)
      obtain ⟨p', e, _⟩ := ih a e3 hap hk
      cases e
  | @skip b p g nb t h1 h2 h3 _ ih =>
    intro a hu hne hk
    rcases hu.head_cases with e | ⟨nx, p0, e1, e2, e3⟩
    · exact absurd e.symm hne
    · rw [h1] at e1
      cases e1
      rw [h2] at e2
      cases e2
      have hap : a ≠ p := fun e => h3 (e ▸ hk)
      exact ih a e3 hap hk

theorem LinkK.congr_cells {K K' : Nat → Prop} {c c' : Nat → Option LineageTreeNode} {b : Nat}
    {q : Option Nat} {t : Int} (h : LinkK K c b q t)
    (hc : ∀ a n, c a = some n → ∃ n', c' a = some n' ∧ n'.parent = n.parent ∧
      n'.tBranchParent = n.tBranchParent ∧ n'.t = n.t)
    (hk : ∀ p, K p → K' p) (hk' : ∀ p n, c p = some n → K' p → K p) :
    LinkK K' c' b q t := by
  induction h with
  | root h1 h2 =>
    obtain ⟨n', e1, e2, e3, _⟩ := hc _ _ h1
    rw [← e3]
    exact LinkK.root e1 (e2.trans h2)
  | kept h1 h2 h3 =>
    obtain ⟨n', e1, e2, e3, _⟩ := hc _ _ h1
    rw [← e3]
    exact LinkK.kept e1 (e2.trans h2) (hk _ h3)
  | skipRoot h1 h2 h3 h4 ih =>
    obtain ⟨n', e1, e2, _, e4⟩ := hc _ _ h1
    obtain ⟨np, hnp⟩ := h4.live_link
    rw [← e4]
    exact LinkK.skipRoot e1 (e2.trans h2) (fun h => h3 (hk' _ _ hnp h)) ih
  | skip h1 h2 h3 h4 ih =>
    obtain ⟨n', e1, e2, _, _⟩ := hc _ _ h1
    obtain ⟨np, hnp⟩ := h4.live_link
    exact LinkK.skip e1 (e2.trans h2) (fun h => h3 (hk' _ _ hnp h)) ih

theorem LinkK.weaken_none {K K' : Nat → Prop} {c : Nat → Option LineageTreeNode} {b : Nat}
    {q : Option Nat} {t : Int} (h : LinkK K c b q t) (hk : ∀ p, K' p → K p) :
    q = none → LinkK K' c b none t := by
  induction h with
  | root h1 h2 => intro _; exact LinkK.root h1 h2
  | kept h1 h2 h3 => intro e; cases e
  | skipRoot h1 h2 h3 _ ih => intro _; exact LinkK.skipRoot h1 h2 (fun h => h3 (hk _ h)) (ih rfl)
  | skip h1 h2 h3 _ ih => intro e; cases e

theorem LinkK.retarget {K K' : Nat → Prop} {c : Nat → Option LineageTreeNode} {b : Nat}
    {q : Option Nat} {t : Int} (h : LinkK K c b q t) (hk : ∀ p, K' p → K p) :
    ∀ g, q = some g → K' g → LinkK K' c b (some g) t := by
  induction h with
  | root h1 h2 => intro g e; cases e
  | kept h1 h2 h3 =>
    intro g e hg
    cases e
    exact LinkK.kept h1 h2 hg
  | skipRoot h1 h2 h3 _ ih => intro g e; cases e
  | skip h1 h2 h3 _ ih =>
    intro g0 e hg
    cases e
    exact LinkK.skip h1 h2 (fun h => h3 (hk _ h)) (ih _ rfl hg)

theorem LinkK.concat {K K' : Nat → Prop} {c : Nat → Option LineageTreeNode} {b : Nat}
    {q : Option Nat} {t : Int} (h : LinkK K c b q t) (hk : ∀ p, K' p → K p) :
    ∀ (mid : Nat) (qm : Option Nat) (tm : Int), q = some mid → ¬ K' mid →
      LinkK K' c mid qm tm →
      (qm = none → ∃ nb, c b = some nb ∧ LinkK K' c b none nb.t) ∧
      (∀ g, qm = some g → LinkK K' c b (some g) tm) := by
  induction h with
  | root h1 h2 => intro mid qm tm e; cases e
  | kept h1 h2 h3 =>
    intro mid qm tm e hm hl
    cases e
    constructor
    · intro e
      subst e
      exact ⟨_, h1, LinkK.skipRoot h1 h2 hm hl⟩
    · intro g e
      subst e
      exact LinkK.skip h1 h2 hm hl
  | skipRoot h1 h2 h3 _ ih => intro mid qm tm e; cases e
  | @skip b p g nb t h1 h2 h3 _ ih =>
    intro mid qm tm e hm hl
    cases e
    obtain ⟨i1, i2⟩ := ih g qm tm rfl hm hl
    constructor
    · intro e
      obtain ⟨np, _, hp⟩ := i1 e
      exact ⟨_, h1, LinkK.skipRoot h1 h2 (fun h => h3 (hk _ h)) hp⟩
    · intro g e
      exact LinkK.skip h1 h2 (fun h => h3 (hk _ h)) (i2 g e)

/-- A link survives when nodes other than its target leave the set of kept nodes. -/
theorem LinkK.shrink {K K' : Nat → Prop} {c : Nat → Option LineageTreeNode} {b : Nat}
    {q : Option Nat} {t : Int} (h : LinkK K c b q t) (hk : ∀ p, K' p → K p)
    (hq : ∀ g, q = some g → K' g) : LinkK K' c b q t := by
  cases q with
  | none => exact h.weaken_none hk rfl
  | some g => exact h.retarget hk g rfl (hq g rfl)

theorem LinkK.target_lt {K : Nat → Prop} {c : Nat → Option LineageTreeNode}
    (hord : ∀ a n p, c a = some n → n.parent = some p → p < a) {b : Nat} {q : Option Nat}
    {t : Int} (h : LinkK K c b q t) : ∀ g, q = some g → g < b := by
  induction h with
  | root h1 h2 => intro g e; cases e
  | kept h1 h2 h3 =>
    intro g e
    cases e
    exact hord _ _ _ h1 h2
  | skipRoot h1 h2 h3 _ ih => intro g e; cases e
  | skip h1 h2 h3 _ ih =>
    intro g0 e
    have := ih g0 e
    have := hord _ _ _ h1 h2
    omega

/-- A node of the pruned tree that lies strictly below a node `a` of the pruned tree lies
below a child of `a` in the pruned tree. -/
theorem LazyRel.child_above {ce : Nat → Option LineageTreeNode} {ml : Mem}
    (R : LazyRel ce ml) (hord : ∀ a n p, ml.cells a = some n → n.parent = some p → p < a)
    (d : Nat) : ce d ≠ none → ∀ a, ce a ≠ none → Up ml d a → d ≠ a →
      ∃ c nc, ce c = some nc ∧ nc.parent = some a ∧ Up ml d c := by
  induction d using Nat.strong_induction_on with
  | _ d ih =>
    intro hd a ha hu hne
    obtain ⟨ne, hne'⟩ := Option.ne_none_iff_exists'.mp hd
    have hl := R.link d ne hne'
    obtain ⟨p, hp, hup⟩ := hl.above a hu (Ne.symm hne) ha
    by_cases hpa : p = a
    · subst hpa
      exact ⟨d, ne, hne', hp, Up.refl⟩
    · have hKp : ce p ≠ none := hl.target_kept hp
      have hdp : Up ml d p := hl.up_target p hp
      have hlt : p < d := hl.target_lt hord p hp
      obtain ⟨c, nc, h1, h2, h3⟩ := ih p hlt hKp a ha hup hpa
      exact ⟨c, nc, h1, h2, hdp.trans_up h3⟩

theorem LazyRel.same {ce ce' : Nat → Option LineageTreeNode} {ml ml' : Mem}
    (R : LazyRel ce ml)
    (he : ∀ a, (ce a = none → ce' a = none) ∧ ∀ ne, ce a = some ne →
      ∃ ne', ce' a = some ne' ∧ ne'.parent = ne.parent ∧
        ne'.tBranchParent = ne.tBranchParent)
    (hl : ∀ a, (ml.cells a = none → ml'.cells a = none) ∧ ∀ nl, ml.cells a = some nl →
      ∃ nl', ml'.cells a = some nl' ∧ nl'.parent = nl.parent ∧
        nl'.tBranchParent = nl.tBranchParent ∧ nl'.t = nl.t)
    (hdata : ∀ a ne', ce' a = some ne' → ∃ nl', ml'.cells a = some nl' ∧ SameData ne' nl')
    (hflags : ∀ a nl', ml'.cells a = some nl' → ce' a = none →
      nl'.extant = false ∧ nl'.sampled = false) :
    LazyRel ce' ml' := by
  have back_e : ∀ a ne', ce' a = some ne' → ∃ ne, ce a = some ne ∧ ne'.parent = ne.parent ∧
      ne'.tBranchParent = ne.tBranchParent := by
    intro a ne' h
    cases h0 : ce a with
    | none => rw [(he a).1 h0] at h; cases h
    | some ne =>
      obtain ⟨ne'', e1, e2, e3⟩ := (he a).2 ne h0
      rw [h] at e1
      cases e1
      exact ⟨ne, rfl, e2, e3⟩
  have back_l : ∀ a nl', ml'.cells a = some nl' → ∃ nl, ml.cells a = some nl ∧
      nl.parent = nl'.parent := by
    intro a nl' h
    cases h0 : ml.cells a with
    | none => rw [(hl a).1 h0] at h; cases h
    | some nl =>
      obtain ⟨nl'', e1, e2, _⟩ := (hl a).2 nl h0
      rw [h] at e1
      cases e1
      exact ⟨nl, rfl, e2.symm⟩
  have live_fwd : ∀ a, ce a ≠ none → ce' a ≠ none := by
    intro a h
    obtain ⟨ne, h0⟩ := Option.ne_none_iff_exists'.mp h
    obtain ⟨ne', e1, _⟩ := (he a).2 ne h0
    rw [e1]
    simp
  have live_bwd : ∀ a, ce' a ≠ none → ce a ≠ none := fun a h h0 => h ((he a).1 h0)
  refine ⟨hdata, ?_, hflags, ?_⟩
  · intro a ne' ha
    obtain ⟨ne, h0, e2, e3⟩ := back_e a ne' ha
    rw [e2, e3]
    exact (R.link a ne h0).congr_cells (fun b n hb => (hl b).2 n hb) live_fwd
      (fun p _ _ h => live_bwd p h)
  · intro a c1 c2 d1 d2 n1 n2 ha h1 p1 h2 p2 u1 u2 l1 l2
    have ha0 : ce a = none := by
      by_contra h
      exact live_fwd a h ha
    obtain ⟨m1, g1, g2⟩ := back_l c1 n1 h1
    obtain ⟨m2, k1, k2⟩ := back_l c2 n2 h2
    exact R.onePath a c1 c2 d1 d2 m1 m2 ha0 g1 (g2.trans p1) k1 (k2.trans p2)
      (u1.congr_par back_l) (u2.congr_par back_l) (live_bwd d1 l1) (live_bwd d2 l2)

theorem Up.restrict {m m' : Mem} {x0 : Nat}
    (hback : ∀ a na', m'.cells a = some na' → a ≠ x0 →
      ∃ na, m.cells a = some na ∧ na.parent = na'.parent)
    (hno : ∀ a n, m.cells a = some n → n.parent ≠ some x0) {d b : Nat}
    (h : Up m' d b) (hd : d ≠ x0) : Up m d b ∧ b ≠ x0 := by
  induction h with
  | refl => exact ⟨Up.refl, hd⟩
  | step _ hb hp ih =>
    obtain ⟨i1, i2⟩ := ih
    obtain ⟨na, e1, e2⟩ := hback _ _ hb i2
    refine ⟨Up.step i1 e1 (e2.trans hp), ?_⟩
    intro e
    subst e
    exact hno _ _ e1 (e2.trans hp)

theorem LazyRel.add {ce ce' : Nat → Option LineageTreeNode} {ml ml' : Mem}
    (R : LazyRel ce ml) {x0 : Nat} {n0 n0l : LineageTreeNode}
    (hpl : ∀ a n p, ml.cells a = some n → n.parent = some p → ml.cells p ≠ none)
    (hx0e : ce x0 = none) (hx0l : ml.cells x0 = none)
    (hne : ce' x0 = some n0) (hnl : ml'.cells x0 = some n0l)
    (hp : n0l.parent = n0.parent) (ht : n0l.tBranchParent = n0.tBranchParent)
    (hq : ∀ p, n0.parent = some p → ce p ≠ none)
    (he : ∀ a, a ≠ x0 → (ce a = none → ce' a = none) ∧ ∀ ne, ce a = some ne →
      ∃ ne', ce' a = some ne' ∧ ne'.parent = ne.parent ∧
        ne'.tBranchParent = ne.tBranchParent)
    (hl : ∀ a, a ≠ x0 → (ml.cells a = none → ml'.cells a = none) ∧
      ∀ nl, ml.cells a = some nl →
        ∃ nl', ml'.cells a = some nl' ∧ nl'.parent = nl.parent ∧
          nl'.tBranchParent = nl.tBranchParent ∧ nl'.t = nl.t)
    (hdata : ∀ a ne', ce' a = some ne' → ∃ nl', ml'.cells a = some nl' ∧ SameData ne' nl')
    (hflags : ∀ a nl', ml'.cells a = some nl' → ce' a = none →
      nl'.extant = false ∧ nl'.sampled = false) :
    LazyRel ce' ml' := by
  have back_e : ∀ a ne', a ≠ x0 → ce' a = some ne' → ∃ ne, ce a = some ne ∧
      ne'.parent = ne.parent ∧ ne'.tBranchParent = ne.tBranchParent := by
    intro a ne' hne h
    cases h0 : ce a with
    | none => rw [(he a hne).1 h0] at h; cases h
    | some ne =>
      obtain ⟨ne'', e1, e2, e3⟩ := (he a hne).2 ne h0
      rw [h] at e1
      cases e1
      exact ⟨ne, rfl, e2, e3⟩
  have back_l : ∀ a nl', ml'.cells a = some nl' → a ≠ x0 → ∃ nl, ml.cells a = some nl ∧
      nl.parent = nl'.parent := by
    intro a nl' h hne
    cases h0 : ml.cells a with
    | none => rw [(hl a hne).1 h0] at h; cases h
    | some nl =>
      obtain ⟨nl'', e1, e2, _⟩ := (hl a hne).2 nl h0
      rw [h] at e1
      cases e1
      exact ⟨nl, rfl, e2.symm⟩
  have live_fwd : ∀ a, ce a ≠ none → ce' a ≠ none := by
    intro a h
    have hne : a ≠ x0 := fun e => h (e ▸ hx0e)
    obtain ⟨ne, h0⟩ := Option.ne_none_iff_exists'.mp h
    obtain ⟨ne', e1, _⟩ := (he a hne).2 ne h0
    rw [e1]
    simp
  have live_bwd : ∀ a, a ≠ x0 → ce' a ≠ none → ce a ≠ none :=
    fun a hne h h0 => h ((he a hne).1 h0)
  have hno : ∀ a n, ml.cells a = some n → n.parent ≠ some x0 :=
    fun a n h1 h2 => hpl a n x0 h1 h2 hx0l
  refine ⟨hdata, ?_, hflags, ?_⟩
  · intro a ne' ha
    by_cases hax : a = x0
    · subst hax
      rw [hne] at ha
      cases ha
      rw [← ht]
      cases hpar : n0.parent with
      | none => exact LinkK.root hnl (hp.trans hpar)
      | some p => exact LinkK.kept hnl (hp.trans hpar) (live_fwd p (hq p hpar))
    · obtain ⟨ne, h0, e2, e3⟩ := back_e a ne' hax ha
      rw [e2, e3]
      refine (R.link a ne h0).congr_cells (fun b n hb => ?_) live_fwd (fun p n hp' h => ?_)
      · exact (hl b (fun e => by rw [e, hx0l] at hb; cases hb)).2 n hb
      · exact live_bwd p (fun e => by rw [e, hx0l] at hp'; cases hp') h
  · intro a c1 c2 d1 d2 n1 n2 ha h1 p1 h2 p2 u1 u2 l1 l2
    have hax : a ≠ x0 := fun e => by rw [e, hne] at ha; cases ha
    have ha0 : ce a = none := by
      by_contra h
      exact live_fwd a h ha
    have hcx : ∀ c n, ml'.cells c = some n → n.parent = some a → c ≠ x0 := by
      intro c n hc hpc e
      subst e
      rw [hnl] at hc
      cases hc
      exact hq a (hp.symm.trans hpc) ha0
    have key : ∀ d c, c ≠ x0 → Up ml' d c → ce' d ≠ none →
        ∃ d', Up ml d' c ∧ ce d' ≠ none := by
      intro d c hc hu hl'
      by_cases hdx : d = x0
      · subst hdx
        rcases hu.head_cases with e | ⟨nx, p, e1, e2, e3⟩
        · exact absurd e.symm hc
        · rw [hnl] at e1
          cases e1
          have hpl' := hq p (hp.symm.trans e2)
          have hpx : p ≠ d := fun e => hpl' (e ▸ hx0e)
          exact ⟨p, (Up.restrict back_l hno e3 hpx).1, hpl'⟩
      · exact ⟨d, (Up.restrict back_l hno hu hdx).1, live_bwd d hdx hl'⟩
    have hc1 := hcx c1 n1 h1 p1
    have hc2 := hcx c2 n2 h2 p2
    obtain ⟨m1, g1, g2⟩ := back_l c1 n1 h1 hc1
    obtain ⟨m2, k1, k2⟩ := back_l c2 n2 h2 hc2
    obtain ⟨d1', a1, a2⟩ := key d1 c1 hc1 u1 l1
    obtain ⟨d2', b1, b2⟩ := key d2 c2 hc2 u2 l2
    exact R.onePath a c1 c2 d1' d2' m1 m2 ha0 g1 (g2.trans p1) k1 (k2.trans p2) a1 b1 a2 b2

theorem Up.one_child {m : Mem}
    (hord : ∀ a n p, m.cells a = some n → n.parent = some p → p < a) {c c1 c2 mid : Nat}
    {n1 n2 : LineageTreeNode} (u1 : Up m c c1) (u2 : Up m c c2)
    (h1 : m.cells c1 = some n1) (p1 : n1.parent = some mid)
    (h2 : m.cells c2 = some n2) (p2 : n2.parent = some mid) : c1 = c2 := by
  have l1 := hord c1 n1 mid h1 p1
  have l2 := hord c2 n2 mid h2 p2
  rcases u1.comparable u2 with h | h
  · rcases h.head_cases with e | ⟨nx, p, e1, e2, e3⟩
    · exact e
    · rw [h1] at e1
      cases e1
      rw [p1] at e2
      cases e2
      have := e3.le_of_order hord
      omega
  · rcases h.head_cases with e | ⟨nx, p, e1, e2, e3⟩
    · exact e.symm
    · rw [h2] at e1
      cases e1
      rw [p2] at e2
      cases e2
      have := e3.le_of_order hord
      omega

theorem LazyRel.free_leaf {ce ce' : Nat → Option LineageTreeNode} {ml : Mem}
    (R : LazyRel ce ml) (hord : ∀ a n p, ml.cells a = some n → n.parent = some p → p < a)
    {x : Nat} {nx : LineageTreeNode} (hx : ce x = some nx) (hxe : nx.extant = false)
    (hxs : nx.sampled = false)
    (hleaf : ∀ a na, ce a = some na → na.parent ≠ some x) (hx' : ce' x = none)
    (he : ∀ a, a ≠ x → (ce a = none → ce' a = none) ∧ ∀ ne, ce a = some ne →
      ∃ ne', ce' a = some ne' ∧ SameData ne ne' ∧ ne'.parent = ne.parent ∧
        ne'.tBranchParent = ne.tBranchParent) :
    LazyRel ce' ml := by
  have back_e : ∀ a ne', ce' a = some ne' → a ≠ x ∧ ∃ ne, ce a = some ne ∧
      SameData ne ne' ∧ ne'.parent = ne.parent ∧ ne'.tBranchParent = ne.tBranchParent := by
    intro a ne' h
    have hax : a ≠ x := fun e => by rw [e, hx'] at h; cases h
    refine ⟨hax, ?_⟩
    cases h0 : ce a with
    | none => rw [(he a hax).1 h0] at h; cases h
    | some ne =>
      obtain ⟨ne'', e1, e2, e3, e4⟩ := (he a hax).2 ne h0
      rw [h] at e1
      cases e1
      exact ⟨ne, rfl, e2, e3, e4⟩
  have live_bwd : ∀ a, ce' a ≠ none → ce a ≠ none := by
    intro a h h0
    by_cases hax : a = x
    · exact h (hax ▸ hx')
    · exact h ((he a hax).1 h0)
  have live_fwd : ∀ a, a ≠ x → ce a ≠ none → ce' a ≠ none := by
    intro a hax h
    obtain ⟨ne, h0⟩ := Option.ne_none_iff_exists'.mp h
    obtain ⟨ne', e1, _⟩ := (he a hax).2 ne h0
    rw [e1]
    simp
  have dead : ∀ a, ce' a = none → ce a = none ∨ a = x := by
    intro a h
    by_cases hax : a = x
    · exact Or.inr hax
    · left
      by_contra h0
      exact live_fwd a hax h0 h
  refine ⟨?_, ?_, ?_, ?_⟩
  · intro a ne' ha
    obtain ⟨_, ne, h0, e1, _⟩ := back_e a ne' ha
    obtain ⟨nl, g1, g2⟩ := R.data a ne h0
    exact ⟨nl, g1, e1.symm_data.trans_data g2⟩
  · intro a ne' ha
    obtain ⟨_, ne, h0, _, e2, e3⟩ := back_e a ne' ha
    rw [e2, e3]
    refine (R.link a ne h0).shrink live_bwd (fun g hg => ?_)
    have hgx : g ≠ x := fun e => hleaf a ne h0 (e ▸ hg)
    exact live_fwd g hgx ((R.link a ne h0).target_kept hg)
  · intro a nl hl ha
    rcases dead a ha with h | h
    · exact R.flags a nl hl h
    · subst h
      obtain ⟨nl0, g1, g2⟩ := R.data a nx hx
      rw [hl] at g1
      cases g1
      exact ⟨g2.2.2.2.2.2.1.trans hxe, g2.2.2.2.2.2.2.1.trans hxs⟩
  · intro a c1 c2 d1 d2 n1 n2 ha h1 p1 h2 p2 u1 u2 l1 l2
    rcases dead a ha with h | h
    · exact R.onePath a c1 c2 d1 d2 n1 n2 h h1 p1 h2 p2 u1 u2 (live_bwd d1 l1)
        (live_bwd d2 l2)
    · subst h
      have hd1 : d1 ≠ a := fun e => l1 (e ▸ hx')
      obtain ⟨c, nc, e1, e2, _⟩ := R.child_above hord d1 (live_bwd d1 l1) a
        (by rw [hx]; simp) (Up.step u1 h1 p1) hd1
      exact absurd e2 (hleaf c nc e1)

theorem LazyRel.free_mid {ce ce' : Nat → Option LineageTreeNode} {ml : Mem}
    (R : LazyRel ce ml) (hord : ∀ a n p, ml.cells a = some n → n.parent = some p → p < a)
    {mid c : Nat} {nm nc nc' : LineageTreeNode} (hm : ce mid = some nm)
    (hme : nm.extant = false) (hms : nm.sampled = false)
    (hc : ce c = some nc) (hcp : nc.parent = some mid)
    (honly : ∀ a na, ce a = some na → na.parent = some mid → a = c)
    (hm' : ce' mid = none) (hc' : ce' c = some nc') (hsd : SameData nc nc')
    (hcp' : nc'.parent = nm.parent)
    (hct1 : ∀ g, nm.parent = some g → nc'.tBranchParent = nm.tBranchParent)
    (hct2 : nm.parent = none → nc'.tBranchParent = nc.t)
    (he : ∀ a, a ≠ mid → a ≠ c → (ce a = none → ce' a = none) ∧ ∀ ne, ce a = some ne →
      ∃ ne', ce' a = some ne' ∧ SameData ne ne' ∧ ne'.parent = ne.parent ∧
        ne'.tBranchParent = ne.tBranchParent) :
    LazyRel ce' ml := by
  have hcm : c ≠ mid := fun e => by
    have := (R.link c nc hc).target_lt hord mid hcp
    omega
  have back_e : ∀ a ne', ce' a = some ne' → a ≠ c → a ≠ mid ∧ ∃ ne, ce a = some ne ∧
      SameData ne ne' ∧ ne'.parent = ne.parent ∧ ne'.tBranchParent = ne.tBranchParent := by
    intro a ne' h hac
    have hax : a ≠ mid := fun e => by rw [e, hm'] at h; cases h
    refine ⟨hax, ?_⟩
    cases h0 : ce a with
    | none => rw [(he a hax hac).1 h0] at h; cases h
    | some ne =>
      obtain ⟨ne'', e1, e2, e3, e4⟩ := (he a hax hac).2 ne h0
      rw [h] at e1
      cases e1
      exact ⟨ne, rfl, e2, e3, e4⟩
  have live_bwd : ∀ a, ce' a ≠ none → ce a ≠ none := by
    intro a h h0
    by_cases hax : a = mid
    · exact h (hax ▸ hm')
    · by_cases hac : a = c
      · rw [hac, hc] at h0
        cases h0
      · exact h ((he a hax hac).1 h0)
  have live_fwd : ∀ a, a ≠ mid → ce a ≠ none → ce' a ≠ none := by
    intro a hax h
    by_cases hac : a = c
    · rw [hac, hc']
      simp
    · obtain ⟨ne, h0⟩ := Option.ne_none_iff_exists'.mp h
      obtain ⟨ne', e1, _⟩ := (he a hax hac).2 ne h0
      rw [e1]
      simp
  have dead : ∀ a, ce' a = none → ce a = none ∨ a = mid := by
    intro a h
    by_cases hax : a = mid
    · exact Or.inr hax
    · left
      by_contra h0
      exact live_fwd a hax h0 h
  have hmc : mid < c := (R.link c nc hc).target_lt hord mid hcp
  refine ⟨?_, ?_, ?_, ?_⟩
  · intro a ne' ha
    by_cases hac : a = c
    · subst hac
      rw [hc'] at ha
      cases ha
      obtain ⟨nl, g1, g2⟩ := R.data a nc hc
      exact ⟨nl, g1, hsd.symm_data.trans_data g2⟩
    · obtain ⟨_, ne, h0, e1, _⟩ := back_e a ne' ha hac
      obtain ⟨nl, g1, g2⟩ := R.data a ne h0
      exact ⟨nl, g1, e1.symm_data.trans_data g2⟩
  · intro a ne' ha
    by_cases hac : a = c
    · subst hac
      rw [hc'] at ha
      cases ha
      have lm := R.link mid nm hm
      have lm' : LinkK (fun p => ce' p ≠ none) ml.cells mid nm.parent nm.tBranchParent := by
        refine lm.shrink live_bwd (fun g hg => ?_)
        have := lm.target_lt hord g hg
        exact live_fwd g (by omega) (lm.target_kept hg)
      obtain ⟨k1, k2⟩ := (R.link a nc hc).concat live_bwd mid nm.parent nm.tBranchParent hcp
        (fun h => h hm') lm'
      rw [hcp']
      cases hpar : nm.parent with
      | none =>
        obtain ⟨nb, f1, f2⟩ := k1 hpar
        obtain ⟨nl, g1, g2⟩ := R.data a nc hc
        rw [f1] at g1
        cases g1
        rw [hct2 hpar, ← g2.2.1]
        exact f2
      | some g =>
        rw [hct1 g hpar]
        exact k2 g hpar
    · obtain ⟨_, ne, h0, _, e2, e3⟩ := back_e a ne' ha hac
      rw [e2, e3]
      refine (R.link a ne h0).shrink live_bwd (fun g hg => ?_)
      have hgx : g ≠ mid := fun e => hac (honly a ne h0 (e ▸ hg))
      exact live_fwd g hgx ((R.link a ne h0).target_kept hg)
  · intro a nl hl ha
    rcases dead a ha with h | h
    · exact R.flags a nl hl h
    · subst h
      obtain ⟨nl0, g1, g2⟩ := R.data a nm hm
      rw [hl] at g1
      cases g1
      exact ⟨g2.2.2.2.2.2.1.trans hme, g2.2.2.2.2.2.2.1.trans hms⟩
  · intro a c1 c2 d1 d2 n1 n2 ha h1 p1 h2 p2 u1 u2 l1 l2
    rcases dead a ha with h | h
    · exact R.onePath a c1 c2 d1 d2 n1 n2 h h1 p1 h2 p2 u1 u2 (live_bwd d1 l1)
        (live_bwd d2 l2)
    · subst h
      have key : ∀ d ci ni, ml.cells ci = some ni → ni.parent = some a → Up ml d ci →
          ce' d ≠ none → Up ml c ci := by
        intro d ci ni hi pi ui li
        have hd : d ≠ a := fun e => li (e ▸ hm')
        obtain ⟨c0, nc0, e1, e2, e3⟩ := R.child_above hord d (live_bwd d li) a
          (by rw [hm]; simp) (Up.step ui hi pi) hd
        have := honly c0 nc0 e1 e2
        subst this
        rcases e3.comparable ui with h | h
        · exact h
        · rcases h.head_cases with e | ⟨nx, p, f1, f2, f3⟩
          · rw [e]
            exact Up.refl
          · rw [hi] at f1
            cases f1
            rw [pi] at f2
            cases f2
            have := f3.le_of_order hord
            omega
      exact Up.one_child hord (key d1 c1 n1 h1 p1 u1 l1) (key d2 c2 n2 h2 p2 u2 l2)
        h1 p1 h2 p2

theorem keeps_same {ce : Nat → Option LineageTreeNode} (a : Nat) :
    (ce a = none → ce a = none) ∧ ∀ ne, ce a = some ne →
      ∃ ne', ce a = some ne' ∧ SameData ne ne' ∧ ne'.parent = ne.parent ∧
        ne'.tBranchParent = ne.tBranchParent :=
  ⟨fun h => h, fun ne h => ⟨ne, h, SameData.refl_data ne, rfl, rfl⟩⟩

theorem keeps_kids {ce : Nat → Option LineageTreeNode} {a : Nat} {na : LineageTreeNode}
    (ha : ce a = some na) (cs : List Nat) :
    (ce a = none → some { na with children := cs } = none) ∧ ∀ ne, ce a = some ne →
      ∃ ne', some { na with children := cs } = some ne' ∧ SameData ne ne' ∧
        ne'.parent = ne.parent ∧ ne'.tBranchParent = ne.tBranchParent := by
  constructor
  · intro h
    rw [ha] at h
    cases h
  · intro ne h
    rw [ha] at h
    cases h
    exact ⟨_, rfl, ⟨rfl, rfl, rfl, rfl, rfl, rfl, rfl, rfl⟩, rfl, rfl⟩

theorem RemoveStep.lazy_rel {s1 s2 : LineageTree} {x : Nat} {nx : LineageTreeNode} {ml : Mem}
    (hs1 : Struct none s1) (hx : s1.mem.cells x = some nx) (hext : nx.extant = false)
    (st : RemoveStep s1 x nx s2) (R : LazyRel s1.mem.cells ml)
    (hord : ∀ a n p, ml.cells a = some n → n.parent = some p → p < a) :
    LazyRel s2.mem.cells ml ∧ s2.mem.next = s1.mem.next := by
  have hkid : ∀ {p : Nat} {np : LineageTreeNode}, s1.mem.cells p = some np →
      ∀ a na, s1.mem.cells a = some na → na.parent = some p → a ∈ np.children := by
    intro p np hp a na ha hpar
    obtain ⟨_, np', hnp, hmem⟩ := hs1.parentLive a na p (by simp) ha hpar
    rw [hp] at hnp
    cases hnp
    exact hmem
  cases st with
  | keep h => exact ⟨R, rfl⟩
  | @spliceSelf s2 c g nc ng cs' hsam r =>
    refine ⟨?_, r.next⟩
    have hcx : c ≠ x := by have := r.hlt2; omega
    have hm' : s2.mem.cells x = none := by rw [r.cells]; simp
    have hc' : s2.mem.cells c =
        some { nc with parent := some g, tBranchParent := nx.tBranchParent } := by
      rw [r.cells]; simp [hcx]
    refine R.free_mid hord hx hext hsam r.hc r.hcpar ?_ hm' hc'
      ⟨rfl, rfl, rfl, rfl, rfl, rfl, rfl, rfl⟩ r.hpar.symm (fun _ _ => rfl)
      (fun h => by rw [r.hpar] at h; cases h) ?_
    · intro a na ha hp
      have := hkid hx a na ha hp
      rw [r.hch] at this
      exact List.mem_singleton.mp this
    · intro a ha1 ha2
      rw [r.cells]
      simp only [if_neg ha1, if_neg ha2]
      by_cases hag : a = g
      · subst hag
        simp only [if_true]
        exact keeps_kids r.hg _
      · simp only [if_neg hag]
        exact keeps_same a
  | @promoteSelf s2 c nc hsam r =>
    refine ⟨?_, r.next⟩
    have hcx : c ≠ x := by have := r.hlt; omega
    have hm' : s2.mem.cells x = none := by rw [r.cells]; simp
    have hc' : s2.mem.cells c = some { nc with parent := none, tBranchParent := nc.t } := by
      rw [r.cells]; simp [hcx]
    refine R.free_mid hord hx hext hsam r.hc r.hcpar ?_ hm' hc'
      ⟨rfl, rfl, rfl, rfl, rfl, rfl, rfl, rfl⟩ r.hpar.symm
      (fun g h => by rw [r.hpar] at h; cases h) (fun _ => rfl) ?_
    · intro a na ha hp
      have := hkid hx a na ha hp
      rw [r.hch] at this
      exact List.mem_singleton.mp this
    · intro a ha1 ha2
      rw [r.cells]
      simp only [if_neg ha1, if_neg ha2]
      exact keeps_same a
  | leafRoot hsam hleaf hpar =>
    refine ⟨?_, rfl⟩
    have hx' : (s1.mem.free x).cells x = none := by simp [Mem.free]
    refine R.free_leaf hord hx hext hsam ?_ hx' ?_
    · intro a na ha hp
      have := hkid hx a na ha hp
      rw [hleaf] at this
      cases this
    · intro a ha
      simp only [Mem.free, if_neg ha]
      exact keeps_same a
  | @leafKeep sA p np cs' hsam r h =>
    refine ⟨?_, r.next⟩
    have hleaf : ∀ a na, s1.mem.cells a = some na → na.parent ≠ some x := by
      intro a na ha hp
      have := hkid hx a na ha hp
      rw [r.hleaf] at this
      cases this
    have hx' : (sA.mem.free x).cells x = none := by simp [Mem.free]
    refine R.free_leaf hord hx hext hsam hleaf hx' ?_
    intro a ha
    simp only [Mem.free, if_neg ha]
    rw [r.cells]
    by_cases hap : a = p
    · subst hap
      simp only [if_true]
      exact keeps_kids r.hp _
    · simp only [if_neg hap]
      exact keeps_same a
  | @leafSplice sA sB p c g np nc ng cs' cs'' hsam r hpe hps r2 =>
    refine ⟨?_, r2.next.trans r.next⟩
    have hleaf : ∀ a na, s1.mem.cells a = some na → na.parent ≠ some x := by
      intro a na ha hp
      have := hkid hx a na ha hp
      rw [r.hleaf] at this
      cases this
    have hpx : p ≠ x := by
      intro e
      have := hs1.order x nx p (by simp) hx r.hxpar
      omega
    have R1 : LazyRel (sA.mem.free x).cells ml := by
      have hx' : (sA.mem.free x).cells x = none := by simp [Mem.free]
      refine R.free_leaf hord hx hext hsam hleaf hx' ?_
      intro a ha
      simp only [Mem.free, if_neg ha]
      rw [r.cells]
      by_cases hap : a = p
      · subst hap
        simp only [if_true]
        exact keeps_kids r.hp _
      · simp only [if_neg hap]
        exact keeps_same a
    have hcs : cs' = [c] := r2.hch
    have hcmem : c ∈ np.children.erase x := by
      rw [← r.perm.mem_iff, hcs]
      exact List.mem_singleton_self c
    have hnd := hs1.childNodup p np (by simp) r.hp
    have hcx : c ≠ x := ((List.Nodup.mem_erase_iff hnd).mp hcmem).1
    have hcp : c ≠ p := by have := r2.hlt2; omega
    have hAp : sA.mem.cells p = some { np with children := cs' } := by
      rw [r.cells]; simp
    have hAp' : (sA.mem.free x).cells p = some { np with children := cs' } := by
      simp only [Mem.free, if_neg hpx]; exact hAp
    have hAc : (sA.mem.free x).cells c = some nc := by
      simp only [Mem.free, if_neg hcx]; exact r2.hc
    have hBp : (sB.mem.free x).cells p = none := by
      simp only [Mem.free, if_neg hpx]; rw [r2.cells]; simp
    have hBc : (sB.mem.free x).cells c =
        some { nc with parent := some g, tBranchParent := np.tBranchParent } := by
      simp only [Mem.free, if_neg hcx]; rw [r2.cells]; simp [hcp]
    refine R1.free_mid hord hAp' hpe hps hAc r2.hcpar ?_ hBp hBc
      ⟨rfl, rfl, rfl, rfl, rfl, rfl, rfl, rfl⟩ r2.hpar.symm (fun _ _ => rfl)
      (fun h => by
        have := r2.hpar
        rw [this] at h
        cases h) ?_
    · intro a na ha hp
      by_cases hax : a = x
      · rw [hax] at ha
        simp [Mem.free] at ha
      · simp only [Mem.free, if_neg hax] at ha
        rw [r.cells] at ha
        by_cases hap : a = p
        · subst hap
          simp only [if_true, Option.some.injEq] at ha
          subst ha
          have := hs1.order a np a (by simp) r.hp hp
          omega
        · simp only [if_neg hap] at ha
          have h1 := hkid r.hp a na ha hp
          have h2 : a ∈ np.children.erase x := (List.Nodup.mem_erase_iff hnd).mpr ⟨hax, h1⟩
          rw [← r.perm.mem_iff, hcs] at h2
          exact List.mem_singleton.mp h2
    · intro a ha1 ha2
      by_cases hax : a = x
      · subst hax
        simp [Mem.free]
      · simp only [Mem.free, if_neg hax]
        rw [r2.cells]
        simp only [if_neg ha1, if_neg ha2]
        by_cases hag : a = g
        · subst hag
          simp only [if_true]
          exact keeps_kids r2.hg _
        · simp only [if_neg hag]
          exact keeps_same a
  | @leafPromote sA sB p c np nc cs' hsam r hpe hps r2 =>
    refine ⟨?_, r2.next.trans r.next⟩
    have hleaf : ∀ a na, s1.mem.cells a = some na → na.parent ≠ some x := by
      intro a na ha hp
      have := hkid hx a na ha hp
      rw [r.hleaf] at this
      cases this
    have hpx : p ≠ x := by
      intro e
      have := hs1.order x nx p (by simp) hx r.hxpar
      omega
    have R1 : LazyRel (sA.mem.free x).cells ml := by
      have hx' : (sA.mem.free x).cells x = none := by simp [Mem.free]
      refine R.free_leaf hord hx hext hsam hleaf hx' ?_
      intro a ha
      simp only [Mem.free, if_neg ha]
      rw [r.cells]
      by_cases hap : a = p
      · subst hap
        simp only [if_true]
        exact keeps_kids r.hp _
      · simp only [if_neg hap]
        exact keeps_same a
    have hcs : cs' = [c] := r2.hch
    have hcmem : c ∈ np.children.erase x := by
      rw [← r.perm.mem_iff, hcs]
      exact List.mem_singleton_self c
    have hnd := hs1.childNodup p np (by simp) r.hp
    have hcx : c ≠ x := ((List.Nodup.mem_erase_iff hnd).mp hcmem).1
    have hcp : c ≠ p := by have := r2.hlt; omega
    have hAp : sA.mem.cells p = some { np with children := cs' } := by
      rw [r.cells]; simp
    have hAp' : (sA.mem.free x).cells p = some { np with children := cs' } := by
      simp only [Mem.free, if_neg hpx]; exact hAp
    have hAc : (sA.mem.free x).cells c = some nc := by
      simp only [Mem.free, if_neg hcx]; exact r2.hc
    have hBp : (sB.mem.free x).cells p = none := by
      simp only [Mem.free, if_neg hpx]; rw [r2.cells]; simp
    have hBc : (sB.mem.free x).cells c =
        some { nc with parent := none, tBranchParent := nc.t } := by
      simp only [Mem.free, if_neg hcx]; rw [r2.cells]; simp [hcp]
    refine R1.free_mid hord hAp' hpe hps hAc r2.hcpar ?_ hBp hBc
      ⟨rfl, rfl, rfl, rfl, rfl, rfl, rfl, rfl⟩ r2.hpar.symm
      (fun g h => by
        have := r2.hpar
        rw [this] at h
        cases h) (fun _ => rfl) ?_
    · intro a na ha hp
      by_cases hax : a = x
      · rw [hax] at ha
        simp [Mem.free] at ha
      · simp only [Mem.free, if_neg hax] at ha
        rw [r.cells] at ha
        by_cases hap : a = p
        · subst hap
          simp only [if_true, Option.some.injEq] at ha
          subst ha
          have := hs1.order a np a (by simp) r.hp hp
          omega
        · simp only [if_neg hap] at ha
          have h1 := hkid r.hp a na ha hp
          have h2 : a ∈ np.children.erase x := (List.Nodup.mem_erase_iff hnd).mpr ⟨hax, h1⟩
          rw [← r.perm.mem_iff, hcs] at h2
          exact List.mem_singleton.mp h2
    · intro a ha1 ha2
      by_cases hax : a = x
      · subst hax
        simp [Mem.free]
      · simp only [Mem.free, if_neg hax]
        rw [r2.cells]
        simp only [if_neg ha1, if_neg ha2]
        exact keeps_same a

theorem keepsL_same {c : Nat → Option LineageTreeNode} (a : Nat) :
    (c a = none → c a = none) ∧ ∀ nl, c a = some nl →
      ∃ nl', c a = some nl' ∧ nl'.parent = nl.parent ∧
        nl'.tBranchParent = nl.tBranchParent ∧ nl'.t = nl.t :=
  ⟨fun h => h, fun nl h => ⟨nl, h, rfl, rfl, rfl⟩⟩

theorem keepsE_same {ce : Nat → Option LineageTreeNode} (a : Nat) :
    (ce a = none → ce a = none) ∧ ∀ ne, ce a = some ne →
      ∃ ne', ce a = some ne' ∧ ne'.parent = ne.parent ∧
        ne'.tBranchParent = ne.tBranchParent :=
  ⟨fun h => h, fun ne h => ⟨ne, h, rfl, rfl⟩⟩

theorem Struct.withExtant {z : Option Nat} {s : LineageTree} (h : Struct z s)
    (e : List (Nat × Nat)) : Struct z { s with extantLngs := e } :=
  ⟨h.bound, h.childLive, h.parentLive, h.childNodup, h.lngInj, h.order, h.rootSet⟩

theorem Lazy.order_lazy {se sl : LineageTree} (h : Lazy se sl) :
    ∀ a n p, sl.mem.cells a = some n → n.parent = some p → p < a :=
  fun a n p ha hp => h.struct.order a n p (by simp) ha hp

theorem lazy_addExternal {se sl : LineageTree} (h : Lazy se sl) (t : Int) (lng : Nat)
    (data : Int) (hpre : lngInTree se lng = false)
    (hf : ∀ a nl, sl.mem.cells a = some nl → nl.lng ≠ lng) :
    Lazy (addExtantLineageExternal se t lng data) (addExtantLineageExternal sl t lng data) := by
  have re := addExternal_rel se t lng data
  have rl := addExternal_rel sl t lng data
  have hx0e : se.mem.cells se.mem.next = none := h.inv.struct.bound _ (le_refl _)
  have hx0l : sl.mem.cells se.mem.next = none := h.struct.bound _ (by rw [h.next])
  have hne : (addExtantLineageExternal se t lng data).mem.cells se.mem.next =
      some (mkNode lng data t true none) := by rw [re.cells]; simp
  have hnl : (addExtantLineageExternal sl t lng data).mem.cells se.mem.next =
      some (mkNode lng data t true none) := by rw [rl.cells, h.next]; simp
  refine ⟨re.inv_addRoot h.inv (lngInTree_false h.inv.struct hpre),
    rl.struct_addRoot h.struct hf, ?_, by rw [rl.next, re.next, h.next],
    by rw [rl.extantLngs, re.extantLngs, h.extantLngs, h.next],
    by rw [rl.roots]; exact nodup_setInsert h.rootsNodup _, ?_⟩
  · refine h.rel.add
      (fun a n p ha hp => by
        obtain ⟨_, np, e, _⟩ := h.struct.parentLive a n p (by simp) ha hp
        rw [e]; simp)
      hx0e hx0l hne hnl rfl rfl (fun p hp => by simp [mkNode] at hp) ?_ ?_ ?_ ?_
    · intro a ha
      rw [re.cells, if_neg ha]
      exact keepsE_same a
    · intro a ha
      rw [rl.cells, h.next, if_neg ha]
      exact keepsL_same a
    · intro a ne' ha
      rw [re.cells] at ha
      rw [rl.cells, h.next]
      by_cases hax : a = se.mem.next
      · rw [if_pos hax] at ha ⊢
        cases ha
        exact ⟨_, rfl, SameData.refl_data _⟩
      · rw [if_neg hax] at ha ⊢
        exact h.rel.data a ne' ha
    · intro a nl' ha hd
      rw [re.cells] at hd
      rw [rl.cells, h.next] at ha
      by_cases hax : a = se.mem.next
      · rw [if_pos hax] at hd
        cases hd
      · rw [if_neg hax] at ha hd
        exact h.rel.flags a nl' ha hd
  · intro a nl ha
    rw [rl.cells] at ha
    by_cases hax : a = sl.mem.next
    · rw [if_pos hax] at ha
      cases ha
      rfl
    · rw [if_neg hax] at ha
      exact h.noNeeded a nl ha

theorem lazy_add {se sl se' : LineageTree} (h : Lazy se sl) {t : Int} {lng lngParent : Nat}
    {data : Int} {pa : Nat} {np : LineageTreeNode} (hpre : lngInTree se lng = false)
    (hf : ∀ a nl, sl.mem.cells a = some nl → nl.lng ≠ lng)
    (hE : mapFind se.extantLngs lngParent = some pa)
    (re : AddRel se se' t lng data pa np) :
    ∃ sl' npl, addExtantLineage sl t lng data lngParent = .ok sl' ∧
      AddRel sl sl' t lng data pa npl ∧ Lazy se' sl' := by
  obtain ⟨npl, hnpl, hsd⟩ := h.rel.data pa np re.hp
  obtain ⟨sl', hrun, rl⟩ := addExtant_rel (by rw [h.extantLngs]; exact hE) hnpl t lng data
  refine ⟨sl', npl, hrun, rl, ?_⟩
  have hpae : pa ≠ se.mem.next := by
    have := live_lt_next h.inv.struct re.hp
    omega
  have hx0e : se.mem.cells se.mem.next = none := h.inv.struct.bound _ (le_refl _)
  have hx0l : sl.mem.cells se.mem.next = none := h.struct.bound _ (by rw [h.next])
  have hne : se'.mem.cells se.mem.next = some (mkNode lng data t true (some pa)) := by
    rw [re.cells]; simp [hpae.symm]
  have hnl : sl'.mem.cells se.mem.next = some (mkNode lng data t true (some pa)) := by
    rw [rl.cells, h.next]; simp [hpae.symm]
  refine ⟨re.inv_add h.inv (lngInTree_false h.inv.struct hpre),
    rl.struct_add h.struct hf, ?_, by rw [rl.next, re.next, h.next],
    by rw [rl.extantLngs, re.extantLngs, h.extantLngs, h.next],
    by rw [rl.roots]; exact h.rootsNodup, ?_⟩
  · refine h.rel.add
      (fun a n p ha hp => by
        obtain ⟨_, np, e, _⟩ := h.struct.parentLive a n p (by simp) ha hp
        rw [e]; simp)
      hx0e hx0l hne hnl rfl rfl
      (fun p hp => by
        simp only [mkNode, Option.some.injEq] at hp
        subst hp
        rw [re.hp]; simp) ?_ ?_ ?_ ?_
    · intro a ha
      rw [re.cells, if_neg ha]
      by_cases hap : a = pa
      · subst hap
        rw [if_pos rfl]
        constructor
        · intro e
          rw [re.hp] at e
          cases e
        · intro ne e
          rw [re.hp] at e
          cases e
          exact ⟨_, rfl, rfl, rfl⟩
      · rw [if_neg hap]
        exact keepsE_same a
    · intro a ha
      rw [rl.cells, h.next, if_neg ha]
      by_cases hap : a = pa
      · subst hap
        rw [if_pos rfl]
        constructor
        · intro e
          rw [hnpl] at e
          cases e
        · intro nl e
          rw [hnpl] at e
          cases e
          exact ⟨_, rfl, rfl, rfl, rfl⟩
      · rw [if_neg hap]
        exact keepsL_same a
    · intro a ne' ha
      rw [re.cells] at ha
      rw [rl.cells, h.next]
      by_cases hap : a = pa
      · subst hap
        rw [if_pos rfl] at ha ⊢
        cases ha
        exact ⟨_, rfl, hsd⟩
      · rw [if_neg hap] at ha ⊢
        by_cases hax : a = se.mem.next
        · rw [if_pos hax] at ha ⊢
          cases ha
          exact ⟨_, rfl, SameData.refl_data _⟩
        · rw [if_neg hax] at ha ⊢
          exact h.rel.data a ne' ha
    · intro a nl' ha hd
      rw [re.cells] at hd
      rw [rl.cells, h.next] at ha
      by_cases hap : a = pa
      · subst hap
        rw [if_pos rfl] at hd
        cases hd
      · rw [if_neg hap] at ha hd
        by_cases hax : a = se.mem.next
        · rw [if_pos hax] at hd
          cases hd
        · rw [if_neg hax] at ha hd
          exact h.rel.flags a nl' ha hd
  · intro a nl ha
    rw [rl.cells] at ha
    by_cases hap : a = pa
    · subst hap
      rw [if_pos rfl] at ha
      cases ha
      exact h.noNeeded a npl hnpl
    · rw [if_neg hap] at ha
      by_cases hax : a = sl.mem.next
      · rw [if_pos hax] at ha
        cases ha
        rfl
      · rw [if_neg hax] at ha
        exact h.noNeeded a nl ha

theorem lazy_sample {se sl se' : LineageTree} (h : Lazy se sl) {lng a : Nat} {t : Int}
    {loc : String} {n : LineageTreeNode}
    (hE : mapFind se.extantLngs lng = some a)
    (re : SampleRel se se' lng t loc a n) :
    ∃ sl', sampleExtantLineage sl lng t loc = .ok (sl', true) ∧ Lazy se' sl' := by
  obtain ⟨nl, hnl, hsd⟩ := h.rel.data a n re.ha
  have hl : nl.lng = lng := hsd.1.trans re.hlng
  rcases sample_rel (by rw [h.extantLngs]; exact hE) hnl hl t loc with ⟨hs, _⟩ | ⟨sl', hrun, rl⟩
  · rw [hsd.2.2.2.2.2.2.1, re.hsam] at hs
    cases hs
  refine ⟨sl', hrun, re.inv_sample h.inv, ?_, ?_, by rw [rl.next, re.next, h.next],
    by rw [rl.extantLngs, re.extantLngs, h.extantLngs], by rw [rl.roots]; exact h.rootsNodup,
    ?_⟩
  · refine Struct.congr h.struct rl.next rl.roots ?_ ?_
    · intro b nb hb
      rw [rl.cells] at hb
      by_cases hba : b = a
      · subst hba
        rw [if_pos rfl] at hb
        cases hb
        exact ⟨nl, hnl, rfl, rfl, rfl⟩
      · rw [if_neg hba] at hb
        exact ⟨nb, hb, rfl, rfl, rfl⟩
    · intro b nb0 hb
      rw [rl.cells]
      by_cases hba : b = a
      · subst hba
        rw [if_pos rfl]
        rw [hnl] at hb
        cases hb
        exact ⟨_, rfl, rfl, rfl, rfl⟩
      · rw [if_neg hba]
        exact ⟨nb0, hb, rfl, rfl, rfl⟩
  · refine h.rel.same ?_ ?_ ?_ ?_
    · intro b
      rw [re.cells]
      by_cases hba : b = a
      · subst hba
        rw [if_pos rfl]
        constructor
        · intro e
          rw [re.ha] at e
          cases e
        · intro ne e
          rw [re.ha] at e
          cases e
          exact ⟨_, rfl, rfl, rfl⟩
      · rw [if_neg hba]
        exact keepsE_same b
    · intro b
      rw [rl.cells]
      by_cases hba : b = a
      · subst hba
        rw [if_pos rfl]
        constructor
        · intro e
          rw [hnl] at e
          cases e
        · intro nl0 e
          rw [hnl] at e
          cases e
          exact ⟨_, rfl, rfl, rfl, rfl⟩
      · rw [if_neg hba]
        exact keepsL_same b
    · intro b ne' hb
      rw [re.cells] at hb
      rw [rl.cells]
      by_cases hba : b = a
      · subst hba
        rw [if_pos rfl] at hb ⊢
        cases hb
        obtain ⟨d1, d2, d3, d4, d5, d6, d7, d8⟩ := hsd
        exact ⟨_, rfl, d1, d2, rfl, rfl, d5, d6, rfl, d8⟩
      · rw [if_neg hba] at hb ⊢
        exact h.rel.data b ne' hb
    · intro b nl' hb hd
      rw [re.cells] at hd
      rw [rl.cells] at hb
      by_cases hba : b = a
      · rw [if_pos hba] at hd
        cases hd
      · rw [if_neg hba] at hb hd
        exact h.rel.flags b nl' hb hd
  · intro b nl' hb
    rw [rl.cells] at hb
    by_cases hba : b = a
    · subst hba
      rw [if_pos rfl] at hb
      cases hb
      exact h.noNeeded b nl hnl
    · rw [if_neg hba] at hb
      exact h.noNeeded b nl' hb

theorem lazy_remove {se sl : LineageTree} (h : Lazy se sl) {lng x : Nat}
    (hE : mapFind se.extantLngs lng = some x) (ig : Bool) :
    ∃ se' sl', removeExtantLineage se lng ig = .ok se' ∧
      removeExtantLineageLazy sl lng = .ok sl' ∧ Lazy se' sl' ∧
      ∀ a nl', sl'.mem.cells a = some nl' → ∃ nl, sl.mem.cells a = some nl ∧
        nl.lng = nl'.lng := by
  obtain ⟨nx, hx, hlng, hext⟩ := (h.inv.einv lng x).1 hE
  obtain ⟨nlx, hxl, hsd⟩ := h.rel.data x nx hx
  obtain ⟨s2, hrun, st⟩ := remove_outcome h.inv.struct h.inv.prune hE hx ig
  obtain ⟨se', hrun', hinv, hext', _⟩ := remove_frame h.inv hE ig
  have hse' : se' = { s2 with extantLngs := mapErase s2.extantLngs lng } := by
    rw [hrun] at hrun'
    exact (Except.ok.inj hrun').symm
  have hs1 := h.inv.struct.markExtinct hx
  have hsl1 := h.struct.markExtinct hxl
  have hx1 : ({ se with mem := se.mem.set x { nx with extant := false } } :
      LineageTree).mem.cells x = some { nx with extant := false } := by simp [Mem.set]
  have R1 : LazyRel (se.mem.set x { nx with extant := false }).cells
      (sl.mem.set x { nlx with extant := false }) := by
    refine h.rel.same ?_ ?_ ?_ ?_
    · intro b
      simp only [Mem.set]
      by_cases hbx : b = x
      · subst hbx
        rw [if_pos rfl]
        constructor
        · intro e
          rw [hx] at e
          cases e
        · intro ne e
          rw [hx] at e
          cases e
          exact ⟨_, rfl, rfl, rfl⟩
      · rw [if_neg hbx]
        exact keepsE_same b
    · intro b
      simp only [Mem.set]
      by_cases hbx : b = x
      · subst hbx
        rw [if_pos rfl]
        constructor
        · intro e
          rw [hxl] at e
          cases e
        · intro nl0 e
          rw [hxl] at e
          cases e
          exact ⟨_, rfl, rfl, rfl, rfl⟩
      · rw [if_neg hbx]
        exact keepsL_same b
    · intro b ne' hb
      simp only [Mem.set] at hb ⊢
      by_cases hbx : b = x
      · subst hbx
        rw [if_pos rfl] at hb ⊢
        cases hb
        obtain ⟨d1, d2, d3, d4, d5, d6, d7, d8⟩ := hsd
        exact ⟨_, rfl, d1, d2, d3, d4, d5, rfl, d7, d8⟩
      · rw [if_neg hbx] at hb ⊢
        exact h.rel.data b ne' hb
    · intro b nl' hb hd
      simp only [Mem.set] at hb hd
      by_cases hbx : b = x
      · rw [if_pos hbx] at hd
        cases hd
      · rw [if_neg hbx] at hb hd
        exact h.rel.flags b nl' hb hd
  obtain ⟨R2, hnext⟩ := st.lazy_rel hs1 hx1 rfl R1
    (fun a n p ha hp => hsl1.order a n p (by simp) ha hp)
  refine ⟨se', ⟨sl.mem.set x { nlx with extant := false }, sl.nnodes,
    mapErase sl.extantLngs lng, sl.roots, sl.sampled_lineages⟩, hrun', ?_, ?_, ?_⟩
  · simp [removeExtantLineageLazy, LineageTree.extantNode, h.extantLngs, hE, bind,
      Except.bind, Mem.get_of_cells hxl, pure, Except.pure]
  · refine ⟨hinv, hsl1.withExtant _, ?_, ?_, ?_, h.rootsNodup, ?_⟩
    · rw [hse']
      exact R2
    · rw [hse']
      show sl.mem.next = s2.mem.next
      rw [hnext]
      exact h.next
    · rw [hext', h.extantLngs]
    · intro a nl' ha
      change (sl.mem.set x { nlx with extant := false }).cells a = some nl' at ha
      simp only [Mem.set] at ha
      by_cases hax : a = x
      · rw [if_pos hax] at ha
        cases ha
        exact h.noNeeded x nlx hxl
      · rw [if_neg hax] at ha
        exact h.noNeeded a nl' ha
  · intro a nl' ha
    change (sl.mem.set x { nlx with extant := false }).cells a = some nl' at ha
    simp only [Mem.set] at ha
    by_cases hax : a = x
    · subst hax
      rw [if_pos rfl] at ha
      cases ha
      exact ⟨nlx, hxl, rfl⟩
    · rw [if_neg hax] at ha
      exact ⟨nl', ha, rfl⟩

theorem lazy_step {se sl : LineageTree} (h : Lazy se sl) {op : Op}
    (hpre : opPre se op = true)
    (hfresh : ∀ lng, op.addedLng = some lng →
      ∀ a nl, sl.mem.cells a = some nl → nl.lng ≠ lng) :
    ∃ se' sl', applyOp se op = .ok se' ∧ applyOpLazy sl op = .ok sl' ∧ Lazy se' sl' ∧
      ∀ a nl', sl'.mem.cells a = some nl' →
        (∃ a0 nl, sl.mem.cells a0 = some nl ∧ nl.lng = nl'.lng) ∨
          op.addedLng = some nl'.lng := by
  cases op with
  | addExternal t lng data =>
    simp only [opPre, Bool.not_eq_true'] at hpre
    refine ⟨_, _, rfl, rfl, lazy_addExternal h t lng data hpre (hfresh lng rfl), ?_⟩
    intro a nl' ha
    rw [(addExternal_rel sl t lng data).cells] at ha
    by_cases hax : a = sl.mem.next
    · rw [if_pos hax] at ha
      cases ha
      exact Or.inr rfl
    · rw [if_neg hax] at ha
      exact Or.inl ⟨a, nl', ha, rfl⟩
  | add t lng data lngParent =>
    simp only [opPre, Bool.and_eq_true, Bool.not_eq_true', Option.isSome_iff_exists] at hpre
    obtain ⟨hf, pa, hpa⟩ := hpre
    obtain ⟨np, hnp, _, _⟩ := (h.inv.einv lngParent pa).1 hpa
    obtain ⟨se', hrun, re⟩ := addExtant_rel hpa hnp t lng data
    obtain ⟨sl', npl, hrunl, rl, hlazy⟩ := lazy_add h hf (hfresh lng rfl) hpa re
    refine ⟨se', sl', hrun, hrunl, hlazy, ?_⟩
    intro a nl' ha
    rw [rl.cells] at ha
    by_cases hap : a = pa
    · subst hap
      rw [if_pos rfl] at ha
      cases ha
      exact Or.inl ⟨a, npl, rl.hp, rfl⟩
    · rw [if_neg hap] at ha
      by_cases hax : a = sl.mem.next
      · rw [if_pos hax] at ha
        cases ha
        exact Or.inr rfl
      · rw [if_neg hax] at ha
        exact Or.inl ⟨a, nl', ha, rfl⟩
  | sample lng t loc =>
    simp only [opPre, Option.isSome_iff_exists] at hpre
    obtain ⟨a, ha⟩ := hpre
    obtain ⟨n, hn, hl, _⟩ := (h.inv.einv lng a).1 ha
    obtain ⟨nl, hnl, hsd⟩ := h.rel.data a n hn
    rcases sample_rel ha hn hl t loc with ⟨hs, hrun⟩ | ⟨se', hrun, re⟩
    · rcases sample_rel (by rw [h.extantLngs]; exact ha) hnl (hsd.1.trans hl) t loc with
        ⟨_, hrunl⟩ | ⟨sl', _, rl⟩
      · exact ⟨se, sl, by simp [applyOp, hrun], by simp [applyOpLazy, applyOp, hrunl], h,
          fun a0 nl' h0 => Or.inl ⟨a0, nl', h0, rfl⟩⟩
      · have := rl.hsam
        rw [hsd.2.2.2.2.2.2.1, hs] at this
        cases this
    · obtain ⟨sl', hrunl, hlazy⟩ := lazy_sample h ha re
      refine ⟨se', sl', by simp [applyOp, hrun], by simp [applyOpLazy, applyOp, hrunl],
        hlazy, ?_⟩
      intro a0 nl' h0
      rcases sample_rel (by rw [h.extantLngs]; exact ha) hnl (hsd.1.trans hl) t loc with
        ⟨_, hrunl'⟩ | ⟨sl'', hrunl', rl⟩
      · rw [hrunl] at hrunl'
        cases hrunl'
      · rw [hrunl] at hrunl'
        cases hrunl'
        rw [rl.cells] at h0
        by_cases hax : a0 = a
        · subst hax
          rw [if_pos rfl] at h0
          cases h0
          exact Or.inl ⟨a0, nl, hnl, rfl⟩
        · rw [if_neg hax] at h0
          exact Or.inl ⟨a0, nl', h0, rfl⟩
  | remove lng ig =>
    simp only [opPre, Option.isSome_iff_exists] at hpre
    obtain ⟨x, hx⟩ := hpre
    obtain ⟨se', sl', h1, h2, h3, h4⟩ := lazy_remove h hx ig
    refine ⟨se', sl', h1, h2, h3, ?_⟩
    intro a nl' ha
    obtain ⟨nl, e1, e2⟩ := h4 a nl' ha
    exact Or.inl ⟨a, nl, e1, e2⟩

theorem lazy_run : ∀ (ops : List Op) (se sl : LineageTree) (U : List Nat), Lazy se sl →
    (∀ a nl, sl.mem.cells a = some nl → nl.lng ∈ U) → validOps se ops = true →
    (U ++ ops.filterMap Op.addedLng).Nodup →
    ∃ se' sl', runOps se ops = .ok se' ∧ runOpsLazy sl ops = .ok sl' ∧ Lazy se' sl'
  | [], se, sl, _, h, _, _, _ => ⟨se, sl, rfl, rfl, h⟩
  | op :: ops, se, sl, U, h, hU, hv, hn => by
    simp only [validOps, Bool.and_eq_true] at hv
    obtain ⟨hpre, hrest⟩ := hv
    have hfresh : ∀ lng, op.addedLng = some lng →
        ∀ a nl, sl.mem.cells a = some nl → nl.lng ≠ lng := by
      intro lng hl a nl ha e
      rw [List.filterMap_cons, hl] at hn
      have h1 : lng ∉ U := by
        intro hin
        have := List.nodup_append.mp hn
        exact this.2.2 hin (List.mem_cons_self _ _)
      exact h1 (e ▸ hU a nl ha)
    obtain ⟨se1, sl1, r1, r2, hl1, hcl⟩ := lazy_step h hpre hfresh
    simp only [r1] at hrest
    cases hadd : op.addedLng with
    | none =>
      rw [List.filterMap_cons, hadd] at hn
      obtain ⟨se', sl', e1, e2, e3⟩ := lazy_run ops se1 sl1 U hl1
        (fun a nl' ha => by
          rcases hcl a nl' ha with ⟨a0, nl, g1, g2⟩ | g
          · rw [← g2]
            exact hU a0 nl g1
          · rw [hadd] at g
            cases g) hrest hn
      exact ⟨se', sl', by simp [runOps, r1, e1], by simp [runOpsLazy, r2, e2], e3⟩
    | some lng =>
      rw [List.filterMap_cons, hadd] at hn
      obtain ⟨se', sl', e1, e2, e3⟩ := lazy_run ops se1 sl1 (U ++ [lng]) hl1
        (fun a nl' ha => by
          rcases hcl a nl' ha with ⟨a0, nl, g1, g2⟩ | g
          · rw [← g2]
            exact List.mem_append_left _ (hU a0 nl g1)
          · rw [hadd] at g
            cases g
            exact List.mem_append_right _ (List.mem_singleton_self _)) hrest
        (by rw [List.append_assoc]; exact hn)
      exact ⟨se', sl', by simp [runOps, r1, e1], by simp [runOpsLazy, r2, e2], e3⟩

theorem Lazy.empty_lazy : Lazy LineageTree.empty LineageTree.empty where
  inv := Inv.empty_inv
  struct := Struct.empty_struct
  rel := by
    refine ⟨?_, ?_, ?_, ?_⟩
    · intro a ne h
      simp [LineageTree.empty] at h
    · intro a ne h
      simp [LineageTree.empty] at h
    · intro a nl h
      simp [LineageTree.empty] at h
    · intro a c1 c2 d1 d2 n1 n2 _ h
      simp [LineageTree.empty] at h
  next := rfl
  extantLngs := rfl
  rootsNodup := by simp [LineageTree.empty]
  noNeeded := by
    intro a nl h
    simp [LineageTree.empty] at h

theorem Up.to_desc {s : LineageTree} (hs : Struct none s) {x b : Nat} (h : Up s.mem x b) :
    Desc s.mem b x := by
  induction h with
  | refl => exact Desc.refl
  | step _ hb hp ih =>
    obtain ⟨_, np, hnp, hmem⟩ := hs.parentLive _ _ _ (by simp) hb hp
    exact (Desc.child hnp hmem).trans_desc ih

theorem Up.below_child {m : Mem} {y c : Nat} (h : Up m y c) (hne : y ≠ c) :
    ∃ k nk, m.cells k = some nk ∧ nk.parent = some c ∧ Up m y k := by
  cases h with
  | refl => exact absurd rfl hne
  | step hu hb hp => exact ⟨_, _, hb, hp, hu⟩

theorem Lazy.up_lazy {se sl : LineageTree} (h : Lazy se sl) {d a : Nat}
    (hu : Up se.mem d a) : Up sl.mem d a := by
  induction hu with
  | refl => exact Up.refl
  | step _ hb hp ih =>
    have := (h.rel.link _ _ hb).up_target _ hp
    exact ih.trans_up this

theorem Lazy.up_eager {se sl : LineageTree} (h : Lazy se sl) (d : Nat) :
    se.mem.cells d ≠ none → ∀ a, se.mem.cells a ≠ none → Up sl.mem d a → Up se.mem d a := by
  induction d using Nat.strong_induction_on with
  | _ d ih =>
    intro hd a ha hu
    by_cases hda : d = a
    · subst hda
      exact Up.refl
    · obtain ⟨ne, hne⟩ := Option.ne_none_iff_exists'.mp hd
      have hl := h.rel.link d ne hne
      obtain ⟨p, hp, hup⟩ := hl.above a hu (Ne.symm hda) ha
      have hlt : p < d := hl.target_lt h.order_lazy p hp
      exact Up.head_step hne hp (ih p hlt (hl.target_kept hp) a ha hup)

theorem Lazy.live_of_sampled {se sl : LineageTree} (h : Lazy se sl) {z : Nat}
    {nz : LineageTreeNode} (hz : sl.mem.cells z = some nz) (hs : nz.sampled = true) :
    ∃ ne, se.mem.cells z = some ne ∧ ne.sampled = true := by
  cases he : se.mem.cells z with
  | none =>
    have := (h.rel.flags z nz hz he).2
    rw [hs] at this
    cases this
  | some ne =>
    obtain ⟨nl, g1, g2⟩ := h.rel.data z ne he
    rw [hz] at g1
    cases g1
    exact ⟨ne, rfl, g2.2.2.2.2.2.2.1.symm.trans hs⟩

theorem Lazy.has_sampled_iff {se sl : LineageTree} (h : Lazy se sl) {a : Nat}
    (ha : se.mem.cells a ≠ none) : HasSampled se.mem a ↔ HasSampled sl.mem a := by
  constructor
  · rintro ⟨z, nz, d1, d2, d3⟩
    obtain ⟨nl, g1, g2⟩ := h.rel.data z nz d2
    exact ⟨z, nl, (h.up_lazy (d1.to_up h.inv.struct)).to_desc h.struct, g1,
      g2.2.2.2.2.2.2.1.trans d3⟩
  · rintro ⟨z, nz, d1, d2, d3⟩
    obtain ⟨ne, e1, e2⟩ := h.live_of_sampled d2 d3
    exact ⟨z, ne, (h.up_eager z (by rw [e1]; simp) a ha (d1.to_up h.struct)).to_desc
      h.inv.struct, e1, e2⟩

/-- Two children of `a` in the pruned tree do not lie below the same node strictly below
`a` in the lazy tree. -/
theorem Lazy.sep {se sl : LineageTree} (h : Lazy se sl) {a y1 y2 : Nat}
    {n1 n2 : LineageTreeNode} (h1 : se.mem.cells y1 = some n1) (p1 : n1.parent = some a)
    (h2 : se.mem.cells y2 = some n2) (p2 : n2.parent = some a) :
    ∀ (k c : Nat), y1 ≤ k + c → a < c → Up sl.mem y1 c → Up sl.mem y2 c → y1 = y2 := by
  intro k
  induction k with
  | zero =>
    intro c hk hac u1 u2
    have hle := u1.le_of_order h.order_lazy
    have hc : c = y1 := by omega
    subst hc
    by_contra hne
    obtain ⟨p, hp, hup⟩ := (h.rel.link y2 n2 h2).above c u2 hne (by rw [h1]; simp)
    rw [p2] at hp
    cases hp
    have := hup.le_of_order h.order_lazy
    omega
  | succ k ih =>
    intro c hk hac u1 u2
    by_cases hlive : se.mem.cells c = none
    · have hy1 : y1 ≠ c := fun e => by rw [e, hlive] at h1; cases h1
      have hy2 : y2 ≠ c := fun e => by rw [e, hlive] at h2; cases h2
      obtain ⟨k1, nk1, a1, a2, a3⟩ := u1.below_child hy1
      obtain ⟨k2, nk2, b1, b2, b3⟩ := u2.below_child hy2
      have := h.rel.onePath c k1 k2 y1 y2 nk1 nk2 hlive a1 a2 b1 b2 a3 b3
        (by rw [h1]; simp) (by rw [h2]; simp)
      subst this
      have hck := h.order_lazy k1 nk1 c a1 a2
      exact ih k1 (by omega) (by omega) a3 b3
    · have key : ∀ y n, se.mem.cells y = some n → n.parent = some a → Up sl.mem y c →
          y = c := by
        intro y n hy py uy
        by_contra hne
        obtain ⟨p, hp, hup⟩ := (h.rel.link y n hy).above c uy (Ne.symm hne) hlive
        rw [py] at hp
        cases hp
        have := hup.le_of_order h.order_lazy
        omega
      rw [key y1 n1 h1 p1 u1, key y2 n2 h2 p2 u2]

theorem Lazy.ks_iff {se sl : LineageTree} (h : Lazy se sl) {a : Nat}
    (ha : se.mem.cells a ≠ none) : KS se.mem a ↔ KS sl.mem a := by
  obtain ⟨ne, hne⟩ := Option.ne_none_iff_exists'.mp ha
  obtain ⟨nl, hnl, hsd⟩ := h.rel.data a ne hne
  constructor
  · rintro ⟨ne', hne', hk⟩
    rw [hne] at hne'
    cases hne'
    refine ⟨nl, hnl, ?_⟩
    rcases hk with hs | ⟨y1, y2, m1, m2, hne12, s1, s2⟩
    · exact Or.inl (hsd.2.2.2.2.2.2.1.trans hs)
    · right
      have key : ∀ y, y ∈ ne.children → HasSampled se.mem y → ∃ k ny, k ∈ nl.children ∧
          HasSampled sl.mem k ∧ se.mem.cells y = some ny ∧ ny.parent = some a ∧
          Up sl.mem y k := by
        intro y hy hsy
        obtain ⟨_, ny, e1, e2⟩ := h.inv.struct.childLive a ne y (by simp) hne hy
        have hya : a < y := h.inv.struct.order y ny a (by simp) e1 e2
        have hu : Up sl.mem y a := h.up_lazy (Up.step Up.refl e1 e2)
        obtain ⟨k, nk, f1, f2, f3⟩ := hu.below_child (by omega)
        obtain ⟨_, np, g1, g2⟩ := h.struct.parentLive k nk a (by simp) f1 f2
        rw [hnl] at g1
        cases g1
        obtain ⟨z, nz, d1, d2, d3⟩ := (h.has_sampled_iff (by rw [e1]; simp)).mp hsy
        exact ⟨k, ny, g2, ⟨z, nz, (f3.to_desc h.struct).trans_desc d1, d2, d3⟩, e1, e2, f3⟩
      obtain ⟨k1, n1, a1, a2, a3, a4, a5⟩ := key y1 m1 s1
      obtain ⟨k2, n2, b1, b2, b3, b4, b5⟩ := key y2 m2 s2
      refine ⟨k1, k2, a1, b1, ?_, a2, b2⟩
      intro e
      subst e
      obtain ⟨_, nk, c1, c2⟩ := h.struct.childLive a nl k1 (by simp) hnl a1
      have hak := h.order_lazy k1 nk a c1 c2
      exact hne12 (h.sep a3 a4 b3 b4 y1 k1 (by omega) hak a5 b5)
  · rintro ⟨nl', hnl', hk⟩
    rw [hnl] at hnl'
    cases hnl'
    refine ⟨ne, hne, ?_⟩
    rcases hk with hs | ⟨c1, c2, m1, m2, hne12, s1, s2⟩
    · exact Or.inl (hsd.2.2.2.2.2.2.1.symm.trans hs)
    · right
      have key : ∀ c, c ∈ nl.children → HasSampled sl.mem c → ∃ y nc, y ∈ ne.children ∧
          HasSampled se.mem y ∧ sl.mem.cells c = some nc ∧ nc.parent = some a ∧
          Up sl.mem y c := by
        intro c hc hsc
        obtain ⟨_, nc, e1, e2⟩ := h.struct.childLive a nl c (by simp) hnl hc
        have hac := h.order_lazy c nc a e1 e2
        obtain ⟨z, nz, d1, d2, d3⟩ := hsc
        obtain ⟨nze, z1, z2⟩ := h.live_of_sampled d2 d3
        have hzc : Up sl.mem z c := d1.to_up h.struct
        have hcz := hzc.le_of_order h.order_lazy
        obtain ⟨y, ny, f1, f2, f3⟩ := h.rel.child_above h.order_lazy z (by rw [z1]; simp) a ha
          (Up.step hzc e1 e2) (by omega)
        obtain ⟨_, np, g1, g2⟩ := h.inv.struct.parentLive y ny a (by simp) f1 f2
        rw [hne] at g1
        cases g1
        have hay : a < y := h.inv.struct.order y ny a (by simp) f1 f2
        have hyc : Up sl.mem y c := by
          rcases f3.comparable hzc with hh | hh
          · exact hh
          · rcases hh.head_cases with e | ⟨nx, p, k1, k2, k3⟩
            · rw [e]
              exact Up.refl
            · rw [e1] at k1
              cases k1
              rw [e2] at k2
              cases k2
              have := k3.le_of_order h.order_lazy
              omega
        have hdes : Desc se.mem y z :=
          (h.up_eager z (by rw [z1]; simp) y (by rw [f1]; simp) f3).to_desc h.inv.struct
        exact ⟨y, nc, g2, ⟨z, nze, hdes, z1, z2⟩, e1, e2, hyc⟩
      obtain ⟨y1, n1, a1, a2, a3, a4, a5⟩ := key c1 m1 s1
      obtain ⟨y2, n2, b1, b2, b3, b4, b5⟩ := key c2 m2 s2
      refine ⟨y1, y2, a1, b1, ?_, a2, b2⟩
      intro e
      subst e
      exact hne12 (Up.one_child h.order_lazy a5 b5 a3 a4 b3 b4)

theorem Lazy.ks_live {se sl : LineageTree} (h : Lazy se sl) {a : Nat}
    (hk : KS sl.mem a) : se.mem.cells a ≠ none := by
  intro hd
  obtain ⟨nl, hnl, hk⟩ := hk
  rcases hk with hs | ⟨c1, c2, m1, m2, hne12, s1, s2⟩
  · have := (h.rel.flags a nl hnl hd).2
    rw [hs] at this
    cases this
  · have key : ∀ c, c ∈ nl.children → HasSampled sl.mem c → ∃ nc z, sl.mem.cells c = some nc ∧
        nc.parent = some a ∧ Up sl.mem z c ∧ se.mem.cells z ≠ none := by
      intro c hc hsc
      obtain ⟨_, nc, e1, e2⟩ := h.struct.childLive a nl c (by simp) hnl hc
      obtain ⟨z, nz, d1, d2, d3⟩ := hsc
      obtain ⟨nze, z1, _⟩ := h.live_of_sampled d2 d3
      exact ⟨nc, z, e1, e2, d1.to_up h.struct, by rw [z1]; simp⟩
    obtain ⟨n1, z1, a1, a2, a3, a4⟩ := key c1 m1 s1
    obtain ⟨n2, z2, b1, b2, b3, b4⟩ := key c2 m2 s2
    exact hne12 (h.rel.onePath a c1 c2 z1 z2 n1 n2 hd a1 a2 b1 b2 a3 b3 a4 b4)

theorem Lazy.link_conv {se sl : LineageTree} (h : Lazy se sl) {a : Nat} {q : Option Nat}
    {t : Int} (hl : LinkK (KS se.mem) se.mem.cells a q t) :
    LinkK (KS sl.mem) sl.mem.cells a q t := by
  have hk : ∀ p, KS sl.mem p → se.mem.cells p ≠ none := fun p hp => h.ks_live hp
  induction hl with
  | @root b nb h1 h2 =>
    have := h.rel.link b nb h1
    exact this.weaken_none hk h2
  | @kept b p nb h1 h2 h3 =>
    have := h.rel.link b nb h1
    have hp : se.mem.cells p ≠ none := by
      obtain ⟨np, e, _⟩ := h3
      rw [e]; simp
    exact this.retarget hk p h2 ((h.ks_iff hp).mp h3)
  | @skipRoot b p nb t h1 h2 h3 _ ih =>
    have hb := h.rel.link b nb h1
    obtain ⟨_, np, hnp, _⟩ := h.inv.struct.parentLive b nb p (by simp) h1 h2
    have hp : se.mem.cells p ≠ none := by rw [hnp]; simp
    obtain ⟨nl, g1, g2⟩ := ((hb.concat hk p none t h2
      (fun hks => h3 ((h.ks_iff hp).mpr hks)) ih).1 rfl)
    obtain ⟨nl', f1, f2⟩ := h.rel.data b nb h1
    rw [g1] at f1
    cases f1
    rw [← f2.2.1]
    exact g2
  | @skip b p g nb t h1 h2 h3 _ ih =>
    have hb := h.rel.link b nb h1
    obtain ⟨_, np, hnp, _⟩ := h.inv.struct.parentLive b nb p (by simp) h1 h2
    have hp : se.mem.cells p ≠ none := by rw [hnp]; simp
    exact (hb.concat hk p (some g) t h2 (fun hks => h3 ((h.ks_iff hp).mpr hks)) ih).2 g rfl

/-- A forest that is the reduction of the pruned tree is the reduction of the tree that is
not pruned. -/
theorem Lazy.realises_conv {se sl : LineageTree} (h : Lazy se sl)
    {c : Nat → Option LineageTreeNode}
    (f : Realises se.mem.cells (KS se.mem) (KS se.mem) c) :
    Realises sl.mem.cells (KS sl.mem) (KS sl.mem) c where
  node := fun b nb hb => by
    obtain ⟨a, na, q, hS, ha, hcd, hnd, hlk, hpar⟩ := f.node b nb hb
    obtain ⟨nl, g1, g2⟩ := h.rel.data a na ha
    have hlive : se.mem.cells a ≠ none := by rw [ha]; simp
    obtain ⟨c1, c2, c3, c4, c5, c6, c7⟩ := hcd
    obtain ⟨d1, d2, d3, d4, d5, d6, d7, _⟩ := g2
    refine ⟨a, nl, q, (h.ks_iff hlive).mp hS, g1,
      ⟨c1.trans d1.symm, c2.trans d2.symm, c3.trans d3.symm, c4.trans d4.symm,
        c5.trans d7.symm, c6.trans d6.symm, c7.trans d5.symm⟩, hnd, h.link_conv hlk, ?_⟩
    rcases hpar with hp | ⟨p, np, g, ng, e1, e2, e3, e4, e5⟩
    · exact Or.inl hp
    · obtain ⟨ngl, k1, k2⟩ := h.rel.data g ng e4
      exact Or.inr ⟨p, np, g, ngl, e1, e2, e3, k1, e5.trans k2.1.symm⟩
  cover := fun a nl hS ha => by
    have hlive := h.ks_live hS
    obtain ⟨na, hna⟩ := Option.ne_none_iff_exists'.mp hlive
    obtain ⟨nl', g1, g2⟩ := h.rel.data a na hna
    rw [ha] at g1
    cases g1
    obtain ⟨b, nb, e1, e2⟩ := f.cover a na ((h.ks_iff hlive).mpr hS) hna
    exact ⟨b, nb, e1, e2.trans g2.1.symm⟩

theorem forestCells_some {m : Mem} {lo b : Nat} {n : LineageTreeNode} :
    forestCells m lo b = some n ↔ lo ≤ b ∧ m.cells b = some n := by
  unfold forestCells
  constructor
  · intro h
    split_ifs at h with h1
    exact ⟨by omega, h⟩
  · rintro ⟨h1, h2⟩
    rw [if_neg (by omega)]
    exact h2

theorem root_unique {s : LineageTree} (hs : Struct none s) {x1 x2 a : Nat}
    {n1 n2 : LineageTreeNode} (h1 : s.mem.cells x1 = some n1) (p1 : n1.parent = none)
    (h2 : s.mem.cells x2 = some n2) (p2 : n2.parent = none)
    (d1 : Desc s.mem x1 a) (d2 : Desc s.mem x2 a) : x1 = x2 := by
  have u1 := d1.to_up hs
  have u2 := d2.to_up hs
  rcases u1.comparable u2 with h | h
  · exact (Up.root_eq h1 p1 h).symm
  · exact Up.root_eq h2 p2 h

mutual
theorem Repr.mono_cells {c c' : Nat → Option LineageTreeNode}
    (hc : ∀ a n, c a = some n → c' a = some n) :
    ∀ (T : LTree) (a : Nat), Repr c a T → Repr c' a T
  | .mk n ks, a, h => by
    cases h with
    | mk h1 h2 => exact Repr.mk (hc a n h1) (ReprList.monoList hc ks _ h2)
theorem ReprList.monoList {c c' : Nat → Option LineageTreeNode}
    (hc : ∀ a n, c a = some n → c' a = some n) :
    ∀ (Ts : List LTree) (cs : List Nat), ReprList c cs Ts → ReprList c' cs Ts
  | [], _, h => by
    cases h
    exact ReprList.nil
  | T :: Ts, _, h => by
    cases h with
    | cons h1 h2 => exact ReprList.cons (Repr.mono_cells hc T _ h1) (ReprList.monoList hc Ts _ h2)
end

theorem Forest.window {s : LineageTree} {m : Mem} {lo : Nat} {W : List Win}
    (F : Forest s m lo W) {b : Nat} {nb : LineageTreeNode}
    (hb : forestCells m lo b = some nb) :
    ∃ w ∈ W, WinOK s m w ∧
      (viewTree (outside w.lo w.hi) m w.hi [w.r] 0).mem.cells b = some nb := by
  obtain ⟨h1, h2⟩ := forestCells_some.mp hb
  have hlt : b < m.next := by
    by_contra hge
    rw [F.bound b (by omega)] at h2
    cases h2
  obtain ⟨w, hw, g1, g2⟩ := F.tile b h1 hlt
  exact ⟨w, hw, (F.win w hw).1, win_live.mpr ⟨⟨g1, g2⟩, h2⟩⟩

theorem Forest.of_window {s : LineageTree} {m : Mem} {lo : Nat} {W : List Win}
    (F : Forest s m lo W) {w : Win} (hw : w ∈ W) {b : Nat} {nb : LineageTreeNode}
    (hb : (viewTree (outside w.lo w.hi) m w.hi [w.r] 0).mem.cells b = some nb) :
    forestCells m lo b = some nb := by
  obtain ⟨⟨h1, _⟩, h2⟩ := win_live.mp hb
  have := (F.win w hw).2.1
  exact forestCells_some.mpr ⟨by omega, h2⟩

theorem Forest.same_window {s : LineageTree} {m : Mem} {lo : Nat} {W : List Win}
    (F : Forest s m lo W) {w1 w2 : Win} (h1 : w1 ∈ W) (h2 : w2 ∈ W) {b1 b2 : Nat}
    {n1 n2 : LineageTreeNode}
    (c1 : (viewTree (outside w1.lo w1.hi) m w1.hi [w1.r] 0).mem.cells b1 = some n1)
    (c2 : (viewTree (outside w2.lo w2.hi) m w2.hi [w2.r] 0).mem.cells b2 = some n2)
    (hl : n1.lng = n2.lng) : w1 = w2 := by
  obtain ⟨a1, na1, _, ⟨d1, _⟩, e1, cd1, _⟩ := (F.win w1 h1).1.2.node b1 n1 c1
  obtain ⟨a2, na2, _, ⟨d2, _⟩, e2, cd2, _⟩ := (F.win w2 h2).1.2.node b2 n2 c2
  have : a1 = a2 := F.hs.lngInj a1 a2 na1 na2 (by simp) (by simp) e1 e2
    (cd1.1.symm.trans (hl.trans cd2.1))
  subst this
  obtain ⟨_, nx1, g1, g2⟩ := (F.hs.rootSet w1.x).mp (F.selRoot w1 h1)
  obtain ⟨_, nx2, k1, k2⟩ := (F.hs.rootSet w2.x).mp (F.selRoot w2 h2)
  have hx : w1.x = w2.x := root_unique F.hs g1 g2 k1 k2 d1 d2
  exact List.inj_on_of_nodup_map F.nodup h1 h2 hx

theorem Forest.store {s : LineageTree} {m : Mem} {lo : Nat} {W : List Win}
    (F : Forest s m lo W) : TreeStore (forestCells m lo) where
  childLive := fun a n ch ha hc => by
    obtain ⟨w, hw, hok, hv⟩ := F.window ha
    obtain ⟨_, nc, e1, e2⟩ := hok.1.struct.childLive a n ch (by simp) hv hc
    exact ⟨nc, F.of_window hw e1, e2⟩
  parentLive := fun a n p ha hp => by
    obtain ⟨w, hw, hok, hv⟩ := F.window ha
    obtain ⟨_, np, e1, e2⟩ := hok.1.struct.parentLive a n p (by simp) hv hp
    exact ⟨np, F.of_window hw e1, e2⟩
  childNodup := fun a n ha => by
    obtain ⟨w, hw, hok, hv⟩ := F.window ha
    exact hok.1.struct.childNodup a n (by simp) hv
  lngInj := fun a b na nb ha hb hl => by
    obtain ⟨w1, hw1, hok1, hv1⟩ := F.window ha
    obtain ⟨w2, hw2, hok2, hv2⟩ := F.window hb
    have := F.same_window hw1 hw2 hv1 hv2 hl
    subst this
    exact hok1.1.struct.lngInj a b na nb (by simp) (by simp) hv1 hv2 hl

theorem Forest.realises {s : LineageTree} {m : Mem} {lo : Nat} {W : List Win}
    (F : Forest s m lo W) :
    Realises s.mem.cells (KS s.mem) (KS s.mem) (forestCells m lo) where
  node := fun b nb hb => by
    obtain ⟨w, hw, hok, hv⟩ := F.window hb
    obtain ⟨a, na, q, ⟨_, hk⟩, e1, e2, e3, e4, e5⟩ := hok.2.node b nb hv
    refine ⟨a, na, q, hk, e1, e2, e3, e4, ?_⟩
    rcases e5 with h | ⟨p, np, g, ng, g1, g2, g3, g4, g5⟩
    · exact Or.inl h
    · exact Or.inr ⟨p, np, g, ng, g1, g2, F.of_window hw g3, g4, g5⟩
  cover := fun a na hk ha => by
    obtain ⟨x, hx, hd⟩ := desc_of_root F.hs a a na ha (le_refl _)
    obtain ⟨z, nz, d1, d2, d3⟩ := hk.sampled_below
    have hsx : HasSampled s.mem x := ⟨z, nz, hd.trans_desc d1, d2, d3⟩
    obtain ⟨w, hw, rfl⟩ := List.mem_map.mp (F.sel x hx hsx)
    obtain ⟨b, nb, e1, e2⟩ := (F.win w hw).1.2.cover a na ⟨hd, hk⟩ ha
    exact ⟨b, nb, F.of_window hw e1, e2⟩

theorem Forest.roots_nodup {s : LineageTree} {m : Mem} {lo : Nat} {W : List Win}
    (F : Forest s m lo W) : (W.map Win.r).Nodup := by
  refine List.Nodup.map_on ?_ (List.Nodup.of_map _ F.nodup)
  intro w1 h1 w2 h2 hr
  obtain ⟨T1, n1, _, c1, _, _⟩ := win_tree (F.win w1 h1).1 m.next
    (by have := (F.win w1 h1).2.2; omega)
  obtain ⟨T2, n2, _, c2, _, _⟩ := win_tree (F.win w2 h2).1 m.next
    (by have := (F.win w2 h2).2.2; omega)
  have hc1 := F.of_window h1 c1
  have hc2 := F.of_window h2 c2
  rw [hr, hc2] at hc1
  cases hc1
  exact F.same_window h1 h2 c1 c2 rfl

theorem Forest.root_iff {s : LineageTree} {m : Mem} {lo : Nat} {W : List Win}
    (F : Forest s m lo W) (b : Nat) :
    b ∈ W.map Win.r ↔ ∃ nb, forestCells m lo b = some nb ∧ nb.parent = none := by
  constructor
  · intro hb
    obtain ⟨w, hw, rfl⟩ := List.mem_map.mp hb
    obtain ⟨T, n, _, c, hp, _⟩ := win_tree (F.win w hw).1 m.next
      (by have := (F.win w hw).2.2; omega)
    exact ⟨n, F.of_window hw c, hp⟩
  · rintro ⟨nb, hb, hp⟩
    obtain ⟨w, hw, hok, hv⟩ := F.window hb
    rw [win_root_only hok b nb hv hp]
    exact List.mem_map_of_mem _ hw

theorem Forest.trees {s : LineageTree} {m : Mem} {lo : Nat} {W : List Win}
    (F : Forest s m lo W) :
    ∃ Ts, toTreeList (toTree m.next m) (W.map Win.r) = .ok Ts ∧
      ReprList (forestCells m lo) (W.map Win.r) Ts := by
  refine toTreeList_repr (forestCells m lo) (toTree m.next m) (W.map Win.r) ?_
    (W.map Win.r) (fun a h => h)
  intro a ha
  obtain ⟨w, hw, rfl⟩ := List.mem_map.mp ha
  obtain ⟨T, n, t, c, hp, rep⟩ := win_tree (F.win w hw).1 m.next
    (by have := (F.win w hw).2.2; omega)
  exact ⟨T, t, Repr.mono_cells (fun b nb hb => F.of_window hw hb) T _ rep⟩

theorem forest_of_loop (ord : List Nat → List Nat) (hord : ∀ l, (ord l).Perm l)
    {s : LineageTree} (hs : Struct none s) (hrn : s.roots.Nodup)
    (hnn : ∀ a n, s.mem.cells a = some n → n.needed = false) :
    ∃ (m : Mem) (W : List Win), subSampleTree ord s = .ok ({ s with mem := m }, W.map Win.r) ∧
      Forest s m s.mem.next W := by
  have hroots : ∀ x ∈ s.roots, ∃ nx, s.mem.cells x = some nx ∧ nx.parent = none := by
    intro x hx
    obtain ⟨_, nx, h1, h2⟩ := (hs.rootSet x).mp hx
    exact ⟨nx, h1, h2⟩
  obtain ⟨m, W, a1, a2, _, _, _, a6, a7, a8, a9⟩ :=
    subSampleLoop_wins ord hord s.roots s.mem [] (SrcInv.refl_inv hs)
      (fun b nb _ hb hn => by
        rw [hnn b nb hb] at hn
        cases hn) hroots
  refine ⟨m, W, by simp only [subSampleTree, a1, List.nil_append], hs, a2.bound, a8, a9, ?_,
    ?_, a6.nodup hrn⟩
  · intro x hx hsx
    exact (a7 x hx).mpr hsx
  · intro w hw
    exact a6.subset (List.mem_map_of_mem _ hw)

theorem forest_match {se sl : LineageTree} (h : Lazy se sl) {me ml : Mem} {We Wl : List Win}
    (Fe : Forest se me se.mem.next We) (Fl : Forest sl ml sl.mem.next Wl) :
    Match (forestCells me se.mem.next) (forestCells ml sl.mem.next) ∧
      Match (forestCells ml sl.mem.next) (forestCells me se.mem.next) := by
  have re := h.realises_conv Fe.realises
  have rl := Fl.realises
  have hinj := h.struct.tree_store.lngInj
  exact ⟨Realises.match_of hinj re rl, Realises.match_of hinj rl re⟩

theorem Forest.root_match {s1 s2 : LineageTree} {m1 m2 : Mem} {lo1 lo2 : Nat}
    {W1 W2 : List Win} (F1 : Forest s1 m1 lo1 W1) (F2 : Forest s2 m2 lo2 W2)
    (h : Match (forestCells m1 lo1) (forestCells m2 lo2)) :
    ∀ x ∈ W1.map Win.r, ∃ x' ∈ W2.map Win.r,
      lngAt (forestCells m2 lo2) x' = lngAt (forestCells m1 lo1) x := by
  intro x hx
  obtain ⟨nb, hb, hp⟩ := (F1.root_iff x).mp hx
  obtain ⟨b', nb', f1, f2, f3, _⟩ := h x nb hb
  refine ⟨b', (F2.root_iff b').mpr ⟨nb', f1, f3 hp⟩, ?_⟩
  rw [lngAt_some hb, lngAt_some f1]
  exact stripNode_lng f2

/-- Claim C32 (eager pruning refines offline pruning): for every valid operation sequence,
in which every lineage id is added once, `subSampleTree` on the eagerly pruned tree and
`subSampleTree` on the tree built by the same sequence with a removal that only clears the
extant flag and erases the lineage from the extant map both succeed, and they return the
same forest: the canonical forms of the returned trees (all fields of every node but the
pointers, children sorted by lineage) are the same up to the order of the trees, which is
the iteration order of the unordered set of roots. -/
theorem eager_refines_lazy (ord1 ord2 : List Nat → List Nat)
    (hord1 : ∀ l, (ord1 l).Perm l) (hord2 : ∀ l, (ord2 l).Perm l) (ops : List Op)
    (hv : validOps LineageTree.empty ops = true)
    (hfresh : (ops.filterMap Op.addedLng).Nodup) :
    ∃ Te Tl, reducedForest runOps ord1 ops = .ok Te ∧
      reducedForest runOpsLazy ord2 ops = .ok Tl ∧
      (Te.map LTree.canonLng).Perm (Tl.map LTree.canonLng) := by
  obtain ⟨se, sl, hre, hrl, hL⟩ := lazy_run ops LineageTree.empty LineageTree.empty []
    Lazy.empty_lazy (by intro a nl h; simp [LineageTree.empty] at h) hv (by simpa using hfresh)
  have hrn : se.roots.Nodup :=
    run_roots Inv.empty_inv (by simp [LineageTree.empty]) ops hv hre
  obtain ⟨me, We, he, Fe⟩ := forest_of_loop ord1 hord1 hL.inv.struct hrn hL.inv.noNeeded
  obtain ⟨ml, Wl, hl, Fl⟩ := forest_of_loop ord2 hord2 hL.struct hL.rootsNodup hL.noNeeded
  obtain ⟨Te, te, repe⟩ := Fe.trees
  obtain ⟨Tl, tl, repl⟩ := Fl.trees
  obtain ⟨m12, m21⟩ := forest_match hL Fe Fl
  refine ⟨Te, Tl, ?_, ?_, ?_⟩
  · simp only [reducedForest, hre, he]
    exact te
  · simp only [reducedForest, hrl, hl]
    exact tl
  · refine (canonLng_kids Fe.store Fl.store repe repl Fe.roots_nodup Fl.roots_nodup ?_ ?_
      (Fe.root_match Fl m12) (Fl.root_match Fe m21) ?_).1
    · intro x hx
      obtain ⟨n, h1, _⟩ := (Fe.root_iff x).mp hx
      exact ⟨n, h1⟩
    · intro x hx
      obtain ⟨n, h1, _⟩ := (Fl.root_iff x).mp hx
      exact ⟨n, h1⟩
    · intro K1 _ x x' K2 r1 r2 hlng
      exact canonLng_of_match Fe.store Fl.store m12 m21 K1 x x' K2 r1 r2 hlng

theorem eager_refines_lazy_witness :
    validOps LineageTree.empty exampleOps = true ∧
      (exampleOps.filterMap Op.addedLng).Nodup ∧
      ∃ Te Tl, reducedForest runOps id exampleOps = .ok Te ∧
        reducedForest runOpsLazy id exampleOps = .ok Tl ∧
        (Te.map LTree.canonLng).Perm (Tl.map LTree.canonLng) :=
  ⟨by decide, by decide,
    eager_refines_lazy id id (fun _ => List.Perm.refl _) (fun _ => List.Perm.refl _)
      exampleOps (by decide) (by decide)⟩

theorem tiny_rates (mc ms : Int) (rho : Frac) :
    (initialSimulator mc ms ⟨4, 1⟩ tinyDI rho).mu = Dbl.fin ((Frac.ofInt 1).div tinyDI) ∧
    (initialSimulator mc ms ⟨4, 1⟩ tinyDI rho).beta =
      Dbl.fin (Frac.mul ⟨4, 1⟩ ((Frac.ofInt 1).div tinyDI)) ∧
    (initialSimulator mc ms ⟨4, 1⟩ tinyDI rho).beta.add
      (initialSimulator mc ms ⟨4, 1⟩ tinyDI rho).mu = Dbl.inf false := by
  have e1 : (initialSimulator mc ms ⟨4, 1⟩ tinyDI rho).beta =
      (Dbl.round ⟨4, 1⟩).mul ((Dbl.ofInt 1).div (Dbl.round tinyDI)) := rfl
  have e2 : (initialSimulator mc ms ⟨4, 1⟩ tinyDI rho).mu =
      (Dbl.ofInt 1).div (Dbl.round tinyDI) := rfl
  rw [e1, e2]
  exact ⟨by decide, by decide, by decide⟩

theorem tiny_beta_one :
    (Dbl.fin (Frac.mul ⟨4, 1⟩ ((Frac.ofInt 1).div tinyDI))).mul (Dbl.ofInt 1) =
      Dbl.fin ((Frac.mul ⟨4, 1⟩ ((Frac.ofInt 1).div tinyDI)).mul (Frac.ofInt 1)) := by
  decide

/-- With `beta + mu` infinite and `I = 1`, the total rate is infinite and the product
`getUni() * tot_rate` is an infinity or a NaN: the event is a removal when `beta` is
finite. -/
theorem drawEvent_infinite {g : RandomStream} (hg : g.unitRange) {s : Simulator}
    {b : Frac} (hsum : s.beta.add s.mu = Dbl.inf false) (hI : s.I = 1)
    (hb : s.beta.mul (Dbl.ofInt 1) = Dbl.fin b) (pos : Nat) :
    drawEvent g s pos = some ({ s with t := s.t + 0 }, pos + 2, false) := by
  have ht : totRate s = Dbl.inf false := by
    unfold totRate
    rw [hsum, hI]
    rfl
  unfold drawEvent
  rw [ht, hI, hb]
  have hle : ((Dbl.fin (g.uni (pos + 1))).mul (Dbl.inf false)).le (Dbl.fin b) = false := by
    simp only [Dbl.mul]
    split_ifs with h0
    · rfl
    · have hn : ¬ (g.uni (pos + 1)).num < 0 := by
        have := (hg (pos + 1)).1
        omega
      simp [hn, Dbl.le]
  rw [hle]
  rfl

/-- With `beta + mu` infinite and `I = 0`, the total rate is a NaN: the loop of `simulate`
does not halt, the event is a removal, and `apply_removal` reads the empty vector
`I_lngs`. -/
theorem drawEvent_nan {g : RandomStream} {s : Simulator} {r : Bool}
    (hsum : s.beta.add s.mu = Dbl.inf r) (hI : s.I = 0) (pos : Nat) :
    totRate s = Dbl.nan ∧
    drawEvent g s pos = some ({ s with t := s.t + 0 }, pos + 2, false) := by
  have ht : totRate s = Dbl.nan := by
    unfold totRate
    rw [hsum, hI]
    rfl
  refine ⟨ht, ?_⟩
  unfold drawEvent
  rw [ht]
  have hle : ((Dbl.fin (g.uni (pos + 1))).mul Dbl.nan).le (s.beta.mul (Dbl.ofInt s.I)) =
      false := by
    cases s.beta.mul (Dbl.ofInt s.I) <;> rfl
  rw [hle]
  rfl

theorem removal_empty (g : RandomStream) {s : Simulator} (hl : s.I_lngs = []) (pos : Nat)
    (prob : Frac) : apply_removal g s pos prob = .error .outOfBounds := by
  simp only [apply_removal, hl, vecAt_nil]

theorem simulate_nan {g : RandomStream} {s : Simulator} {r : Bool}
    (hsum : s.beta.add s.mu = Dbl.inf r) (hI : s.I = 0) (hl : s.I_lngs = []) (pos : Nat)
    (fuel : Nat) : simulate g (fuel + 1) s pos = .error .outOfBounds := by
  have hd := (drawEvent_nan (g := g) hsum hI pos).2
  have he : applyEvent g { s with t := s.t + 0 } (pos + 2) false = .error .outOfBounds := by
    simp only [applyEvent, Bool.false_eq_true, if_false]
    exact @removal_empty g { s with t := s.t + 0 } hl (pos + 2) s.rho
  simp only [simulate, hd, he]

theorem keys_nil {E : List (Nat × Nat)} (h : ∀ lng, ¬ ∃ a, mapFind E lng = some a) : E = [] := by
  cases E with
  | nil => rfl
  | cons kv rest =>
    exfalso
    exact h kv.1 ⟨kv.2, by simp [mapFind]⟩

/-- The first event at `R0 = 4`, `dI = 2.3e-308`: the total rate is infinite, the event is
a removal for every stream, and it leaves `I = 0` with `beta + mu` infinite. -/
theorem tiny_first {g : RandomStream} (hg : g.unitRange) (mc ms : Int) (rho : Frac) :
    ∃ s1 s2 p3,
      drawEvent g (initialSimulator mc ms ⟨4, 1⟩ tinyDI rho) 0 = some (s1, 2, false) ∧
      applyEvent g s1 2 false = .ok (s2, p3) ∧ SimInv s2 ∧ s2.I = 0 ∧ s2.I_lngs = [] ∧
      s2.tree_mngr.extantLngs = [] ∧ s2.next_lng = 2 ∧ s2.max_cases = mc ∧
      s2.max_samples = ms ∧ s2.rho = rho ∧ s2.n_sampled ≤ 1 ∧
      ((getBool g 2 rho).1 = true → s2.n_sampled = 1) ∧
      ((getBool g 2 rho).1 = false → s2.n_sampled = 0) ∧
      s2.beta.add s2.mu = Dbl.inf false := by
  obtain ⟨hmu, hbeta, hsum⟩ := tiny_rates mc ms rho
  have hinv := initial_inv mc ms ⟨4, 1⟩ tinyDI rho
  have hb : (initialSimulator mc ms ⟨4, 1⟩ tinyDI rho).beta.mul (Dbl.ofInt 1) =
      Dbl.fin ((Frac.mul ⟨4, 1⟩ ((Frac.ofInt 1).div tinyDI)).mul (Frac.ofInt 1)) := by
    rw [hbeta]
    exact tiny_beta_one
  have hd := drawEvent_infinite hg hsum rfl hb 0
  have h1 := hinv.with_t ((initialSimulator mc ms ⟨4, 1⟩ tinyDI rho).t + 0)
  obtain ⟨s2, p3, lng, hrun, hinv2, hp, a1, a2, a3, a4, a5⟩ :=
    removal_spec hg h1 (show (1 : Int) ≤ 1 by decide) 2 rho
  have hI2 : s2.I = 0 := a2
  have hl : s2.I_lngs = [] := by
    have hc := hinv2.card
    rw [hI2] at hc
    have : s2.I_lngs.length = 0 := by exact_mod_cast hc.symm
    exact List.length_eq_zero.mp this
  have hE : s2.tree_mngr.extantLngs = [] := by
    apply keys_nil
    intro lng hx
    have := (hinv2.keys lng).2 hx
    rw [hl] at this
    cases this
  obtain ⟨q1, q2, q3, q4, q5, q6, q7⟩ := hp
  have hpos : (getUniInt g 2 ((1 : Int) - 1)).2 = 2 := rfl
  have hn : s2.n_sampled = 0 + (if (getBool g 2 rho).1 = true then 1 else 0) := a4
  refine ⟨_, s2, p3, hd, ?_, hinv2, hI2, hl, hE, a1, q6, q7, q3, ?_, ?_, ?_, ?_⟩
  · simp only [applyEvent, Bool.false_eq_true, if_false]
    exact hrun
  · rw [hn]
    split_ifs <;> omega
  · intro hg1
    rw [hn, if_pos hg1]
  · intro hg0
    rw [hn, hg0]
    rfl
  · rw [q5, q4]
    exact hsum

/-- C35 (termination of the Gillespie loop), failing input `R0 = 4`, `dI = 2.3e-308` with
`max_cases ≥ 2` and `max_samples ≥ 2`.  The rates `mu = 1 / dI` and `beta = R0 * mu` are
finite and `beta + mu` overflows to an infinity.  For every random stream with uniform
variates in `[0, 1)` and every `rho`, the first event is the removal of lineage `1`; at
`I = 0` the total rate `( beta + mu ) * I` is a NaN, the test `tot_rate == 0` fails, the
loop goes on with a removal and `apply_removal` reads `I_lngs[0]` of the empty vector:
`simulate()` returns for no number of iterations, and from two iterations on it ends in
the read out of bounds. -/
theorem gillespie_overflow (g : RandomStream) (hg : g.unitRange)
    (max_cases max_samples : Int) (rho : Frac) (hmc : 2 ≤ max_cases)
    (hms : 2 ≤ max_samples) :
    (initialSimulator max_cases max_samples ⟨4, 1⟩ tinyDI rho).mu =
      Dbl.fin ((Frac.ofInt 1).div tinyDI) ∧
    (initialSimulator max_cases max_samples ⟨4, 1⟩ tinyDI rho).beta =
      Dbl.fin (Frac.mul ⟨4, 1⟩ ((Frac.ofInt 1).div tinyDI)) ∧
    (initialSimulator max_cases max_samples ⟨4, 1⟩ tinyDI rho).beta.add
      (initialSimulator max_cases max_samples ⟨4, 1⟩ tinyDI rho).mu = Dbl.inf false ∧
    (∀ fuel res,
      simulate g fuel (initialSimulator max_cases max_samples ⟨4, 1⟩ tinyDI rho) 0 ≠
        .ok res) ∧
    ∀ fuel, 2 ≤ fuel →
      simulate g fuel (initialSimulator max_cases max_samples ⟨4, 1⟩ tinyDI rho) 0 =
        .error .outOfBounds := by
  obtain ⟨hmu, hbeta, hsum⟩ := tiny_rates max_cases max_samples rho
  obtain ⟨s1, s2, p3, hd, he, _, hI, hl, _, hnl, hmc2, hms2, _, hn, _, _, hsum2⟩ :=
    tiny_first hg max_cases max_samples rho
  have h1 : ¬ ((s2.next_lng : Int) > s2.max_cases) := by
    rw [hnl, hmc2]
    push_cast
    omega
  have h2 : ¬ ((s2.n_sampled : Int) ≥ s2.max_samples) := by
    rw [hms2]
    have : (s2.n_sampled : Int) ≤ 1 := by exact_mod_cast hn
    omega
  have hstep : ∀ fuel,
      simulate g (fuel + 1) (initialSimulator max_cases max_samples ⟨4, 1⟩ tinyDI rho) 0 =
        simulate g fuel s2 p3 := by
    intro fuel
    simp only [simulate, hd, he, if_neg h1, if_neg h2]
  have hbig : ∀ fuel, 2 ≤ fuel →
      simulate g fuel (initialSimulator max_cases max_samples ⟨4, 1⟩ tinyDI rho) 0 =
        .error .outOfBounds := by
    intro fuel hf
    obtain ⟨f, rfl⟩ : ∃ f, fuel = f + 1 + 1 := ⟨fuel - 2, by omega⟩
    rw [hstep]
    exact simulate_nan hsum2 hI hl p3 f
  refine ⟨hmu, hbeta, hsum, fun fuel res h => ?_, hbig⟩
  by_cases hf : 2 ≤ fuel
  · rw [hbig fuel hf] at h
    cases h
  · have hf2 : fuel = 0 ∨ fuel = 1 := by omega
    rcases hf2 with rfl | rfl
    · simp [simulate] at h
    · rw [hstep 0] at h
      simp [simulate] at h

theorem gillespie_overflow_witness :
    (constStream ⟨1, 2⟩).unitRange ∧ (2 : Int) ≤ 1000 ∧ (2 : Int) ≤ 10 ∧
    simulate (constStream ⟨1, 2⟩) 2000 (initialSimulator 1000 10 ⟨4, 1⟩ tinyDI ⟨1, 2⟩) 0 =
      .error .outOfBounds :=
  ⟨constStream_unit (by decide) (by decide), by decide, by decide,
    (gillespie_overflow (constStream ⟨1, 2⟩) (constStream_unit (by decide) (by decide)) 1000 10
      ⟨1, 2⟩ (by decide) (by decide)).2.2.2.2 2000 (by decide)⟩

/-- C19 (`rho = 0`), failing input `R0 = 4`, `dI = 2.3e-308` with `max_cases ≥ 2` and
`max_samples ≥ 1`.  For every random stream with uniform variates in `[0, 1)` the first
event removes lineage `1` unsampled, so `n_sampled` is `0` and `I` is `0`; the total rate
is then a NaN, the loop does not report failure but goes on with a removal at `I = 0`, and
`simulate_BD` ends in the read of `I_lngs[0]` of the empty vector instead of returning the
empty string. -/
theorem rho_zero_overflow (gen : Int → RandomStream) (ord : List Nat → List Nat)
    (dtStr : Int → String) (seed max_cases max_samples : Int) (rho : Frac)
    (hg : (gen seed).unitRange) (hrho : rho.isZero = true) (hmc : 2 ≤ max_cases)
    (hms : 1 ≤ max_samples) :
    (∃ s p, AtHead (gen seed) (initialSimulator max_cases max_samples ⟨4, 1⟩ tinyDI rho) 0 1
      s p ∧ s.n_sampled = 0 ∧ s.I = 0 ∧ totRate s = Dbl.nan ∧
      ∃ s1 p2, drawEvent (gen seed) s p = some (s1, p2, false)) ∧
    ∀ fuel, 2 ≤ fuel →
      simulate_BD gen ord dtStr fuel seed max_cases max_samples ⟨4, 1⟩ tinyDI rho =
        .error .outOfBounds := by
  obtain ⟨s1, s2, p3, hd, he, _, hI, hl, _, hnl, hmc2, hms2, _, _, _, hn0, hsum2⟩ :=
    tiny_first hg max_cases max_samples rho
  have hn : s2.n_sampled = 0 := hn0 (by rw [getBool_zero (gen seed) 2 hrho])
  have h1 : ¬ ((s2.next_lng : Int) > s2.max_cases) := by
    rw [hnl, hmc2]
    push_cast
    omega
  have h2 : ¬ ((s2.n_sampled : Int) ≥ s2.max_samples) := by
    rw [hms2, hn]
    push_cast
    omega
  have hA : AtHead (gen seed) (initialSimulator max_cases max_samples ⟨4, 1⟩ tinyDI rho) 0
      (if false = true then 0 else 0 + 1) s2 p3 := AtHead.next AtHead.start hd he h1 h2
  obtain ⟨hnan, hd2⟩ := drawEvent_nan (g := gen seed) hsum2 hI p3
  refine ⟨⟨s2, p3, hA, hn, hI, hnan, _, _, hd2⟩, fun fuel hf => ?_⟩
  obtain ⟨f, rfl⟩ : ∃ f, fuel = f + 1 + 1 := ⟨fuel - 2, by omega⟩
  have hstep :
      simulate (gen seed) (f + 1 + 1)
        (initialSimulator max_cases max_samples ⟨4, 1⟩ tinyDI rho) 0 =
        simulate (gen seed) (f + 1) s2 p3 := by
    simp only [simulate, hd, he, if_neg h1, if_neg h2]
  simp only [simulate_BD, hstep, simulate_nan hsum2 hI hl p3 f]

theorem rho_zero_overflow_witness :
    (constStream ⟨1, 2⟩).unitRange ∧ (⟨0, 1⟩ : Frac).isZero = true ∧ (2 : Int) ≤ 100 ∧
    (1 : Int) ≤ 3 ∧
    simulate_BD (fun _ => constStream ⟨1, 2⟩) id (fun d => toString d) 50 7 100 3 ⟨4, 1⟩
      tinyDI ⟨0, 1⟩ = .error .outOfBounds :=
  ⟨constStream_unit (by decide) (by decide), rfl, by decide, by decide,
    (rho_zero_overflow (fun _ => constStream ⟨1, 2⟩) id (fun d => toString d) 7 100 3 ⟨0, 1⟩
      (constStream_unit (by decide) (by decide)) rfl (by decide) (by decide)).2 50
      (by decide)⟩

/-- C20 (`rho = 1`), failing input `R0 = 4`, `dI = 2.3e-308` with `max_cases ≥ 2` and
`max_samples ≥ 2`.  For every random stream with uniform variates in `[0, 1)` the first
event removes and samples lineage `1`; at the head of the loop reached after this one
removal `n_sampled = 1` and `I = 0`, the total rate is a NaN, and the loop makes a second
removal event, in which no lineage is sampled or removed: `apply_removal` reads
`I_lngs[0]` of the empty vector. -/
theorem rho_one_overflow (g : RandomStream) (hg : g.unitRange)
    (max_cases max_samples : Int) (rho : Frac) (hr1 : rho.num = (rho.den : Int))
    (hr2 : 0 < rho.den) (hmc : 2 ≤ max_cases) (hms : 2 ≤ max_samples) :
    ∃ s p s1 p2,
      AtHead g (initialSimulator max_cases max_samples ⟨4, 1⟩ tinyDI rho) 0 1 s p ∧
      s.n_sampled = 1 ∧ s.tree_mngr.sampled_lineages.length = 1 ∧ s.I = 0 ∧
      s.I_lngs = [] ∧ totRate s = Dbl.nan ∧ drawEvent g s p = some (s1, p2, false) ∧
      vecAt s1.I_lngs (getUniInt g p2 (s1.I - 1)).1 = .error .outOfBounds ∧
      applyEvent g s1 p2 false = .error .outOfBounds := by
  obtain ⟨s1, s2, p3, hd, he, hinv2, hI, hl, _, hnl, hmc2, hms2, _, _, hn1, _, hsum2⟩ :=
    tiny_first hg max_cases max_samples rho
  have hn : s2.n_sampled = 1 := hn1 (getBool_one hg 2 hr1 hr2)
  have h1 : ¬ ((s2.next_lng : Int) > s2.max_cases) := by
    rw [hnl, hmc2]
    push_cast
    omega
  have h2 : ¬ ((s2.n_sampled : Int) ≥ s2.max_samples) := by
    rw [hms2, hn]
    push_cast
    omega
  have hA : AtHead g (initialSimulator max_cases max_samples ⟨4, 1⟩ tinyDI rho) 0
      (if false = true then 0 else 0 + 1) s2 p3 := AtHead.next AtHead.start hd he h1 h2
  obtain ⟨hnan, hd2⟩ := drawEvent_nan (g := g) hsum2 hI p3
  refine ⟨s2, p3, _, _, hA, hn, by rw [hinv2.nsamp, hn], hI, hl, hnan, hd2, ?_, ?_⟩
  · show vecAt s2.I_lngs _ = _
    rw [hl]
    exact vecAt_nil _
  · simp only [applyEvent, Bool.false_eq_true, if_false]
    exact @removal_empty g { s2 with t := s2.t + 0 } hl (p3 + 2) s2.rho

theorem rho_one_overflow_witness :
    (constStream ⟨3, 4⟩).unitRange ∧ (1 : Int) = ((1 : Nat) : Int) ∧ 0 < 1 ∧
    (2 : Int) ≤ 100 ∧ (2 : Int) ≤ 2 ∧
    ∃ s p s1 p2,
      AtHead (constStream ⟨3, 4⟩) (initialSimulator 100 2 ⟨4, 1⟩ tinyDI ⟨1, 1⟩) 0 1 s p ∧
      s.n_sampled = 1 ∧ s.I = 0 ∧
      drawEvent (constStream ⟨3, 4⟩) s p = some (s1, p2, false) ∧
      applyEvent (constStream ⟨3, 4⟩) s1 p2 false = .error .outOfBounds := by
  obtain ⟨s, p, s1, p2, a1, a2, _, a4, _, _, a7, _, a9⟩ :=
    rho_one_overflow (constStream ⟨3, 4⟩) (constStream_unit (by decide) (by decide)) 100 2
      ⟨1, 1⟩ rfl (by decide) (by decide) (by decide)
  exact ⟨constStream_unit (by decide) (by decide), rfl, by decide, by decide, by decide,
    s, p, s1, p2, a1, a2, a4, a7, a9⟩

/-- C34 (simulator/tree consistency), failing input `R0 = 4`, `dI = 2.3e-308` with
`max_cases ≥ 2` and `max_samples ≥ 2`.  At every head of the loop of `simulate`, `I` is
the length of `I_lngs`, whose entries are pairwise distinct and are exactly the keys of
`extantLngs`.  Yet for every random stream with uniform variates in `[0, 1)` and every
`rho`, the head reached after the first event has `I = 0`, an empty `I_lngs` and no extant
lineage, and the loop, whose total rate is a NaN there, makes one more removal step:
`apply_removal` reads `I_lngs[0]` of the empty vector, so the lineage that it goes on to
sample and remove is not one of the extant lineages. -/
theorem consistency_overflow (g : RandomStream) (hg : g.unitRange)
    (max_cases max_samples : Int) (rho : Frac) (hmc : 2 ≤ max_cases)
    (hms : 2 ≤ max_samples) :
    (∀ k s p, AtHead g (initialSimulator max_cases max_samples ⟨4, 1⟩ tinyDI rho) 0 k s p →
      s.I = (s.I_lngs.length : Int) ∧ s.I_lngs.Nodup ∧
      ∀ lng, lng ∈ s.I_lngs ↔ ∃ a, mapFind s.tree_mngr.extantLngs lng = some a) ∧
    ∃ s p s1 p2,
      AtHead g (initialSimulator max_cases max_samples ⟨4, 1⟩ tinyDI rho) 0 1 s p ∧
      s.I = 0 ∧ s.I_lngs = [] ∧ s.tree_mngr.extantLngs = [] ∧
      drawEvent g s p = some (s1, p2, false) ∧ s1.I_lngs = [] ∧
      vecAt s1.I_lngs (getUniInt g p2 (s1.I - 1)).1 = .error .outOfBounds ∧
      apply_removal g s1 p2 s1.rho = .error .outOfBounds := by
  have h0 := initial_inv max_cases max_samples ⟨4, 1⟩ tinyDI rho
  refine ⟨fun k s p h => ?_, ?_⟩
  · obtain ⟨hinv, _⟩ := atHead_inv hg h0 h
    exact ⟨hinv.card, hinv.nodup, hinv.keys⟩
  · obtain ⟨s1, s2, p3, hd, he, hinv2, hI, hl, hE, hnl, hmc2, hms2, _, hn, _, _, hsum2⟩ :=
      tiny_first hg max_cases max_samples rho
    have h1 : ¬ ((s2.next_lng : Int) > s2.max_cases) := by
      rw [hnl, hmc2]
      push_cast
      omega
    have h2 : ¬ ((s2.n_sampled : Int) ≥ s2.max_samples) := by
      rw [hms2]
      have : (s2.n_sampled : Int) ≤ 1 := by exact_mod_cast hn
      omega
    have hA : AtHead g (initialSimulator max_cases max_samples ⟨4, 1⟩ tinyDI rho) 0
        (if false = true then 0 else 0 + 1) s2 p3 := AtHead.next AtHead.start hd he h1 h2
    obtain ⟨_, hd2⟩ := drawEvent_nan (g := g) hsum2 hI p3
    refine ⟨s2, p3, _, _, hA, hI, hl, hE, hd2, hl, ?_, ?_⟩
    · show vecAt s2.I_lngs _ = _
      rw [hl]
      exact vecAt_nil _
    · exact @removal_empty g { s2 with t := s2.t + 0 } hl (p3 + 2) s2.rho

theorem consistency_overflow_witness :
    tieStream.unitRange ∧ (2 : Int) ≤ 1000 ∧ (2 : Int) ≤ 2 ∧
    ∃ s p s1 p2,
      AtHead tieStream (initialSimulator 1000 2 ⟨4, 1⟩ tinyDI ⟨1, 2⟩) 0 1 s p ∧
      s.I = 0 ∧ s.tree_mngr.extantLngs = [] ∧
      drawEvent tieStream s p = some (s1, p2, false) ∧
      apply_removal tieStream s1 p2 s1.rho = .error .outOfBounds := by
  obtain ⟨s, p, s1, p2, a1, a2, _, a4, a5, _, _, a8⟩ :=
    (consistency_overflow tieStream tieStream_unit 1000 2 ⟨1, 2⟩ (by decide) (by decide)).2
  exact ⟨tieStream_unit, by decide, by decide, s, p, s1, p2, a1, a2, a4, a5, a8⟩

end PhyloTrack
